import Mathlib

/-!
EVA: a shallow embedding of the program IR, of the traversal and of the CKKS
passes.

The development follows the C++ sources under `eva/ir`, `eva/common` and
`eva/ckks`.  Terms are identified with their `index`; a `Program` stores one
record per index.  Shared pointers are indices, so a term is never destroyed
here: every handle is kept alive for the whole run.

Unsigned 32-bit quantities are natural numbers on which every arithmetic
operation of the source is followed by an explicit reduction modulo `2 ^ 32`.
An `assert` of the source is a flag `ok` of the state of the pass, which turns
`false` where the condition fails; the run goes on.  Loops whose length is not
a structural bound take a `fuel` argument, and the theorems give the fuel
that suffices.
-/

namespace EVA

/-! ## `eva/ir/ops.h`, `eva/ir/types.h` -/

/-- The operations of `EVA_OPS`. -/
inductive Op where
  | Undef | Input | Output | Constant | Negate | Add | Sub | Mul
  | RotateLeftConst | RotateRightConst | Relinearize | ModSwitch | Rescale | Encode
  deriving DecidableEq, Repr

/-- The enumeration `Type` of `eva/ir/types.h` (`Undef = 0` is the value a
fresh `TermMap<Type>` entry holds). -/
inductive TermType where
  | Undef | Cipher | Raw | Plain
  deriving DecidableEq, Repr

/-! ## 32-bit unsigned arithmetic -/

/-- The modulus of `std::uint32_t`. -/
def u32 : Nat := 2 ^ 32

/-- Addition of two `std::uint32_t` values. -/
def add32 (a b : Nat) : Nat := (a + b) % u32

/-- Subtraction of two `std::uint32_t` values (wraps around below zero). -/
def sub32 (a b : Nat) : Nat := (a + u32 - b % u32) % u32

/-- Multiplication of two `std::uint32_t` values. -/
def mul32 (a b : Nat) : Nat := (a * b) % u32

/-! ## `eva/ir/constant_value.h`, `eva/ir/attribute_list.{h,cpp}` -/

/-- The two shapes of constant: the payload of a `ConstantValueAttribute`. -/
inductive ConstantValue where
  | dense (size : Nat) (values : List ℚ)
  | sparse (size : Nat) (values : List (Nat × ℚ))
  deriving DecidableEq

/-- The variant `AttributeValue`. -/
inductive AttributeValue where
  | monostate
  | uint32 (v : Nat)
  | int32 (v : Int)
  | type (t : TermType)
  | constant (c : ConstantValue)
  deriving DecidableEq

/-- An `AttributeList`: the chain of `(key, value)` cells.  The empty list is
the head cell with `key == 0`. -/
abbrev AttributeList := List (Nat × AttributeValue)

/-- Keys of `EVA_ATTRIBUTES`, numbered from 1 as `detail::AttributeIndex` does. -/
def RescaleDivisorAttribute : Nat := 1
/-- Key of the rotation step. -/
def RotationAttribute : Nat := 2
/-- Key of the constant payload. -/
def ConstantValueAttribute : Nat := 3
/-- Key of the declared type. -/
def TypeAttribute : Nat := 4
/-- Key of the output range in bits. -/
def RangeAttribute : Nat := 5
/-- Key of the scale at encoding time. -/
def EncodeAtScaleAttribute : Nat := 6
/-- Key of the level at encoding time. -/
def EncodeAtLevelAttribute : Nat := 7

/-- `AttributeList::has(AttributeKey)`. -/
def AttributeList.has : AttributeList → Nat → Bool
  | [], _ => false
  | (key, _) :: tail, k => if key < k then AttributeList.has tail k else key == k

/-- `AttributeList::get(AttributeKey)`; `none` is the `out_of_range` exception. -/
def AttributeList.get : AttributeList → Nat → Option AttributeValue
  | [], _ => none
  | (key, value) :: tail, k =>
    if key = k then some value
    else if key < k then AttributeList.get tail k
    else none

/-- `AttributeList::set(AttributeKey, AttributeValue)`. -/
def AttributeList.set : AttributeList → Nat → AttributeValue → AttributeList
  | [], k, v => [(k, v)]
  | (key, value) :: tail, k, v =>
    if key < k then (key, value) :: AttributeList.set tail k v
    else if k < key then (k, v) :: (key, value) :: tail
    else (key, v) :: tail

/-- `get<TAttr>()` for an attribute holding a `std::uint32_t`; `none` when the
key is absent or holds another alternative. -/
def AttributeList.getUInt32 (l : AttributeList) (k : Nat) : Option Nat :=
  match AttributeList.get l k with
  | some (AttributeValue.uint32 v) => some v
  | _ => none

/-- `get<TypeAttribute>()`. -/
def AttributeList.getType (l : AttributeList) : Option TermType :=
  match AttributeList.get l TypeAttribute with
  | some (AttributeValue.type t) => some t
  | _ => none

/-! ## `eva/ir/term.h`, `eva/ir/program.h` -/

/-- A `Term`: operation, operand edges, use edges and attributes.  The `index`
of the term is the position of the record in the program. -/
structure Term where
  op : Op
  operands : List Nat
  uses : List Nat
  attributes : AttributeList

/-- A `Program`.  `sources` and `sinks` are the two `unordered_set<Term *>`;
they are lists that are only inserted into when the element is absent, and
their order stands for the unspecified iteration order of the set. -/
structure Program where
  name : String
  vecSize : Nat
  nextTermIndex : Nat
  terms : Nat → Term
  sources : List Nat
  sinks : List Nat
  inputs : List (String × Nat)
  outputs : List (String × Nat)

/-- `unordered_set::insert`. -/
def setInsert (s : List Nat) (t : Nat) : List Nat :=
  if t ∈ s then s else s ++ [t]

/-- `unordered_set::erase`. -/
def setErase (s : List Nat) (t : Nat) : List Nat :=
  s.filter (fun x => x ≠ t)

/-- The record a term has before anything is stored in it. -/
def Term.blank (op : Op) : Term :=
  { op := op, operands := [], uses := [], attributes := [] }

/-- The state `Program(name, vecSize)` leaves behind (the checks of the
constructor on `vecSize` are not part of this definition). -/
def Program.empty (name : String) (vecSize : Nat) : Program :=
  { name := name, vecSize := vecSize, nextTermIndex := 0,
    terms := fun _ => Term.blank Op.Undef,
    sources := [], sinks := [], inputs := [], outputs := [] }

/-- `term->getOperands()`. -/
def Program.operands (p : Program) (t : Nat) : List Nat := (p.terms t).operands

/-- `term->getUses()`. -/
def Program.uses (p : Program) (t : Nat) : List Nat := (p.terms t).uses

/-- `term->op`. -/
def Program.op (p : Program) (t : Nat) : Op := (p.terms t).op

/-- The attribute list of a term. -/
def Program.attributes (p : Program) (t : Nat) : AttributeList := (p.terms t).attributes

/-- `Program::getSources()`. -/
def Program.getSources (p : Program) : List Nat := p.sources

/-- `Program::getSinks()`. -/
def Program.getSinks (p : Program) : List Nat := p.sinks

/-- Overwrites the operand list of one term. -/
def Program.withOperands (p : Program) (t : Nat) (os : List Nat) : Program :=
  { p with terms := Function.update p.terms t { p.terms t with operands := os } }

/-- Overwrites the use list of one term. -/
def Program.withUses (p : Program) (t : Nat) (us : List Nat) : Program :=
  { p with terms := Function.update p.terms t { p.terms t with uses := us } }

/-- Overwrites the `sources` set. -/
def Program.withSources (p : Program) (s : List Nat) : Program :=
  { p with sources := s }

/-- Overwrites the `sinks` set. -/
def Program.withSinks (p : Program) (s : List Nat) : Program :=
  { p with sinks := s }

/-- Overwrites the attribute list of one term. -/
def Program.withAttributes (p : Program) (t : Nat) (a : AttributeList) : Program :=
  { p with terms := Function.update p.terms t { p.terms t with attributes := a } }

/-- `term->set<TAttr>(value)`. -/
def Term.setAttribute (p : Program) (this : Nat) (k : Nat) (v : AttributeValue) : Program :=
  p.withAttributes this (AttributeList.set (p.attributes this) k v)

/-- `Term::Term(op, program)`: allocates the next index and enters the new
term into `sources` and `sinks`. -/
def Term.create (p : Program) (op : Op) : Nat × Program :=
  let index := p.nextTermIndex
  (index,
   { p with
     nextTermIndex := index + 1,
     terms := Function.update p.terms index (Term.blank op),
     sources := setInsert p.sources index,
     sinks := setInsert p.sinks index })

/-- `Term::addUse`. -/
def Term.addUse (p : Program) (this term : Nat) : Program :=
  let p1 : Program :=
    if p.uses this = [] then p.withSinks (setErase p.sinks this) else p
  p1.withUses this (p1.uses this ++ [term])

/-- `Term::eraseUse`: removes the first occurrence found by `std::find`. -/
def Term.eraseUse (p : Program) (this term : Nat) : Program :=
  let p1 := p.withUses this ((p.uses this).erase term)
  if p1.uses this = [] then p1.withSinks (setInsert p1.sinks this) else p1

/-- `Term::addOperand`. -/
def Term.addOperand (p : Program) (this term : Nat) : Program :=
  let p1 : Program :=
    if p.operands this = [] then p.withSources (setErase p.sources this) else p
  let p2 := p1.withOperands this (p1.operands this ++ [term])
  Term.addUse p2 term this

/-- `Term::eraseOperand`. -/
def Term.eraseOperand (p : Program) (this term : Nat) : Bool × Program :=
  if term ∈ p.operands this then
    let p1 := Term.eraseUse p term this
    let p2 := p1.withOperands this ((p1.operands this).erase term)
    let p3 : Program :=
      if p2.operands this = [] then p2.withSources (setInsert p2.sources this) else p2
    (true, p3)
  else (false, p)

/-- One iteration of the loop of `Term::replaceOperand`, at operand slot `i`. -/
def Term.replaceOperandAt (oldTerm newTerm this : Nat) (p : Program) (i : Nat) : Program :=
  if (p.operands this)[i]? = some oldTerm then
    let p1 := p.withOperands this ((p.operands this).set i newTerm)
    let p2 := Term.eraseUse p1 oldTerm this
    Term.addUse p2 newTerm this
  else p

/-- `Term::replaceOperand`: the loop over the operand slots; the result is
`true` when a slot held `oldTerm`. -/
def Term.replaceOperand (p : Program) (this oldTerm newTerm : Nat) : Bool × Program :=
  (decide (oldTerm ∈ p.operands this),
   (List.range (p.operands this).length).foldl (Term.replaceOperandAt oldTerm newTerm this) p)

/-- `Term::replaceUsesWithIf`: the loop runs over the snapshot `getUses()`. -/
def Term.replaceUsesWithIf (p : Program) (this term : Nat) (predicate : Nat → Bool) : Program :=
  (p.uses this).foldl
    (fun q use => if predicate use then (Term.replaceOperand q use this term).2 else q) p

/-- `Term::replaceAllUsesWith`. -/
def Term.replaceAllUsesWith (p : Program) (this term : Nat) : Program :=
  Term.replaceUsesWithIf p this term (fun _ => true)

/-- `Term::replaceOtherUsesWith`. -/
def Term.replaceOtherUsesWith (p : Program) (this term : Nat) : Program :=
  Term.replaceUsesWithIf p this term (fun use => decide (use ≠ term))

/-- `Term::setOperands`. -/
def Term.setOperands (p : Program) (this : Nat) (o : List Nat) : Program :=
  let p1 : Program :=
    if p.operands this = [] then p.withSources (setErase p.sources this) else p
  let p2 := (p1.operands this).foldl (fun q operand => Term.eraseUse q operand this) p1
  let p3 := p2.withOperands this o
  let p4 := o.foldl (fun q operand => Term.addUse q operand this) p3
  if p4.operands this = [] then p4.withSources (setInsert p4.sources this) else p4

/-- `Program::makeTerm(op, operands)`. -/
def Program.makeTerm (p : Program) (op : Op) (operands : List Nat) : Nat × Program :=
  let r := Term.create p op
  if 0 < operands.length then (r.1, Term.setOperands r.2 r.1 operands) else r

/-- The mutators of the IR, as one command each; arguments are term
handles. -/
inductive Cmd where
  | makeTerm (op : Op) (operands : List Nat)
  | addOperand (this term : Nat)
  | eraseOperand (this term : Nat)
  | replaceOperand (this oldTerm newTerm : Nat)
  | setOperands (this : Nat) (o : List Nat)
  | replaceAllUsesWith (this term : Nat)
  | replaceOtherUsesWith (this term : Nat)

/-- A command is well-formed when every handle it passes denotes a term that
has been created. -/
def Cmd.valid (p : Program) : Cmd → Bool
  | Cmd.makeTerm _ os => os.all (fun o => decide (o < p.nextTermIndex))
  | Cmd.addOperand t o => decide (t < p.nextTermIndex) && decide (o < p.nextTermIndex)
  | Cmd.eraseOperand t o => decide (t < p.nextTermIndex) && decide (o < p.nextTermIndex)
  | Cmd.replaceOperand t o n =>
    decide (t < p.nextTermIndex) && decide (o < p.nextTermIndex) && decide (n < p.nextTermIndex)
  | Cmd.setOperands t os =>
    decide (t < p.nextTermIndex) && os.all (fun o => decide (o < p.nextTermIndex))
  | Cmd.replaceAllUsesWith t n => decide (t < p.nextTermIndex) && decide (n < p.nextTermIndex)
  | Cmd.replaceOtherUsesWith t n => decide (t < p.nextTermIndex) && decide (n < p.nextTermIndex)

/-- The effect of one command. -/
def Cmd.exec (p : Program) : Cmd → Program
  | Cmd.makeTerm op os => (Program.makeTerm p op os).2
  | Cmd.addOperand t o => Term.addOperand p t o
  | Cmd.eraseOperand t o => (Term.eraseOperand p t o).2
  | Cmd.replaceOperand t o n => (Term.replaceOperand p t o n).2
  | Cmd.setOperands t os => Term.setOperands p t os
  | Cmd.replaceAllUsesWith t n => Term.replaceAllUsesWith p t n
  | Cmd.replaceOtherUsesWith t n => Term.replaceOtherUsesWith p t n

/-- Runs a sequence of commands; `none` when a command passes a handle of a
term that does not exist. -/
def Cmd.run : Program → List Cmd → Option Program
  | p, [] => some p
  | p, c :: cs => if Cmd.valid p c then Cmd.run (Cmd.exec p c) cs else none

/-! ## The invariants of the IR -/

/-- Edge symmetry: `o` occurs in the operand list of `t` as often as `t`
occurs in the use list of `o`. -/
def Program.EdgeSym (p : Program) : Prop :=
  ∀ t o, (p.operands t).count o = (p.uses o).count t

/-- The `sources` set holds exactly the created terms without operands. -/
def Program.SourcesOK (p : Program) : Prop :=
  ∀ t, t ∈ p.sources ↔ t < p.nextTermIndex ∧ p.operands t = []

/-- The `sinks` set holds exactly the created terms without uses. -/
def Program.SinksOK (p : Program) : Prop :=
  ∀ t, t ∈ p.sinks ↔ t < p.nextTermIndex ∧ p.uses t = []

/-- Indices that have not been allocated carry no edges. -/
def Program.FreshOK (p : Program) : Prop :=
  ∀ t, p.nextTermIndex ≤ t → p.operands t = [] ∧ p.uses t = []

/-- The invariant set of the IR. -/
structure Program.Consistent (p : Program) : Prop where
  sym : p.EdgeSym
  src : p.SourcesOK
  snk : p.SinksOK
  fresh : p.FreshOK

/-- A command sequence exercising every mutator: two inputs, an `Add` over
them, a second `Add` built by `addOperand`, then erasures and replacements. -/
def demoCmds : List Cmd :=
  [Cmd.makeTerm Op.Input [], Cmd.makeTerm Op.Input [], Cmd.makeTerm Op.Add [0, 1, 0],
   Cmd.makeTerm Op.Add [], Cmd.addOperand 3 2, Cmd.addOperand 3 0,
   Cmd.replaceOperand 2 0 1, Cmd.eraseOperand 3 0, Cmd.setOperands 3 [2, 2, 1],
   Cmd.makeTerm Op.Negate [2], Cmd.replaceOtherUsesWith 2 4, Cmd.replaceAllUsesWith 1 0]

/-- The program `demoCmds` builds. -/
def demoProgram : Program :=
  demoCmds.foldl Cmd.exec (Program.empty "demo" 8)

/-! ## `eva/common/program_traversal.h` -/

/-- The predecessors of a term in the direction of the pass:
`isForward ? term->getOperands() : term->getUses()`. -/
def predecessors (isForward : Bool) (p : Program) (term : Nat) : List Nat :=
  if isForward then p.operands term else p.uses term

/-- The successors of a term in the direction of the pass:
`isForward ? term->getUses() : term->getOperands()`. -/
def successors (isForward : Bool) (p : Program) (term : Nat) : List Nat :=
  if isForward then p.uses term else p.operands term

/-- The terms a pass starts from:
`isForward ? program.getSources() : program.getSinks()`. -/
def leaves (isForward : Bool) (p : Program) : List Nat :=
  if isForward then p.getSources else p.getSinks

/-- `ProgramTraversal::arePredecessorsDone`. -/
def arePredecessorsDone (isForward : Bool) (p : Program) (processed : Nat → Bool)
    (term : Nat) : Bool :=
  (predecessors isForward p term).all (fun operand => processed operand)

/-- A rewriter handed to a pass: its state `σ` holds the program together with
whatever tables the rewriter owns; `rewrite` is its call operator, `none` when
it throws. -/
structure Rewriter (σ : Type) where
  program : σ → Program
  rewrite : σ → Nat → Option σ

/-- The variables of `ProgramTraversal::traverse`.  `readyNodes` is the vector
of the source with its back at the head of the list.  `visited` is not in the
source: it records, in order, the terms `rewrite` has been called on. -/
structure TraversalState (σ : Type) where
  env : σ
  ready : Nat → Bool
  processed : Nat → Bool
  readyNodes : List Nat
  visited : List Nat

/-- Body of the loop "if transform adds new sources/sinks add them to ready
terms". -/
def pushLeaf (acc : List Nat × (Nat → Bool)) (leaf : Nat) : List Nat × (Nat → Bool) :=
  if acc.2 leaf then acc else (leaf :: acc.1, Function.update acc.2 leaf true)

/-- Body of the loop "push and mark uses/operands that are ready to be
processed". -/
def pushSucc (isForward : Bool) (p : Program) (processed : Nat → Bool)
    (acc : List Nat × (Nat → Bool)) (succ : Nat) : List Nat × (Nat → Bool) :=
  if !acc.2 succ && arePredecessorsDone isForward p processed succ then
    (succ :: acc.1, Function.update acc.2 succ true)
  else acc

/-- One iteration of the `while` loop of `traverse`, for the term popped from
`readyNodes`. -/
def traverseVisit {σ : Type} (isForward : Bool) (R : Rewriter σ) (st : TraversalState σ)
    (term : Nat) (rest : List Nat) : Option (TraversalState σ) :=
  let checkList := successors isForward (R.program st.env) term
  match R.rewrite st.env term with
  | none => none
  | some env =>
    let processed := Function.update st.processed term true
    let program := R.program env
    let acc1 := (leaves isForward program).foldl pushLeaf (rest, st.ready)
    let checkList := checkList ++ successors isForward program term
    let acc2 := checkList.foldl (pushSucc isForward program processed) acc1
    some { env := env, ready := acc2.2, processed := processed, readyNodes := acc2.1,
           visited := st.visited ++ [term] }

/-- The `while (readyNodes.size() != 0)` loop, bounded by `fuel` iterations;
`none` when the rewriter throws or the fuel runs out with terms still ready. -/
def traverseLoop {σ : Type} (isForward : Bool) (R : Rewriter σ) :
    Nat → TraversalState σ → Option (TraversalState σ)
  | 0, st => if st.readyNodes = [] then some st else none
  | fuel + 1, st =>
    match st.readyNodes with
    | [] => some st
    | term :: rest =>
      match traverseVisit isForward R st term rest with
      | none => none
      | some st1 => traverseLoop isForward R fuel st1

/-- `ProgramTraversal::traverse<Rewriter, isForward>`. -/
def traverse {σ : Type} (isForward : Bool) (R : Rewriter σ) (fuel : Nat) (env : σ) :
    Option (TraversalState σ) :=
  let readyNodes := leaves isForward (R.program env)
  traverseLoop isForward R fuel
    { env := env,
      ready := readyNodes.foldl (fun ready term => Function.update ready term true)
        (fun _ => false),
      processed := fun _ => false,
      readyNodes := readyNodes.reverse,
      visited := [] }

/-- `ProgramTraversal::forwardPass`. -/
def forwardPass {σ : Type} (R : Rewriter σ) (fuel : Nat) (env : σ) :
    Option (TraversalState σ) :=
  traverse true R fuel env

/-- `ProgramTraversal::backwardPass`. -/
def backwardPass {σ : Type} (R : Rewriter σ) (fuel : Nat) (env : σ) :
    Option (TraversalState σ) :=
  traverse false R fuel env

/-- A program is acyclic when its terms can be ranked so that every operand
ranks below the term that uses it. -/
def Program.Acyclic (p : Program) : Prop :=
  ∃ rank : Nat → Nat, ∀ t o, o ∈ p.operands t → rank o < rank t

/-- A rewriter that does not modify the graph: it never throws and leaves the
program as it found it. -/
def Rewriter.NonMutating {σ : Type} (R : Rewriter σ) : Prop :=
  ∀ s t, ∃ s1, R.rewrite s t = some s1 ∧ R.program s1 = R.program s

/-- The rewriter that does nothing; its state is the program alone. -/
def idleRewriter : Rewriter Program :=
  { program := fun p => p, rewrite := fun p _ => some p }

/-- The diamond `a, b = -a, c = a * b, out = Output(c)` with a second output. -/
def diamondProgram : Program :=
  [Cmd.makeTerm Op.Input [], Cmd.makeTerm Op.Negate [0], Cmd.makeTerm Op.Mul [0, 1],
   Cmd.makeTerm Op.Output [2], Cmd.makeTerm Op.Output [1]].foldl Cmd.exec
    (Program.empty "diamond" 8)

/-- What a pass direction needs of the graph it runs over. -/
structure DirFacts (isForward : Bool) (p : Program) : Prop where
  edge : ∀ t s, s ∈ successors isForward p t ↔ t ∈ predecessors isForward p s
  leaf : ∀ t, t ∈ leaves isForward p ↔ t < p.nextTermIndex ∧ predecessors isForward p t = []
  bound : ∀ t o, o ∈ predecessors isForward p t → o < p.nextTermIndex ∧ t < p.nextTermIndex
  rank : ∃ rank : Nat → Nat, ∀ t o, o ∈ predecessors isForward p t → rank o < rank t

/-- The loop invariant of `traverse` over a graph `p` that the rewriter leaves
unchanged. -/
structure TraversalInv {σ : Type} (isForward : Bool) (R : Rewriter σ) (p : Program)
    (st : TraversalState σ) : Prop where
  prog : R.program st.env = p
  proc_iff : ∀ t, st.processed t = true ↔ t ∈ st.visited
  vis_nodup : st.visited.Nodup
  rn_nodup : st.readyNodes.Nodup
  ready_iff : ∀ t, st.ready t = true ↔ (t ∈ st.readyNodes ∨ st.processed t = true)
  rn_unproc : ∀ t ∈ st.readyNodes, st.processed t = false
  ready_sound : ∀ t, st.ready t = true →
    t < p.nextTermIndex ∧ ∀ o ∈ predecessors isForward p t, st.processed o = true
  ready_complete : ∀ s, s < p.nextTermIndex →
    (∀ o ∈ predecessors isForward p s, st.processed o = true) → st.ready s = true
  order : ∀ t ∈ st.visited, ∀ o ∈ predecessors isForward p t,
    st.visited.indexOf o < st.visited.indexOf t

/-- The two leaf sets are sets: no term is listed twice. -/
def Program.SetsNodup (p : Program) : Prop :=
  p.sources.Nodup ∧ p.sinks.Nodup

/-- The state invariants of a program built through the mutators of the IR. -/
structure Program.WellFormed (p : Program) : Prop where
  consistent : p.Consistent
  sets : p.SetsNodup

/-! ## `eva/ir/term_map.h` -/

/-- A `TermMapOptional<std::uint32_t>`: `none` is an entry without a value. -/
abbrev TermMapOptional := Nat → Option Nat

/-- The value `operator[]` returns: an entry without a value is first given
the value `0`. -/
def TermMapOptional.val (m : TermMapOptional) (t : Nat) : Nat := (m t).getD 0

/-- The side effect of `operator[]` on the map: the entry is emplaced. -/
def TermMapOptional.touch (m : TermMapOptional) (t : Nat) : TermMapOptional :=
  if (m t).isSome then m else Function.update m t (some 0)

/-- The map after `map[t] = v`. -/
def TermMapOptional.assign (m : TermMapOptional) (t : Nat) (v : Nat) : TermMapOptional :=
  Function.update m t (some v)

/-- The method `at`: `none` is the exception of `std::optional::value`. -/
def TermMapOptional.at (m : TermMapOptional) (t : Nat) : Option Nat := m t

/-! ## The factory helpers of `eva/ir/program.h` used by the passes -/

/-- `Program::makeConstant`. -/
def Program.makeConstant (p : Program) (value : ConstantValue) : Nat × Program :=
  let r := p.makeTerm Op.Constant []
  (r.1, Term.setAttribute r.2 r.1 ConstantValueAttribute (AttributeValue.constant value))

/-- `Program::makeDenseConstant`; `none` is the exception of the constructor
of `DenseConstantValue` (a division by a zero length is raised as well). -/
def Program.makeDenseConstant (p : Program) (values : List ℚ) : Option (Nat × Program) :=
  if values.length = 0 then none
  else if p.vecSize % values.length ≠ 0 then none
  else some (p.makeConstant (ConstantValue.dense p.vecSize values))

/-- `Program::makeUniformConstant`. -/
def Program.makeUniformConstant (p : Program) (value : ℚ) : Option (Nat × Program) :=
  p.makeDenseConstant [value]

/-- `Program::makeRescale`. -/
def Program.makeRescale (p : Program) (term : Nat) (rescaleBy : Nat) : Nat × Program :=
  let r := p.makeTerm Op.Rescale [term]
  (r.1, Term.setAttribute r.2 r.1 RescaleDivisorAttribute (AttributeValue.uint32 rescaleBy))

/-! ## `eva/ckks/rescaler.h` -/

/-- The members of `Rescaler` and of the classes derived from it: the program,
the two maps passed by reference and `minScale`.  `ok` is not in the source:
it turns `false` when an `assert` of the source is reached with a false
condition (the run goes on, as it does when assertions are compiled out). -/
structure Rescaler where
  program : Program
  type : Nat → TermType
  scale : TermMapOptional
  minScale : Nat
  ok : Bool

/-- An `assert` of the source. -/
def Rescaler.check (st : Rescaler) (cond : Bool) : Rescaler :=
  { st with ok := st.ok && cond }

/-- The value read by `scale[t]`. -/
def Rescaler.scaleOf (st : Rescaler) (t : Nat) : Nat := st.scale.val t

/-- The state after `scale[t]` has been read. -/
def Rescaler.touch (st : Rescaler) (t : Nat) : Rescaler :=
  { st with scale := st.scale.touch t }

/-- The state after `scale[t] = v`. -/
def Rescaler.setScale (st : Rescaler) (t : Nat) (v : Nat) : Rescaler :=
  { st with scale := st.scale.assign t v }

/-- The state after `type[t] = ty`. -/
def Rescaler.setType (st : Rescaler) (t : Nat) (ty : TermType) : Rescaler :=
  { st with type := Function.update st.type t ty }

/-- The state with another program. -/
def Rescaler.withProgram (st : Rescaler) (p : Program) : Rescaler :=
  { st with program := p }

/-- The constructor shared by the four policies: `minScale` is the largest
scale read at a source, and it is asserted to be non-zero. -/
def Rescaler.init (program : Program) (type : Nat → TermType) (scale : TermMapOptional) :
    Rescaler :=
  let sources := program.getSources
  let minScale := sources.foldl
    (fun minScale source => if scale.val source > minScale then scale.val source else minScale) 0
  { program := program, type := type,
    scale := sources.foldl (fun m source => m.touch source) scale,
    minScale := minScale, ok := decide (minScale ≠ 0) }

/-- `Rescaler::insertRescale`. -/
def Rescaler.insertRescale (st : Rescaler) (term : Nat) (rescaleBy : Nat) : Nat × Rescaler :=
  let r := st.program.makeRescale term rescaleBy
  let rescaleNode := r.1
  let st1 := (st.withProgram r.2).setType rescaleNode (st.type term)
  let st2 := (st1.touch term).setScale rescaleNode (sub32 (st1.scaleOf term) rescaleBy)
  (rescaleNode, st2.withProgram (Term.replaceOtherUsesWith st2.program term rescaleNode))

/-- `Rescaler::insertRescaleBetween`. -/
def Rescaler.insertRescaleBetween (st : Rescaler) (term1 term2 : Nat) (rescaleBy : Nat) :
    Rescaler :=
  let r := st.program.makeRescale term1 rescaleBy
  let rescaleNode := r.1
  let st1 := (st.withProgram r.2).setType rescaleNode (st.type term1)
  let st2 := (st1.touch term1).setScale rescaleNode (sub32 (st1.scaleOf term1) rescaleBy)
  st2.withProgram (Term.replaceOperand st2.program term2 term1 rescaleNode).2

/-- The loop of `Rescaler::handleRawScale`: the largest `scale.at(operand)`;
`none` when an operand has no scale. -/
def Rescaler.maxScaleAt (scale : TermMapOptional) : List Nat → Nat → Option Nat
  | [], maxScale => some maxScale
  | operand :: rest, maxScale =>
    match scale.at operand with
    | none => none
    | some s => Rescaler.maxScaleAt scale rest (if s > maxScale then s else maxScale)

/-- `Rescaler::handleRawScale`. -/
def Rescaler.handleRawScale (st : Rescaler) (term : Nat) : Option Rescaler :=
  if 0 < (st.program.operands term).length then
    match Rescaler.maxScaleAt st.scale (st.program.operands term) 0 with
    | none => none
    | some maxScale => some (st.setScale term maxScale)
  else some st

/-- `isAdditionOp`. -/
def isAdditionOp (op : Op) : Bool := op = Op.Add || op = Op.Sub

/-- `isMultiplicationOp`. -/
def isMultiplicationOp (op : Op) : Bool := op = Op.Mul

/-- `isRescaleOp`. -/
def isRescaleOp (op : Op) : Bool := op = Op.Rescale

/-- The loop `multScale += scale[operand]` over the operands of a `Mul`. -/
def Rescaler.sumScales (st : Rescaler) (operands : List Nat) : Nat :=
  operands.foldl (fun multScale operand => add32 multScale (st.scaleOf operand)) 0

/-- The state after `scale[operand]` has been read for every operand. -/
def Rescaler.touchAll (st : Rescaler) (operands : List Nat) : Rescaler :=
  operands.foldl (fun s operand => s.touch operand) st

/-- The loop `if (scale[operand] > maxScale) maxScale = scale[operand]` over the
operands of an `Add` or `Sub`. -/
def Rescaler.maxScale (st : Rescaler) (operands : List Nat) (start : Nat) : Nat :=
  operands.foldl
    (fun maxScale operand => if st.scaleOf operand > maxScale then st.scaleOf operand
      else maxScale) start

/-! ## `eva/ckks/always_rescaler.h` -/

/-- The assertion loop of `AlwaysRescaler` over the operands of an `Add` or
`Sub`. -/
def AlwaysRescaler.checkOperands (st : Rescaler) (term : Nat) : Rescaler :=
  (st.program.operands term).foldl
    (fun s operand =>
      if s.type operand ≠ TermType.Raw then
        s.check (s.scaleOf term = s.scaleOf operand || s.type operand = TermType.Raw)
      else s) st

/-- `AlwaysRescaler::operator()`. -/
def AlwaysRescaler.visit (st : Rescaler) (term : Nat) : Option Rescaler :=
  let operands := st.program.operands term
  match operands with
  | [] => some st
  | first :: _ =>
    if st.type term = TermType.Raw then st.handleRawScale term
    else if isRescaleOp (st.program.op term) then some st
    else if !isMultiplicationOp (st.program.op term) then
      let st1 := (st.touch first).setScale term (st.scaleOf first)
      if isAdditionOp (st.program.op term) then some (AlwaysRescaler.checkOperands st1 term)
      else some st1
    else
      let multScale := st.sumScales operands
      let st1 := ((st.touchAll operands).check (multScale ≠ 0)).setScale term multScale
      some (st1.insertRescale term (sub32 multScale st1.minScale)).2

/-- `AlwaysRescaler` as a rewriter of a pass. -/
def AlwaysRescaler.rewriter : Rewriter Rescaler :=
  { program := fun st => st.program, rewrite := AlwaysRescaler.visit }

/-! ## `eva/ckks/eager_waterline_rescaler.h`, `eva/ckks/minimum_rescaler.h` -/

/-- The constant `fixedRescale` of the waterline rescalers, `maxRescale` of
`MinimumRescaler`. -/
def fixedRescale : Nat := 60

/-- One iteration of the loop that scales up the operands of an `Add` or `Sub`
that lie below `maxScale`, at operand slot `i`: the operand is multiplied by a
new uniform constant `1` of scale `maxScale - scale[operand]`. -/
def Rescaler.matchScaleAt (term maxScale : Nat) (acc : Option Rescaler) (i : Nat) :
    Option Rescaler :=
  match acc with
  | none => none
  | some st =>
    match (st.program.operands term)[i]? with
    | none => some st
    | some operand =>
      if st.scaleOf operand < maxScale && st.type operand ≠ TermType.Raw then
        match (st.touch operand).program.makeUniformConstant 1 with
        | none => none
        | some c =>
          let scaleConstant := c.1
          let st1 := ((st.touch operand).withProgram c.2).setScale scaleConstant
            (sub32 maxScale (st.scaleOf operand))
          let st2 := st1.withProgram (Term.setAttribute st1.program scaleConstant
            EncodeAtScaleAttribute (AttributeValue.uint32 (st1.scaleOf scaleConstant)))
          let m := st2.program.makeTerm Op.Mul [operand, scaleConstant]
          let mulNode := m.1
          let st3 := (st2.withProgram m.2).setScale mulNode maxScale
          some (st3.withProgram (Term.replaceOperand st3.program term operand mulNode).2)
      else some (st.touch operand)

/-- The assertion loop after the operands have been scaled up. -/
def Rescaler.checkMatched (st : Rescaler) (term maxScale : Nat) : Rescaler :=
  (st.program.operands term).foldl
    (fun s operand =>
      s.check (maxScale = s.scaleOf operand || s.type operand = TermType.Raw)) st

/-- The `Add`/`Sub` branch shared by the Eager, Lazy and Minimum policies,
entered with `scale[term]` already set from the first operand. -/
def Rescaler.matchScales (st : Rescaler) (term : Nat) : Option Rescaler :=
  let operands := st.program.operands term
  let maxScale := st.maxScale operands (st.scaleOf term)
  let st1 := (st.touch term).touchAll operands
  match (List.range operands.length).foldl (Rescaler.matchScaleAt term maxScale) (some st1) with
  | none => none
  | some st2 => some ((st2.checkMatched term maxScale).setScale term maxScale)

/-- The loop `while (multScale >= fixedRescale + minScale)` of the waterline
policies, bounded by `fuel` iterations; `none` when the fuel runs out. -/
def Rescaler.rescaleLoop : Nat → Rescaler → Nat → Nat → Option (Nat × Rescaler)
  | 0, st, temp, multScale =>
    if multScale ≥ add32 fixedRescale st.minScale then none else some (temp, st)
  | fuel + 1, st, temp, multScale =>
    if multScale ≥ add32 fixedRescale st.minScale then
      let r := st.insertRescale temp fixedRescale
      let multScale1 := sub32 multScale fixedRescale
      Rescaler.rescaleLoop fuel (r.2.check (multScale1 = r.2.scaleOf r.1)) r.1 multScale1
    else some (temp, st)

/-- `EagerWaterlineRescaler::operator()`; `fuel` bounds the rescale loop. -/
def EagerWaterlineRescaler.visit (fuel : Nat) (st : Rescaler) (term : Nat) : Option Rescaler :=
  let operands := st.program.operands term
  match operands with
  | [] => some st
  | first :: _ =>
    if st.type term = TermType.Raw then st.handleRawScale term
    else if isRescaleOp (st.program.op term) then some st
    else if !isMultiplicationOp (st.program.op term) then
      let st1 := (st.touch first).setScale term (st.scaleOf first)
      if isAdditionOp (st.program.op term) then st1.matchScales term
      else some st1
    else
      let multScale := st.sumScales operands
      let st1 := ((st.touchAll operands).check (multScale ≠ 0)).setScale term multScale
      (Rescaler.rescaleLoop fuel st1 term multScale).map (fun r => r.2)

/-- `EagerWaterlineRescaler` as a rewriter of a pass. -/
def EagerWaterlineRescaler.rewriter (fuel : Nat) : Rewriter Rescaler :=
  { program := fun st => st.program, rewrite := EagerWaterlineRescaler.visit fuel }

/-- The `Mul` branch of `MinimumRescaler::operator()`, for the operand copy
`[a, b]`. -/
def MinimumRescaler.visitMul (fuel : Nat) (st : Rescaler) (term a b : Nat) : Option Rescaler :=
  let multScale := add32 (st.scaleOf a) (st.scaleOf b)
  let st1 := (((st.touch a).touch b).check (multScale ≠ 0)).setScale term multScale
  let minOfScales := if st1.scaleOf a > st1.scaleOf b then st1.scaleOf b else st1.scaleOf a
  let rescaleBy0 := sub32 minOfScales st1.minScale
  let rescaleBy := if rescaleBy0 > fixedRescale then fixedRescale else rescaleBy0
  if mul32 2 rescaleBy ≥ fixedRescale then
    let st2 := st1.check (rescaleBy ≤ fixedRescale)
    let st3 := st2.insertRescaleBetween a term rescaleBy
    let st4 := if a ≠ b then st3.insertRescaleBetween b term rescaleBy else st3
    some (st4.setScale term (sub32 multScale (mul32 2 rescaleBy)))
  else
    (Rescaler.rescaleLoop fuel st1 term multScale).map (fun r => r.2)

/-- `MinimumRescaler::operator()`; `fuel` bounds the rescale loop.  Reading
`operandsCopy[1]` of a `Mul` with a single operand is out of bounds: `none`. -/
def MinimumRescaler.visit (fuel : Nat) (st : Rescaler) (term : Nat) : Option Rescaler :=
  let operands := st.program.operands term
  match operands with
  | [] => some st
  | first :: rest =>
    if st.type term = TermType.Raw then st.handleRawScale term
    else if isRescaleOp (st.program.op term) then some st
    else if !isMultiplicationOp (st.program.op term) then
      let st0 := (st.check (st.program.op first ≠ Op.Constant)).check (st.scaleOf first ≠ 0)
      let st1 := (st0.touch first).setScale term (st0.scaleOf first)
      if isAdditionOp (st.program.op term) then st1.matchScales term
      else some st1
    else
      match rest with
      | [] => none
      | second :: more =>
        MinimumRescaler.visitMul fuel (st.check (more.length = 0)) term first second

/-- `MinimumRescaler` as a rewriter of a pass. -/
def MinimumRescaler.rewriter (fuel : Nat) : Rewriter Rescaler :=
  { program := fun st => st.program, rewrite := MinimumRescaler.visit fuel }

/-! ## `eva/common/type_deducer.h` and the set-up of `CKKSCompiler::compile` -/

/-- `unordered_map::emplace` on a name-to-term map: a name already present
keeps its term. -/
def mapEmplace (m : List (String × Nat)) (name : String) (term : Nat) : List (String × Nat) :=
  if m.any (fun e => e.1 = name) then m else m ++ [(name, term)]

/-- `Program::makeInput`. -/
def Program.makeInput (p : Program) (name : String) (type : TermType) : Nat × Program :=
  let r := p.makeTerm Op.Input []
  let p1 := Term.setAttribute r.2 r.1 TypeAttribute (AttributeValue.type type)
  (r.1, { p1 with inputs := mapEmplace p1.inputs name r.1 })

/-- `Program::makeOutput`. -/
def Program.makeOutput (p : Program) (name : String) (term : Nat) : Nat × Program :=
  let r := p.makeTerm Op.Output [term]
  (r.1, { r.2 with outputs := mapEmplace r.2.outputs name r.1 })

/-- The members of `TypeDeducer`. -/
structure TypeDeducer where
  program : Program
  types : Nat → TermType

/-- `TypeDeducer::operator()`; `none` when a source other than a constant has
no `TypeAttribute`. -/
def TypeDeducer.visit (st : TypeDeducer) (term : Nat) : Option TypeDeducer :=
  let operands := st.program.operands term
  if 0 < operands.length then
    let inferred := operands.foldl
      (fun inferred operand =>
        if st.types operand = TermType.Cipher then TermType.Cipher else inferred) TermType.Raw
    if st.program.op term = Op.Encode then
      some { st with types := Function.update st.types term TermType.Plain }
    else some { st with types := Function.update st.types term inferred }
  else if st.program.op term = Op.Constant then
    some { st with types := Function.update st.types term TermType.Raw }
  else
    match AttributeList.getType (st.program.attributes term) with
    | none => none
    | some ty => some { st with types := Function.update st.types term ty }

/-- `TypeDeducer` as a rewriter of a pass. -/
def TypeDeducer.rewriter : Rewriter TypeDeducer :=
  { program := fun st => st.program, rewrite := TypeDeducer.visit }

/-- The types a forward pass of `TypeDeducer` leaves in a map that starts at
`Undef` everywhere; `none` when the pass fails. -/
def deduceTypes (fuel : Nat) (p : Program) : Option (Nat → TermType) :=
  (forwardPass TypeDeducer.rewriter fuel { program := p, types := fun _ => TermType.Undef }).map
    (fun st => st.env.types)

/-- The loop of `CKKSCompiler::compile` that copies `EncodeAtScaleAttribute` of
every source into the scale map; `none` when a source lacks the attribute. -/
def initScales (p : Program) : Option TermMapOptional :=
  p.getSources.foldl
    (fun acc source =>
      match acc with
      | none => none
      | some scales =>
        match AttributeList.getUInt32 (p.attributes source) EncodeAtScaleAttribute with
        | none => none
        | some s => some (scales.assign source s))
    (some (fun _ => none))

/-- A forward pass of a rescaling policy over `p`, set up as `compile` does:
types from `TypeDeducer`, scales from the sources. -/
def runRescaler (rewriter : Rewriter Rescaler) (fuel : Nat) (p : Program) : Option Rescaler :=
  match deduceTypes fuel p, initScales p with
  | some types, some scales =>
    (forwardPass rewriter fuel (Rescaler.init p types scales)).map (fun st => st.env)
  | _, _ => none

/-- The program `out = a + c` over two `Cipher` inputs, `a` encoded at scale
30 and `c` at scale 20.  Terms: `a = 0`, `c = 1`, the `Add` is 2, the output 3. -/
def unequalInputs : Program :=
  let a := (Program.empty "unequal" 8).makeInput "a" TermType.Cipher
  let p1 := Term.setAttribute a.2 a.1 EncodeAtScaleAttribute (AttributeValue.uint32 30)
  let c := p1.makeInput "c" TermType.Cipher
  let p2 := Term.setAttribute c.2 c.1 EncodeAtScaleAttribute (AttributeValue.uint32 20)
  let s := p2.makeTerm Op.Add [a.1, c.1]
  let out := s.2.makeOutput "out" s.1
  Term.setAttribute out.2 out.1 RangeAttribute (AttributeValue.uint32 10)

/-- The product `a * b` of two `Cipher` inputs encoded at scale 30, with an
output; terms `a = 0`, `b = 1`, the `Mul` is 2, the output 3. -/
def singleMul : Program :=
  let a := (Program.empty "single" 8).makeInput "a" TermType.Cipher
  let p1 := Term.setAttribute a.2 a.1 EncodeAtScaleAttribute (AttributeValue.uint32 30)
  let b := p1.makeInput "b" TermType.Cipher
  let p2 := Term.setAttribute b.2 b.1 EncodeAtScaleAttribute (AttributeValue.uint32 30)
  let m := p2.makeTerm Op.Mul [a.1, b.1]
  let out := m.2.makeOutput "y" m.1
  Term.setAttribute out.2 out.1 RangeAttribute (AttributeValue.uint32 10)

/-- A rescaler state over the diamond program: every term `Cipher`, every
scale 30, `minScale` 30. -/
def mulState : Rescaler :=
  { program := diamondProgram, type := fun _ => TermType.Cipher, scale := fun _ => some 30,
    minScale := 30, ok := true }

/-- A rescaler state over the diamond program: every term `Cipher`, every
scale 75, `minScale` 30. -/
def chainState : Rescaler :=
  { program := diamondProgram, type := fun _ => TermType.Cipher, scale := fun _ => some 75,
    minScale := 30, ok := true }

/-! ## `eva/ckks/encryption_parameter_selector.h` -/

/-- The members of `EncryptionParametersSelector`; `terms` is the map
`terms_` from a term to its chain of prime bit counts.  `ok` turns `false`
when an `assert` of the call operator is reached with a false condition. -/
structure EncryptionParametersSelector where
  program : Program
  scales : TermMapOptional
  terms : Nat → List Nat
  types : Nat → TermType
  ok : Bool

/-- The loop over the operands in the call operator: `parms` becomes the chain
of an operand whenever that chain is strictly longer. -/
def EncryptionParametersSelector.longest (terms : Nat → List Nat) (operands : List Nat)
    (parms : List Nat) : List Nat :=
  operands.foldl
    (fun parms operand => if (terms operand).length > parms.length then terms operand else parms)
    parms

/-- `EncryptionParametersSelector::operator()`; `none` when a `Rescale` term
has no `RescaleDivisorAttribute`. -/
def EncryptionParametersSelector.visit (st : EncryptionParametersSelector) (term : Nat) :
    Option EncryptionParametersSelector :=
  if st.types term = TermType.Raw ∨ st.program.op term = Op.Encode then some st
  else
    let operands := st.program.operands term
    if 0 < operands.length then
      let parms := EncryptionParametersSelector.longest st.terms operands (st.terms term)
      if isRescaleOp (st.program.op term) then
        match AttributeList.getUInt32 (st.program.attributes term) RescaleDivisorAttribute with
        | none => none
        | some divisor =>
          some { st with terms := Function.update st.terms term (parms ++ [divisor]),
                         ok := st.ok && decide (divisor ≠ 0) }
      else some { st with terms := Function.update st.terms term parms }
    else some st

/-- `EncryptionParametersSelector` as a rewriter of a pass. -/
def EncryptionParametersSelector.rewriter : Rewriter EncryptionParametersSelector :=
  { program := fun st => st.program, rewrite := EncryptionParametersSelector.visit }

/-- The state the constructor leaves: every chain empty. -/
def EncryptionParametersSelector.init (program : Program) (scales : TermMapOptional)
    (types : Nat → TermType) : EncryptionParametersSelector :=
  { program := program, scales := scales, terms := fun _ => [], types := types, ok := true }

/-- The three running maxima of the first loop of `getEncryptionParameters`. -/
structure OutputMaxima where
  maxOutputSize : Nat
  maxParm : Nat
  maxLen : Nat

/-- The body of the first loop of `getEncryptionParameters` for one output;
`none` when the output has no `RangeAttribute`. -/
def EncryptionParametersSelector.scanOutput (st : EncryptionParametersSelector)
    (acc : Option OutputMaxima) (entry : String × Nat) : Option OutputMaxima :=
  match acc with
  | none => none
  | some m =>
    match AttributeList.getUInt32 (st.program.attributes entry.2) RangeAttribute with
    | none => none
    | some range =>
      let size := add32 range (st.scales.val entry.2)
      let oParms := st.terms entry.2
      some { maxOutputSize := if size > m.maxOutputSize then size else m.maxOutputSize,
             maxLen := if m.maxLen < oParms.length then oParms.length else m.maxLen,
             maxParm := oParms.foldl (fun maxParm parm => if parm > maxParm then parm else maxParm)
               m.maxParm }

/-- The loop `while (maxOutputSize >= 60)` that pushes 60-bit primes, bounded
by `fuel` iterations; returns the list and what is left of `maxOutputSize`. -/
def pushSixties : Nat → Nat → List Nat → Option (List Nat × Nat)
  | 0, maxOutputSize, parms => if maxOutputSize ≥ 60 then none else some (parms, maxOutputSize)
  | fuel + 1, maxOutputSize, parms =>
    if maxOutputSize ≥ 60 then pushSixties fuel (sub32 maxOutputSize 60) (parms ++ [60])
    else some (parms, maxOutputSize)

/-- The second loop of `getEncryptionParameters`: the chain of the first
output whose chain has `maxLen` primes is appended in reverse. -/
def EncryptionParametersSelector.appendLongest (st : EncryptionParametersSelector)
    (maxLen : Nat) : List (String × Nat) → List Nat → List Nat
  | [], parms => parms
  | entry :: rest, parms =>
    if maxLen = (st.terms entry.2).length then parms ++ (st.terms entry.2).reverse
    else EncryptionParametersSelector.appendLongest st maxLen rest parms

/-- `EncryptionParametersSelector::getEncryptionParameters`; `none` when an
output has no `RangeAttribute`.  The loop that pushes the 60-bit primes is
given `maxOutputSize` iterations, more than it takes.  The
`assert(maxOutputSize != 0)` of the source is not executed. -/
def EncryptionParametersSelector.getEncryptionParameters (st : EncryptionParametersSelector) :
    Option (List Nat) :=
  match st.program.outputs.foldl st.scanOutput
      (some { maxOutputSize := 0, maxParm := 0, maxLen := 0 }) with
  | none => none
  | some m =>
    if m.maxOutputSize > 60 then
      match pushSixties m.maxOutputSize m.maxOutputSize [] with
      | none => none
      | some (parms, rest) =>
        let parms1 := if rest > 0 then parms ++ [if 20 < rest then rest else 20] else parms
        some (st.appendLongest m.maxLen st.program.outputs parms1 ++ [60])
    else
      let maxParm := if m.maxOutputSize > m.maxParm then m.maxOutputSize else m.maxParm
      some (st.appendLongest m.maxLen st.program.outputs [maxParm] ++ [maxParm])

/-- The largest element of a list of naturals, `0` for the empty list. -/
def listMax (l : List Nat) : Nat := l.foldr max 0

/-- The `RangeAttribute` of a term, `0` when it has none. -/
def EncryptionParametersSelector.range (st : EncryptionParametersSelector) (t : Nat) : Nat :=
  (AttributeList.getUInt32 (st.program.attributes t) RangeAttribute).getD 0

/-- `S`: the maximum over the outputs of `RangeAttribute + scale` (a 32-bit
unsigned sum). -/
def EncryptionParametersSelector.specMaxOutputSize (st : EncryptionParametersSelector) : Nat :=
  listMax (st.program.outputs.map (fun e => add32 (st.range e.2) (st.scales.val e.2)))

/-- `P`: the largest prime in the chain of any output. -/
def EncryptionParametersSelector.specMaxParm (st : EncryptionParametersSelector) : Nat :=
  listMax (st.program.outputs.map (fun e => listMax (st.terms e.2)))

/-- The largest number of primes in the chain of any output. -/
def EncryptionParametersSelector.specMaxLen (st : EncryptionParametersSelector) : Nat :=
  listMax (st.program.outputs.map (fun e => (st.terms e.2).length))

/-- The primes placed between the top primes and the key prime. -/
def EncryptionParametersSelector.middlePrimes (st : EncryptionParametersSelector) : List Nat :=
  st.appendLongest st.specMaxLen st.program.outputs []

/-- A selector state over `singleMul` after a pass in which the output
inherited the chain `[40]`; every scale is 60, the output range 10. -/
def rangeDemo : EncryptionParametersSelector :=
  { program := singleMul, scales := fun _ => some 60,
    terms := fun t => if t = 3 then [40] else [],
    types := fun _ => TermType.Cipher, ok := true }


/-! ## Scale conservation as a check on a rescaler state -/

/-- Scale conservation at one term: if `t` is a non-`Raw` `Add` or `Sub`, every
non-`Raw` operand of `t` has, in the scale map, the scale recorded for `t`. -/
def Rescaler.scaleConservedAt (st : Rescaler) (t : Nat) : Bool :=
  if isAdditionOp (st.program.op t) && decide (st.type t ≠ TermType.Raw) then
    (st.program.operands t).all
      (fun o => decide (st.type o = TermType.Raw) || decide (st.scale o = st.scale t))
  else true

/-- Scale conservation over all terms of the program of a rescaler state. -/
def Rescaler.scaleConserved (st : Rescaler) : Bool :=
  (List.range st.program.nextTermIndex).all st.scaleConservedAt


/-! ## Operand paths and the chain a term inherits -/

/-- A list of terms in which every term is an operand of the next one. -/
def OperandPath (p : Program) (path : List Nat) : Prop :=
  List.Chain' (fun a b => a ∈ p.operands b) path

/-- An operand path that starts at a source of the program and ends at `t`. -/
def SourcePath (p : Program) (path : List Nat) (t : Nat) : Prop :=
  OperandPath p path ∧ (∃ s ∈ p.getSources, path.head? = some s) ∧ path.getLast? = some t

/-- The `Rescale` terms on a path, in path order. -/
def rescaleTermsOn (p : Program) (path : List Nat) : List Nat :=
  path.filter (fun u => isRescaleOp (p.op u))

/-- The `RescaleDivisorAttribute` of a term, when it has one. -/
def rescaleDivisorOf (p : Program) (u : Nat) : Option Nat :=
  AttributeList.getUInt32 (p.attributes u) RescaleDivisorAttribute

/-- The `Rescale` terms on a path that come after the last term of the path
that is `Raw` or an `Encode`, in path order. -/
def chainTermsOn (p : Program) (types : Nat → TermType) (path : List Nat) : List Nat :=
  ((path.reverse.takeWhile
      (fun u => decide (types u ≠ TermType.Raw ∧ p.op u ≠ Op.Encode))).reverse).filter
    (fun u => isRescaleOp (p.op u))

/-- The chain of `t` is the sequence of divisors of the `Rescale` terms on an
operand path from a source to `t` that contains the largest number of
`Rescale` terms. -/
def EncryptionParametersSelector.ChainOfLongestPath (st : EncryptionParametersSelector)
    (t : Nat) : Prop :=
  ∃ path, SourcePath st.program path t ∧
    (st.terms t).map some = (rescaleTermsOn st.program path).map (rescaleDivisorOf st.program) ∧
    ∀ path1, SourcePath st.program path1 t →
      (rescaleTermsOn st.program path1).length ≤ (rescaleTermsOn st.program path).length

/-- The chain `terms t` is the sequence of divisors of the counted `Rescale`
terms (those after the last `Raw` or `Encode` term) on an operand path from a
source to `t` on which the number of counted `Rescale` terms is largest. -/
def ChainOfLongestCounted (p : Program) (types : Nat → TermType) (terms : Nat → List Nat)
    (t : Nat) : Prop :=
  ∃ path, SourcePath p path t ∧
    (terms t).map some = (chainTermsOn p types path).map (rescaleDivisorOf p) ∧
    ∀ path1, SourcePath p path1 t →
      (chainTermsOn p types path1).length ≤ (chainTermsOn p types path).length

/-- What a forward pass of the selector keeps true of its state after the calls
logged in `visited`. -/
def SelectorInv (p : Program) (types : Nat → TermType) (env : EncryptionParametersSelector)
    (visited : List Nat) : Prop :=
  env.program = p ∧ env.types = types ∧
    (∀ t ∈ visited, ChainOfLongestCounted p types env.terms t) ∧
    ∀ t, t ∉ visited → env.terms t = []

/-- The primes `getEncryptionParameters` pushes before the chain of an output. -/
def EncryptionParametersSelector.specTopPrimes (st : EncryptionParametersSelector) : List Nat :=
  if st.specMaxOutputSize ≤ 60 then [max st.specMaxParm st.specMaxOutputSize]
  else List.replicate (st.specMaxOutputSize / 60) 60
    ++ (if st.specMaxOutputSize % 60 = 0 then [] else [max 20 (st.specMaxOutputSize % 60)])

/-- The key prime `getEncryptionParameters` pushes last. -/
def EncryptionParametersSelector.specKeyPrime (st : EncryptionParametersSelector) : Nat :=
  if st.specMaxOutputSize ≤ 60 then max st.specMaxParm st.specMaxOutputSize else 60

/-- The program `out = x * Encode(Rescale(r, 40))` over a `Cipher` input `x`
(term 0) and a `Raw` input `r` (term 1); the `Rescale` is term 2, the `Encode`
term 3, the `Mul` term 4 and the output term 5, with range 10. -/
def rawRescale : Program :=
  let g := [Cmd.makeTerm Op.Input [], Cmd.makeTerm Op.Input [], Cmd.makeTerm Op.Rescale [1],
    Cmd.makeTerm Op.Encode [2], Cmd.makeTerm Op.Mul [0, 3], Cmd.makeTerm Op.Output [4]].foldl
      Cmd.exec (Program.empty "rawRescale" 8)
  let g1 := Term.setAttribute g 0 TypeAttribute (AttributeValue.type TermType.Cipher)
  let g2 := Term.setAttribute g1 1 TypeAttribute (AttributeValue.type TermType.Raw)
  let g3 := Term.setAttribute g2 2 RescaleDivisorAttribute (AttributeValue.uint32 40)
  let g4 := Term.setAttribute g3 5 RangeAttribute (AttributeValue.uint32 10)
  { g4 with inputs := [("x", 0), ("r", 1)], outputs := [("out", 5)] }

/-- The types `TypeDeducer` gives the terms of `rawRescale`. -/
def rawRescaleTypes (t : Nat) : TermType :=
  if t = 1 ∨ t = 2 then TermType.Raw
  else if t = 3 then TermType.Plain
  else if t < 6 then TermType.Cipher
  else TermType.Undef

/-- The program with the outputs `short = Rescale(x, 40)` and
`out = Rescale(x, 40) * Rescale(Rescale(x, 40), 30)` over a `Cipher` input `x`
(term 0): the `Rescale` by 40 is term 1, the `Rescale` of term 1 by 30 is term
2, the `Mul` over `[1, 2]` is term 3, the output `out` over the `Mul` is term 4
and the output `short` over term 1 is term 5, both with range 10. -/
def twoRescales : Program :=
  let g := [Cmd.makeTerm Op.Input [], Cmd.makeTerm Op.Rescale [0], Cmd.makeTerm Op.Rescale [1],
    Cmd.makeTerm Op.Mul [1, 2], Cmd.makeTerm Op.Output [3], Cmd.makeTerm Op.Output [1]].foldl
      Cmd.exec (Program.empty "twoRescales" 8)
  let g1 := Term.setAttribute g 0 TypeAttribute (AttributeValue.type TermType.Cipher)
  let g2 := Term.setAttribute g1 1 RescaleDivisorAttribute (AttributeValue.uint32 40)
  let g3 := Term.setAttribute g2 2 RescaleDivisorAttribute (AttributeValue.uint32 30)
  let g4 := Term.setAttribute g3 4 RangeAttribute (AttributeValue.uint32 10)
  let g5 := Term.setAttribute g4 5 RangeAttribute (AttributeValue.uint32 10)
  { g5 with inputs := [("x", 0)], outputs := [("short", 5), ("out", 4)] }

/-- The types `TypeDeducer` gives the terms of `twoRescales`. -/
def twoRescalesTypes (t : Nat) : TermType :=
  if t < 6 then TermType.Cipher else TermType.Undef


/-! ## `eva/ckks/mod_switcher.h` -/

/-- The members of `ModSwitcher`; `level` is the reverse level (sinks have 0).
`ok` turns `false` when the `assert` of the call operator is reached with a
false condition. -/
structure ModSwitcher where
  program : Program
  type : Nat → TermType
  scale : TermMapOptional
  level : Nat → Nat
  encodeNodes : List Nat
  ok : Bool

/-- The state the constructor leaves: every level 0, no `Encode` recorded. -/
def ModSwitcher.init (program : Program) (type : Nat → TermType) (scale : TermMapOptional) :
    ModSwitcher :=
  { program := program, type := type, scale := scale, level := fun _ => 0,
    encodeNodes := [], ok := true }

/-- `ModSwitcher::insertModSwitchNode`. -/
def ModSwitcher.insertModSwitchNode (st : ModSwitcher) (term termLevel : Nat) :
    Nat × ModSwitcher :=
  let r := st.program.makeTerm Op.ModSwitch [term]
  (r.1, { st with program := r.2,
                  scale := (st.scale.touch term).assign r.1 (st.scale.val term),
                  level := Function.update st.level r.1 termLevel })

/-- `useLevels[key].push_back(use)` on the ordered map `useLevels`, kept as a
list of entries in increasing order of the key. -/
def useLevelsPush : List (Nat × List Nat) → Nat → Nat → List (Nat × List Nat)
  | [], key, use => [(key, [use])]
  | (k, v) :: rest, key, use =>
    if key < k then (key, [use]) :: (k, v) :: rest
    else if key = k then (k, v ++ [use]) :: rest
    else (k, v) :: useLevelsPush rest key use

/-- The loop `while (tempLevel > expectedLevel)`: one `ModSwitch` term per
level; returns `temp`, `tempLevel` and the state. -/
def ModSwitcher.chainLoop (expectedLevel : Nat) :
    Nat → ModSwitcher → Nat → Nat × Nat × ModSwitcher
  | 0, st, temp => (temp, 0, st)
  | tempLevel + 1, st, temp =>
    if tempLevel + 1 > expectedLevel then
      let r := st.insertModSwitchNode temp (tempLevel + 1)
      ModSwitcher.chainLoop expectedLevel tempLevel r.2 r.1
    else (temp, tempLevel + 1, st)

/-- The loop `while (useLevel != useLevels.rend())` over the entries below the
largest level, in decreasing order of the level. -/
def ModSwitcher.groupLoop (term : Nat) :
    List (Nat × List Nat) → ModSwitcher → Nat → Nat → ModSwitcher
  | [], st, _, _ => st
  | (expectedLevel, uses) :: rest, st, temp, tempLevel =>
    let r := ModSwitcher.chainLoop expectedLevel tempLevel st temp
    let st1 := uses.foldl
      (fun s use => { s with program := (Term.replaceOperand s.program use term r.1).2 }) r.2.2
    ModSwitcher.groupLoop term rest st1 r.1 r.2.1

/-- The part of the call operator that builds `useLevels` and brings every
use of `term` to the largest level found; returns that level (the value of
`termLevel` before the increment for a `Rescale`) and the state. -/
def ModSwitcher.levelUses (st : ModSwitcher) (term : Nat) : Nat × ModSwitcher :=
  let useLevels := (st.program.uses term).foldl
    (fun m use => useLevelsPush m (st.level use) use) []
  if useLevels.length > 1 then
    match useLevels.reverse with
    | [] => (0, st)
    | (termLevel, _) :: rest => (termLevel, ModSwitcher.groupLoop term rest st term termLevel)
  else
    match useLevels with
    | [] => (0, { st with ok := false })
    | (termLevel, _) :: _ => (termLevel, st)

/-- `ModSwitcher::operator()`. -/
def ModSwitcher.visit (st : ModSwitcher) (term : Nat) : Option ModSwitcher :=
  if (st.program.uses term).length = 0 then some st
  else if st.type term = TermType.Raw then some st
  else
    let st1 : ModSwitcher :=
      if st.program.op term = Op.Encode then
        { st with encodeNodes := st.encodeNodes ++ [term] }
      else st
    let r := st1.levelUses term
    let termLevel := if isRescaleOp (r.2.program.op term) then add32 r.1 1 else r.1
    some { r.2 with level := Function.update r.2.level term termLevel }

/-- `ModSwitcher` as a rewriter of a pass. -/
def ModSwitcher.rewriter : Rewriter ModSwitcher :=
  { program := fun st => st.program, rewrite := ModSwitcher.visit }

/-- The first loop of `ModSwitcher::~ModSwitcher`: the largest level of a
source. -/
def ModSwitcher.maxLevel (st : ModSwitcher) : Nat :=
  st.program.getSources.foldl
    (fun maxLevel source => if st.level source > maxLevel then st.level source else maxLevel) 0

/-- `ModSwitcher::~ModSwitcher`: writes `EncodeAtLevelAttribute` on the sources
and on the recorded `Encode` terms. -/
def ModSwitcher.finish (st : ModSwitcher) : ModSwitcher :=
  let sources := st.program.getSources
  let maxLevel := st.maxLevel
  let p1 := sources.foldl
    (fun p source => Term.setAttribute p source EncodeAtLevelAttribute
      (AttributeValue.uint32 (sub32 maxLevel (st.level source)))) st.program
  let p2 := st.encodeNodes.foldl
    (fun p encode => Term.setAttribute p encode EncodeAtLevelAttribute
      (AttributeValue.uint32 (sub32 maxLevel (st.level encode)))) p1
  { st with program := p2 }

/-! ## `eva/ckks/levels_checker.h` -/

/-- The modulus of `std::size_t`. -/
def size64 : Nat := 2 ^ 64

/-- The members of `LevelsChecker`.  `ok` turns `false` when the `assert` of
the call operator is reached with a false condition. -/
structure LevelsChecker where
  program : Program
  types : Nat → TermType
  levels : Nat → Nat
  ok : Bool

/-- The state the constructor leaves. -/
def LevelsChecker.init (program : Program) (types : Nat → TermType) : LevelsChecker :=
  { program := program, types := types, levels := fun _ => 0, ok := true }

/-- The first loop of the call operator: the level of the first `Cipher`
operand; `junk` stands for the value of the uninitialised `operandLevel` when
no operand is `Cipher`. -/
def LevelsChecker.firstCipherLevel (st : LevelsChecker) (junk : Nat) : List Nat → Nat
  | [] => junk
  | operand :: rest =>
    if st.types operand = TermType.Cipher then st.levels operand
    else LevelsChecker.firstCipherLevel st junk rest

/-- `LevelsChecker::operator()`; `none` when a source has no
`EncodeAtLevelAttribute`. -/
def LevelsChecker.visit (junk : Nat) (st : LevelsChecker) (term : Nat) : Option LevelsChecker :=
  if (st.program.operands term).length = 0 then
    match AttributeList.getUInt32 (st.program.attributes term) EncodeAtLevelAttribute with
    | none => none
    | some l => some { st with levels := Function.update st.levels term l }
  else
    let operandLevel := LevelsChecker.firstCipherLevel st junk (st.program.operands term)
    let ok := (st.program.operands term).foldl
      (fun ok operand =>
        if st.types operand = TermType.Cipher then
          ok && decide (operandLevel = st.levels operand)
        else ok) st.ok
    let level :=
      if isRescaleOp (st.program.op term) || decide (st.program.op term = Op.ModSwitch) then
        (operandLevel + 1) % size64
      else operandLevel
    some { st with levels := Function.update st.levels term level, ok := ok }

/-- `LevelsChecker` as a rewriter of a pass. -/
def LevelsChecker.rewriter (junk : Nat) : Rewriter LevelsChecker :=
  { program := fun st => st.program, rewrite := LevelsChecker.visit junk }

/-- The level check of LevelsChecker, term by term: the `Cipher` operands of a
term with operands all have the same level. -/
def LevelsChecker.levelsEqualAt (st : LevelsChecker) (t : Nat) : Prop :=
  ∀ o1 ∈ st.program.operands t, ∀ o2 ∈ st.program.operands t,
    st.types o1 = TermType.Cipher → st.types o2 = TermType.Cipher →
    st.levels o1 = st.levels o2

/-- The passes of `CKKSCompiler` around `ModSwitcher`: `TypeDeducer`, the
backward pass of `ModSwitcher` and its destructor, `TypeDeducer` again, then
the forward pass of `LevelsChecker`. -/
def switchAndCheck (fuel junk : Nat) (p : Program) (scales : TermMapOptional) :
    Option LevelsChecker :=
  match deduceTypes fuel p with
  | none => none
  | some types =>
    match backwardPass ModSwitcher.rewriter fuel (ModSwitcher.init p types scales) with
    | none => none
    | some st =>
      let q := st.env.finish.program
      match deduceTypes q.nextTermIndex q with
      | none => none
      | some types1 =>
        (forwardPass (LevelsChecker.rewriter junk) q.nextTermIndex
          (LevelsChecker.init q types1)).map (fun lc => lc.env)


/-! ## Passes whose rewriter modifies the graph -/

/-- The rewriter `R` read against a fixed graph `p0`: the same call operator,
with the traversal looking at `p0` in place of the current program. -/
def Rewriter.over {σ : Type} (R : Rewriter σ) (p0 : Program) : Rewriter σ :=
  { program := fun _ => p0, rewrite := R.rewrite }

/-- What the traversal can see of the current program `q` agrees with the
graph `p0` the pass started on: no new leaf, the successors of the terms not
yet visited and of the term visited last, and the predecessors of the terms of
`p0` not yet visited. -/
structure Sim (isForward : Bool) (p0 q : Program) (visited : List Nat) : Prop where
  leaf : ∀ x ∈ leaves isForward q, x ∈ leaves isForward p0
  succ : ∀ t, t < p0.nextTermIndex → t ∉ visited.dropLast →
    successors isForward q t = successors isForward p0 t
  pred : ∀ s, s < p0.nextTermIndex → s ∉ visited →
    ∀ o, o ∈ predecessors isForward q s ↔ o ∈ predecessors isForward p0 s


/-! ## Invariants of the `ModSwitcher` pass -/

/-- The number of levels a term of the starting program consumes: 1 for a
`Rescale`, 0 otherwise. -/
def levelCost (p : Program) (x : Nat) : Nat := if p.op x = Op.Rescale then 1 else 0

/-- What holds of the state of `ModSwitcher` between two calls of a backward
pass over `p0`, after the calls logged in `visited`. -/
structure SwitchInv (p0 : Program) (types : Nat → TermType) (st : ModSwitcher)
    (visited : List Nat) : Prop where
  wf : st.program.WellFormed
  type_eq : st.type = types
  next_le : p0.nextTermIndex ≤ st.program.nextTermIndex
  vis_nodup : visited.Nodup
  vis_lt : ∀ v ∈ visited, v < p0.nextTermIndex
  vis_closed : ∀ y ∈ visited, ∀ t, y ∈ p0.operands t → t ∈ visited
  op_old : ∀ t, t < p0.nextTermIndex →
    st.program.op t = p0.op t ∧ st.program.attributes t = p0.attributes t
  ops_unvisited : ∀ t, t < p0.nextTermIndex → t ∉ visited.dropLast →
    st.program.operands t = p0.operands t
  uses_unvisited : ∀ s, s < p0.nextTermIndex → s ∉ visited →
    ∀ t, s ∈ st.program.operands t ↔ s ∈ p0.operands t
  has_use : ∀ y, y < p0.nextTermIndex →
    ((∃ t, y ∈ st.program.operands t) ↔ ∃ t, y ∈ p0.operands t)
  base : ∃ base : Nat → Nat, (∀ t, t < p0.nextTermIndex → base t = t) ∧
    (∀ t, t < p0.nextTermIndex → (st.program.operands t).map base = p0.operands t) ∧
    (∀ m, p0.nextTermIndex ≤ m → m < st.program.nextTermIndex →
      ∃ prev, st.program.operands m = [prev] ∧ base m = base prev)
  new_node : ∀ m, p0.nextTermIndex ≤ m → m < st.program.nextTermIndex →
    st.program.op m = Op.ModSwitch ∧
    (∀ t, m ∈ st.program.operands t → st.level t + 1 = st.level m) ∧
    ∃ t, m ∈ st.program.operands t
  closed : ∀ y ∈ visited, types y ≠ TermType.Raw →
    ∀ t, y ∈ st.program.operands t → st.level t + levelCost p0 y = st.level y
  level_le : ∀ y, st.level y ≤ visited.length
  rank : ∃ r : Nat → Nat, ∀ t, ∀ o ∈ st.program.operands t, r o < r t

/-- What holds of the state of `ModSwitcher` inside the call for `x`: `temp`
and `T` are the variables `temp` and `tempLevel`, `k0` is the largest level of
a use of `x`, `pend` lists the uses still to be redirected and `lv` their
levels. -/
structure SwitchOpen (p0 : Program) (types : Nat → TermType) (lv : Nat → Nat)
    (st : ModSwitcher) (visited : List Nat) (x temp T k0 : Nat) (pend : List Nat) : Prop where
  wf : st.program.WellFormed
  type_eq : st.type = types
  next_le : p0.nextTermIndex ≤ st.program.nextTermIndex
  vis_nodup : visited.Nodup
  vis_lt : ∀ v ∈ visited, v < p0.nextTermIndex
  vis_closed : ∀ y ∈ visited, ∀ t, y ∈ p0.operands t → t ∈ visited
  x_lt : x < p0.nextTermIndex
  x_new : x ∉ visited
  temp_lt : temp < st.program.nextTermIndex
  temp_cases : (temp = x ∧ T = k0) ∨ (p0.nextTermIndex ≤ temp ∧ st.level temp = T + 1)
  op_old : ∀ t, t < p0.nextTermIndex →
    st.program.op t = p0.op t ∧ st.program.attributes t = p0.attributes t
  ops_unvisited : ∀ t, t < p0.nextTermIndex → t ∉ visited →
    st.program.operands t = p0.operands t
  uses_unvisited : ∀ s, s < p0.nextTermIndex → s ∉ visited → s ≠ x →
    ∀ t, s ∈ st.program.operands t ↔ s ∈ p0.operands t
  has_use : ∀ y, y < p0.nextTermIndex → y ≠ x →
    ((∃ t, y ∈ st.program.operands t) ↔ ∃ t, y ∈ p0.operands t)
  x_use0 : ∃ t, x ∈ p0.operands t
  x_use : ∃ t, x ∈ st.program.operands t ∧ st.level t = k0
  base : ∃ base : Nat → Nat, (∀ t, t < p0.nextTermIndex → base t = t) ∧
    (∀ t, t < p0.nextTermIndex → (st.program.operands t).map base = p0.operands t) ∧
    (∀ m, p0.nextTermIndex ≤ m → m < st.program.nextTermIndex →
      ∃ prev, st.program.operands m = [prev] ∧ base m = base prev) ∧
    base temp = x
  new_node : ∀ m, p0.nextTermIndex ≤ m → m < st.program.nextTermIndex →
    st.program.op m = Op.ModSwitch ∧
    (∀ t, m ∈ st.program.operands t → st.level t + 1 = st.level m) ∧
    (m ≠ temp → ∃ t, m ∈ st.program.operands t)
  temp_use : temp ≠ x → (∃ t, temp ∈ st.program.operands t) ∨ pend ≠ []
  temp_uses : temp ≠ x → ∀ t, temp ∈ st.program.operands t → st.level t = T
  x_uses : ∀ t, x ∈ st.program.operands t → st.level t = k0 ∨ t ∈ pend
  closed : ∀ y ∈ visited, types y ≠ TermType.Raw →
    ∀ t, y ∈ st.program.operands t → st.level t + levelCost p0 y = st.level y
  pend_ok : ∀ u ∈ pend, u ∈ visited ∧ st.level u = lv u ∧ lv u < k0 ∧ lv u ≤ T ∧
    (x ∈ st.program.operands u ∨ (temp ≠ x ∧ temp ∈ st.program.operands u ∧ lv u = T))
  level_le : ∀ y, st.level y ≤ visited.length
  k0_le : k0 ≤ visited.length
  T_le : T ≤ k0
  rank : ∃ r : Nat → Nat, (∀ t, ∀ o ∈ st.program.operands t, r o < r t) ∧
    ∀ u ∈ pend, r temp < r u


/-! ## What the forward passes of `TypeDeducer` and `LevelsChecker` compute -/

/-- The type `TypeDeducer` infers from the operands: `Cipher` if an operand is
`Cipher`, `Raw` otherwise. -/
def inferredType (ty : Nat → TermType) (operands : List Nat) : TermType :=
  operands.foldl
    (fun inferred operand => if ty operand = TermType.Cipher then TermType.Cipher else inferred)
    TermType.Raw

/-- The equation `TypeDeducer` establishes at the term `t`. -/
def TypeRule (q : Program) (ty : Nat → TermType) (t : Nat) : Prop :=
  if q.operands t = [] then
    (if q.op t = Op.Constant then ty t = TermType.Raw
     else AttributeList.getType (q.attributes t) = some (ty t))
  else ty t = if q.op t = Op.Encode then TermType.Plain else inferredType ty (q.operands t)

/-- The invariant of a forward pass of `TypeDeducer` over `q`. -/
def TypeDeducerInv (q : Program) (env : TypeDeducer) (visited : List Nat) : Prop :=
  env.program = q ∧ (∀ t ∈ visited, ∀ o ∈ q.operands t, o ∈ visited) ∧
    ∀ t ∈ visited, TypeRule q env.types t

/-- The number of levels a term consumes in `LevelsChecker`: 1 for a `Rescale`
and for a `ModSwitch`, 0 otherwise. -/
def checkerCost (q : Program) (x : Nat) : Nat :=
  if q.op x = Op.Rescale ∨ q.op x = Op.ModSwitch then 1 else 0

/-- The invariant of a forward pass of `LevelsChecker` over `q` with types
`ty`, against reverse levels `L` and their maximum `M` over the sources: no
assertion has failed, and the level of every `Cipher` term visited is `M`
minus its reverse level, plus its own cost. -/
def LevelsCheckerInv (q : Program) (ty : Nat → TermType) (L : Nat → Nat) (M : Nat)
    (env : LevelsChecker) (visited : List Nat) : Prop :=
  env.program = q ∧ env.types = ty ∧ env.ok = true ∧
    (∀ t ∈ visited, ∀ o ∈ q.operands t, o ∈ visited) ∧
    ∀ y ∈ visited, ty y = TermType.Cipher → env.levels y + L y = M + checkerCost q y


/-! ## Sample programs for the level passes -/

/-- The program `out = x + ModSwitch(x)` over a `Cipher` input `x` (term 0):
the `ModSwitch` is term 1, the `Add` term 2 and the output term 3. -/
def preSwitched : Program :=
  let g := [Cmd.makeTerm Op.Input [], Cmd.makeTerm Op.ModSwitch [0], Cmd.makeTerm Op.Add [0, 1],
    Cmd.makeTerm Op.Output [2]].foldl Cmd.exec (Program.empty "preSwitched" 8)
  Term.setAttribute g 0 TypeAttribute (AttributeValue.type TermType.Cipher)

/-- The program `out = x * Rescale(x)` over a `Cipher` input `x` (term 0): the
`Rescale` is term 1, the `Mul` term 2 and the output term 3. -/
def rescaledProduct : Program :=
  let g := [Cmd.makeTerm Op.Input [], Cmd.makeTerm Op.Rescale [0], Cmd.makeTerm Op.Mul [0, 1],
    Cmd.makeTerm Op.Output [2]].foldl Cmd.exec (Program.empty "rescaledProduct" 8)
  Term.setAttribute g 0 TypeAttribute (AttributeValue.type TermType.Cipher)

/-! ## Inputs for the `Minimum` policy on a product -/

/-- The program `out = a * c` over two `Cipher` inputs, `a` encoded at scale
30 and `c` at scale 20.  Terms: `a = 0`, `c = 1`, the `Mul` is 2, the output 3. -/
def unequalProduct : Program :=
  let a := (Program.empty "product" 8).makeInput "a" TermType.Cipher
  let p1 := Term.setAttribute a.2 a.1 EncodeAtScaleAttribute (AttributeValue.uint32 30)
  let c := p1.makeInput "c" TermType.Cipher
  let p2 := Term.setAttribute c.2 c.1 EncodeAtScaleAttribute (AttributeValue.uint32 20)
  let m := p2.makeTerm Op.Mul [a.1, c.1]
  let out := m.2.makeOutput "out" m.1
  Term.setAttribute out.2 out.1 RangeAttribute (AttributeValue.uint32 10)

/-! ## A sample program for `TypeDeducer` -/

/-- The program `out = x * Encode(c)` with a second, unused term `-c`, over a
`Cipher` input `x` (term 0) and a constant `c` (term 1): the `Encode` is term
2, the `Mul` term 3, the `Negate` term 4 and the output term 5. -/
def typedSample : Program :=
  let g := [Cmd.makeTerm Op.Input [], Cmd.makeTerm Op.Constant [], Cmd.makeTerm Op.Encode [1],
    Cmd.makeTerm Op.Mul [0, 2], Cmd.makeTerm Op.Negate [1],
    Cmd.makeTerm Op.Output [3]].foldl Cmd.exec (Program.empty "typedSample" 8)
  Term.setAttribute g 0 TypeAttribute (AttributeValue.type TermType.Cipher)

/-! ## `eva/common/rotation_keys_selector.h` -/

/-- `get<TAttr>()` for an attribute holding a `std::int32_t`; `none` when the
key is absent or holds another alternative. -/
def AttributeList.getInt32 (l : AttributeList) (k : Nat) : Option Int :=
  match AttributeList.get l k with
  | some (AttributeValue.int32 v) => some v
  | _ => none

/-- The unary minus of `int`: the most negative value, whose negation is not
representable, is left as it is (the machine result of the overflow). -/
def neg32 (v : Int) : Int := if v = -2147483648 then v else -v

/-- `std::set<int>::insert`: the set is the increasing list of its elements. -/
def keysInsert : List Int → Int → List Int
  | [], k => [k]
  | x :: xs, k =>
    if k < x then k :: x :: xs
    else if k = x then x :: xs
    else x :: keysInsert xs k

/-- The members of `RotationKeysSelector`. -/
structure RotationKeysSelector where
  program : Program
  type : Nat → TermType
  keys : List Int

/-- The constructor `RotationKeysSelector(g, type)`. -/
def RotationKeysSelector.init (g : Program) (type : Nat → TermType) : RotationKeysSelector :=
  { program := g, type := type, keys := [] }

/-- `isLeftRotationOp`. -/
def isLeftRotationOp (op : Op) : Bool := op = Op.RotateLeftConst

/-- `isRightRotationOp`. -/
def isRightRotationOp (op : Op) : Bool := op = Op.RotateRightConst

/-- `RotationKeysSelector::operator()`; `none` when a rotation that is not
`Raw` has no `RotationAttribute`. -/
def RotationKeysSelector.visit (st : RotationKeysSelector) (term : Nat) :
    Option RotationKeysSelector :=
  let op := st.program.op term
  if !isLeftRotationOp op && !isRightRotationOp op then some st
  else if st.type term = TermType.Raw then some st
  else
    match AttributeList.getInt32 (st.program.attributes term) RotationAttribute with
    | none => none
    | some rotation =>
      some { st with
        keys := keysInsert st.keys (if isRightRotationOp op then neg32 rotation else rotation) }

/-- `RotationKeysSelector` as a rewriter of a pass. -/
def RotationKeysSelector.rewriter : Rewriter RotationKeysSelector :=
  { program := fun st => st.program, rewrite := RotationKeysSelector.visit }

/-- `RotationKeysSelector::getRotationKeys` after a forward pass, as
`determineEncryptionParameters` runs it; `none` when the pass fails. -/
def selectRotationKeys (fuel : Nat) (p : Program) (type : Nat → TermType) : Option (List Int) :=
  (forwardPass RotationKeysSelector.rewriter fuel (RotationKeysSelector.init p type)).map
    (fun st => st.env.keys)

/-- The key a term contributes: the rotation step of a left rotation that is
not `Raw`, the negated step of such a right rotation. -/
def rotationKeyOf (q : Program) (ty : Nat → TermType) (t : Nat) : Option Int :=
  if (q.op t = Op.RotateLeftConst ∨ q.op t = Op.RotateRightConst) ∧ ty t ≠ TermType.Raw then
    (AttributeList.getInt32 (q.attributes t) RotationAttribute).map
      (fun r => if q.op t = Op.RotateRightConst then neg32 r else r)
  else none

/-- The invariant of a forward pass of `RotationKeysSelector` over `q`. -/
def RotationKeysInv (q : Program) (ty : Nat → TermType) (env : RotationKeysSelector)
    (visited : List Nat) : Prop :=
  env.program = q ∧ env.type = ty ∧
    ∀ k, k ∈ env.keys ↔ ∃ t ∈ visited, rotationKeyOf q ty t = some k

/-- The program `y = rotate_left(a, 3) + rotate_right(a, 5)` over a `Cipher`
input `a` (term 0): the left rotation is term 1, the right rotation term 2,
the `Add` term 3 and the output term 4. -/
def rotationSample : Program :=
  let g := [Cmd.makeTerm Op.Input [], Cmd.makeTerm Op.RotateLeftConst [0],
    Cmd.makeTerm Op.RotateRightConst [0], Cmd.makeTerm Op.Add [1, 2],
    Cmd.makeTerm Op.Output [3]].foldl Cmd.exec (Program.empty "rotations" 8)
  let g1 := Term.setAttribute g 0 TypeAttribute (AttributeValue.type TermType.Cipher)
  let g2 := Term.setAttribute g1 1 RotationAttribute (AttributeValue.int32 3)
  Term.setAttribute g2 2 RotationAttribute (AttributeValue.int32 5)

/-! ## `eva/ckks/ckks_compiler.h`: the ring degree -/

/-- The message of the exception of `getMinDegreeForBitCount`. -/
def degreeMessage (bitCount maxBitsSeen : Int) : String :=
  "Program requires a " ++ toString bitCount ++
    " bit modulus, but parameters are available for a maximum of " ++ toString maxBitsSeen

/-- The `while (true)` loop of `getMinDegreeForBitCount`, bounded by `fuel`
iterations: `none` when the fuel runs out, `Except.error` when the function
throws.  `degree` is a `std::size_t`. -/
def getMinDegreeLoop (MaxBitsFun : Nat → Int) (bitCount : Int) :
    Nat → Nat → Int → Option (Except String Nat)
  | 0, _, _ => none
  | fuel + 1, degree, maxBitsSeen =>
    let maxBitsForDegree := MaxBitsFun degree
    let maxBitsSeen1 := max maxBitsSeen maxBitsForDegree
    if maxBitsForDegree = 0 then some (Except.error (degreeMessage bitCount maxBitsSeen1))
    else if maxBitsForDegree ≥ bitCount then some (Except.ok degree)
    else getMinDegreeLoop MaxBitsFun bitCount fuel ((degree * 2) % size64) maxBitsSeen1

/-- `CKKSCompiler::getMinDegreeForBitCount`. -/
def getMinDegreeForBitCount (fuel : Nat) (MaxBitsFun : Nat → Int) (bitCount : Int) :
    Option (Except String Nat) :=
  getMinDegreeLoop MaxBitsFun bitCount fuel 1024 0

/-- The degree the loop of `getMinDegreeForBitCount` holds after `i`
doublings. -/
def degreeAt (i : Nat) : Nat := (1024 * 2 ^ i) % size64

/-- The struct `CKKSParameters`. -/
structure CKKSParameters where
  primeBits : List Nat
  rotations : List Int
  polyModulusDegree : Nat

/-- The members of `CKKSConfig` that `determineEncryptionParameters` reads. -/
structure CKKSConfig where
  securityLevel : Nat
  quantumSafe : Bool
  warnVecSize : Bool

/-- The six tables of the homomorphic encryption standard that
`determineEncryptionParameters` takes from the SEAL library: the largest
modulus bit count for a degree, `0` for a degree without an entry. -/
structure StandardTables where
  seal_he_std_parms_128_tc : Nat → Int
  seal_he_std_parms_192_tc : Nat → Int
  seal_he_std_parms_256_tc : Nat → Int
  seal_he_std_parms_128_tq : Nat → Int
  seal_he_std_parms_192_tq : Nat → Int
  seal_he_std_parms_256_tq : Nat → Int

/-- The value an `int` takes when the 32-bit unsigned result `z` of an
addition is stored in it. -/
def wrapInt32 (z : Int) : Int := (z + 2147483648) % 4294967296 - 2147483648

/-- The loop `bitCount += logQ` over the `std::uint32_t` entries of
`primeBits`, `bitCount` being an `int`. -/
def sumBits (primeBits : List Nat) : Int :=
  primeBits.foldl (fun bitCount logQ => wrapInt32 (bitCount + (logQ : Int))) 0

/-- The message of the exception for a security level above 256. -/
def securityMessage (securityLevel : Nat) : String :=
  "EVA has support for up to 256 bit security, but " ++ toString securityLevel ++
    " bit security was requested."

/-- The choice of the table and of the degree in
`determineEncryptionParameters`. -/
def chooseDegree (tables : StandardTables) (config : CKKSConfig) (fuel : Nat) (bitCount : Int) :
    Option (Except String Nat) :=
  if config.securityLevel ≤ 128 then
    if config.quantumSafe then getMinDegreeForBitCount fuel tables.seal_he_std_parms_128_tq bitCount
    else getMinDegreeForBitCount fuel tables.seal_he_std_parms_128_tc bitCount
  else if config.securityLevel ≤ 192 then
    if config.quantumSafe then getMinDegreeForBitCount fuel tables.seal_he_std_parms_192_tq bitCount
    else getMinDegreeForBitCount fuel tables.seal_he_std_parms_192_tc bitCount
  else if config.securityLevel ≤ 256 then
    if config.quantumSafe then getMinDegreeForBitCount fuel tables.seal_he_std_parms_256_tq bitCount
    else getMinDegreeForBitCount fuel tables.seal_he_std_parms_256_tc bitCount
  else some (Except.error (securityMessage config.securityLevel))

/-- `CKKSCompiler::determineEncryptionParameters`, up to the value of
`encParams` (the warnings and the printing are left out).  `none` when one of
the two passes or `getEncryptionParameters` does not return a value, or when
the fuel of the degree loop runs out; `Except.error` for the exceptions thrown
by the body itself. -/
def determineEncryptionParameters (tables : StandardTables) (config : CKKSConfig) (fuel : Nat)
    (program : Program) (scales : TermMapOptional) (types : Nat → TermType) :
    Option (Except String CKKSParameters) :=
  match forwardPass EncryptionParametersSelector.rewriter fuel
      (EncryptionParametersSelector.init program scales types) with
  | none => none
  | some eps =>
    match selectRotationKeys fuel program types with
    | none => none
    | some rotations =>
      match eps.env.getEncryptionParameters with
      | none => none
      | some primeBits =>
        match chooseDegree tables config fuel (sumBits primeBits) with
        | none => none
        | some (Except.error e) => some (Except.error e)
        | some (Except.ok degree) =>
          let polyModulusDegree := degree % u32
          let slots := polyModulusDegree / 2
          some (Except.ok
            { primeBits := primeBits, rotations := rotations,
              polyModulusDegree :=
                if slots < program.vecSize then mul32 2 program.vecSize else polyModulusDegree })

/-- A table of the shape of the standard ones: entries for the degrees 1024 to
32768, `0` elsewhere. -/
def sampleTable (degree : Nat) : Int :=
  if degree = 1024 then 27
  else if degree = 2048 then 54
  else if degree = 4096 then 109
  else if degree = 8192 then 218
  else if degree = 16384 then 438
  else if degree = 32768 then 881
  else 0

/-- Six copies of `sampleTable`. -/
def sampleTables : StandardTables :=
  { seal_he_std_parms_128_tc := sampleTable, seal_he_std_parms_192_tc := sampleTable,
    seal_he_std_parms_256_tc := sampleTable, seal_he_std_parms_128_tq := sampleTable,
    seal_he_std_parms_192_tq := sampleTable, seal_he_std_parms_256_tq := sampleTable }

/-! ## `eva/ckks/encode_inserter.h` -/

/-- The members of `EncodeInserter`; `ok` turns `false` when the `assert` of
the call operator fails. -/
structure EncodeInserter where
  program : Program
  type : Nat → TermType
  scale : TermMapOptional
  ok : Bool

/-- `EncodeInserter::insertEncodeNode`. -/
def EncodeInserter.insertEncodeNode (st : EncodeInserter) (op : Op) (other term : Nat) :
    Nat × EncodeInserter :=
  let r := st.program.makeTerm Op.Encode [term]
  let newNode := r.1
  let st1 : EncodeInserter :=
    { st with program := r.2, type := Function.update st.type newNode TermType.Plain }
  let st2 : EncodeInserter :=
    if isAdditionOp op then
      { st1 with scale := (st1.scale.touch other).assign newNode (st1.scale.val other) }
    else
      { st1 with scale := (st1.scale.touch term).assign newNode (st1.scale.val term) }
  let program1 := Term.setAttribute st2.program newNode EncodeAtScaleAttribute
    (AttributeValue.uint32 (st2.scale.val newNode))
  (newNode, { st2 with program := program1 })

/-- `EncodeInserter::operator()`.  `leftOperand` and `rightOperand` are
references to the two operand slots, so the second test reads the slots as
the first replacement left them. -/
def EncodeInserter.visit (st : EncodeInserter) (term : Nat) : EncodeInserter :=
  let operands := st.program.operands term
  match operands with
  | [] => st
  | _ :: _ =>
    let st0 : EncodeInserter := { st with ok := st.ok && decide (operands.length ≤ 2) }
    match operands with
    | [leftOperand, rightOperand] =>
      let st1 : EncodeInserter :=
        if st0.type leftOperand = TermType.Cipher ∧ st0.type rightOperand = TermType.Raw then
          let r := st0.insertEncodeNode (st0.program.op term) leftOperand rightOperand
          { r.2 with program := (Term.replaceOperand r.2.program term rightOperand r.1).2 }
        else st0
      let leftOperand1 := (st1.program.operands term).getD 0 leftOperand
      let rightOperand1 := (st1.program.operands term).getD 1 rightOperand
      if st1.type rightOperand1 = TermType.Cipher ∧ st1.type leftOperand1 = TermType.Raw then
        let r := st1.insertEncodeNode (st1.program.op term) rightOperand1 leftOperand1
        { r.2 with program := (Term.replaceOperand r.2.program term leftOperand1 r.1).2 }
      else st1
    | _ => st0

/-- `EncodeInserter` as a rewriter of a pass. -/
def EncodeInserter.rewriter : Rewriter EncodeInserter :=
  { program := fun st => st.program, rewrite := fun st term => some (st.visit term) }

/-- A state of `EncodeInserter` over the program `out = x * c`, `u = c + x` with the `Cipher` input `x` (term 0) at
scale 30 and the `Raw` constant `c` (term 1) at scale 20; the `Mul` is term 2,
the `Add` term 3 and the two `Cipher` outputs terms 4 and 5. -/
def encodeState : EncodeInserter :=
  { program := [Cmd.makeTerm Op.Input [], Cmd.makeTerm Op.Constant [], Cmd.makeTerm Op.Mul [0, 1],
      Cmd.makeTerm Op.Add [1, 0], Cmd.makeTerm Op.Output [2],
      Cmd.makeTerm Op.Output [3]].foldl Cmd.exec (Program.empty "encode" 8),
    type := fun t => if t = 1 then TermType.Raw else TermType.Cipher,
    scale := fun t => if t = 0 then some 30 else if t = 1 then some 20 else none,
    ok := true }

/-! ## `eva/ckks/lazy_relinearizer.h` -/

/-- The members of `LazyRelinearizer`; `ok` turns `false` when an `assert` of
the source fails. -/
structure LazyRelinearizer where
  program : Program
  type : Nat → TermType
  scale : TermMapOptional
  pending : Nat → Bool
  count : Nat
  countTotal : Nat
  ok : Bool

/-- The constructor `LazyRelinearizer(g, type, scale)`. -/
def LazyRelinearizer.init (g : Program) (type : Nat → TermType) (scale : TermMapOptional) :
    LazyRelinearizer :=
  { program := g, type := type, scale := scale, pending := fun _ => false, count := 0,
    countTotal := 0, ok := true }

/-- `isRotationOp`. -/
def isRotationOp (op : Op) : Bool := op = Op.RotateLeftConst || op = Op.RotateRightConst

/-- `isUnencryptedType`. -/
def isUnencryptedType (type : TermType) : Bool := type ≠ TermType.Cipher

/-- The loop of `areAllOperandsEncrypted`: the result, and whether every
`assert(type[op] != Type::Undef)` reached has held. -/
def LazyRelinearizer.allEncrypted (type : Nat → TermType) : List Nat → Bool × Bool
  | [] => (true, true)
  | op :: rest =>
    if isUnencryptedType (type op) then (false, decide (type op ≠ TermType.Undef))
    else
      let r := LazyRelinearizer.allEncrypted type rest
      (r.1, decide (type op ≠ TermType.Undef) && r.2)

/-- `areAllOperandsEncrypted`. -/
def LazyRelinearizer.areAllOperandsEncrypted (st : LazyRelinearizer) (term : Nat) : Bool × Bool :=
  LazyRelinearizer.allEncrypted st.type (st.program.operands term)

/-- `isEncryptedMultOp`: the result, and whether the assertions reached have
held; the operands are only looked at for a `Mul`. -/
def LazyRelinearizer.isEncryptedMultOp (st : LazyRelinearizer) (term : Nat) : Bool × Bool :=
  if isMultiplicationOp (st.program.op term) then st.areAllOperandsEncrypted term
  else (false, true)

/-- The loop over the uses that sets `mustInsert`, with its `break`: the
value of `mustInsert`, and whether the assertions reached have held. -/
def LazyRelinearizer.mustInsertLoop (st : LazyRelinearizer) (firstUse : Nat) :
    List Nat → Bool × Bool
  | [] => (false, true)
  | use :: rest =>
    let e := st.isEncryptedMultOp use
    if e.1 || isRotationOp (st.program.op use) || decide (st.program.op use = Op.Output)
        || decide (firstUse ≠ use) then (true, e.2)
    else
      let r := LazyRelinearizer.mustInsertLoop st firstUse rest
      (r.1, e.2 && r.2)

/-- The part of `LazyRelinearizer::operator()` after `pending[term]` has been
settled; `none` is the read of `getUses()[0]` on a term without uses. -/
def LazyRelinearizer.insertOrDelay (st : LazyRelinearizer) (term : Nat) (delayed : Bool) :
    Option LazyRelinearizer :=
  let st1 : LazyRelinearizer :=
    { st with ok := st.ok && decide (0 < (st.program.uses term).length) }
  match st1.program.uses term with
  | [] => none
  | firstUse :: _ =>
    let m := st1.mustInsertLoop firstUse (st1.program.uses term)
    let st2 : LazyRelinearizer := { st1 with ok := st1.ok && m.2 }
    if m.1 then
      let r := st2.program.makeTerm Op.Relinearize [term]
      let relinNode := r.1
      let st3 : LazyRelinearizer :=
        { st2 with program := r.2, countTotal := add32 st2.countTotal 1,
                   type := Function.update st2.type relinNode (st2.type term),
                   scale := (st2.scale.touch term).assign relinNode (st2.scale.val term) }
      some { st3 with program := Term.replaceOtherUsesWith st3.program term relinNode }
    else
      let st3 : LazyRelinearizer :=
        if delayed then { st2 with count := add32 st2.count 1 } else st2
      some { st3 with
        pending := (st3.program.uses term).foldl
          (fun pending use => Function.update pending use true) st3.pending }

/-- `LazyRelinearizer::operator()`. -/
def LazyRelinearizer.visit (st : LazyRelinearizer) (term : Nat) : Option LazyRelinearizer :=
  match st.program.operands term with
  | [] => some st
  | _ :: _ =>
    let e := st.isEncryptedMultOp term
    let st0 : LazyRelinearizer := { st with ok := st.ok && e.2 }
    if e.1 then
      let st1 : LazyRelinearizer :=
        { st0 with ok := st0.ok && decide (st0.pending term = false),
                   pending := Function.update st0.pending term true }
      st1.insertOrDelay term true
    else if st0.pending term = false then some st0
    else st0.insertOrDelay term false

/-- `LazyRelinearizer` as a rewriter of a pass. -/
def LazyRelinearizer.rewriter : Rewriter LazyRelinearizer :=
  { program := fun st => st.program, rewrite := LazyRelinearizer.visit }

/-- The condition under which `LazyRelinearizer` inserts a `Relinearize` term
after `t`: some use of `t` is a `Mul` with all operands `Cipher`, a rotation
or an `Output`, or two uses of `t` are different terms. -/
def LazyRelinearizer.MustInsert (st : LazyRelinearizer) (t : Nat) : Prop :=
  (∃ u ∈ st.program.uses t,
    (st.program.op u = Op.Mul ∧ ∀ o ∈ st.program.operands u, st.type o = TermType.Cipher) ∨
    st.program.op u = Op.RotateLeftConst ∨ st.program.op u = Op.RotateRightConst ∨
    st.program.op u = Op.Output) ∨
  ∃ u ∈ st.program.uses t, ∃ v ∈ st.program.uses t, u ≠ v

/-- A state of `LazyRelinearizer` over `out = (x * x) + x`, `o2 = -(x * x)`
with every term `Cipher`: `x` is term 0, the `Mul` term 1, the `Add` term 2,
the `Negate` term 3, the outputs terms 4 and 5. -/
def relinState : LazyRelinearizer :=
  LazyRelinearizer.init
    ([Cmd.makeTerm Op.Input [], Cmd.makeTerm Op.Mul [0, 0], Cmd.makeTerm Op.Add [1, 0],
      Cmd.makeTerm Op.Negate [1], Cmd.makeTerm Op.Output [2],
      Cmd.makeTerm Op.Output [3]].foldl Cmd.exec (Program.empty "relin" 8))
    (fun _ => TermType.Cipher) (fun _ => some 30)

/-! ## `eva/common/reduction_balancer.h`: `ReductionCombiner` -/

/-- `isReductionOp`. -/
def isReductionOp (op : Op) : Bool := op = Op.Add || op = Op.Mul

/-- `Term::isInternal`. -/
def Program.isInternal (p : Program) (t : Nat) : Bool :=
  (p.operands t).length ≠ 0 && (p.uses t).length ≠ 0

/-- The loop `while (use->eraseOperand(term))` of `ReductionCombiner`, whose
body adds the operands of `term` to `use`; bounded by `fuel` tests of the loop
condition, `none` when the fuel runs out. -/
def ReductionCombiner.combineLoop : Nat → Program → Nat → Nat → Option Program
  | 0, _, _, _ => none
  | fuel + 1, p, use, term =>
    let r := Term.eraseOperand p use term
    if r.1 then
      ReductionCombiner.combineLoop fuel
        ((r.2.operands term).foldl (fun q operand => Term.addOperand q use operand) r.2) use term
    else some r.2

/-- `ReductionCombiner::operator()`; the only member of the class is the
program. -/
def ReductionCombiner.visit (fuel : Nat) (p : Program) (term : Nat) : Option Program :=
  if !p.isInternal term || !isReductionOp (p.op term) then some p
  else
    match p.uses term with
    | [use] =>
      if p.op use = p.op term then ReductionCombiner.combineLoop fuel p use term
      else some p
    | _ => some p

/-- `ReductionCombiner` as a rewriter of a pass. -/
def ReductionCombiner.rewriter (fuel : Nat) : Rewriter Program :=
  { program := fun p => p, rewrite := ReductionCombiner.visit fuel }

/-- The left-nested sum `((((a + b) + c) + d) + e)` with an output: the inputs
`a` to `e` are the terms 0 to 4, the `Add` terms 5 to 8 from the innermost to
the outermost, the output term 9. -/
def nestedSum : Program :=
  [Cmd.makeTerm Op.Input [], Cmd.makeTerm Op.Input [], Cmd.makeTerm Op.Input [],
   Cmd.makeTerm Op.Input [], Cmd.makeTerm Op.Input [], Cmd.makeTerm Op.Add [0, 1],
   Cmd.makeTerm Op.Add [5, 2], Cmd.makeTerm Op.Add [6, 3], Cmd.makeTerm Op.Add [7, 4],
   Cmd.makeTerm Op.Output [8]].foldl Cmd.exec (Program.empty "nested" 8)

/-! ## `eva/common/reduction_balancer.h`: `ReductionLogExpander` -/

/-- The members of `ReductionLogExpander` that live across calls; `scale` is
its own `TermMapOptional<int>`.  The three work lists are empty between two
calls and are local to `visit` here.  `ok` turns `false` when an `assert` of
the source fails. -/
structure ReductionLogExpander where
  program : Program
  type : Nat → TermType
  scale : Nat → Option Int
  ok : Bool

/-- The constructor `ReductionLogExpander(g, type)`. -/
def ReductionLogExpander.init (g : Program) (type : Nat → TermType) : ReductionLogExpander :=
  { program := g, type := type, scale := fun _ => none, ok := true }

/-- `std::accumulate` over the operands with `sum + scale.at(operand)`, in
`int`; `none` when an operand has no scale. -/
def ReductionLogExpander.sumScales (scale : Nat → Option Int) : List Nat → Int → Option Int
  | [], sum => some sum
  | operand :: rest, sum =>
    match scale operand with
    | none => none
    | some s => ReductionLogExpander.sumScales scale rest (wrapInt32 (sum + s))

/-- `std::accumulate` over the operands with `std::max(max, scale.at(operand))`;
`none` when an operand has no scale. -/
def ReductionLogExpander.maxScales (scale : Nat → Option Int) : List Nat → Int → Option Int
  | [], m => some m
  | operand :: rest, m =>
    match scale operand with
    | none => none
    | some s => ReductionLogExpander.maxScales scale rest (max m s)

/-- The loop that files the operands under their `order` in `sortedOperands`,
a `std::map` keyed by `std::uint32_t`; `none` when a `Cipher` operand has no
scale. -/
def ReductionLogExpander.sortOperands (type : Nat → TermType) (scale : Nat → Option Int) :
    List Nat → List (Nat × List Nat) → Option (List (Nat × List Nat))
  | [], sortedOperands => some sortedOperands
  | operand :: rest, sortedOperands =>
    if type operand = TermType.Plain ∨ type operand = TermType.Raw then
      ReductionLogExpander.sortOperands type scale rest (useLevelsPush sortedOperands 1 operand)
    else if type operand = TermType.Cipher then
      match scale operand with
      | none => none
      | some s =>
        ReductionLogExpander.sortOperands type scale rest
          (useLevelsPush sortedOperands ((wrapInt32 (2 + s)) % 4294967296).toNat operand)
    else ReductionLogExpander.sortOperands type scale rest (useLevelsPush sortedOperands 0 operand)

/-- One round of the inner loop `while ((i + 1) < operands.size())` with the
step that carries an odd operand over: adjacent operands are paired under new
terms. -/
def ReductionLogExpander.pairUp (op : Op) : Program → List Nat → List Nat → Program × List Nat
  | p, leftOperand :: rightOperand :: rest, nextOperands =>
    let r := p.makeTerm op [leftOperand, rightOperand]
    ReductionLogExpander.pairUp op r.2 rest (nextOperands ++ [r.1])
  | p, [operand], nextOperands => (p, nextOperands ++ [operand])
  | p, [], nextOperands => (p, nextOperands)

/-- The loop `while (operands.size() > 2)`, bounded by `fuel` rounds; `none`
when the fuel runs out. -/
def ReductionLogExpander.expandLoop (op : Op) : Nat → Program → List Nat →
    Option (Program × List Nat)
  | 0, p, operands => if operands.length > 2 then none else some (p, operands)
  | fuel + 1, p, operands =>
    if operands.length > 2 then
      let r := ReductionLogExpander.pairUp op p operands []
      ReductionLogExpander.expandLoop op fuel r.1 r.2
    else some (p, operands)

/-- `ReductionLogExpander::operator()`; `none` when it throws.  The loop that
pairs the operands is given as many rounds as the term has operands, more
than it takes. -/
def ReductionLogExpander.visit (st : ReductionLogExpander) (term : Nat) :
    Option ReductionLogExpander :=
  let op := st.program.op term
  if op = Op.Rescale ∨ op = Op.ModSwitch then none
  else
    let termOperands := st.program.operands term
    let scale1 : Option (Nat → Option Int) :=
      if termOperands.length = 0 then
        (AttributeList.getUInt32 (st.program.attributes term) EncodeAtScaleAttribute).map
          (fun s => Function.update st.scale term (some (wrapInt32 (s : Int))))
      else if op = Op.Mul then
        (ReductionLogExpander.sumScales st.scale termOperands 0).map
          (fun s => Function.update st.scale term (some s))
      else
        (ReductionLogExpander.maxScales st.scale termOperands 0).map
          (fun s => Function.update st.scale term (some s))
    match scale1 with
    | none => none
    | some scale =>
      let st1 : ReductionLogExpander := { st with scale := scale }
      if isReductionOp op && decide (termOperands.length > 2) then
        match ReductionLogExpander.sortOperands st1.type st1.scale termOperands [] with
        | none => none
        | some sortedOperands =>
          let operands := (sortedOperands.map Prod.snd).flatten
          let st2 : ReductionLogExpander :=
            { st1 with ok := st1.ok && decide (operands.length ≥ 2) }
          match ReductionLogExpander.expandLoop op operands.length st2.program operands with
          | none => none
          | some r =>
            some { st2 with program := Term.setOperands r.1 term r.2,
                            ok := st2.ok && decide (r.2.length = 2) }
      else some st1

/-- `ReductionLogExpander` as a rewriter of a pass. -/
def ReductionLogExpander.rewriter : Rewriter ReductionLogExpander :=
  { program := fun st => st.program, rewrite := ReductionLogExpander.visit }

/-- The tree of created terms below `x` in the program `q`, the created terms
being those with index at least `base`: `TreeAt q base x leaves height` holds
when `x` is an older term, a leaf of height 0, or a created term with two
operands that carry trees. -/
inductive TreeAt (q : Program) (base : Nat) : Nat → List Nat → Nat → Prop where
  | leaf (x : Nat) : x < base → TreeAt q base x [x] 0
  | node (x l r : Nat) (leavesL leavesR : List Nat) (heightL heightR : Nat) :
      base ≤ x → q.operands x = [l, r] →
      TreeAt q base l leavesL heightL → TreeAt q base r leavesR heightR →
      TreeAt q base x (leavesL ++ leavesR) (1 + max heightL heightR)

/-- A list of roots of trees of created terms, none higher than `k`, with the
leaves of all the trees in order. -/
inductive Forest (q : Program) (base k : Nat) : List Nat → List Nat → Prop where
  | nil : Forest q base k [] []
  | cons (x : Nat) (rest leaves restLeaves : List Nat) (height : Nat) :
      TreeAt q base x leaves height → height ≤ k → Forest q base k rest restLeaves →
      Forest q base k (x :: rest) (leaves ++ restLeaves)

/-- The program `q` comes from the consistent program `p` by creating terms of
operation `op` with two operands each, the older terms being left as they
were. -/
structure Expands (op : Op) (p q : Program) : Prop where
  cons : q.Consistent
  next : p.nextTermIndex ≤ q.nextTermIndex
  old : ∀ y, y < p.nextTermIndex → q.operands y = p.operands y ∧ q.op y = p.op y
  created : ∀ y, p.nextTermIndex ≤ y → y < q.nextTermIndex →
    q.op y = op ∧ (q.operands y).length = 2

/-- A state of `ReductionLogExpander` before the sum of five `Cipher` inputs
(terms 0 to 4, the `Add` is term 5, the output term 6) is visited: the inputs
have been visited and have the scales 30, 20, 30, 20, 30. -/
def expandState : ReductionLogExpander :=
  { program := [Cmd.makeTerm Op.Input [], Cmd.makeTerm Op.Input [], Cmd.makeTerm Op.Input [],
      Cmd.makeTerm Op.Input [], Cmd.makeTerm Op.Input [], Cmd.makeTerm Op.Add [0, 1, 2, 3, 4],
      Cmd.makeTerm Op.Output [5]].foldl Cmd.exec (Program.empty "sum5" 8),
    type := fun _ => TermType.Cipher,
    scale := fun t => if t < 5 then (if t % 2 = 0 then some 30 else some 20) else none,
    ok := true }

/-! ## `eva/ckks/lazy_waterline_rescaler.h` -/

/-- The members of `LazyWaterlineRescaler`: those of `Rescaler` with
`minScale`, and the two maps `pending` and `level`. -/
structure LazyWaterlineRescaler where
  base : Rescaler
  pending : Nat → Bool
  level : Nat → Nat

/-- The constructor `LazyWaterlineRescaler(g, type, scale)`. -/
def LazyWaterlineRescaler.init (program : Program) (type : Nat → TermType)
    (scale : TermMapOptional) : LazyWaterlineRescaler :=
  { base := Rescaler.init program type scale, pending := fun _ => false, level := fun _ => 0 }

/-- The loop of `insertRescaleRecursive`, bounded by `fuel` iterations; it
returns `temp`, `num` and the state, `none` when the fuel runs out. -/
def LazyWaterlineRescaler.rescaleLoop : Nat → Rescaler → Nat → Nat → Nat →
    Option (Nat × Nat × Rescaler)
  | 0, st, temp, termScale, num =>
    if termScale ≥ add32 fixedRescale st.minScale then none else some (temp, num, st)
  | fuel + 1, st, temp, termScale, num =>
    if termScale ≥ add32 fixedRescale st.minScale then
      let r := st.insertRescale temp fixedRescale
      let termScale1 := sub32 termScale fixedRescale
      LazyWaterlineRescaler.rescaleLoop fuel (r.2.check (termScale1 = r.2.scaleOf r.1)) r.1
        termScale1 ((num + 1) % size64)
    else some (temp, num, st)

/-- `LazyWaterlineRescaler::insertRescaleRecursive`. -/
def LazyWaterlineRescaler.insertRescaleRecursive (fuel : Nat) (st : LazyWaterlineRescaler)
    (term : Nat) : Option LazyWaterlineRescaler :=
  match LazyWaterlineRescaler.rescaleLoop fuel (st.base.touch term) term (st.base.scaleOf term) 0
  with
  | none => none
  | some (temp, num, base) =>
    some { st with base := base,
                   level := Function.update st.level temp ((st.level term + num) % u32) }

/-- The loop `if (level[operand] > maxLevel) maxLevel = level[operand]`. -/
def LazyWaterlineRescaler.maxLevel (st : LazyWaterlineRescaler) (operands : List Nat) : Nat :=
  operands.foldl
    (fun maxLevel operand => if st.level operand > maxLevel then st.level operand else maxLevel) 0

/-- The end of `LazyWaterlineRescaler::operator()`, reached with the term
pending: a rescaling chain is inserted when a use is a `Mul` or an `Output` or
the uses differ, and the uses are marked pending otherwise.  `none` is the
read of `getUses()[0]` on a term without uses, or the end of the fuel. -/
def LazyWaterlineRescaler.insertOrDelay (fuel : Nat) (st : LazyWaterlineRescaler) (term : Nat) :
    Option LazyWaterlineRescaler :=
  let b1 := (st.base.check (st.pending term = true)).check
    (0 < (st.base.program.uses term).length)
  let st1 : LazyWaterlineRescaler := { st with base := b1 }
  match st1.base.program.uses term with
  | [] => none
  | firstUse :: _ =>
    let mustInsert := (st1.base.program.uses term).any
      (fun use => isMultiplicationOp (st1.base.program.op use) ||
        decide (st1.base.program.op use = Op.Output) || decide (firstUse ≠ use))
    if mustInsert then
      LazyWaterlineRescaler.insertRescaleRecursive fuel
        { st1 with pending := Function.update st1.pending term false } term
    else
      some { st1 with
        pending := (st1.base.program.uses term).foldl
          (fun pending use => Function.update pending use true) st1.pending }

/-- `LazyWaterlineRescaler::operator()`; `fuel` bounds the rescale loop. -/
def LazyWaterlineRescaler.visit (fuel : Nat) (st : LazyWaterlineRescaler) (term : Nat) :
    Option LazyWaterlineRescaler :=
  let operands := st.base.program.operands term
  match operands with
  | [] => some st
  | first :: _ =>
    if st.base.type term = TermType.Raw then
      (st.base.handleRawScale term).map (fun b => { st with base := b })
    else if isRescaleOp (st.base.program.op term) then some st
    else if isMultiplicationOp (st.base.program.op term) then
      let b0 := st.base.check (st.pending term = false)
      let multScale := b0.sumScales operands
      let maxLevel := st.maxLevel operands
      let b1 := ((b0.touchAll operands).check (multScale ≠ 0)).setScale term multScale
      let st1 : LazyWaterlineRescaler :=
        { st with base := b1, level := Function.update st.level term maxLevel }
      if multScale ≥ add32 fixedRescale b1.minScale then
        LazyWaterlineRescaler.insertOrDelay fuel
          { st1 with pending := Function.update st1.pending term true } term
      else some st1
    else
      let b1 := (st.base.touch first).setScale term (st.base.scaleOf first)
      let st1 : LazyWaterlineRescaler :=
        { st with base := b1, level := Function.update st.level term (st.level first) }
      let st2 : Option LazyWaterlineRescaler :=
        if isAdditionOp (st.base.program.op term) then
          let st1a : LazyWaterlineRescaler :=
            { st1 with level := Function.update st1.level term (st1.maxLevel operands) }
          let maxScale := st1a.base.maxScale operands (st1a.base.scaleOf term)
          let b2 := ((st1a.base.touch term).touchAll operands).setScale term maxScale
          match (List.range operands.length).foldl (Rescaler.matchScaleAt term maxScale)
              (some b2) with
          | none => none
          | some b3 => some { st1a with base := b3.checkMatched term maxScale }
        else some st1
      match st2 with
      | none => none
      | some st3 =>
        if st3.pending term = false then some st3
        else LazyWaterlineRescaler.insertOrDelay fuel st3 term

/-- `LazyWaterlineRescaler` as a rewriter of a pass. -/
def LazyWaterlineRescaler.rewriter (fuel : Nat) : Rewriter LazyWaterlineRescaler :=
  { program := fun st => st.base.program, rewrite := LazyWaterlineRescaler.visit fuel }

/-- A forward pass of `LazyWaterlineRescaler` over `p`, set up as `compile`
does: types from `TypeDeducer`, scales from the sources. -/
def runLazyWaterline (loopFuel fuel : Nat) (p : Program) : Option LazyWaterlineRescaler :=
  match deduceTypes fuel p, initScales p with
  | some types, some scales =>
    (forwardPass (LazyWaterlineRescaler.rewriter loopFuel) fuel
      (LazyWaterlineRescaler.init p types scales)).map (fun st => st.env)
  | _, _ => none

/-- The program `singleMul` with both inputs encoded at scale 60: the product
`a * b` of two `Cipher` inputs with an output `y`; terms `a = 0`, `b = 1`, the
`Mul` is 2, the output 3. -/
def singleMulSixty : Program :=
  let a := (Program.empty "single" 8).makeInput "a" TermType.Cipher
  let p1 := Term.setAttribute a.2 a.1 EncodeAtScaleAttribute (AttributeValue.uint32 60)
  let b := p1.makeInput "b" TermType.Cipher
  let p2 := Term.setAttribute b.2 b.1 EncodeAtScaleAttribute (AttributeValue.uint32 60)
  let m := p2.makeTerm Op.Mul [a.1, b.1]
  let out := m.2.makeOutput "y" m.1
  Term.setAttribute out.2 out.1 RangeAttribute (AttributeValue.uint32 10)

/-! ## `eva/ir/constant_value.h`: expansion, and `eva/common/constant_folder.h` -/

/-- `ConstantValue::validateSlots`: `false` when it throws (a `size` of zero,
for which `slots % size` is undefined, is rejected as well). -/
def validateSlots (size slots : Nat) : Bool :=
  decide (size ≠ 0) && decide (size ≤ slots) && decide (slots % size = 0)

/-- The inner loop of `SparseConstantValue::expand` for one entry: the
positions `entry.first + i` for `i = 0, step, 2 * step, ...` below `slots`
are written; `none` is the exception of `vector::at`. -/
def sparseWrite (slots step : Nat) (entry : Nat × ℚ) (scratch : Option (List ℚ)) :
    Option (List ℚ) :=
  (List.range ((slots + step - 1) / step)).foldl
    (fun acc j =>
      match acc with
      | none => none
      | some s =>
        if add32 entry.1 (j * step) < slots then some (s.set (add32 entry.1 (j * step)) entry.2)
        else none)
    scratch

/-- `ConstantValue::expand(scratch, slots)` of the two subclasses; `none` when
it throws. -/
def ConstantValue.expand : ConstantValue → Nat → Option (List ℚ)
  | ConstantValue.dense size values, slots =>
    if !validateSlots size slots then none
    else if values.length = slots then some values
    else if values.length = 0 then none
    else some (List.replicate (slots / values.length) values).flatten
  | ConstantValue.sparse size values, slots =>
    if !validateSlots size slots then none
    else values.foldl (fun acc entry => sparseWrite slots values.length entry acc)
      (some (List.replicate slots 0))

/-- `get<ConstantValueAttribute>()`; `none` when the key is absent or holds
another alternative. -/
def AttributeList.getConstant (l : AttributeList) : Option ConstantValue :=
  match AttributeList.get l ConstantValueAttribute with
  | some (AttributeValue.constant c) => some c
  | _ => none

/-- The members of `ConstantFolder` that live across calls; `ok` turns `false`
when an `assert` of the source fails. -/
structure ConstantFolder where
  program : Program
  scale : TermMapOptional
  ok : Bool

/-- The values of a constant term expanded to the vector size of the program,
`term->get<ConstantValueAttribute>()->expand(scratch, program.getVecSize())`;
`none` when the term has no constant or the expansion throws. -/
def Program.constantValues (p : Program) (t : Nat) : Option (List ℚ) :=
  match AttributeList.getConstant (p.attributes t) with
  | none => none
  | some c => c.expand p.vecSize

/-- The expansion of an argument, as `add` and the other helpers of
`ConstantFolder` start with. -/
def ConstantFolder.expandArg (st : ConstantFolder) (arg : Nat) : Option (List ℚ) :=
  st.program.constantValues arg

/-- `ConstantFolder::replaceNodeWithConstant`. -/
def ConstantFolder.replaceNodeWithConstant (st : ConstantFolder) (term : Nat) (output : List ℚ)
    (termScale : Nat) : Option ConstantFolder :=
  match st.program.makeDenseConstant output with
  | none => none
  | some c =>
    let constant := c.1
    let scale1 := st.scale.assign constant termScale
    let p1 := Term.setAttribute c.2 constant EncodeAtScaleAttribute
      (AttributeValue.uint32 (scale1.val constant))
    let p2 := Term.replaceAllUsesWith p1 term constant
    some { program := p2, scale := scale1, ok := st.ok && decide ((p2.uses term).length = 0) }

/-- The bodies of `add`, `sub` and `mul`, which differ in the operation `f`
applied slot by slot. -/
def ConstantFolder.binary (f : ℚ → ℚ → ℚ) (st : ConstantFolder) (output args1 args2 : Nat) :
    Option ConstantFolder :=
  match st.expandArg args1, st.expandArg args2 with
  | some input1, some input2 =>
    let outputValue := List.zipWith f input1 input2
    let st1 : ConstantFolder := { st with scale := (st.scale.touch args1).touch args2 }
    st1.replaceNodeWithConstant output outputValue
      (max (st1.scale.val args1) (st1.scale.val args2))
  | _, _ => none

/-- `ConstantFolder::add`. -/
def ConstantFolder.add (st : ConstantFolder) (output args1 args2 : Nat) : Option ConstantFolder :=
  ConstantFolder.binary (fun x y => x + y) st output args1 args2

/-- `ConstantFolder::sub`. -/
def ConstantFolder.sub (st : ConstantFolder) (output args1 args2 : Nat) : Option ConstantFolder :=
  ConstantFolder.binary (fun x y => x - y) st output args1 args2

/-- `ConstantFolder::mul`. -/
def ConstantFolder.mul (st : ConstantFolder) (output args1 args2 : Nat) : Option ConstantFolder :=
  ConstantFolder.binary (fun x y => x * y) st output args1 args2

/-- The two `while` loops that bring `shift` into `[0, size)`; `none` when
they do not end (a vector of size zero and a shift other than zero). -/
def normalizeShift (shift : Int) (size : Nat) : Option Nat :=
  if size = 0 then (if shift = 0 then some 0 else none)
  else some (shift % (size : Int)).toNat

/-- `ConstantFolder::leftRotate`. -/
def ConstantFolder.leftRotate (st : ConstantFolder) (output args1 : Nat) (shift : Int) :
    Option ConstantFolder :=
  match st.expandArg args1 with
  | none => none
  | some input1 =>
    match normalizeShift shift input1.length with
    | none => none
    | some s =>
      let outputValue := input1.drop s ++ input1.take s
      let st1 : ConstantFolder := { st with scale := st.scale.touch args1 }
      st1.replaceNodeWithConstant output outputValue (st1.scale.val args1)

/-- `ConstantFolder::rightRotate`. -/
def ConstantFolder.rightRotate (st : ConstantFolder) (output args1 : Nat) (shift : Int) :
    Option ConstantFolder :=
  match st.expandArg args1 with
  | none => none
  | some input1 =>
    match normalizeShift shift input1.length with
    | none => none
    | some s =>
      let outputValue := input1.drop (input1.length - s) ++ input1.take (input1.length - s)
      let st1 : ConstantFolder := { st with scale := st.scale.touch args1 }
      st1.replaceNodeWithConstant output outputValue (st1.scale.val args1)

/-- `ConstantFolder::negate`. -/
def ConstantFolder.negate (st : ConstantFolder) (output args1 : Nat) : Option ConstantFolder :=
  match st.expandArg args1 with
  | none => none
  | some input1 =>
    let outputValue := input1.map (fun x => -x)
    let st1 : ConstantFolder := { st with scale := st.scale.touch args1 }
    st1.replaceNodeWithConstant output outputValue (st1.scale.val args1)

/-- `ConstantFolder::operator()`; `none` when it throws, or reads `args[1]` of
a term with one operand. -/
def ConstantFolder.visit (st : ConstantFolder) (term : Nat) : Option ConstantFolder :=
  let args := st.program.operands term
  match args with
  | [] => some st
  | first :: rest =>
    if args.any (fun arg => decide (st.program.op arg ≠ Op.Constant)) then some st
    else
      let binaryCase (body : ConstantFolder → Nat → Nat → Nat → Option ConstantFolder) :
          Option ConstantFolder :=
        match rest with
        | [] => none
        | second :: _ =>
          body { st with ok := st.ok && decide (args.length = 2) } term first second
      let st1 : ConstantFolder := { st with ok := st.ok && decide (args.length = 1) }
      match st.program.op term with
      | Op.Add => binaryCase ConstantFolder.add
      | Op.Sub => binaryCase ConstantFolder.sub
      | Op.Mul => binaryCase ConstantFolder.mul
      | Op.RotateLeftConst =>
        match AttributeList.getInt32 (st.program.attributes term) RotationAttribute with
        | none => none
        | some shift => st1.leftRotate term first shift
      | Op.RotateRightConst =>
        match AttributeList.getInt32 (st.program.attributes term) RotationAttribute with
        | none => none
        | some shift => st1.rightRotate term first shift
      | Op.Negate => st1.negate term first
      | Op.Output => some st
      | Op.Encode => some st
      | _ => none

/-- `ConstantFolder` as a rewriter of a pass. -/
def ConstantFolder.rewriter : Rewriter ConstantFolder :=
  { program := fun st => st.program, rewrite := ConstantFolder.visit }

/-- The program `y = negate(add(const([1, 2]), const([3, 4])))` with vector
size 2: the two constants are the terms 0 and 1, the `Add` term 2, the
`Negate` term 3 and the output term 4. -/
def foldSample : Program :=
  let g := [Cmd.makeTerm Op.Constant [], Cmd.makeTerm Op.Constant [], Cmd.makeTerm Op.Add [0, 1],
    Cmd.makeTerm Op.Negate [2], Cmd.makeTerm Op.Output [3]].foldl Cmd.exec
    (Program.empty "fold" 2)
  let g1 := Term.setAttribute g 0 ConstantValueAttribute
    (AttributeValue.constant (ConstantValue.dense 2 [1, 2]))
  Term.setAttribute g1 1 ConstantValueAttribute
    (AttributeValue.constant (ConstantValue.dense 2 [3, 4]))

/-! ## A forward pass whose rewriter redirects the uses of the visited term -/

/-- The loop invariant of a forward `traverse` whose rewriter changes the
graph: as `TraversalInv`, over the program the rewriter holds at the moment. -/
structure ForwardInv {σ : Type} (R : Rewriter σ) (st : TraversalState σ) : Prop where
  proc_iff : ∀ t, st.processed t = true ↔ t ∈ st.visited
  vis_nodup : st.visited.Nodup
  rn_nodup : st.readyNodes.Nodup
  ready_iff : ∀ t, st.ready t = true ↔ (t ∈ st.readyNodes ∨ st.processed t = true)
  rn_unproc : ∀ t ∈ st.readyNodes, st.processed t = false
  ready_sound : ∀ t, st.ready t = true →
    t < (R.program st.env).nextTermIndex ∧
      ∀ o ∈ (R.program st.env).operands t, st.processed o = true
  ready_complete : ∀ s, s < (R.program st.env).nextTermIndex →
    (∀ o ∈ (R.program st.env).operands s, st.processed o = true) → st.ready s = true

/-- What a call of the rewriter on `t` may do to the graph `p`, giving `q`:
terms are only added, every term added is a source, and an older term whose
operand list changes had `t` as an operand and reads one of the terms added. -/
structure Redirects (p q : Program) (t : Nat) : Prop where
  next : p.nextTermIndex ≤ q.nextTermIndex
  changed : ∀ x, x < p.nextTermIndex → q.operands x ≠ p.operands x →
    t ∈ p.operands x ∧ ∃ k ∈ q.operands x, p.nextTermIndex ≤ k
  created : ∀ k, p.nextTermIndex ≤ k → k < q.nextTermIndex → q.operands k = []

/-! ## What a forward pass of `ConstantFolder` computes -/

/-- The operations `ConstantFolder` folds. -/
def isFoldedOp (op : Op) : Bool :=
  op = Op.Add || op = Op.Sub || op = Op.Mul || op = Op.Negate || op = Op.RotateLeftConst ||
    op = Op.RotateRightConst

/-- The vector the helpers `add`, `sub`, `mul`, `negate`, `leftRotate` and
`rightRotate` of `ConstantFolder` compute for the term `t`, in terms of the
vectors `ConstantValue::expand` returns for its operands
(`Program.constantValues`): sum, difference and product slot by slot, the
negation of every slot, and the vector rotated by the `RotationAttribute` to
the left or to the right. -/
def foldedValues (p : Program) (t : Nat) : Option (List ℚ) :=
  match p.op t, p.operands t with
  | Op.Add, [a, b] =>
    match p.constantValues a, p.constantValues b with
    | some x, some y => some (List.zipWith (fun u v => u + v) x y)
    | _, _ => none
  | Op.Sub, [a, b] =>
    match p.constantValues a, p.constantValues b with
    | some x, some y => some (List.zipWith (fun u v => u - v) x y)
    | _, _ => none
  | Op.Mul, [a, b] =>
    match p.constantValues a, p.constantValues b with
    | some x, some y => some (List.zipWith (fun u v => u * v) x y)
    | _, _ => none
  | Op.Negate, [a] =>
    match p.constantValues a with
    | some x => some (x.map (fun u => -u))
    | none => none
  | Op.RotateLeftConst, [a] =>
    match p.constantValues a, AttributeList.getInt32 (p.attributes t) RotationAttribute with
    | some x, some k => some (x.rotate (k % (x.length : Int)).toNat)
    | _, _ => none
  | Op.RotateRightConst, [a] =>
    match p.constantValues a, AttributeList.getInt32 (p.attributes t) RotationAttribute with
    | some x, some k => some (x.rotate (x.length - (k % (x.length : Int)).toNat))
    | _, _ => none
  | _, _ => none

/-- The programs on which the pass of `ConstantFolder` is shown to return: the
IR invariants hold, the vector size is positive, a term with operands is one
of the folded operations, an `Output` or an `Encode`, with two operands for
`Add`, `Sub` and `Mul` and one for `Negate` and the rotations, a rotation
carries its `RotationAttribute`, and every `Constant` carries a value that
expands to the vector size. -/
structure ConstantFolder.Admits (p0 : Program) : Prop where
  wf : p0.WellFormed
  acyclic : p0.Acyclic
  vec : 0 < p0.vecSize
  ops : ∀ t, t < p0.nextTermIndex → p0.operands t ≠ [] →
    isFoldedOp (p0.op t) = true ∨ p0.op t = Op.Output ∨ p0.op t = Op.Encode
  arity2 : ∀ t, t < p0.nextTermIndex → p0.operands t ≠ [] →
    (p0.op t = Op.Add ∨ p0.op t = Op.Sub ∨ p0.op t = Op.Mul) → (p0.operands t).length = 2
  arity1 : ∀ t, t < p0.nextTermIndex → p0.operands t ≠ [] →
    (p0.op t = Op.Negate ∨ p0.op t = Op.RotateLeftConst ∨ p0.op t = Op.RotateRightConst) →
    (p0.operands t).length = 1
  rot : ∀ t, t < p0.nextTermIndex → p0.operands t ≠ [] →
    (p0.op t = Op.RotateLeftConst ∨ p0.op t = Op.RotateRightConst) →
    (AttributeList.getInt32 (p0.attributes t) RotationAttribute).isSome
  consts : ∀ t, t < p0.nextTermIndex → p0.op t = Op.Constant →
    ∃ v, p0.constantValues t = some v ∧ v.length = p0.vecSize

/-- The invariant of a forward pass of `ConstantFolder` over `p0`; `fold t` is
the constant that has replaced the term `t`, when `t` has been folded. -/
structure FoldInv (p0 : Program) (fold : Nat → Option Nat) (env : ConstantFolder)
    (visited : List Nat) : Prop where
  cons : env.program.Consistent
  acyc : env.program.Acyclic
  vec : env.program.vecSize = p0.vecSize
  ok : env.ok = true
  vnodup : visited.Nodup
  next_ge : p0.nextTermIndex ≤ env.program.nextTermIndex
  grow : env.program.nextTermIndex
    ≤ p0.nextTermIndex + (visited.filter (fun x => decide (x < p0.nextTermIndex))).length
  old : ∀ x, x < p0.nextTermIndex →
    env.program.op x = p0.op x ∧ env.program.attributes x = p0.attributes x
  created : ∀ x, p0.nextTermIndex ≤ x → x < env.program.nextTermIndex →
    env.program.op x = Op.Constant ∧
      ∃ v, AttributeList.getConstant (env.program.attributes x)
          = some (ConstantValue.dense p0.vecSize v) ∧ v.length = p0.vecSize
  subst : ∀ u, env.program.operands u = (p0.operands u).map (fun y => (fold y).getD y)
  fold_some : ∀ t K, fold t = some K →
    t ∈ visited ∧ t < p0.nextTermIndex ∧ p0.nextTermIndex ≤ K ∧
      K < env.program.nextTermIndex ∧
      ∃ v, foldedValues env.program t = some v ∧
        AttributeList.getConstant (env.program.attributes K)
          = some (ConstantValue.dense p0.vecSize v)
  folded : ∀ t, t ∈ visited → isFoldedOp (env.program.op t) = true →
    env.program.operands t ≠ [] →
    (∀ o ∈ env.program.operands t, env.program.op o = Op.Constant) → (fold t).isSome
  closed : ∀ t, t ∈ visited → ∀ o ∈ env.program.operands t, o ∈ visited

/-! ## `Program::Program` and `getVecSize` (`eva/ir/program.h`) -/

/-- `Program::Program(name, vecSize)`: the parameter `vecSize` is a
`std::uint64_t`, on which the two checks of the body are made; the member
`vecSize` it initialises is a `std::uint32_t`.  `none` is the exception. -/
def Program.construct (name : String) (vecSize : Nat) : Option Program :=
  if vecSize = 0 then none
  else if Nat.land vecSize ((vecSize + size64 - 1) % size64) ≠ 0 then none
  else some (Program.empty name (vecSize % u32))

/-- `Program::getVecSize`. -/
def Program.getVecSize (p : Program) : Nat := p.vecSize

/-! ## `expandTo` of `eva/ir/constant_value.h` -/

/-- `DenseConstantValue::expandTo` and `SparseConstantValue::expandTo`; `none`
when it throws (the division by an empty `values` is raised as well). -/
def ConstantValue.expandTo : ConstantValue → Nat → Option (List ℚ)
  | ConstantValue.dense size values, slots =>
    if !validateSlots size slots then none
    else if values.length = 0 then none
    else some (List.replicate (slots / values.length) values).flatten
  | ConstantValue.sparse size values, slots =>
    if !validateSlots size slots then none
    else values.foldl (fun acc entry => sparseWrite slots values.length entry acc)
      (some (List.replicate slots 0))

/-- The vector a tiling with period `size` describes: entry `j` is the value
paired with the index `j mod size`, and `0` when no pair has that index. -/
def sparseTiled (size : Nat) (values : List (Nat × ℚ)) (slots : Nat) : List ℚ :=
  (List.range slots).map
    (fun j => ((values.find? (fun e => e.1 = j % size)).map (fun e => e.2)).getD 0)

/-! ## The prime list of `CKKSCompiler::determineEncryptionParameters` -/

/-- The two steps of `determineEncryptionParameters` that produce `primeBits`:
the forward pass of `EncryptionParametersSelector`, then
`getEncryptionParameters`. -/
def selectPrimes (fuel : Nat) (program : Program) (scales : TermMapOptional)
    (types : Nat → TermType) : Option (List Nat) :=
  match forwardPass EncryptionParametersSelector.rewriter fuel
      (EncryptionParametersSelector.init program scales types) with
  | none => none
  | some eps => eps.env.getEncryptionParameters

/-- The program `y = a * b` over two `Cipher` inputs (terms 0 and 1; the `Mul`
is term 2, the output term 3) whose output has the `RangeAttribute` 20. -/
def rangeProgram : Program :=
  let g := [Cmd.makeTerm Op.Input [], Cmd.makeTerm Op.Input [], Cmd.makeTerm Op.Mul [0, 1],
    Cmd.makeTerm Op.Output [2]].foldl Cmd.exec (Program.empty "range" 8)
  let g1 := Term.setAttribute g 0 TypeAttribute (AttributeValue.type TermType.Cipher)
  let g2 := Term.setAttribute g1 1 TypeAttribute (AttributeValue.type TermType.Cipher)
  let g3 := Term.setAttribute g2 3 RangeAttribute (AttributeValue.uint32 20)
  { g3 with inputs := [("a", 0), ("b", 1)], outputs := [("y", 3)] }

/-! ## A sample for the operand order of `ReductionLogExpander` -/

/-- A state of `ReductionLogExpander` before the sum `r + c + x` is visited:
`x` (term 0) is a `Cipher` input of scale 30, `r` (term 1) a `Raw` input, `c`
(term 2) a `Constant`, hence `Raw`; the `Add` over `[r, c, x]` is term 3 and
the output term 4.  The three sources have been visited. -/
def orderState : ReductionLogExpander :=
  { program := [Cmd.makeTerm Op.Input [], Cmd.makeTerm Op.Input [], Cmd.makeTerm Op.Constant [],
      Cmd.makeTerm Op.Add [1, 2, 0], Cmd.makeTerm Op.Output [3]].foldl Cmd.exec
        (Program.empty "order" 8),
    type := fun t => if t = 1 ∨ t = 2 then TermType.Raw else TermType.Cipher,
    scale := fun t => if t = 0 then some 30 else if t < 3 then some 0 else none,
    ok := true }

/-! ## `eva/ckks/seal_lowering.h` -/

/-- The members of `SEALLowering`. -/
structure SEALLowering where
  program : Program
  type : Nat → TermType

/-- `term->operandAt(i)`; `none` is the exception of `vector::at`. -/
def Program.operandAt (p : Program) (term i : Nat) : Option Nat := (p.operands term)[i]?

/-- `SEALLowering::operator()`; `none` when `operandAt` throws.  The operands
of the `Sub` are read again where the source reads them again. -/
def SEALLowering.visit (st : SEALLowering) (term : Nat) : Option SEALLowering :=
  if st.program.op term = Op.Sub then
    match st.program.operandAt term 0 with
    | none => none
    | some lhs =>
      if st.type lhs ≠ TermType.Cipher then
        match st.program.operandAt term 1 with
        | none => none
        | some rhs =>
          if st.type rhs = TermType.Cipher then
            match st.program.operandAt term 1 with
            | none => none
            | some rhs1 =>
              let negation := st.program.makeTerm Op.Negate [rhs1]
              match negation.2.operandAt term 0 with
              | none => none
              | some lhs1 =>
                let addition := negation.2.makeTerm Op.Add [lhs1, negation.1]
                some { st with
                  program := Term.replaceAllUsesWith addition.2 term addition.1 }
          else some st
      else some st
  else some st

/-- `SEALLowering` as a rewriter of a pass. -/
def SEALLowering.rewriter : Rewriter SEALLowering :=
  { program := fun st => st.program, rewrite := SEALLowering.visit }

/-! ## `eva/common/reference_executor.{h,cpp}` -/

/-- The members of `ReferenceExecutor`; `terms` is the map `terms_` from a
term to its vector of values, `none` for an entry without a value.  `ok` turns
`false` when an `assert` of the source fails. -/
structure ReferenceExecutor where
  program : Program
  vecSize : Nat
  terms : Nat → Option (List ℚ)
  ok : Bool

/-- The side effect of `terms_[t]` on the map: an entry without a value is
given the empty vector. -/
def ReferenceExecutor.touch (terms : Nat → Option (List ℚ)) (t : Nat) :
    Nat → Option (List ℚ) :=
  if (terms t).isSome then terms else Function.update terms t (some [])

/-- The map once `output.clear()` has run on the entry of `term`. -/
def ReferenceExecutor.cleared (terms : Nat → Option (List ℚ)) (term : Nat) :
    Nat → Option (List ℚ) :=
  Function.update terms term (some [])

/-- `ReferenceExecutor::binOp`, called with `args[0]` and `args[1]`; `none` when
the term has fewer than two operands, when `terms_.at` throws, or when the
second vector is shorter than the first (`transform` would read past its
end). -/
def ReferenceExecutor.binOp (f : ℚ → ℚ → ℚ) (st : ReferenceExecutor) (term : Nat)
    (args : List Nat) : Option ReferenceExecutor :=
  match args with
  | args1 :: args2 :: rest =>
    match ReferenceExecutor.cleared st.terms term args1,
        ReferenceExecutor.cleared st.terms term args2 with
    | some in1, some in2 =>
      if in1.length ≤ in2.length then
        some { st with
          terms := Function.update st.terms term (some (List.zipWith f in1 in2)),
          ok := st.ok && decide (rest.length = 0) && decide (in1.length = in2.length) }
      else none
    | _, _ => none
  | _ => none

/-- `ReferenceExecutor::leftRotate` and `rightRotate`, called with `args[0]`;
`left` tells which. -/
def ReferenceExecutor.rotate ( left : Bool) (st : ReferenceExecutor) (term : Nat)
    (args : List Nat) (shift : Int) : Option ReferenceExecutor :=
  match args with
  | args1 :: rest =>
    match ReferenceExecutor.cleared st.terms term args1 with
    | none => none
    | some input =>
      match normalizeShift shift input.length with
      | none => none
      | some s =>
        let output :=
          if left then input.drop s ++ input.take s
          else input.drop (input.length - s) ++ input.take (input.length - s)
        some { st with terms := Function.update st.terms term (some output),
                       ok := st.ok && decide (rest.length = 0) }
  | [] => none

/-- `ReferenceExecutor::negate`, called with `args[0]`. -/
def ReferenceExecutor.negate (st : ReferenceExecutor) (term : Nat) (args : List Nat) :
    Option ReferenceExecutor :=
  match args with
  | args1 :: rest =>
    match ReferenceExecutor.cleared st.terms term args1 with
    | none => none
    | some input =>
      some { st with terms := Function.update st.terms term (some (input.map (fun x => -x))),
                     ok := st.ok && decide (rest.length = 0) }
  | [] => none

/-- The last case of the `switch`: the value of `args[0]` is copied. -/
def ReferenceExecutor.copy (st : ReferenceExecutor) (term : Nat) (args : List Nat) :
    Option ReferenceExecutor :=
  match args with
  | args1 :: rest =>
    let terms1 := ReferenceExecutor.touch st.terms args1
    some { st with terms := Function.update terms1 term (terms1 args1),
                   ok := st.ok && decide (rest.length = 0) }
  | [] => none

/-- `ReferenceExecutor::operator()`; `none` when it throws or reads an operand
the term does not have. -/
def ReferenceExecutor.visit (st : ReferenceExecutor) (term : Nat) : Option ReferenceExecutor :=
  let st0 : ReferenceExecutor := { st with terms := ReferenceExecutor.touch st.terms term }
  let args := st.program.operands term
  match st.program.op term with
  | Op.Input => some st0
  | Op.Constant =>
    match AttributeList.getConstant (st.program.attributes term) with
    | none => none
    | some c =>
      match c.expandTo st.vecSize with
      | none => none
      | some v => some { st0 with terms := Function.update st0.terms term (some v) }
  | Op.Add => ReferenceExecutor.binOp (fun x y => x + y) st0 term args
  | Op.Sub => ReferenceExecutor.binOp (fun x y => x - y) st0 term args
  | Op.Mul => ReferenceExecutor.binOp (fun x y => x * y) st0 term args
  | Op.RotateLeftConst =>
    match AttributeList.getInt32 (st.program.attributes term) RotationAttribute with
    | none => none
    | some shift => ReferenceExecutor.rotate true st0 term args shift
  | Op.RotateRightConst =>
    match AttributeList.getInt32 (st.program.attributes term) RotationAttribute with
    | none => none
    | some shift => ReferenceExecutor.rotate false st0 term args shift
  | Op.Negate => ReferenceExecutor.negate st0 term args
  | Op.Undef => some { st0 with ok := false }
  | _ => ReferenceExecutor.copy st0 term args

/-- `ReferenceExecutor` as a rewriter of a pass. -/
def ReferenceExecutor.rewriter : Rewriter ReferenceExecutor :=
  { program := fun st => st.program, rewrite := ReferenceExecutor.visit }

/-- The program `y = l - x` over a `Cipher` input `x` (term 0) and a `Plain`
input `l` (term 1), with vector size 2: the `Sub` over `[l, x]` is term 2 and
the output term 3. -/
def plainMinusCipher : Program :=
  let g := [Cmd.makeTerm Op.Input [], Cmd.makeTerm Op.Input [], Cmd.makeTerm Op.Sub [1, 0],
    Cmd.makeTerm Op.Output [2]].foldl Cmd.exec (Program.empty "lower" 2)
  let g1 := Term.setAttribute g 0 TypeAttribute (AttributeValue.type TermType.Cipher)
  let g2 := Term.setAttribute g1 1 TypeAttribute (AttributeValue.type TermType.Plain)
  { g2 with inputs := [("x", 0), ("l", 1)], outputs := [("y", 3)] }

/-- The types `TypeDeducer` gives the terms of `plainMinusCipher`. -/
def plainMinusCipherTypes (t : Nat) : TermType :=
  if t = 1 then TermType.Plain else if t < 4 then TermType.Cipher else TermType.Undef

/-! ## `eva/ckks/parameter_checker.h` -/

/-- The exceptions a call of `ParameterChecker` ends with:
`InconsistentParameters` with its message, and the `std::out_of_range` of
`get<TAttr>()` on a term without the attribute. -/
inductive CheckerError where
  | inconsistentParameters (msg : String)
  | outOfRange
  deriving DecidableEq

/-- The members of `ParameterChecker`; `parms` is the map `parms_` from a term
to its chain of primes.  `ok` turns `false` when the `assert` of the call
operator fails. -/
structure ParameterChecker where
  program : Program
  parms : Nat → List Nat
  types : Nat → TermType
  ok : Bool

/-- The state the constructor leaves: every chain empty. -/
def ParameterChecker.init (g : Program) (types : Nat → TermType) : ParameterChecker :=
  { program := g, parms := fun _ => [], types := types, ok := true }

/-- The loop over the primes of the chain of the term, entered with chains of
one length: a zero is filled in from the operand, and two primes other than
zero have to be equal. -/
def ParameterChecker.matchPrimes : List Nat → List Nat → Except CheckerError (List Nat)
  | parm :: parms, operandParm :: operandParms =>
    if parm = 0 then
      (ParameterChecker.matchPrimes parms operandParms).map (fun rest => operandParm :: rest)
    else if operandParm ≠ 0 then
      if parm ≠ operandParm then
        Except.error (CheckerError.inconsistentParameters
          "Primes required by two operands do not match")
      else (ParameterChecker.matchPrimes parms operandParms).map (fun rest => parm :: rest)
    else (ParameterChecker.matchPrimes parms operandParms).map (fun rest => parm :: rest)
  | parms, _ => Except.ok parms

/-- The body of the loop over the operands; `parms` is the chain of the term
so far.  An operand that is the term itself has that chain. -/
def ParameterChecker.mergeOperand (st : ParameterChecker) (term : Nat)
    (acc : Except CheckerError (List Nat)) (operand : Nat) : Except CheckerError (List Nat) :=
  match acc with
  | Except.error e => Except.error e
  | Except.ok parms =>
    let operandParms := if operand = term then parms else st.parms operand
    if operandParms.length > 0 then
      if parms.length > 0 then
        if operandParms.length ≠ parms.length then
          Except.error (CheckerError.inconsistentParameters
            "Two operands require different number of primes")
        else ParameterChecker.matchPrimes parms operandParms
      else Except.ok operandParms
    else Except.ok parms

/-- `ParameterChecker::operator()`. -/
def ParameterChecker.visit (st : ParameterChecker) (term : Nat) :
    Except CheckerError ParameterChecker :=
  let operands := st.program.operands term
  if st.types term = TermType.Raw ∨ st.program.op term = Op.Encode then Except.ok st
  else if operands.length > 0 then
    match operands.foldl (ParameterChecker.mergeOperand st term) (Except.ok (st.parms term)) with
    | Except.error e => Except.error e
    | Except.ok parms =>
      if st.program.op term = Op.ModSwitch then
        Except.ok { st with parms := Function.update st.parms term (parms ++ [0]) }
      else if isRescaleOp (st.program.op term) then
        match AttributeList.getUInt32 (st.program.attributes term) RescaleDivisorAttribute with
        | none => Except.error CheckerError.outOfRange
        | some divisor =>
          Except.ok { st with parms := Function.update st.parms term (parms ++ [divisor]),
                              ok := st.ok && decide (divisor ≠ 0) }
      else Except.ok { st with parms := Function.update st.parms term parms }
  else
    match AttributeList.getUInt32 (st.program.attributes term) EncodeAtLevelAttribute with
    | none => Except.error CheckerError.outOfRange
    | some level =>
      Except.ok { st with
        parms := Function.update st.parms term (st.parms term ++ List.replicate level 0) }

/-- `ParameterChecker` as a rewriter of a pass. -/
def ParameterChecker.rewriter : Rewriter ParameterChecker :=
  { program := fun st => st.program, rewrite := fun st term => (st.visit term).toOption }

/-- Two chains disagree: both are non-empty, and they differ in length or
hold two different primes other than zero at one position. -/
def chainsDisagree (c1 c2 : List Nat) : Prop :=
  c1 ≠ [] ∧ c2 ≠ [] ∧
    (c1.length ≠ c2.length ∨
      ∃ (i : Nat) (a b : Nat), c1[i]? = some a ∧ c2[i]? = some b ∧ a ≠ 0 ∧ b ≠ 0 ∧ a ≠ b)

/-- Two operands of `term` impose chains that disagree. -/
def ParameterChecker.Conflict (st : ParameterChecker) (term : Nat) : Prop :=
  ∃ o1 ∈ st.program.operands term, ∃ o2 ∈ st.program.operands term,
    chainsDisagree (st.parms o1) (st.parms o2)

/-- The chain `chain` is the common chain of the operands in `operands` with
the placeholders filled in: it has the length of every non-empty chain of an
operand, holds every prime other than zero that an operand holds, at the same
position, holds no other prime than zero, and is empty when every chain is. -/
structure CommonChain (st : ParameterChecker) (operands : List Nat) (chain : List Nat) : Prop where
  length_eq : ∀ o ∈ operands, st.parms o ≠ [] → chain.length = (st.parms o).length
  holds : ∀ o ∈ operands, ∀ (i b : Nat), (st.parms o)[i]? = some b → b ≠ 0 → chain[i]? = some b
  from_operand : ∀ (i c : Nat), chain[i]? = some c → c ≠ 0 → ∃ o ∈ operands, (st.parms o)[i]? = some c
  empty : (∀ o ∈ operands, st.parms o = []) → chain = []

/-- A checker state over `rescaledProduct` in which the input (term 0) has the
chain `[0]` and the `Rescale` (term 1) the chain `[0, 40]`: the `Mul` over the
two is term 2. -/
def conflictState : ParameterChecker :=
  { program := rescaledProduct,
    parms := fun t => if t = 0 then [0] else if t = 1 then [0, 40] else [],
    types := fun _ => TermType.Cipher, ok := true }

/-- A checker state over `rescaledProduct` in which the input (term 0) has the
chain `[0, 0]` and the `Rescale` (term 1) the chain `[0, 40]`. -/
def agreeState : ParameterChecker :=
  { program := rescaledProduct,
    parms := fun t => if t = 0 then [0, 0] else if t = 1 then [0, 40] else [],
    types := fun _ => TermType.Cipher, ok := true }

/-! ## The end of a term: `Term::~Term` and the handles that keep a term alive -/

/-- `Term::~Term`: the term is erased from the uses of its operands and leaves
`sources` and `sinks`.  The record of the term is blank afterwards; its index
is not given to another term. -/
def Term.destroy (p : Program) (this : Nat) : Program :=
  let p1 := (p.operands this).foldl (fun q operand => Term.eraseUse q operand this) p
  let p2 : Program :=
    if p1.operands this = [] then p1.withSources (setErase p1.sources this) else p1
  let p3 := p2.withSinks (setErase p2.sinks this)
  { p3 with terms := Function.update p3.terms this (Term.blank Op.Undef) }

/-- The program itself holds a handle on `term`: the term is in the map
`inputs` or in the map `outputs`. -/
def Program.holds (p : Program) (term : Nat) : Bool :=
  p.inputs.any (fun e => e.2 = term) || p.outputs.any (fun e => e.2 = term)

/-- A handle on `term` held outside the graph goes out of scope.  The handles
are `shared_ptr`: the term is destroyed when no operand slot and no map of the
program refers to it (it is in `sinks` and the program does not hold it), and
the handles on its operands, which its operand vector held, go out of scope in
turn.  `fuel` bounds the depth of the cascade. -/
def Program.release : Nat → Program → Nat → Program
  | 0, p, _ => p
  | fuel + 1, p, term =>
    if term ∈ p.sinks ∧ p.holds term = false then
      (p.operands term).foldl (fun q operand => Program.release fuel q operand)
        (Term.destroy p term)
    else p

/-- The program once every handle held outside the graph has gone out of
scope, as when the locals of a pass and of its rewriter are gone: the state in
which the next pass finds the program. -/
def Program.releaseAll (p : Program) : Program :=
  (List.range p.nextTermIndex).foldl (fun q term => Program.release p.nextTermIndex q term) p

/-! ## `Program::deepCopy` (`eva/ir/program.cpp`), `AttributeList::assignAttributesFrom` -/

/-- `Program::getName`. -/
def Program.getName (p : Program) : String := p.name

/-- The loop of `assignAttributesFrom`, which copies key and value cell by
cell. -/
def AttributeList.copyCells : AttributeList → AttributeList
  | [] => []
  | (key, value) :: tail => (key, value) :: AttributeList.copyCells tail

/-- `AttributeList::assignAttributesFrom`. -/
def AttributeList.assignAttributesFrom (this other : AttributeList) : AttributeList :=
  let this1 : AttributeList := if this ≠ [] then [] else this
  if other = [] then this1 else AttributeList.copyCells other

/-- `newTerm->assignAttributesFrom(other)` for the term `this` of `p`. -/
def Term.assignAttributesFrom (p : Program) (this : Nat) (other : AttributeList) : Program :=
  p.withAttributes this (AttributeList.assignAttributesFrom (p.attributes this) other)

/-- `map[name] = term` on a name-to-term map. -/
def mapAssign (m : List (String × Nat)) (name : String) (term : Nat) : List (String × Nat) :=
  if m.any (fun e => e.1 = name) then m.map (fun e => if e.1 = name then (name, term) else e)
  else m ++ [(name, term)]

/-- The variables the lambda of `deepCopy` captures: the program that is
copied, `newProg` and the map `oldToNew`, in which `none` is the null handle
of an entry that has not been assigned. -/
structure DeepCopy where
  program : Program
  newProg : Program
  oldToNew : Nat → Option Nat

/-- The loop of the lambda over the operands of `term`; `none` when
`oldToNew[operand]` is a null handle. -/
def DeepCopy.addOperands (oldToNew : Nat → Option Nat) (newTerm : Nat) :
    List Nat → Program → Option Program
  | [], q => some q
  | operand :: rest, q =>
    match oldToNew operand with
    | none => none
    | some o => DeepCopy.addOperands oldToNew newTerm rest (Term.addOperand q newTerm o)

/-- The lambda `deepCopy` hands to `forwardPass`. -/
def DeepCopy.visit (st : DeepCopy) (term : Nat) : Option DeepCopy :=
  let r := st.newProg.makeTerm (st.program.op term) []
  let newTerm := r.1
  let oldToNew := Function.update st.oldToNew term (some newTerm)
  let p1 := Term.assignAttributesFrom r.2 newTerm (st.program.attributes term)
  (DeepCopy.addOperands oldToNew newTerm (st.program.operands term) p1).map
    (fun q => { st with newProg := q, oldToNew := oldToNew })

/-- The lambda as a rewriter of a pass over the program that is copied. -/
def DeepCopy.rewriter : Rewriter DeepCopy :=
  { program := fun st => st.program, rewrite := DeepCopy.visit }

/-- The two loops at the end of `deepCopy`, over the entries of `inputs` and of
`outputs`; `none` when a null handle would be stored. -/
def DeepCopy.copyMap (oldToNew : Nat → Option Nat) :
    List (String × Nat) → List (String × Nat) → Option (List (String × Nat))
  | [], m => some m
  | entry :: rest, m =>
    match oldToNew entry.2 with
    | none => none
    | some t => DeepCopy.copyMap oldToNew rest (mapAssign m entry.1 t)

/-- The value of `newProg` when the `return` statement of `deepCopy` is
reached, with the locals still in scope; `none` when the constructor of the
new program throws or a null handle is met. -/
def DeepCopy.build (fuel : Nat) (p : Program) : Option Program :=
  match Program.construct p.getName p.getVecSize with
  | none => none
  | some newProg =>
    match forwardPass DeepCopy.rewriter fuel
        { program := p, newProg := newProg, oldToNew := fun _ => none } with
    | none => none
    | some st =>
      match DeepCopy.copyMap st.env.oldToNew p.inputs [],
          DeepCopy.copyMap st.env.oldToNew p.outputs [] with
      | some inputs, some outputs =>
        some { st.env.newProg with inputs := inputs, outputs := outputs }
      | _, _ => none

/-- `Program::deepCopy`: the program the caller receives.  At the return the
local `oldToNew`, which holds a handle on every term made for the copy, is
destroyed: the handles go out of scope (`Program.releaseAll`), and with them
every term of the copy that neither the maps `inputs` and `outputs` nor the
operand vector of a term that stays refer to. -/
def Program.deepCopy (fuel : Nat) (p : Program) : Option Program :=
  (DeepCopy.build fuel p).map Program.releaseAll

/-- The program `typedSample`, in which no term uses the `Negate` (term 4),
with the input `x` and the output entered in the maps `inputs` and `outputs`:
the maps hold no handle on the `Negate`. -/
def typedSampleMaps : Program :=
  { typedSample with inputs := [("x", 0)], outputs := [("out", 5)] }

/-- The invariant of the pass of `deepCopy` over `p`, after the calls logged in
`visited`: the new program has one term per call, in the order of the calls,
and the term made for `t` has the operation and the attributes of `t` and, as
operands, the terms made for the operands of `t`. -/
structure DeepCopyInv (p : Program) (env : DeepCopy) (visited : List Nat) : Prop where
  prog : env.program = p
  cons : env.newProg.Consistent
  sets : env.newProg.SetsNodup
  next : env.newProg.nextTermIndex = visited.length
  name : env.newProg.name = p.name
  vec : env.newProg.vecSize = p.vecSize
  inputs : env.newProg.inputs = []
  outputs : env.newProg.outputs = []
  closed : ∀ t ∈ visited, ∀ o ∈ p.operands t, o ∈ visited
  copy : ∀ t ∈ visited, env.oldToNew t = some (visited.indexOf t) ∧
    env.newProg.op (visited.indexOf t) = p.op t ∧
    env.newProg.attributes (visited.indexOf t) = p.attributes t ∧
    env.newProg.operands (visited.indexOf t) = (p.operands t).map (fun o => visited.indexOf o)

/-! ## Passes of a rewriter that may throw -/

/-- The rewriter `R` with its exceptions caught: a call that throws leaves the
state as it was and clears the flag paired with it. -/
def Rewriter.guarded {σ : Type} (R : Rewriter σ) : Rewriter (σ × Bool) :=
  { program := fun s => R.program s.1,
    rewrite := fun s term =>
      match R.rewrite s.1 term with
      | some s1 => some (s1, s.2)
      | none => some (s.1, false) }

/-- A state of the traversal of `R` as a state of the traversal of
`R.guarded`, no call having thrown. -/
def TraversalState.guarded {σ : Type} (st : TraversalState σ) : TraversalState (σ × Bool) :=
  { env := (st.env, true), ready := st.ready, processed := st.processed,
    readyNodes := st.readyNodes, visited := st.visited }

/-! ## `eva/ckks/scales_checker.h` -/

/-- The members of `ScalesChecker`; `scales` is its own map `scales_`, empty
at construction.  `ok` turns `false` when an `assert` of the call operator
fails. -/
structure ScalesChecker where
  program : Program
  scales : TermMapOptional
  types : Nat → TermType
  ok : Bool

/-- The state the constructor leaves. -/
def ScalesChecker.init (g : Program) (types : Nat → TermType) : ScalesChecker :=
  { program := g, scales := fun _ => none, types := types, ok := true }

/-- The loop `scale += scales_.at(operand)` of the `Mul` case; `none` when an
operand has no scale. -/
def ScalesChecker.sumAt (scales : TermMapOptional) : List Nat → Nat → Option Nat
  | [], scale => some scale
  | operand :: rest, scale =>
    match scales.at operand with
    | none => none
    | some s => ScalesChecker.sumAt scales rest (add32 scale s)

/-- The loop of the `Add` and `Sub` case; `none` when an operand has no scale
or two scales differ. -/
def ScalesChecker.sameAt (scales : TermMapOptional) : List Nat → Nat → Option Nat
  | [], scale => some scale
  | operand :: rest, scale =>
    match scales.at operand with
    | none => none
    | some s =>
      if scale = 0 then ScalesChecker.sameAt scales rest s
      else if scale ≠ s then none
      else ScalesChecker.sameAt scales rest scale

/-- `ScalesChecker::operator()`; `none` when it throws. -/
def ScalesChecker.visit (st : ScalesChecker) (term : Nat) : Option ScalesChecker :=
  if st.types term = TermType.Raw then some st
  else
    let operands := st.program.operands term
    if st.program.op term = Op.Input ∨ st.program.op term = Op.Encode then
      match AttributeList.getUInt32 (st.program.attributes term) EncodeAtScaleAttribute with
      | none => none
      | some s => if s = 0 then none else some { st with scales := st.scales.assign term s }
    else if st.program.op term = Op.Mul then
      match ScalesChecker.sumAt st.scales operands 0 with
      | none => none
      | some scale =>
        if scale = 0 then none
        else some { st with scales := st.scales.assign term scale,
                            ok := st.ok && decide (operands.length = 2) }
    else if st.program.op term = Op.Rescale then
      match AttributeList.getUInt32 (st.program.attributes term) RescaleDivisorAttribute with
      | none => none
      | some divisor =>
        match st.program.operandAt term 0 with
        | none => none
        | some operand =>
          match st.scales.at operand with
          | none => none
          | some operandScale =>
            if sub32 operandScale divisor = 0 then none
            else some { st with scales := st.scales.assign term (sub32 operandScale divisor),
                                ok := st.ok && decide (operands.length = 1) }
    else if isAdditionOp (st.program.op term) then
      match ScalesChecker.sameAt st.scales operands 0 with
      | none => none
      | some scale =>
        if scale = 0 then none else some { st with scales := st.scales.assign term scale }
    else
      match st.program.operandAt term 0 with
      | none => none
      | some operand =>
        match st.scales.at operand with
        | none => none
        | some scale =>
          if scale = 0 then none else some { st with scales := st.scales.assign term scale }

/-- `ScalesChecker` as a rewriter of a pass. -/
def ScalesChecker.rewriter : Rewriter ScalesChecker :=
  { program := fun st => st.program, rewrite := ScalesChecker.visit }

/-- The rule by which the scale `s t` of a term `t` that is not `Raw` is
re-derived: `Input` and `Encode` read `EncodeAtScaleAttribute`, `Mul` is the
sum of the scales of its operands, `Rescale` is the scale of its operand minus
`RescaleDivisorAttribute` (both on 32 bits), and any other operation takes the
scale of its first operand. -/
def ScaleRule (q : Program) (s : Nat → Nat) (t : Nat) : Prop :=
  if q.op t = Op.Input ∨ q.op t = Op.Encode then
    AttributeList.getUInt32 (q.attributes t) EncodeAtScaleAttribute = some (s t)
  else if q.op t = Op.Mul then s t = ((q.operands t).map s).sum % u32
  else if q.op t = Op.Rescale then
    ∃ operand rest divisor, q.operands t = operand :: rest ∧
      rescaleDivisorOf q t = some divisor ∧ s t = sub32 (s operand) divisor
  else ∃ operand rest, q.operands t = operand :: rest ∧ s t = s operand

/-- Some re-derived scale is zero, or some `Add` or `Sub` has two operands
with different re-derived scales. -/
def ScalesBad (q : Program) (ty : Nat → TermType) (s : Nat → Nat) : Prop :=
  ∃ t, t < q.nextTermIndex ∧ ty t ≠ TermType.Raw ∧
    (s t = 0 ∨ (isAdditionOp (q.op t) = true ∧
      ∃ o1 ∈ q.operands t, ∃ o2 ∈ q.operands t, s o1 ≠ s o2))

/-- The invariant of a forward pass of `ScalesChecker` over `q`: every term
visited that is not `Raw` has its re-derived scale recorded, the scale is not
zero, and the operands of an `Add` or `Sub` have that scale. -/
def ScalesCheckerInv (q : Program) (ty : Nat → TermType) (s : Nat → Nat) (env : ScalesChecker)
    (visited : List Nat) : Prop :=
  env.program = q ∧ env.types = ty ∧
    ∀ t ∈ visited, ty t ≠ TermType.Raw →
      env.scales t = some (s t) ∧ s t ≠ 0 ∧
      (isAdditionOp (q.op t) = true → ∀ o ∈ q.operands t, s o = s t)

/-- The program `y = (a * b) + c` over three `Cipher` inputs: `a` and `b`
(terms 0 and 1) are encoded at scale 30 and `c` (term 2) at scale `cScale`; the
`Mul` is term 3, the `Add` term 4 and the output term 5. -/
def sumOfProduct (cScale : Nat) : Program :=
  let g := [Cmd.makeTerm Op.Input [], Cmd.makeTerm Op.Input [], Cmd.makeTerm Op.Input [],
    Cmd.makeTerm Op.Mul [0, 1], Cmd.makeTerm Op.Add [3, 2], Cmd.makeTerm Op.Output [4]].foldl
      Cmd.exec (Program.empty "sumOfProduct" 8)
  let g1 := Term.setAttribute g 0 EncodeAtScaleAttribute (AttributeValue.uint32 30)
  let g2 := Term.setAttribute g1 1 EncodeAtScaleAttribute (AttributeValue.uint32 30)
  Term.setAttribute g2 2 EncodeAtScaleAttribute (AttributeValue.uint32 cScale)

/-- The scales re-derived on `sumOfProduct cScale`. -/
def sumOfProductScales (cScale : Nat) (t : Nat) : Nat :=
  if t < 2 then 30 else if t = 2 then cScale else 60

/-! ## Programs with destroyed terms -/

/-- The invariants of the IR for a program in which the terms listed in `dead`
have been destroyed: they are like those of `Program.WellFormed`, except that a
destroyed term is neither in `sources` nor in `sinks`, and has a blank
record. -/
structure Program.Partial (p : Program) (dead : List Nat) : Prop where
  sym : p.EdgeSym
  src : ∀ t, t ∈ p.sources ↔ t < p.nextTermIndex ∧ t ∉ dead ∧ p.operands t = []
  snk : ∀ t, t ∈ p.sinks ↔ t < p.nextTermIndex ∧ t ∉ dead ∧ p.uses t = []
  fresh : p.FreshOK
  blank : ∀ t ∈ dead, p.operands t = [] ∧ p.uses t = []
  sets : p.SetsNodup
  dead_nodup : dead.Nodup
  dead_lt : ∀ t ∈ dead, t < p.nextTermIndex

/-- The program `y = negate(add(const([1, 2]), const([3, 4])))` of `foldSample`
with the output entered in the map `outputs`. -/
def foldSampleOut : Program :=
  { foldSample with outputs := [("y", 4)] }

/-- What releasing handles does to a program `p` with the destroyed terms
`dead`, giving `q` with the further destroyed terms `extra`: the state
invariants hold, no term is created, the maps of inputs and outputs stay, the
terms that are not destroyed keep operation, attributes and operands, uses
only disappear, and no map held a term that is destroyed. -/
structure Program.Released (p q : Program) (dead extra : List Nat) : Prop where
  part : q.Partial (extra ++ dead)
  next : q.nextTermIndex = p.nextTermIndex
  inputs : q.inputs = p.inputs
  outputs : q.outputs = p.outputs
  frame : ∀ x, x ∉ extra →
    q.operands x = p.operands x ∧ q.op x = p.op x ∧ q.attributes x = p.attributes x
  uses : ∀ x y, y ∈ q.uses x → y ∈ p.uses x
  unheld : ∀ x ∈ extra, p.holds x = false

/-- The terms a program has: its sources and the terms with operands (a term
that has been destroyed has no operands and is in no set). -/
def Program.live (p : Program) (t : Nat) : Prop :=
  t ∈ p.sources ∨ p.operands t ≠ []

/-- The loop invariant of a forward `traverse` over the program of `env`
with a rewriter that leaves `env` as it is on the terms that are `alive`. -/
structure IdleInv {σ : Type} (R : Rewriter σ) (env : σ) (alive : Nat → Prop)
    (st : TraversalState σ) : Prop where
  env_eq : st.env = env
  proc_iff : ∀ t, st.processed t = true ↔ t ∈ st.visited
  vis_nodup : st.visited.Nodup
  rn_nodup : st.readyNodes.Nodup
  rn_ready : ∀ t ∈ st.readyNodes, st.ready t = true
  proc_ready : ∀ t, st.processed t = true → st.ready t = true
  rn_unproc : ∀ t ∈ st.readyNodes, st.processed t = false
  ready_alive : ∀ t, st.ready t = true → alive t
  ready_cases : ∀ t, st.ready t = true → t ∈ st.readyNodes ∨ st.processed t = true
  ready_complete : ∀ s, alive s →
    (∀ o ∈ (R.program env).operands s, st.processed o = true) → st.ready s = true

/-! ## Samples for the rule of `TypeDeducer` on `Plain` operands -/

/-- The program with a `Raw` constant `c` (term 0), `e = Encode(c)` (term 1),
`Add(e, e)` (term 2) and `Mul(e, c)` (term 3): term 2 has only `Plain`
operands and term 3 a `Plain` and a `Raw` one. -/
def plainSum : Program :=
  [Cmd.makeTerm Op.Constant [], Cmd.makeTerm Op.Encode [0], Cmd.makeTerm Op.Add [1, 1],
    Cmd.makeTerm Op.Mul [1, 0]].foldl Cmd.exec (Program.empty "plainSum" 8)

/-! ## The attribute list as a map -/

/-- The attribute list after the calls `set(k, v)` of `ops`, in this order, on
the list a term starts with. -/
def AttributeList.setAll (ops : List (Nat × AttributeValue)) : AttributeList :=
  ops.foldl (fun l e => AttributeList.set l e.1 e.2) []

/-- The value of the last call `set(k, v)` of `ops` with the key `k`, if any. -/
def lastSet (ops : List (Nat × AttributeValue)) (k : Nat) : Option AttributeValue :=
  (ops.reverse.find? (fun e => e.1 == k)).map (fun e => e.2)

/-- The calls `set<TypeAttribute>(Cipher)`, `set<RescaleDivisorAttribute>(60)`,
`set<EncodeAtScaleAttribute>(30)`, `set<RescaleDivisorAttribute>(40)`. -/
def attributeOps : List (Nat × AttributeValue) :=
  [(TypeAttribute, AttributeValue.type TermType.Cipher),
   (RescaleDivisorAttribute, AttributeValue.uint32 60),
   (EncodeAtScaleAttribute, AttributeValue.uint32 30),
   (RescaleDivisorAttribute, AttributeValue.uint32 40)]

/-! ## The primes ahead of the chain of an output -/

/-- The vector `parms` of `getEncryptionParameters` as it stands when the loop
that appends the chain of an output starts: the primes pushed for the size of
the output; `none` when an output has no `RangeAttribute`. -/
def EncryptionParametersSelector.topPrimes (st : EncryptionParametersSelector) :
    Option (List Nat) :=
  match st.program.outputs.foldl st.scanOutput
      (some { maxOutputSize := 0, maxParm := 0, maxLen := 0 }) with
  | none => none
  | some m =>
    if m.maxOutputSize > 60 then
      match pushSixties m.maxOutputSize m.maxOutputSize [] with
      | none => none
      | some (parms, rest) =>
        some (if rest > 0 then parms ++ [if 20 < rest then rest else 20] else parms)
    else
      some [if m.maxOutputSize > m.maxParm then m.maxOutputSize else m.maxParm]

/-! ## Passes that report the exception of the rewriter -/

/-- A rewriter whose call operator raises exceptions of the type `ε`. -/
structure RewriterE (σ ε : Type) where
  program : σ → Program
  rewrite : σ → Nat → Except ε σ

/-- The rewriter with its exceptions reduced to `none`. -/
def RewriterE.toRewriter {σ ε : Type} (R : RewriterE σ ε) : Rewriter σ :=
  { program := R.program, rewrite := fun s term => (R.rewrite s term).toOption }

/-- The `while` loop of `traverse` for a rewriter that raises: an exception of
the call operator leaves the loop and the pass; `none` when the fuel runs out
with terms still ready. -/
def traverseLoopE {σ ε : Type} (isForward : Bool) (R : RewriterE σ ε) :
    Nat → TraversalState σ → Option (Except ε (TraversalState σ))
  | 0, st => if st.readyNodes = [] then some (Except.ok st) else none
  | fuel + 1, st =>
    match st.readyNodes with
    | [] => some (Except.ok st)
    | term :: rest =>
      match R.rewrite st.env term with
      | Except.error e => some (Except.error e)
      | Except.ok _ =>
        match traverseVisit isForward R.toRewriter st term rest with
        | none => none
        | some st1 => traverseLoopE isForward R fuel st1

/-- `ProgramTraversal::traverse` for a rewriter that raises. -/
def traverseE {σ ε : Type} (isForward : Bool) (R : RewriterE σ ε) (fuel : Nat) (env : σ) :
    Option (Except ε (TraversalState σ)) :=
  let readyNodes := leaves isForward (R.program env)
  traverseLoopE isForward R fuel
    { env := env,
      ready := readyNodes.foldl (fun ready term => Function.update ready term true)
        (fun _ => false),
      processed := fun _ => false,
      readyNodes := readyNodes.reverse,
      visited := [] }

/-! ## `ScalesChecker` with its exceptions -/

/-- The exceptions that leave `ScalesChecker::operator()`: the three it throws
itself, and those of `get<TAttr>()`, `operandAt` and `scales_.at`. -/
inductive ScalesCheckerError where
  | inputZeroScale
  | zeroScale
  | unequalScales
  | outOfRange
  | badVariantAccess
  | badOptionalAccess
  deriving DecidableEq

/-- `ScalesChecker(g, scales, types)`: the member `scales_` is initialised
from `g`, an empty map of the program; the argument `scales` is not read. -/
def ScalesChecker.construct (g : Program) (_scales : TermMapOptional)
    (types : Nat → TermType) : ScalesChecker :=
  { program := g, scales := fun _ => none, types := types, ok := true }

/-- `term->get<TAttr>()` for an attribute holding a `std::uint32_t`. -/
def AttributeList.getUInt32E (l : AttributeList) (k : Nat) : Except ScalesCheckerError Nat :=
  match AttributeList.get l k with
  | none => Except.error ScalesCheckerError.outOfRange
  | some (AttributeValue.uint32 v) => Except.ok v
  | some _ => Except.error ScalesCheckerError.badVariantAccess

/-- `scales_.at(t)`. -/
def TermMapOptional.atE (m : TermMapOptional) (t : Nat) : Except ScalesCheckerError Nat :=
  match m t with
  | none => Except.error ScalesCheckerError.badOptionalAccess
  | some v => Except.ok v

/-- `scales_.at(term->operandAt(0))`. -/
def ScalesChecker.firstOperandScale (st : ScalesChecker) (term : Nat) :
    Except ScalesCheckerError Nat :=
  match st.program.operandAt term 0 with
  | none => Except.error ScalesCheckerError.outOfRange
  | some operand => st.scales.atE operand

/-- The loop `scale += scales_.at(operand)` of the `Mul` case. -/
def ScalesChecker.sumAtE (scales : TermMapOptional) :
    List Nat → Nat → Except ScalesCheckerError Nat
  | [], scale => Except.ok scale
  | operand :: rest, scale =>
    match scales.atE operand with
    | Except.error e => Except.error e
    | Except.ok s => ScalesChecker.sumAtE scales rest (add32 scale s)

/-- The loop of the `Add` and `Sub` case. -/
def ScalesChecker.sameAtE (scales : TermMapOptional) :
    List Nat → Nat → Except ScalesCheckerError Nat
  | [], scale => Except.ok scale
  | operand :: rest, scale =>
    if scale = 0 then
      match scales.atE operand with
      | Except.error e => Except.error e
      | Except.ok s => ScalesChecker.sameAtE scales rest s
    else
      match scales.atE operand with
      | Except.error e => Except.error e
      | Except.ok s =>
        if scale ≠ s then Except.error ScalesCheckerError.unequalScales
        else ScalesChecker.sameAtE scales rest scale

/-- The tail of four of the cases: the exception for a zero scale, or the scale
recorded for the term. -/
def ScalesChecker.record (st : ScalesChecker) (term scale : Nat) (ok : Bool) :
    Except ScalesCheckerError ScalesChecker :=
  if scale = 0 then Except.error ScalesCheckerError.zeroScale
  else Except.ok { st with scales := st.scales.assign term scale, ok := st.ok && ok }

/-- `ScalesChecker::operator()` with the exception it raises. -/
def ScalesChecker.check (st : ScalesChecker) (term : Nat) :
    Except ScalesCheckerError ScalesChecker :=
  if st.types term = TermType.Raw then Except.ok st
  else
    let operands := st.program.operands term
    if st.program.op term = Op.Input ∨ st.program.op term = Op.Encode then
      match AttributeList.getUInt32E (st.program.attributes term) EncodeAtScaleAttribute with
      | Except.error e => Except.error e
      | Except.ok s =>
        if s = 0 then
          (if st.program.op term = Op.Input then
            Except.error ScalesCheckerError.inputZeroScale
          else Except.error ScalesCheckerError.zeroScale)
        else Except.ok { st with scales := st.scales.assign term s }
    else if st.program.op term = Op.Mul then
      match ScalesChecker.sumAtE st.scales operands 0 with
      | Except.error e => Except.error e
      | Except.ok scale => st.record term scale (decide (operands.length = 2))
    else if st.program.op term = Op.Rescale then
      match AttributeList.getUInt32E (st.program.attributes term) RescaleDivisorAttribute with
      | Except.error e => Except.error e
      | Except.ok divisor =>
        match st.firstOperandScale term with
        | Except.error e => Except.error e
        | Except.ok operandScale =>
          st.record term (sub32 operandScale divisor) (decide (operands.length = 1))
    else if isAdditionOp (st.program.op term) then
      match ScalesChecker.sameAtE st.scales operands 0 with
      | Except.error e => Except.error e
      | Except.ok scale => st.record term scale true
    else
      match st.firstOperandScale term with
      | Except.error e => Except.error e
      | Except.ok scale => st.record term scale true

/-- `ScalesChecker` as a rewriter that raises. -/
def ScalesChecker.rewriterE : RewriterE ScalesChecker ScalesCheckerError :=
  { program := fun st => st.program, rewrite := ScalesChecker.check }

/-- The statements of `CKKSCompiler::validate` that build a `ScalesChecker`
from `scales` and `types` and run its forward pass: the exception raised, or
the scales the checker has re-derived; `none` when the fuel runs out. -/
def ScalesChecker.run (fuel : Nat) (g : Program) (scales : TermMapOptional)
    (types : Nat → TermType) : Option (Except ScalesCheckerError (Nat → Option Nat)) :=
  (traverseE true ScalesChecker.rewriterE fuel (ScalesChecker.construct g scales types)).map
    (fun r => r.map (fun st => st.env.scales))

/-- The outcome of `ScalesChecker.run` on the terms below `n`. -/
def ScalesChecker.outcome (n : Nat) (r : Option (Except ScalesCheckerError (Nat → Option Nat))) :
    Option (ScalesCheckerError ⊕ List (Option Nat)) :=
  r.map (fun x =>
    match x with
    | Except.error e => Sum.inl e
    | Except.ok scales => Sum.inr ((List.range n).map scales))

/-! ## The rotations of `ConstantFolder` and of `ReferenceExecutor` -/

/-- The loop `while (shift > 0 && shift >= input.size()) shift -= input.size();`
with `shift` an `int32_t` and the size a `size_t`: the difference is formed on
64 bits without sign and stored in 32 bits with sign.  `none` when the loop has
not ended after `fuel` iterations. -/
def shiftDown : Nat → Int → Nat → Option Int
  | 0, shift, size => if shift > 0 ∧ shift ≥ (size : Int) then none else some shift
  | fuel + 1, shift, size =>
    if shift > 0 ∧ shift ≥ (size : Int) then shiftDown fuel (wrapInt32 (shift - (size : Int))) size
    else some shift

/-- The loop `while (shift < 0) shift += input.size();`. -/
def shiftUp : Nat → Int → Nat → Option Int
  | 0, shift, _ => if shift < 0 then none else some shift
  | fuel + 1, shift, size =>
    if shift < 0 then shiftUp fuel (wrapInt32 (shift + (size : Int))) size else some shift

/-- The two loops that `leftRotate` and `rightRotate` start with, in
`ConstantFolder` and in `ReferenceExecutor` alike. -/
def normalizeShiftLoops (fuel : Nat) (shift : Int) (size : Nat) : Option Nat :=
  match shiftDown fuel shift size with
  | none => none
  | some s1 =>
    match shiftUp fuel s1 size with
    | none => none
    | some s2 => some s2.toNat

/-- The vector `outputValue` of `ConstantFolder::leftRotate` for the input
vector `input1`: created with the size of the input, then written slot by slot
in two loops. -/
def ConstantFolder.leftRotateValues (fuel : Nat) (input1 : List ℚ) (shift : Int) :
    Option (List ℚ) :=
  match normalizeShiftLoops fuel shift input1.length with
  | none => none
  | some s =>
    let outputValue := List.replicate input1.length (0 : ℚ)
    let outputValue1 := (List.range (input1.length - s)).foldl
      (fun out i => out.set i (input1.getD (i + s) 0)) outputValue
    some ((List.range s).foldl
      (fun out i => out.set (input1.length - s + i) (input1.getD i 0)) outputValue1)

/-- The vector `outputValue` of `ConstantFolder::rightRotate`. -/
def ConstantFolder.rightRotateValues (fuel : Nat) (input1 : List ℚ) (shift : Int) :
    Option (List ℚ) :=
  match normalizeShiftLoops fuel shift input1.length with
  | none => none
  | some s =>
    let outputValue := List.replicate input1.length (0 : ℚ)
    let outputValue1 := (List.range (input1.length - s)).foldl
      (fun out i => out.set (i + s) (input1.getD i 0)) outputValue
    some ((List.range s).foldl
      (fun out i => out.set i (input1.getD (input1.length - s + i) 0)) outputValue1)

/-- The vector `output` of `ReferenceExecutor::leftRotate`: cleared, then
filled by the two `copy_n`. -/
def ReferenceExecutor.leftRotateValues (fuel : Nat) (input : List ℚ) (shift : Int) :
    Option (List ℚ) :=
  match normalizeShiftLoops fuel shift input.length with
  | none => none
  | some s => some (([] ++ (input.drop s).take (input.length - s)) ++ input.take s)

/-- The vector `output` of `ReferenceExecutor::rightRotate`. -/
def ReferenceExecutor.rightRotateValues (fuel : Nat) (input : List ℚ) (shift : Int) :
    Option (List ℚ) :=
  match normalizeShiftLoops fuel shift input.length with
  | none => none
  | some s =>
    some (([] ++ (input.drop (input.length - s)).take s) ++ input.take (input.length - s))

/-! ## `eva/ckks/eager_relinearizer.h` -/

/-- The members of `EagerRelinearizer`. -/
structure EagerRelinearizer where
  program : Program
  type : Nat → TermType
  scale : TermMapOptional

/-- `EagerRelinearizer::areAllOperandsEncrypted`. -/
def EagerRelinearizer.areAllOperandsEncrypted (st : EagerRelinearizer) (term : Nat) : Bool :=
  (st.program.operands term).all (fun op => !isUnencryptedType (st.type op))

/-- `EagerRelinearizer::operator()`. -/
def EagerRelinearizer.visit (st : EagerRelinearizer) (term : Nat) : Option EagerRelinearizer :=
  match st.program.operands term with
  | [] => some st
  | _ :: _ =>
    if !isMultiplicationOp (st.program.op term) then some st
    else if !st.areAllOperandsEncrypted term then some st
    else
      let r := st.program.makeTerm Op.Relinearize [term]
      let relinNode := r.1
      let st1 : EagerRelinearizer :=
        { st with program := r.2,
                  type := Function.update st.type relinNode (st.type term),
                  scale := (st.scale.touch term).assign relinNode (st.scale.val term) }
      some { st1 with program := Term.replaceOtherUsesWith st1.program term relinNode }

/-- `EagerRelinearizer` as a rewriter of a pass. -/
def EagerRelinearizer.rewriter : Rewriter EagerRelinearizer :=
  { program := fun st => st.program, rewrite := EagerRelinearizer.visit }

/-! ## `eva/ckks/ckks_compiler.h`: `CKKSCompiler::transform` -/

/-- The enumeration `CKKSRescaler` of `ckks_config.h`. -/
inductive CKKSRescaler where
  | LazyWaterline
  | EagerWaterline
  | Always
  | Minimum
  deriving DecidableEq, Repr

/-- The members of `CKKSConfig` that `transform` reads. -/
structure TransformConfig where
  balanceReductions : Bool
  rescaler : CKKSRescaler
  lazyRelinearize : Bool

/-- The default values of these members in `ckks_config.h`. -/
def TransformConfig.default : TransformConfig :=
  { balanceReductions := true, rescaler := CKKSRescaler.LazyWaterline, lazyRelinearize := true }

/-- The three objects `transform` receives by reference and every pass works
on: the program, the map of types and the map of scales. -/
structure Compilation where
  program : Program
  types : Nat → TermType
  scales : TermMapOptional

/-- The step `programRewrite.forwardPass(TypeDeducer(program, types))`. -/
def CKKSCompiler.typeDeducer (fuel : Nat) (c : Compilation) : Option Compilation :=
  (forwardPass TypeDeducer.rewriter fuel { program := c.program, types := c.types }).map
    (fun st => { c with program := st.env.program, types := st.env.types })

/-- The step `programRewrite.forwardPass(ConstantFolder(program, scales))`. -/
def CKKSCompiler.constantFolder (fuel : Nat) (c : Compilation) : Option Compilation :=
  (forwardPass ConstantFolder.rewriter fuel
      { program := c.program, scale := c.scales, ok := true }).map
    (fun st => { c with program := st.env.program, scales := st.env.scale })

/-- The two passes run when `config.balanceReductions` is set. -/
def CKKSCompiler.balanceReductions (fuel : Nat) (c : Compilation) : Option Compilation :=
  match forwardPass (ReductionCombiner.rewriter fuel) fuel c.program with
  | none => none
  | some st =>
    (forwardPass ReductionLogExpander.rewriter fuel
        (ReductionLogExpander.init st.env c.types)).map
      (fun st1 => { c with program := st1.env.program, types := st1.env.type })

/-- The `switch (config.rescaler)` of `transform`. -/
def CKKSCompiler.rescale (rescaler : CKKSRescaler) (fuel loopFuel : Nat) (c : Compilation) :
    Option Compilation :=
  let init := Rescaler.init c.program c.types c.scales
  let done : Rescaler → Compilation :=
    fun st => { program := st.program, types := st.type, scales := st.scale }
  match rescaler with
  | CKKSRescaler.Minimum =>
    (forwardPass (MinimumRescaler.rewriter loopFuel) fuel init).map (fun st => done st.env)
  | CKKSRescaler.Always =>
    (forwardPass AlwaysRescaler.rewriter fuel init).map (fun st => done st.env)
  | CKKSRescaler.EagerWaterline =>
    (forwardPass (EagerWaterlineRescaler.rewriter loopFuel) fuel init).map
      (fun st => done st.env)
  | CKKSRescaler.LazyWaterline =>
    (forwardPass (LazyWaterlineRescaler.rewriter loopFuel) fuel
        (LazyWaterlineRescaler.init c.program c.types c.scales)).map
      (fun st => done st.env.base)

/-- The step `programRewrite.forwardPass(EncodeInserter(program, types, scales))`. -/
def CKKSCompiler.encodeInserter (fuel : Nat) (c : Compilation) : Option Compilation :=
  (forwardPass EncodeInserter.rewriter fuel
      { program := c.program, type := c.types, scale := c.scales, ok := true }).map
    (fun st => { program := st.env.program, types := st.env.type, scales := st.env.scale })

/-- The `if (config.lazyRelinearize)` of `transform`. -/
def CKKSCompiler.relinearize ( lazy : Bool) (fuel : Nat) (c : Compilation) : Option Compilation :=
  if lazy then
    (forwardPass LazyRelinearizer.rewriter fuel
        (LazyRelinearizer.init c.program c.types c.scales)).map
      (fun st => { program := st.env.program, types := st.env.type, scales := st.env.scale })
  else
    (forwardPass EagerRelinearizer.rewriter fuel
        { program := c.program, type := c.types, scale := c.scales }).map
      (fun st => { program := st.env.program, types := st.env.type, scales := st.env.scale })

/-- The step `programRewrite.backwardPass(ModSwitcher(program, types, scales))`,
with the destructor of the temporary run at its end. -/
def CKKSCompiler.modSwitcher (fuel : Nat) (c : Compilation) : Option Compilation :=
  (backwardPass ModSwitcher.rewriter fuel (ModSwitcher.init c.program c.types c.scales)).map
    (fun st =>
      { program := st.env.finish.program, types := st.env.type, scales := st.env.scale })

/-- The step `programRewrite.forwardPass(SEALLowering(program, types))`. -/
def CKKSCompiler.sealLowering (fuel : Nat) (c : Compilation) : Option Compilation :=
  (forwardPass SEALLowering.rewriter fuel { program := c.program, type := c.types }).map
    (fun st => { c with program := st.env.program, types := st.env.type })

/-- `CKKSCompiler::transform`: every pass in the order of the source, `none`
when a pass throws.  `fuel` bounds the loop of each traversal and `loopFuel`
the loops inside a visit. -/
def CKKSCompiler.transform (config : TransformConfig) (fuel loopFuel : Nat) (c : Compilation) :
    Option Compilation := do
  let c1 ← CKKSCompiler.typeDeducer fuel c
  let c2 ← CKKSCompiler.constantFolder fuel c1
  let c3 ← if config.balanceReductions then CKKSCompiler.balanceReductions fuel c2 else some c2
  let c4 ← CKKSCompiler.rescale config.rescaler fuel loopFuel c3
  let c5 ← CKKSCompiler.typeDeducer fuel c4
  let c6 ← CKKSCompiler.encodeInserter fuel c5
  let c7 ← CKKSCompiler.typeDeducer fuel c6
  let c8 ← CKKSCompiler.relinearize config.lazyRelinearize fuel c7
  let c9 ← CKKSCompiler.typeDeducer fuel c8
  let c10 ← CKKSCompiler.modSwitcher fuel c9
  let c11 ← CKKSCompiler.typeDeducer fuel c10
  CKKSCompiler.sealLowering fuel c11

/-- The program `y = l - x` with the `Plain` input `l` (term 1) and the
`Cipher` input `x` (term 0), both encoded at scale 30; the `Sub` is term 2 and
the output term 3. -/
def lowerSample : Program :=
  let x := (Program.empty "lower" 2).makeInput "x" TermType.Cipher
  let p1 := Term.setAttribute x.2 x.1 EncodeAtScaleAttribute (AttributeValue.uint32 30)
  let l := p1.makeInput "l" TermType.Plain
  let p2 := Term.setAttribute l.2 l.1 EncodeAtScaleAttribute (AttributeValue.uint32 30)
  let s := p2.makeTerm Op.Sub [l.1, x.1]
  let y := s.2.makeOutput "y" s.1
  Term.setAttribute y.2 y.1 RangeAttribute (AttributeValue.uint32 30)

/-- What `compile` hands to `transform` for a program: a map of types at its
initial value and the scales of the sources. -/
def CKKSCompiler.start (p : Program) : Option Compilation :=
  (initScales p).map (fun scales =>
    { program := p, types := fun _ => TermType.Undef, scales := scales })

/-- The result of `transform` on `lowerSample` under a configuration. -/
def lowerSampleOut (config : TransformConfig) : Option Compilation :=
  (CKKSCompiler.start lowerSample).bind (CKKSCompiler.transform config 10 10)

/-- Every `Rescale` term created between the program `p` and the program `q`,
that is every `Rescale` term of `q` whose index is not an index of `p`, carries
a `RescaleDivisorAttribute` within `[lo, hi]`. -/
def RescalesWithin (lo hi : Nat) (p q : Program) : Prop :=
  ∀ t, p.nextTermIndex ≤ t → t < q.nextTermIndex → q.op t = Op.Rescale →
    ∃ d, rescaleDivisorOf q t = some d ∧ lo ≤ d ∧ d ≤ hi

/-- What a rescaling policy does to the terms of a program between two points
of a pass: terms are only added, a term keeps its operation, a `Rescale` term
keeps its attributes, and the `Rescale` terms added carry a divisor within
`[lo, hi]`. -/
def RescaleStep (lo hi : Nat) (p q : Program) : Prop :=
  p.nextTermIndex ≤ q.nextTermIndex ∧
  (∀ t, t < p.nextTermIndex → q.op t = p.op t) ∧
  (∀ t, t < p.nextTermIndex → p.op t = Op.Rescale → q.attributes t = p.attributes t) ∧
  RescalesWithin lo hi p q

/-- The program `y = a * b`, `z = c` over three `Cipher` inputs encoded at the
scales `sa`, `sb` and `sc`: `a`, `b`, `c` are the terms 0, 1, 2, the `Mul` is
term 3 and the outputs are the terms 4 and 5. -/
def scaledMul (sa sb sc : Nat) : Program :=
  let a := (Program.empty "scaled" 8).makeInput "a" TermType.Cipher
  let p1 := Term.setAttribute a.2 a.1 EncodeAtScaleAttribute (AttributeValue.uint32 sa)
  let b := p1.makeInput "b" TermType.Cipher
  let p2 := Term.setAttribute b.2 b.1 EncodeAtScaleAttribute (AttributeValue.uint32 sb)
  let c := p2.makeInput "c" TermType.Cipher
  let p3 := Term.setAttribute c.2 c.1 EncodeAtScaleAttribute (AttributeValue.uint32 sc)
  let m := p3.makeTerm Op.Mul [a.1, b.1]
  let y := m.2.makeOutput "y" m.1
  let z := y.2.makeOutput "z" c.1
  z.2

/-- The state in which a rescaling policy starts on `scaledMul s s s`: every
term `Cipher`, the three sources at scale `s`. -/
def scaledMulState (s : Nat) : Rescaler :=
  Rescaler.init (scaledMul s s s) (fun _ => TermType.Cipher)
    (fun t => if t < 3 then some s else none)

/-! ## The chain of `ModSwitch` terms of one call of `ModSwitcher` -/

/-- The member of the chain of `ModSwitch` terms below `t` that is `k` steps
below `t`, for a chain whose terms have the indices `n`, `n + 1`, ...: `t`
itself for `k = 0`, the term `n + k - 1` otherwise. -/
def chainAt (n t k : Nat) : Nat := if k = 0 then t else n + k - 1

/-- What holds of the state of `ModSwitcher` inside the call for `t`, started
in the state `st0` with `M` the largest level of a use of `t`, once `k` terms
of the chain exist and the uses listed in `done` have been redirected. -/
structure ChainInv (st0 : ModSwitcher) (t M : Nat) (st : ModSwitcher) (k : Nat)
    (done : List Nat) : Prop where
  consistent : st.program.Consistent
  next : st.program.nextTermIndex = st0.program.nextTermIndex + k
  node : ∀ i, i < k →
    st.program.op (st0.program.nextTermIndex + i) = Op.ModSwitch ∧
    st.program.operands (st0.program.nextTermIndex + i)
      = [chainAt st0.program.nextTermIndex t i] ∧
    st.level (st0.program.nextTermIndex + i) = M - i
  op_old : ∀ x, x < st0.program.nextTermIndex →
    st.program.op x = st0.program.op x ∧ st.program.attributes x = st0.program.attributes x
  level_old : ∀ x, x < st0.program.nextTermIndex → st.level x = st0.level x
  ops_done : ∀ x, x < st0.program.nextTermIndex → x ∈ done →
    st.program.operands x = (st0.program.operands x).map
      (fun y => if y = t then chainAt st0.program.nextTermIndex t (M - st0.level x) else y)
  ops_rest : ∀ x, x < st0.program.nextTermIndex → x ∉ done →
    st.program.operands x = st0.program.operands x
  type_eq : st.type = st0.type
  encode_eq : st.encodeNodes = st0.encodeNodes
  ok_eq : st.ok = st0.ok

/-- A program in which the input `x` (term 0) is read by the `Negate` terms 1
and 2 and twice by the `Add` term 3, each with an output (terms 4, 5, 6). -/
def switchChainProgram : Program :=
  [Cmd.makeTerm Op.Input [], Cmd.makeTerm Op.Negate [0], Cmd.makeTerm Op.Negate [0],
    Cmd.makeTerm Op.Add [0, 0], Cmd.makeTerm Op.Output [1], Cmd.makeTerm Op.Output [2],
    Cmd.makeTerm Op.Output [3]].foldl Cmd.exec (Program.empty "chain" 8)

/-- A state of `ModSwitcher` over `switchChainProgram` in which the levels of
the terms 1, 2, 3 are 2, 0 and 1. -/
def switchChainState : ModSwitcher :=
  { program := switchChainProgram,
    type := fun _ => TermType.Cipher,
    scale := fun _ => some 30,
    level := fun x => if x = 1 then 2 else if x = 3 then 1 else 0,
    encodeNodes := [],
    ok := true }

/-! ## The levels `ModSwitcher` leaves for its destructor -/

/-- What holds of the levels of `ModSwitcher` between two calls of a backward
pass over `p0`, besides `SwitchInv`: a term not yet visited and a `Raw` term
have level 0, the level does not grow from an operand that is not `Raw` to
the term that reads it, a visited `Plain` term other than a `Rescale` has level
0 or a level bounded by that of a visited `Cipher` term, and `encodeNodes`
holds the visited `Encode` terms that are not `Raw` and have a use. -/
structure SwitchLevels (p0 : Program) (types : Nat → TermType) (st : ModSwitcher)
    (visited : List Nat) : Prop where
  unvisited0 : ∀ y, y < p0.nextTermIndex → y ∉ visited → st.level y = 0
  raw0 : ∀ y, y < p0.nextTermIndex → types y = TermType.Raw → st.level y = 0
  mono : ∀ o ∈ visited, types o ≠ TermType.Raw → ∀ t, o ∈ p0.operands t →
    st.level t ≤ st.level o
  plain : ∀ y ∈ visited, types y = TermType.Plain → p0.op y ≠ Op.Rescale →
    st.level y = 0 ∨ ∃ w ∈ visited, types w = TermType.Cipher ∧ st.level y ≤ st.level w
  encode : ∀ e ∈ st.encodeNodes, e ∈ visited ∧ p0.op e = Op.Encode ∧
    types e ≠ TermType.Raw ∧ ∃ t, e ∈ p0.operands t
  encode_all : ∀ e ∈ visited, p0.op e = Op.Encode → types e ≠ TermType.Raw →
    (∃ t, e ∈ p0.operands t) → e ∈ st.encodeNodes

/-- The program `out = Rescale(x) * Encode(c)` over a `Cipher` input `x` (term
0) and a constant `c` (term 1): the `Encode` is term 2, the `Rescale` term 3,
the `Mul` term 4 and the output term 5. -/
def encodedProduct : Program :=
  let g := [Cmd.makeTerm Op.Input [], Cmd.makeTerm Op.Constant [], Cmd.makeTerm Op.Encode [1],
    Cmd.makeTerm Op.Rescale [0], Cmd.makeTerm Op.Mul [3, 2],
    Cmd.makeTerm Op.Output [4]].foldl Cmd.exec (Program.empty "encoded" 8)
  Term.setAttribute g 0 TypeAttribute (AttributeValue.type TermType.Cipher)

/-- The types `TypeDeducer` gives the terms of `encodedProduct`. -/
def encodedProductTypes (t : Nat) : TermType :=
  if t = 1 then TermType.Raw else if t = 2 then TermType.Plain else TermType.Cipher

/-! ## A forward pass whose rewriter inserts terms after the visited term -/

/-- What a call of the rewriter on `t` may do to the graph `p`, giving `q`:
terms are only added, every term added is a source or reads `t`, and an older
term whose operand list changes had `t` as an operand and reads one of the
terms added. -/
structure Inserts (p q : Program) (t : Nat) : Prop where
  next : p.nextTermIndex ≤ q.nextTermIndex
  changed : ∀ x, x < p.nextTermIndex → q.operands x ≠ p.operands x →
    t ∈ p.operands x ∧ ∃ k ∈ q.operands x, p.nextTermIndex ≤ k
  created : ∀ k, p.nextTermIndex ≤ k → k < q.nextTermIndex →
    q.operands k = [] ∨ t ∈ q.operands k

/-! ## What `LazyRelinearizer` guarantees at the end of its pass -/

/-- The operations that need their operands relinearized: a `Mul` with all
operands `Cipher`, a rotation and an `Output`. -/
def NeedsRelin (q : Program) (ty : Nat → TermType) (u : Nat) : Prop :=
  (q.op u = Op.Mul ∧ ∀ o ∈ q.operands u, ty o = TermType.Cipher) ∨
  q.op u = Op.RotateLeftConst ∨ q.op u = Op.RotateRightConst ∨ q.op u = Op.Output

/-- A term that carries a product not yet relinearized: a `Mul` of `Cipher`
operands, or a term other than a `Relinearize` with such a term among its
operands. -/
inductive Unrelinearized (q : Program) (ty : Nat → TermType) : Nat → Prop
  | mul (t : Nat) : q.op t = Op.Mul → q.operands t ≠ [] →
      (∀ o ∈ q.operands t, ty o = TermType.Cipher) → Unrelinearized q ty t
  | step (t o : Nat) : o ∈ q.operands t → q.op t ≠ Op.Relinearize →
      Unrelinearized q ty o → Unrelinearized q ty t

/-- What holds of the program `q`, the types `ty` and the map `pending` of
`LazyRelinearizer` between two calls of a forward pass over `p0`, after the
calls logged in `visited`. -/
structure RelinInv (p0 q : Program) (ty : Nat → TermType) (pend : Nat → Bool)
    (visited : List Nat) : Prop where
  consistent : q.Consistent
  acyclic : q.Acyclic
  next_ge : p0.nextTermIndex ≤ q.nextTermIndex
  count : ∃ relins : List Nat, relins.Nodup ∧
    (∀ t ∈ relins, t ∈ visited ∧ t < p0.nextTermIndex) ∧
    q.nextTermIndex = p0.nextTermIndex + relins.length
  vis_lt : ∀ v ∈ visited, v < q.nextTermIndex
  op_old : ∀ x, x < p0.nextTermIndex → q.op x = p0.op x
  new_op : ∀ r, p0.nextTermIndex ≤ r → r < q.nextTermIndex → q.op r = Op.Relinearize
  closed : ∀ u ∈ visited, ∀ o ∈ q.operands u, o ∈ visited
  uses_unvisited : ∀ t, t < p0.nextTermIndex → t ∉ visited →
    ∀ u, t ∈ q.operands u ↔ t ∈ p0.operands u
  pend_old : ∀ u, pend u = true →
    u < p0.nextTermIndex ∧ p0.op u ≠ Op.Output ∧ q.operands u ≠ []
  unrel_pending : ∀ t ∈ visited, Unrelinearized q ty t → pend t = true
  pending_uses : ∀ t ∈ visited, pend t = true → ∀ u, t ∈ q.operands u →
    q.op u = Op.Relinearize ∨ (¬ NeedsRelin q ty u ∧ pend u = true)

/-- The program `out = (x * x) + x`, `o2 = -(x * x)`: `x` is term 0, the `Mul`
term 1, the `Add` term 2, the `Negate` term 3, the outputs terms 4 and 5. -/
def relinSample : Program :=
  [Cmd.makeTerm Op.Input [], Cmd.makeTerm Op.Mul [0, 0], Cmd.makeTerm Op.Add [1, 0],
    Cmd.makeTerm Op.Negate [1], Cmd.makeTerm Op.Output [2],
    Cmd.makeTerm Op.Output [3]].foldl Cmd.exec (Program.empty "relin" 8)

/-! ## Constant folding as the text describes it -/

/-- Modelled from the spec: a constant expanded to `slots` slots.  A dense
constant is a vector that tiles to fill the slots; a sparse constant of size
`L` is a list of (index, value) pairs over `[0, L)`, zero at the indices
outside the list, and tiles as a dense one does. -/
def specExpand : ConstantValue → Nat → List ℚ
  | ConstantValue.dense _ values, slots =>
    (List.range slots).map (fun j => values.getD (j % values.length) 0)
  | ConstantValue.sparse size values, slots => sparseTiled size values slots

/-- Modelled from the spec: the operand `t` of a folded term, a `Constant`,
expanded to the vector size of the program. -/
def specOperand (p : Program) (t : Nat) : Option (List ℚ) :=
  (AttributeList.getConstant (p.attributes t)).map (fun c => specExpand c p.vecSize)

/-- Modelled from the spec: the values of the dense constant that replaces a
term `t` all of whose operands are constants: `Add`, `Sub`, `Mul` and `Negate`
element-wise on the operands expanded to the vector size, `RotateLeftConst(k)`
and `RotateRightConst(k)` cyclic by `k mod L`. -/
def specFolded (p : Program) (t : Nat) : Option (List ℚ) :=
  match p.op t, p.operands t with
  | Op.Add, [a, b] =>
    match specOperand p a, specOperand p b with
    | some x, some y => some (List.zipWith (fun u v => u + v) x y)
    | _, _ => none
  | Op.Sub, [a, b] =>
    match specOperand p a, specOperand p b with
    | some x, some y => some (List.zipWith (fun u v => u - v) x y)
    | _, _ => none
  | Op.Mul, [a, b] =>
    match specOperand p a, specOperand p b with
    | some x, some y => some (List.zipWith (fun u v => u * v) x y)
    | _, _ => none
  | Op.Negate, [a] => (specOperand p a).map (fun x => x.map (fun u => -u))
  | Op.RotateLeftConst, [a] =>
    match specOperand p a, AttributeList.getInt32 (p.attributes t) RotationAttribute with
    | some x, some k => some (x.rotate (k % (x.length : Int)).toNat)
    | _, _ => none
  | Op.RotateRightConst, [a] =>
    match specOperand p a, AttributeList.getInt32 (p.attributes t) RotationAttribute with
    | some x, some k => some (x.rotate (x.length - (k % (x.length : Int)).toNat))
    | _, _ => none
  | _, _ => none

/-- The program `y = negate(c)` with vector size 4, where `c` (term 0) is the
sparse constant of size 4 with the single pair `(0, 5)`: the `Negate` is term 1
and the output term 2. -/
def sparseFoldSample : Program :=
  let g := [Cmd.makeTerm Op.Constant [], Cmd.makeTerm Op.Negate [0],
    Cmd.makeTerm Op.Output [1]].foldl Cmd.exec (Program.empty "sparseFold" 4)
  Term.setAttribute g 0 ConstantValueAttribute
    (AttributeValue.constant (ConstantValue.sparse 4 [(0, 5)]))

/-- The program `y = c + d` with vector size 4 over the dense constants
`c = [1, 2]` (term 0) and `d = [10, 20, 30, 40]` (term 1): the `Add` is term 2
and the output term 3. -/
def denseFoldSample : Program :=
  let g := [Cmd.makeTerm Op.Constant [], Cmd.makeTerm Op.Constant [], Cmd.makeTerm Op.Add [0, 1],
    Cmd.makeTerm Op.Output [2]].foldl Cmd.exec (Program.empty "denseFold" 4)
  let g1 := Term.setAttribute g 0 ConstantValueAttribute
    (AttributeValue.constant (ConstantValue.dense 2 [1, 2]))
  Term.setAttribute g1 1 ConstantValueAttribute
    (AttributeValue.constant (ConstantValue.dense 4 [10, 20, 30, 40]))

/-! ## Lemmas on the IR mutators -/

theorem mem_setInsert (s : List Nat) (t x : Nat) : x ∈ setInsert s t ↔ x ∈ s ∨ x = t := by
  unfold setInsert
  split
  · constructor
    · intro h; exact Or.inl h
    · rintro (h | h)
      · exact h
      · subst h; assumption
  · simp

theorem mem_setErase (s : List Nat) (t x : Nat) : x ∈ setErase s t ↔ x ∈ s ∧ x ≠ t := by
  simp [setErase]

@[simp] theorem withUses_uses (p : Program) (t : Nat) (us : List Nat) (x : Nat) :
    (p.withUses t us).uses x = if x = t then us else p.uses x := by
  simp only [Program.withUses, Program.uses, Function.update_apply]
  split <;> rfl

@[simp] theorem withUses_operands (p : Program) (t : Nat) (us : List Nat) (x : Nat) :
    (p.withUses t us).operands x = p.operands x := by
  simp only [Program.withUses, Program.operands, Function.update_apply]
  split
  · next h => subst h; rfl
  · rfl

@[simp] theorem withUses_op (p : Program) (t : Nat) (us : List Nat) (x : Nat) :
    (p.withUses t us).op x = p.op x := by
  simp only [Program.withUses, Program.op, Function.update_apply]
  split
  · next h => subst h; rfl
  · rfl

@[simp] theorem withUses_sources (p : Program) (t : Nat) (us : List Nat) :
    (p.withUses t us).sources = p.sources := rfl
@[simp] theorem withUses_sinks (p : Program) (t : Nat) (us : List Nat) :
    (p.withUses t us).sinks = p.sinks := rfl
@[simp] theorem withUses_next (p : Program) (t : Nat) (us : List Nat) :
    (p.withUses t us).nextTermIndex = p.nextTermIndex := rfl

@[simp] theorem withOperands_operands (p : Program) (t : Nat) (os : List Nat) (x : Nat) :
    (p.withOperands t os).operands x = if x = t then os else p.operands x := by
  simp only [Program.withOperands, Program.operands, Function.update_apply]
  split <;> rfl

@[simp] theorem withOperands_uses (p : Program) (t : Nat) (os : List Nat) (x : Nat) :
    (p.withOperands t os).uses x = p.uses x := by
  simp only [Program.withOperands, Program.uses, Function.update_apply]
  split
  · next h => subst h; rfl
  · rfl

@[simp] theorem withOperands_op (p : Program) (t : Nat) (os : List Nat) (x : Nat) :
    (p.withOperands t os).op x = p.op x := by
  simp only [Program.withOperands, Program.op, Function.update_apply]
  split
  · next h => subst h; rfl
  · rfl

@[simp] theorem withOperands_sources (p : Program) (t : Nat) (os : List Nat) :
    (p.withOperands t os).sources = p.sources := rfl
@[simp] theorem withOperands_sinks (p : Program) (t : Nat) (os : List Nat) :
    (p.withOperands t os).sinks = p.sinks := rfl
@[simp] theorem withOperands_next (p : Program) (t : Nat) (os : List Nat) :
    (p.withOperands t os).nextTermIndex = p.nextTermIndex := rfl

@[simp] theorem withSources_operands (p : Program) (s : List Nat) (x : Nat) :
    (p.withSources s).operands x = p.operands x := rfl
@[simp] theorem withSources_uses (p : Program) (s : List Nat) (x : Nat) :
    (p.withSources s).uses x = p.uses x := rfl
@[simp] theorem withSources_op (p : Program) (s : List Nat) (x : Nat) :
    (p.withSources s).op x = p.op x := rfl
@[simp] theorem withSources_sources (p : Program) (s : List Nat) :
    (p.withSources s).sources = s := rfl
@[simp] theorem withSources_sinks (p : Program) (s : List Nat) :
    (p.withSources s).sinks = p.sinks := rfl
@[simp] theorem withSources_next (p : Program) (s : List Nat) :
    (p.withSources s).nextTermIndex = p.nextTermIndex := rfl

@[simp] theorem withSinks_operands (p : Program) (s : List Nat) (x : Nat) :
    (p.withSinks s).operands x = p.operands x := rfl
@[simp] theorem withSinks_uses (p : Program) (s : List Nat) (x : Nat) :
    (p.withSinks s).uses x = p.uses x := rfl
@[simp] theorem withSinks_op (p : Program) (s : List Nat) (x : Nat) :
    (p.withSinks s).op x = p.op x := rfl
@[simp] theorem withSinks_sources (p : Program) (s : List Nat) :
    (p.withSinks s).sources = p.sources := rfl
@[simp] theorem withSinks_sinks (p : Program) (s : List Nat) :
    (p.withSinks s).sinks = s := rfl
@[simp] theorem withSinks_next (p : Program) (s : List Nat) :
    (p.withSinks s).nextTermIndex = p.nextTermIndex := rfl

/-! ### `addUse` and `eraseUse` -/

@[simp] theorem addUse_operands (p : Program) (a b x : Nat) :
    (Term.addUse p a b).operands x = p.operands x := by
  unfold Term.addUse
  split <;> simp

theorem addUse_uses (p : Program) (a b x : Nat) :
    (Term.addUse p a b).uses x = if x = a then p.uses a ++ [b] else p.uses x := by
  unfold Term.addUse
  split <;> simp

@[simp] theorem addUse_op (p : Program) (a b x : Nat) :
    (Term.addUse p a b).op x = p.op x := by
  unfold Term.addUse
  split <;> simp

@[simp] theorem addUse_sources (p : Program) (a b : Nat) :
    (Term.addUse p a b).sources = p.sources := by
  unfold Term.addUse
  split <;> simp

@[simp] theorem addUse_next (p : Program) (a b : Nat) :
    (Term.addUse p a b).nextTermIndex = p.nextTermIndex := by
  unfold Term.addUse
  split <;> simp

theorem addUse_sinksOK (p : Program) (a b : Nat) (h : p.SinksOK) :
    (Term.addUse p a b).SinksOK := by
  intro t
  rw [addUse_uses, addUse_next]
  unfold Term.addUse
  by_cases hu : p.uses a = []
  · simp only [hu, if_true, withUses_sinks, withSinks_sinks, mem_setErase, h t]
    by_cases hta : t = a
    · subst hta; simp
    · simp [hta]
  · simp only [hu, if_false, withUses_sinks, h t]
    by_cases hta : t = a
    · subst hta; simp [hu]
    · simp [hta]

@[simp] theorem eraseUse_operands (p : Program) (a b x : Nat) :
    (Term.eraseUse p a b).operands x = p.operands x := by
  simp only [Term.eraseUse]; split <;> simp

theorem eraseUse_uses (p : Program) (a b x : Nat) :
    (Term.eraseUse p a b).uses x = if x = a then (p.uses a).erase b else p.uses x := by
  simp only [Term.eraseUse]; split <;> simp

@[simp] theorem eraseUse_op (p : Program) (a b x : Nat) :
    (Term.eraseUse p a b).op x = p.op x := by
  simp only [Term.eraseUse]; split <;> simp

@[simp] theorem eraseUse_sources (p : Program) (a b : Nat) :
    (Term.eraseUse p a b).sources = p.sources := by
  simp only [Term.eraseUse]; split <;> simp

@[simp] theorem eraseUse_next (p : Program) (a b : Nat) :
    (Term.eraseUse p a b).nextTermIndex = p.nextTermIndex := by
  simp only [Term.eraseUse]; split <;> simp

theorem eraseUse_sinksOK (p : Program) (a b : Nat) (h : p.SinksOK)
    (ha : a < p.nextTermIndex) : (Term.eraseUse p a b).SinksOK := by
  intro t
  rw [eraseUse_uses, eraseUse_next]
  unfold Term.eraseUse
  by_cases hu : (p.uses a).erase b = []
  · simp only [withUses_uses, if_true, hu, withSinks_sinks, withUses_sinks, mem_setInsert, h t]
    by_cases hta : t = a
    · subst hta; simp [ha]
    · simp [hta]
  · simp only [withUses_uses, if_true, hu, if_false, withUses_sinks, h t]
    by_cases hta : t = a
    · subst hta
      simp only [if_true, hu, and_false, iff_false, not_and]
      intro _ h2
      rw [h2] at hu
      simp at hu
    · simp [hta]

theorem addUse_count (p : Program) (a b x y : Nat) :
    ((Term.addUse p a b).uses x).count y
      = (p.uses x).count y + if x = a ∧ y = b then 1 else 0 := by
  rw [addUse_uses]
  by_cases hx : x = a
  · subst hx
    by_cases hy : y = b
    · subst hy; simp
    · have : ¬ (b = y) := fun h => hy h.symm
      simp [hy, List.count_cons, this]
  · simp [hx]

theorem eraseUse_count (p : Program) (a b x y : Nat) :
    ((Term.eraseUse p a b).uses x).count y
      = (p.uses x).count y - if x = a ∧ y = b then 1 else 0 := by
  rw [eraseUse_uses]
  by_cases hx : x = a
  · subst hx
    by_cases hy : y = b
    · subst hy; simp
    · simp [hy, List.count_erase_of_ne hy]
  · simp [hx]

theorem addUse_freshOK (p : Program) (a b : Nat) (h : p.FreshOK) (ha : a < p.nextTermIndex) :
    (Term.addUse p a b).FreshOK := by
  intro t ht
  rw [addUse_next] at ht
  have hne : t ≠ a := by omega
  rw [addUse_operands, addUse_uses, if_neg hne]
  exact h t ht

theorem eraseUse_freshOK (p : Program) (a b : Nat) (h : p.FreshOK) (ha : a < p.nextTermIndex) :
    (Term.eraseUse p a b).FreshOK := by
  intro t ht
  rw [eraseUse_next] at ht
  have hne : t ≠ a := by omega
  rw [eraseUse_operands, eraseUse_uses, if_neg hne]
  exact h t ht

theorem addUse_sourcesOK (p : Program) (a b : Nat) (h : p.SourcesOK) :
    (Term.addUse p a b).SourcesOK := by
  intro t
  rw [addUse_sources, addUse_next, addUse_operands]
  exact h t

theorem eraseUse_sourcesOK (p : Program) (a b : Nat) (h : p.SourcesOK) :
    (Term.eraseUse p a b).SourcesOK := by
  intro t
  rw [eraseUse_sources, eraseUse_next, eraseUse_operands]
  exact h t

/-- In a consistent program every edge joins two created terms. -/
theorem Program.Consistent.operand_lt {p : Program} (h : p.Consistent) {t o : Nat}
    (ho : o ∈ p.operands t) : t < p.nextTermIndex ∧ o < p.nextTermIndex := by
  constructor
  · by_contra hlt
    have := (h.fresh t (by omega)).1
    rw [this] at ho
    simp at ho
  · by_contra hlt
    have hu := (h.fresh o (by omega)).2
    have hc := h.sym t o
    rw [hu] at hc
    have : 0 < (p.operands t).count o := List.count_pos_iff.mpr ho
    simp at hc
    omega

theorem Program.Consistent.use_lt {p : Program} (h : p.Consistent) {t u : Nat}
    (hu : u ∈ p.uses t) : t < p.nextTermIndex ∧ u < p.nextTermIndex := by
  have hc := h.sym u t
  have : 0 < (p.uses t).count u := List.count_pos_iff.mpr hu
  have h2 : t ∈ p.operands u := List.count_pos_iff.mp (by omega)
  exact ⟨(h.operand_lt h2).2, (h.operand_lt h2).1⟩

/-! ### `addOperand` -/

theorem addOperand_consistent (p : Program) (t o : Nat) (h : p.Consistent)
    (ht : t < p.nextTermIndex) (ho : o < p.nextTermIndex) :
    (Term.addOperand p t o).Consistent := by
  have key : ∀ q : Program, (∀ x, q.operands x = p.operands x) → (∀ x, q.uses x = p.uses x) →
      q.nextTermIndex = p.nextTermIndex → q.sinks = p.sinks →
      (∀ x, x ∈ q.sources ↔ x ∈ p.sources ∧ x ≠ t) →
      (Term.addUse (q.withOperands t (q.operands t ++ [o])) o t).Consistent := by
    intro q hop hus hn hsk hsrc
    refine ⟨?_, ?_, ?_, ?_⟩
    · intro x y
      rw [addUse_count, addUse_operands, withOperands_operands, withOperands_uses, hus, hop,
        ← h.sym x y]
      by_cases hx : x = t
      · subst hx
        by_cases hy : y = o
        · subst hy; simp
        · have : ¬ (o = y) := fun e => hy e.symm
          simp [hy, List.count_cons, this]
      · simp [hx, hop]
    · apply addUse_sourcesOK
      intro x
      simp only [withOperands_sources, withOperands_next, withOperands_operands, hsrc, hn, hop,
        h.src x]
      by_cases hx : x = t
      · subst hx; simp
      · simp [hx]
    · apply addUse_sinksOK
      intro x
      simp only [withOperands_sinks, withOperands_next, withOperands_uses, hsk, hn, hus]
      exact h.snk x
    · apply addUse_freshOK
      · intro x hx
        simp only [withOperands_next, hn] at hx
        have hne : x ≠ t := by omega
        simp only [withOperands_operands, withOperands_uses, hne, if_false, hop, hus]
        exact h.fresh x hx
      · simpa [hn] using ho
  unfold Term.addOperand
  by_cases he : p.operands t = []
  · simp only [he, if_true]
    have := key (p.withSources (setErase p.sources t)) (by simp) (by simp) (by simp) (by simp)
      (by intro x; simp [mem_setErase])
    simpa [he] using this
  · simp only [he, if_false]
    refine key p (by simp) (by simp) rfl rfl ?_
    intro x
    constructor
    · intro hx
      refine ⟨hx, ?_⟩
      rintro rfl
      exact he ((h.src x).mp hx).2
    · exact fun hx => hx.1

/-! ### `eraseOperand` -/

theorem eraseOperand_consistent (p : Program) (t o : Nat) (h : p.Consistent)
    (ht : t < p.nextTermIndex) (ho : o < p.nextTermIndex) :
    (Term.eraseOperand p t o).2.Consistent := by
  unfold Term.eraseOperand
  by_cases hmem : o ∈ p.operands t
  · simp only [hmem, if_true]
    have hsym : ((Term.eraseUse p o t).withOperands t
        (((Term.eraseUse p o t).operands t).erase o)).EdgeSym := by
      intro x y
      rw [withOperands_uses, eraseUse_count, withOperands_operands, eraseUse_operands, ← h.sym x y]
      by_cases hx : x = t
      · subst hx
        by_cases hy : y = o
        · subst hy; simp
        · simp [hy, List.count_erase_of_ne hy]
      · simp [hx]
    have hsnk : ((Term.eraseUse p o t).withOperands t
        (((Term.eraseUse p o t).operands t).erase o)).SinksOK := by
      have := eraseUse_sinksOK p o t h.snk ho
      intro x
      simpa using this x
    have hfresh : ((Term.eraseUse p o t).withOperands t
        (((Term.eraseUse p o t).operands t).erase o)).FreshOK := by
      have := eraseUse_freshOK p o t h.fresh ho
      intro x hx
      have hne : x ≠ t := by
        simp only [withOperands_next, eraseUse_next] at hx
        omega
      simp only [withOperands_operands, withOperands_uses, hne, if_false]
      exact this x (by simpa using hx)
    split
    · next he =>
      refine ⟨hsym, ?_, ?_, ?_⟩
      · intro x
        simp only [withSources_sources, withSources_next, withSources_operands, mem_setInsert,
          withOperands_sources, eraseUse_sources, withOperands_next, eraseUse_next,
          withOperands_operands, eraseUse_operands, h.src x]
        simp only [withOperands_operands, eraseUse_operands, if_true] at he
        by_cases hx : x = t
        · subst hx; simp [he, ht]
        · simp [hx]
      · intro x; simpa using hsnk x
      · intro x hx; simpa using hfresh x (by simpa using hx)
    · next he =>
      refine ⟨hsym, ?_, hsnk, hfresh⟩
      intro x
      simp only [withOperands_sources, eraseUse_sources, withOperands_next, eraseUse_next,
          withOperands_operands, eraseUse_operands, h.src x]
      simp only [withOperands_operands, eraseUse_operands, if_true] at he
      by_cases hx : x = t
      · subst hx
        simp only [if_true, he, and_false, iff_false, not_and]
        intro _ h2
        rw [h2] at hmem
        simp at hmem
      · simp [hx]
  · simp only [hmem, if_false]
    exact h

@[simp] theorem eraseOperand_next (p : Program) (t o : Nat) :
    (Term.eraseOperand p t o).2.nextTermIndex = p.nextTermIndex := by
  unfold Term.eraseOperand
  split
  · simp only []
    split <;> simp
  · rfl

/-! ### `replaceOperand` -/

@[simp] theorem replaceOperandAt_next (o n t : Nat) (p : Program) (i : Nat) :
    (Term.replaceOperandAt o n t p i).nextTermIndex = p.nextTermIndex := by
  unfold Term.replaceOperandAt
  split <;> simp

theorem replaceOperandAt_consistent (o n t : Nat) (p : Program) (i : Nat) (h : p.Consistent)
    (ht : t < p.nextTermIndex) (ho : o < p.nextTermIndex) (hn : n < p.nextTermIndex) :
    (Term.replaceOperandAt o n t p i).Consistent := by
  unfold Term.replaceOperandAt
  split
  · next hi =>
    obtain ⟨hlt, hget⟩ := List.getElem?_eq_some_iff.mp hi
    simp only []
    refine ⟨?_, ?_, ?_, ?_⟩
    · intro x y
      rw [addUse_count, eraseUse_count, addUse_operands, eraseUse_operands,
        withOperands_operands, withOperands_uses, ← h.sym x y]
      by_cases hx : x = t
      · subst hx
        simp only [if_true, true_and]
        rw [List.count_set _ _ _ _ hlt, hget]
        simp only [beq_iff_eq]
        by_cases h1 : y = o
        · by_cases h2 : y = n
          · simp [h1.symm, h2.symm]
          · have : ¬ n = y := fun e => h2 e.symm
            simp [h1.symm, h2, this]
        · have h1n : ¬ o = y := fun e => h1 e.symm
          by_cases h2 : y = n
          · simp [h1, h1n, h2.symm]
          · have : ¬ n = y := fun e => h2 e.symm
            simp [h1, h1n, h2, this]
      · simp [hx]
    · apply addUse_sourcesOK
      apply eraseUse_sourcesOK
      intro x
      simp only [withOperands_sources, withOperands_next, withOperands_operands, h.src x]
      by_cases hx : x = t
      · subst hx
        simp only [if_true]
        have h1 : p.operands x ≠ [] := by
          intro e; rw [e] at hlt; simp at hlt
        have h2 : (p.operands x).set i n ≠ [] := by
          intro e
          have := congrArg List.length e
          simp at this
          rw [this] at hlt; simp at hlt
        simp [h1, h2]
      · simp [hx]
    · apply addUse_sinksOK
      apply eraseUse_sinksOK
      · intro x
        simpa using h.snk x
      · simpa using ho
    · apply addUse_freshOK
      · apply eraseUse_freshOK
        · intro x hx
          have hne : x ≠ t := by simp only [withOperands_next] at hx; omega
          simp only [withOperands_operands, withOperands_uses, hne, if_false]
          exact h.fresh x (by simpa using hx)
        · simpa using ho
      · simpa using hn
  · exact h

theorem foldl_replaceOperandAt_consistent (o n t : Nat) (l : List Nat) (p : Program)
    (h : p.Consistent)
    (ht : t < p.nextTermIndex) (ho : o < p.nextTermIndex) (hn : n < p.nextTermIndex) :
    (l.foldl (Term.replaceOperandAt o n t) p).Consistent ∧
    (l.foldl (Term.replaceOperandAt o n t) p).nextTermIndex = p.nextTermIndex := by
  induction l generalizing p with
  | nil => exact ⟨h, rfl⟩
  | cons i l ih =>
    simp only [List.foldl_cons]
    have h1 := replaceOperandAt_consistent o n t p i h ht ho hn
    have := ih (Term.replaceOperandAt o n t p i) h1 (by simpa using ht) (by simpa using ho)
      (by simpa using hn)
    exact ⟨this.1, by rw [this.2]; simp⟩

theorem replaceOperand_consistent (p : Program) (t o n : Nat) (h : p.Consistent)
    (ht : t < p.nextTermIndex) (ho : o < p.nextTermIndex) (hn : n < p.nextTermIndex) :
    (Term.replaceOperand p t o n).2.Consistent ∧
    (Term.replaceOperand p t o n).2.nextTermIndex = p.nextTermIndex :=
  foldl_replaceOperandAt_consistent o n t _ p h ht ho hn

theorem replaceUsesWithIf_consistent (p : Program) (t n : Nat) (f : Nat → Bool)
    (h : p.Consistent) (ht : t < p.nextTermIndex) (hn : n < p.nextTermIndex) :
    (Term.replaceUsesWithIf p t n f).Consistent ∧
    (Term.replaceUsesWithIf p t n f).nextTermIndex = p.nextTermIndex := by
  unfold Term.replaceUsesWithIf
  have hall : ∀ u ∈ p.uses t, u < p.nextTermIndex := fun u hu => (h.use_lt hu).2
  generalize p.uses t = l at hall
  induction l generalizing p with
  | nil => exact ⟨h, rfl⟩
  | cons u l ih =>
    simp only [List.foldl_cons]
    have hu : u < p.nextTermIndex := hall u (by simp)
    by_cases hf : f u = true
    · simp only [hf, if_true]
      have h1 := replaceOperand_consistent p u t n h hu ht hn
      have := ih (Term.replaceOperand p u t n).2 h1.1 (by rw [h1.2]; exact ht)
        (by rw [h1.2]; exact hn) (by
          intro v hv; rw [h1.2]; exact hall v (by simp [hv]))
      exact ⟨this.1, by rw [this.2, h1.2]⟩
    · simp only [hf]
      exact ih p h ht hn (fun v hv => hall v (by simp [hv]))

/-! ### `setOperands` -/

theorem foldl_eraseUse_spec (this : Nat) (l : List Nat) (p : Program)
    (hl : ∀ o ∈ l, o < p.nextTermIndex) (hs : p.SinksOK) (hf : p.FreshOK) :
    let q := l.foldl (fun q operand => Term.eraseUse q operand this) p
    (∀ x, q.operands x = p.operands x) ∧ q.sources = p.sources ∧
    q.nextTermIndex = p.nextTermIndex ∧ q.SinksOK ∧ q.FreshOK ∧
    (∀ x y, (q.uses x).count y = (p.uses x).count y - if y = this then l.count x else 0) := by
  induction l generalizing p with
  | nil => simp [hs, hf]
  | cons a l ih =>
    simp only [List.foldl_cons]
    have ha : a < p.nextTermIndex := hl a (by simp)
    have := ih (Term.eraseUse p a this) (by intro o ho; simpa using hl o (by simp [ho]))
      (eraseUse_sinksOK p a this hs ha) (eraseUse_freshOK p a this hf ha)
    simp only at this
    obtain ⟨h1, h2, h3, h4, h5, h6⟩ := this
    refine ⟨by intro x; rw [h1]; simp, by rw [h2]; simp, by rw [h3]; simp, h4, h5, ?_⟩
    intro x y
    rw [h6, eraseUse_count, List.count_cons]
    by_cases hy : y = this
    · subst hy
      by_cases hx : x = a
      · subst hx; simp; omega
      · have : ¬ a = x := fun e => hx e.symm
        simp [hx, this]
    · simp [hy]

theorem foldl_addUse_spec (this : Nat) (l : List Nat) (p : Program)
    (hl : ∀ o ∈ l, o < p.nextTermIndex) (hs : p.SinksOK) (hf : p.FreshOK) :
    let q := l.foldl (fun q operand => Term.addUse q operand this) p
    (∀ x, q.operands x = p.operands x) ∧ q.sources = p.sources ∧
    q.nextTermIndex = p.nextTermIndex ∧ q.SinksOK ∧ q.FreshOK ∧
    (∀ x y, (q.uses x).count y = (p.uses x).count y + if y = this then l.count x else 0) := by
  induction l generalizing p with
  | nil => simp [hs, hf]
  | cons a l ih =>
    simp only [List.foldl_cons]
    have ha : a < p.nextTermIndex := hl a (by simp)
    have := ih (Term.addUse p a this) (by intro o ho; simpa using hl o (by simp [ho]))
      (addUse_sinksOK p a this hs) (addUse_freshOK p a this hf ha)
    simp only at this
    obtain ⟨h1, h2, h3, h4, h5, h6⟩ := this
    refine ⟨by intro x; rw [h1]; simp, by rw [h2]; simp, by rw [h3]; simp, h4, h5, ?_⟩
    intro x y
    rw [h6, addUse_count, List.count_cons]
    by_cases hy : y = this
    · subst hy
      by_cases hx : x = a
      · subst hx; simp; omega
      · have : ¬ a = x := fun e => hx e.symm
        simp [hx, this]
    · simp [hy]

theorem setOperands_consistent (p : Program) (t : Nat) (o : List Nat) (h : p.Consistent)
    (ht : t < p.nextTermIndex) (ho : ∀ x ∈ o, x < p.nextTermIndex) :
    (Term.setOperands p t o).Consistent ∧
    (Term.setOperands p t o).nextTermIndex = p.nextTermIndex ∧
    (∀ x, (Term.setOperands p t o).operands x = if x = t then o else p.operands x) := by
  have key : ∀ p1 : Program, (∀ x, p1.operands x = p.operands x) → (∀ x, p1.uses x = p.uses x) →
      p1.nextTermIndex = p.nextTermIndex → p1.sinks = p.sinks →
      (∀ x, x ∈ p1.sources ↔ x ∈ p.sources ∧ x ≠ t) →
      let p2 := (p1.operands t).foldl (fun q operand => Term.eraseUse q operand t) p1
      let p3 := p2.withOperands t o
      let p4 := o.foldl (fun q operand => Term.addUse q operand t) p3
      let p5 := if p4.operands t = [] then p4.withSources (setInsert p4.sources t) else p4
      p5.Consistent ∧ p5.nextTermIndex = p.nextTermIndex ∧
      (∀ x, p5.operands x = if x = t then o else p.operands x) := by
    intro p1 hop hus hn hsk hsrc
    have hs1 : p1.SinksOK := by
      intro x; rw [hsk, hn, hus]; exact h.snk x
    have hf1 : p1.FreshOK := by
      intro x hx; rw [hop, hus]; exact h.fresh x (by rw [← hn]; exact hx)
    have e := foldl_eraseUse_spec t (p1.operands t) p1
      (by intro x hx; rw [hn]; rw [hop] at hx; exact (h.operand_lt hx).2) hs1 hf1
    simp only at e
    obtain ⟨e1, e2, e3, e4, e5, e6⟩ := e
    have hs3 : (((p1.operands t).foldl (fun q operand => Term.eraseUse q operand t) p1).withOperands
        t o).SinksOK := by
      intro x; simpa using e4 x
    have hf3 : (((p1.operands t).foldl (fun q operand => Term.eraseUse q operand t) p1).withOperands
        t o).FreshOK := by
      intro x hx
      have hne : x ≠ t := by
        simp only [withOperands_next, e3, hn] at hx
        omega
      simp only [withOperands_operands, withOperands_uses, hne, if_false]
      exact e5 x (by simpa using hx)
    have a := foldl_addUse_spec t o _ (by intro x hx; simpa [e3, hn] using ho x hx) hs3 hf3
    simp only at a
    obtain ⟨a1, a2, a3, a4, a5, a6⟩ := a
    intro p2 p3 p4 p5
    have hop4 : ∀ x, p4.operands x = if x = t then o else p.operands x := by
      intro x
      show (o.foldl (fun q operand => Term.addUse q operand t) p3).operands x = _
      rw [a1, withOperands_operands, e1, hop]
    have hn4 : p4.nextTermIndex = p.nextTermIndex := by
      show (o.foldl (fun q operand => Term.addUse q operand t) p3).nextTermIndex = _
      rw [a3, withOperands_next, e3, hn]
    have hsym4 : p4.EdgeSym := by
      intro x y
      show ((o.foldl (fun q operand => Term.addUse q operand t) p3).operands x).count y
        = ((o.foldl (fun q operand => Term.addUse q operand t) p3).uses y).count x
      rw [a6, a1, withOperands_uses, withOperands_operands, e6, e1, hop, hop, hus, ← h.sym x y]
      by_cases hx : x = t
      · subst hx; simp
      · simp [hx]
    have hsrc4 : ∀ x, x ∈ p4.sources ↔ x ∈ p.sources ∧ x ≠ t := by
      intro x
      show x ∈ (o.foldl (fun q operand => Term.addUse q operand t) p3).sources ↔ _
      rw [a2, withOperands_sources, e2]
      exact hsrc x
    have hsrcOK : p5.SourcesOK := by
      intro x
      show x ∈ (if p4.operands t = [] then p4.withSources (setInsert p4.sources t) else p4).sources
        ↔ x < (if p4.operands t = [] then p4.withSources (setInsert p4.sources t)
            else p4).nextTermIndex ∧
          (if p4.operands t = [] then p4.withSources (setInsert p4.sources t) else p4).operands x
            = []
      by_cases hemp : p4.operands t = []
      · rw [if_pos hemp]
        simp only [withSources_sources, mem_setInsert, hsrc4, withSources_next, hn4,
          withSources_operands, h.src x]
        by_cases hx : x = t
        · subst hx; simp [hemp, ht]
        · have := hop4 x
          rw [if_neg hx] at this
          rw [this]
          simp [hx]
      · rw [if_neg hemp]
        rw [hsrc4, hn4, h.src x]
        by_cases hx : x = t
        · subst hx; simp [hemp]
        · have := hop4 x
          rw [if_neg hx] at this
          rw [this]
          simp [hx]
    by_cases hemp : p4.operands t = []
    · have e5' : p5 = p4.withSources (setInsert p4.sources t) := by
        show (if p4.operands t = [] then _ else _) = _
        rw [if_pos hemp]
      refine ⟨⟨?_, hsrcOK, ?_, ?_⟩, ?_, ?_⟩
      · rw [e5']; intro x y; simpa using hsym4 x y
      · rw [e5']; intro x; simpa using a4 x
      · rw [e5']; intro x hx; simpa using a5 x (by simpa using hx)
      · rw [e5']; simpa using hn4
      · rw [e5']; intro x; simpa using hop4 x
    · have e5' : p5 = p4 := by
        show (if p4.operands t = [] then _ else _) = _
        rw [if_neg hemp]
      rw [e5'] at hsrcOK ⊢
      exact ⟨⟨hsym4, hsrcOK, a4, a5⟩, hn4, hop4⟩
  unfold Term.setOperands
  by_cases he : p.operands t = []
  · simp only [he, if_true]
    have := key (p.withSources (setErase p.sources t)) (by simp) (by simp) (by simp) (by simp)
      (by intro x; simp [mem_setErase])
    simpa [he] using this
  · simp only [he, if_false]
    refine key p (by simp) (by simp) rfl rfl ?_
    intro x
    constructor
    · intro hx
      refine ⟨hx, ?_⟩
      rintro rfl
      exact he ((h.src x).mp hx).2
    · exact fun hx => hx.1

/-! ### `Term::Term` and `makeTerm` -/

@[simp] theorem create_fst (p : Program) (op : Op) : (Term.create p op).1 = p.nextTermIndex := rfl

@[simp] theorem create_next (p : Program) (op : Op) :
    (Term.create p op).2.nextTermIndex = p.nextTermIndex + 1 := rfl

@[simp] theorem create_sources (p : Program) (op : Op) :
    (Term.create p op).2.sources = setInsert p.sources p.nextTermIndex := rfl

@[simp] theorem create_sinks (p : Program) (op : Op) :
    (Term.create p op).2.sinks = setInsert p.sinks p.nextTermIndex := rfl

theorem create_operands (p : Program) (op : Op) (x : Nat) :
    (Term.create p op).2.operands x = if x = p.nextTermIndex then [] else p.operands x := by
  simp only [Term.create, Program.operands, Function.update_apply]
  split <;> rfl

theorem create_uses (p : Program) (op : Op) (x : Nat) :
    (Term.create p op).2.uses x = if x = p.nextTermIndex then [] else p.uses x := by
  simp only [Term.create, Program.uses, Function.update_apply]
  split <;> rfl

theorem create_op (p : Program) (op : Op) (x : Nat) :
    (Term.create p op).2.op x = if x = p.nextTermIndex then op else p.op x := by
  simp only [Term.create, Program.op, Function.update_apply]
  split <;> rfl

theorem create_operands_of_fresh (p : Program) (op : Op) (h : p.FreshOK) (x : Nat) :
    (Term.create p op).2.operands x = p.operands x := by
  rw [create_operands]
  split
  · next e => subst e; exact ((h _ (le_refl _)).1).symm
  · rfl

theorem create_uses_of_fresh (p : Program) (op : Op) (h : p.FreshOK) (x : Nat) :
    (Term.create p op).2.uses x = p.uses x := by
  rw [create_uses]
  split
  · next e => subst e; exact ((h _ (le_refl _)).2).symm
  · rfl

theorem create_consistent (p : Program) (op : Op) (h : p.Consistent) :
    (Term.create p op).2.Consistent := by
  refine ⟨?_, ?_, ?_, ?_⟩
  · intro x y
    rw [create_operands_of_fresh p op h.fresh, create_uses_of_fresh p op h.fresh]
    exact h.sym x y
  · intro x
    rw [create_operands_of_fresh p op h.fresh, create_sources, create_next, mem_setInsert, h.src x]
    constructor
    · rintro (⟨h1, h2⟩ | rfl)
      · exact ⟨by omega, h2⟩
      · exact ⟨by omega, (h.fresh _ (le_refl _)).1⟩
    · rintro ⟨h1, h2⟩
      by_cases e : x = p.nextTermIndex
      · exact Or.inr e
      · exact Or.inl ⟨by omega, h2⟩
  · intro x
    rw [create_uses_of_fresh p op h.fresh, create_sinks, create_next, mem_setInsert, h.snk x]
    constructor
    · rintro (⟨h1, h2⟩ | rfl)
      · exact ⟨by omega, h2⟩
      · exact ⟨by omega, (h.fresh _ (le_refl _)).2⟩
    · rintro ⟨h1, h2⟩
      by_cases e : x = p.nextTermIndex
      · exact Or.inr e
      · exact Or.inl ⟨by omega, h2⟩
  · intro x hx
    rw [create_operands_of_fresh p op h.fresh, create_uses_of_fresh p op h.fresh]
    exact h.fresh x (by rw [create_next] at hx; omega)

theorem makeTerm_consistent (p : Program) (op : Op) (os : List Nat) (h : p.Consistent)
    (ho : ∀ x ∈ os, x < p.nextTermIndex) :
    (Program.makeTerm p op os).2.Consistent ∧
    (Program.makeTerm p op os).1 = p.nextTermIndex ∧
    (Program.makeTerm p op os).2.nextTermIndex = p.nextTermIndex + 1 ∧
    (∀ x, (Program.makeTerm p op os).2.operands x
       = if x = p.nextTermIndex then os else p.operands x) := by
  unfold Program.makeTerm
  have hc := create_consistent p op h
  by_cases hlen : 0 < os.length
  · simp only [hlen, if_true, create_fst]
    have := setOperands_consistent (Term.create p op).2 p.nextTermIndex os hc (by simp)
      (by intro x hx; have := ho x hx; simp; omega)
    refine ⟨this.1, trivial, by rw [this.2.1]; simp, ?_⟩
    intro x
    rw [this.2.2, create_operands_of_fresh p op h.fresh]
  · simp only [hlen, if_false]
    have hnil : os = [] := by
      cases os with
      | nil => rfl
      | cons a l => simp at hlen
    subst hnil
    refine ⟨hc, rfl, rfl, ?_⟩
    intro x
    rw [create_operands]

theorem exec_consistent (p : Program) (c : Cmd) (h : p.Consistent) (hv : Cmd.valid p c = true) :
    (Cmd.exec p c).Consistent ∧ p.nextTermIndex ≤ (Cmd.exec p c).nextTermIndex := by
  cases c with
  | makeTerm op os =>
    simp only [Cmd.valid, List.all_eq_true, decide_eq_true_eq] at hv
    have := makeTerm_consistent p op os h hv
    exact ⟨this.1, by simp only [Cmd.exec]; rw [this.2.2.1]; omega⟩
  | addOperand t o =>
    simp only [Cmd.valid, Bool.and_eq_true, decide_eq_true_eq] at hv
    refine ⟨addOperand_consistent p t o h hv.1 hv.2, ?_⟩
    simp only [Cmd.exec, Term.addOperand]
    split <;> simp
  | eraseOperand t o =>
    simp only [Cmd.valid, Bool.and_eq_true, decide_eq_true_eq] at hv
    exact ⟨eraseOperand_consistent p t o h hv.1 hv.2, by simp [Cmd.exec]⟩
  | replaceOperand t o n =>
    simp only [Cmd.valid, Bool.and_eq_true, decide_eq_true_eq] at hv
    have := replaceOperand_consistent p t o n h hv.1.1 hv.1.2 hv.2
    exact ⟨this.1, by simp only [Cmd.exec]; rw [this.2]⟩
  | setOperands t os =>
    simp only [Cmd.valid, Bool.and_eq_true, decide_eq_true_eq, List.all_eq_true] at hv
    have := setOperands_consistent p t os h hv.1 hv.2
    exact ⟨this.1, by simp only [Cmd.exec]; rw [this.2.1]⟩
  | replaceAllUsesWith t n =>
    simp only [Cmd.valid, Bool.and_eq_true, decide_eq_true_eq] at hv
    have := replaceUsesWithIf_consistent p t n (fun _ => true) h hv.1 hv.2
    exact ⟨this.1, by simp only [Cmd.exec, Term.replaceAllUsesWith]; rw [this.2]⟩
  | replaceOtherUsesWith t n =>
    simp only [Cmd.valid, Bool.and_eq_true, decide_eq_true_eq] at hv
    have := replaceUsesWithIf_consistent p t n (fun use => decide (use ≠ n)) h hv.1 hv.2
    exact ⟨this.1, by simp only [Cmd.exec, Term.replaceOtherUsesWith]; rw [this.2]⟩

theorem empty_consistent (name : String) (vecSize : Nat) :
    (Program.empty name vecSize).Consistent := by
  refine ⟨?_, ?_, ?_, ?_⟩
  · intro x y; rfl
  · intro x; simp [Program.empty]
  · intro x; simp [Program.empty]
  · intro x _; exact ⟨rfl, rfl⟩

theorem run_consistent (cs : List Cmd) (p q : Program) (h : p.Consistent)
    (hr : Cmd.run p cs = some q) : q.Consistent := by
  induction cs generalizing p with
  | nil =>
    simp only [Cmd.run, Option.some.injEq] at hr
    subst hr; exact h
  | cons c cs ih =>
    simp only [Cmd.run] at hr
    split at hr
    · next hv => exact ih _ (exec_consistent p c h hv).1 hr
    · simp at hr

/-! ## Edge symmetry and source/sink consistency (claims C3 and C4) -/

/-- A run that succeeds returns the fold of `Cmd.exec` over the commands. -/
theorem run_eq_foldl (p : Program) (cs : List Cmd) (h : (Cmd.run p cs).isSome = true) :
    Cmd.run p cs = some (cs.foldl Cmd.exec p) := by
  induction cs generalizing p with
  | nil => rfl
  | cons c cs ih =>
    simp only [Cmd.run] at h ⊢
    split
    · next hv =>
      rw [if_pos hv] at h
      simpa using ih _ h
    · next hv =>
      rw [if_neg hv] at h
      simp at h

/-- C3 (edge symmetry): after any sequence of `makeTerm`, `addOperand`,
`eraseOperand`, `replaceOperand`, `setOperands`, `replaceAllUsesWith` and
`replaceOtherUsesWith` run on a new program, for all terms `t` and `o` the
number of occurrences of `o` in the operand list of `t` equals the number of
occurrences of `t` in the use list of `o`. -/
theorem edge_symmetry_invariant (name : String) (vecSize : Nat) (cs : List Cmd) (p : Program)
    (hr : Cmd.run (Program.empty name vecSize) cs = some p) (t o : Nat) :
    (p.operands t).count o = (p.uses o).count t :=
  (run_consistent cs _ p (empty_consistent name vecSize) hr).sym t o

/-- Witness of C3 on `demoCmds`: the run succeeds and the counts agree for
the edge from term 3 to term 4. -/
theorem edge_symmetry_invariant_witness :
    Cmd.run (Program.empty "demo" 8) demoCmds = some demoProgram ∧
    (demoProgram.operands 3).count 4 = 2 ∧
    (demoProgram.operands 3).count 4 = (demoProgram.uses 4).count 3 :=
  ⟨run_eq_foldl _ _ (by decide!), by decide!,
   edge_symmetry_invariant "demo" 8 demoCmds demoProgram (run_eq_foldl _ _ (by decide!)) 3 4⟩

/-- C4 (source/sink consistency): after any sequence of the mutators run on a
new program, a created term is in `sources` iff its operand list is empty and
in `sinks` iff its use list is empty; and a term then made by
`makeTerm(op, operands)` from existing operands is in `sources` iff `operands`
is empty, and is in `sinks`. -/
theorem source_sink_consistency (name : String) (vecSize : Nat) (cs : List Cmd) (p : Program)
    (hr : Cmd.run (Program.empty name vecSize) cs = some p) :
    (∀ t, t < p.nextTermIndex →
      ((t ∈ p.sources ↔ p.operands t = []) ∧ (t ∈ p.sinks ↔ p.uses t = []))) ∧
    (∀ t, (t ∈ p.sources ∨ t ∈ p.sinks) → t < p.nextTermIndex) ∧
    (∀ op operands, (∀ o ∈ operands, o < p.nextTermIndex) →
      (((p.makeTerm op operands).1 ∈ (p.makeTerm op operands).2.sources ↔ operands = []) ∧
       (p.makeTerm op operands).1 ∈ (p.makeTerm op operands).2.sinks)) := by
  have hc := run_consistent cs _ p (empty_consistent name vecSize) hr
  refine ⟨?_, ?_, ?_⟩
  · intro t ht
    constructor
    · rw [hc.src t]; simp [ht]
    · rw [hc.snk t]; simp [ht]
  · rintro t (h | h)
    · exact ((hc.src t).mp h).1
    · exact ((hc.snk t).mp h).1
  · intro op operands ho
    obtain ⟨hm, h1, h2, h3⟩ := makeTerm_consistent p op operands hc ho
    constructor
    · rw [hm.src, h1, h2, h3]; simp
    · rw [hm.snk, h1, h2]
      refine ⟨by omega, ?_⟩
      by_contra hne
      obtain ⟨u, hu⟩ := List.exists_mem_of_ne_nil _ hne
      have := (hm.use_lt hu)
      have hmem : p.nextTermIndex ∈ (p.makeTerm op operands).2.operands u := by
        have := hm.sym u p.nextTermIndex
        exact List.count_pos_iff.mp (by rw [this]; exact List.count_pos_iff.mpr hu)
      rw [h3] at hmem
      by_cases hu2 : u = p.nextTermIndex
      · rw [if_pos hu2] at hmem
        exact absurd (ho _ hmem) (by omega)
      · rw [if_neg hu2] at hmem
        exact absurd (hc.operand_lt hmem).2 (by omega)

/-- Witness of C4 on `demoCmds`: term 1 has lost its uses and is a sink, term
2 has operands and is not a source. -/
theorem source_sink_consistency_witness :
    Cmd.run (Program.empty "demo" 8) demoCmds = some demoProgram ∧
    (1 ∈ demoProgram.sinks ↔ demoProgram.uses 1 = []) ∧
    (2 ∈ demoProgram.sources ↔ demoProgram.operands 2 = []) :=
  ⟨run_eq_foldl _ _ (by decide!),
   ((source_sink_consistency "demo" 8 demoCmds demoProgram
      (run_eq_foldl _ _ (by decide!))).1 1 (by decide!)).2,
   ((source_sink_consistency "demo" 8 demoCmds demoProgram
      (run_eq_foldl _ _ (by decide!))).1 2 (by decide!)).1⟩

/-! ## The traversal over an unchanging graph (claims C1 and C2) -/

theorem foldl_pushLeaf_of_ready (l : List Nat) (acc : List Nat × (Nat → Bool))
    (h : ∀ x ∈ l, acc.2 x = true) : l.foldl pushLeaf acc = acc := by
  induction l with
  | nil => rfl
  | cons a l ih =>
    have ha : acc.2 a = true := h a (by simp)
    simp only [List.foldl_cons, pushLeaf, ha, if_true]
    exact ih (fun x hx => h x (by simp [hx]))

theorem foldl_pushSucc_spec (isForward : Bool) (p : Program) (processed : Nat → Bool)
    (l : List Nat) (acc : List Nat × (Nat → Bool)) :
    (∀ x, (l.foldl (pushSucc isForward p processed) acc).2 x = true ↔
      (acc.2 x = true ∨ (x ∈ l ∧ arePredecessorsDone isForward p processed x = true))) ∧
    (∀ x, x ∈ (l.foldl (pushSucc isForward p processed) acc).1 ↔
      (x ∈ acc.1 ∨ (x ∈ l ∧ acc.2 x = false ∧
        arePredecessorsDone isForward p processed x = true))) ∧
    (acc.1.Nodup → (∀ x ∈ acc.1, acc.2 x = true) →
      (l.foldl (pushSucc isForward p processed) acc).1.Nodup ∧
      ∀ x ∈ (l.foldl (pushSucc isForward p processed) acc).1,
        (l.foldl (pushSucc isForward p processed) acc).2 x = true) := by
  induction l generalizing acc with
  | nil => exact ⟨by simp, by simp, fun h1 h2 => ⟨h1, h2⟩⟩
  | cons a l ih =>
    simp only [List.foldl_cons]
    obtain ⟨ih1, ih2, ih3⟩ := ih (pushSucc isForward p processed acc a)
    by_cases hc : (!acc.2 a && arePredecessorsDone isForward p processed a) = true
    · have hstep : pushSucc isForward p processed acc a
          = (a :: acc.1, Function.update acc.2 a true) := by
        simp only [pushSucc, hc, if_true]
      simp only [Bool.and_eq_true, Bool.not_eq_true', ] at hc
      rw [hstep] at ih1 ih2 ih3 ⊢
      refine ⟨?_, ?_, ?_⟩
      · intro x
        rw [ih1 x]
        simp only [Function.update_apply, List.mem_cons]
        by_cases hx : x = a
        · subst hx; simp [hc.2]
        · simp [hx]
      · intro x
        rw [ih2 x]
        simp only [Function.update_apply, List.mem_cons]
        by_cases hx : x = a
        · subst hx; simp [hc.1, hc.2]
        · simp [hx]
      · intro hnd hrd
        apply ih3
        · simp only [List.nodup_cons]
          refine ⟨?_, hnd⟩
          intro hmem
          have := hrd a hmem
          rw [hc.1] at this
          exact Bool.noConfusion this
        · intro x hx
          simp only [List.mem_cons] at hx
          simp only [Function.update_apply]
          split
          · rfl
          · rcases hx with hx | hx
            · contradiction
            · exact hrd x hx
    · have hstep : pushSucc isForward p processed acc a = acc := by
        simp only [pushSucc, hc, if_false]
        simp
      rw [hstep] at ih1 ih2 ih3 ⊢
      simp only [Bool.and_eq_true, Bool.not_eq_true', not_and] at hc
      refine ⟨?_, ?_, ih3⟩
      · intro x
        rw [ih1 x]
        simp only [List.mem_cons]
        constructor
        · rintro (h | ⟨h1, h2⟩)
          · exact Or.inl h
          · exact Or.inr ⟨Or.inr h1, h2⟩
        · rintro (h | ⟨h1 | h1, h2⟩)
          · exact Or.inl h
          · subst h1
            by_cases hr : acc.2 x = true
            · exact Or.inl hr
            · exact absurd h2 (hc (by simpa using hr))
          · exact Or.inr ⟨h1, h2⟩
      · intro x
        rw [ih2 x]
        simp only [List.mem_cons]
        constructor
        · rintro (h | ⟨h1, h2⟩)
          · exact Or.inl h
          · exact Or.inr ⟨Or.inr h1, h2⟩
        · rintro (h | ⟨h1 | h1, h2, h3⟩)
          · exact Or.inl h
          · subst h1
            exact absurd h3 (hc h2)
          · exact Or.inr ⟨h1, h2, h3⟩

theorem arePredecessorsDone_iff (isForward : Bool) (p : Program) (processed : Nat → Bool)
    (t : Nat) : arePredecessorsDone isForward p processed t = true ↔
      ∀ o ∈ predecessors isForward p t, processed o = true := by
  simp [arePredecessorsDone, List.all_eq_true]

/-- One iteration of the loop keeps the invariant, and an invariant `J` of the
rewriter, and logs the popped term. -/
theorem traverseVisit_inv {σ : Type} (isForward : Bool) (R : Rewriter σ) (p : Program)
    (J : σ → List Nat → Prop)
    (hR : ∀ env visited term, R.program env = p → J env visited → term ∉ visited →
      term < p.nextTermIndex → (∀ o ∈ predecessors isForward p term, o ∈ visited) →
      ∃ env1, R.rewrite env term = some env1 ∧ R.program env1 = p ∧ J env1 (visited ++ [term]))
    (hd : DirFacts isForward p) (st : TraversalState σ)
    (term : Nat) (rest : List Nat) (hst : TraversalInv isForward R p st)
    (hJ : J st.env st.visited) (hrn : st.readyNodes = term :: rest) :
    ∃ st1, traverseVisit isForward R st term rest = some st1 ∧
      TraversalInv isForward R p st1 ∧ st1.visited = st.visited ++ [term] ∧
      J st1.env st1.visited := by
  have hterm_ready : st.ready term = true := (hst.ready_iff term).mpr (Or.inl (by simp [hrn]))
  have hterm_unproc : st.processed term = false := hst.rn_unproc term (by simp [hrn])
  have hnotin0 : term ∉ st.visited := by
    intro h
    have := (hst.proc_iff term).mpr h
    rw [hterm_unproc] at this
    exact Bool.noConfusion this
  obtain ⟨s1, hs1, hprog1, hJ1⟩ := hR st.env st.visited term hst.prog hJ hnotin0
    (hst.ready_sound term hterm_ready).1
    (fun o ho => (hst.proc_iff o).mp ((hst.ready_sound term hterm_ready).2 o ho))
  have hterm_notin : term ∉ rest := by
    have := hst.rn_nodup
    rw [hrn] at this
    exact (List.nodup_cons.mp this).1
  have hrest_nodup : rest.Nodup := by
    have := hst.rn_nodup
    rw [hrn] at this
    exact (List.nodup_cons.mp this).2
  have hleaf : (leaves isForward p).foldl pushLeaf (rest, st.ready) = (rest, st.ready) := by
    apply foldl_pushLeaf_of_ready
    intro x hx
    have := (hd.leaf x).mp hx
    apply hst.ready_complete x this.1
    intro o ho
    rw [this.2] at ho
    simp at ho
  obtain ⟨sp1, sp2, sp3⟩ := foldl_pushSucc_spec isForward p
    (Function.update st.processed term true)
    (successors isForward p term ++ successors isForward p term) (rest, st.ready)
  have hproc : ∀ t, Function.update st.processed term true t = true ↔
      (t = term ∨ st.processed t = true) := by
    intro t
    simp only [Function.update_apply]
    by_cases h : t = term <;> simp [h]
  refine ⟨{ env := s1,
             ready := ((successors isForward p term ++ successors isForward p term).foldl
               (pushSucc isForward p (Function.update st.processed term true))
               (rest, st.ready)).2,
             processed := Function.update st.processed term true,
             readyNodes := ((successors isForward p term ++ successors isForward p term).foldl
               (pushSucc isForward p (Function.update st.processed term true))
               (rest, st.ready)).1,
             visited := st.visited ++ [term] }, ?_, ?_, rfl, hJ1⟩
  · simp only [traverseVisit, hs1, hprog1, hst.prog, hleaf]
  · simp only [List.mem_append, or_self] at sp1 sp2 sp3
    have sp3' := sp3 hrest_nodup (by
      intro x hx
      exact (hst.ready_iff x).mpr (Or.inl (by simp [hrn, hx])))
    refine ⟨hprog1, ?_, ?_, sp3'.1, ?_, ?_, ?_, ?_, ?_⟩
    · intro t
      show Function.update st.processed term true t = true ↔ t ∈ st.visited ++ [term]
      rw [hproc, hst.proc_iff]
      simp only [List.mem_append, List.mem_singleton]
      tauto
    · show (st.visited ++ [term]).Nodup
      rw [List.nodup_append]
      refine ⟨hst.vis_nodup, by simp, ?_⟩
      intro x hx hx2
      simp only [List.mem_singleton] at hx2
      subst hx2
      have := (hst.proc_iff x).mpr hx
      rw [hterm_unproc] at this
      exact Bool.noConfusion this
    · intro t
      show _ ↔ (_ ∨ Function.update st.processed term true t = true)
      rw [sp1, sp2, hproc, hst.ready_iff, hrn]
      simp only [List.mem_cons]
      by_cases hr : st.ready t = true
      · have := (hst.ready_iff t).mp hr
        rw [hrn] at this
        simp only [List.mem_cons] at this
        simp only [hr]
        constructor
        · intro _
          rcases this with (h | h) | h
          · exact Or.inr (Or.inl h)
          · exact Or.inl (Or.inl h)
          · exact Or.inr (Or.inr h)
        · intro _
          exact Or.inl this
      · have hr' : st.ready t = false := by simpa using hr
        have hn := mt (hst.ready_iff t).mpr hr
        rw [hrn] at hn
        simp only [List.mem_cons, not_or] at hn
        simp only [hr']
        constructor
        · rintro (h | h)
          · exact absurd h (by tauto)
          · exact Or.inl (Or.inr ⟨h.1, trivial, h.2⟩)
        · rintro ((h | h) | h | h)
          · exact absurd h hn.1.2
          · exact Or.inr ⟨h.1, h.2.2⟩
          · exact absurd h hn.1.1
          · exact absurd h hn.2
    · intro t ht
      show Function.update st.processed term true t = false
      have ht' := (sp2 t).mp ht
      have hne : t ≠ term := by
        rintro rfl
        rcases ht' with h | h
        · exact hterm_notin h
        · rw [hterm_ready] at h
          exact Bool.noConfusion h.2.1
      simp only [Function.update_apply, hne, if_false]
      rcases ht' with h | h
      · exact hst.rn_unproc t (by simp [hrn, h])
      · by_contra hpr
        have hpr' : st.processed t = true := by simpa using hpr
        have := (hst.ready_iff t).mpr (Or.inr hpr')
        rw [h.2.1] at this
        exact Bool.noConfusion this
    · intro t ht
      have ht' := (sp1 t).mp ht
      rcases ht' with h | h
      · have := hst.ready_sound t h
        refine ⟨this.1, ?_⟩
        intro o ho
        show Function.update st.processed term true o = true
        rw [hproc]
        exact Or.inr (this.2 o ho)
      · refine ⟨((hd.bound t term ((hd.edge term t).mp h.1)).2), ?_⟩
        exact (arePredecessorsDone_iff _ _ _ _).mp h.2
    · intro s hs hall
      show _ = true
      rw [sp1]
      by_cases hold : ∀ o ∈ predecessors isForward p s, st.processed o = true
      · exact Or.inl (hst.ready_complete s hs hold)
      · right
        push_neg at hold
        obtain ⟨o, ho, hno⟩ := hold
        have := (hproc o).mp (hall o ho)
        rcases this with h | h
        · subst h
          exact ⟨(hd.edge o s).mpr ho, (arePredecessorsDone_iff _ _ _ _).mpr hall⟩
        · exact absurd h hno
    · intro t ht o ho
      show (st.visited ++ [term]).indexOf o < (st.visited ++ [term]).indexOf t
      simp only [List.mem_append, List.mem_singleton] at ht
      have hnotin : term ∉ st.visited := by
        intro h
        have := (hst.proc_iff term).mpr h
        rw [hterm_unproc] at this
        exact Bool.noConfusion this
      rcases ht with ht | ht
      · have h1 := hst.order t ht o ho
        have h2 : o ∈ st.visited := by
          apply List.indexOf_lt_length.mp
          exact lt_of_lt_of_le h1 List.indexOf_le_length
        rw [List.indexOf_append_of_mem h2, List.indexOf_append_of_mem ht]
        exact h1
      · subst ht
        have h2 : o ∈ st.visited :=
          (hst.proc_iff o).mp ((hst.ready_sound t hterm_ready).2 o ho)
        rw [List.indexOf_append_of_mem h2, List.indexOf_append_of_not_mem hnotin]
        have := List.indexOf_lt_length.mpr h2
        omega

/-! ## The leaf sets hold no duplicates -/

theorem setInsert_nodup (s : List Nat) (t : Nat) (h : s.Nodup) : (setInsert s t).Nodup := by
  unfold setInsert
  split
  · exact h
  · next hn =>
    rw [List.nodup_append]
    refine ⟨h, by simp, ?_⟩
    intro x hx hx2
    simp only [List.mem_singleton] at hx2
    subst hx2
    exact hn hx

theorem setErase_nodup (s : List Nat) (t : Nat) (h : s.Nodup) : (setErase s t).Nodup :=
  List.Nodup.filter _ h

theorem addUse_setsNodup (p : Program) (a b : Nat) (h : p.SetsNodup) :
    (Term.addUse p a b).SetsNodup := by
  refine ⟨by simpa using h.1, ?_⟩
  unfold Term.addUse
  split
  · simpa using setErase_nodup _ _ h.2
  · simpa using h.2

theorem eraseUse_setsNodup (p : Program) (a b : Nat) (h : p.SetsNodup) :
    (Term.eraseUse p a b).SetsNodup := by
  refine ⟨by simpa using h.1, ?_⟩
  simp only [Term.eraseUse]
  split
  · simpa using setInsert_nodup _ _ h.2
  · simpa using h.2

theorem withOperands_setsNodup (p : Program) (t : Nat) (os : List Nat) (h : p.SetsNodup) :
    (p.withOperands t os).SetsNodup := h

theorem withSources_setsNodup (p : Program) (s : List Nat) (h : p.SetsNodup) (hs : s.Nodup) :
    (p.withSources s).SetsNodup := ⟨hs, h.2⟩

theorem addOperand_setsNodup (p : Program) (t o : Nat) (h : p.SetsNodup) :
    (Term.addOperand p t o).SetsNodup := by
  unfold Term.addOperand
  apply addUse_setsNodup
  apply withOperands_setsNodup
  split
  · exact withSources_setsNodup _ _ h (setErase_nodup _ _ h.1)
  · exact h

theorem eraseOperand_setsNodup (p : Program) (t o : Nat) (h : p.SetsNodup) :
    (Term.eraseOperand p t o).2.SetsNodup := by
  unfold Term.eraseOperand
  split
  · simp only []
    have h2 : ((Term.eraseUse p o t).withOperands t
        (((Term.eraseUse p o t).operands t).erase o)).SetsNodup :=
      withOperands_setsNodup _ _ _ (eraseUse_setsNodup _ _ _ h)
    split
    · exact withSources_setsNodup _ _ h2 (setInsert_nodup _ _ h2.1)
    · exact h2
  · exact h

theorem replaceOperandAt_setsNodup (o n t : Nat) (p : Program) (i : Nat) (h : p.SetsNodup) :
    (Term.replaceOperandAt o n t p i).SetsNodup := by
  unfold Term.replaceOperandAt
  split
  · exact addUse_setsNodup _ _ _ (eraseUse_setsNodup _ _ _ (withOperands_setsNodup _ _ _ h))
  · exact h

theorem replaceOperand_setsNodup (p : Program) (t o n : Nat) (h : p.SetsNodup) :
    (Term.replaceOperand p t o n).2.SetsNodup := by
  unfold Term.replaceOperand
  simp only []
  generalize List.range (p.operands t).length = l
  induction l generalizing p with
  | nil => exact h
  | cons i l ih => exact ih _ (replaceOperandAt_setsNodup o n t p i h)

theorem replaceUsesWithIf_setsNodup (p : Program) (t n : Nat) (f : Nat → Bool)
    (h : p.SetsNodup) : (Term.replaceUsesWithIf p t n f).SetsNodup := by
  unfold Term.replaceUsesWithIf
  generalize p.uses t = l
  induction l generalizing p with
  | nil => exact h
  | cons u l ih =>
    simp only [List.foldl_cons]
    split
    · exact ih _ (replaceOperand_setsNodup p u t n h)
    · exact ih _ h

theorem foldl_eraseUse_setsNodup (this : Nat) (l : List Nat) (p : Program) (h : p.SetsNodup) :
    (l.foldl (fun q operand => Term.eraseUse q operand this) p).SetsNodup := by
  induction l generalizing p with
  | nil => exact h
  | cons a l ih => exact ih _ (eraseUse_setsNodup _ _ _ h)

theorem foldl_addUse_setsNodup (this : Nat) (l : List Nat) (p : Program) (h : p.SetsNodup) :
    (l.foldl (fun q operand => Term.addUse q operand this) p).SetsNodup := by
  induction l generalizing p with
  | nil => exact h
  | cons a l ih => exact ih _ (addUse_setsNodup _ _ _ h)

theorem setOperands_setsNodup (p : Program) (t : Nat) (o : List Nat) (h : p.SetsNodup) :
    (Term.setOperands p t o).SetsNodup := by
  unfold Term.setOperands
  simp only []
  have h1 : (if p.operands t = [] then p.withSources (setErase p.sources t) else p).SetsNodup := by
    split
    · exact withSources_setsNodup _ _ h (setErase_nodup _ _ h.1)
    · exact h
  generalize (if p.operands t = [] then p.withSources (setErase p.sources t) else p) = p1 at h1
  have h4 := foldl_addUse_setsNodup t o _
    (withOperands_setsNodup _ t o (foldl_eraseUse_setsNodup t (p1.operands t) p1 h1))
  split
  · exact withSources_setsNodup _ _ h4 (setInsert_nodup _ _ h4.1)
  · exact h4

theorem create_setsNodup (p : Program) (op : Op) (h : p.SetsNodup) :
    (Term.create p op).2.SetsNodup :=
  ⟨setInsert_nodup _ _ h.1, setInsert_nodup _ _ h.2⟩

theorem makeTerm_setsNodup (p : Program) (op : Op) (os : List Nat) (h : p.SetsNodup) :
    (Program.makeTerm p op os).2.SetsNodup := by
  unfold Program.makeTerm
  split
  · exact setOperands_setsNodup _ _ _ (create_setsNodup p op h)
  · exact create_setsNodup p op h

theorem exec_setsNodup (p : Program) (c : Cmd) (h : p.SetsNodup) : (Cmd.exec p c).SetsNodup := by
  cases c with
  | makeTerm op os => exact makeTerm_setsNodup p op os h
  | addOperand t o => exact addOperand_setsNodup p t o h
  | eraseOperand t o => exact eraseOperand_setsNodup p t o h
  | replaceOperand t o n => exact replaceOperand_setsNodup p t o n h
  | setOperands t os => exact setOperands_setsNodup p t os h
  | replaceAllUsesWith t n => exact replaceUsesWithIf_setsNodup p t n _ h
  | replaceOtherUsesWith t n => exact replaceUsesWithIf_setsNodup p t n _ h

/-- Every program built by a run of commands on a new program is well-formed. -/
theorem run_wellFormed (name : String) (vecSize : Nat) (cs : List Cmd) (q : Program)
    (hr : Cmd.run (Program.empty name vecSize) cs = some q) : q.WellFormed := by
  refine ⟨run_consistent cs _ q (empty_consistent name vecSize) hr, ?_⟩
  have key : ∀ (cs : List Cmd) (p : Program), p.SetsNodup → Cmd.run p cs = some q →
      q.SetsNodup := by
    intro cs
    induction cs with
    | nil =>
      intro p hp hr
      simp only [Cmd.run, Option.some.injEq] at hr
      subst hr; exact hp
    | cons c cs ih =>
      intro p hp hr
      simp only [Cmd.run] at hr
      split at hr
      · exact ih _ (exec_setsNodup p c hp) hr
      · simp at hr
  exact key cs _ ⟨List.nodup_nil, List.nodup_nil⟩ hr

/-! ## Completeness and order of a pass over an unchanging graph -/

theorem nodup_bounded_length (l : List Nat) (n : Nat) (hn : l.Nodup) (hb : ∀ x ∈ l, x < n) :
    l.length ≤ n := by
  have hsub : l ⊆ List.range n := fun x hx => List.mem_range.mpr (hb x hx)
  have := (List.subperm_of_subset hn hsub).length_le
  simpa using this

theorem TraversalInv.visited_lt {σ : Type} {isForward : Bool} {R : Rewriter σ} {p : Program}
    {st : TraversalState σ} (h : TraversalInv isForward R p st) (t : Nat)
    (ht : t ∈ st.visited) : t < p.nextTermIndex :=
  (h.ready_sound t ((h.ready_iff t).mpr (Or.inr ((h.proc_iff t).mpr ht)))).1

/-- With enough fuel the loop runs until `readyNodes` is empty. -/
theorem traverseLoop_spec {σ : Type} (isForward : Bool) (R : Rewriter σ) (p : Program)
    (J : σ → List Nat → Prop)
    (hR : ∀ env visited term, R.program env = p → J env visited → term ∉ visited →
      term < p.nextTermIndex → (∀ o ∈ predecessors isForward p term, o ∈ visited) →
      ∃ env1, R.rewrite env term = some env1 ∧ R.program env1 = p ∧ J env1 (visited ++ [term]))
    (hd : DirFacts isForward p) (fuel : Nat) (st : TraversalState σ)
    (hst : TraversalInv isForward R p st) (hJ : J st.env st.visited)
    (hfuel : p.nextTermIndex ≤ fuel + st.visited.length) :
    ∃ st1, traverseLoop isForward R fuel st = some st1 ∧ TraversalInv isForward R p st1 ∧
      st1.readyNodes = [] ∧ J st1.env st1.visited := by
  induction fuel generalizing st with
  | zero =>
    have hempty : st.readyNodes = [] := by
      cases hrn : st.readyNodes with
      | nil => rfl
      | cons t rest =>
        exfalso
        have ht_un : st.processed t = false := hst.rn_unproc t (by simp [hrn])
        have ht_notin : t ∉ st.visited := by
          intro h
          have := (hst.proc_iff t).mpr h
          rw [ht_un] at this
          exact Bool.noConfusion this
        have ht_lt : t < p.nextTermIndex :=
          (hst.ready_sound t ((hst.ready_iff t).mpr (Or.inl (by simp [hrn])))).1
        have hlen := nodup_bounded_length (t :: st.visited) p.nextTermIndex
          (List.nodup_cons.mpr ⟨ht_notin, hst.vis_nodup⟩) (by
            intro x hx
            simp only [List.mem_cons] at hx
            rcases hx with rfl | hx
            · exact ht_lt
            · exact hst.visited_lt x hx)
        simp only [List.length_cons] at hlen
        omega
    exact ⟨st, by simp [traverseLoop, hempty], hst, hempty, hJ⟩
  | succ fuel ih =>
    cases hrn : st.readyNodes with
    | nil => exact ⟨st, by simp [traverseLoop, hrn], hst, hrn, hJ⟩
    | cons term rest =>
      obtain ⟨st1, h1, h2, h3, h4⟩ :=
        traverseVisit_inv isForward R p J hR hd st term rest hst hJ hrn
      obtain ⟨st2, e1, e2, e3, e4⟩ := ih st1 h2 h4 (by rw [h3]; simp; omega)
      refine ⟨st2, ?_, e2, e3, e4⟩
      simp only [traverseLoop, hrn, h1]
      exact e1

theorem foldl_update_true (l : List Nat) (f : Nat → Bool) (x : Nat) :
    (l.foldl (fun ready term => Function.update ready term true) f) x = true ↔
      (x ∈ l ∨ f x = true) := by
  induction l generalizing f with
  | nil => simp
  | cons a l ih =>
    simp only [List.foldl_cons, ih, List.mem_cons, Function.update_apply]
    by_cases h : x = a
    · simp [h]
    · simp [h]

/-- The state `traverse` starts its loop from satisfies the loop invariant. -/
theorem traversalInv_init {σ : Type} (isForward : Bool) (R : Rewriter σ) (env : σ)
    (hd : DirFacts isForward (R.program env))
    (hnd : (leaves isForward (R.program env)).Nodup) :
    TraversalInv isForward R (R.program env)
      { env := env,
        ready := (leaves isForward (R.program env)).foldl
          (fun ready term => Function.update ready term true) (fun _ => false),
        processed := fun _ => false,
        readyNodes := (leaves isForward (R.program env)).reverse,
        visited := [] } := by
  refine ⟨rfl, by simp, List.nodup_nil, List.nodup_reverse.mpr hnd, ?_, by simp, ?_, ?_,
    by simp⟩
  · intro t
    simp [foldl_update_true]
  · intro t ht
    simp only [foldl_update_true] at ht
    have := (hd.leaf t).mp (by simpa using ht)
    refine ⟨this.1, ?_⟩
    intro o ho
    rw [this.2] at ho
    simp at ho
  · intro s hs hall
    simp only [foldl_update_true]
    left
    apply (hd.leaf s).mpr
    refine ⟨hs, ?_⟩
    cases hp : predecessors isForward (R.program env) s with
    | nil => rfl
    | cons o l =>
      have := hall o (by simp [hp])
      simp at this

/-- A pass over an unchanging well-ranked graph ends with every term logged
once, predecessors before successors, and keeps an invariant `J` of the
rewriter that every call re-establishes. -/
theorem traverse_spec {σ : Type} (isForward : Bool) (R : Rewriter σ) (env : σ)
    (J : σ → List Nat → Prop)
    (hR : ∀ env1 visited term, R.program env1 = R.program env → J env1 visited →
      term ∉ visited → term < (R.program env).nextTermIndex →
      (∀ o ∈ predecessors isForward (R.program env) term, o ∈ visited) →
      ∃ env2, R.rewrite env1 term = some env2 ∧ R.program env2 = R.program env ∧
        J env2 (visited ++ [term]))
    (hJ : J env []) (hd : DirFacts isForward (R.program env))
    (hnd : (leaves isForward (R.program env)).Nodup) (fuel : Nat)
    (hfuel : (R.program env).nextTermIndex ≤ fuel) :
    ∃ st, traverse isForward R fuel env = some st ∧ st.readyNodes = [] ∧
      R.program st.env = R.program env ∧ J st.env st.visited ∧
      (∀ t, st.visited.count t = if t < (R.program env).nextTermIndex then 1 else 0) ∧
      (∀ t ∈ st.visited, ∀ o ∈ predecessors isForward (R.program env) t,
        o ∈ st.visited ∧ st.visited.indexOf o < st.visited.indexOf t) := by
  have hinit := traversalInv_init isForward R env hd hnd
  obtain ⟨st, h1, h2, h3, h4⟩ := traverseLoop_spec isForward R (R.program env) J hR hd fuel _
    hinit hJ (by simp; omega)
  have hall : ∀ t, t < (R.program env).nextTermIndex → st.processed t = true := by
    obtain ⟨rank, hrank⟩ := hd.rank
    have key : ∀ k t, rank t < k → t < (R.program env).nextTermIndex →
        st.processed t = true := by
      intro k
      induction k with
      | zero => intro t ht; omega
      | succ k ih =>
        intro t ht hlt
        have hready := h2.ready_complete t hlt (by
          intro o ho
          exact ih o (by have := hrank t o ho; omega) (hd.bound t o ho).1)
        have := (h2.ready_iff t).mp hready
        rw [h3] at this
        simpa using this
    intro t ht
    exact key (rank t + 1) t (by omega) ht
  refine ⟨st, h1, h3, h2.prog, h4, ?_, ?_⟩
  · intro t
    split
    · next ht =>
      exact List.count_eq_one_of_mem h2.vis_nodup ((h2.proc_iff t).mp (hall t ht))
    · next ht =>
      apply List.count_eq_zero_of_not_mem
      intro hmem
      exact ht (h2.visited_lt t hmem)
  · intro t ht o ho
    have := h2.order t ht o ho
    refine ⟨?_, this⟩
    apply List.indexOf_lt_length.mp
    exact lt_of_lt_of_le this List.indexOf_le_length

theorem dirFacts_forward (p : Program) (hc : p.Consistent) (ha : p.Acyclic) :
    DirFacts true p := by
  refine ⟨?_, ?_, ?_, ?_⟩
  · intro t s
    simp only [successors, predecessors, if_true]
    rw [← List.count_pos_iff, ← List.count_pos_iff, hc.sym s t]
  · intro t
    simp only [leaves, predecessors, if_true, Program.getSources]
    exact hc.src t
  · intro t o ho
    simp only [predecessors, if_true] at ho
    exact ⟨(hc.operand_lt ho).2, (hc.operand_lt ho).1⟩
  · obtain ⟨rank, h⟩ := ha
    exact ⟨rank, fun t o ho => h t o (by simpa [predecessors] using ho)⟩

theorem dirFacts_backward (p : Program) (hc : p.Consistent) (ha : p.Acyclic) :
    DirFacts false p := by
  refine ⟨?_, ?_, ?_, ?_⟩
  · intro t s
    simp only [successors, predecessors, Bool.false_eq_true, if_false]
    rw [← List.count_pos_iff, ← List.count_pos_iff, hc.sym t s]
  · intro t
    simp only [leaves, predecessors, Bool.false_eq_true, if_false, Program.getSinks]
    exact hc.snk t
  · intro t o ho
    simp only [predecessors, Bool.false_eq_true, if_false] at ho
    exact ⟨(hc.use_lt ho).2, (hc.use_lt ho).1⟩
  · obtain ⟨rank, h⟩ := ha
    refine ⟨fun x => (Finset.range p.nextTermIndex).sup rank - rank x, ?_⟩
    intro t o ho
    simp only [predecessors, Bool.false_eq_true, if_false] at ho
    have hlt := hc.use_lt ho
    have hmem : t ∈ p.operands o :=
      List.count_pos_iff.mp (by rw [hc.sym o t]; exact List.count_pos_iff.mpr ho)
    have h1 := h o t hmem
    have h2 : rank o ≤ (Finset.range p.nextTermIndex).sup rank :=
      Finset.le_sup (Finset.mem_range.mpr hlt.2)
    show (Finset.range p.nextTermIndex).sup rank - rank o
      < (Finset.range p.nextTermIndex).sup rank - rank t
    omega

/-- A rewriter that does not modify the graph meets the step condition of
`traverse_spec` with the trivial invariant. -/
theorem nonMutating_step {σ : Type} (R : Rewriter σ) (hR : R.NonMutating) (env : σ)
    (isForward : Bool) :
    ∀ (env1 : σ) (visited : List Nat) (term : Nat), R.program env1 = R.program env → True →
      term ∉ visited → term < (R.program env).nextTermIndex →
      (∀ o ∈ predecessors isForward (R.program env) term, o ∈ visited) →
      ∃ env2, R.rewrite env1 term = some env2 ∧ R.program env2 = R.program env ∧ True := by
  intro env1 visited term hp _ _ _ _
  obtain ⟨s1, h1, h2⟩ := hR env1 term
  exact ⟨s1, h1, by rw [h2, hp], trivial⟩

/-! ## Claims C1 and C2 -/

theorem idleRewriter_nonMutating : idleRewriter.NonMutating :=
  fun s _ => ⟨s, rfl, rfl⟩

theorem diamondProgram_wellFormed : diamondProgram.WellFormed :=
  run_wellFormed "diamond" 8 _ diamondProgram (run_eq_foldl _ _ (by decide!))

theorem diamondProgram_acyclic : diamondProgram.Acyclic := by
  refine ⟨fun x => x, ?_⟩
  intro t o ho
  have hlt := (diamondProgram_wellFormed.consistent.operand_lt ho).1
  have hb : ∀ t, t < diamondProgram.nextTermIndex → ∀ o ∈ diamondProgram.operands t, o < t := by
    decide!
  exact hb t hlt o ho

/-- C1 (single visitation): for every well-formed acyclic program and every
rewriter that does not modify the graph, `forwardPass` run with fuel for one
iteration per term returns with `readyNodes` empty and has called the rewriter
exactly once on every term of the program and on nothing else; so does
`backwardPass`. -/
theorem traversal_visits_every_term_once {σ : Type} (R : Rewriter σ) (hR : R.NonMutating)
    (env : σ) (hwf : (R.program env).WellFormed) (hac : (R.program env).Acyclic) (fuel : Nat)
    (hfuel : (R.program env).nextTermIndex ≤ fuel) :
    (∃ st, forwardPass R fuel env = some st ∧ st.readyNodes = [] ∧
      ∀ t, st.visited.count t = if t < (R.program env).nextTermIndex then 1 else 0) ∧
    (∃ st, backwardPass R fuel env = some st ∧ st.readyNodes = [] ∧
      ∀ t, st.visited.count t = if t < (R.program env).nextTermIndex then 1 else 0) := by
  constructor
  · obtain ⟨st, h1, h2, _, _, h4, _⟩ := traverse_spec true R env (fun _ _ => True)
      (nonMutating_step R hR env true) trivial
      (dirFacts_forward _ hwf.consistent hac) hwf.sets.1 fuel hfuel
    exact ⟨st, h1, h2, h4⟩
  · obtain ⟨st, h1, h2, _, _, h4, _⟩ := traverse_spec false R env (fun _ _ => True)
      (nonMutating_step R hR env false) trivial
      (dirFacts_backward _ hwf.consistent hac) hwf.sets.2 fuel hfuel
    exact ⟨st, h1, h2, h4⟩

/-- Witness of C1: the two passes over the diamond program, whose forward
visit order is `0, 1, 4, 2, 3`. -/
theorem traversal_visits_every_term_once_witness :
    (forwardPass idleRewriter 5 diamondProgram).map (fun st => st.visited)
      = some [0, 1, 4, 2, 3] ∧
    ((∃ st, forwardPass idleRewriter 5 diamondProgram = some st ∧ st.readyNodes = [] ∧
      ∀ t, st.visited.count t = if t < diamondProgram.nextTermIndex then 1 else 0) ∧
    (∃ st, backwardPass idleRewriter 5 diamondProgram = some st ∧ st.readyNodes = [] ∧
      ∀ t, st.visited.count t = if t < diamondProgram.nextTermIndex then 1 else 0)) :=
  ⟨by decide!,
   traversal_visits_every_term_once idleRewriter idleRewriter_nonMutating diamondProgram
     diamondProgram_wellFormed diamondProgram_acyclic 5 (by decide!)⟩

/-- C2 (visit order): for every well-formed acyclic program and every rewriter
that does not modify the graph, `forwardPass` calls the rewriter on a term only
after it has called it on every operand of the term, and `backwardPass` only
after it has called it on every use of the term (`visited` lists the calls in
order, so an earlier call has the smaller index). -/
theorem traversal_order_is_topological {σ : Type} (R : Rewriter σ) (hR : R.NonMutating)
    (env : σ) (hwf : (R.program env).WellFormed) (hac : (R.program env).Acyclic) (fuel : Nat)
    (hfuel : (R.program env).nextTermIndex ≤ fuel) :
    (∃ st, forwardPass R fuel env = some st ∧
      ∀ t ∈ st.visited, ∀ o ∈ (R.program env).operands t,
        o ∈ st.visited ∧ st.visited.indexOf o < st.visited.indexOf t) ∧
    (∃ st, backwardPass R fuel env = some st ∧
      ∀ t ∈ st.visited, ∀ u ∈ (R.program env).uses t,
        u ∈ st.visited ∧ st.visited.indexOf u < st.visited.indexOf t) := by
  constructor
  · obtain ⟨st, h1, _, _, _, _, h5⟩ := traverse_spec true R env (fun _ _ => True)
      (nonMutating_step R hR env true) trivial
      (dirFacts_forward _ hwf.consistent hac) hwf.sets.1 fuel hfuel
    exact ⟨st, h1, fun t ht o ho => h5 t ht o (by simpa [predecessors] using ho)⟩
  · obtain ⟨st, h1, _, _, _, _, h5⟩ := traverse_spec false R env (fun _ _ => True)
      (nonMutating_step R hR env false) trivial
      (dirFacts_backward _ hwf.consistent hac) hwf.sets.2 fuel hfuel
    exact ⟨st, h1, fun t ht o ho => h5 t ht o (by simpa [predecessors] using ho)⟩

/-- Witness of C2: the two passes over the diamond program, whose backward
visit order starts at the outputs. -/
theorem traversal_order_is_topological_witness :
    (backwardPass idleRewriter 5 diamondProgram).map (fun st => st.visited)
      = some [4, 3, 2, 1, 0] ∧
    ((∃ st, forwardPass idleRewriter 5 diamondProgram = some st ∧
      ∀ t ∈ st.visited, ∀ o ∈ diamondProgram.operands t,
        o ∈ st.visited ∧ st.visited.indexOf o < st.visited.indexOf t) ∧
    (∃ st, backwardPass idleRewriter 5 diamondProgram = some st ∧
      ∀ t ∈ st.visited, ∀ u ∈ diamondProgram.uses t,
        u ∈ st.visited ∧ st.visited.indexOf u < st.visited.indexOf t)) :=
  ⟨by decide!,
   traversal_order_is_topological idleRewriter idleRewriter_nonMutating diamondProgram
     diamondProgram_wellFormed diamondProgram_acyclic 5 (by decide!)⟩

/-! ## What the mutators leave untouched, and what `replaceOperand` writes -/

@[simp] theorem withUses_attributes (p : Program) (t : Nat) (us : List Nat) (x : Nat) :
    (p.withUses t us).attributes x = p.attributes x := by
  simp only [Program.withUses, Program.attributes, Function.update_apply]
  split
  · next h => subst h; rfl
  · rfl

@[simp] theorem withOperands_attributes (p : Program) (t : Nat) (os : List Nat) (x : Nat) :
    (p.withOperands t os).attributes x = p.attributes x := by
  simp only [Program.withOperands, Program.attributes, Function.update_apply]
  split
  · next h => subst h; rfl
  · rfl

@[simp] theorem withSources_attributes (p : Program) (s : List Nat) (x : Nat) :
    (p.withSources s).attributes x = p.attributes x := rfl

@[simp] theorem withSinks_attributes (p : Program) (s : List Nat) (x : Nat) :
    (p.withSinks s).attributes x = p.attributes x := rfl

@[simp] theorem withAttributes_attributes (p : Program) (t : Nat) (a : AttributeList) (x : Nat) :
    (p.withAttributes t a).attributes x = if x = t then a else p.attributes x := by
  simp only [Program.withAttributes, Program.attributes, Function.update_apply]
  split <;> rfl

@[simp] theorem withAttributes_operands (p : Program) (t : Nat) (a : AttributeList) (x : Nat) :
    (p.withAttributes t a).operands x = p.operands x := by
  simp only [Program.withAttributes, Program.operands, Function.update_apply]
  split
  · next h => subst h; rfl
  · rfl

@[simp] theorem withAttributes_uses (p : Program) (t : Nat) (a : AttributeList) (x : Nat) :
    (p.withAttributes t a).uses x = p.uses x := by
  simp only [Program.withAttributes, Program.uses, Function.update_apply]
  split
  · next h => subst h; rfl
  · rfl

@[simp] theorem withAttributes_op (p : Program) (t : Nat) (a : AttributeList) (x : Nat) :
    (p.withAttributes t a).op x = p.op x := by
  simp only [Program.withAttributes, Program.op, Function.update_apply]
  split
  · next h => subst h; rfl
  · rfl

@[simp] theorem withAttributes_sources (p : Program) (t : Nat) (a : AttributeList) :
    (p.withAttributes t a).sources = p.sources := rfl
@[simp] theorem withAttributes_sinks (p : Program) (t : Nat) (a : AttributeList) :
    (p.withAttributes t a).sinks = p.sinks := rfl
@[simp] theorem withAttributes_next (p : Program) (t : Nat) (a : AttributeList) :
    (p.withAttributes t a).nextTermIndex = p.nextTermIndex := rfl

@[simp] theorem addUse_attributes (p : Program) (a b x : Nat) :
    (Term.addUse p a b).attributes x = p.attributes x := by
  unfold Term.addUse
  split <;> simp

@[simp] theorem eraseUse_attributes (p : Program) (a b x : Nat) :
    (Term.eraseUse p a b).attributes x = p.attributes x := by
  simp only [Term.eraseUse]; split <;> simp

theorem setAttribute_consistent (p : Program) (t k : Nat) (v : AttributeValue)
    (h : p.Consistent) : (Term.setAttribute p t k v).Consistent := by
  unfold Term.setAttribute
  refine ⟨?_, ?_, ?_, ?_⟩
  · intro x y; simpa using h.sym x y
  · intro x; simpa using h.src x
  · intro x; simpa using h.snk x
  · intro x hx; simpa using h.fresh x (by simpa using hx)

/-! ### `replaceOperand` -/

theorem replaceOperandAt_frame (o n t : Nat) (p : Program) (i : Nat) :
    (∀ x, (Term.replaceOperandAt o n t p i).op x = p.op x) ∧
    (∀ x, (Term.replaceOperandAt o n t p i).attributes x = p.attributes x) ∧
    (∀ x, x ≠ t → (Term.replaceOperandAt o n t p i).operands x = p.operands x) ∧
    (Term.replaceOperandAt o n t p i).operands t
      = (if (p.operands t)[i]? = some o then (p.operands t).set i n else p.operands t) := by
  unfold Term.replaceOperandAt
  split
  · refine ⟨by simp, by simp, ?_, by simp⟩
    intro x hx
    simp [hx]
  · exact ⟨fun _ => rfl, fun _ => rfl, fun _ _ => rfl, rfl⟩

theorem foldl_replaceOperandAt_frame (o n t : Nat) (l : List Nat) (p : Program) :
    (∀ x, (l.foldl (Term.replaceOperandAt o n t) p).op x = p.op x) ∧
    (∀ x, (l.foldl (Term.replaceOperandAt o n t) p).attributes x = p.attributes x) ∧
    (∀ x, x ≠ t → (l.foldl (Term.replaceOperandAt o n t) p).operands x = p.operands x) := by
  induction l generalizing p with
  | nil => exact ⟨fun _ => rfl, fun _ => rfl, fun _ _ => rfl⟩
  | cons i l ih =>
    simp only [List.foldl_cons]
    obtain ⟨h1, h2, h3⟩ := ih (Term.replaceOperandAt o n t p i)
    obtain ⟨f1, f2, f3, _⟩ := replaceOperandAt_frame o n t p i
    exact ⟨fun x => by rw [h1, f1], fun x => by rw [h2, f2],
      fun x hx => by rw [h3 x hx, f3 x hx]⟩

/-- After the slots below `m` have been visited, they hold the substituted
operands and the others are as before. -/
theorem foldl_range_replaceOperandAt (o n t : Nat) (p : Program) (m : Nat) :
    ∀ j, (((List.range m).foldl (Term.replaceOperandAt o n t) p).operands t)[j]?
      = if j < m then ((p.operands t)[j]?).map (fun y => if y = o then n else y)
        else (p.operands t)[j]? := by
  induction m with
  | zero => intro j; simp
  | succ m ih =>
    intro j
    rw [List.range_succ, List.foldl_append]
    simp only [List.foldl_cons, List.foldl_nil]
    obtain ⟨_, _, _, f4⟩ := replaceOperandAt_frame o n t
      ((List.range m).foldl (Term.replaceOperandAt o n t) p) m
    rw [f4]
    have hm := ih m
    simp only [lt_irrefl, if_false] at hm
    by_cases hjm : j = m
    · subst hjm
      simp only [Nat.lt_succ_self, if_true]
      by_cases hc : (p.operands t)[j]? = some o
      · rw [hm, if_pos hc, hc]
        have hlt : j < (((List.range j).foldl (Term.replaceOperandAt o n t) p).operands t).length := by
          by_contra hge
          have := List.getElem?_eq_none (Nat.le_of_not_lt hge)
          rw [hm, hc] at this
          exact Option.noConfusion this
        rw [List.getElem?_set, if_pos rfl, if_pos hlt]
        simp
      · rw [hm, if_neg hc, hm]
        cases hv : (p.operands t)[j]? with
        | none => rfl
        | some y =>
          have : y ≠ o := by
            rintro rfl
            exact hc hv
          simp [this]
    · have hstep : ((if (((List.range m).foldl (Term.replaceOperandAt o n t) p).operands t)[m]?
            = some o
          then (((List.range m).foldl (Term.replaceOperandAt o n t) p).operands t).set m n
          else ((List.range m).foldl (Term.replaceOperandAt o n t) p).operands t))[j]?
          = (((List.range m).foldl (Term.replaceOperandAt o n t) p).operands t)[j]? := by
        split
        · rw [List.getElem?_set_ne (fun e => hjm e.symm)]
        · rfl
      rw [hstep, ih j]
      by_cases hlt : j < m
      · simp [hlt, Nat.lt_succ_of_lt hlt]
      · have : ¬ j < m + 1 := by omega
        simp [hlt, this]

/-- `replaceOperand` substitutes `newTerm` for `oldTerm` in the operand list of
`this` and changes no other operand list, operation or attribute. -/
theorem replaceOperand_spec (p : Program) (t o n : Nat) :
    (∀ x, (Term.replaceOperand p t o n).2.operands x
      = if x = t then (p.operands t).map (fun y => if y = o then n else y)
        else p.operands x) ∧
    (∀ x, (Term.replaceOperand p t o n).2.op x = p.op x) ∧
    (∀ x, (Term.replaceOperand p t o n).2.attributes x = p.attributes x) := by
  obtain ⟨h1, h2, h3⟩ := foldl_replaceOperandAt_frame o n t
    (List.range (p.operands t).length) p
  refine ⟨?_, h1, h2⟩
  intro x
  by_cases hx : x = t
  · subst hx
    simp only [if_true]
    apply List.ext_getElem?
    intro j
    show (((List.range (p.operands x).length).foldl (Term.replaceOperandAt o n x) p).operands
      x)[j]? = _
    rw [foldl_range_replaceOperandAt, List.getElem?_map]
    split
    · rfl
    · next hj =>
      rw [List.getElem?_eq_none (Nat.le_of_not_lt hj)]
      rfl
  · simp only [hx, if_false]
    exact h3 x hx

/-- `replaceUsesWithIf` substitutes `term` for `this` in the operand list of
every use that passes the predicate. -/
theorem replaceUsesWithIf_spec (p : Program) (t n : Nat) (f : Nat → Bool) :
    (∀ x, (Term.replaceUsesWithIf p t n f).operands x
      = if x ∈ p.uses t ∧ f x = true then (p.operands x).map (fun y => if y = t then n else y)
        else p.operands x) ∧
    (∀ x, (Term.replaceUsesWithIf p t n f).op x = p.op x) ∧
    (∀ x, (Term.replaceUsesWithIf p t n f).attributes x = p.attributes x) := by
  unfold Term.replaceUsesWithIf
  have key : ∀ (l : List Nat) (q : Program),
      (∀ x, (l.foldl (fun q use => if f use then (Term.replaceOperand q use t n).2 else q)
          q).operands x
        = if x ∈ l ∧ f x = true then (q.operands x).map (fun y => if y = t then n else y)
          else q.operands x) ∧
      (∀ x, (l.foldl (fun q use => if f use then (Term.replaceOperand q use t n).2 else q)
          q).op x = q.op x) ∧
      (∀ x, (l.foldl (fun q use => if f use then (Term.replaceOperand q use t n).2 else q)
          q).attributes x = q.attributes x) := by
    intro l
    induction l with
    | nil => intro q; simp
    | cons u l ih =>
      intro q
      simp only [List.foldl_cons]
      by_cases hf : f u = true
      · simp only [hf, if_true]
        obtain ⟨i1, i2, i3⟩ := ih (Term.replaceOperand q u t n).2
        obtain ⟨r1, r2, r3⟩ := replaceOperand_spec q u t n
        refine ⟨?_, fun x => by rw [i2, r2], fun x => by rw [i3, r3]⟩
        intro x
        rw [i1, r1]
        by_cases hxu : x = u
        · subst hxu
          simp only [if_true, List.mem_cons, true_or, hf, and_self, List.map_map]
          have hidem : ((fun y => if y = t then n else y) ∘ fun y => if y = t then n else y)
              = fun y => if y = t then n else y := by
            funext y
            simp only [Function.comp]
            by_cases hy : y = t
            · simp [hy]
            · simp [hy]
          split
          · rw [hidem]
          · rfl
        · simp only [hxu, if_false, List.mem_cons, false_or]
      · have hstep : (if f u = true then (Term.replaceOperand q u t n).2 else q) = q := by
          rw [if_neg hf]
        rw [hstep]
        obtain ⟨i1, i2, i3⟩ := ih q
        refine ⟨?_, i2, i3⟩
        intro x
        rw [i1]
        by_cases hxu : x = u
        · subst hxu
          simp [hf]
        · simp [hxu]
  exact key (p.uses t) p

/-! ## `makeTerm`, `makeRescale` and `insertRescale` -/

theorem foldl_eraseUse_frame (this : Nat) (l : List Nat) (p : Program) :
    (∀ x, (l.foldl (fun q operand => Term.eraseUse q operand this) p).op x = p.op x) ∧
    (∀ x, (l.foldl (fun q operand => Term.eraseUse q operand this) p).attributes x
      = p.attributes x) := by
  induction l generalizing p with
  | nil => exact ⟨fun _ => rfl, fun _ => rfl⟩
  | cons a l ih =>
    simp only [List.foldl_cons]
    obtain ⟨h1, h2⟩ := ih (Term.eraseUse p a this)
    exact ⟨fun x => by rw [h1]; simp, fun x => by rw [h2]; simp⟩

theorem foldl_addUse_frame (this : Nat) (l : List Nat) (p : Program) :
    (∀ x, (l.foldl (fun q operand => Term.addUse q operand this) p).op x = p.op x) ∧
    (∀ x, (l.foldl (fun q operand => Term.addUse q operand this) p).attributes x
      = p.attributes x) := by
  induction l generalizing p with
  | nil => exact ⟨fun _ => rfl, fun _ => rfl⟩
  | cons a l ih =>
    simp only [List.foldl_cons]
    obtain ⟨h1, h2⟩ := ih (Term.addUse p a this)
    exact ⟨fun x => by rw [h1]; simp, fun x => by rw [h2]; simp⟩

theorem setOperands_frame (p : Program) (t : Nat) (o : List Nat) :
    (∀ x, (Term.setOperands p t o).op x = p.op x) ∧
    (∀ x, (Term.setOperands p t o).attributes x = p.attributes x) := by
  unfold Term.setOperands
  simp only []
  have h1 : (∀ x, (if p.operands t = [] then p.withSources (setErase p.sources t) else p).op x
      = p.op x) ∧
      (∀ x, (if p.operands t = [] then p.withSources (setErase p.sources t)
        else p).attributes x = p.attributes x) := by
    split <;> exact ⟨fun _ => rfl, fun _ => rfl⟩
  generalize (if p.operands t = [] then p.withSources (setErase p.sources t) else p) = p1 at h1
  obtain ⟨e1, e2⟩ := foldl_eraseUse_frame t (p1.operands t) p1
  obtain ⟨a1, a2⟩ := foldl_addUse_frame t o
    (((p1.operands t).foldl (fun q operand => Term.eraseUse q operand t) p1).withOperands t o)
  split
  · exact ⟨fun x => by simp [a1, e1, h1.1], fun x => by simp [a2, e2, h1.2]⟩
  · exact ⟨fun x => by simp [a1, e1, h1.1], fun x => by simp [a2, e2, h1.2]⟩

theorem create_attributes (p : Program) (op : Op) (x : Nat) :
    (Term.create p op).2.attributes x = if x = p.nextTermIndex then [] else p.attributes x := by
  simp only [Term.create, Program.attributes, Function.update_apply]
  split <;> rfl

theorem makeTerm_frame (p : Program) (op : Op) (os : List Nat) :
    (∀ x, (Program.makeTerm p op os).2.op x = if x = p.nextTermIndex then op else p.op x) ∧
    (∀ x, (Program.makeTerm p op os).2.attributes x
      = if x = p.nextTermIndex then [] else p.attributes x) := by
  unfold Program.makeTerm
  split
  · obtain ⟨h1, h2⟩ := setOperands_frame (Term.create p op).2 (Term.create p op).1 os
    exact ⟨fun x => by rw [h1, create_op], fun x => by rw [h2, create_attributes]⟩
  · exact ⟨fun x => create_op p op x, fun x => create_attributes p op x⟩

/-- What `makeRescale` builds: a new `Rescale` term over `term` that carries
the divisor. -/
theorem makeRescale_spec (p : Program) (term k : Nat) (h : p.Consistent)
    (ht : term < p.nextTermIndex) :
    (p.makeRescale term k).1 = p.nextTermIndex ∧
    (p.makeRescale term k).2.Consistent ∧
    (p.makeRescale term k).2.nextTermIndex = p.nextTermIndex + 1 ∧
    (∀ x, (p.makeRescale term k).2.operands x
      = if x = p.nextTermIndex then [term] else p.operands x) ∧
    (∀ x, (p.makeRescale term k).2.op x = if x = p.nextTermIndex then Op.Rescale else p.op x) ∧
    (∀ x, (p.makeRescale term k).2.attributes x
      = if x = p.nextTermIndex then [(RescaleDivisorAttribute, AttributeValue.uint32 k)]
        else p.attributes x) := by
  obtain ⟨m1, m2, m3, m4⟩ := makeTerm_consistent p Op.Rescale [term] h
    (by intro x hx; simp only [List.mem_singleton] at hx; subst hx; exact ht)
  obtain ⟨f1, f2⟩ := makeTerm_frame p Op.Rescale [term]
  unfold Program.makeRescale
  simp only [m2]
  refine ⟨trivial, setAttribute_consistent _ _ _ _ m1, ?_, ?_, ?_, ?_⟩
  · simp [Term.setAttribute, m3]
  · intro x; simp [Term.setAttribute, m4]
  · intro x; simp [Term.setAttribute, f1]
  · intro x
    simp only [Term.setAttribute, withAttributes_attributes, f2]
    split
    · simp [AttributeList.set]
    · rfl

theorem list_eq_singleton_of_count (l : List Nat) (a : Nat) (h1 : l.count a = 1)
    (h2 : ∀ x, x ≠ a → l.count x = 0) : l = [a] := by
  apply List.perm_singleton.mp
  rw [List.perm_iff_count]
  intro x
  by_cases hx : x = a
  · subst hx; simp [h1]
  · rw [h2 x hx]
    simp [List.count_cons, Ne.symm hx]

theorem count_map_replace_self (l : List Nat) (t n : Nat) (hne : t ≠ n) :
    (l.map (fun y => if y = t then n else y)).count t = 0 := by
  apply List.count_eq_zero_of_not_mem
  intro hmem
  obtain ⟨y, _, hy⟩ := List.mem_map.mp hmem
  by_cases h : y = t
  · simp only [h, if_true] at hy
    exact hne hy.symm
  · simp only [h, if_false] at hy

theorem count_map_replace_new (l : List Nat) (t n : Nat) (hn : n ∉ l) :
    (l.map (fun y => if y = t then n else y)).count n = l.count t := by
  induction l with
  | nil => rfl
  | cons a l ih =>
    simp only [List.mem_cons, not_or] at hn
    simp only [List.map_cons, List.count_cons, ih hn.2]
    by_cases h : a = t
    · simp [h]
    · have : ¬ a = n := fun e => hn.1 e.symm
      simp [h, this]

/-- `replaceOtherUsesWith` on a consistent program: every term but `term`
itself reads `term` where it read `this`. -/
theorem replaceOtherUsesWith_spec (p : Program) (t n : Nat) (h : p.Consistent)
    (ht : t < p.nextTermIndex) (hn : n < p.nextTermIndex) :
    (Term.replaceOtherUsesWith p t n).Consistent ∧
    (Term.replaceOtherUsesWith p t n).nextTermIndex = p.nextTermIndex ∧
    (∀ x, (Term.replaceOtherUsesWith p t n).operands x
      = if x = n then p.operands x else (p.operands x).map (fun y => if y = t then n else y)) ∧
    (∀ x, (Term.replaceOtherUsesWith p t n).op x = p.op x) ∧
    (∀ x, (Term.replaceOtherUsesWith p t n).attributes x = p.attributes x) := by
  obtain ⟨c1, c2⟩ := replaceUsesWithIf_consistent p t n (fun use => decide (use ≠ n)) h ht hn
  obtain ⟨s1, s2, s3⟩ := replaceUsesWithIf_spec p t n (fun use => decide (use ≠ n))
  refine ⟨c1, c2, ?_, s2, s3⟩
  intro x
  show (Term.replaceUsesWithIf p t n fun use => decide (use ≠ n)).operands x = _
  rw [s1]
  by_cases hx : x = n
  · simp [hx]
  · simp only [hx, if_false, decide_not, Bool.not_eq_true', decide_eq_false_iff_not,
      not_false_eq_true, and_true]
    split
    · rfl
    · next hmem =>
      have hnot : t ∉ p.operands x := by
        intro hm
        apply hmem
        apply List.count_pos_iff.mp
        rw [← h.sym x t]
        exact List.count_pos_iff.mpr hm
      symm
      conv_rhs => rw [← List.map_id (p.operands x)]
      apply List.map_congr_left
      intro y hy
      have : y ≠ t := by
        rintro rfl
        exact hnot hy
      simp [this]

/-! ## `Rescaler::insertRescale` -/

theorem touch_val (m : TermMapOptional) (t x : Nat) : (m.touch t).val x = m.val x := by
  unfold TermMapOptional.touch TermMapOptional.val
  split
  · rfl
  · next h =>
    simp only [Function.update_apply]
    split
    · next e =>
      subst e
      cases hm : m x with
      | none => rfl
      | some v => simp [hm] at h
    · rfl

theorem touch_of_some (m : TermMapOptional) (t v : Nat) (h : m t = some v) : m.touch t = m := by
  unfold TermMapOptional.touch
  simp [h]

/-- What `insertRescale(term, k)` does on a consistent program: one new
`Rescale` term over `term` with divisor `k`, the type of `term` and the scale
`scale[term] - k`; every other term that read `term` now reads the new term. -/
theorem insertRescale_spec (st : Rescaler) (term k : Nat) (hc : st.program.Consistent)
    (ht : term < st.program.nextTermIndex) :
    (st.insertRescale term k).1 = st.program.nextTermIndex ∧
    (st.insertRescale term k).2.program.Consistent ∧
    (st.insertRescale term k).2.program.nextTermIndex = st.program.nextTermIndex + 1 ∧
    (∀ x, (st.insertRescale term k).2.program.operands x
      = if x = st.program.nextTermIndex then [term]
        else (st.program.operands x).map
          (fun y => if y = term then st.program.nextTermIndex else y)) ∧
    (∀ x, (st.insertRescale term k).2.program.op x
      = if x = st.program.nextTermIndex then Op.Rescale else st.program.op x) ∧
    (∀ x, (st.insertRescale term k).2.program.attributes x
      = if x = st.program.nextTermIndex
        then [(RescaleDivisorAttribute, AttributeValue.uint32 k)]
        else st.program.attributes x) ∧
    (∀ x, (st.insertRescale term k).2.type x
      = if x = st.program.nextTermIndex then st.type term else st.type x) ∧
    (∀ x, (st.insertRescale term k).2.scale x
      = if x = st.program.nextTermIndex then some (sub32 (st.scale.val term) k)
        else st.scale.touch term x) ∧
    (st.insertRescale term k).2.minScale = st.minScale ∧
    (st.insertRescale term k).2.ok = st.ok ∧
    (st.insertRescale term k).2.program.uses term = [st.program.nextTermIndex] := by
  obtain ⟨m1, m2, m3, m4, m5, m6⟩ := makeRescale_spec st.program term k hc ht
  obtain ⟨r1, r2, r3, r4, r5⟩ := replaceOtherUsesWith_spec (st.program.makeRescale term k).2
    term st.program.nextTermIndex m2 (by rw [m3]; omega) (by rw [m3]; omega)
  have hprog : (st.insertRescale term k).2.program
      = Term.replaceOtherUsesWith (st.program.makeRescale term k).2 term
          st.program.nextTermIndex := by
    simp only [Rescaler.insertRescale, Rescaler.withProgram, Rescaler.setType, Rescaler.touch,
      Rescaler.setScale, m1]
  have hops : ∀ x, (st.insertRescale term k).2.program.operands x
      = if x = st.program.nextTermIndex then [term]
        else (st.program.operands x).map
          (fun y => if y = term then st.program.nextTermIndex else y) := by
    intro x
    rw [hprog, r3, m4]
    split
    · rfl
    · rfl
  refine ⟨m1, by rw [hprog]; exact r1, by rw [hprog, r2, m3], hops, ?_, ?_, ?_, ?_, rfl, rfl, ?_⟩
  · intro x; rw [hprog, r4, m5]
  · intro x; rw [hprog, r5, m6]
  · intro x
    simp only [Rescaler.insertRescale, Rescaler.withProgram, Rescaler.setType, Rescaler.touch,
      Rescaler.setScale, m1, Function.update_apply]
  · intro x
    simp only [Rescaler.insertRescale, Rescaler.withProgram, Rescaler.setType, Rescaler.touch,
      Rescaler.setScale, Rescaler.scaleOf, m1, TermMapOptional.assign, Function.update_apply]
  · have hcons : (st.insertRescale term k).2.program.Consistent := by rw [hprog]; exact r1
    apply list_eq_singleton_of_count
    · rw [← hcons.sym, hops]
      simp
    · intro x hx
      rw [← hcons.sym, hops, if_neg hx]
      exact count_map_replace_self _ _ _ (by omega)

/-! ## The `Mul` branch of `AlwaysRescaler` (claim C10) -/

theorem sub32_sub32 (a b : Nat) (ha : a < u32) (hb : b < u32) : sub32 a (sub32 a b) = b := by
  unfold sub32 u32 at *
  norm_num at *
  omega

theorem sub32_of_le (a b : Nat) (ha : a < u32) (hb : b ≤ a) : sub32 a b = a - b := by
  unfold sub32 u32 at *
  norm_num at *
  omega

theorem add32_lt (a b : Nat) : add32 a b < u32 := by
  unfold add32
  exact Nat.mod_lt _ (by unfold u32; norm_num)

theorem foldl_add32 (f : Nat → Nat) (l : List Nat) (acc : Nat) :
    l.foldl (fun s x => add32 s (f x)) acc = if l = [] then acc
      else (acc + (l.map f).sum) % u32 := by
  induction l generalizing acc with
  | nil => simp
  | cons a l ih =>
    simp only [List.foldl_cons, ih, List.map_cons, List.sum_cons]
    by_cases hl : l = []
    · subst hl
      simp [add32]
    · simp only [hl, if_false, add32]
      simp only [List.cons_ne_nil, ↓reduceIte]
      rw [Nat.add_mod, Nat.mod_mod, ← Nat.add_mod, Nat.add_assoc]

theorem sumScales_eq (st : Rescaler) (l : List Nat) (h : l ≠ []) :
    st.sumScales l = (l.map st.scaleOf).sum % u32 := by
  unfold Rescaler.sumScales
  rw [foldl_add32]
  simp [h]

theorem touchAll_frame (st : Rescaler) (l : List Nat) :
    (st.touchAll l).program = st.program ∧ (st.touchAll l).type = st.type ∧
    (st.touchAll l).minScale = st.minScale ∧ (st.touchAll l).ok = st.ok ∧
    (∀ x, (st.touchAll l).scale.val x = st.scale.val x) := by
  unfold Rescaler.touchAll
  induction l generalizing st with
  | nil => exact ⟨rfl, rfl, rfl, rfl, fun _ => rfl⟩
  | cons a l ih =>
    simp only [List.foldl_cons]
    obtain ⟨h1, h2, h3, h4, h5⟩ := ih (st.touch a)
    refine ⟨h1, h2, h3, h4, ?_⟩
    intro x
    rw [h5]
    exact touch_val _ _ _

/-- C10 (Always policy): when `AlwaysRescaler` visits a non-Raw `Mul` with
operands, whose operand scales sum (in 32-bit unsigned arithmetic) to
`multScale`, it creates exactly one term, a `Rescale` whose only operand is the
`Mul`, with `RescaleDivisorAttribute` equal to `multScale - minScale` (32-bit
unsigned; the plain difference when `minScale ≤ multScale`) and recorded scale
`minScale`; the `Mul` keeps the recorded scale `multScale`, its only use is
the new term, and every other term reads the new term wherever it read the
`Mul`. -/
theorem alwaysRescaler_mul_inserts_one_rescale (st : Rescaler) (term : Nat)
    (hc : st.program.Consistent) (ht : term < st.program.nextTermIndex)
    (hmin : st.minScale < u32) (hty : st.type term ≠ TermType.Raw)
    (hop : st.program.op term = Op.Mul) (hne : st.program.operands term ≠ []) :
    ∃ st1, AlwaysRescaler.visit st term = some st1 ∧
      st.sumScales (st.program.operands term)
        = ((st.program.operands term).map st.scaleOf).sum % u32 ∧
      st1.program.nextTermIndex = st.program.nextTermIndex + 1 ∧
      (∀ x, x < st.program.nextTermIndex → st1.program.op x = st.program.op x) ∧
      st1.program.op st.program.nextTermIndex = Op.Rescale ∧
      st1.program.operands st.program.nextTermIndex = [term] ∧
      AttributeList.getUInt32 (st1.program.attributes st.program.nextTermIndex)
          RescaleDivisorAttribute
        = some (sub32 (st.sumScales (st.program.operands term)) st.minScale) ∧
      (st.minScale ≤ st.sumScales (st.program.operands term) →
        sub32 (st.sumScales (st.program.operands term)) st.minScale
          = st.sumScales (st.program.operands term) - st.minScale) ∧
      st1.scale st.program.nextTermIndex = some st.minScale ∧
      st1.scale term = some (st.sumScales (st.program.operands term)) ∧
      st1.program.uses term = [st.program.nextTermIndex] ∧
      (∀ u, u ≠ st.program.nextTermIndex →
        st1.program.operands u = (st.program.operands u).map
          (fun y => if y = term then st.program.nextTermIndex else y)) := by
  obtain ⟨first, rest, hops⟩ := List.exists_cons_of_ne_nil hne
  have hms : st.sumScales (st.program.operands term) < u32 := by
    rw [sumScales_eq st _ hne]
    exact Nat.mod_lt _ (by unfold u32; norm_num)
  obtain ⟨t1, t2, t3, t4, t5⟩ := touchAll_frame st (st.program.operands term)
  -- the state handed to `insertRescale`
  have hst1 : ∃ s : Rescaler, s = (((st.touchAll (st.program.operands term)).check
      (decide (st.sumScales (st.program.operands term) ≠ 0))).setScale term
      (st.sumScales (st.program.operands term))) := ⟨_, rfl⟩
  obtain ⟨s, hs⟩ := hst1
  have hsp : s.program = st.program := by rw [hs]; exact t1
  have hsm : s.minScale = st.minScale := by rw [hs]; exact t3
  have hss : s.scale term = some (st.sumScales (st.program.operands term)) := by
    rw [hs]
    simp [Rescaler.setScale, TermMapOptional.assign]
  have hvisit : AlwaysRescaler.visit st term
      = some (s.insertRescale term (sub32 (st.sumScales (st.program.operands term))
          s.minScale)).2 := by
    have hmul : isMultiplicationOp (st.program.op term) = true := by simp [isMultiplicationOp, hop]
    have hres : isRescaleOp (st.program.op term) = false := by simp [isRescaleOp, hop]
    unfold AlwaysRescaler.visit
    simp only [hops, hty, if_false, hres, hmul, Bool.not_true, Bool.false_eq_true]
    rw [← hops, ← hs]
  obtain ⟨i1, i2, i3, i4, i5, i6, i7, i8, i9, i10, i11⟩ := insertRescale_spec s term
    (sub32 (st.sumScales (st.program.operands term)) s.minScale) (by rw [hsp]; exact hc)
    (by rw [hsp]; exact ht)
  rw [hsp] at i3 i4 i5 i6 i8 i11
  refine ⟨_, hvisit, sumScales_eq st _ hne, i3, ?_, ?_, ?_, ?_, ?_, ?_, ?_, i11, ?_⟩
  · intro x hx
    rw [i5, if_neg (by omega)]
  · rw [i5, if_pos rfl]
  · rw [i4, if_pos rfl]
  · rw [i6, if_pos rfl, hsm]
    simp [AttributeList.getUInt32, AttributeList.get]
  · intro hle
    exact sub32_of_le _ _ hms hle
  · rw [i8, if_pos rfl]
    have : s.scale.val term = st.sumScales (st.program.operands term) := by
      simp [TermMapOptional.val, hss]
    rw [this, hsm, sub32_sub32 _ _ hms hmin]
  · rw [i8, if_neg (by omega), touch_of_some _ _ _ hss, hss]
  · intro u hu
    rw [i4, if_neg hu]

/-- Witness of C10: the `Mul` of the diamond program, operands at scale 30
each, `minScale` 30: one `Rescale` by 30 is created as term 5, and the output
that read the `Mul` reads it. -/
theorem alwaysRescaler_mul_inserts_one_rescale_witness :
    (AlwaysRescaler.visit mulState 2).map
        (fun s => (s.program.nextTermIndex, s.program.operands 5, s.program.uses 2,
          s.program.operands 3)) = some (6, [2], [5], [5]) ∧
    (AlwaysRescaler.visit mulState 2).map
        (fun s => (s.scale 5, s.scale 2,
          AttributeList.getUInt32 (s.program.attributes 5) RescaleDivisorAttribute))
      = some (some 30, some 60, some 30) ∧
    ∃ st1, AlwaysRescaler.visit mulState 2 = some st1 ∧
      st1.scale mulState.program.nextTermIndex = some mulState.minScale ∧
      st1.program.uses 2 = [mulState.program.nextTermIndex] := by
  refine ⟨by decide!, by decide!, ?_⟩
  obtain ⟨st1, h1, _, _, _, _, _, _, _, h9, _, h11, _⟩ :=
    alwaysRescaler_mul_inserts_one_rescale mulState 2 diamondProgram_wellFormed.consistent
      (by decide!) (by decide!) (by decide!) (by decide!) (by decide!)
  exact ⟨st1, h1, h9, h11⟩

/-! ## The rescale loop of the waterline policies (claim C9) -/

theorem map_replace_self (l : List Nat) (t : Nat) :
    l.map (fun y => if y = t then t else y) = l := by
  conv_rhs => rw [← List.map_id l]
  apply List.map_congr_left
  intro y _
  by_cases h : y = t <;> simp [h]

theorem map_replace_chain (l : List Nat) (t n c : Nat) (hn : n ∉ l) :
    (l.map (fun y => if y = t then n else y)).map (fun y => if y = n then c else y)
      = l.map (fun y => if y = t then c else y) := by
  rw [List.map_map]
  apply List.map_congr_left
  intro y hy
  simp only [Function.comp]
  by_cases h : y = t
  · simp [h]
  · have : y ≠ n := by
      rintro rfl
      exact hn hy
    simp [h, this]

theorem add32_of_lt (a b : Nat) (h : a + b < u32) : add32 a b = a + b := by
  unfold add32
  exact Nat.mod_eq_of_lt h

theorem check_true (st : Rescaler) : st.check true = st := by
  cases st
  simp [Rescaler.check]

/-- The loop inserts a chain of `k` rescale terms by 60, where `k` is the
least number of steps that brings `ms` below `minScale + 60`. -/
theorem rescaleLoop_spec (k : Nat) : ∀ (fuel : Nat) (st : Rescaler) (temp ms : Nat),
    st.program.Consistent → temp < st.program.nextTermIndex → st.scale temp = some ms →
    ms < u32 → st.minScale + 60 < u32 →
    ms < st.minScale + 60 + 60 * k → (∀ j, j < k → st.minScale + 60 + 60 * j ≤ ms) →
    k ≤ fuel →
    ∃ st1, Rescaler.rescaleLoop fuel st temp ms
        = some ((if k = 0 then temp else st.program.nextTermIndex + k - 1), st1) ∧
      st1.program.Consistent ∧
      st1.program.nextTermIndex = st.program.nextTermIndex + k ∧
      st1.minScale = st.minScale ∧ st1.ok = st.ok ∧
      (∀ i, i < k →
        st1.program.op (st.program.nextTermIndex + i) = Op.Rescale ∧
        st1.program.operands (st.program.nextTermIndex + i)
          = [if i = 0 then temp else st.program.nextTermIndex + i - 1] ∧
        st1.program.attributes (st.program.nextTermIndex + i)
          = [(RescaleDivisorAttribute, AttributeValue.uint32 60)] ∧
        st1.scale (st.program.nextTermIndex + i) = some (ms - 60 * (i + 1)) ∧
        st1.type (st.program.nextTermIndex + i) = st.type temp) ∧
      (∀ x, x < st.program.nextTermIndex →
        st1.program.op x = st.program.op x ∧
        st1.program.attributes x = st.program.attributes x ∧
        st1.scale x = st.scale x ∧ st1.type x = st.type x ∧
        st1.program.operands x = (st.program.operands x).map
          (fun y => if y = temp then (if k = 0 then temp else st.program.nextTermIndex + k - 1)
            else y)) := by
  induction k with
  | zero =>
    intro fuel st temp ms hc ht hs hms hmin hlt _ _
    have hcond : ¬ (ms ≥ add32 fixedRescale st.minScale) := by
      rw [add32_of_lt _ _ (by simp only [fixedRescale]; omega)]
      simp only [fixedRescale]
      omega
    refine ⟨st, ?_, hc, rfl, rfl, rfl, fun i hi => absurd hi (Nat.not_lt_zero i), ?_⟩
    · cases fuel with
      | zero => simp only [Rescaler.rescaleLoop, hcond, if_false, if_true]
      | succ f => simp only [Rescaler.rescaleLoop, hcond, if_false, if_true]
    · intro x _
      refine ⟨rfl, rfl, rfl, rfl, ?_⟩
      rw [if_pos rfl]
      exact (map_replace_self _ _).symm
  | succ k ih =>
    intro fuel st temp ms hc ht hs hms hmin hlt hleast hfuel
    have h0 := hleast 0 (Nat.succ_pos k)
    have hcond : ms ≥ add32 fixedRescale st.minScale := by
      rw [add32_of_lt _ _ (by simp only [fixedRescale]; omega)]
      simp only [fixedRescale]
      omega
    obtain ⟨f, rfl⟩ : ∃ f, fuel = f + 1 := ⟨fuel - 1, by omega⟩
    obtain ⟨i1, i2, i3, i4, i5, i6, i7, i8, i9, i10, _⟩ :=
      insertRescale_spec st temp fixedRescale hc ht
    have hval : st.scale.val temp = ms := by simp [TermMapOptional.val, hs]
    have hsub : sub32 ms fixedRescale = ms - 60 := by
      rw [sub32_of_le _ _ hms (by simp only [fixedRescale]; omega)]
      rfl
    have hnew : (st.insertRescale temp fixedRescale).2.scale st.program.nextTermIndex
        = some (ms - 60) := by
      rw [i8, if_pos rfl, hval, hsub]
    have hchk : ((st.insertRescale temp fixedRescale).2.check
        (decide (sub32 ms fixedRescale
          = (st.insertRescale temp fixedRescale).2.scaleOf (st.insertRescale temp fixedRescale).1)))
        = (st.insertRescale temp fixedRescale).2 := by
      have hd : decide (sub32 ms fixedRescale
          = (st.insertRescale temp fixedRescale).2.scaleOf (st.insertRescale temp fixedRescale).1)
          = true := by
        simp only [Rescaler.scaleOf, TermMapOptional.val, i1, hnew, hsub]
        simp
      rw [hd]
      exact check_true _
    obtain ⟨st1, e1, e2, e3, e4, e5, e6, e7⟩ := ih f
      (st.insertRescale temp fixedRescale).2 st.program.nextTermIndex
      (ms - 60) i2 (by show st.program.nextTermIndex < _; rw [i3]; omega) hnew (by omega)
      (by show (st.insertRescale temp fixedRescale).2.minScale + 60 < u32; rw [i9]; exact hmin)
      (by show ms - 60 < (st.insertRescale temp fixedRescale).2.minScale + 60 + 60 * k
          rw [i9]; omega)
      (by
        intro j hj
        show (st.insertRescale temp fixedRescale).2.minScale + 60 + 60 * j ≤ ms - 60
        rw [i9]
        have := hleast (j + 1) (by omega)
        omega)
      (by omega)
    have e3' : st1.program.nextTermIndex = st.program.nextTermIndex + (k + 1) := by
      rw [e3]
      show (st.insertRescale temp fixedRescale).2.program.nextTermIndex + k = _
      rw [i3]; omega
    have hlast : (if k = 0 then st.program.nextTermIndex
        else (st.insertRescale temp fixedRescale).2.program.nextTermIndex + k - 1)
        = st.program.nextTermIndex + (k + 1) - 1 := by
      rw [i3]
      split <;> omega
    have e7' : ∀ x, x < st.program.nextTermIndex + 1 →
        st1.program.op x = (st.insertRescale temp fixedRescale).2.program.op x ∧
        st1.program.attributes x = (st.insertRescale temp fixedRescale).2.program.attributes x ∧
        st1.scale x = (st.insertRescale temp fixedRescale).2.scale x ∧
        st1.type x = (st.insertRescale temp fixedRescale).2.type x ∧
        st1.program.operands x = ((st.insertRescale temp fixedRescale).2.program.operands x).map
          (fun y => if y = st.program.nextTermIndex
            then st.program.nextTermIndex + (k + 1) - 1 else y) := by
      intro x hx
      have := e7 x (by show x < (st.insertRescale temp fixedRescale).2.program.nextTermIndex
                       rw [i3]; exact hx)
      rw [hlast] at this
      exact this
    refine ⟨st1, ?_, e2, e3', ?_, ?_, ?_, ?_⟩
    · simp only [Rescaler.rescaleLoop, hcond, if_true]
      rw [i1] at hchk
      rw [i1, hchk, hsub, e1, hlast]
      simp
    · rw [e4]; exact i9
    · rw [e5]; exact i10
    · intro i hi
      by_cases hi0 : i = 0
      · subst hi0
        obtain ⟨a1, a2, a3, a4, a5⟩ := e7' st.program.nextTermIndex (by omega)
        simp only [Nat.add_zero, if_true]
        refine ⟨by rw [a1, i5, if_pos rfl], ?_, by rw [a2, i6, if_pos rfl]; rfl,
          by rw [a3, hnew], by rw [a4, i7, if_pos rfl]⟩
        rw [a5, i4, if_pos rfl]
        have : temp ≠ st.program.nextTermIndex := by omega
        simp [this]
      · obtain ⟨j, rfl⟩ : ∃ j, i = j + 1 := ⟨i - 1, by omega⟩
        obtain ⟨b1, b2, b3, b4, b5⟩ := e6 j (by omega)
        have hidx : (st.insertRescale temp fixedRescale).2.program.nextTermIndex + j
            = st.program.nextTermIndex + (j + 1) := by rw [i3]; omega
        rw [hidx] at b1 b2 b3 b4 b5
        refine ⟨b1, ?_, b3, ?_, ?_⟩
        · rw [b2]
          have hj1 : ¬ (j + 1 = 0) := Nat.succ_ne_zero j
          rw [if_neg hj1]
          split
          · next hj => subst hj; simp
          · rfl
        · rw [b4]
          have : ms - 60 - 60 * (j + 1) = ms - 60 * (j + 1 + 1) := by omega
          rw [this]
        · rw [b5]
          show (st.insertRescale temp fixedRescale).2.type st.program.nextTermIndex = _
          rw [i7, if_pos rfl]
    · intro x hx
      obtain ⟨a1, a2, a3, a4, a5⟩ := e7' x (by omega)
      have hne : x ≠ st.program.nextTermIndex := by omega
      refine ⟨by rw [a1, i5, if_neg hne], by rw [a2, i6, if_neg hne], ?_,
        by rw [a4, i7, if_neg hne], ?_⟩
      · rw [a3, i8, if_neg hne, touch_of_some _ _ _ hs]
      · rw [a5, i4, if_neg hne]
        simp only [Nat.succ_ne_zero, if_false]
        apply map_replace_chain
        intro hmem
        have := (hc.operand_lt hmem).2
        omega

/-- C9 (EagerWaterline): when `EagerWaterlineRescaler` visits a non-Raw `Mul`
with operands whose scales sum to `multScale` without 32-bit overflow (of the
sum or of `minScale + 60`), and `k` is the least natural number with
`multScale - 60 k < minScale + 60`, then, given fuel for `k` iterations, the
visit creates exactly `k` terms: `Rescale` terms with divisor 60 forming a
chain over the `Mul` (each consumes the previous one), the `i`-th of recorded
scale `multScale - 60 (i + 1)`.  The last term of the chain (the `Mul` itself
when `k = 0`) has recorded scale `multScale - 60 k`, which is below
`minScale + 60` and, when `k > 0`, at least `minScale`; the terms that read
the `Mul` read the last term of the chain. -/
theorem eagerWaterline_mul_inserts_chain (fuel : Nat) (st : Rescaler) (term k : Nat)
    (hc : st.program.Consistent) (ht : term < st.program.nextTermIndex)
    (hty : st.type term ≠ TermType.Raw) (hop : st.program.op term = Op.Mul)
    (hne : st.program.operands term ≠ [])
    (hsum : ((st.program.operands term).map st.scaleOf).sum < u32)
    (hmin : st.minScale + 60 < u32)
    (hk : ((st.program.operands term).map st.scaleOf).sum < st.minScale + 60 + 60 * k)
    (hleast : ∀ j, j < k →
      st.minScale + 60 + 60 * j ≤ ((st.program.operands term).map st.scaleOf).sum)
    (hfuel : k ≤ fuel) :
    ∃ st1, EagerWaterlineRescaler.visit fuel st term = some st1 ∧
      st1.program.nextTermIndex = st.program.nextTermIndex + k ∧
      (∀ x, x < st.program.nextTermIndex → st1.program.op x = st.program.op x) ∧
      (∀ i, i < k →
        st1.program.op (st.program.nextTermIndex + i) = Op.Rescale ∧
        st1.program.operands (st.program.nextTermIndex + i)
          = [if i = 0 then term else st.program.nextTermIndex + i - 1] ∧
        AttributeList.getUInt32 (st1.program.attributes (st.program.nextTermIndex + i))
          RescaleDivisorAttribute = some 60 ∧
        st1.scale (st.program.nextTermIndex + i)
          = some (((st.program.operands term).map st.scaleOf).sum - 60 * (i + 1))) ∧
      st1.scale term = some ((st.program.operands term).map st.scaleOf).sum ∧
      st1.scale (if k = 0 then term else st.program.nextTermIndex + k - 1)
        = some (((st.program.operands term).map st.scaleOf).sum - 60 * k) ∧
      ((st.program.operands term).map st.scaleOf).sum - 60 * k < st.minScale + 60 ∧
      (0 < k → st.minScale ≤ ((st.program.operands term).map st.scaleOf).sum - 60 * k) ∧
      (∀ x, x < st.program.nextTermIndex →
        st1.program.operands x = (st.program.operands x).map
          (fun y => if y = term then (if k = 0 then term else st.program.nextTermIndex + k - 1)
            else y)) := by
  obtain ⟨first, rest, hops⟩ := List.exists_cons_of_ne_nil hne
  have hmsEq : st.sumScales (st.program.operands term)
      = ((st.program.operands term).map st.scaleOf).sum := by
    rw [sumScales_eq st _ hne, Nat.mod_eq_of_lt hsum]
  obtain ⟨t1, t2, t3, t4, t5⟩ := touchAll_frame st (st.program.operands term)
  obtain ⟨s, hs⟩ : ∃ s : Rescaler, s = (((st.touchAll (st.program.operands term)).check
      (decide (st.sumScales (st.program.operands term) ≠ 0))).setScale term
      (st.sumScales (st.program.operands term))) := ⟨_, rfl⟩
  have hsp : s.program = st.program := by rw [hs]; exact t1
  have hsm : s.minScale = st.minScale := by rw [hs]; exact t3
  have hss : s.scale term = some ((st.program.operands term).map st.scaleOf).sum := by
    rw [hs, hmsEq]
    simp [Rescaler.setScale, TermMapOptional.assign]
  have hvisit : EagerWaterlineRescaler.visit fuel st term
      = (Rescaler.rescaleLoop fuel s term
          ((st.program.operands term).map st.scaleOf).sum).map (fun r => r.2) := by
    have hmul : isMultiplicationOp (st.program.op term) = true := by simp [isMultiplicationOp, hop]
    have hres : isRescaleOp (st.program.op term) = false := by simp [isRescaleOp, hop]
    unfold EagerWaterlineRescaler.visit
    simp only [hops, hty, if_false, hres, hmul, Bool.not_true, Bool.false_eq_true]
    rw [← hops, ← hs, hmsEq]
  obtain ⟨st1, e1, _, e3, _, _, e6, e7⟩ := rescaleLoop_spec k fuel s term
    ((st.program.operands term).map st.scaleOf).sum (by rw [hsp]; exact hc)
    (by rw [hsp]; exact ht) hss hsum (by rw [hsm]; exact hmin) (by rw [hsm]; exact hk)
    (by rw [hsm]; exact hleast) hfuel
  rw [hsp] at e1 e3 e6 e7
  refine ⟨st1, by rw [hvisit, e1]; rfl, e3, fun x hx => (e7 x hx).1, ?_, ?_, ?_, by omega, ?_, ?_⟩
  · intro i hi
    obtain ⟨a1, a2, a3, a4, _⟩ := e6 i hi
    refine ⟨a1, a2, ?_, a4⟩
    rw [a3]
    simp [AttributeList.getUInt32, AttributeList.get]
  · rw [(e7 term ht).2.2.1, hss]
  · by_cases hk0 : k = 0
    · subst hk0
      simp only [if_true, Nat.mul_zero, Nat.sub_zero]
      rw [(e7 term ht).2.2.1, hss]
    · simp only [hk0, if_false]
      have := (e6 (k - 1) (by omega)).2.2.2.1
      have hidx : st.program.nextTermIndex + (k - 1) = st.program.nextTermIndex + k - 1 := by
        omega
      rw [hidx] at this
      rw [this]
      have : k - 1 + 1 = k := by omega
      rw [this]
  · intro hpos
    have := hleast (k - 1) (by omega)
    have h2 : 60 * (k - 1) + 60 = 60 * k := by
      have : k = (k - 1) + 1 := by omega
      rw [this]
      simp [Nat.mul_succ]
    omega
  · intro x hx
    exact (e7 x hx).2.2.2.2

/-- Witness of C9: the `Mul` of the diamond program with operands at scale 75
each and `minScale` 30, so `multScale = 150` and `k = 2`: terms 5 and 6 are the
chain, of scales 90 and 30. -/
theorem eagerWaterline_mul_inserts_chain_witness :
    (EagerWaterlineRescaler.visit 2 chainState 2).map
        (fun s => (s.program.nextTermIndex, s.program.operands 5, s.program.operands 6,
          s.program.operands 3)) = some (7, [2], [5], [6]) ∧
    (EagerWaterlineRescaler.visit 2 chainState 2).map
        (fun s => (s.scale 2, s.scale 5, s.scale 6)) = some (some 150, some 90, some 30) ∧
    ∃ st1, EagerWaterlineRescaler.visit 2 chainState 2 = some st1 ∧
      st1.program.nextTermIndex = chainState.program.nextTermIndex + 2 := by
  refine ⟨by decide!, by decide!, ?_⟩
  obtain ⟨st1, h1, h2, _⟩ :=
    eagerWaterline_mul_inserts_chain 2 chainState 2 2 diamondProgram_wellFormed.consistent
      (by decide!) (by decide!) (by decide!) (by decide!) (by decide!) (by decide!) (by decide!)
      (by decide!) (by decide)
  exact ⟨st1, h1, h2⟩

/-! ## `getEncryptionParameters` (claim C7) -/

theorem foldl_max_eq (l : List Nat) (m : Nat) :
    l.foldl (fun maxParm parm => if parm > maxParm then parm else maxParm) m
      = max m (listMax l) := by
  induction l generalizing m with
  | nil => simp [listMax]
  | cons a l ih =>
    simp only [List.foldl_cons, ih, listMax, List.foldr_cons]
    have : l.foldr max 0 = listMax l := rfl
    rw [this]
    split <;> omega

theorem scanOutputs_eq (st : EncryptionParametersSelector) (l : List (String × Nat))
    (hr : ∀ e ∈ l, (AttributeList.getUInt32 (st.program.attributes e.2) RangeAttribute).isSome)
    (m : OutputMaxima) :
    l.foldl st.scanOutput (some m) = some
      { maxOutputSize := max m.maxOutputSize
          (listMax (l.map (fun e => add32 (st.range e.2) (st.scales.val e.2)))),
        maxParm := max m.maxParm (listMax (l.map (fun e => listMax (st.terms e.2)))),
        maxLen := max m.maxLen (listMax (l.map (fun e => (st.terms e.2).length))) } := by
  induction l generalizing m with
  | nil => simp [listMax]
  | cons e l ih =>
    have he := hr e (by simp)
    obtain ⟨r, hrv⟩ := Option.isSome_iff_exists.mp he
    simp only [List.foldl_cons]
    have hstep : st.scanOutput (some m) e = some
        { maxOutputSize := max m.maxOutputSize (add32 r (st.scales.val e.2)),
          maxParm := max m.maxParm (listMax (st.terms e.2)),
          maxLen := max m.maxLen (st.terms e.2).length } := by
      simp only [EncryptionParametersSelector.scanOutput, hrv, foldl_max_eq]
      congr 2
      · split <;> omega
      · split <;> omega
    rw [hstep, ih (fun e he => hr e (by simp [he]))]
    have hrange : st.range e.2 = r := by
      simp [EncryptionParametersSelector.range, hrv]
    simp only [List.map_cons, listMax, List.foldr_cons, hrange]
    congr 2 <;> omega

theorem listMax_lt (l : List Nat) (b : Nat) (hb : 0 < b) (h : ∀ x ∈ l, x < b) : listMax l < b := by
  induction l with
  | nil => simpa [listMax] using hb
  | cons a l ih =>
    simp only [listMax, List.foldr_cons]
    have h1 := h a (by simp)
    have h2 := ih (fun x hx => h x (by simp [hx]))
    unfold listMax at h2
    omega

theorem specMaxOutputSize_lt (st : EncryptionParametersSelector) : st.specMaxOutputSize < u32 := by
  apply listMax_lt _ _ (by unfold u32; norm_num)
  intro x hx
  obtain ⟨e, _, rfl⟩ := List.mem_map.mp hx
  exact add32_lt _ _

theorem pushSixties_eq (fuel : Nat) : ∀ (ms : Nat) (parms : List Nat), ms < u32 →
    ms / 60 ≤ fuel →
    pushSixties fuel ms parms = some (parms ++ List.replicate (ms / 60) 60, ms % 60) := by
  induction fuel with
  | zero =>
    intro ms parms _ hf
    have h0 : ms / 60 = 0 := by omega
    have hlt : ms < 60 := by omega
    simp [pushSixties, h0, Nat.mod_eq_of_lt hlt, hlt]
  | succ f ih =>
    intro ms parms hms hf
    by_cases hge : ms ≥ 60
    · have hsub : sub32 ms 60 = ms - 60 := sub32_of_le _ _ hms hge
      have hdiv : ms / 60 = (ms - 60) / 60 + 1 := by omega
      simp only [pushSixties, hge, if_true, hsub]
      rw [ih (ms - 60) (parms ++ [60]) (by omega) (by omega), hdiv, List.replicate_succ]
      have hmod : (ms - 60) % 60 = ms % 60 := by omega
      simp [hmod]
    · have hlt : ms < 60 := by omega
      have h0 : ms / 60 = 0 := by omega
      simp [pushSixties, h0, Nat.mod_eq_of_lt hlt, hlt]

theorem appendLongest_append (st : EncryptionParametersSelector) (maxLen : Nat)
    (l : List (String × Nat)) (parms : List Nat) :
    st.appendLongest maxLen l parms = parms ++ st.appendLongest maxLen l [] := by
  induction l with
  | nil => simp [EncryptionParametersSelector.appendLongest]
  | cons e l ih =>
    simp only [EncryptionParametersSelector.appendLongest]
    split
    · simp
    · exact ih

/-- The closed form of the list `getEncryptionParameters` returns. -/
theorem getEncryptionParameters_eq (st : EncryptionParametersSelector)
    (hr : ∀ e ∈ st.program.outputs,
      (AttributeList.getUInt32 (st.program.attributes e.2) RangeAttribute).isSome) :
    st.getEncryptionParameters = some
      (if st.specMaxOutputSize ≤ 60 then
        [max st.specMaxParm st.specMaxOutputSize] ++ st.middlePrimes
          ++ [max st.specMaxParm st.specMaxOutputSize]
      else
        List.replicate (st.specMaxOutputSize / 60) 60
          ++ (if st.specMaxOutputSize % 60 = 0 then []
              else [max 20 (st.specMaxOutputSize % 60)])
          ++ st.middlePrimes ++ [60]) := by
  unfold EncryptionParametersSelector.getEncryptionParameters
  rw [scanOutputs_eq st _ hr]
  simp only [Nat.zero_max]
  have hS : listMax (st.program.outputs.map (fun e => add32 (st.range e.2) (st.scales.val e.2)))
      = st.specMaxOutputSize := rfl
  have hP : listMax (st.program.outputs.map (fun e => listMax (st.terms e.2)))
      = st.specMaxParm := rfl
  have hL : listMax (st.program.outputs.map (fun e => (st.terms e.2).length))
      = st.specMaxLen := rfl
  rw [hS, hP, hL]
  by_cases hgt : st.specMaxOutputSize > 60
  · have hle : ¬ st.specMaxOutputSize ≤ 60 := by omega
    rw [if_pos hgt, if_neg hle,
      pushSixties_eq _ _ [] (specMaxOutputSize_lt st) (Nat.div_le_self _ _)]
    simp only [List.nil_append]
    rw [appendLongest_append]
    congr 2
    by_cases hz : st.specMaxOutputSize % 60 = 0
    · simp [hz, EncryptionParametersSelector.middlePrimes]
    · have hpos : st.specMaxOutputSize % 60 > 0 := by omega
      simp only [hpos, if_true, hz, if_false, EncryptionParametersSelector.middlePrimes]
      have : (if 20 < st.specMaxOutputSize % 60 then st.specMaxOutputSize % 60 else 20)
          = max 20 (st.specMaxOutputSize % 60) := by
        split <;> omega
      rw [this]
  · have hle : st.specMaxOutputSize ≤ 60 := by omega
    rw [if_neg hgt, if_pos hle]
    have : (if st.specMaxOutputSize > st.specMaxParm then st.specMaxOutputSize
        else st.specMaxParm) = max st.specMaxParm st.specMaxOutputSize := by
      split <;> omega
    simp only [this]
    rw [appendLongest_append]
    rfl

/-- C7 (top and key primes): let `S` be the maximum over the outputs of
`RangeAttribute + scale` (the 32-bit sum the code forms) and `P` the largest
prime in the chain of any output, and let every output carry a
`RangeAttribute`.  If `S ≤ 60` the list `getEncryptionParameters` returns is
the single prime `max(P, S)`, then the middle primes, then the key prime
`max(P, S)`.  If `S > 60` it is `⌊S / 60⌋` primes of 60 bits, then the prime
`max(20, S mod 60)` exactly when `S mod 60` is not zero, then the middle
primes, then the key prime 60. -/
theorem getEncryptionParameters_top_and_key (st : EncryptionParametersSelector)
    (hr : ∀ e ∈ st.program.outputs,
      (AttributeList.getUInt32 (st.program.attributes e.2) RangeAttribute).isSome) :
    (st.specMaxOutputSize ≤ 60 →
      st.getEncryptionParameters = some
        ([max st.specMaxParm st.specMaxOutputSize] ++ st.middlePrimes
          ++ [max st.specMaxParm st.specMaxOutputSize])) ∧
    (60 < st.specMaxOutputSize → st.specMaxOutputSize % 60 ≠ 0 →
      st.getEncryptionParameters = some
        (List.replicate (st.specMaxOutputSize / 60) 60
          ++ [max 20 (st.specMaxOutputSize % 60)] ++ st.middlePrimes ++ [60])) ∧
    (60 < st.specMaxOutputSize → st.specMaxOutputSize % 60 = 0 →
      st.getEncryptionParameters = some
        (List.replicate (st.specMaxOutputSize / 60) 60 ++ st.middlePrimes ++ [60])) := by
  have h := getEncryptionParameters_eq st hr
  refine ⟨?_, ?_, ?_⟩
  · intro hle
    rw [h, if_pos hle]
  · intro hgt hne
    rw [h, if_neg (by omega), if_neg hne]
  · intro hgt hz
    rw [h, if_neg (by omega), if_pos hz]
    simp

/-- Witness of C7: output size `10 + 60 = 70 > 60` and output chain `[40]`
give the list `[60, 20, 40, 60]`. -/
theorem getEncryptionParameters_top_and_key_witness :
    rangeDemo.specMaxOutputSize = 70 ∧ rangeDemo.middlePrimes = [40] ∧
    rangeDemo.getEncryptionParameters = some [60, 20, 40, 60] ∧
    rangeDemo.getEncryptionParameters = some
      (List.replicate (rangeDemo.specMaxOutputSize / 60) 60
        ++ [max 20 (rangeDemo.specMaxOutputSize % 60)] ++ rangeDemo.middlePrimes ++ [60]) :=
  ⟨by decide!, by decide!, by decide!,
   (getEncryptionParameters_top_and_key rangeDemo (by decide!)).2.1 (by decide!) (by decide!)⟩


/-! ## Scale conservation under the `Minimum` policy -/

/-- C5: scale conservation fails after a forward pass of `MinimumRescaler` over
`out = a + c` with `a` at scale 30 and `c` at scale 20.  The pass ends with no
assertion violated; the `Add` (term 2, `Cipher`) has operands `a` and the
fix-up `Mul` (term 5, not `Raw`); the scale map holds 30 for the `Add` and for
`a` but `2^32 - 90` for the `Mul`, which was visited after the `Add` and had
both operands rescaled by 60 because `minOfScales - minScale = 10 - 30` wrapped
around.  `EagerWaterlineRescaler` conserves the scales on the same program. -/
theorem minimumRescaler_breaks_scale_conservation :
    (runRescaler (MinimumRescaler.rewriter 10) 20 unequalInputs).map
        (fun st => (st.ok, st.scaleConserved)) = some (true, false) ∧
    (runRescaler (MinimumRescaler.rewriter 10) 20 unequalInputs).map
        (fun st => (st.program.op 2, st.program.operands 2, st.type 2, st.type 5))
      = some (Op.Add, [0, 5], TermType.Cipher, TermType.Undef) ∧
    (runRescaler (MinimumRescaler.rewriter 10) 20 unequalInputs).map
        (fun st => (st.scale 2, st.scale 0, st.scale 5))
      = some (some 30, some 30, some 4294967206) ∧
    (runRescaler (MinimumRescaler.rewriter 10) 20 unequalInputs).map
        (fun st => (st.program.op 5, st.program.operands 5, st.program.op 6, st.program.op 7))
      = some (Op.Mul, [6, 7], Op.Rescale, Op.Rescale) ∧
    (runRescaler (EagerWaterlineRescaler.rewriter 10) 20 unequalInputs).map
        (fun st => (st.ok, st.scaleConserved)) = some (true, true) := by
  refine ⟨?_, ?_, ?_, ?_, ?_⟩ <;> decide!


/-! ## The chains of `EncryptionParametersSelector` -/

theorem longest_spec (terms : Nat → List Nat) (ops : List Nat) : ∀ acc : List Nat,
    (EncryptionParametersSelector.longest terms ops acc = acc ∨
      ∃ o ∈ ops, EncryptionParametersSelector.longest terms ops acc = terms o) ∧
    acc.length ≤ (EncryptionParametersSelector.longest terms ops acc).length ∧
    ∀ o ∈ ops, (terms o).length ≤ (EncryptionParametersSelector.longest terms ops acc).length := by
  induction ops with
  | nil => intro acc; simp [EncryptionParametersSelector.longest]
  | cons a ops ih =>
    intro acc
    have hunf : EncryptionParametersSelector.longest terms (a :: ops) acc
        = EncryptionParametersSelector.longest terms ops
            (if (terms a).length > acc.length then terms a else acc) := rfl
    rw [hunf]
    obtain ⟨h1, h2, h3⟩ := ih (if (terms a).length > acc.length then terms a else acc)
    by_cases hgt : (terms a).length > acc.length
    · rw [if_pos hgt] at h1 h2 h3 ⊢
      refine ⟨?_, by omega, ?_⟩
      · right
        rcases h1 with h1 | ⟨o, ho, h1⟩
        · exact ⟨a, by simp, h1⟩
        · exact ⟨o, by simp [ho], h1⟩
      · intro o ho
        rcases List.mem_cons.mp ho with rfl | ho
        · exact h2
        · exact h3 o ho
    · rw [if_neg hgt] at h1 h2 h3 ⊢
      refine ⟨?_, h2, ?_⟩
      · rcases h1 with h1 | ⟨o, ho, h1⟩
        · exact Or.inl h1
        · exact Or.inr ⟨o, by simp [ho], h1⟩
      · intro o ho
        rcases List.mem_cons.mp ho with rfl | ho
        · omega
        · exact h3 o ho

theorem longest_nil_spec (terms : Nat → List Nat) (ops : List Nat) (hne : ops ≠ []) :
    ∃ o ∈ ops, EncryptionParametersSelector.longest terms ops [] = terms o ∧
      ∀ o1 ∈ ops, (terms o1).length ≤ (terms o).length := by
  obtain ⟨h1, _, h3⟩ := longest_spec terms ops []
  rcases h1 with h1 | ⟨o, ho, h1⟩
  · obtain ⟨a, l, rfl⟩ := List.exists_cons_of_ne_nil hne
    have ha := h3 a (by simp)
    rw [h1] at ha
    have hnil : terms a = [] := List.eq_nil_of_length_eq_zero (by simpa using ha)
    refine ⟨a, by simp, by rw [h1, hnil], ?_⟩
    intro o1 ho1
    have := h3 o1 ho1
    rw [h1] at this
    rw [hnil]
    exact this
  · refine ⟨o, ho, h1, ?_⟩
    intro o1 ho1
    rw [← h1]
    exact h3 o1 ho1

theorem chainTermsOn_snoc (p : Program) (types : Nat → TermType) (l : List Nat) (t : Nat) :
    chainTermsOn p types (l ++ [t]) =
      if types t ≠ TermType.Raw ∧ p.op t ≠ Op.Encode then
        chainTermsOn p types l ++ (if isRescaleOp (p.op t) = true then [t] else [])
      else [] := by
  unfold chainTermsOn
  rw [List.reverse_append, List.reverse_singleton, List.singleton_append, List.takeWhile_cons]
  by_cases h : types t ≠ TermType.Raw ∧ p.op t ≠ Op.Encode
  · rw [if_pos h]
    have hd : decide (types t ≠ TermType.Raw ∧ p.op t ≠ Op.Encode) = true := decide_eq_true h
    rw [hd]
    simp only [if_true, List.reverse_cons, List.filter_append]
    congr 1
    by_cases hr : isRescaleOp (p.op t) = true
    · simp [hr]
    · simp [hr]
  · rw [if_neg h]
    have hd : decide (types t ≠ TermType.Raw ∧ p.op t ≠ Op.Encode) = false := decide_eq_false h
    rw [hd]
    simp

theorem sourcePath_single (p : Program) (t : Nat) (ht : t ∈ p.getSources) :
    SourcePath p [t] t :=
  ⟨List.chain'_singleton t, ⟨t, ht, rfl⟩, rfl⟩

theorem sourcePath_nonempty (p : Program) (path : List Nat) (t : Nat)
    (h : SourcePath p path t) : ∃ init, path = init ++ [t] := by
  obtain ⟨_, _, hl⟩ := h
  rcases List.eq_nil_or_concat path with rfl | ⟨L, b, hb⟩
  · simp at hl
  · rw [List.concat_eq_append] at hb
    subst hb
    simp at hl
    subst hl
    exact ⟨L, rfl⟩

theorem sourcePath_snoc (p : Program) (init : List Nat) (o t : Nat)
    (h : SourcePath p init o) (ho : o ∈ p.operands t) : SourcePath p (init ++ [t]) t := by
  obtain ⟨L, rfl⟩ := sourcePath_nonempty p init o h
  obtain ⟨hc, ⟨s, hs, hh⟩, _⟩ := h
  refine ⟨?_, ⟨s, hs, ?_⟩, by simp⟩
  · unfold OperandPath at hc ⊢
    rw [List.chain'_append]
    refine ⟨hc, List.chain'_singleton t, ?_⟩
    intro x hx y hy
    simp at hx hy
    subst hx; subst hy
    exact ho
  · cases L with
    | nil => simpa using hh
    | cons a L => simpa using hh

theorem sourcePath_cases (p : Program) (path : List Nat) (t : Nat) (h : SourcePath p path t) :
    (path = [t] ∧ t ∈ p.getSources) ∨
      ∃ init o, path = init ++ [t] ∧ o ∈ p.operands t ∧ SourcePath p init o := by
  obtain ⟨L, rfl⟩ := sourcePath_nonempty p path t h
  obtain ⟨hc, ⟨s, hs, hh⟩, _⟩ := h
  rcases List.eq_nil_or_concat L with rfl | ⟨L1, o, hL⟩
  · left
    simp only [List.nil_append, List.head?_cons, Option.some.injEq] at hh
    subst hh
    exact ⟨rfl, hs⟩
  · right
    rw [List.concat_eq_append] at hL
    subst hL
    unfold OperandPath at hc
    rw [List.chain'_append] at hc
    obtain ⟨hc1, _, hc3⟩ := hc
    refine ⟨L1 ++ [o], o, rfl, hc3 o (by simp) t (by simp), hc1, ⟨s, hs, ?_⟩, by simp⟩
    cases L1 with
    | nil => simpa using hh
    | cons a L1 => simpa using hh

theorem chainTermsOn_nil (p : Program) (types : Nat → TermType) : chainTermsOn p types [] = [] :=
  rfl

theorem chainTermsOn_base (p : Program) (types : Nat → TermType) (path : List Nat) (t : Nat)
    (h : SourcePath p path t) (hb : ¬ (types t ≠ TermType.Raw ∧ p.op t ≠ Op.Encode)) :
    chainTermsOn p types path = [] := by
  obtain ⟨init, rfl⟩ := sourcePath_nonempty p path t h
  rw [chainTermsOn_snoc, if_neg hb]

theorem chainOfLongestCounted_length (p : Program) (types : Nat → TermType)
    (terms : Nat → List Nat) (t : Nat) (h : ChainOfLongestCounted p types terms t) :
    ∀ path1, SourcePath p path1 t → (chainTermsOn p types path1).length ≤ (terms t).length := by
  obtain ⟨path, _, heq, hmax⟩ := h
  intro path1 h1
  have hlen : (terms t).length = (chainTermsOn p types path).length := by
    have := congrArg List.length heq
    simpa using this
  rw [hlen]
  exact hmax path1 h1

theorem selectorInv_extend (p : Program) (types : Nat → TermType)
    (env env1 : EncryptionParametersSelector) (visited : List Nat) (t : Nat)
    (hJ : SelectorInv p types env visited) (hnot : t ∉ visited) (hp1 : env1.program = p)
    (hty1 : env1.types = types) (hframe : ∀ u, u ≠ t → env1.terms u = env.terms u)
    (hgood : ChainOfLongestCounted p types env1.terms t) :
    SelectorInv p types env1 (visited ++ [t]) := by
  obtain ⟨_, _, hg, hnil⟩ := hJ
  refine ⟨hp1, hty1, ?_, ?_⟩
  · intro u hu
    rcases List.mem_append.mp hu with hu | hu
    · have hne : u ≠ t := fun h => hnot (h ▸ hu)
      have := hg u hu
      unfold ChainOfLongestCounted at this ⊢
      rw [hframe u hne]
      exact this
    · have : u = t := by simpa using hu
      subst this
      exact hgood
  · intro u hu
    have hne : u ≠ t := fun h => hu (by simp [h])
    rw [hframe u hne]
    exact hnil u (fun h => hu (by simp [h]))

/-- One call of the selector in a forward pass keeps `SelectorInv`. -/
theorem selector_step (p : Program) (types : Nat → TermType) (hc : p.Consistent)
    (hresc : ∀ t, t < p.nextTermIndex → p.op t = Op.Rescale → types t ≠ TermType.Raw →
      p.operands t ≠ [] ∧ (rescaleDivisorOf p t).isSome)
    (env : EncryptionParametersSelector) (visited : List Nat) (t : Nat)
    (hJ : SelectorInv p types env visited) (hnot : t ∉ visited) (hlt : t < p.nextTermIndex)
    (hops : ∀ o ∈ p.operands t, o ∈ visited) :
    ∃ env1, EncryptionParametersSelector.visit env t = some env1 ∧ env1.program = p ∧
      SelectorInv p types env1 (visited ++ [t]) := by
  have hJ0 := hJ
  obtain ⟨hp, hty, hgood, hnil⟩ := hJ
  have ht0 : env.terms t = [] := hnil t hnot
  have hsrc : p.operands t = [] → t ∈ p.getSources := fun h => (hc.src t).mpr ⟨hlt, h⟩
  by_cases hb : types t ≠ TermType.Raw ∧ p.op t ≠ Op.Encode
  · by_cases hne : p.operands t = []
    · -- a source that is neither `Raw` nor an `Encode`
      have hvisit : EncryptionParametersSelector.visit env t = some env := by
        unfold EncryptionParametersSelector.visit
        rw [hp, hty, if_neg (by tauto)]
        simp [hne]
      refine ⟨env, hvisit, hp, selectorInv_extend p types env env visited t hJ0 hnot hp hty
        (fun _ _ => rfl) ?_⟩
      have hnr : isRescaleOp (p.op t) = false := by
        by_contra hr
        have hr1 : p.op t = Op.Rescale := by simpa [isRescaleOp] using hr
        exact (hresc t hlt hr1 hb.1).1 hne
      have hsingle : chainTermsOn p types [t] = [] := by
        have := chainTermsOn_snoc p types [] t
        rw [List.nil_append, if_pos hb, hnr, chainTermsOn_nil] at this
        simpa using this
      refine ⟨[t], sourcePath_single p t (hsrc hne), by rw [ht0, hsingle]; rfl, ?_⟩
      intro path1 h1
      rcases sourcePath_cases p path1 t h1 with ⟨rfl, _⟩ | ⟨init, o, _, ho, _⟩
      · exact le_refl _
      · rw [hne] at ho
        simp at ho
    · -- a term with operands
      obtain ⟨o, ho, hlong, hmaxo⟩ := longest_nil_spec env.terms (p.operands t) hne
      obtain ⟨patho, hspo, heqo, _⟩ := hgood o (hops o ho)
      have hnotsrc : t ∉ p.getSources := fun h => hne ((hc.src t).mp h).2
      have hleno : (env.terms o).length = (chainTermsOn p types patho).length := by
        have := congrArg List.length heqo
        simpa using this
      have hbound : ∀ path1, SourcePath p path1 t → ∃ init, path1 = init ++ [t] ∧
          (chainTermsOn p types init).length ≤ (chainTermsOn p types patho).length := by
        intro path1 h1
        rcases sourcePath_cases p path1 t h1 with ⟨_, hs⟩ | ⟨init, o1, rfl, ho1, hsp1⟩
        · exact absurd hs hnotsrc
        · refine ⟨init, rfl, ?_⟩
          have h2 := chainOfLongestCounted_length p types env.terms o1 (hgood o1 (hops o1 ho1))
            init hsp1
          have h3 := hmaxo o1 ho1
          omega
      by_cases hr : isRescaleOp (p.op t) = true
      · have hr1 : p.op t = Op.Rescale := by simpa [isRescaleOp] using hr
        obtain ⟨d, hd⟩ := Option.isSome_iff_exists.mp (hresc t hlt hr1 hb.1).2
        have hd1 : AttributeList.getUInt32 (p.attributes t) RescaleDivisorAttribute = some d := hd
        have hvisit : EncryptionParametersSelector.visit env t = some
            { env with terms := Function.update env.terms t (env.terms o ++ [d]),
                       ok := env.ok && decide (d ≠ 0) } := by
          unfold EncryptionParametersSelector.visit
          rw [hp, hty, if_neg (by tauto)]
          have hpos : 0 < (p.operands t).length := List.length_pos.mpr hne
          simp only [hpos, if_true, hr, ht0, hlong, hd1]
        refine ⟨_, hvisit, hp, selectorInv_extend p types env _ visited t hJ0 hnot hp hty
          (fun u hu => Function.update_noteq hu _ _) ?_⟩
        have hchain : chainTermsOn p types (patho ++ [t]) = chainTermsOn p types patho ++ [t] := by
          rw [chainTermsOn_snoc, if_pos hb, if_pos hr]
        refine ⟨patho ++ [t], sourcePath_snoc p patho o t hspo ho, ?_, ?_⟩
        · simp only [Function.update_same, List.map_append, List.map_cons, List.map_nil, hchain,
            heqo]
          congr 1
          simp only [rescaleDivisorOf, hd1]
        · intro path1 h1
          obtain ⟨init, rfl, hle⟩ := hbound path1 h1
          rw [hchain, chainTermsOn_snoc, if_pos hb, if_pos hr]
          simp only [List.length_append, List.length_singleton]
          omega
      · have hvisit : EncryptionParametersSelector.visit env t = some
            { env with terms := Function.update env.terms t (env.terms o) } := by
          unfold EncryptionParametersSelector.visit
          rw [hp, hty, if_neg (by tauto)]
          have hpos : 0 < (p.operands t).length := List.length_pos.mpr hne
          simp only [hpos, if_true, hr, ht0, hlong]
          rfl
        refine ⟨_, hvisit, hp, selectorInv_extend p types env _ visited t hJ0 hnot hp hty
          (fun u hu => Function.update_noteq hu _ _) ?_⟩
        have hchain : chainTermsOn p types (patho ++ [t]) = chainTermsOn p types patho := by
          rw [chainTermsOn_snoc, if_pos hb, if_neg hr, List.append_nil]
        refine ⟨patho ++ [t], sourcePath_snoc p patho o t hspo ho, ?_, ?_⟩
        · simp only [Function.update_same, hchain, heqo]
        · intro path1 h1
          obtain ⟨init, rfl, hle⟩ := hbound path1 h1
          rw [hchain, chainTermsOn_snoc, if_pos hb, if_neg hr, List.append_nil]
          exact hle
  · -- a `Raw` term or an `Encode`
    have hvisit : EncryptionParametersSelector.visit env t = some env := by
      unfold EncryptionParametersSelector.visit
      rw [hp, hty, if_pos (by tauto)]
    refine ⟨env, hvisit, hp, selectorInv_extend p types env env visited t hJ0 hnot hp hty
      (fun _ _ => rfl) ?_⟩
    have hpath : ∃ path, SourcePath p path t := by
      by_cases hne : p.operands t = []
      · exact ⟨[t], sourcePath_single p t (hsrc hne)⟩
      · obtain ⟨o, l, hol⟩ := List.exists_cons_of_ne_nil hne
        have ho : o ∈ p.operands t := by rw [hol]; simp
        obtain ⟨patho, hspo, _, _⟩ := hgood o (hops o ho)
        exact ⟨patho ++ [t], sourcePath_snoc p patho o t hspo ho⟩
    obtain ⟨path, hsp⟩ := hpath
    refine ⟨path, hsp, by rw [ht0, chainTermsOn_base p types path t hsp hb]; rfl, ?_⟩
    intro path1 h1
    rw [chainTermsOn_base p types path1 t h1 hb]
    exact Nat.zero_le _

/-- A forward pass of the selector over a well-formed acyclic program returns,
leaves program and types as they were, and gives every term the chain of a
path with the largest number of counted `Rescale` terms. -/
theorem selector_pass_spec (p : Program) (types : Nat → TermType) (scales : TermMapOptional)
    (hwf : p.WellFormed) (hac : p.Acyclic)
    (hresc : ∀ t, t < p.nextTermIndex → p.op t = Op.Rescale → types t ≠ TermType.Raw →
      p.operands t ≠ [] ∧ (rescaleDivisorOf p t).isSome)
    (fuel : Nat) (hfuel : p.nextTermIndex ≤ fuel) :
    ∃ st, forwardPass EncryptionParametersSelector.rewriter fuel
        (EncryptionParametersSelector.init p scales types) = some st ∧
      st.env.program = p ∧ st.env.types = types ∧
      ∀ t, t < p.nextTermIndex → ChainOfLongestCounted p types st.env.terms t := by
  obtain ⟨st, h1, _, _, hJ, hcount, _⟩ := traverse_spec true
    EncryptionParametersSelector.rewriter (EncryptionParametersSelector.init p scales types)
    (SelectorInv p types)
    (fun env1 visited term hp hJ hnot hlt hpred =>
      selector_step p types hwf.consistent hresc env1 visited term hJ hnot hlt
        (fun o ho => hpred o (by simpa [predecessors] using ho)))
    ⟨rfl, rfl, by simp, fun _ _ => rfl⟩
    (dirFacts_forward p hwf.consistent hac) hwf.sets.1 fuel hfuel
  refine ⟨st, h1, hJ.1, hJ.2.1, ?_⟩
  intro t ht
  apply hJ.2.2.1 t
  have hc := hcount t
  have ht1 : t < (EncryptionParametersSelector.rewriter.program
      (EncryptionParametersSelector.init p scales types)).nextTermIndex := ht
  rw [if_pos ht1] at hc
  exact List.count_pos_iff.mp (by omega)

theorem listMax_ge (l : List Nat) (x : Nat) (h : x ∈ l) : x ≤ listMax l := by
  induction l with
  | nil => simp at h
  | cons a l ih =>
    simp only [listMax, List.foldr_cons]
    rcases List.mem_cons.mp h with rfl | h
    · omega
    · have := ih h
      unfold listMax at this
      omega

theorem listMax_mem (l : List Nat) (h : l ≠ []) : listMax l ∈ l := by
  induction l with
  | nil => exact absurd rfl h
  | cons a l ih =>
    simp only [listMax, List.foldr_cons]
    by_cases hl : l = []
    · subst hl; simp
    · have := ih hl
      unfold listMax at this
      rcases Nat.le_total a (l.foldr max 0) with hle | hle
      · rw [Nat.max_eq_right hle]; exact List.mem_cons_of_mem _ this
      · rw [Nat.max_eq_left hle]; simp

theorem appendLongest_spec (st : EncryptionParametersSelector) (m : Nat)
    (l : List (String × Nat)) (h : ∃ e ∈ l, m = (st.terms e.2).length) :
    ∃ e ∈ l, m = (st.terms e.2).length ∧ st.appendLongest m l [] = (st.terms e.2).reverse := by
  induction l with
  | nil => obtain ⟨e, he, _⟩ := h; simp at he
  | cons a l ih =>
    by_cases ha : m = (st.terms a.2).length
    · refine ⟨a, by simp, ha, ?_⟩
      simp [EncryptionParametersSelector.appendLongest, ha]
    · obtain ⟨e, he, hm⟩ := h
      have he1 : e ∈ l := by
        rcases List.mem_cons.mp he with rfl | he
        · exact absurd hm ha
        · exact he
      obtain ⟨e1, h1, h2, h3⟩ := ih ⟨e, he1, hm⟩
      refine ⟨e1, List.mem_cons_of_mem _ h1, h2, ?_⟩
      simp only [EncryptionParametersSelector.appendLongest, if_neg ha]
      exact h3

/-- The middle primes are the reversed chain of an output whose chain is of
the largest length among the outputs. -/
theorem middlePrimes_spec (st : EncryptionParametersSelector) (hout : st.program.outputs ≠ []) :
    ∃ e ∈ st.program.outputs,
      (∀ e1 ∈ st.program.outputs, (st.terms e1.2).length ≤ (st.terms e.2).length) ∧
      st.middlePrimes = (st.terms e.2).reverse := by
  have hne : st.program.outputs.map (fun e => (st.terms e.2).length) ≠ [] := by
    simpa using hout
  have hmem := listMax_mem _ hne
  obtain ⟨e0, he0, hlen0⟩ := List.mem_map.mp hmem
  obtain ⟨e, he, hm, happ⟩ := appendLongest_spec st st.specMaxLen st.program.outputs
    ⟨e0, he0, hlen0.symm⟩
  refine ⟨e, he, ?_, happ⟩
  intro e1 he1
  rw [← hm]
  exact listMax_ge _ _ (List.mem_map.mpr ⟨e1, he1, rfl⟩)

theorem wellFormed_setAttribute (p : Program) (t k : Nat) (v : AttributeValue)
    (h : p.WellFormed) : (Term.setAttribute p t k v).WellFormed :=
  ⟨setAttribute_consistent p t k v h.consistent, h.sets⟩

theorem wellFormed_withMaps (p : Program) (i o : List (String × Nat)) (h : p.WellFormed) :
    Program.WellFormed { p with inputs := i, outputs := o } :=
  ⟨⟨h.consistent.sym, h.consistent.src, h.consistent.snk, h.consistent.fresh⟩, h.sets⟩

theorem rawRescale_wellFormed : rawRescale.WellFormed := by
  unfold rawRescale
  apply wellFormed_withMaps
  apply wellFormed_setAttribute
  apply wellFormed_setAttribute
  apply wellFormed_setAttribute
  apply wellFormed_setAttribute
  exact run_wellFormed "rawRescale" 8 _ _ (run_eq_foldl _ _ (by decide!))

theorem rawRescale_acyclic : rawRescale.Acyclic := by
  refine ⟨fun x => x, ?_⟩
  intro t o ho
  have hlt := (rawRescale_wellFormed.consistent.operand_lt ho).1
  have hb : ∀ t, t < rawRescale.nextTermIndex → ∀ o ∈ rawRescale.operands t, o < t := by
    decide!
  exact hb t hlt o ho


/-! ## Claim C8 -/

/-- C8 as stated fails: in `out = x * Encode(Rescale(r, 40))` with `r` a `Raw`
input (types as `TypeDeducer` gives them), the forward pass of the selector
leaves the `Cipher` `Mul` (term 4) with the empty chain, although the operand
path `r, Rescale, Encode, Mul` from the source `r` contains one `Rescale`
term; so the chain of the `Mul` is not the divisor sequence of a path from a
source with the largest number of `Rescale` terms. -/
theorem selector_chain_ignores_raw_rescale :
    (deduceTypes 6 rawRescale).map (fun ty => (List.range 6).map ty)
      = some ((List.range 6).map rawRescaleTypes) ∧
    ∃ st, forwardPass EncryptionParametersSelector.rewriter 6
        (EncryptionParametersSelector.init rawRescale (fun _ => some 30) rawRescaleTypes)
          = some st ∧
      st.env.types 4 = TermType.Cipher ∧ st.env.program.op 4 = Op.Mul ∧
      st.env.terms 4 = [] ∧ SourcePath st.env.program [1, 2, 3, 4] 4 ∧
      rescaleTermsOn st.env.program [1, 2, 3, 4] = [2] ∧
      ¬ st.env.ChainOfLongestPath 4 := by
  refine ⟨by decide!, ?_⟩
  obtain ⟨st, h1, hp, hty, _⟩ := selector_pass_spec rawRescale rawRescaleTypes
    (fun _ => some 30) rawRescale_wellFormed rawRescale_acyclic (by decide!) 6 (by decide!)
  have hterms : st.env.terms 4 = [] := by
    have h : (forwardPass EncryptionParametersSelector.rewriter 6
        (EncryptionParametersSelector.init rawRescale (fun _ => some 30) rawRescaleTypes)).map
          (fun s => s.env.terms 4) = some [] := by decide!
    rw [h1] at h
    simpa using h
  have hsp : SourcePath rawRescale [1, 2, 3, 4] 4 :=
    ⟨by
      unfold OperandPath
      simp only [List.chain'_cons, List.chain'_singleton, and_true]
      decide!, ⟨1, by decide!, rfl⟩, rfl⟩
  have hres : rescaleTermsOn rawRescale [1, 2, 3, 4] = [2] := by decide!
  refine ⟨st, h1, by rw [hty]; decide!, by rw [hp]; decide!, hterms, by rw [hp]; exact hsp,
    by rw [hp]; exact hres, ?_⟩
  rintro ⟨path, _, heq, hmax⟩
  have h2 := hmax [1, 2, 3, 4] (by rw [hp]; exact hsp)
  rw [hterms] at heq
  have hl : (rescaleTermsOn st.env.program path).length = 0 := by
    have := congrArg List.length heq
    simpa using this.symm
  rw [hp] at h2 hl
  rw [hres, hl] at h2
  simp at h2

/-- C8 (amended): over a well-formed acyclic program in which every non-`Raw`
`Rescale` term has an operand and a `RescaleDivisorAttribute`, the forward pass
of `EncryptionParametersSelector` returns, and for every term `t` that is
neither `Raw` nor an `Encode` the chain `terms t` is the sequence of divisors,
in path order, of the `Rescale` terms that come after the last `Raw` or
`Encode` term on an operand path from a source to `t`, for a path on which the
number of such `Rescale` terms is the largest; and, when the program has
outputs that all carry a `RangeAttribute`, `getEncryptionParameters` returns
the top primes, then the reverse of the chain of an output whose chain is of
the largest length among the outputs, then the key prime. -/
theorem selector_chain_is_longest_counted_path (p : Program) (types : Nat → TermType)
    (scales : TermMapOptional) (hwf : p.WellFormed) (hac : p.Acyclic)
    (hresc : ∀ t, t < p.nextTermIndex → p.op t = Op.Rescale → types t ≠ TermType.Raw →
      p.operands t ≠ [] ∧ (rescaleDivisorOf p t).isSome)
    (hrange : ∀ e ∈ p.outputs,
      (AttributeList.getUInt32 (p.attributes e.2) RangeAttribute).isSome)
    (hout : p.outputs ≠ []) (fuel : Nat) (hfuel : p.nextTermIndex ≤ fuel) :
    ∃ st, forwardPass EncryptionParametersSelector.rewriter fuel
        (EncryptionParametersSelector.init p scales types) = some st ∧
      (∀ t, t < p.nextTermIndex → types t ≠ TermType.Raw → p.op t ≠ Op.Encode →
        ChainOfLongestCounted p types st.env.terms t) ∧
      ∃ e ∈ p.outputs,
        (∀ e1 ∈ p.outputs, (st.env.terms e1.2).length ≤ (st.env.terms e.2).length) ∧
        st.env.getEncryptionParameters = some
          (st.env.specTopPrimes ++ (st.env.terms e.2).reverse ++ [st.env.specKeyPrime]) := by
  obtain ⟨st, h1, hp, _, hgood⟩ := selector_pass_spec p types scales hwf hac hresc fuel hfuel
  refine ⟨st, h1, fun t ht _ _ => hgood t ht, ?_⟩
  obtain ⟨e, he, hmax, hmid⟩ := middlePrimes_spec st.env (by rw [hp]; exact hout)
  rw [hp] at he hmax
  refine ⟨e, he, hmax, ?_⟩
  rw [getEncryptionParameters_eq st.env (by rw [hp]; exact hrange), hmid]
  unfold EncryptionParametersSelector.specTopPrimes EncryptionParametersSelector.specKeyPrime
  by_cases hS : st.env.specMaxOutputSize ≤ 60
  · simp only [if_pos hS]
  · simp only [if_neg hS]

theorem twoRescales_wellFormed : twoRescales.WellFormed := by
  unfold twoRescales
  apply wellFormed_withMaps
  apply wellFormed_setAttribute
  apply wellFormed_setAttribute
  apply wellFormed_setAttribute
  apply wellFormed_setAttribute
  apply wellFormed_setAttribute
  exact run_wellFormed "twoRescales" 8 _ _ (run_eq_foldl _ _ (by decide!))

theorem twoRescales_acyclic : twoRescales.Acyclic := by
  refine ⟨fun x => x, ?_⟩
  intro t o ho
  have hlt := (twoRescales_wellFormed.consistent.operand_lt ho).1
  have hb : ∀ t, t < twoRescales.nextTermIndex → ∀ o ∈ twoRescales.operands t, o < t := by
    decide!
  exact hb t hlt o ho

/-- Witness of C8 (amended): the pass over `twoRescales`, whose terms are all
`Cipher`, with `short = Rescale(x, 40)` and
`out = Rescale(x, 40) * Rescale(Rescale(x, 40), 30)`.  The `Mul` (term 3) has
the operand paths `x, 1, 3` with one `Rescale` and `x, 1, 2, 3` with two: its
chain is `[40, 30]`, the divisors of the terms 1 and 2 in path order.  The
output `short` has the chain `[40]` and the output `out` the longer chain
`[40, 30]`, and `getEncryptionParameters` returns `[40, 30, 40, 40]` for scale
30 and range 10: the top prime 40, the chain of `out` reversed, the key prime
40. -/
theorem selector_chain_is_longest_counted_path_witness :
    (forwardPass EncryptionParametersSelector.rewriter 6
        (EncryptionParametersSelector.init twoRescales (fun _ => some 30) twoRescalesTypes)).map
      (fun st => ((List.range 6).map st.env.terms, st.env.getEncryptionParameters))
      = some ([[], [40], [40, 30], [40, 30], [40, 30], [40]], some [40, 30, 40, 40]) ∧
    (deduceTypes 6 twoRescales).map (fun types => (List.range 6).map types)
      = some ((List.range 6).map twoRescalesTypes) ∧
    (twoRescales.op 1 = Op.Rescale ∧ twoRescales.op 2 = Op.Rescale ∧
      twoRescalesTypes 1 ≠ TermType.Raw ∧ twoRescalesTypes 2 ≠ TermType.Raw) ∧
    (chainTermsOn twoRescales twoRescalesTypes [0, 1, 3] = [1] ∧
      chainTermsOn twoRescales twoRescalesTypes [0, 1, 2, 3] = [1, 2] ∧
      [1, 2].map (rescaleDivisorOf twoRescales) = [some 40, some 30]) ∧
    ∃ st, forwardPass EncryptionParametersSelector.rewriter 6
        (EncryptionParametersSelector.init twoRescales (fun _ => some 30) twoRescalesTypes)
          = some st ∧
      (∀ t, t < twoRescales.nextTermIndex → twoRescalesTypes t ≠ TermType.Raw →
        twoRescales.op t ≠ Op.Encode →
        ChainOfLongestCounted twoRescales twoRescalesTypes st.env.terms t) ∧
      ∃ e ∈ twoRescales.outputs,
        (∀ e1 ∈ twoRescales.outputs,
          (st.env.terms e1.2).length ≤ (st.env.terms e.2).length) ∧
        st.env.getEncryptionParameters = some
          (st.env.specTopPrimes ++ (st.env.terms e.2).reverse ++ [st.env.specKeyPrime]) :=
  ⟨by decide!, by decide!, by decide!, by decide!,
   selector_chain_is_longest_counted_path twoRescales twoRescalesTypes (fun _ => some 30)
     twoRescales_wellFormed twoRescales_acyclic (by decide!) (by decide!) (by decide!) 6
     (by decide!)⟩


/-! ## The traversal under a rewriter that modifies the graph -/

theorem foldl_pushSucc_congr (isForward : Bool) (q p : Program) (processed : Nat → Bool)
    (l : List Nat) : ∀ acc : List Nat × (Nat → Bool),
    (∀ s ∈ l, acc.2 s = false →
      arePredecessorsDone isForward q processed s = arePredecessorsDone isForward p processed s) →
    l.foldl (pushSucc isForward q processed) acc = l.foldl (pushSucc isForward p processed) acc := by
  induction l with
  | nil => intro acc _; rfl
  | cons a l ih =>
    intro acc h
    have hstep : pushSucc isForward q processed acc a = pushSucc isForward p processed acc a := by
      unfold pushSucc
      by_cases hr : acc.2 a = true
      · simp [hr]
      · have hr1 : acc.2 a = false := by simpa using hr
        rw [h a (by simp) hr1]
    simp only [List.foldl_cons, hstep]
    apply ih
    intro s hs hf
    apply h s (by simp [hs])
    unfold pushSucc at hf
    split at hf
    · simp only [Function.update_apply] at hf
      split at hf
      · exact Bool.noConfusion hf
      · exact hf
    · exact hf

/-- One iteration of the loop under `R` is the iteration under `R` read
against the starting graph. -/
theorem traverseVisit_over {σ : Type} (isForward : Bool) (R : Rewriter σ) (p0 : Program)
    (J : σ → List Nat → Prop)
    (hR : ∀ env1 visited term, J env1 visited → term ∉ visited → term < p0.nextTermIndex →
      (∀ o ∈ predecessors isForward p0 term, o ∈ visited) →
      ∃ env2, R.rewrite env1 term = some env2 ∧ J env2 (visited ++ [term]))
    (hsim : ∀ env1 visited, J env1 visited → Sim isForward p0 (R.program env1) visited)
    (hd : DirFacts isForward p0) (st : TraversalState σ) (term : Nat) (rest : List Nat)
    (hst : TraversalInv isForward (R.over p0) p0 st) (hJ : J st.env st.visited)
    (hrn : st.readyNodes = term :: rest) :
    traverseVisit isForward R st term rest = traverseVisit isForward (R.over p0) st term rest := by
  have hterm_ready : st.ready term = true := (hst.ready_iff term).mpr (Or.inl (by simp [hrn]))
  have hterm_unproc : st.processed term = false := hst.rn_unproc term (by simp [hrn])
  have hnotin : term ∉ st.visited := by
    intro h
    have := (hst.proc_iff term).mpr h
    rw [hterm_unproc] at this
    exact Bool.noConfusion this
  have hlt : term < p0.nextTermIndex := (hst.ready_sound term hterm_ready).1
  obtain ⟨s1, hs1, hJ1⟩ := hR st.env st.visited term hJ hnotin hlt
    (fun o ho => (hst.proc_iff o).mp ((hst.ready_sound term hterm_ready).2 o ho))
  have hsim0 := hsim st.env st.visited hJ
  have hsim1 := hsim s1 (st.visited ++ [term]) hJ1
  have hsucc0 : successors isForward (R.program st.env) term = successors isForward p0 term :=
    hsim0.succ term hlt (fun h => hnotin (List.mem_of_mem_dropLast h))
  have hsucc1 : successors isForward (R.program s1) term = successors isForward p0 term :=
    hsim1.succ term hlt (by rw [List.dropLast_concat]; exact hnotin)
  have hready_leaf : ∀ x ∈ leaves isForward p0, st.ready x = true := by
    intro x hx
    have := (hd.leaf x).mp hx
    apply hst.ready_complete x this.1
    intro o ho
    rw [this.2] at ho
    simp at ho
  have hleaf0 : (leaves isForward p0).foldl pushLeaf (rest, st.ready) = (rest, st.ready) :=
    foldl_pushLeaf_of_ready _ _ hready_leaf
  have hleaf1 : (leaves isForward (R.program s1)).foldl pushLeaf (rest, st.ready)
      = (rest, st.ready) :=
    foldl_pushLeaf_of_ready _ _ (fun x hx => hready_leaf x (hsim1.leaf x hx))
  have hfold : (successors isForward p0 term ++ successors isForward p0 term).foldl
        (pushSucc isForward (R.program s1) (Function.update st.processed term true))
        (rest, st.ready)
      = (successors isForward p0 term ++ successors isForward p0 term).foldl
        (pushSucc isForward p0 (Function.update st.processed term true)) (rest, st.ready) := by
    apply foldl_pushSucc_congr
    intro s hs hf
    have hs1 : s ∈ successors isForward p0 term := by
      simpa using hs
    have hslt : s < p0.nextTermIndex := (hd.bound s term ((hd.edge term s).mp hs1)).2
    have hsnot : s ∉ st.visited ++ [term] := by
      intro hmem
      rcases List.mem_append.mp hmem with h | h
      · have h2 := (hst.ready_iff s).mpr (Or.inr ((hst.proc_iff s).mpr h))
        have hf1 : st.ready s = false := hf
        rw [hf1] at h2
        exact Bool.noConfusion h2
      · have : s = term := by simpa using h
        subst this
        have hf1 : st.ready s = false := hf
        rw [hf1] at hterm_ready
        exact Bool.noConfusion hterm_ready
    have hp := hsim1.pred s hslt hsnot
    rw [Bool.eq_iff_iff, arePredecessorsDone_iff, arePredecessorsDone_iff]
    constructor
    · intro h o ho
      exact h o ((hp o).mpr ho)
    · intro h o ho
      exact h o ((hp o).mp ho)
  have hs1o : (R.over p0).rewrite st.env term = some s1 := hs1
  simp only [traverseVisit, hs1, hs1o, hsucc0, hsucc1, hleaf1]
  show _ = some _
  have hprog : (R.over p0).program s1 = p0 := rfl
  have hprog0 : (R.over p0).program st.env = p0 := rfl
  simp only [hprog, hprog0, hleaf0, hfold]

/-- A pass of a rewriter that modifies the graph, but keeps what the traversal
sees of it, ends as the pass over the starting graph does: every term of the
starting graph is visited once, predecessors first, and the invariant `J` of
the rewriter holds at the end. -/
theorem traverse_mutating {σ : Type} (isForward : Bool) (R : Rewriter σ) (env : σ)
    (J : σ → List Nat → Prop)
    (hR : ∀ env1 visited term, J env1 visited → term ∉ visited →
      term < (R.program env).nextTermIndex →
      (∀ o ∈ predecessors isForward (R.program env) term, o ∈ visited) →
      ∃ env2, R.rewrite env1 term = some env2 ∧ J env2 (visited ++ [term]))
    (hsim : ∀ env1 visited, J env1 visited →
      Sim isForward (R.program env) (R.program env1) visited)
    (hJ : J env []) (hd : DirFacts isForward (R.program env))
    (hnd : (leaves isForward (R.program env)).Nodup) (fuel : Nat)
    (hfuel : (R.program env).nextTermIndex ≤ fuel) :
    ∃ st, traverse isForward R fuel env = some st ∧ st.readyNodes = [] ∧
      J st.env st.visited ∧
      (∀ t, st.visited.count t = if t < (R.program env).nextTermIndex then 1 else 0) ∧
      (∀ t ∈ st.visited, ∀ o ∈ predecessors isForward (R.program env) t,
        o ∈ st.visited ∧ st.visited.indexOf o < st.visited.indexOf t) := by
  have hR1 : ∀ env1 visited term, (R.over (R.program env)).program env1
        = (R.over (R.program env)).program env → J env1 visited →
      term ∉ visited → term < ((R.over (R.program env)).program env).nextTermIndex →
      (∀ o ∈ predecessors isForward ((R.over (R.program env)).program env) term,
        o ∈ visited) →
      ∃ env2, (R.over (R.program env)).rewrite env1 term = some env2 ∧
        (R.over (R.program env)).program env2 = (R.over (R.program env)).program env ∧
        J env2 (visited ++ [term]) := by
    intro env1 visited term _ hJ1 hnot hlt hpred
    obtain ⟨env2, h1, h2⟩ := hR env1 visited term hJ1 hnot hlt hpred
    exact ⟨env2, h1, rfl, h2⟩
  obtain ⟨st, h1, h2, _, h4, h5, h6⟩ := traverse_spec isForward (R.over (R.program env)) env J
    hR1 hJ hd hnd fuel hfuel
  refine ⟨st, ?_, h2, h4, h5, h6⟩
  rw [← h1]
  have key : ∀ (fuel : Nat) (st : TraversalState σ),
      TraversalInv isForward (R.over (R.program env)) (R.program env) st →
      J st.env st.visited →
      traverseLoop isForward R fuel st
        = traverseLoop isForward (R.over (R.program env)) fuel st := by
    intro fuel
    induction fuel with
    | zero => intro st _ _; rfl
    | succ fuel ih =>
      intro st hst hJst
      cases hrn : st.readyNodes with
      | nil => simp [traverseLoop, hrn]
      | cons term rest =>
        have hR2 : ∀ env1 visited term, (R.over (R.program env)).program env1 = R.program env →
            J env1 visited → term ∉ visited → term < (R.program env).nextTermIndex →
            (∀ o ∈ predecessors isForward (R.program env) term, o ∈ visited) →
            ∃ env2, (R.over (R.program env)).rewrite env1 term = some env2 ∧
              (R.over (R.program env)).program env2 = R.program env ∧
              J env2 (visited ++ [term]) := hR1
        obtain ⟨st1, e1, e2, _, e4⟩ := traverseVisit_inv isForward (R.over (R.program env))
          (R.program env) J hR2 hd st term rest hst hJst hrn
        have heq := traverseVisit_over isForward R (R.program env) J hR hsim hd st term rest
          hst hJst hrn
        simp only [traverseLoop, hrn, heq, e1]
        exact ih st1 e2 e4
  exact key fuel _ (traversalInv_init isForward (R.over (R.program env)) env hd hnd) hJ


/-! ## `ModSwitcher`: the steps inside one call -/

theorem mem_uses_iff {p : Program} (h : p.Consistent) (t o : Nat) :
    t ∈ p.uses o ↔ o ∈ p.operands t := by
  rw [← List.count_pos_iff, ← List.count_pos_iff, h.sym t o]

theorem insertModSwitchNode_spec (st : ModSwitcher) (term lvl : Nat)
    (hwf : st.program.WellFormed) (ht : term < st.program.nextTermIndex) :
    (st.insertModSwitchNode term lvl).1 = st.program.nextTermIndex ∧
    (st.insertModSwitchNode term lvl).2.program.WellFormed ∧
    (st.insertModSwitchNode term lvl).2.program.nextTermIndex = st.program.nextTermIndex + 1 ∧
    (∀ t, (st.insertModSwitchNode term lvl).2.program.operands t
      = if t = st.program.nextTermIndex then [term] else st.program.operands t) ∧
    (∀ t, (st.insertModSwitchNode term lvl).2.program.op t
      = if t = st.program.nextTermIndex then Op.ModSwitch else st.program.op t) ∧
    (∀ t, (st.insertModSwitchNode term lvl).2.program.attributes t
      = if t = st.program.nextTermIndex then [] else st.program.attributes t) ∧
    (st.insertModSwitchNode term lvl).2.type = st.type ∧
    (st.insertModSwitchNode term lvl).2.level
      = Function.update st.level st.program.nextTermIndex lvl := by
  obtain ⟨h1, h2, h3, h4⟩ := makeTerm_consistent st.program Op.ModSwitch [term]
    hwf.consistent (by intro x hx; simp at hx; subst hx; exact ht)
  obtain ⟨h5, h6⟩ := makeTerm_frame st.program Op.ModSwitch [term]
  have h7 := makeTerm_setsNodup st.program Op.ModSwitch [term] hwf.sets
  refine ⟨h2, ⟨h1, h7⟩, h3, h4, h5, h6, rfl, ?_⟩
  show Function.update st.level (st.program.makeTerm Op.ModSwitch [term]).1 lvl = _
  rw [h2]

/-- The body of the loop `while (tempLevel > expectedLevel)` keeps the open
invariant. -/
theorem switchOpen_insert (p0 : Program) (types : Nat → TermType) (lv : Nat → Nat)
    (st : ModSwitcher) (visited : List Nat) (x temp T k0 : Nat) (pend : List Nat)
    (h : SwitchOpen p0 types lv st visited x temp (T + 1) k0 pend)
    (hne : pend ≠ []) (hlt : ∀ u ∈ pend, lv u < T + 1) :
    SwitchOpen p0 types lv (st.insertModSwitchNode temp (T + 1)).2 visited x
      (st.insertModSwitchNode temp (T + 1)).1 T k0 pend := by
  obtain ⟨e1, e2, e3, e4, e5, e6, e7, e8⟩ :=
    insertModSwitchNode_spec st temp (T + 1) h.wf h.temp_lt
  have hn0 := h.next_le
  have hbound : ∀ {t o : Nat}, o ∈ st.program.operands t →
      t < st.program.nextTermIndex ∧ o < st.program.nextTermIndex :=
    fun ho => h.wf.consistent.operand_lt ho
  have hfresh : st.program.operands st.program.nextTermIndex = [] :=
    (h.wf.consistent.fresh _ (le_refl _)).1
  have hmem : ∀ t o, o ∈ (st.insertModSwitchNode temp (T + 1)).2.program.operands t ↔
      (t = st.program.nextTermIndex ∧ o = temp) ∨
      (t ≠ st.program.nextTermIndex ∧ o ∈ st.program.operands t) := by
    intro t o
    rw [e4 t]
    by_cases ht : t = st.program.nextTermIndex
    · simp [ht]
    · simp [ht]
  have hmem_ne : ∀ s, s ≠ temp → ∀ t,
      (s ∈ (st.insertModSwitchNode temp (T + 1)).2.program.operands t ↔
        s ∈ st.program.operands t) := by
    intro s hs t
    rw [hmem]
    constructor
    · rintro (⟨_, h2⟩ | ⟨_, h2⟩)
      · exact absurd h2 hs
      · exact h2
    · intro h2
      exact Or.inr ⟨fun ht => by rw [ht, hfresh] at h2; simp at h2, h2⟩
  have hlev : ∀ y, y ≠ st.program.nextTermIndex →
      (st.insertModSwitchNode temp (T + 1)).2.level y = st.level y := by
    intro y hy
    rw [e8, Function.update_noteq hy]
  have hlevn : (st.insertModSwitchNode temp (T + 1)).2.level st.program.nextTermIndex
      = T + 1 := by
    rw [e8, Function.update_same]
  have htemp_old : ∀ s, s < p0.nextTermIndex → s ≠ x → s ≠ temp := by
    intro s hs hsx hst
    rcases h.temp_cases with ⟨h1, _⟩ | ⟨h1, _⟩
    · exact hsx (hst.trans h1)
    · omega
  have hxlt := h.x_lt
  have htlt := h.temp_lt
  rw [e1]
  refine ⟨e2, e7.trans h.type_eq, by omega, h.vis_nodup, h.vis_lt, h.vis_closed, h.x_lt, h.x_new,
    by omega, Or.inr ⟨hn0, hlevn⟩, ?_, ?_, ?_, ?_, h.x_use0, ?_, ?_, ?_, ?_, ?_, ?_, ?_, ?_, ?_,
    h.k0_le, by have := h.T_le; omega, ?_⟩
  · -- op_old
    intro t ht
    have hne1 : t ≠ st.program.nextTermIndex := by omega
    rw [e5, e6, if_neg hne1, if_neg hne1]
    exact h.op_old t ht
  · -- ops_unvisited
    intro t ht hv
    have hne1 : t ≠ st.program.nextTermIndex := by omega
    rw [e4, if_neg hne1]
    exact h.ops_unvisited t ht hv
  · -- uses_unvisited
    intro s hs hv hsx t
    rw [hmem_ne s (htemp_old s hs hsx) t]
    exact h.uses_unvisited s hs hv hsx t
  · -- has_use
    intro y hy hyx
    rw [← h.has_use y hy hyx]
    constructor
    · rintro ⟨t, ht⟩
      exact ⟨t, (hmem_ne y (htemp_old y hy hyx) t).mp ht⟩
    · rintro ⟨t, ht⟩
      exact ⟨t, (hmem_ne y (htemp_old y hy hyx) t).mpr ht⟩
  · -- x_use
    obtain ⟨t, ht, hl⟩ := h.x_use
    have hne1 : t ≠ st.program.nextTermIndex := by have := (hbound ht).1; omega
    exact ⟨t, (hmem t x).mpr (Or.inr ⟨hne1, ht⟩), by rw [hlev t hne1]; exact hl⟩
  · -- base
    obtain ⟨base, b1, b2, b3, b4⟩ := h.base
    refine ⟨Function.update base st.program.nextTermIndex (base temp), ?_, ?_, ?_, ?_⟩
    · intro t ht
      rw [Function.update_noteq (by omega)]
      exact b1 t ht
    · intro t ht
      have hne1 : t ≠ st.program.nextTermIndex := by omega
      rw [e4, if_neg hne1, ← b2 t ht]
      apply List.map_congr_left
      intro o ho
      rw [Function.update_noteq (by have := (hbound ho).2; omega)]
    · intro m hm1 hm2
      by_cases hmn : m = st.program.nextTermIndex
      · subst hmn
        refine ⟨temp, by rw [e4, if_pos rfl], ?_⟩
        rw [Function.update_same, Function.update_noteq (by omega)]
      · obtain ⟨prev, hp1, hp2⟩ := b3 m hm1 (by omega)
        refine ⟨prev, by rw [e4, if_neg hmn]; exact hp1, ?_⟩
        have hprev : prev < st.program.nextTermIndex :=
          (hbound (t := m) (o := prev) (by rw [hp1]; simp)).2
        rw [Function.update_noteq hmn, Function.update_noteq (by omega)]
        exact hp2
    · rw [Function.update_same]
      exact b4
  · -- new_node
    intro m hm1 hm2
    by_cases hmn : m = st.program.nextTermIndex
    · subst hmn
      refine ⟨by rw [e5, if_pos rfl], ?_, fun hc => absurd rfl hc⟩
      intro t ht
      exfalso
      rcases (hmem t _).mp ht with ⟨_, h2⟩ | ⟨_, h2⟩
      · omega
      · have := (hbound h2).2
        omega
    · obtain ⟨n1, n2, n3⟩ := h.new_node m hm1 (by omega)
      refine ⟨by rw [e5, if_neg hmn]; exact n1, ?_, ?_⟩
      · intro t ht
        rcases (hmem t m).mp ht with ⟨h1, h2⟩ | ⟨h1, h2⟩
        · rw [h1, hlevn, hlev m hmn, h2]
          rcases h.temp_cases with ⟨c1, _⟩ | ⟨_, c2⟩
          · omega
          · exact c2.symm
        · rw [hlev t h1, hlev m hmn]
          exact n2 t h2
      · intro _
        by_cases hmt : m = temp
        · exact ⟨st.program.nextTermIndex, (hmem _ _).mpr (Or.inl ⟨rfl, hmt⟩)⟩
        · obtain ⟨t, ht⟩ := n3 hmt
          exact ⟨t, (hmem_ne m hmt t).mpr ht⟩
  · -- temp_use
    intro _
    exact Or.inr hne
  · -- temp_uses
    intro _ t ht
    exfalso
    rcases (hmem t _).mp ht with ⟨_, h2⟩ | ⟨_, h2⟩
    · omega
    · have := (hbound h2).2
      omega
  · -- x_uses
    intro t ht
    rcases (hmem t x).mp ht with ⟨h1, h2⟩ | ⟨h1, h2⟩
    · left
      rw [h1, hlevn]
      rcases h.temp_cases with ⟨_, c2⟩ | ⟨c1, _⟩
      · exact c2
      · omega
    · rw [hlev t h1]
      exact h.x_uses t h2
  · -- closed
    intro y hy hty t ht
    have hylt := h.vis_lt y hy
    rcases (hmem t y).mp ht with ⟨_, h2⟩ | ⟨h1, h2⟩
    · exfalso
      rcases h.temp_cases with ⟨c1, _⟩ | ⟨c1, _⟩
      · exact h.x_new (by rw [← c1, ← h2]; exact hy)
      · omega
    · rw [hlev t h1, hlev y (by omega)]
      exact h.closed y hy hty t h2
  · -- pend_ok
    intro u hu
    obtain ⟨p1, p2, p3, _, p5⟩ := h.pend_ok u hu
    have hult := h.vis_lt u p1
    have hune : u ≠ st.program.nextTermIndex := by omega
    have hlt1 := hlt u hu
    refine ⟨p1, by rw [hlev u hune]; exact p2, p3, by omega, ?_⟩
    rcases p5 with p5 | ⟨_, _, p5⟩
    · exact Or.inl ((hmem u x).mpr (Or.inr ⟨hune, p5⟩))
    · omega
  · -- level_le
    intro y
    by_cases hy : y = st.program.nextTermIndex
    · rw [hy, hlevn]
      have := h.T_le
      have := h.k0_le
      omega
    · rw [hlev y hy]
      exact h.level_le y
  · -- rank
    obtain ⟨r, r1, r2⟩ := h.rank
    refine ⟨fun y => if y = st.program.nextTermIndex then 2 * r temp + 1 else 2 * r y, ?_, ?_⟩
    · intro t o ho
      rcases (hmem t o).mp ho with ⟨h1, h2⟩ | ⟨h1, h2⟩
      · subst h1; subst h2
        simp only [if_true]
        rw [if_neg (by omega)]
        omega
      · have hob := (hbound h2).2
        simp only [if_neg h1]
        rw [if_neg (by omega)]
        have := r1 t o h2
        omega
    · intro u hu
      have hult := h.vis_lt u (h.pend_ok u hu).1
      simp only [if_true]
      rw [if_neg (by omega)]
      have := r2 u hu
      omega

/-- One `use->replaceOperand(term, temp)` of the loop over a level group keeps
the open invariant, and leaves `temp` with a use. -/
theorem switchOpen_replace (p0 : Program) (types : Nat → TermType) (lv : Nat → Nat)
    (st : ModSwitcher) (visited : List Nat) (x temp T k0 u : Nat) (pend : List Nat)
    (h : SwitchOpen p0 types lv st visited x temp T k0 (u :: pend)) (hu : lv u = T) :
    SwitchOpen p0 types lv
      { st with program := (Term.replaceOperand st.program u x temp).2 }
      visited x temp T k0 pend := by
  obtain ⟨pu1, pu2, pu3, _, pu5⟩ := h.pend_ok u (by simp)
  have hTlt : T < k0 := by omega
  have hn0 := h.next_le
  have hxlt := h.x_lt
  have hult := h.vis_lt u pu1
  obtain ⟨htn0, htlev⟩ : p0.nextTermIndex ≤ temp ∧ st.level temp = T + 1 := by
    rcases h.temp_cases with ⟨_, c2⟩ | c
    · omega
    · exact c
  have htx : temp ≠ x := by omega
  obtain ⟨e1, e2⟩ := replaceOperand_consistent st.program u x temp h.wf.consistent
    (by omega) (by omega) h.temp_lt
  have e3 := replaceOperand_setsNodup st.program u x temp h.wf.sets
  obtain ⟨e4, e5, e6⟩ := replaceOperand_spec st.program u x temp
  have hmem : ∀ t o, o ∈ (Term.replaceOperand st.program u x temp).2.operands t ↔
      (t = u ∧ ((o = temp ∧ x ∈ st.program.operands u) ∨
        (o ≠ x ∧ o ∈ st.program.operands u))) ∨
      (t ≠ u ∧ o ∈ st.program.operands t) := by
    intro t o
    rw [e4 t]
    by_cases ht : t = u
    · subst ht
      simp only [if_true, List.mem_map, true_and, ne_eq, not_true_eq_false, false_and, or_false]
      constructor
      · rintro ⟨y, hy, hyo⟩
        by_cases hyx : y = x
        · rw [if_pos hyx] at hyo
          subst hyx
          exact Or.inl ⟨hyo.symm, hy⟩
        · rw [if_neg hyx] at hyo
          subst hyo
          exact Or.inr ⟨hyx, hy⟩
      · rintro (⟨rfl, hx⟩ | ⟨hox, ho⟩)
        · exact ⟨x, hx, by simp⟩
        · exact ⟨o, ho, by simp [hox]⟩
    · simp [ht]
  have hmem_ne : ∀ s, s ≠ x → s ≠ temp → ∀ t,
      (s ∈ (Term.replaceOperand st.program u x temp).2.operands t ↔
        s ∈ st.program.operands t) := by
    intro s hsx hst t
    rw [hmem]
    constructor
    · rintro (⟨rfl, ⟨h1, _⟩ | ⟨_, h2⟩⟩ | ⟨_, h2⟩)
      · exact absurd h1 hst
      · exact h2
      · exact h2
    · intro h2
      by_cases ht : t = u
      · subst ht
        exact Or.inl ⟨rfl, Or.inr ⟨hsx, h2⟩⟩
      · exact Or.inr ⟨ht, h2⟩
  have htemp_in : temp ∈ (Term.replaceOperand st.program u x temp).2.operands u := by
    rw [hmem]
    left
    refine ⟨rfl, ?_⟩
    rcases pu5 with p | ⟨_, p, _⟩
    · exact Or.inl ⟨rfl, p⟩
    · exact Or.inr ⟨htx, p⟩
  refine ⟨⟨e1, e3⟩, h.type_eq, by rw [e2]; exact hn0, h.vis_nodup, h.vis_lt, h.vis_closed,
    h.x_lt, h.x_new, by rw [e2]; exact h.temp_lt, h.temp_cases, ?_, ?_, ?_, ?_, h.x_use0, ?_, ?_,
    ?_, ?_, ?_, ?_, ?_, ?_, h.level_le, h.k0_le, h.T_le, ?_⟩
  · -- op_old
    intro t ht
    show (Term.replaceOperand st.program u x temp).2.op t = _ ∧
      (Term.replaceOperand st.program u x temp).2.attributes t = _
    rw [e5, e6]
    exact h.op_old t ht
  · -- ops_unvisited
    intro t ht hv
    show (Term.replaceOperand st.program u x temp).2.operands t = _
    have hne1 : t ≠ u := fun hc => hv (hc ▸ pu1)
    rw [e4, if_neg hne1]
    exact h.ops_unvisited t ht hv
  · -- uses_unvisited
    intro s hs hv hsx t
    show s ∈ (Term.replaceOperand st.program u x temp).2.operands t ↔ _
    rw [hmem_ne s hsx (by omega) t]
    exact h.uses_unvisited s hs hv hsx t
  · -- has_use
    intro y hy hyx
    rw [← h.has_use y hy hyx]
    constructor
    · rintro ⟨t, ht⟩
      exact ⟨t, (hmem_ne y hyx (by omega) t).mp ht⟩
    · rintro ⟨t, ht⟩
      exact ⟨t, (hmem_ne y hyx (by omega) t).mpr ht⟩
  · -- x_use
    obtain ⟨t, ht, hl⟩ := h.x_use
    have hne1 : t ≠ u := by
      intro hc
      rw [hc, pu2] at hl
      omega
    exact ⟨t, (hmem t x).mpr (Or.inr ⟨hne1, ht⟩), hl⟩
  · -- base
    obtain ⟨base, b1, b2, b3, b4⟩ := h.base
    refine ⟨base, b1, ?_, ?_, b4⟩
    · intro t ht
      show ((Term.replaceOperand st.program u x temp).2.operands t).map base = _
      rw [e4]
      by_cases htu : t = u
      · subst htu
        rw [if_pos rfl, List.map_map, ← b2 t ht]
        apply List.map_congr_left
        intro o _
        simp only [Function.comp]
        by_cases hox : o = x
        · rw [if_pos hox, b4, hox, b1 x hxlt]
        · rw [if_neg hox]
      · rw [if_neg htu]
        exact b2 t ht
    · intro m hm1 hm2
      have hm3 : m < st.program.nextTermIndex := by rw [e2] at hm2; exact hm2
      obtain ⟨prev, hp1, hp2⟩ := b3 m hm1 hm3
      refine ⟨prev, ?_, hp2⟩
      show (Term.replaceOperand st.program u x temp).2.operands m = _
      rw [e4, if_neg (by omega)]
      exact hp1
  · -- new_node
    intro m hm1 hm2
    have hm3 : m < st.program.nextTermIndex := by rw [e2] at hm2; exact hm2
    obtain ⟨n1, n2, n3⟩ := h.new_node m hm1 hm3
    refine ⟨by show (Term.replaceOperand st.program u x temp).2.op m = _; rw [e5]; exact n1,
      ?_, ?_⟩
    · intro t ht
      rcases (hmem t m).mp ht with ⟨rfl, ⟨h1, _⟩ | ⟨_, h2⟩⟩ | ⟨_, h2⟩
      · show st.level t + 1 = st.level m
        rw [h1, htlev, pu2, hu]
      · exact n2 t h2
      · exact n2 t h2
    · intro hmt
      obtain ⟨t, ht⟩ := n3 hmt
      exact ⟨t, (hmem_ne m (by omega) hmt t).mpr ht⟩
  · -- temp_use
    intro _
    exact Or.inl ⟨u, htemp_in⟩
  · -- temp_uses
    intro _ t ht
    rcases (hmem t temp).mp ht with ⟨rfl, _⟩ | ⟨_, h2⟩
    · show st.level t = T
      rw [pu2, hu]
    · exact h.temp_uses htx t h2
  · -- x_uses
    intro t ht
    rcases (hmem t x).mp ht with ⟨_, ⟨h1, _⟩ | ⟨h1, _⟩⟩ | ⟨h1, h2⟩
    · exact absurd h1.symm htx
    · exact absurd rfl h1
    · rcases h.x_uses t h2 with h3 | h3
      · exact Or.inl h3
      · rcases List.mem_cons.mp h3 with h4 | h4
        · exact absurd h4 h1
        · exact Or.inr h4
  · -- closed
    intro y hy hty t ht
    have hylt := h.vis_lt y hy
    rcases (hmem t y).mp ht with ⟨_, ⟨h1, _⟩ | ⟨_, h2⟩⟩ | ⟨_, h2⟩
    · omega
    · subst_vars
      exact h.closed y hy hty _ h2
    · exact h.closed y hy hty t h2
  · -- pend_ok
    intro u1 hu1
    obtain ⟨p1, p2, p3, p4, p5⟩ := h.pend_ok u1 (List.mem_cons_of_mem _ hu1)
    refine ⟨p1, p2, p3, p4, ?_⟩
    by_cases hc : u1 = u
    · subst hc
      exact Or.inr ⟨htx, htemp_in, hu⟩
    · rcases p5 with p5 | ⟨q1, q2, q3⟩
      · exact Or.inl ((hmem u1 x).mpr (Or.inr ⟨hc, p5⟩))
      · exact Or.inr ⟨q1, (hmem u1 temp).mpr (Or.inr ⟨hc, q2⟩), q3⟩
  · -- rank
    obtain ⟨r, r1, r2⟩ := h.rank
    refine ⟨r, ?_, fun u1 hu1 => r2 u1 (List.mem_cons_of_mem _ hu1)⟩
    intro t o ho
    rcases (hmem t o).mp ho with ⟨rfl, ⟨h1, _⟩ | ⟨_, h2⟩⟩ | ⟨_, h2⟩
    · rw [h1]
      exact r2 t (by simp)
    · exact r1 t o h2
    · exact r1 t o h2

/-- The loop `while (tempLevel > expectedLevel)` ends at `expectedLevel` and
keeps the open invariant. -/
theorem chainLoop_spec (p0 : Program) (types : Nat → TermType) (lv : Nat → Nat)
    (visited : List Nat) (x k0 : Nat) (pend : List Nat) (expected : Nat) (hne : pend ≠ [])
    (hexp : ∀ u ∈ pend, lv u ≤ expected) :
    ∀ (T : Nat) (st : ModSwitcher) (temp : Nat),
      SwitchOpen p0 types lv st visited x temp T k0 pend → expected ≤ T →
      SwitchOpen p0 types lv (ModSwitcher.chainLoop expected T st temp).2.2 visited x
        (ModSwitcher.chainLoop expected T st temp).1 expected k0 pend := by
  intro T
  induction T with
  | zero =>
    intro st temp h hle
    have : expected = 0 := by omega
    subst this
    exact h
  | succ T ih =>
    intro st temp h hle
    by_cases hgt : T + 1 > expected
    · have hunf : ModSwitcher.chainLoop expected (T + 1) st temp
          = ModSwitcher.chainLoop expected T (st.insertModSwitchNode temp (T + 1)).2
              (st.insertModSwitchNode temp (T + 1)).1 := by
        simp only [ModSwitcher.chainLoop, if_pos hgt]
      rw [hunf]
      apply ih
      · exact switchOpen_insert p0 types lv st visited x temp T k0 pend h hne
          (fun u hu => by have := hexp u hu; omega)
      · omega
    · have hunf : ModSwitcher.chainLoop expected (T + 1) st temp = (temp, T + 1, st) := by
        simp only [ModSwitcher.chainLoop, if_neg hgt]
      rw [hunf]
      have : expected = T + 1 := by omega
      subst this
      exact h

/-- The loop over the uses of one level group keeps the open invariant. -/
theorem replaceFold_spec (p0 : Program) (types : Nat → TermType) (lv : Nat → Nat)
    (visited : List Nat) (x temp T k0 : Nat) (pend : List Nat) :
    ∀ (g : List Nat) (st : ModSwitcher),
      SwitchOpen p0 types lv st visited x temp T k0 (g ++ pend) → (∀ u ∈ g, lv u = T) →
      SwitchOpen p0 types lv
        (g.foldl (fun s use =>
          { s with program := (Term.replaceOperand s.program use x temp).2 }) st)
        visited x temp T k0 pend := by
  intro g
  induction g with
  | nil => intro st h _; exact h
  | cons u g ih =>
    intro st h hg
    simp only [List.foldl_cons]
    apply ih
    · exact switchOpen_replace p0 types lv st visited x temp T k0 u (g ++ pend) h
        (hg u (by simp))
    · intro u1 hu1
      exact hg u1 (by simp [hu1])

/-- The loop over the level groups below the largest level ends with nothing
pending. -/
theorem groupLoop_spec (p0 : Program) (types : Nat → TermType) (lv : Nat → Nat)
    (visited : List Nat) (x k0 : Nat) :
    ∀ (rest : List (Nat × List Nat)) (st : ModSwitcher) (temp T : Nat),
      SwitchOpen p0 types lv st visited x temp T k0 (rest.map Prod.snd).flatten →
      rest.Pairwise (fun a b => b.1 < a.1) →
      (∀ e ∈ rest, e.1 < T ∧ e.2 ≠ [] ∧ ∀ u ∈ e.2, lv u = e.1) →
      ∃ temp1 T1, SwitchOpen p0 types lv (ModSwitcher.groupLoop x rest st temp T) visited x
        temp1 T1 k0 [] := by
  intro rest
  induction rest with
  | nil =>
    intro st temp T h _ _
    exact ⟨temp, T, h⟩
  | cons e rest ih =>
    intro st temp T h hpw hg
    obtain ⟨expected, g⟩ := e
    obtain ⟨hlt, hgne, hglv⟩ := hg (expected, g) (by simp)
    have hpw1 := List.pairwise_cons.mp hpw
    have hpend : (((expected, g) :: rest).map Prod.snd).flatten
        = g ++ (rest.map Prod.snd).flatten := by simp
    rw [hpend] at h
    have hpne : g ++ (rest.map Prod.snd).flatten ≠ [] := by
      intro hc
      exact hgne (List.append_eq_nil.mp hc).1
    have hexp : ∀ u ∈ g ++ (rest.map Prod.snd).flatten, lv u ≤ expected := by
      intro u hu
      rcases List.mem_append.mp hu with hu | hu
      · exact le_of_eq (hglv u hu)
      · obtain ⟨l, hl, hul⟩ := List.mem_flatten.mp hu
        obtain ⟨e1, he1, rfl⟩ := List.mem_map.mp hl
        have h1 := hpw1.1 e1 he1
        have h2 := (hg e1 (List.mem_cons_of_mem _ he1)).2.2 u hul
        simp only at h1
        omega
    have h1 := chainLoop_spec p0 types lv visited x k0 _ expected hpne hexp T st temp h
      (by simp only at hlt; omega)
    have h2 := replaceFold_spec p0 types lv visited x _ expected k0 _ g _ h1 hglv
    have hunf : ModSwitcher.groupLoop x ((expected, g) :: rest) st temp T
        = ModSwitcher.groupLoop x rest
            (g.foldl (fun s use =>
              { s with program := (Term.replaceOperand s.program use x
                  (ModSwitcher.chainLoop expected T st temp).1).2 })
              (ModSwitcher.chainLoop expected T st temp).2.2)
            (ModSwitcher.chainLoop expected T st temp).1
            (ModSwitcher.chainLoop expected T st temp).2.1 := rfl
    rw [hunf]
    have hT1 : (ModSwitcher.chainLoop expected T st temp).2.1 = expected := by
      clear h1 h2 hunf h hexp
      have key : ∀ (T : Nat) (st : ModSwitcher) (temp : Nat), expected ≤ T →
          (ModSwitcher.chainLoop expected T st temp).2.1 = expected := by
        intro T
        induction T with
        | zero => intro st temp hle; simp only [ModSwitcher.chainLoop]; omega
        | succ T ih2 =>
          intro st temp hle
          by_cases hgt : T + 1 > expected
          · simp only [ModSwitcher.chainLoop, if_pos hgt]
            exact ih2 _ _ (by omega)
          · simp only [ModSwitcher.chainLoop, if_neg hgt]
            omega
      exact key T st temp (by simp only at hlt; omega)
    rw [hT1]
    apply ih _ _ _ h2 hpw1.2
    intro e1 he1
    have h3 := hg e1 (List.mem_cons_of_mem _ he1)
    exact ⟨hpw1.1 e1 he1, h3.2.1, h3.2.2⟩


/-! ## `ModSwitcher`: the map `useLevels` -/

theorem useLevelsPush_mem (key use : Nat) : ∀ (m : List (Nat × List Nat)),
    ∀ e ∈ useLevelsPush m key use, e ∈ m ∨
      (e.1 = key ∧ use ∈ e.2 ∧ ∀ u ∈ e.2, u = use ∨ ∃ g, (key, g) ∈ m ∧ u ∈ g) := by
  intro m
  induction m with
  | nil =>
    intro e he
    simp only [useLevelsPush, List.mem_singleton] at he
    subst he
    exact Or.inr ⟨rfl, by simp, fun u hu => Or.inl (by simpa using hu)⟩
  | cons a m ih =>
    obtain ⟨k, v⟩ := a
    intro e he
    simp only [useLevelsPush] at he
    by_cases h1 : key < k
    · rw [if_pos h1] at he
      rcases List.mem_cons.mp he with rfl | he
      · exact Or.inr ⟨rfl, by simp, fun u hu => Or.inl (by simpa using hu)⟩
      · exact Or.inl he
    · rw [if_neg h1] at he
      by_cases h2 : key = k
      · rw [if_pos h2] at he
        rcases List.mem_cons.mp he with rfl | he
        · refine Or.inr ⟨h2.symm, by simp, ?_⟩
          intro u hu
          rcases List.mem_append.mp hu with hu | hu
          · exact Or.inr ⟨v, by rw [h2]; simp, hu⟩
          · exact Or.inl (by simpa using hu)
        · exact Or.inl (List.mem_cons_of_mem _ he)
      · rw [if_neg h2] at he
        rcases List.mem_cons.mp he with rfl | he
        · exact Or.inl (by simp)
        · rcases ih e he with h | ⟨h3, h4, h5⟩
          · exact Or.inl (List.mem_cons_of_mem _ h)
          · refine Or.inr ⟨h3, h4, ?_⟩
            intro u hu
            rcases h5 u hu with h6 | ⟨g, hg, hug⟩
            · exact Or.inl h6
            · exact Or.inr ⟨g, List.mem_cons_of_mem _ hg, hug⟩

theorem useLevelsPush_keep (key use : Nat) : ∀ (m : List (Nat × List Nat)),
    ∀ e ∈ m, ∃ e1 ∈ useLevelsPush m key use, e1.1 = e.1 ∧ ∀ u ∈ e.2, u ∈ e1.2 := by
  intro m
  induction m with
  | nil => intro e he; simp at he
  | cons a m ih =>
    obtain ⟨k, v⟩ := a
    intro e he
    simp only [useLevelsPush]
    by_cases h1 : key < k
    · rw [if_pos h1]
      exact ⟨e, List.mem_cons_of_mem _ he, rfl, fun u hu => hu⟩
    · rw [if_neg h1]
      by_cases h2 : key = k
      · rw [if_pos h2]
        rcases List.mem_cons.mp he with rfl | he
        · exact ⟨(k, v ++ [use]), by simp, rfl, fun u hu => by simp [hu]⟩
        · exact ⟨e, List.mem_cons_of_mem _ he, rfl, fun u hu => hu⟩
      · rw [if_neg h2]
        rcases List.mem_cons.mp he with rfl | he
        · exact ⟨(k, v), by simp, rfl, fun u hu => hu⟩
        · obtain ⟨e1, h3, h4, h5⟩ := ih e he
          exact ⟨e1, List.mem_cons_of_mem _ h3, h4, h5⟩

theorem useLevelsPush_has (key use : Nat) : ∀ (m : List (Nat × List Nat)),
    ∃ e1 ∈ useLevelsPush m key use, e1.1 = key ∧ use ∈ e1.2 := by
  intro m
  induction m with
  | nil => exact ⟨(key, [use]), by simp [useLevelsPush], rfl, by simp⟩
  | cons a m ih =>
    obtain ⟨k, v⟩ := a
    simp only [useLevelsPush]
    by_cases h1 : key < k
    · rw [if_pos h1]
      exact ⟨(key, [use]), by simp, rfl, by simp⟩
    · rw [if_neg h1]
      by_cases h2 : key = k
      · rw [if_pos h2]
        exact ⟨(k, v ++ [use]), by simp, h2.symm, by simp⟩
      · rw [if_neg h2]
        obtain ⟨e1, h3, h4, h5⟩ := ih
        exact ⟨e1, List.mem_cons_of_mem _ h3, h4, h5⟩

theorem useLevelsPush_sorted (key use : Nat) : ∀ (m : List (Nat × List Nat)),
    m.Pairwise (fun a b => a.1 < b.1) →
    (useLevelsPush m key use).Pairwise (fun a b => a.1 < b.1) := by
  intro m
  induction m with
  | nil => intro _; simp [useLevelsPush]
  | cons a m ih =>
    obtain ⟨k, v⟩ := a
    intro hp
    have hp1 := List.pairwise_cons.mp hp
    simp only [useLevelsPush]
    by_cases h1 : key < k
    · rw [if_pos h1]
      refine List.pairwise_cons.mpr ⟨?_, hp⟩
      intro b hb
      rcases List.mem_cons.mp hb with rfl | hb
      · exact h1
      · have := hp1.1 b hb
        simp only at this ⊢
        omega
    · rw [if_neg h1]
      by_cases h2 : key = k
      · rw [if_pos h2]
        exact List.pairwise_cons.mpr ⟨fun b hb => hp1.1 b hb, hp1.2⟩
      · rw [if_neg h2]
        refine List.pairwise_cons.mpr ⟨?_, ih hp1.2⟩
        intro b hb
        rcases useLevelsPush_mem key use m b hb with h | ⟨h3, _, _⟩
        · exact hp1.1 b h
        · simp only
          omega

/-- The map `useLevels` built from the uses `U` with levels `f`: the keys
increase strictly, every entry is a non-empty list of uses with the level of
the key, and every use is in the entry of its level. -/
theorem useLevels_spec (f : Nat → Nat) (U : List Nat) :
    (U.foldl (fun m use => useLevelsPush m (f use) use) []).Pairwise (fun a b => a.1 < b.1) ∧
    (∀ e ∈ U.foldl (fun m use => useLevelsPush m (f use) use) [],
      e.2 ≠ [] ∧ ∀ u ∈ e.2, u ∈ U ∧ f u = e.1) ∧
    (∀ u ∈ U, ∃ e ∈ U.foldl (fun m use => useLevelsPush m (f use) use) [],
      e.1 = f u ∧ u ∈ e.2) := by
  have key : ∀ (U : List Nat) (m : List (Nat × List Nat)) (S : List Nat),
      m.Pairwise (fun a b => a.1 < b.1) →
      (∀ e ∈ m, e.2 ≠ [] ∧ ∀ u ∈ e.2, u ∈ S ∧ f u = e.1) →
      (∀ u ∈ S, ∃ e ∈ m, e.1 = f u ∧ u ∈ e.2) →
      (U.foldl (fun m use => useLevelsPush m (f use) use) m).Pairwise
        (fun a b => a.1 < b.1) ∧
      (∀ e ∈ U.foldl (fun m use => useLevelsPush m (f use) use) m,
        e.2 ≠ [] ∧ ∀ u ∈ e.2, u ∈ S ++ U ∧ f u = e.1) ∧
      (∀ u ∈ S ++ U, ∃ e ∈ U.foldl (fun m use => useLevelsPush m (f use) use) m,
        e.1 = f u ∧ u ∈ e.2) := by
    intro U
    induction U with
    | nil =>
      intro m S h1 h2 h3
      simp only [List.foldl_nil, List.append_nil]
      exact ⟨h1, h2, h3⟩
    | cons a U ih =>
      intro m S h1 h2 h3
      simp only [List.foldl_cons]
      have hS : S ++ a :: U = (S ++ [a]) ++ U := by simp
      rw [hS]
      apply ih (useLevelsPush m (f a) a) (S ++ [a]) (useLevelsPush_sorted _ _ m h1)
      · intro e he
        rcases useLevelsPush_mem (f a) a m e he with h | ⟨h4, h5, h6⟩
        · obtain ⟨h7, h8⟩ := h2 e h
          exact ⟨h7, fun u hu => ⟨by simp [(h8 u hu).1], (h8 u hu).2⟩⟩
        · refine ⟨List.ne_nil_of_mem h5, ?_⟩
          intro u hu
          rcases h6 u hu with rfl | ⟨g, hg, hug⟩
          · exact ⟨by simp, h4.symm⟩
          · have := (h2 (f a, g) hg).2 u hug
            exact ⟨by simp [this.1], by rw [h4]; exact this.2⟩
      · intro u hu
        rcases List.mem_append.mp hu with hu | hu
        · obtain ⟨e, he, h4, h5⟩ := h3 u hu
          obtain ⟨e1, h6, h7, h8⟩ := useLevelsPush_keep (f a) a m e he
          exact ⟨e1, h6, by rw [h7, h4], h8 u h5⟩
        · have : u = a := by simpa using hu
          subst this
          exact useLevelsPush_has (f u) u m
  have := key U [] [] List.Pairwise.nil (by simp) (by simp)
  simp only [List.nil_append] at this
  exact this


/-! ## `ModSwitcher`: one call keeps the invariant of the pass -/

theorem switchInv_congr (p0 : Program) (types : Nat → TermType) (st st1 : ModSwitcher)
    (visited : List Nat) (hp : st1.program = st.program) (ht : st1.type = st.type)
    (hl : st1.level = st.level) (h : SwitchInv p0 types st visited) :
    SwitchInv p0 types st1 visited := by
  obtain ⟨p, ty, sc, l, en, ok⟩ := st
  obtain ⟨p1, ty1, sc1, l1, en1, ok1⟩ := st1
  simp only at hp ht hl
  subst hp; subst ht; subst hl
  exact ⟨h.wf, h.type_eq, h.next_le, h.vis_nodup, h.vis_lt, h.vis_closed, h.op_old,
    h.ops_unvisited, h.uses_unvisited, h.has_use, h.base, h.new_node, h.closed, h.level_le,
    h.rank⟩

/-- A call that returns at once (a term without uses, or a `Raw` term) keeps
the invariant. -/
theorem switchInv_skip (p0 : Program) (types : Nat → TermType) (st : ModSwitcher)
    (visited : List Nat) (x : Nat) (h : SwitchInv p0 types st visited) (hx : x ∉ visited)
    (hlt : x < p0.nextTermIndex) (hux : ∀ t, x ∈ p0.operands t → t ∈ visited)
    (hskip : types x = TermType.Raw ∨ ∀ t, x ∉ st.program.operands t) :
    SwitchInv p0 types st (visited ++ [x]) := by
  refine ⟨h.wf, h.type_eq, h.next_le, ?_, ?_, ?_, h.op_old, ?_, ?_, h.has_use, h.base,
    h.new_node, ?_, ?_, h.rank⟩
  · rw [List.nodup_append]
    exact ⟨h.vis_nodup, by simp, by
      intro a ha hb
      simp only [List.mem_singleton] at hb
      subst hb
      exact hx ha⟩
  · intro v hv
    rcases List.mem_append.mp hv with hv | hv
    · exact h.vis_lt v hv
    · have : v = x := by simpa using hv
      subst this
      exact hlt
  · intro y hy t ht
    rcases List.mem_append.mp hy with hy | hy
    · exact List.mem_append_left _ (h.vis_closed y hy t ht)
    · have : y = x := by simpa using hy
      subst this
      exact List.mem_append_left _ (hux t ht)
  · intro t ht hv
    rw [List.dropLast_concat] at hv
    exact h.ops_unvisited t ht (fun hc => hv (List.mem_of_mem_dropLast hc))
  · intro s hs hv t
    exact h.uses_unvisited s hs (fun hc => hv (List.mem_append_left _ hc)) t
  · intro y hy hty t ht
    rcases List.mem_append.mp hy with hy | hy
    · exact h.closed y hy hty t ht
    · have : y = x := by simpa using hy
      subst this
      rcases hskip with hs | hs
      · exact absurd hs hty
      · exact absurd ht (hs t)
  · intro y
    have := h.level_le y
    simp only [List.length_append, List.length_singleton]
    omega

/-- When nothing is pending, recording the level of `x` closes the call. -/
theorem switchOpen_close (p0 : Program) (types : Nat → TermType) (lv : Nat → Nat)
    (hp0 : p0.Consistent) (st : ModSwitcher) (visited : List Nat) (x temp T k0 : Nat)
    (h : SwitchOpen p0 types lv st visited x temp T k0 [])
    (hux : ∀ t, x ∈ p0.operands t → t ∈ visited) :
    SwitchInv p0 types
      { st with level := Function.update st.level x (k0 + levelCost p0 x) }
      (visited ++ [x]) := by
  have hxlt := h.x_lt
  have hxops : st.program.operands x = p0.operands x := h.ops_unvisited x h.x_lt h.x_new
  have hxx : ∀ t, x ∈ st.program.operands t → t ≠ x := by
    intro t ht hc
    obtain ⟨r, r1, _⟩ := h.rank
    have := r1 t x ht
    rw [hc] at this
    omega
  have hnot_op_x : ∀ y, y ∈ st.program.operands x → y ∈ visited → False := by
    intro y hy hv
    rw [hxops] at hy
    exact h.x_new (h.vis_closed y hv x hy)
  have hcost : levelCost p0 x ≤ 1 := by
    unfold levelCost
    split <;> omega
  refine ⟨h.wf, h.type_eq, h.next_le, ?_, ?_, ?_, h.op_old, ?_, ?_, ?_, ?_, ?_, ?_, ?_, ?_⟩
  · rw [List.nodup_append]
    exact ⟨h.vis_nodup, by simp, by
      intro a ha hb
      simp only [List.mem_singleton] at hb
      subst hb
      exact h.x_new ha⟩
  · intro v hv
    rcases List.mem_append.mp hv with hv | hv
    · exact h.vis_lt v hv
    · have : v = x := by simpa using hv
      subst this
      exact h.x_lt
  · intro y hy t ht
    rcases List.mem_append.mp hy with hy | hy
    · exact List.mem_append_left _ (h.vis_closed y hy t ht)
    · have : y = x := by simpa using hy
      subst this
      exact List.mem_append_left _ (hux t ht)
  · intro t ht hv
    rw [List.dropLast_concat] at hv
    exact h.ops_unvisited t ht hv
  · intro s hs hv t
    have h1 : s ∉ visited := fun hc => hv (List.mem_append_left _ hc)
    have h2 : s ≠ x := fun hc => hv (by simp [hc])
    exact h.uses_unvisited s hs h1 h2 t
  · intro y hy
    by_cases hyx : y = x
    · subst hyx
      obtain ⟨t, ht, _⟩ := h.x_use
      exact ⟨fun _ => h.x_use0, fun _ => ⟨t, ht⟩⟩
    · exact h.has_use y hy hyx
  · obtain ⟨base, b1, b2, b3, _⟩ := h.base
    exact ⟨base, b1, b2, b3⟩
  · intro m hm1 hm2
    obtain ⟨n1, n2, n3⟩ := h.new_node m hm1 hm2
    refine ⟨n1, ?_, ?_⟩
    · intro t ht
      have htx : t ≠ x := by
        intro hc
        rw [hc, hxops] at ht
        have := (hp0.operand_lt ht).2
        omega
      show Function.update st.level x _ t + 1 = Function.update st.level x _ m
      rw [Function.update_noteq htx, Function.update_noteq (by omega)]
      exact n2 t ht
    · by_cases hmt : m = temp
      · have htx : temp ≠ x := by omega
        rcases h.temp_use htx with hu | hu
        · rw [hmt]; exact hu
        · exact absurd rfl hu
      · exact n3 hmt
  · intro y hy hty t ht
    show Function.update st.level x _ t + _ = Function.update st.level x _ y
    rcases List.mem_append.mp hy with hy | hy
    · have hyx : y ≠ x := fun hc => h.x_new (hc ▸ hy)
      have htx : t ≠ x := by
        intro hc
        rw [hc] at ht
        exact hnot_op_x y ht hy
      rw [Function.update_noteq htx, Function.update_noteq hyx]
      exact h.closed y hy hty t ht
    · have : y = x := by simpa using hy
      subst this
      have htx := hxx t ht
      rw [Function.update_noteq htx, Function.update_same]
      rcases h.x_uses t ht with hl | hl
      · rw [hl]
      · simp at hl
  · intro y
    show Function.update st.level x _ y ≤ _
    simp only [List.length_append, List.length_singleton]
    by_cases hyx : y = x
    · rw [hyx, Function.update_same]
      have := h.k0_le
      omega
    · rw [Function.update_noteq hyx]
      have := h.level_le y
      omega
  · obtain ⟨r, r1, _⟩ := h.rank
    exact ⟨r, r1⟩

theorem levelUses_eq (st : ModSwitcher) (x : Nat) (k0 : Nat) (g0 : List Nat)
    (rest : List (Nat × List Nat))
    (hrev : ((st.program.uses x).foldl
      (fun m use => useLevelsPush m (st.level use) use) []).reverse = (k0, g0) :: rest) :
    st.levelUses x = (k0, ModSwitcher.groupLoop x rest st x k0) := by
  unfold ModSwitcher.levelUses
  generalize (st.program.uses x).foldl
    (fun m use => useLevelsPush m (st.level use) use) [] = m at hrev
  simp only
  by_cases hlen : m.length > 1
  · rw [if_pos hlen, hrev]
  · rw [if_neg hlen]
    have hl : m.reverse.length = m.length := List.length_reverse m
    rw [hrev] at hl
    simp only [List.length_cons] at hl
    have hrest : rest = [] := List.eq_nil_of_length_eq_zero (by omega)
    subst hrest
    have hm : m = [(k0, g0)] := by
      have := congrArg List.reverse hrev
      simpa using this
    subst hm
    rfl

/-- The part of the call that levels the uses of `x` ends with nothing pending
and returns the largest level of a use. -/
theorem levelUses_spec (p0 : Program) (types : Nat → TermType) (st : ModSwitcher)
    (visited : List Nat) (x : Nat) (h : SwitchInv p0 types st visited) (hx : x ∉ visited)
    (hlt : x < p0.nextTermIndex) (hux : ∀ t, x ∈ p0.operands t → t ∈ visited)
    (hU : st.program.uses x ≠ []) :
    ∃ temp1 T1, SwitchOpen p0 types st.level (st.levelUses x).2 visited x temp1 T1
      (st.levelUses x).1 [] := by
  obtain ⟨hs, hg, hc⟩ := useLevels_spec st.level (st.program.uses x)
  have hmem_u : ∀ u, u ∈ st.program.uses x ↔ x ∈ st.program.operands u :=
    fun u => mem_uses_iff h.wf.consistent u x
  have hUv : ∀ u ∈ st.program.uses x, u ∈ visited := by
    intro u hu
    exact hux u ((h.uses_unvisited x hlt hx u).mp ((hmem_u u).mp hu))
  cases hrev : ((st.program.uses x).foldl
      (fun m use => useLevelsPush m (st.level use) use) []).reverse with
  | nil =>
    exfalso
    obtain ⟨u, l, hul⟩ := List.exists_cons_of_ne_nil hU
    obtain ⟨e, he, _⟩ := hc u (by rw [hul]; simp)
    have : e ∈ ((st.program.uses x).foldl
      (fun m use => useLevelsPush m (st.level use) use) []).reverse := List.mem_reverse.mpr he
    rw [hrev] at this
    simp at this
  | cons e0 rest =>
    obtain ⟨k0, g0⟩ := e0
    rw [levelUses_eq st x k0 g0 rest hrev]
    have hm_mem : ∀ e, e ∈ (st.program.uses x).foldl
        (fun m use => useLevelsPush m (st.level use) use) [] ↔ e = (k0, g0) ∨ e ∈ rest := by
      intro e
      rw [← List.mem_reverse, hrev, List.mem_cons]
    have hpw : ((k0, g0) :: rest).Pairwise (fun a b => b.1 < a.1) := by
      rw [← hrev]
      exact List.pairwise_reverse.mpr hs
    have hpw1 := List.pairwise_cons.mp hpw
    have hg0 := hg (k0, g0) ((hm_mem _).mpr (Or.inl rfl))
    have hg0ne : g0 ≠ [] := hg0.1
    obtain ⟨u0, l0, hu0⟩ := List.exists_cons_of_ne_nil hg0ne
    have hu0g : u0 ∈ g0 := by rw [hu0]; simp
    have hu0U := (hg0.2 u0 hu0g).1
    have hu0l : st.level u0 = k0 := (hg0.2 u0 hu0g).2
    have hpend : ∀ u ∈ (rest.map Prod.snd).flatten, ∃ e ∈ rest, u ∈ e.2 := by
      intro u hu
      obtain ⟨l, hl, hul⟩ := List.mem_flatten.mp hu
      obtain ⟨e, he, rfl⟩ := List.mem_map.mp hl
      exact ⟨e, he, hul⟩
    have hinit : SwitchOpen p0 types st.level st visited x x k0 k0
        (rest.map Prod.snd).flatten := by
      refine ⟨h.wf, h.type_eq, h.next_le, h.vis_nodup, h.vis_lt, h.vis_closed, hlt, hx,
        by have := h.next_le; omega, Or.inl ⟨rfl, rfl⟩, h.op_old, ?_, ?_, ?_, ?_, ?_, ?_, ?_,
        ?_, ?_, ?_, h.closed, ?_, h.level_le, ?_, le_refl _, ?_⟩
      · intro t ht hv
        exact h.ops_unvisited t ht (fun hc => hv (List.mem_of_mem_dropLast hc))
      · intro s hs1 hv _ t
        exact h.uses_unvisited s hs1 hv t
      · intro y hy _
        exact h.has_use y hy
      · exact ⟨u0, (h.uses_unvisited x hlt hx u0).mp ((hmem_u u0).mp hu0U)⟩
      · exact ⟨u0, (hmem_u u0).mp hu0U, hu0l⟩
      · obtain ⟨base, b1, b2, b3⟩ := h.base
        exact ⟨base, b1, b2, b3, b1 x hlt⟩
      · intro m hm1 hm2
        obtain ⟨n1, n2, n3⟩ := h.new_node m hm1 hm2
        exact ⟨n1, n2, fun _ => n3⟩
      · intro hc1
        exact absurd rfl hc1
      · intro hc1
        exact absurd rfl hc1
      · intro t ht
        obtain ⟨e, he, he1, he2⟩ := hc t ((hmem_u t).mpr ht)
        rcases (hm_mem e).mp he with rfl | he
        · exact Or.inl he1.symm
        · right
          exact List.mem_flatten.mpr ⟨e.2, List.mem_map.mpr ⟨e, he, rfl⟩, he2⟩
      · intro u hu
        obtain ⟨e, he, hue⟩ := hpend u hu
        have hge := hg e ((hm_mem e).mpr (Or.inr he))
        have hlt1 := hpw1.1 e he
        have hlu := (hge.2 u hue).2
        simp only at hlt1
        exact ⟨hUv u (hge.2 u hue).1, rfl, by omega, by omega,
          Or.inl ((hmem_u u).mp (hge.2 u hue).1)⟩
      · rw [← hu0l]
        exact h.level_le u0
      · obtain ⟨r, r1⟩ := h.rank
        refine ⟨r, r1, ?_⟩
        intro u hu
        obtain ⟨e, he, hue⟩ := hpend u hu
        have hge := hg e ((hm_mem e).mpr (Or.inr he))
        exact r1 u x ((hmem_u u).mp (hge.2 u hue).1)
    exact groupLoop_spec p0 types st.level visited x k0 rest st x k0 hinit hpw1.2
      (fun e he => ⟨hpw1.1 e he, (hg e ((hm_mem e).mpr (Or.inr he))).1,
        fun u hu => ((hg e ((hm_mem e).mpr (Or.inr he))).2 u hu).2⟩)

/-- One call of `ModSwitcher` in a backward pass over `p0` returns and keeps
the invariant of the pass. -/
theorem switch_visit (p0 : Program) (types : Nat → TermType) (hp0 : p0.Consistent)
    (hn : p0.nextTermIndex < u32) (st : ModSwitcher) (visited : List Nat) (x : Nat)
    (h : SwitchInv p0 types st visited) (hx : x ∉ visited) (hlt : x < p0.nextTermIndex)
    (hux : ∀ t, x ∈ p0.operands t → t ∈ visited) :
    ∃ st1, ModSwitcher.visit st x = some st1 ∧ SwitchInv p0 types st1 (visited ++ [x]) := by
  unfold ModSwitcher.visit
  by_cases hU : (st.program.uses x).length = 0
  · rw [if_pos hU]
    refine ⟨st, rfl, switchInv_skip p0 types st visited x h hx hlt hux (Or.inr ?_)⟩
    intro t ht
    have := (mem_uses_iff h.wf.consistent t x).mpr ht
    rw [List.eq_nil_of_length_eq_zero hU] at this
    simp at this
  · rw [if_neg hU]
    by_cases hraw : st.type x = TermType.Raw
    · rw [if_pos hraw]
      exact ⟨st, rfl, switchInv_skip p0 types st visited x h hx hlt hux
        (Or.inl (by rw [← h.type_eq]; exact hraw))⟩
    · rw [if_neg hraw]
      have key : ∀ st1 : ModSwitcher, st1.program = st.program → st1.type = st.type →
          st1.level = st.level →
          SwitchInv p0 types
            { (st1.levelUses x).2 with
              level := Function.update (st1.levelUses x).2.level x
                (if isRescaleOp ((st1.levelUses x).2.program.op x) = true then
                  add32 (st1.levelUses x).1 1 else (st1.levelUses x).1) }
            (visited ++ [x]) := by
        intro st1 e1 e2 e3
        have h1 := switchInv_congr p0 types st st1 visited e1 e2 e3 h
        have hU1 : st1.program.uses x ≠ [] := by
          rw [e1]
          intro hc
          exact hU (by rw [hc]; rfl)
        obtain ⟨temp1, T1, hopen⟩ := levelUses_spec p0 types st1 visited x h1 hx hlt hux hU1
        have hclose := switchOpen_close p0 types st1.level hp0 _ visited x temp1 T1 _ hopen hux
        have hlevel : (if isRescaleOp ((st1.levelUses x).2.program.op x) = true then
            add32 (st1.levelUses x).1 1 else (st1.levelUses x).1)
            = (st1.levelUses x).1 + levelCost p0 x := by
          have hop := (hopen.op_old x hlt).1
          have hk := hopen.k0_le
          have hlen := nodup_bounded_length (x :: visited) p0.nextTermIndex
            (List.nodup_cons.mpr ⟨hx, h.vis_nodup⟩) (by
              intro y hy
              rcases List.mem_cons.mp hy with rfl | hy
              · exact hlt
              · exact h.vis_lt y hy)
          simp only [List.length_cons] at hlen
          rw [hop]
          unfold levelCost isRescaleOp
          by_cases hr : p0.op x = Op.Rescale
          · simp only [hr, decide_True, if_true]
            unfold add32
            exact Nat.mod_eq_of_lt (by omega)
          · simp only [hr, decide_False, if_false, Bool.false_eq_true, Nat.add_zero]
        rw [hlevel]
        exact hclose
      by_cases hE : st.program.op x = Op.Encode
      · simp only [hE, if_true]
        exact ⟨_, rfl, key _ rfl rfl rfl⟩
      · simp only [hE, if_false]
        exact ⟨_, rfl, key st rfl rfl rfl⟩


/-! ## `ModSwitcher`: the backward pass -/

/-- The invariant of the pass shows the traversal the graph it started on. -/
theorem switchInv_sim (p0 : Program) (types : Nat → TermType) (hp0 : p0.Consistent)
    (st : ModSwitcher) (visited : List Nat) (h : SwitchInv p0 types st visited) :
    Sim false p0 st.program visited := by
  refine ⟨?_, ?_, ?_⟩
  · intro x hx
    simp only [leaves, Bool.false_eq_true, if_false, Program.getSinks] at hx ⊢
    obtain ⟨hlt, huse⟩ := (h.wf.consistent.snk x).mp hx
    have hno : ¬ ∃ t, x ∈ st.program.operands t := by
      rintro ⟨t, ht⟩
      have := (mem_uses_iff h.wf.consistent t x).mpr ht
      rw [huse] at this
      simp at this
    by_cases hx0 : x < p0.nextTermIndex
    · apply (hp0.snk x).mpr
      refine ⟨hx0, ?_⟩
      cases hu : p0.uses x with
      | nil => rfl
      | cons u l =>
        exfalso
        apply hno
        apply (h.has_use x hx0).mpr
        exact ⟨u, (mem_uses_iff hp0 u x).mp (by rw [hu]; simp)⟩
    · exfalso
      exact hno (h.new_node x (by omega) hlt).2.2
  · intro t ht hv
    simp only [successors, Bool.false_eq_true, if_false]
    exact h.ops_unvisited t ht hv
  · intro s hs hv o
    simp only [predecessors, Bool.false_eq_true, if_false]
    rw [mem_uses_iff h.wf.consistent, mem_uses_iff hp0]
    exact h.uses_unvisited s hs hv o

/-- The state the constructor of `ModSwitcher` leaves satisfies the invariant. -/
theorem switchInv_init (p0 : Program) (types : Nat → TermType) (scales : TermMapOptional)
    (hwf : p0.WellFormed) (hac : p0.Acyclic) :
    SwitchInv p0 types (ModSwitcher.init p0 types scales) [] := by
  refine ⟨hwf, rfl, le_refl _, List.nodup_nil, by simp, by simp, fun _ _ => ⟨rfl, rfl⟩,
    fun _ _ _ => rfl, fun _ _ _ _ => Iff.rfl, fun _ _ => Iff.rfl, ?_, ?_, by simp, ?_, hac⟩
  · refine ⟨fun x => x, fun _ _ => rfl, fun t _ => ?_, ?_⟩
    · show (p0.operands t).map (fun x => x) = p0.operands t
      simp
    intro m hm1 hm2
    exfalso
    have : (ModSwitcher.init p0 types scales).program.nextTermIndex = p0.nextTermIndex := rfl
    omega
  · intro m hm1 hm2
    exfalso
    have : (ModSwitcher.init p0 types scales).program.nextTermIndex = p0.nextTermIndex := rfl
    omega
  · intro y
    exact Nat.zero_le _

/-- The backward pass of `ModSwitcher` over a well-formed acyclic program with
fewer than `2^32` terms returns, with the invariant holding and every term of
the starting program visited. -/
theorem switch_pass (p0 : Program) (types : Nat → TermType) (scales : TermMapOptional)
    (hwf : p0.WellFormed) (hac : p0.Acyclic) (hn : p0.nextTermIndex < u32) (fuel : Nat)
    (hfuel : p0.nextTermIndex ≤ fuel) :
    ∃ st, backwardPass ModSwitcher.rewriter fuel (ModSwitcher.init p0 types scales) = some st ∧
      SwitchInv p0 types st.env st.visited ∧ ∀ t, t < p0.nextTermIndex → t ∈ st.visited := by
  obtain ⟨st, h1, _, h3, h4, _⟩ := traverse_mutating false ModSwitcher.rewriter
    (ModSwitcher.init p0 types scales) (SwitchInv p0 types)
    (fun env1 visited term hJ hnot hlt hpred =>
      switch_visit p0 types hwf.consistent hn env1 visited term hJ hnot hlt
        (fun t ht => hpred t (by
          simp only [predecessors, Bool.false_eq_true, if_false]
          exact (mem_uses_iff hwf.consistent t term).mpr ht)))
    (fun env1 visited hJ => switchInv_sim p0 types hwf.consistent env1 visited hJ)
    (switchInv_init p0 types scales hwf hac)
    (dirFacts_backward p0 hwf.consistent hac) hwf.sets.2 fuel hfuel
  refine ⟨st, h1, h3, ?_⟩
  intro t ht
  have hc := h4 t
  have ht1 : t < (ModSwitcher.rewriter.program
      (ModSwitcher.init p0 types scales)).nextTermIndex := ht
  rw [if_pos ht1] at hc
  exact List.count_pos_iff.mp (by omega)


/-! ## `ModSwitcher`: the write-back of the destructor -/

theorem get_set_same (k : Nat) (v : AttributeValue) : ∀ l : AttributeList,
    AttributeList.get (AttributeList.set l k v) k = some v := by
  intro l
  induction l with
  | nil => simp [AttributeList.set, AttributeList.get]
  | cons a l ih =>
    obtain ⟨key, value⟩ := a
    simp only [AttributeList.set]
    by_cases h1 : key < k
    · rw [if_pos h1]
      simp only [AttributeList.get]
      rw [if_neg (by omega), if_pos h1]
      exact ih
    · rw [if_neg h1]
      by_cases h2 : k < key
      · rw [if_pos h2]
        simp [AttributeList.get]
      · rw [if_neg h2]
        have : key = k := by omega
        simp [AttributeList.get, this]

theorem get_set_other (k k1 : Nat) (v : AttributeValue) (hk : k1 ≠ k) : ∀ l : AttributeList,
    AttributeList.get (AttributeList.set l k v) k1 = AttributeList.get l k1 := by
  intro l
  induction l with
  | nil =>
    simp only [AttributeList.set, AttributeList.get]
    rw [if_neg (fun h => hk h.symm)]
    split <;> rfl
  | cons a l ih =>
    obtain ⟨key, value⟩ := a
    simp only [AttributeList.set]
    by_cases h1 : key < k
    · rw [if_pos h1]
      simp only [AttributeList.get]
      by_cases h3 : key = k1
      · rw [if_pos h3, if_pos h3]
      · rw [if_neg h3, if_neg h3]
        by_cases h4 : key < k1
        · rw [if_pos h4, if_pos h4]
          exact ih
        · rw [if_neg h4, if_neg h4]
    · rw [if_neg h1]
      by_cases h2 : k < key
      · rw [if_pos h2]
        simp only [AttributeList.get]
        rw [if_neg (fun h => hk h.symm)]
        by_cases h4 : k < k1
        · rw [if_pos h4]
        · rw [if_neg h4]
          rw [if_neg (by omega), if_neg (by omega)]
      · rw [if_neg h2]
        have hkk : key = k := by omega
        simp only [AttributeList.get]
        have hne : key ≠ k1 := by omega
        rw [if_neg hne, if_neg hne]

theorem setAttribute_attributes (p : Program) (t k : Nat) (v : AttributeValue) (x : Nat) :
    (Term.setAttribute p t k v).attributes x
      = if x = t then AttributeList.set (p.attributes t) k v else p.attributes x := by
  unfold Term.setAttribute
  simp

theorem setAttribute_operands (p : Program) (t k : Nat) (v : AttributeValue) (x : Nat) :
    (Term.setAttribute p t k v).operands x = p.operands x := by
  unfold Term.setAttribute
  simp

theorem setAttribute_op (p : Program) (t k : Nat) (v : AttributeValue) (x : Nat) :
    (Term.setAttribute p t k v).op x = p.op x := by
  unfold Term.setAttribute
  simp

/-- A loop that writes `EncodeAtLevelAttribute` on the terms of a list leaves
the graph, the operations and the `TypeAttribute`s alone. -/
theorem foldl_setLevel_spec (f : Nat → Nat) (l : List Nat) : ∀ p : Program,
    (p.WellFormed → (l.foldl (fun p s => Term.setAttribute p s EncodeAtLevelAttribute
      (AttributeValue.uint32 (f s))) p).WellFormed) ∧
    (l.foldl (fun p s => Term.setAttribute p s EncodeAtLevelAttribute
      (AttributeValue.uint32 (f s))) p).nextTermIndex = p.nextTermIndex ∧
    (∀ t, (l.foldl (fun p s => Term.setAttribute p s EncodeAtLevelAttribute
      (AttributeValue.uint32 (f s))) p).operands t = p.operands t) ∧
    (∀ t, (l.foldl (fun p s => Term.setAttribute p s EncodeAtLevelAttribute
      (AttributeValue.uint32 (f s))) p).op t = p.op t) ∧
    (∀ t, AttributeList.getType ((l.foldl (fun p s => Term.setAttribute p s
      EncodeAtLevelAttribute (AttributeValue.uint32 (f s))) p).attributes t)
        = AttributeList.getType (p.attributes t)) ∧
    (∀ t, AttributeList.getUInt32 ((l.foldl (fun p s => Term.setAttribute p s
      EncodeAtLevelAttribute (AttributeValue.uint32 (f s))) p).attributes t)
        EncodeAtLevelAttribute
      = if t ∈ l then some (f t)
        else AttributeList.getUInt32 (p.attributes t) EncodeAtLevelAttribute) := by
  induction l with
  | nil => intro p; simp
  | cons a l ih =>
    intro p
    simp only [List.foldl_cons]
    obtain ⟨i1, i2, i3, i4, i5, i6⟩ := ih (Term.setAttribute p a EncodeAtLevelAttribute
      (AttributeValue.uint32 (f a)))
    refine ⟨fun h => i1 (wellFormed_setAttribute p a _ _ h), by rw [i2]; rfl, ?_, ?_, ?_, ?_⟩
    · intro t
      rw [i3, setAttribute_operands]
    · intro t
      rw [i4, setAttribute_op]
    · intro t
      rw [i5, setAttribute_attributes]
      by_cases hta : t = a
      · rw [if_pos hta, hta]
        unfold AttributeList.getType
        rw [get_set_other EncodeAtLevelAttribute TypeAttribute _ (by decide)]
      · rw [if_neg hta]
    · intro t
      rw [i6, setAttribute_attributes]
      by_cases htl : t ∈ l
      · simp [htl]
      · rw [if_neg htl]
        by_cases hta : t = a
        · rw [if_pos hta, hta]
          simp only [List.mem_cons, true_or, if_true]
          unfold AttributeList.getUInt32
          rw [get_set_same]
        · rw [if_neg hta]
          simp [hta, htl]

theorem maxLevel_spec (st : ModSwitcher) :
    (∀ s ∈ st.program.getSources, st.level s ≤ st.maxLevel) ∧
    ∀ b, (∀ s ∈ st.program.getSources, st.level s ≤ b) → st.maxLevel ≤ b := by
  unfold ModSwitcher.maxLevel
  have key : ∀ (l : List Nat) (m : Nat),
      m ≤ l.foldl (fun maxLevel source =>
        if st.level source > maxLevel then st.level source else maxLevel) m ∧
      (∀ s ∈ l, st.level s ≤ l.foldl (fun maxLevel source =>
        if st.level source > maxLevel then st.level source else maxLevel) m) ∧
      ∀ b, m ≤ b → (∀ s ∈ l, st.level s ≤ b) → l.foldl (fun maxLevel source =>
        if st.level source > maxLevel then st.level source else maxLevel) m ≤ b := by
    intro l
    induction l with
    | nil => intro m; simp
    | cons a l ih =>
      intro m
      simp only [List.foldl_cons]
      obtain ⟨h1, h2, h3⟩ := ih (if st.level a > m then st.level a else m)
      have hv1 : m ≤ (if st.level a > m then st.level a else m) := by split <;> omega
      have hv2 : st.level a ≤ (if st.level a > m then st.level a else m) := by split <;> omega
      have hv3 : ∀ b, m ≤ b → st.level a ≤ b →
          (if st.level a > m then st.level a else m) ≤ b := by
        intro b _ _
        split <;> omega
      generalize (if st.level a > m then st.level a else m) = v at h1 h2 h3 hv1 hv2 hv3 ⊢
      refine ⟨by omega, ?_, ?_⟩
      · intro s hs
        rcases List.mem_cons.mp hs with rfl | hs
        · omega
        · exact h2 s hs
      · intro b hb hall
        apply h3 b
        · exact hv3 b hb (hall a (by simp))
        · intro s hs
          exact hall s (by simp [hs])
  obtain ⟨_, h2, h3⟩ := key st.program.getSources 0
  exact ⟨h2, fun b hb => h3 b (Nat.zero_le _) hb⟩

/-- The destructor of `ModSwitcher` leaves the graph alone and writes on every
source the attribute `maxLevel - level[source]`. -/
theorem finish_spec (st : ModSwitcher) (hwf : st.program.WellFormed) :
    st.finish.program.WellFormed ∧
    st.finish.program.nextTermIndex = st.program.nextTermIndex ∧
    (∀ t, st.finish.program.operands t = st.program.operands t) ∧
    (∀ t, st.finish.program.op t = st.program.op t) ∧
    (∀ t, AttributeList.getType (st.finish.program.attributes t)
      = AttributeList.getType (st.program.attributes t)) ∧
    (∀ s ∈ st.program.getSources,
      AttributeList.getUInt32 (st.finish.program.attributes s) EncodeAtLevelAttribute
        = some (sub32 st.maxLevel (st.level s))) := by
  obtain ⟨a1, a2, a3, a4, a5, a6⟩ := foldl_setLevel_spec
    (fun s => sub32 st.maxLevel (st.level s)) st.program.getSources st.program
  obtain ⟨b1, b2, b3, b4, b5, b6⟩ := foldl_setLevel_spec
    (fun s => sub32 st.maxLevel (st.level s)) st.encodeNodes
    (st.program.getSources.foldl (fun p s => Term.setAttribute p s EncodeAtLevelAttribute
      (AttributeValue.uint32 (sub32 st.maxLevel (st.level s)))) st.program)
  refine ⟨b1 (a1 hwf), b2.trans a2, fun t => (b3 t).trans (a3 t), fun t => (b4 t).trans (a4 t),
    fun t => (b5 t).trans (a5 t), ?_⟩
  intro s hs
  have h1 := b6 s
  have h2 := a6 s
  rw [if_pos hs] at h2
  show AttributeList.getUInt32 ((st.encodeNodes.foldl (fun p s => Term.setAttribute p s
    EncodeAtLevelAttribute (AttributeValue.uint32 (sub32 st.maxLevel (st.level s))))
    (st.program.getSources.foldl (fun p s => Term.setAttribute p s EncodeAtLevelAttribute
      (AttributeValue.uint32 (sub32 st.maxLevel (st.level s)))) st.program)).attributes s)
    EncodeAtLevelAttribute = _
  rw [h1]
  split
  · rfl
  · exact h2


/-! ## The forward pass of `TypeDeducer` -/

theorem inferredType_congr (ty ty1 : Nat → TermType) (ops : List Nat)
    (h : ∀ o ∈ ops, ty1 o = ty o) : inferredType ty1 ops = inferredType ty ops := by
  unfold inferredType
  generalize TermType.Raw = init
  induction ops generalizing init with
  | nil => rfl
  | cons a ops ih =>
    simp only [List.foldl_cons]
    rw [h a (by simp)]
    exact ih (fun o ho => h o (by simp [ho])) _

theorem inferredType_eq_cipher (ty : Nat → TermType) (ops : List Nat) :
    inferredType ty ops = TermType.Cipher ↔ ∃ o ∈ ops, ty o = TermType.Cipher := by
  unfold inferredType
  have key : ∀ (ops : List Nat) (init : TermType),
      ops.foldl (fun inferred operand =>
        if ty operand = TermType.Cipher then TermType.Cipher else inferred) init
        = TermType.Cipher ↔ (init = TermType.Cipher ∨ ∃ o ∈ ops, ty o = TermType.Cipher) := by
    intro ops
    induction ops with
    | nil => intro init; simp
    | cons a ops ih =>
      intro init
      simp only [List.foldl_cons, ih, List.mem_cons, exists_eq_or_imp]
      by_cases ha : ty a = TermType.Cipher
      · simp [ha]
      · simp [ha]
  rw [key]
  simp

theorem inferredType_cases (ty : Nat → TermType) (ops : List Nat) :
    inferredType ty ops = TermType.Cipher ∨ inferredType ty ops = TermType.Raw := by
  unfold inferredType
  have key : ∀ (ops : List Nat) (init : TermType),
      (init = TermType.Cipher ∨ init = TermType.Raw) →
      (ops.foldl (fun inferred operand =>
        if ty operand = TermType.Cipher then TermType.Cipher else inferred) init
        = TermType.Cipher ∨
       ops.foldl (fun inferred operand =>
        if ty operand = TermType.Cipher then TermType.Cipher else inferred) init
        = TermType.Raw) := by
    intro ops
    induction ops with
    | nil => intro init h; exact h
    | cons a ops ih =>
      intro init h
      simp only [List.foldl_cons]
      apply ih
      split
      · exact Or.inl rfl
      · exact h
  exact key ops _ (Or.inr rfl)

theorem typeRule_congr (q : Program) (ty ty1 : Nat → TermType) (t : Nat)
    (ht : ty1 t = ty t) (ho : ∀ o ∈ q.operands t, ty1 o = ty o) (h : TypeRule q ty t) :
    TypeRule q ty1 t := by
  unfold TypeRule at h ⊢
  rw [ht, inferredType_congr ty ty1 (q.operands t) ho]
  exact h

/-- One call of `TypeDeducer` in a forward pass keeps the invariant. -/
theorem typeDeducer_step (q : Program)
    (hsrc : ∀ s, s < q.nextTermIndex → q.operands s = [] → q.op s ≠ Op.Constant →
      (AttributeList.getType (q.attributes s)).isSome)
    (env : TypeDeducer) (visited : List Nat) (x : Nat)
    (h : TypeDeducerInv q env visited) (hx : x ∉ visited) (hlt : x < q.nextTermIndex)
    (hops : ∀ o ∈ q.operands x, o ∈ visited) :
    ∃ env1, TypeDeducer.visit env x = some env1 ∧ env1.program = q ∧
      TypeDeducerInv q env1 (visited ++ [x]) := by
  obtain ⟨hp, hcl, hrule⟩ := h
  subst hp
  have hp : env.program = env.program := rfl
  have hclosed : ∀ t ∈ visited ++ [x], ∀ o ∈ env.program.operands t,
      o ∈ visited ++ [x] := by
    intro t ht o ho
    rcases List.mem_append.mp ht with ht | ht
    · exact List.mem_append_left _ (hcl t ht o ho)
    · have : t = x := by simpa using ht
      subst this
      exact List.mem_append_left _ (hops o ho)
  have hfin : ∀ v : TermType, TypeRule env.program (Function.update env.types x v) x →
      TypeDeducerInv env.program { env with types := Function.update env.types x v }
        (visited ++ [x]) := by
    intro v hv
    refine ⟨hp, hclosed, ?_⟩
    intro t ht
    rcases List.mem_append.mp ht with ht | ht
    · have htx : t ≠ x := fun hc => hx (hc ▸ ht)
      apply typeRule_congr env.program env.types _ t (Function.update_noteq htx _ _) _ (hrule t ht)
      intro o ho
      have hox : o ≠ x := fun hc => hx (hc ▸ hcl t ht o ho)
      exact Function.update_noteq hox _ _
    · have : t = x := by simpa using ht
      subst this
      exact hv
  have hxo : ∀ o ∈ env.program.operands x, o ≠ x := fun o ho hc => hx (hc ▸ hops o ho)
  unfold TypeDeducer.visit
  by_cases hne : env.program.operands x = []
  · have hlen : ¬ 0 < (env.program.operands x).length := by rw [hne]; simp
    simp only [hlen, if_false]
    by_cases hcst : env.program.op x = Op.Constant
    · simp only [hcst, if_true]
      refine ⟨_, rfl, hp, hfin _ ?_⟩
      unfold TypeRule
      rw [if_pos hne, if_pos hcst, Function.update_same]
    · simp only [hcst, if_false]
      obtain ⟨v, hv⟩ := Option.isSome_iff_exists.mp (hsrc x hlt hne hcst)
      rw [hv]
      refine ⟨_, rfl, hp, hfin _ ?_⟩
      unfold TypeRule
      rw [if_pos hne, if_neg hcst, Function.update_same]
      exact hv
  · have hlen : 0 < (env.program.operands x).length := List.length_pos.mpr hne
    simp only [hlen, if_true]
    by_cases henc : env.program.op x = Op.Encode
    · simp only [henc, if_true]
      refine ⟨_, rfl, hp, hfin _ ?_⟩
      unfold TypeRule
      rw [if_neg hne, if_pos henc, Function.update_same]
    · simp only [henc, if_false]
      refine ⟨_, rfl, hp, hfin _ ?_⟩
      unfold TypeRule
      rw [if_neg hne, if_neg henc, Function.update_same]
      rw [inferredType_congr env.types _ (env.program.operands x)
        (fun o ho => Function.update_noteq (hxo o ho) _ _)]
      rfl

/-- The forward pass of `TypeDeducer` over a well-formed acyclic program whose
sources are constants or carry a `TypeAttribute` returns a map that satisfies
the equation of `TypeDeducer` at every term. -/
theorem deduceTypes_spec (q : Program) (hwf : q.WellFormed) (hac : q.Acyclic)
    (hsrc : ∀ s, s < q.nextTermIndex → q.operands s = [] → q.op s ≠ Op.Constant →
      (AttributeList.getType (q.attributes s)).isSome)
    (fuel : Nat) (hfuel : q.nextTermIndex ≤ fuel) :
    ∃ ty, deduceTypes fuel q = some ty ∧ ∀ t, t < q.nextTermIndex → TypeRule q ty t := by
  obtain ⟨st, h1, _, _, hJ, hcount, _⟩ := traverse_spec true TypeDeducer.rewriter
    { program := q, types := fun _ => TermType.Undef } (TypeDeducerInv q)
    (fun env1 visited term _ hJ hnot hlt hpred =>
      typeDeducer_step q hsrc env1 visited term hJ hnot hlt
        (fun o ho => hpred o (by simpa [predecessors] using ho)))
    ⟨rfl, by simp, by simp⟩
    (dirFacts_forward q hwf.consistent hac) hwf.sets.1 fuel hfuel
  refine ⟨st.env.types, ?_, ?_⟩
  · unfold deduceTypes forwardPass
    rw [h1]
    rfl
  · intro t ht
    apply hJ.2.2 t
    have hc := hcount t
    have ht1 : t < (TypeDeducer.rewriter.program
        { program := q, types := fun _ => TermType.Undef }).nextTermIndex := ht
    rw [if_pos ht1] at hc
    exact List.count_pos_iff.mp (by omega)


/-! ## The forward pass of `LevelsChecker` -/

theorem firstCipherLevel_spec (st : LevelsChecker) (junk : Nat) (ops : List Nat)
    (h : ∃ o ∈ ops, st.types o = TermType.Cipher) :
    ∃ o ∈ ops, st.types o = TermType.Cipher ∧
      LevelsChecker.firstCipherLevel st junk ops = st.levels o := by
  induction ops with
  | nil => obtain ⟨o, ho, _⟩ := h; simp at ho
  | cons a ops ih =>
    by_cases ha : st.types a = TermType.Cipher
    · exact ⟨a, by simp, ha, by simp [LevelsChecker.firstCipherLevel, ha]⟩
    · obtain ⟨o, ho, hc⟩ := h
      have ho1 : o ∈ ops := by
        rcases List.mem_cons.mp ho with rfl | ho
        · exact absurd hc ha
        · exact ho
      obtain ⟨o1, h1, h2, h3⟩ := ih ⟨o, ho1, hc⟩
      exact ⟨o1, List.mem_cons_of_mem _ h1, h2, by
        simp only [LevelsChecker.firstCipherLevel, if_neg ha]
        exact h3⟩

theorem foldl_levelCheck_true (ty : Nat → TermType) (levels : Nat → Nat) (operandLevel : Nat)
    (ops : List Nat) (h : ∀ o ∈ ops, ty o = TermType.Cipher → operandLevel = levels o) :
    ops.foldl (fun ok operand =>
      if ty operand = TermType.Cipher then ok && decide (operandLevel = levels operand)
      else ok) true = true := by
  induction ops with
  | nil => rfl
  | cons a ops ih =>
    simp only [List.foldl_cons]
    have hstep : (if ty a = TermType.Cipher then true && decide (operandLevel = levels a)
        else true) = true := by
      by_cases ha : ty a = TermType.Cipher
      · rw [if_pos ha]
        simp [h a (by simp) ha]
      · rw [if_neg ha]
    rw [hstep]
    exact ih (fun o ho => h o (by simp [ho]))

/-- One call of `LevelsChecker` in a forward pass keeps the invariant. -/
theorem levelsChecker_step (q : Program) (ty : Nat → TermType) (L : Nat → Nat) (M junk : Nat)
    (hM : M < u32)
    (hE : ∀ t o, o ∈ q.operands t → ty o = TermType.Cipher → L t + checkerCost q o = L o)
    (hS : ∀ s, s < q.nextTermIndex → q.operands s = [] →
      AttributeList.getUInt32 (q.attributes s) EncodeAtLevelAttribute = some (sub32 M (L s)) ∧
      L s ≤ M ∧ checkerCost q s = 0)
    (hT : ∀ t, t < q.nextTermIndex → q.operands t ≠ [] → ty t = TermType.Cipher →
      ∃ o ∈ q.operands t, ty o = TermType.Cipher)
    (env : LevelsChecker) (visited : List Nat) (x : Nat)
    (h : LevelsCheckerInv q ty L M env visited) (hx : x ∉ visited)
    (hlt : x < q.nextTermIndex) (hops : ∀ o ∈ q.operands x, o ∈ visited) :
    ∃ env1, LevelsChecker.visit junk env x = some env1 ∧ env1.program = q ∧
      LevelsCheckerInv q ty L M env1 (visited ++ [x]) := by
  obtain ⟨hp, hty, hok, hcl, hlev⟩ := h
  subst hp
  subst hty
  have hclosed : ∀ t ∈ visited ++ [x], ∀ o ∈ env.program.operands t,
      o ∈ visited ++ [x] := by
    intro t ht o ho
    rcases List.mem_append.mp ht with ht | ht
    · exact List.mem_append_left _ (hcl t ht o ho)
    · have : t = x := by simpa using ht
      subst this
      exact List.mem_append_left _ (hops o ho)
  have hfin : ∀ v : Nat,
      (env.types x = TermType.Cipher → v + L x = M + checkerCost env.program x) →
      LevelsCheckerInv env.program env.types L M
        { env with levels := Function.update env.levels x v, ok := true } (visited ++ [x]) := by
    intro v hv
    refine ⟨rfl, rfl, rfl, hclosed, ?_⟩
    intro y hy hyc
    show Function.update env.levels x v y + L y = _
    rcases List.mem_append.mp hy with hy | hy
    · have hyx : y ≠ x := fun hc => hx (hc ▸ hy)
      rw [Function.update_noteq hyx]
      exact hlev y hy hyc
    · have : y = x := by simpa using hy
      subst this
      rw [Function.update_same]
      exact hv hyc
  unfold LevelsChecker.visit
  by_cases hne : env.program.operands x = []
  · have hlen : (env.program.operands x).length = 0 := by rw [hne]; rfl
    simp only [hlen, if_true]
    obtain ⟨s1, s2, s3⟩ := hS x hlt hne
    rw [s1]
    have hsub : sub32 M (L x) = M - L x := sub32_of_le _ _ hM s2
    refine ⟨_, rfl, rfl, ?_⟩
    have := hfin (sub32 M (L x)) (fun _ => by rw [hsub, s3]; omega)
    rw [← hok] at this
    exact this
  · have hlen : ¬ (env.program.operands x).length = 0 := by
      intro hc
      exact hne (List.eq_nil_of_length_eq_zero hc)
    simp only [hlen, if_false]
    have hkey : ∀ o ∈ env.program.operands x, env.types o = TermType.Cipher →
        env.levels o + L x = M := by
      intro o ho hoc
      have h1 := hlev o (hops o ho) hoc
      have h2 := hE x o ho hoc
      omega
    have hfirst : (∃ o ∈ env.program.operands x, env.types o = TermType.Cipher) →
        LevelsChecker.firstCipherLevel env junk (env.program.operands x) + L x = M := by
      intro hex
      obtain ⟨o, ho, hoc, heq⟩ := firstCipherLevel_spec env junk _ hex
      rw [heq]
      exact hkey o ho hoc
    have hokfold : (env.program.operands x).foldl (fun ok operand =>
        if env.types operand = TermType.Cipher then
          ok && decide (LevelsChecker.firstCipherLevel env junk (env.program.operands x)
            = env.levels operand)
        else ok) env.ok = true := by
      rw [hok]
      apply foldl_levelCheck_true
      intro o ho hoc
      have h1 := hkey o ho hoc
      have h2 := hfirst ⟨o, ho, hoc⟩
      omega
    rw [hokfold]
    refine ⟨_, rfl, rfl, hfin _ ?_⟩
    intro hxc
    have h2 := hfirst (hT x hlt hne hxc)
    unfold checkerCost isRescaleOp
    by_cases hc : env.program.op x = Op.Rescale ∨ env.program.op x = Op.ModSwitch
    · have hb : (decide (env.program.op x = Op.Rescale)
          || decide (env.program.op x = Op.ModSwitch)) = true := by
        simpa using hc
      rw [if_pos hb, if_pos hc]
      have hlt64 : LevelsChecker.firstCipherLevel env junk (env.program.operands x) + 1
          < size64 := by
        unfold size64
        unfold u32 at hM
        omega
      rw [Nat.mod_eq_of_lt hlt64]
      omega
    · have hb : ¬ (decide (env.program.op x = Op.Rescale)
          || decide (env.program.op x = Op.ModSwitch)) = true := by
        simpa using hc
      rw [if_neg hb, if_neg hc]
      omega

/-- The forward pass of `LevelsChecker` over a well-formed acyclic program
whose reverse levels `L` drop by the cost of a `Cipher` operand along every
edge, and whose sources carry `M - L` as `EncodeAtLevelAttribute`, returns
with no assertion failed and with equal levels on the `Cipher` operands of
every term. -/
theorem levelsChecker_pass (q : Program) (ty : Nat → TermType) (L : Nat → Nat) (M junk : Nat)
    (hwf : q.WellFormed) (hac : q.Acyclic) (hM : M < u32)
    (hE : ∀ t o, o ∈ q.operands t → ty o = TermType.Cipher → L t + checkerCost q o = L o)
    (hS : ∀ s, s < q.nextTermIndex → q.operands s = [] →
      AttributeList.getUInt32 (q.attributes s) EncodeAtLevelAttribute = some (sub32 M (L s)) ∧
      L s ≤ M ∧ checkerCost q s = 0)
    (hT : ∀ t, t < q.nextTermIndex → q.operands t ≠ [] → ty t = TermType.Cipher →
      ∃ o ∈ q.operands t, ty o = TermType.Cipher)
    (fuel : Nat) (hfuel : q.nextTermIndex ≤ fuel) :
    ∃ lc, forwardPass (LevelsChecker.rewriter junk) fuel (LevelsChecker.init q ty) = some lc ∧
      lc.env.program = q ∧ lc.env.types = ty ∧ lc.env.ok = true ∧
      ∀ t, lc.env.levelsEqualAt t := by
  obtain ⟨lc, h1, _, _, hJ, hcount, _⟩ := traverse_spec true (LevelsChecker.rewriter junk)
    (LevelsChecker.init q ty) (LevelsCheckerInv q ty L M)
    (fun env1 visited term _ hJ hnot hlt hpred =>
      levelsChecker_step q ty L M junk hM hE hS hT env1 visited term hJ hnot hlt
        (fun o ho => hpred o (by simpa [predecessors] using ho)))
    ⟨rfl, rfl, rfl, by simp, by simp⟩
    (dirFacts_forward q hwf.consistent hac) hwf.sets.1 fuel hfuel
  obtain ⟨hp, hty, hok, _, hlev⟩ := hJ
  have hall : ∀ t, t < q.nextTermIndex → t ∈ lc.visited := by
    intro t ht
    have hc := hcount t
    have ht1 : t < ((LevelsChecker.rewriter junk).program
        (LevelsChecker.init q ty)).nextTermIndex := ht
    rw [if_pos ht1] at hc
    exact List.count_pos_iff.mp (by omega)
  refine ⟨lc, h1, hp, hty, hok, ?_⟩
  intro t o1 ho1 o2 ho2 hc1 hc2
  rw [hp] at ho1 ho2
  rw [hty] at hc1 hc2
  have b1 := (hwf.consistent.operand_lt ho1).2
  have b2 := (hwf.consistent.operand_lt ho2).2
  have e1 := hlev o1 (hall o1 b1) hc1
  have e2 := hlev o2 (hall o2 b2) hc2
  have f1 := hE t o1 ho1 hc1
  have f2 := hE t o2 ho2 hc2
  omega


/-! ## Claim C6: level equality after `ModSwitcher` -/

/-- C6 (amended): for a well-formed acyclic program with fewer than `2^32`
terms, typed by `TypeDeducer`, that contains no `ModSwitch` term and in which
every `Rescale` term has an operand, the backward pass of `ModSwitcher`, its
destructor, `TypeDeducer` and the forward pass of `LevelsChecker` all return;
no assertion of `LevelsChecker` fails, and at every term the levels that
`LevelsChecker` computed are equal on all `Cipher` operands.  `junk` is the
value of the uninitialised `operandLevel` at a term without `Cipher` operand. -/
theorem modSwitcher_levels_equal (p : Program) (scales : TermMapOptional) (fuel junk : Nat)
    (hwf : p.WellFormed) (hac : p.Acyclic) (hn : p.nextTermIndex < u32)
    (hfuel : p.nextTermIndex ≤ fuel)
    (hsrc : ∀ s, s < p.nextTermIndex → p.operands s = [] → p.op s ≠ Op.Constant →
      (AttributeList.getType (p.attributes s)).isSome)
    (hms : ∀ t, t < p.nextTermIndex → p.op t ≠ Op.ModSwitch)
    (hresc : ∀ t, t < p.nextTermIndex → p.op t = Op.Rescale → p.operands t ≠ []) :
    ∃ lc, switchAndCheck fuel junk p scales = some lc ∧ lc.ok = true ∧
      ∀ t, lc.levelsEqualAt t := by
  obtain ⟨types, ht1, hrule0⟩ := deduceTypes_spec p hwf hac hsrc fuel hfuel
  obtain ⟨st, hs1, hJ, hall⟩ := switch_pass p types scales hwf hac hn fuel hfuel
  obtain ⟨f1, f2, f3, f4, f5, f6⟩ := finish_spec st.env hJ.wf
  obtain ⟨base, b1, b2, b3⟩ := hJ.base
  obtain ⟨r, hr⟩ := hJ.rank
  have hn0 := hJ.next_le
  -- terms of the final program without operands are sources of the starting program
  have hold : ∀ s, s < st.env.finish.program.nextTermIndex →
      st.env.finish.program.operands s = [] → s < p.nextTermIndex ∧ p.operands s = [] := by
    intro s hs hops
    rw [f2] at hs
    rw [f3] at hops
    by_cases hs0 : s < p.nextTermIndex
    · refine ⟨hs0, ?_⟩
      rw [← b2 s hs0, hops]
      rfl
    · exfalso
      obtain ⟨prev, hp1, _⟩ := b3 s (by omega) hs
      rw [hp1] at hops
      simp at hops
  have hacq : st.env.finish.program.Acyclic :=
    ⟨r, fun t o ho => hr t o (by rw [f3] at ho; exact ho)⟩
  have hsrcq : ∀ s, s < st.env.finish.program.nextTermIndex →
      st.env.finish.program.operands s = [] → st.env.finish.program.op s ≠ Op.Constant →
      (AttributeList.getType (st.env.finish.program.attributes s)).isSome := by
    intro s hs hops hcst
    obtain ⟨hs0, hops0⟩ := hold s hs hops
    rw [f5, (hJ.op_old s hs0).2]
    apply hsrc s hs0 hops0
    rw [← (hJ.op_old s hs0).1, ← f4]
    exact hcst
  obtain ⟨types1, ht2, hrule1⟩ := deduceTypes_spec st.env.finish.program f1 hacq hsrcq
    st.env.finish.program.nextTermIndex (le_refl _)
  -- a term that is `Cipher` after the pass stems from a `Cipher` term
  have htransfer : ∀ k y, r y < k → y < st.env.finish.program.nextTermIndex →
      types1 y = TermType.Cipher → types (base y) = TermType.Cipher := by
    intro k
    induction k with
    | zero => intro y hy; omega
    | succ k ih =>
      intro y hry hy hyc
      have hrule := hrule1 y hy
      unfold TypeRule at hrule
      by_cases hops : st.env.finish.program.operands y = []
      · obtain ⟨hy0, hops0⟩ := hold y hy hops
        rw [if_pos hops] at hrule
        have hrule2 := hrule0 y hy0
        unfold TypeRule at hrule2
        rw [if_pos hops0] at hrule2
        have hop : st.env.finish.program.op y = p.op y := by
          rw [f4, (hJ.op_old y hy0).1]
        rw [hop] at hrule
        rw [b1 y hy0]
        by_cases hcst : p.op y = Op.Constant
        · rw [if_pos hcst] at hrule
          rw [hrule] at hyc
          exact absurd hyc (by decide)
        · rw [if_neg hcst] at hrule hrule2
          rw [f5, (hJ.op_old y hy0).2, hrule2] at hrule
          have := Option.some.inj hrule
          rw [this]
          exact hyc
      · rw [if_neg hops] at hrule
        have henc : st.env.finish.program.op y ≠ Op.Encode := by
          intro hc
          rw [if_pos hc] at hrule
          rw [hrule] at hyc
          exact absurd hyc (by decide)
        rw [if_neg henc] at hrule
        rw [hrule] at hyc
        obtain ⟨o, ho, hoc⟩ := (inferredType_eq_cipher _ _).mp hyc
        have ho1 : o ∈ st.env.program.operands y := by rw [f3] at ho; exact ho
        have hob := (hJ.wf.consistent.operand_lt ho1).2
        have hro := hr y o ho1
        have ih1 := ih o (by omega) (by rw [f2]; exact hob) hoc
        by_cases hy0 : y < p.nextTermIndex
        · rw [b1 y hy0]
          have hrule2 := hrule0 y hy0
          unfold TypeRule at hrule2
          have hmem : base o ∈ p.operands y := by
            rw [← b2 y hy0]
            exact List.mem_map.mpr ⟨o, ho1, rfl⟩
          have hops0 : p.operands y ≠ [] := List.ne_nil_of_mem hmem
          have hop : p.op y ≠ Op.Encode := by
            rw [← (hJ.op_old y hy0).1, ← f4]
            exact henc
          rw [if_neg hops0, if_neg hop] at hrule2
          rw [hrule2]
          exact (inferredType_eq_cipher _ _).mpr ⟨base o, hmem, ih1⟩
        · obtain ⟨prev, hp1, hp2⟩ := b3 y (by omega) (by rw [f2] at hy; exact hy)
          rw [hp1] at ho1
          have : o = prev := by simpa using ho1
          rw [hp2, ← this]
          exact ih1
  have hvislen : st.visited.length ≤ p.nextTermIndex :=
    nodup_bounded_length st.visited p.nextTermIndex hJ.vis_nodup hJ.vis_lt
  have hM : st.env.maxLevel < u32 := by
    have := (maxLevel_spec st.env).2 st.visited.length (fun s _ => hJ.level_le s)
    omega
  have hE : ∀ t o, o ∈ st.env.finish.program.operands t → types1 o = TermType.Cipher →
      st.env.level t + checkerCost st.env.finish.program o = st.env.level o := by
    intro t o ho hoc
    have ho1 : o ∈ st.env.program.operands t := by rw [f3] at ho; exact ho
    have hob := (hJ.wf.consistent.operand_lt ho1).2
    unfold checkerCost
    rw [f4]
    by_cases ho0 : o < p.nextTermIndex
    · have htc := htransfer (r o + 1) o (by omega) (by rw [f2]; exact hob) hoc
      rw [b1 o ho0] at htc
      have hcl := hJ.closed o (hall o ho0) (by rw [htc]; decide) t ho1
      unfold levelCost at hcl
      rw [(hJ.op_old o ho0).1]
      have hnms := hms o ho0
      by_cases hres : p.op o = Op.Rescale
      · rw [if_pos hres] at hcl
        rw [if_pos (Or.inl hres)]
        exact hcl
      · rw [if_neg hres] at hcl
        rw [if_neg (by tauto)]
        exact hcl
    · obtain ⟨n1, n2, _⟩ := hJ.new_node o (by omega) hob
      rw [if_pos (Or.inr n1)]
      exact n2 t ho1
  have hS : ∀ s, s < st.env.finish.program.nextTermIndex →
      st.env.finish.program.operands s = [] →
      AttributeList.getUInt32 (st.env.finish.program.attributes s) EncodeAtLevelAttribute
        = some (sub32 st.env.maxLevel (st.env.level s)) ∧
      st.env.level s ≤ st.env.maxLevel ∧ checkerCost st.env.finish.program s = 0 := by
    intro s hs hops
    obtain ⟨hs0, hops0⟩ := hold s hs hops
    have hsrcmem : s ∈ st.env.program.getSources := by
      apply (hJ.wf.consistent.src s).mpr
      rw [f2] at hs
      rw [f3] at hops
      exact ⟨hs, hops⟩
    refine ⟨f6 s hsrcmem, (maxLevel_spec st.env).1 s hsrcmem, ?_⟩
    unfold checkerCost
    rw [f4, (hJ.op_old s hs0).1]
    have h1 := hms s hs0
    have h2 : p.op s ≠ Op.Rescale := fun hc => hresc s hs0 hc hops0
    rw [if_neg (by tauto)]
  have hT : ∀ t, t < st.env.finish.program.nextTermIndex →
      st.env.finish.program.operands t ≠ [] → types1 t = TermType.Cipher →
      ∃ o ∈ st.env.finish.program.operands t, types1 o = TermType.Cipher := by
    intro t ht hops htc
    have hrule := hrule1 t ht
    unfold TypeRule at hrule
    rw [if_neg hops] at hrule
    by_cases henc : st.env.finish.program.op t = Op.Encode
    · rw [if_pos henc] at hrule
      rw [hrule] at htc
      exact absurd htc (by decide)
    · rw [if_neg henc] at hrule
      rw [hrule] at htc
      exact (inferredType_eq_cipher _ _).mp htc
  obtain ⟨lc, hl1, hl2, hl3, hl4, hl5⟩ := levelsChecker_pass st.env.finish.program types1
    st.env.level st.env.maxLevel junk f1 hacq hM hE hS hT
    st.env.finish.program.nextTermIndex (le_refl _)
  refine ⟨lc.env, ?_, hl4, hl5⟩
  unfold switchAndCheck
  simp only [ht1, hs1, ht2, hl1, Option.map_some']

theorem rescaledProduct_wellFormed : rescaledProduct.WellFormed := by
  unfold rescaledProduct
  apply wellFormed_setAttribute
  exact run_wellFormed "rescaledProduct" 8 _ _ (run_eq_foldl _ _ (by decide!))

theorem rescaledProduct_acyclic : rescaledProduct.Acyclic := by
  refine ⟨fun x => x, ?_⟩
  intro t o ho
  have hlt := (rescaledProduct_wellFormed.consistent.operand_lt ho).1
  have hb : ∀ t, t < rescaledProduct.nextTermIndex →
      ∀ o ∈ rescaledProduct.operands t, o < t := by
    decide!
  exact hb t hlt o ho


/-- Witness of C6 (amended): in `out = x * Rescale(x)` the pass inserts the
`ModSwitch` term 4 between `x` and the `Mul`, whose operands become `[4, 1]`,
both at level 1, and `LevelsChecker` passes. -/
theorem modSwitcher_levels_equal_witness :
    (switchAndCheck 4 0 rescaledProduct (fun _ => some 30)).map
      (fun lc => (lc.ok, lc.program.operands 2, lc.program.op 4, lc.levels 4, lc.levels 1))
      = some (true, [4, 1], Op.ModSwitch, 1, 1) ∧
    ∃ lc, switchAndCheck 4 0 rescaledProduct (fun _ => some 30) = some lc ∧ lc.ok = true ∧
      ∀ t, lc.levelsEqualAt t :=
  ⟨by decide!,
   modSwitcher_levels_equal rescaledProduct (fun _ => some 30) 4 0 rescaledProduct_wellFormed
     rescaledProduct_acyclic (by decide!) (by decide!) (by decide!) (by decide!) (by decide!)⟩

/-- C6 as stated fails: `out = x + ModSwitch(x)` is a typed program, the pass
of `ModSwitcher` leaves it as it is and writes level 0 on `x`, and
`LevelsChecker` then finds the `Cipher` operands `x` and `ModSwitch(x)` of the
`Add` (term 2) at levels 0 and 1: its assertion fails. -/
theorem modSwitcher_ignores_present_modSwitch :
    (switchAndCheck 4 0 preSwitched (fun _ => some 30)).map
      (fun lc => (lc.ok, lc.program.operands 2, lc.types 0, lc.types 1, lc.levels 0,
        lc.levels 1))
      = some (false, [0, 1], TermType.Cipher, TermType.Cipher, 0, 1) ∧
    ∃ lc, switchAndCheck 4 0 preSwitched (fun _ => some 30) = some lc ∧
      ¬ lc.levelsEqualAt 2 := by
  have hval : (switchAndCheck 4 0 preSwitched (fun _ => some 30)).map
      (fun lc => (lc.ok, lc.program.operands 2, lc.types 0, lc.types 1, lc.levels 0,
        lc.levels 1))
      = some (false, [0, 1], TermType.Cipher, TermType.Cipher, 0, 1) := by decide!
  refine ⟨hval, ?_⟩
  cases hrun : switchAndCheck 4 0 preSwitched (fun _ => some 30) with
  | none =>
    rw [hrun] at hval
    simp at hval
  | some lc =>
    rw [hrun] at hval
    simp only [Option.map_some', Option.some.injEq, Prod.mk.injEq] at hval
    obtain ⟨_, h2, h3, h4, h5, h6⟩ := hval
    refine ⟨lc, rfl, ?_⟩
    intro h
    have := h 0 (by rw [h2]; simp) 1 (by rw [h2]; simp) h3 h4
    rw [h5, h6] at this
    exact absurd this (by decide)

/-! ## The `Minimum` policy on a product with an operand below `minScale` -/

/-- C11: the `Minimum` policy on `out = a * c` with `a` at scale 30 and `c` at
scale 20, where the smaller operand scale `m = 20` lies below `minScale = 30`.
The claim has no `Rescale` inserted before the `Mul` there, since
`2 * (20 - 30) < 60` as integers.  The pass ends with no assertion violated
and with the `Mul` (term 2) reading from two new `Rescale` terms 4 and 5, each
with divisor 60, over `a` and `c`: `minOfScales - minScale` wrapped around in
32 bits and was clamped to 60.  The scales recorded are `30 - 60`, `20 - 60` and
`50 - 120` modulo `2 ^ 32`.  `EagerWaterlineRescaler` creates no term on the
same program and records scale 50 for the `Mul`. -/
theorem minimumRescaler_rescales_below_minScale :
    (runRescaler (MinimumRescaler.rewriter 10) 20 unequalProduct).map
        (fun st => (st.ok, st.minScale, st.program.nextTermIndex)) = some (true, 30, 6) ∧
    (runRescaler (MinimumRescaler.rewriter 10) 20 unequalProduct).map
        (fun st => (st.program.op 2, st.program.op 4, st.program.op 5))
      = some (Op.Mul, Op.Rescale, Op.Rescale) ∧
    (runRescaler (MinimumRescaler.rewriter 10) 20 unequalProduct).map
        (fun st => (st.program.operands 2, st.program.operands 4, st.program.operands 5))
      = some ([4, 5], [0], [1]) ∧
    (runRescaler (MinimumRescaler.rewriter 10) 20 unequalProduct).map
        (fun st => ((st.program.attributes 4).getUInt32 RescaleDivisorAttribute,
          (st.program.attributes 5).getUInt32 RescaleDivisorAttribute))
      = some (some 60, some 60) ∧
    (runRescaler (MinimumRescaler.rewriter 10) 20 unequalProduct).map
        (fun st => (st.scale 0, st.scale 1, st.scale 4, st.scale 5, st.scale 2))
      = some (some 30, some 20, some 4294967266, some 4294967256, some 4294967226) ∧
    (runRescaler (EagerWaterlineRescaler.rewriter 10) 20 unequalProduct).map
        (fun st => (st.ok, st.program.nextTermIndex, st.program.operands 2, st.scale 2))
      = some (true, 4, [0, 1], some 50) := by
  refine ⟨?_, ?_, ?_, ?_, ?_, ?_⟩ <;> decide!

/-! ## The rule of `TypeDeducer` -/

theorem typedSample_wellFormed : typedSample.WellFormed := by
  unfold typedSample
  apply wellFormed_setAttribute
  exact run_wellFormed "typedSample" 8 _ _ (run_eq_foldl _ _ (by decide!))

theorem typedSample_acyclic : typedSample.Acyclic := by
  refine ⟨fun x => x, ?_⟩
  intro t o ho
  have hlt := (typedSample_wellFormed.consistent.operand_lt ho).1
  have hb : ∀ t, t < typedSample.nextTermIndex →
      ∀ o ∈ typedSample.operands t, o < t := by
    decide!
  exact hb t hlt o ho

/-- C16: a forward pass of `TypeDeducer` over a well-formed acyclic program
whose sources other than constants carry a `TypeAttribute` returns, whatever
the type map held before, and leaves the program unchanged and the type map
as follows, the cases being read in the order of the sentence: a `Constant`
without operands is `Raw`; any other term without operands has the type of
its `TypeAttribute`; an `Encode` term (with operands) is `Plain`; any other
term is `Cipher` if at least one operand is `Cipher`, and `Raw` if all its
operands are `Raw`. -/
theorem typeDeducer_rule (q : Program) (ty0 : Nat → TermType) (hwf : q.WellFormed)
    (hac : q.Acyclic)
    (hsrc : ∀ s, s < q.nextTermIndex → q.operands s = [] → q.op s ≠ Op.Constant →
      (AttributeList.getType (q.attributes s)).isSome)
    (fuel : Nat) (hfuel : q.nextTermIndex ≤ fuel) :
    ∃ st, forwardPass TypeDeducer.rewriter fuel { program := q, types := ty0 } = some st ∧
      st.env.program = q ∧
      ∀ t, t < q.nextTermIndex →
        (q.operands t = [] → q.op t = Op.Constant → st.env.types t = TermType.Raw) ∧
        (q.operands t = [] → q.op t ≠ Op.Constant →
          AttributeList.getType (q.attributes t) = some (st.env.types t)) ∧
        (q.operands t ≠ [] → q.op t = Op.Encode → st.env.types t = TermType.Plain) ∧
        (q.operands t ≠ [] → q.op t ≠ Op.Encode →
          ((∃ o ∈ q.operands t, st.env.types o = TermType.Cipher) →
            st.env.types t = TermType.Cipher) ∧
          ((∀ o ∈ q.operands t, st.env.types o = TermType.Raw) →
            st.env.types t = TermType.Raw)) := by
  obtain ⟨st, h1, _, hprog, hJ, hcount, _⟩ := traverse_spec true TypeDeducer.rewriter
    { program := q, types := ty0 } (TypeDeducerInv q)
    (fun env1 visited term _ hJ hnot hlt hpred =>
      typeDeducer_step q hsrc env1 visited term hJ hnot hlt
        (fun o ho => hpred o (by simpa [predecessors] using ho)))
    ⟨rfl, by simp, by simp⟩
    (dirFacts_forward q hwf.consistent hac) hwf.sets.1 fuel hfuel
  refine ⟨st, h1, hprog, ?_⟩
  intro t ht
  have hrule : TypeRule q st.env.types t := by
    apply hJ.2.2 t
    have hc := hcount t
    have ht1 : t < (TypeDeducer.rewriter.program
        { program := q, types := ty0 }).nextTermIndex := ht
    rw [if_pos ht1] at hc
    exact List.count_pos_iff.mp (by omega)
  unfold TypeRule at hrule
  refine ⟨?_, ?_, ?_, ?_⟩
  · intro h0 hc
    rw [if_pos h0, if_pos hc] at hrule
    exact hrule
  · intro h0 hc
    rw [if_pos h0, if_neg hc] at hrule
    exact hrule
  · intro h0 he
    rw [if_neg h0, if_pos he] at hrule
    exact hrule
  · intro h0 he
    rw [if_neg h0, if_neg he] at hrule
    refine ⟨?_, ?_⟩
    · intro hex
      rw [hrule]
      exact (inferredType_eq_cipher _ _).mpr hex
    · intro hall
      rw [hrule]
      rcases inferredType_cases st.env.types (q.operands t) with hc | hr
      · obtain ⟨o, ho, hoc⟩ := (inferredType_eq_cipher _ _).mp hc
        rw [hall o ho] at hoc
        exact absurd hoc (by decide)
      · exact hr

/-- Witness of C16 on `out = x * Encode(c)` with the unused `-c`: the pass
returns with `x` and the `Mul` and the output `Cipher`, `c` and `-c` `Raw`
and the `Encode` `Plain`. -/
theorem typeDeducer_rule_witness :
    (forwardPass TypeDeducer.rewriter 6
        { program := typedSample, types := fun _ => TermType.Undef }).map
      (fun st => (List.range 6).map st.env.types)
      = some [TermType.Cipher, TermType.Raw, TermType.Plain, TermType.Cipher, TermType.Raw,
          TermType.Cipher] ∧
    ∃ st, forwardPass TypeDeducer.rewriter 6
        { program := typedSample, types := fun _ => TermType.Undef } = some st ∧
      st.env.program = typedSample ∧
      ∀ t, t < typedSample.nextTermIndex →
        (typedSample.operands t = [] → typedSample.op t = Op.Constant →
          st.env.types t = TermType.Raw) ∧
        (typedSample.operands t = [] → typedSample.op t ≠ Op.Constant →
          AttributeList.getType (typedSample.attributes t) = some (st.env.types t)) ∧
        (typedSample.operands t ≠ [] → typedSample.op t = Op.Encode →
          st.env.types t = TermType.Plain) ∧
        (typedSample.operands t ≠ [] → typedSample.op t ≠ Op.Encode →
          ((∃ o ∈ typedSample.operands t, st.env.types o = TermType.Cipher) →
            st.env.types t = TermType.Cipher) ∧
          ((∀ o ∈ typedSample.operands t, st.env.types o = TermType.Raw) →
            st.env.types t = TermType.Raw)) :=
  ⟨by decide!,
   typeDeducer_rule typedSample (fun _ => TermType.Undef) typedSample_wellFormed
     typedSample_acyclic (by decide!) 6 (by decide!)⟩

/-! ## The forward pass of `RotationKeysSelector` -/

theorem keysInsert_mem (s : List Int) (k x : Int) :
    x ∈ keysInsert s k ↔ x = k ∨ x ∈ s := by
  induction s with
  | nil => simp [keysInsert]
  | cons a s ih =>
    unfold keysInsert
    by_cases h1 : k < a
    · rw [if_pos h1]
      simp
    · rw [if_neg h1]
      by_cases h2 : k = a
      · rw [if_pos h2]
        subst h2
        simp
      · rw [if_neg h2]
        simp only [List.mem_cons, ih]
        tauto

/-- One call of `RotationKeysSelector` in a forward pass keeps the invariant. -/
theorem rotationKeys_step (q : Program) (ty : Nat → TermType)
    (hattr : ∀ t, t < q.nextTermIndex → (q.op t = Op.RotateLeftConst ∨ q.op t = Op.RotateRightConst) →
      ty t ≠ TermType.Raw →
      (AttributeList.getInt32 (q.attributes t) RotationAttribute).isSome)
    (env : RotationKeysSelector) (visited : List Nat) (x : Nat)
    (h : RotationKeysInv q ty env visited) (hlt : x < q.nextTermIndex) :
    ∃ env1, RotationKeysSelector.visit env x = some env1 ∧ env1.program = q ∧
      RotationKeysInv q ty env1 (visited ++ [x]) := by
  obtain ⟨hp, hty, hkeys⟩ := h
  subst hp hty
  unfold RotationKeysSelector.visit
  simp only []
  by_cases hrot : env.program.op x = Op.RotateLeftConst ∨ env.program.op x = Op.RotateRightConst
  · have hc : (!isLeftRotationOp (env.program.op x) && !isRightRotationOp (env.program.op x))
        = false := by
      unfold isLeftRotationOp isRightRotationOp
      rcases hrot with h1 | h1 <;> simp [h1]
    rw [hc]
    simp only [Bool.false_eq_true, if_false]
    by_cases hraw : env.type x = TermType.Raw
    · rw [if_pos hraw]
      refine ⟨env, rfl, rfl, rfl, rfl, ?_⟩
      intro k
      rw [hkeys k]
      have hk : rotationKeyOf env.program env.type x = none := by
        unfold rotationKeyOf
        rw [if_neg]
        intro hh
        exact hh.2 hraw
      constructor
      · rintro ⟨t, ht, hk1⟩
        exact ⟨t, by simp [ht], hk1⟩
      · rintro ⟨t, ht, hk1⟩
        rcases List.mem_append.mp ht with ht1 | ht1
        · exact ⟨t, ht1, hk1⟩
        · simp only [List.mem_singleton] at ht1
          subst ht1
          rw [hk] at hk1
          exact absurd hk1 (by simp)
    · rw [if_neg hraw]
      have hsome := hattr x hlt hrot hraw
      obtain ⟨r, hr⟩ := Option.isSome_iff_exists.mp hsome
      rw [hr]
      refine ⟨_, rfl, rfl, rfl, rfl, ?_⟩
      intro k
      simp only []
      rw [keysInsert_mem, hkeys k]
      have hk : rotationKeyOf env.program env.type x
          = some (if isRightRotationOp (env.program.op x) = true then neg32 r else r) := by
        unfold rotationKeyOf
        rw [if_pos ⟨hrot, hraw⟩, hr]
        simp [isRightRotationOp]
      constructor
      · rintro (h1 | ⟨t, ht, hk1⟩)
        · exact ⟨x, by simp, by rw [hk, h1]⟩
        · exact ⟨t, by simp [ht], hk1⟩
      · rintro ⟨t, ht, hk1⟩
        rcases List.mem_append.mp ht with ht1 | ht1
        · exact Or.inr ⟨t, ht1, hk1⟩
        · simp only [List.mem_singleton] at ht1
          subst ht1
          rw [hk] at hk1
          exact Or.inl (Option.some.inj hk1).symm
  · have hc : (!isLeftRotationOp (env.program.op x) && !isRightRotationOp (env.program.op x))
        = true := by
      unfold isLeftRotationOp isRightRotationOp
      simp only [not_or] at hrot
      simp [hrot.1, hrot.2]
    rw [hc]
    simp only [if_true]
    refine ⟨env, rfl, rfl, rfl, rfl, ?_⟩
    intro k
    rw [hkeys k]
    have hk : rotationKeyOf env.program env.type x = none := by
      unfold rotationKeyOf
      rw [if_neg]
      intro hh
      exact hrot hh.1
    constructor
    · rintro ⟨t, ht, hk1⟩
      exact ⟨t, by simp [ht], hk1⟩
    · rintro ⟨t, ht, hk1⟩
      rcases List.mem_append.mp ht with ht1 | ht1
      · exact ⟨t, ht1, hk1⟩
      · simp only [List.mem_singleton] at ht1
        subst ht1
        rw [hk] at hk1
        exact absurd hk1 (by simp)

theorem rotationSample_wellFormed : rotationSample.WellFormed := by
  unfold rotationSample
  apply wellFormed_setAttribute
  apply wellFormed_setAttribute
  apply wellFormed_setAttribute
  exact run_wellFormed "rotations" 8 _ _ (run_eq_foldl _ _ (by decide!))

theorem rotationSample_acyclic : rotationSample.Acyclic := by
  refine ⟨fun x => x, ?_⟩
  intro t o ho
  have hlt := (rotationSample_wellFormed.consistent.operand_lt ho).1
  have hb : ∀ t, t < rotationSample.nextTermIndex →
      ∀ o ∈ rotationSample.operands t, o < t := by
    decide!
  exact hb t hlt o ho

/-- C19: over a well-formed acyclic program in which every rotation that is
not `Raw` carries a `RotationAttribute`, and no right rotation the step
`-2^31` whose negation overflows, a forward pass of `RotationKeysSelector`
returns, and the key set it returns holds exactly the steps `k` of the left
rotations that are not `Raw` and the negated steps `-k` of the right rotations
that are not `Raw`.  For `y = rotate_left(a, 3) + rotate_right(a, 5)` with a
`Cipher` input `a`, typed by `TypeDeducer`, the set is `{-5, 3}`. -/
theorem rotationKeys_exact (q : Program) (ty : Nat → TermType) (hwf : q.WellFormed)
    (hac : q.Acyclic)
    (hattr : ∀ t, t < q.nextTermIndex →
      (q.op t = Op.RotateLeftConst ∨ q.op t = Op.RotateRightConst) → ty t ≠ TermType.Raw →
      (AttributeList.getInt32 (q.attributes t) RotationAttribute).isSome)
    (hneg : ∀ t, t < q.nextTermIndex → q.op t = Op.RotateRightConst → ty t ≠ TermType.Raw →
      AttributeList.getInt32 (q.attributes t) RotationAttribute ≠ some (-2147483648))
    (fuel : Nat) (hfuel : q.nextTermIndex ≤ fuel) :
    (∃ keys, selectRotationKeys fuel q ty = some keys ∧
      ∀ k, k ∈ keys ↔
        ((∃ t, t < q.nextTermIndex ∧ q.op t = Op.RotateLeftConst ∧ ty t ≠ TermType.Raw ∧
            AttributeList.getInt32 (q.attributes t) RotationAttribute = some k) ∨
         (∃ t r, t < q.nextTermIndex ∧ q.op t = Op.RotateRightConst ∧ ty t ≠ TermType.Raw ∧
            AttributeList.getInt32 (q.attributes t) RotationAttribute = some r ∧ k = -r))) ∧
    (deduceTypes 5 rotationSample).bind (fun ty => selectRotationKeys 5 rotationSample ty)
      = some [-5, 3] := by
  refine ⟨?_, by decide!⟩
  obtain ⟨st, h1, _, _, hJ, hcount, _⟩ := traverse_spec true RotationKeysSelector.rewriter
    (RotationKeysSelector.init q ty) (RotationKeysInv q ty)
    (fun env1 visited term _ hJ _ hlt _ => rotationKeys_step q ty hattr env1 visited term hJ hlt)
    ⟨rfl, rfl, by simp [RotationKeysSelector.init]⟩
    (dirFacts_forward q hwf.consistent hac) hwf.sets.1 fuel hfuel
  refine ⟨st.env.keys, ?_, ?_⟩
  · unfold selectRotationKeys forwardPass
    rw [h1]
    rfl
  · have hvis : ∀ t, t < q.nextTermIndex → t ∈ st.visited := by
      intro t ht
      have hc := hcount t
      have ht1 : t < (RotationKeysSelector.rewriter.program
          (RotationKeysSelector.init q ty)).nextTermIndex := ht
      rw [if_pos ht1] at hc
      exact List.count_pos_iff.mp (by omega)
    have hvis2 : ∀ t, t ∈ st.visited → t < q.nextTermIndex := by
      intro t ht
      by_contra hlt
      have hc := hcount t
      have ht1 : ¬ t < (RotationKeysSelector.rewriter.program
          (RotationKeysSelector.init q ty)).nextTermIndex := hlt
      rw [if_neg ht1] at hc
      exact absurd (List.count_pos_iff.mpr ht) (by omega)
    intro k
    rw [hJ.2.2 k]
    constructor
    · rintro ⟨t, ht, hk⟩
      have hlt := hvis2 t ht
      unfold rotationKeyOf at hk
      split at hk
      · rename_i hc
        obtain ⟨hrot, hraw⟩ := hc
        cases hg : AttributeList.getInt32 (q.attributes t) RotationAttribute with
        | none =>
          rw [hg] at hk
          simp at hk
        | some r =>
          rw [hg] at hk
          simp only [Option.map_some', Option.some.injEq] at hk
          by_cases hright : q.op t = Op.RotateRightConst
          · rw [if_pos hright] at hk
            refine Or.inr ⟨t, r, hlt, hright, hraw, hg, ?_⟩
            have hne : r ≠ -2147483648 := by
              intro hr
              exact hneg t hlt hright hraw (by rw [hg, hr])
            unfold neg32 at hk
            rw [if_neg hne] at hk
            exact hk.symm
          · rw [if_neg hright] at hk
            rcases hrot with hl | hr
            · exact Or.inl ⟨t, hlt, hl, hraw, by rw [hg, hk]⟩
            · exact absurd hr hright
      · simp at hk
    · rintro (⟨t, hlt, hl, hraw, hg⟩ | ⟨t, r, hlt, hr, hraw, hg, hk⟩)
      · refine ⟨t, hvis t hlt, ?_⟩
        unfold rotationKeyOf
        rw [if_pos ⟨Or.inl hl, hraw⟩, hg]
        simp [hl]
      · refine ⟨t, hvis t hlt, ?_⟩
        unfold rotationKeyOf
        rw [if_pos ⟨Or.inr hr, hraw⟩, hg]
        have hne : r ≠ -2147483648 := by
          intro hr1
          exact hneg t hlt hr hraw (by rw [hg, hr1])
        simp [hr, neg32, hne, hk]

/-- Witness of C19 on `y = rotate_left(a, 3) + rotate_right(a, 5)` with every
term `Cipher`. -/
theorem rotationKeys_exact_witness :
    selectRotationKeys 5 rotationSample (fun _ => TermType.Cipher) = some [-5, 3] ∧
    ((∃ keys, selectRotationKeys 5 rotationSample (fun _ => TermType.Cipher) = some keys ∧
      ∀ k, k ∈ keys ↔
        ((∃ t, t < rotationSample.nextTermIndex ∧ rotationSample.op t = Op.RotateLeftConst ∧
            (fun _ => TermType.Cipher) t ≠ TermType.Raw ∧
            AttributeList.getInt32 (rotationSample.attributes t) RotationAttribute = some k) ∨
         (∃ t r, t < rotationSample.nextTermIndex ∧ rotationSample.op t = Op.RotateRightConst ∧
            (fun _ => TermType.Cipher) t ≠ TermType.Raw ∧
            AttributeList.getInt32 (rotationSample.attributes t) RotationAttribute = some r ∧
            k = -r))) ∧
    (deduceTypes 5 rotationSample).bind (fun ty => selectRotationKeys 5 rotationSample ty)
      = some [-5, 3]) :=
  ⟨by decide!,
   rotationKeys_exact rotationSample (fun _ => TermType.Cipher) rotationSample_wellFormed
     rotationSample_acyclic (by decide!) (by decide!) 5 (by decide!)⟩

/-! ## The ring degree -/

theorem degreeAt_succ (k : Nat) : (degreeAt k * 2) % size64 = degreeAt (k + 1) := by
  unfold degreeAt
  rw [Nat.mul_mod, Nat.mod_mod, ← Nat.mul_mod, pow_succ, Nat.mul_assoc]

theorem degreeAt_small (i j : Nat) (hrep : 1024 * 2 ^ i < size64) (hj : j ≤ i) :
    degreeAt j = 1024 * 2 ^ j := by
  unfold degreeAt
  apply Nat.mod_eq_of_lt
  have h2 : 2 ^ j ≤ 2 ^ i := Nat.pow_le_pow_right (by decide) hj
  calc 1024 * 2 ^ j ≤ 1024 * 2 ^ i := Nat.mul_le_mul_left _ h2
    _ < size64 := hrep

/-- The loop returns the first degree that admits `bitCount` when no degree up
to it has the table value `0`. -/
theorem getMinDegreeLoop_returns (f : Nat → Int) (b : Int) :
    ∀ (i k : Nat) (seen : Int) (fuel : Nat), i < fuel →
      (∀ j, j < i → f (degreeAt (k + j)) ≠ 0 ∧ f (degreeAt (k + j)) < b) →
      f (degreeAt (k + i)) ≠ 0 → b ≤ f (degreeAt (k + i)) →
      getMinDegreeLoop f b fuel (degreeAt k) seen = some (Except.ok (degreeAt (k + i))) := by
  intro i
  induction i with
  | zero =>
    intro k seen fuel hfuel _ hnz hge
    obtain ⟨fuel1, rfl⟩ : ∃ m, fuel = m + 1 := ⟨fuel - 1, by omega⟩
    unfold getMinDegreeLoop
    simp only [Nat.add_zero] at hnz hge ⊢
    rw [if_neg hnz, if_pos hge]
  | succ i ih =>
    intro k seen fuel hfuel hpre hnz hge
    obtain ⟨fuel1, rfl⟩ : ∃ m, fuel = m + 1 := ⟨fuel - 1, by omega⟩
    unfold getMinDegreeLoop
    have h0 := hpre 0 (by omega)
    simp only [Nat.add_zero] at h0
    simp only []
    rw [if_neg h0.1, if_neg (by omega), degreeAt_succ]
    have hk : k + (i + 1) = k + 1 + i := by omega
    rw [hk] at hnz hge ⊢
    apply ih (k + 1) _ fuel1 (by omega) _ hnz hge
    intro j hj
    have := hpre (j + 1) (by omega)
    have hk2 : k + (j + 1) = k + 1 + j := by omega
    rw [hk2] at this
    exact this

/-- The loop throws when it reaches a degree with the table value `0`. -/
theorem getMinDegreeLoop_raises (f : Nat → Int) (b : Int) :
    ∀ (i k : Nat) (seen : Int) (fuel : Nat), i < fuel →
      (∀ j, j < i → f (degreeAt (k + j)) ≠ 0 ∧ f (degreeAt (k + j)) < b) →
      f (degreeAt (k + i)) = 0 →
      ∃ msg, getMinDegreeLoop f b fuel (degreeAt k) seen = some (Except.error msg) := by
  intro i
  induction i with
  | zero =>
    intro k seen fuel hfuel _ hz
    obtain ⟨fuel1, rfl⟩ : ∃ m, fuel = m + 1 := ⟨fuel - 1, by omega⟩
    unfold getMinDegreeLoop
    simp only [Nat.add_zero] at hz ⊢
    rw [if_pos hz]
    exact ⟨_, rfl⟩
  | succ i ih =>
    intro k seen fuel hfuel hpre hz
    obtain ⟨fuel1, rfl⟩ : ∃ m, fuel = m + 1 := ⟨fuel - 1, by omega⟩
    unfold getMinDegreeLoop
    have h0 := hpre 0 (by omega)
    simp only [Nat.add_zero] at h0
    simp only []
    rw [if_neg h0.1, if_neg (by omega), degreeAt_succ]
    have hk : k + (i + 1) = k + 1 + i := by omega
    rw [hk] at hz
    apply ih (k + 1) _ fuel1 (by omega) _ hz
    intro j hj
    have := hpre (j + 1) (by omega)
    have hk2 : k + (j + 1) = k + 1 + j := by omega
    rw [hk2] at this
    exact this

/-- The loop throws only at a degree with the table value `0` that it reaches. -/
theorem getMinDegreeLoop_raised (f : Nat → Int) (b : Int) :
    ∀ (fuel k : Nat) (seen : Int) (msg : String),
      getMinDegreeLoop f b fuel (degreeAt k) seen = some (Except.error msg) →
      ∃ i, f (degreeAt (k + i)) = 0 ∧
        ∀ j, j < i → f (degreeAt (k + j)) ≠ 0 ∧ f (degreeAt (k + j)) < b := by
  intro fuel
  induction fuel with
  | zero =>
    intro k seen msg h
    simp [getMinDegreeLoop] at h
  | succ fuel ih =>
    intro k seen msg h
    unfold getMinDegreeLoop at h
    simp only [] at h
    by_cases hz : f (degreeAt k) = 0
    · exact ⟨0, by simpa using hz, by intro j hj; omega⟩
    · rw [if_neg hz] at h
      by_cases hge : f (degreeAt k) ≥ b
      · rw [if_pos hge] at h
        simp at h
      · rw [if_neg hge, degreeAt_succ] at h
        obtain ⟨i, hi, hpre⟩ := ih (k + 1) _ msg h
        refine ⟨i + 1, ?_, ?_⟩
        · have hk : k + (i + 1) = k + 1 + i := by omega
          rw [hk]
          exact hi
        · intro j hj
          cases j with
          | zero =>
            simp only [Nat.add_zero]
            exact ⟨hz, by omega⟩
          | succ j =>
            have := hpre j (by omega)
            have hk2 : k + (j + 1) = k + 1 + j := by omega
            rw [hk2]
            exact this

theorem degreeAt_zero : degreeAt 0 = 1024 := by decide

theorem chooseDegree_above_256 (tables : StandardTables) (config : CKKSConfig) (fuel : Nat)
    (bitCount : Int) (hsec : 256 < config.securityLevel) :
    chooseDegree tables config fuel bitCount
      = some (Except.error (securityMessage config.securityLevel)) := by
  unfold chooseDegree
  rw [if_neg (by omega), if_neg (by omega), if_neg (by omega)]

/-- C20 (amended): `getMinDegreeForBitCount(f, b)` returns the smallest degree
`d = 1024 * 2^i` (a `size_t`) with `f(d) >= b`, provided `f` is non-zero on `d`
and on every smaller degree of that form; it throws exactly when there is a
degree in the sequence it runs through at which `f` is `0`, every degree
before it having a value that is neither `0` nor at least `b`; and
`determineEncryptionParameters` never returns parameters for a security level
above 256: it throws the exception of the last branch whenever the two passes
and `getEncryptionParameters` return. -/
theorem ring_degree_selection :
    (∀ (f : Nat → Int) (b : Int) (i fuel : Nat), 1024 * 2 ^ i < size64 →
      (∀ j, j ≤ i → f (1024 * 2 ^ j) ≠ 0) → b ≤ f (1024 * 2 ^ i) →
      (∀ j, j < i → f (1024 * 2 ^ j) < b) → i < fuel →
      getMinDegreeForBitCount fuel f b = some (Except.ok (1024 * 2 ^ i))) ∧
    (∀ (f : Nat → Int) (b : Int),
      (∃ fuel msg, getMinDegreeForBitCount fuel f b = some (Except.error msg)) ↔
      ∃ i, f (degreeAt i) = 0 ∧ ∀ j, j < i → f (degreeAt j) ≠ 0 ∧ f (degreeAt j) < b) ∧
    (∀ (tables : StandardTables) (config : CKKSConfig) (fuel : Nat) (program : Program)
      (scales : TermMapOptional) (types : Nat → TermType), 256 < config.securityLevel →
      (∀ params, determineEncryptionParameters tables config fuel program scales types
        ≠ some (Except.ok params)) ∧
      (∀ eps rotations primeBits,
        forwardPass EncryptionParametersSelector.rewriter fuel
          (EncryptionParametersSelector.init program scales types) = some eps →
        selectRotationKeys fuel program types = some rotations →
        eps.env.getEncryptionParameters = some primeBits →
        determineEncryptionParameters tables config fuel program scales types
          = some (Except.error (securityMessage config.securityLevel)))) := by
  refine ⟨?_, ?_, ?_⟩
  · intro f b i fuel hrep hnz hge hmin hfuel
    unfold getMinDegreeForBitCount
    have h := getMinDegreeLoop_returns f b i 0 0 fuel hfuel
      (by
        intro j hj
        rw [Nat.zero_add, degreeAt_small i j hrep (by omega)]
        exact ⟨hnz j (by omega), hmin j hj⟩)
      (by
        rw [Nat.zero_add, degreeAt_small i i hrep (le_refl _)]
        exact hnz i (le_refl _))
      (by
        rw [Nat.zero_add, degreeAt_small i i hrep (le_refl _)]
        exact hge)
    rw [degreeAt_zero, Nat.zero_add, degreeAt_small i i hrep (le_refl _)] at h
    exact h
  · intro f b
    constructor
    · rintro ⟨fuel, msg, h⟩
      unfold getMinDegreeForBitCount at h
      rw [← degreeAt_zero] at h
      obtain ⟨i, hi, hpre⟩ := getMinDegreeLoop_raised f b fuel 0 0 msg h
      refine ⟨i, by simpa using hi, ?_⟩
      intro j hj
      simpa using hpre j hj
    · rintro ⟨i, hi, hpre⟩
      obtain ⟨msg, h⟩ := getMinDegreeLoop_raises f b i 0 0 (i + 1) (by omega)
        (by intro j hj; simpa using hpre j hj) (by simpa using hi)
      refine ⟨i + 1, msg, ?_⟩
      unfold getMinDegreeForBitCount
      rw [← degreeAt_zero]
      exact h
  · intro tables config fuel program scales types hsec
    refine ⟨?_, ?_⟩
    · intro params h
      unfold determineEncryptionParameters at h
      split at h
      · simp at h
      · split at h
        · simp at h
        · split at h
          · simp at h
          · rw [chooseDegree_above_256 tables config fuel _ hsec] at h
            simp at h
    · intro eps rotations primeBits h1 h2 h3
      unfold determineEncryptionParameters
      rw [h1]
      simp only []
      rw [h2]
      simp only []
      rw [h3]
      simp only []
      rw [chooseDegree_above_256 tables config fuel _ hsec]

/-- Witness of C20 (amended): with `sampleTable`, 120 bits are first admitted
at degree `8192 = 1024 * 2^3`, and a request for 512-bit security on
`singleMul` throws. -/
theorem ring_degree_selection_witness :
    getMinDegreeForBitCount 4 sampleTable 120 = some (Except.ok (1024 * 2 ^ 3)) ∧
    determineEncryptionParameters sampleTables
        { securityLevel := 512, quantumSafe := false, warnVecSize := true } 4 singleMul
        (fun _ => some 60) (fun _ => TermType.Cipher)
      = some (Except.error (securityMessage 512)) :=
  ⟨ring_degree_selection.1 sampleTable 120 3 4 (by decide) (by decide) (by decide) (by decide)
     (by decide),
   by
     have h := (ring_degree_selection.2.2 sampleTables
       { securityLevel := 512, quantumSafe := false, warnVecSize := true } 4 singleMul
       (fun _ => some 60) (fun _ => TermType.Cipher) (by decide)).2
     cases h1 : forwardPass EncryptionParametersSelector.rewriter 4
         (EncryptionParametersSelector.init singleMul (fun _ => some 60)
           (fun _ => TermType.Cipher)) with
     | none =>
       have : (forwardPass EncryptionParametersSelector.rewriter 4
         (EncryptionParametersSelector.init singleMul (fun _ => some 60)
           (fun _ => TermType.Cipher))).isSome = true := by decide!
       rw [h1] at this
       exact absurd this (by simp)
     | some eps =>
       cases h2 : selectRotationKeys 4 singleMul (fun _ => TermType.Cipher) with
       | none =>
         have : (selectRotationKeys 4 singleMul (fun _ => TermType.Cipher)).isSome = true := by
           decide!
         rw [h2] at this
         exact absurd this (by simp)
       | some rotations =>
         cases h3 : eps.env.getEncryptionParameters with
         | none =>
           have : ((forwardPass EncryptionParametersSelector.rewriter 4
             (EncryptionParametersSelector.init singleMul (fun _ => some 60)
               (fun _ => TermType.Cipher))).bind
               (fun e => e.env.getEncryptionParameters)).isSome = true := by decide!
           rw [h1] at this
           simp only [Option.some_bind] at this
           rw [h3] at this
           exact absurd this (by simp)
         | some primeBits => exact h eps rotations primeBits h1 h2 h3⟩

/-- C20 as stated fails: for the table that is `0` everywhere and the bit
count `0`, the smallest degree `d` with `f(d) >= b` is 1024 and there is no
smaller degree, yet `getMinDegreeForBitCount` throws: the test for the value
`0` comes before the comparison with the bit count. -/
theorem getMinDegreeForBitCount_zero_entry_raises :
    (∀ j, j < 0 → (fun _ => (0 : Int)) (1024 * 2 ^ j) ≠ 0) ∧
    (0 : Int) ≤ (fun _ => (0 : Int)) (1024 * 2 ^ 0) ∧
    getMinDegreeForBitCount 4 (fun _ => 0) 0 = some (Except.error (degreeMessage 0 0)) ∧
    ∀ fuel, getMinDegreeForBitCount fuel (fun _ => 0) 0 ≠ some (Except.ok (1024 * 2 ^ 0)) := by
  refine ⟨?_, ?_, ?_, ?_⟩
  · intro j hj
    omega
  · decide
  · rfl
  · intro fuel
    cases fuel with
    | zero => simp [getMinDegreeForBitCount, getMinDegreeLoop]
    | succ n => simp [getMinDegreeForBitCount, getMinDegreeLoop]

/-! ## `EncodeInserter` -/

theorem assign_same (m : TermMapOptional) (t v : Nat) : (m.assign t v) t = some v := by
  simp [TermMapOptional.assign]

theorem assign_val_same (m : TermMapOptional) (t v : Nat) : (m.assign t v).val t = v := by
  simp [TermMapOptional.assign, TermMapOptional.val]

/-- What `insertEncodeNode` builds. -/
theorem insertEncodeNode_spec (st : EncodeInserter) (op : Op) (other term : Nat)
    (hc : st.program.Consistent) (ht : term < st.program.nextTermIndex) :
    (st.insertEncodeNode op other term).1 = st.program.nextTermIndex ∧
    (st.insertEncodeNode op other term).2.program.Consistent ∧
    (st.insertEncodeNode op other term).2.program.nextTermIndex
      = st.program.nextTermIndex + 1 ∧
    (∀ x, (st.insertEncodeNode op other term).2.program.operands x
      = if x = st.program.nextTermIndex then [term] else st.program.operands x) ∧
    (∀ x, (st.insertEncodeNode op other term).2.program.op x
      = if x = st.program.nextTermIndex then Op.Encode else st.program.op x) ∧
    (∀ x, (st.insertEncodeNode op other term).2.program.attributes x
      = if x = st.program.nextTermIndex
        then [(EncodeAtScaleAttribute, AttributeValue.uint32
          (if isAdditionOp op then st.scale.val other else st.scale.val term))]
        else st.program.attributes x) ∧
    (∀ x, (st.insertEncodeNode op other term).2.type x
      = if x = st.program.nextTermIndex then TermType.Plain else st.type x) ∧
    (st.insertEncodeNode op other term).2.scale st.program.nextTermIndex
      = some (if isAdditionOp op then st.scale.val other else st.scale.val term) ∧
    (st.insertEncodeNode op other term).2.ok = st.ok := by
  obtain ⟨m1, m2, m3, m4⟩ := makeTerm_consistent st.program Op.Encode [term] hc
    (by intro x hx; simp only [List.mem_singleton] at hx; subst hx; exact ht)
  obtain ⟨f1, f2⟩ := makeTerm_frame st.program Op.Encode [term]
  unfold EncodeInserter.insertEncodeNode
  simp only [m2]
  by_cases hadd : isAdditionOp op = true
  · simp only [hadd, if_true]
    refine ⟨trivial, setAttribute_consistent _ _ _ _ m1, ?_, ?_, ?_, ?_, ?_, ?_, trivial⟩
    · simp [Term.setAttribute, m3]
    · intro x; simp [Term.setAttribute, m4]
    · intro x; simp [Term.setAttribute, f1]
    · intro x
      simp only [Term.setAttribute, withAttributes_attributes, f2, assign_val_same]
      split
      · simp [AttributeList.set]
      · rfl
    · intro x
      simp only [Function.update_apply]
    · exact assign_same _ _ _
  · simp only [hadd, Bool.false_eq_true, if_false]
    refine ⟨trivial, setAttribute_consistent _ _ _ _ m1, ?_, ?_, ?_, ?_, ?_, ?_, trivial⟩
    · simp [Term.setAttribute, m3]
    · intro x; simp [Term.setAttribute, m4]
    · intro x; simp [Term.setAttribute, f1]
    · intro x
      simp only [Term.setAttribute, withAttributes_attributes, f2, assign_val_same]
      split
      · simp [AttributeList.set]
      · rfl
    · intro x
      simp only [Function.update_apply]
    · exact assign_same _ _ _

theorem encodeInserter_visit_left (st : EncodeInserter) (t c r : Nat)
    (hops : st.program.operands t = [c, r]) (htc : st.type c = TermType.Cipher)
    (htr : st.type r = TermType.Raw) (hc : st.program.Consistent) :
    st.visit t =
      { (st.insertEncodeNode (st.program.op t) c r).2 with
        program := (Term.replaceOperand (st.insertEncodeNode (st.program.op t) c r).2.program t r
          (st.insertEncodeNode (st.program.op t) c r).1).2 } := by
  have hmem : r ∈ st.program.operands t := by rw [hops]; simp
  have hr : r < st.program.nextTermIndex := (hc.operand_lt hmem).2
  have ht : t < st.program.nextTermIndex := (hc.operand_lt hmem).1
  have hcr : c ≠ r := by
    intro h
    rw [h, htr] at htc
    exact absurd htc (by decide)
  obtain ⟨s1, s2, s3, s4, s5, s6, s7, s8, s9⟩ := insertEncodeNode_spec st (st.program.op t) c r hc hr
  obtain ⟨r1, r2, r3⟩ := replaceOperand_spec (st.insertEncodeNode (st.program.op t) c r).2.program t r
          (st.insertEncodeNode (st.program.op t) c r).1
  have h0 : ({ st with ok := st.ok && decide ([c, r].length ≤ 2) } : EncodeInserter) = st := by
    cases st
    simp
  have hP1 : (Term.replaceOperand (st.insertEncodeNode (st.program.op t) c r).2.program t r
      (st.insertEncodeNode (st.program.op t) c r).1).2.operands t
      = [c, st.program.nextTermIndex] := by
    rw [r1, if_pos rfl, s4, if_neg (by omega), hops, s1]
    simp [hcr]
  unfold EncodeInserter.visit
  simp only [hops]
  have hcond : st.type c = TermType.Cipher ∧ st.type r = TermType.Raw := ⟨htc, htr⟩
  rw [h0]
  simp only [if_pos hcond, hP1, List.getD_cons_zero, List.getD_cons_succ]
  rw [if_neg]
  rw [s7, if_pos rfl]
  simp
theorem encodeInserter_visit_right (st : EncodeInserter) (t c r : Nat)
    (hops : st.program.operands t = [r, c]) (htc : st.type c = TermType.Cipher)
    (htr : st.type r = TermType.Raw) :
    st.visit t =
      { (st.insertEncodeNode (st.program.op t) c r).2 with
        program := (Term.replaceOperand (st.insertEncodeNode (st.program.op t) c r).2.program t r
          (st.insertEncodeNode (st.program.op t) c r).1).2 } := by
  have h0 : ({ st with ok := st.ok && decide ([r, c].length ≤ 2) } : EncodeInserter) = st := by
    cases st
    simp
  have hcond1 : ¬ (st.type r = TermType.Cipher ∧ st.type c = TermType.Raw) := by
    rintro ⟨h, _⟩
    rw [htr] at h
    exact absurd h (by decide)
  have hcond : st.type c = TermType.Cipher ∧ st.type r = TermType.Raw := ⟨htc, htr⟩
  unfold EncodeInserter.visit
  simp only [hops]
  rw [h0]
  simp only [if_neg hcond1, hops, List.getD_cons_zero, List.getD_cons_succ, if_pos hcond]

theorem encodeInserter_visit_other (st : EncodeInserter) (t : Nat)
    (h : ¬ ∃ c r, (st.program.operands t = [c, r] ∨ st.program.operands t = [r, c]) ∧
      st.type c = TermType.Cipher ∧ st.type r = TermType.Raw) :
    (st.visit t).program = st.program ∧ (st.visit t).type = st.type ∧
      (st.visit t).scale = st.scale := by
  unfold EncodeInserter.visit
  cases hops : st.program.operands t with
  | nil => exact ⟨rfl, rfl, rfl⟩
  | cons a l =>
    cases l with
    | nil => exact ⟨rfl, rfl, rfl⟩
    | cons b l =>
      cases l with
      | nil =>
        have hcond1 : ¬ (st.type a = TermType.Cipher ∧ st.type b = TermType.Raw) := by
          intro hh
          exact h ⟨a, b, Or.inl hops, hh⟩
        have hcond2 : ¬ (st.type b = TermType.Cipher ∧ st.type a = TermType.Raw) := by
          intro hh
          exact h ⟨b, a, Or.inr hops, hh⟩
        simp only [if_neg hcond1, hops, List.getD_cons_zero, List.getD_cons_succ, if_neg hcond2]
        exact ⟨trivial, trivial, trivial⟩
      | cons d l => exact ⟨rfl, rfl, rfl⟩

/-- C17: when `EncodeInserter` visits a term whose two operands are a `Cipher`
term `c` and a `Raw` term `r`, in either order, exactly one term is created,
the slot that held `r` holds it, it is an `Encode` whose only operand is `r`,
its type is `Plain`, its scale is `scale[c]` if the visited term is an `Add`
or a `Sub` and `scale[r]` otherwise, and its `EncodeAtScaleAttribute` is that
scale.  Visiting any other term changes neither the program nor the two
maps. -/
theorem encodeInserter_inserts_encode :
    (∀ (st : EncodeInserter) (t c r : Nat), st.program.Consistent →
      st.type c = TermType.Cipher → st.type r = TermType.Raw →
      (st.program.operands t = [c, r] ∨ st.program.operands t = [r, c]) →
      (st.program.operands t = [c, r] →
        (st.visit t).program.operands t = [c, st.program.nextTermIndex]) ∧
      (st.program.operands t = [r, c] →
        (st.visit t).program.operands t = [st.program.nextTermIndex, c]) ∧
      (st.visit t).program.nextTermIndex = st.program.nextTermIndex + 1 ∧
      (st.visit t).program.op st.program.nextTermIndex = Op.Encode ∧
      (st.visit t).program.operands st.program.nextTermIndex = [r] ∧
      (st.visit t).type st.program.nextTermIndex = TermType.Plain ∧
      (st.visit t).scale st.program.nextTermIndex
        = some (if isAdditionOp (st.program.op t) then st.scale.val c else st.scale.val r) ∧
      AttributeList.getUInt32 ((st.visit t).program.attributes st.program.nextTermIndex)
          EncodeAtScaleAttribute
        = some (if isAdditionOp (st.program.op t) then st.scale.val c else st.scale.val r)) ∧
    (∀ (st : EncodeInserter) (t : Nat),
      (¬ ∃ c r, (st.program.operands t = [c, r] ∨ st.program.operands t = [r, c]) ∧
        st.type c = TermType.Cipher ∧ st.type r = TermType.Raw) →
      (st.visit t).program = st.program ∧ (st.visit t).type = st.type ∧
        (st.visit t).scale = st.scale) := by
  refine ⟨?_, encodeInserter_visit_other⟩
  intro st t c r hc htc htr hshape
  have hv : st.visit t =
      { (st.insertEncodeNode (st.program.op t) c r).2 with
        program := (Term.replaceOperand (st.insertEncodeNode (st.program.op t) c r).2.program t r
          (st.insertEncodeNode (st.program.op t) c r).1).2 } := by
    rcases hshape with h | h
    · exact encodeInserter_visit_left st t c r h htc htr hc
    · exact encodeInserter_visit_right st t c r h htc htr
  have hmem : r ∈ st.program.operands t := by
    rcases hshape with h | h <;> rw [h] <;> simp
  have hr : r < st.program.nextTermIndex := (hc.operand_lt hmem).2
  have ht : t < st.program.nextTermIndex := (hc.operand_lt hmem).1
  have hcr : c ≠ r := by
    intro h
    rw [h, htr] at htc
    exact absurd htc (by decide)
  obtain ⟨s1, s2, s3, s4, s5, s6, s7, s8, s9⟩ :=
    insertEncodeNode_spec st (st.program.op t) c r hc hr
  obtain ⟨r1, r2, r3⟩ := replaceOperand_spec
    (st.insertEncodeNode (st.program.op t) c r).2.program t r
    (st.insertEncodeNode (st.program.op t) c r).1
  obtain ⟨k1, k2⟩ := replaceOperand_consistent
    (st.insertEncodeNode (st.program.op t) c r).2.program t r
    (st.insertEncodeNode (st.program.op t) c r).1 s2 (by rw [s3]; omega) (by rw [s3]; omega)
    (by rw [s3, s1]; omega)
  have hne : st.program.nextTermIndex ≠ t := by omega
  rw [hv]
  refine ⟨?_, ?_, ?_, ?_, ?_, ?_, ?_, ?_⟩
  · intro hops
    show (Term.replaceOperand _ t r _).2.operands t = _
    rw [r1, if_pos rfl, s4, if_neg (by omega), hops, s1]
    simp [hcr]
  · intro hops
    show (Term.replaceOperand _ t r _).2.operands t = _
    rw [r1, if_pos rfl, s4, if_neg (by omega), hops, s1]
    simp [hcr]
  · show (Term.replaceOperand _ t r _).2.nextTermIndex = _
    rw [k2, s3]
  · show (Term.replaceOperand _ t r _).2.op _ = _
    rw [r2, s5, if_pos rfl]
  · show (Term.replaceOperand _ t r _).2.operands _ = _
    rw [r1, if_neg hne, s4, if_pos rfl]
  · show (st.insertEncodeNode (st.program.op t) c r).2.type _ = _
    rw [s7, if_pos rfl]
  · exact s8
  · show AttributeList.getUInt32 ((Term.replaceOperand _ t r _).2.attributes _) _ = _
    rw [r3, s6, if_pos rfl]
    simp [AttributeList.getUInt32, AttributeList.get]

/-- Witness of C17 on `encodeState`: visiting the `Mul` (term 2, operands `x`
and the constant `c`) creates the `Encode` term 6 over `c` at the scale 20 of
`c`; visiting the output (term 4) changes nothing. -/
theorem encodeInserter_inserts_encode_witness :
    ((encodeState.program.operands 2 = [0, 1] →
        (encodeState.visit 2).program.operands 2 = [0, encodeState.program.nextTermIndex]) ∧
      (encodeState.program.operands 2 = [1, 0] →
        (encodeState.visit 2).program.operands 2 = [encodeState.program.nextTermIndex, 0]) ∧
      (encodeState.visit 2).program.nextTermIndex = encodeState.program.nextTermIndex + 1 ∧
      (encodeState.visit 2).program.op encodeState.program.nextTermIndex = Op.Encode ∧
      (encodeState.visit 2).program.operands encodeState.program.nextTermIndex = [1] ∧
      (encodeState.visit 2).type encodeState.program.nextTermIndex = TermType.Plain ∧
      (encodeState.visit 2).scale encodeState.program.nextTermIndex
        = some (if isAdditionOp (encodeState.program.op 2) then encodeState.scale.val 0
            else encodeState.scale.val 1) ∧
      AttributeList.getUInt32
          ((encodeState.visit 2).program.attributes encodeState.program.nextTermIndex)
          EncodeAtScaleAttribute
        = some (if isAdditionOp (encodeState.program.op 2) then encodeState.scale.val 0
            else encodeState.scale.val 1)) ∧
    ((encodeState.visit 4).program = encodeState.program ∧
      (encodeState.visit 4).type = encodeState.type ∧
      (encodeState.visit 4).scale = encodeState.scale) ∧
    (encodeState.program.nextTermIndex, (encodeState.visit 2).program.operands 2,
      (encodeState.visit 2).scale 6, (encodeState.visit 3).program.operands 3,
      (encodeState.visit 3).scale 6) = (6, [0, 6], some 20, [6, 0], some 30) :=
  ⟨encodeInserter_inserts_encode.1 encodeState 2 0 1
     (run_consistent _ _ _ (empty_consistent "encode" 8) (run_eq_foldl _ _ (by decide!)))
     (by decide) (by decide) (Or.inl (by decide!)),
   encodeInserter_inserts_encode.2 encodeState 4 (by
     rintro ⟨c, r, hshape, _, _⟩
     have h4 : encodeState.program.operands 4 = [2] := by decide!
     rw [h4] at hshape
     rcases hshape with h | h <;> simp at h),
   by decide!⟩

/-! ## `LazyRelinearizer` -/

theorem allEncrypted_iff (type : Nat → TermType) (ops : List Nat) :
    (LazyRelinearizer.allEncrypted type ops).1 = true ↔ ∀ o ∈ ops, type o = TermType.Cipher := by
  induction ops with
  | nil => simp [LazyRelinearizer.allEncrypted]
  | cons a ops ih =>
    unfold LazyRelinearizer.allEncrypted
    by_cases ha : type a = TermType.Cipher
    · simp [isUnencryptedType, ha, ih]
    · simp [isUnencryptedType, ha]

theorem isEncryptedMultOp_iff (st : LazyRelinearizer) (u : Nat) :
    (st.isEncryptedMultOp u).1 = true ↔
      (st.program.op u = Op.Mul ∧ ∀ o ∈ st.program.operands u, st.type o = TermType.Cipher) := by
  unfold LazyRelinearizer.isEncryptedMultOp LazyRelinearizer.areAllOperandsEncrypted
  by_cases hm : st.program.op u = Op.Mul
  · simp [isMultiplicationOp, hm, allEncrypted_iff]
  · simp [isMultiplicationOp, hm]

theorem mustInsertLoop_iff (st : LazyRelinearizer) (firstUse : Nat) (uses : List Nat) :
    (st.mustInsertLoop firstUse uses).1 = true ↔
      ∃ u ∈ uses,
        ((st.program.op u = Op.Mul ∧ ∀ o ∈ st.program.operands u, st.type o = TermType.Cipher) ∨
          st.program.op u = Op.RotateLeftConst ∨ st.program.op u = Op.RotateRightConst ∨
          st.program.op u = Op.Output) ∨ firstUse ≠ u := by
  induction uses with
  | nil => simp [LazyRelinearizer.mustInsertLoop]
  | cons a uses ih =>
    unfold LazyRelinearizer.mustInsertLoop
    simp only []
    by_cases hc : ((st.isEncryptedMultOp a).1 || isRotationOp (st.program.op a)
        || decide (st.program.op a = Op.Output) || decide (firstUse ≠ a)) = true
    · rw [if_pos hc]
      simp only [true_iff]
      refine ⟨a, by simp, ?_⟩
      simp only [Bool.or_eq_true, decide_eq_true_eq, isEncryptedMultOp_iff, isRotationOp] at hc
      tauto
    · rw [if_neg hc]
      simp only [ih, List.mem_cons, exists_eq_or_imp]
      simp only [Bool.or_eq_true, decide_eq_true_eq, isEncryptedMultOp_iff, isRotationOp] at hc
      constructor
      · intro h
        exact Or.inr h
      · rintro (h | h)
        · exact absurd (by tauto) hc
        · exact h

theorem mustInsert_iff_loop (st : LazyRelinearizer) (t firstUse : Nat) (rest : List Nat)
    (huses : st.program.uses t = firstUse :: rest) :
    st.MustInsert t ↔ (st.mustInsertLoop firstUse (st.program.uses t)).1 = true := by
  rw [mustInsertLoop_iff]
  unfold LazyRelinearizer.MustInsert
  constructor
  · rintro (⟨u, hu, h⟩ | ⟨u, hu, v, hv, hne⟩)
    · exact ⟨u, hu, Or.inl h⟩
    · by_cases h1 : firstUse = u
      · exact ⟨v, hv, Or.inr (by rw [h1]; exact hne)⟩
      · exact ⟨u, hu, Or.inr h1⟩
  · rintro ⟨u, hu, h | h⟩
    · exact Or.inl ⟨u, hu, h⟩
    · exact Or.inr ⟨firstUse, by rw [huses]; simp, u, hu, h⟩

theorem foldl_mark_pending (uses : List Nat) (pending : Nat → Bool) :
    (∀ u ∈ uses, (uses.foldl (fun pending use => Function.update pending use true) pending) u
      = true) ∧
    ∀ x, pending x = true →
      (uses.foldl (fun pending use => Function.update pending use true) pending) x = true := by
  induction uses generalizing pending with
  | nil => simp
  | cons a uses ih =>
    simp only [List.foldl_cons, List.mem_cons]
    obtain ⟨i1, i2⟩ := ih (Function.update pending a true)
    refine ⟨?_, ?_⟩
    · rintro u (rfl | hu)
      · exact i2 u (by simp)
      · exact i1 u hu
    · intro x hx
      apply i2
      by_cases hxa : x = a
      · rw [hxa]
        exact Function.update_same _ _ _
      · rw [Function.update_apply, if_neg hxa]
        exact hx

/-- The two outcomes of the part of the call operator that follows the test of
`pending[term]`. -/
theorem insertOrDelay_spec (st : LazyRelinearizer) (t : Nat) (delayed : Bool)
    (hc : st.program.Consistent) (huses : st.program.uses t ≠ []) :
    ∃ st1, st.insertOrDelay t delayed = some st1 ∧
      (st.MustInsert t →
        st1.program.nextTermIndex = st.program.nextTermIndex + 1 ∧
        st1.program.op st.program.nextTermIndex = Op.Relinearize ∧
        st1.program.operands st.program.nextTermIndex = [t] ∧
        st1.type st.program.nextTermIndex = st.type t ∧
        st1.scale st.program.nextTermIndex = some (st.scale.val t) ∧
        (∀ x, x ≠ st.program.nextTermIndex →
          st1.program.operands x
            = (st.program.operands x).map (fun y => if y = t then st.program.nextTermIndex else y)) ∧
        st1.program.uses t = [st.program.nextTermIndex]) ∧
      (¬ st.MustInsert t →
        st1.program = st.program ∧ st1.type = st.type ∧ st1.scale = st.scale ∧
        ∀ u ∈ st.program.uses t, st1.pending u = true) := by
  obtain ⟨firstUse, rest, hu⟩ : ∃ f r, st.program.uses t = f :: r := by
    cases h : st.program.uses t with
    | nil => exact absurd h huses
    | cons f r => exact ⟨f, r, rfl⟩
  have ht : t < st.program.nextTermIndex :=
    (hc.use_lt (by rw [hu]; simp : firstUse ∈ st.program.uses t)).1
  have hiff := mustInsert_iff_loop st t firstUse rest hu
  unfold LazyRelinearizer.insertOrDelay
  simp only [hu]
  rw [← hu]
  have hloop : ∀ b : Bool,
      (({ st with ok := b } : LazyRelinearizer).mustInsertLoop firstUse (st.program.uses t)).1
        = (st.mustInsertLoop firstUse (st.program.uses t)).1 := by
    intro b
    have h1 := mustInsertLoop_iff ({ st with ok := b } : LazyRelinearizer) firstUse
      (st.program.uses t)
    have h2 := mustInsertLoop_iff st firstUse (st.program.uses t)
    rw [Bool.eq_iff_iff, h1, h2]
  rw [hloop]
  by_cases hm : (st.mustInsertLoop firstUse (st.program.uses t)).1 = true
  · rw [if_pos hm]
    obtain ⟨m1, m2, m3, m4⟩ := makeTerm_consistent st.program Op.Relinearize [t] hc
      (by intro x hx; simp only [List.mem_singleton] at hx; subst hx; exact ht)
    obtain ⟨f1, f2⟩ := makeTerm_frame st.program Op.Relinearize [t]
    obtain ⟨r1, r2, r3, r4, r5⟩ := replaceOtherUsesWith_spec
      (st.program.makeTerm Op.Relinearize [t]).2 t st.program.nextTermIndex m1
      (by rw [m3]; omega) (by rw [m3]; omega)
    refine ⟨_, rfl, ?_, ?_⟩
    · intro _
      simp only [m2]
      have hops : ∀ x, (Term.replaceOtherUsesWith (st.program.makeTerm Op.Relinearize [t]).2 t
          st.program.nextTermIndex).operands x
          = if x = st.program.nextTermIndex then [t]
            else (st.program.operands x).map
              (fun y => if y = t then st.program.nextTermIndex else y) := by
        intro x
        rw [r3, m4]
        split
        · rfl
        · rfl
      refine ⟨?_, ?_, ?_, ?_, ?_, ?_, ?_⟩
      · rw [r2, m3]
      · rw [r4, f1, if_pos rfl]
      · rw [hops, if_pos rfl]
      · simp [Function.update_apply, m2]
      · exact assign_same _ _ _
      · intro x hx
        rw [hops, if_neg hx]
      · apply list_eq_singleton_of_count
        · rw [← r1.sym, hops]
          simp
        · intro x hx
          rw [← r1.sym, hops, if_neg hx]
          exact count_map_replace_self _ _ _ (by omega)
    · intro hn
      exact absurd (hiff.mpr hm) hn
  · rw [if_neg hm]
    refine ⟨_, rfl, ?_, ?_⟩
    · intro hy
      exact absurd (hiff.mp hy) hm
    · intro _
      cases delayed with
      | true =>
        refine ⟨rfl, rfl, rfl, ?_⟩
        intro u hu1
        exact (foldl_mark_pending (st.program.uses t) st.pending).1 u hu1
      | false =>
        refine ⟨rfl, rfl, rfl, ?_⟩
        intro u hu1
        exact (foldl_mark_pending (st.program.uses t) st.pending).1 u hu1

/-- C18: `LazyRelinearizer` visits a term `t` of a consistent program that has
operands and uses and that is a `Mul` with all operands `Cipher` or is marked
pending.  The call returns.  If some use of `t` is a `Mul` with all operands
`Cipher`, a rotation or an `Output`, or two uses of `t` differ, exactly one
term is created: a `Relinearize` whose only operand is `t`, with the type and
the scale of `t`, and every other term reads it where it read `t`, so that it
is the only use of `t`.  Otherwise the program and the two maps are unchanged
(no term is created) and every use of `t` is marked pending. -/
theorem lazyRelinearizer_rule (st : LazyRelinearizer) (t : Nat)
    (hc : st.program.Consistent) (hops : st.program.operands t ≠ [])
    (huses : st.program.uses t ≠ [])
    (hsel : (st.program.op t = Op.Mul ∧
        ∀ o ∈ st.program.operands t, st.type o = TermType.Cipher) ∨ st.pending t = true) :
    ∃ st1, st.visit t = some st1 ∧
      (st.MustInsert t →
        st1.program.nextTermIndex = st.program.nextTermIndex + 1 ∧
        st1.program.op st.program.nextTermIndex = Op.Relinearize ∧
        st1.program.operands st.program.nextTermIndex = [t] ∧
        st1.type st.program.nextTermIndex = st.type t ∧
        st1.scale st.program.nextTermIndex = some (st.scale.val t) ∧
        (∀ x, x ≠ st.program.nextTermIndex →
          st1.program.operands x
            = (st.program.operands x).map (fun y => if y = t then st.program.nextTermIndex else y)) ∧
        st1.program.uses t = [st.program.nextTermIndex]) ∧
      (¬ st.MustInsert t →
        st1.program = st.program ∧ st1.type = st.type ∧ st1.scale = st.scale ∧
        ∀ u ∈ st.program.uses t, st1.pending u = true) := by
  unfold LazyRelinearizer.visit
  cases hop : st.program.operands t with
  | nil => exact absurd hop hops
  | cons a l =>
    simp only []
    by_cases he : (st.isEncryptedMultOp t).1 = true
    · rw [if_pos he]
      exact insertOrDelay_spec
        { st with ok := (st.ok && (st.isEncryptedMultOp t).2) && decide (st.pending t = false),
                  pending := Function.update st.pending t true } t true hc huses
    · rw [if_neg he]
      have hp : st.pending t = true := by
        rcases hsel with h | h
        · exact absurd ((isEncryptedMultOp_iff st t).mpr h) he
        · exact h
      have hp1 : ¬ (({ st with ok := st.ok && (st.isEncryptedMultOp t).2 } :
          LazyRelinearizer).pending t = false) := by
        show ¬ (st.pending t = false)
        rw [hp]
        decide
      rw [if_neg hp1]
      exact insertOrDelay_spec
        { st with ok := st.ok && (st.isEncryptedMultOp t).2 } t false hc huses

/-- Witness of C18 on `relinState`: the `Mul` `x * x` (term 1) is used by the
`Add` and by the `Negate`, two different terms, so the `Relinearize` term 6 is
created and both read it. -/
theorem lazyRelinearizer_rule_witness :
    (relinState.visit 1).map (fun s => (s.program.nextTermIndex, s.program.operands 2,
      s.program.operands 3, s.program.operands 6)) = some (7, [6, 0], [6], [1]) ∧
    ∃ st1, relinState.visit 1 = some st1 ∧
      (relinState.MustInsert 1 →
        st1.program.nextTermIndex = relinState.program.nextTermIndex + 1 ∧
        st1.program.op relinState.program.nextTermIndex = Op.Relinearize ∧
        st1.program.operands relinState.program.nextTermIndex = [1] ∧
        st1.type relinState.program.nextTermIndex = relinState.type 1 ∧
        st1.scale relinState.program.nextTermIndex = some (relinState.scale.val 1) ∧
        (∀ x, x ≠ relinState.program.nextTermIndex →
          st1.program.operands x
            = (relinState.program.operands x).map
                (fun y => if y = 1 then relinState.program.nextTermIndex else y)) ∧
        st1.program.uses 1 = [relinState.program.nextTermIndex]) ∧
      (¬ relinState.MustInsert 1 →
        st1.program = relinState.program ∧ st1.type = relinState.type ∧
        st1.scale = relinState.scale ∧
        ∀ u ∈ relinState.program.uses 1, st1.pending u = true) :=
  ⟨by decide!,
   lazyRelinearizer_rule relinState 1
     (run_consistent _ _ _ (empty_consistent "relin" 8) (run_eq_foldl _ _ (by decide!)))
     (by decide!) (by decide!) (Or.inl ⟨by decide!, by decide!⟩)⟩

/-! ## `ReductionCombiner` -/

theorem addOperand_operands (p : Program) (t o x : Nat) :
    (Term.addOperand p t o).operands x
      = if x = t then p.operands t ++ [o] else p.operands x := by
  unfold Term.addOperand
  simp only [addUse_operands, withOperands_operands]
  split <;> split <;> simp_all

theorem addOperand_op (p : Program) (t o x : Nat) :
    (Term.addOperand p t o).op x = p.op x := by
  unfold Term.addOperand
  simp only [addUse_op]
  split <;> simp

theorem eraseOperand_operands (p : Program) (t o x : Nat) :
    (Term.eraseOperand p t o).2.operands x
      = if x = t then (p.operands t).erase o else p.operands x := by
  unfold Term.eraseOperand
  by_cases hmem : o ∈ p.operands t
  · simp only [hmem, if_true]
    split <;> split <;> simp_all
  · simp only [hmem, if_false]
    split
    · next h => rw [h, List.erase_of_not_mem hmem]
    · rfl

theorem eraseOperand_op (p : Program) (t o x : Nat) :
    (Term.eraseOperand p t o).2.op x = p.op x := by
  unfold Term.eraseOperand
  by_cases hmem : o ∈ p.operands t
  · simp only [hmem, if_true]
    split <;> simp
  · simp only [hmem, if_false]

theorem eraseOperand_fst (p : Program) (t o : Nat) :
    (Term.eraseOperand p t o).1 = decide (o ∈ p.operands t) := by
  unfold Term.eraseOperand
  by_cases hmem : o ∈ p.operands t
  · simp [hmem]
  · simp [hmem]

theorem eraseOperand_absent (p : Program) (t o : Nat) (h : o ∉ p.operands t) :
    (Term.eraseOperand p t o).2 = p := by
  unfold Term.eraseOperand
  simp [h]

theorem foldl_addOperand_operands (u : Nat) (l : List Nat) (p : Program) :
    (∀ x, (l.foldl (fun q operand => Term.addOperand q u operand) p).operands x
      = if x = u then p.operands u ++ l else p.operands x) ∧
    (∀ x, (l.foldl (fun q operand => Term.addOperand q u operand) p).op x = p.op x) := by
  induction l generalizing p with
  | nil =>
    refine ⟨?_, fun x => rfl⟩
    intro x
    by_cases hx : x = u
    · simp [hx]
    · simp [hx]
  | cons a l ih =>
    simp only [List.foldl_cons]
    obtain ⟨i1, i2⟩ := ih (Term.addOperand p u a)
    refine ⟨?_, ?_⟩
    · intro x
      rw [i1, addOperand_operands, addOperand_operands]
      split
      · simp
      · rfl
    · intro x
      rw [i2, addOperand_op]

/-- The combining step of `ReductionCombiner` on a term `t` with the single
use `u`. -/
theorem combineLoop_spec (p : Program) (t u fuel : Nat) (hc : p.Consistent) (hac : p.Acyclic)
    (huses : p.uses t = [u]) (hfuel : 2 ≤ fuel) :
    ∃ q, ReductionCombiner.combineLoop fuel p u t = some q ∧
      q.operands u = (p.operands u).erase t ++ p.operands t ∧
      t ∉ q.operands u ∧
      (∀ x, x ≠ u → q.operands x = p.operands x) ∧
      (∀ x, q.op x = p.op x) := by
  obtain ⟨rank, hrank⟩ := hac
  have hcount : (p.operands u).count t = 1 := by
    rw [hc.sym u t, huses]
    simp
  have hmem : t ∈ p.operands u := List.count_pos_iff.mp (by omega)
  have htu : t ≠ u := by
    intro h
    have := hrank u t hmem
    rw [h] at this
    omega
  have hself : t ∉ p.operands t := by
    intro h
    have := hrank t t h
    omega
  obtain ⟨fuel1, rfl⟩ : ∃ m, fuel = m + 2 := ⟨fuel - 2, by omega⟩
  obtain ⟨f1, f2⟩ := foldl_addOperand_operands u ((Term.eraseOperand p u t).2.operands t)
    (Term.eraseOperand p u t).2
  have hopt : (Term.eraseOperand p u t).2.operands t = p.operands t := by
    rw [eraseOperand_operands, if_neg htu]
  have hopu : (((Term.eraseOperand p u t).2.operands t).foldl
      (fun q operand => Term.addOperand q u operand) (Term.eraseOperand p u t).2).operands u
      = (p.operands u).erase t ++ p.operands t := by
    rw [f1, if_pos rfl, eraseOperand_operands, if_pos rfl, hopt]
  have hnot : t ∉ (p.operands u).erase t ++ p.operands t := by
    intro h
    rcases List.mem_append.mp h with h1 | h1
    · have : ((p.operands u).erase t).count t = 0 := by
        rw [List.count_erase_self, hcount]
      exact absurd (List.count_pos_iff.mpr h1) (by omega)
    · exact hself h1
  unfold ReductionCombiner.combineLoop
  simp only []
  rw [eraseOperand_fst, decide_eq_true hmem, if_pos rfl]
  unfold ReductionCombiner.combineLoop
  simp only []
  rw [eraseOperand_fst]
  have hnot2 : t ∉ (((Term.eraseOperand p u t).2.operands t).foldl
      (fun q operand => Term.addOperand q u operand) (Term.eraseOperand p u t).2).operands u := by
    rw [hopu]
    exact hnot
  rw [decide_eq_false hnot2]
  simp only [Bool.false_eq_true, if_false]
  rw [eraseOperand_absent _ _ _ hnot2]
  refine ⟨_, rfl, hopu, hnot2, ?_, ?_⟩
  · intro x hx
    rw [f1, if_neg hx, eraseOperand_operands, if_neg hx]
  · intro x
    rw [f2, eraseOperand_op]

/-- C15: when `ReductionCombiner` visits, in a consistent acyclic program, an
`Add` or `Mul` term `t` that has operands and whose use list is `[u]` with `u`
of the same operation, the call returns and `u` has the operands it had
without `t`, followed by the operands of `t`; no other operand list changes.
A forward pass over `((((a + b) + c) + d) + e)` leaves the output reading the
outermost `Add` (term 8), whose operands are `e, d, c, a, b`, and the three
inner `Add` terms without uses. -/
theorem reductionCombiner_flattens :
    (∀ (p : Program) (t u fuel : Nat), p.Consistent → p.Acyclic →
      (p.op t = Op.Add ∨ p.op t = Op.Mul) → p.operands t ≠ [] → p.uses t = [u] →
      p.op u = p.op t → 2 ≤ fuel →
      ∃ q, ReductionCombiner.visit fuel p t = some q ∧
        q.operands u = (p.operands u).erase t ++ p.operands t ∧
        t ∉ q.operands u ∧
        (∀ x, x ≠ u → q.operands x = p.operands x) ∧
        (∀ x, q.op x = p.op x)) ∧
    (forwardPass (ReductionCombiner.rewriter 2) 10 nestedSum).map
        (fun s => (s.env.operands 9, s.env.op 8, s.env.operands 8))
      = some ([8], Op.Add, [4, 3, 2, 0, 1]) ∧
    (forwardPass (ReductionCombiner.rewriter 2) 10 nestedSum).map
        (fun s => (s.env.uses 5, s.env.uses 6, s.env.uses 7, s.env.uses 8))
      = some ([], [], [], [9]) := by
  refine ⟨?_, by decide!, by decide!⟩
  intro p t u fuel hc hac hop hops huses hsame hfuel
  unfold ReductionCombiner.visit
  have hint : p.isInternal t = true := by
    unfold Program.isInternal
    rw [huses]
    cases h : p.operands t with
    | nil => exact absurd h hops
    | cons a l => simp
  have hred : isReductionOp (p.op t) = true := by
    unfold isReductionOp
    rcases hop with h | h <;> simp [h]
  simp only [hint, hred, Bool.not_true, Bool.or_self, Bool.false_eq_true, if_false, huses]
  rw [if_pos hsame]
  exact combineLoop_spec p t u fuel hc hac huses hfuel

/-- Witness of C15 on the innermost `Add` of `nestedSum` (term 5, used by term
6 only): afterwards term 6 has the operands `c, a, b`. -/
theorem reductionCombiner_flattens_witness :
    (ReductionCombiner.visit 2 nestedSum 5).map (fun q => q.operands 6) = some [2, 0, 1] ∧
    ∃ q, ReductionCombiner.visit 2 nestedSum 5 = some q ∧
      q.operands 6 = (nestedSum.operands 6).erase 5 ++ nestedSum.operands 5 ∧
      5 ∉ q.operands 6 ∧
      (∀ x, x ≠ 6 → q.operands x = nestedSum.operands x) ∧
      (∀ x, q.op x = nestedSum.op x) :=
  ⟨by decide!,
   reductionCombiner_flattens.1 nestedSum 5 6 2
     (run_consistent _ _ _ (empty_consistent "nested" 8) (run_eq_foldl _ _ (by decide!)))
     ⟨fun x => x, by
       intro t o ho
       have hcons : nestedSum.Consistent :=
         run_consistent _ _ _ (empty_consistent "nested" 8) (run_eq_foldl _ _ (by decide!))
       have hlt := (hcons.operand_lt ho).1
       have hb : ∀ t, t < nestedSum.nextTermIndex → ∀ o ∈ nestedSum.operands t, o < t := by
         decide!
       exact hb t hlt o ho⟩
     (Or.inl (by decide!)) (by decide!) (by decide!) (by decide!) (by decide)⟩

/-! ## `ReductionLogExpander` -/

theorem useLevelsPush_perm (key use : Nat) (m : List (Nat × List Nat)) :
    ((useLevelsPush m key use).map Prod.snd).flatten.Perm
      ((m.map Prod.snd).flatten ++ [use]) := by
  induction m with
  | nil => simp [useLevelsPush]
  | cons a m ih =>
    obtain ⟨k, v⟩ := a
    simp only [useLevelsPush]
    by_cases h1 : key < k
    · rw [if_pos h1]
      simp only [List.map_cons, List.flatten_cons]
      exact List.perm_append_comm
    · rw [if_neg h1]
      by_cases h2 : key = k
      · rw [if_pos h2]
        simp only [List.map_cons, List.flatten_cons, List.append_assoc]
        apply List.Perm.append_left
        exact List.perm_append_comm
      · rw [if_neg h2]
        simp only [List.map_cons, List.flatten_cons, List.append_assoc]
        exact List.Perm.append_left _ ih

theorem sortOperands_spec (type : Nat → TermType) (scale : Nat → Option Int) :
    ∀ (l : List Nat) (m : List (Nat × List Nat)),
      (∀ o ∈ l, (scale o).isSome) →
      ∃ m1, ReductionLogExpander.sortOperands type scale l m = some m1 ∧
        ((m1.map Prod.snd).flatten).Perm ((m.map Prod.snd).flatten ++ l) := by
  intro l
  induction l with
  | nil =>
    intro m _
    exact ⟨m, rfl, by simp⟩
  | cons a l ih =>
    intro m hs
    have hl : ∀ o ∈ l, (scale o).isSome := fun o ho => hs o (by simp [ho])
    have hperm : ∀ (key : Nat) (m1 : List (Nat × List Nat)),
        ((m1.map Prod.snd).flatten).Perm
          (((useLevelsPush m key a).map Prod.snd).flatten ++ l) →
        ((m1.map Prod.snd).flatten).Perm ((m.map Prod.snd).flatten ++ a :: l) := by
      intro key m1 h
      refine h.trans ?_
      have := (useLevelsPush_perm key a m).append_right l
      refine this.trans ?_
      simp
    unfold ReductionLogExpander.sortOperands
    split
    · obtain ⟨m1, h1, h2⟩ := ih (useLevelsPush m 1 a) hl
      exact ⟨m1, h1, hperm _ _ h2⟩
    · split
      · obtain ⟨s, hsa⟩ := Option.isSome_iff_exists.mp (hs a (by simp))
        rw [hsa]
        obtain ⟨m1, h1, h2⟩ := ih (useLevelsPush m ((wrapInt32 (2 + s)) % 4294967296).toNat a) hl
        exact ⟨m1, h1, hperm _ _ h2⟩
      · obtain ⟨m1, h1, h2⟩ := ih (useLevelsPush m 0 a) hl
        exact ⟨m1, h1, hperm _ _ h2⟩

theorem sumScales_some (scale : Nat → Option Int) :
    ∀ (l : List Nat) (sum : Int), (∀ o ∈ l, (scale o).isSome) →
      (ReductionLogExpander.sumScales scale l sum).isSome := by
  intro l
  induction l with
  | nil => intro sum _; rfl
  | cons a l ih =>
    intro sum hs
    obtain ⟨s, hsa⟩ := Option.isSome_iff_exists.mp (hs a (by simp))
    unfold ReductionLogExpander.sumScales
    rw [hsa]
    exact ih _ (fun o ho => hs o (by simp [ho]))

theorem maxScales_some (scale : Nat → Option Int) :
    ∀ (l : List Nat) (m : Int), (∀ o ∈ l, (scale o).isSome) →
      (ReductionLogExpander.maxScales scale l m).isSome := by
  intro l
  induction l with
  | nil => intro m _; rfl
  | cons a l ih =>
    intro m hs
    obtain ⟨s, hsa⟩ := Option.isSome_iff_exists.mp (hs a (by simp))
    unfold ReductionLogExpander.maxScales
    rw [hsa]
    exact ih _ (fun o ho => hs o (by simp [ho]))

/-- A tree of created terms is still there in a program that has the same
operand lists at the created terms. -/
theorem treeAt_transport (p q : Program) (base : Nat) (hf : p.FreshOK)
    (hq : ∀ y, base ≤ y → y < p.nextTermIndex → q.operands y = p.operands y)
    (x : Nat) (ls : List Nat) (h : Nat) (ht : TreeAt p base x ls h) : TreeAt q base x ls h := by
  induction ht with
  | leaf x hx => exact TreeAt.leaf x hx
  | node x l r lL lR hL hR hbase hops _ _ ihL ihR =>
    refine TreeAt.node x l r lL lR hL hR hbase ?_ ihL ihR
    have hlt : x < p.nextTermIndex := by
      by_contra hge
      have := (hf x (by omega)).1
      rw [hops] at this
      exact absurd this (by simp)
    rw [hq x hbase hlt, hops]

theorem treeAt_lt (p : Program) (base : Nat) (hf : p.FreshOK) (hb : base ≤ p.nextTermIndex)
    (x : Nat) (ls : List Nat) (h : Nat) (ht : TreeAt p base x ls h) : x < p.nextTermIndex := by
  cases ht with
  | leaf x hx => omega
  | node x l r lL lR hL hR hbase hops _ _ =>
    by_contra hge
    have := (hf x (by omega)).1
    rw [hops] at this
    exact absurd this (by simp)

theorem forest_transport (p q : Program) (base k : Nat) (hf : p.FreshOK)
    (hq : ∀ y, base ≤ y → y < p.nextTermIndex → q.operands y = p.operands y)
    (L ls : List Nat) (h : Forest p base k L ls) : Forest q base k L ls := by
  induction h with
  | nil => exact Forest.nil
  | cons x rest leaves restLeaves height ht hle _ ih =>
    exact Forest.cons x rest leaves restLeaves height
      (treeAt_transport p q base hf hq x leaves height ht) hle ih

theorem forest_mono (p : Program) (base k k1 : Nat) (hk : k ≤ k1)
    (L ls : List Nat) (h : Forest p base k L ls) : Forest p base k1 L ls := by
  induction h with
  | nil => exact Forest.nil
  | cons x rest leaves restLeaves height ht hle _ ih =>
    exact Forest.cons x rest leaves restLeaves height ht (by omega) ih

theorem forest_snoc (p : Program) (base k : Nat) (L ls : List Nat) (h : Forest p base k L ls)
    (x : Nat) (lx : List Nat) (hx : Nat) (ht : TreeAt p base x lx hx) (hle : hx ≤ k) :
    Forest p base k (L ++ [x]) (ls ++ lx) := by
  induction h with
  | nil =>
    have := Forest.cons x [] lx [] hx ht hle Forest.nil
    simpa using this
  | cons y rest leaves restLeaves height hty hley _ ih =>
    have := Forest.cons y (rest ++ [x]) leaves (restLeaves ++ lx) height hty hley ih
    simpa [List.append_assoc] using this

theorem forest_lt (p : Program) (base k : Nat) (hf : p.FreshOK) (hb : base ≤ p.nextTermIndex)
    (L ls : List Nat) (h : Forest p base k L ls) : ∀ x ∈ L, x < p.nextTermIndex := by
  induction h with
  | nil => intro x hx; simp at hx
  | cons y rest leaves restLeaves height hty _ _ ih =>
    intro x hx
    rcases List.mem_cons.mp hx with rfl | hx
    · exact treeAt_lt p base hf hb _ _ _ hty
    · exact ih x hx


theorem expands_refl (op : Op) (p : Program) (hc : p.Consistent) : Expands op p p :=
  ⟨hc, le_refl _, fun _ _ => ⟨rfl, rfl⟩, fun y h1 h2 => by omega⟩

theorem expands_trans (op : Op) (p q r : Program) (h1 : Expands op p q) (h2 : Expands op q r) :
    Expands op p r := by
  refine ⟨h2.cons, le_trans h1.next h2.next, ?_, ?_⟩
  · intro y hy
    have hq := h2.old y (lt_of_lt_of_le hy h1.next)
    have hp := h1.old y hy
    exact ⟨by rw [hq.1, hp.1], by rw [hq.2, hp.2]⟩
  · intro y hy1 hy2
    by_cases hyq : y < q.nextTermIndex
    · have hq := h2.old y hyq
      have hp := h1.created y hy1 hyq
      exact ⟨by rw [hq.2, hp.1], by rw [hq.1, hp.2]⟩
    · exact h2.created y (by omega) hy2

theorem expands_makeTerm (op : Op) (p : Program) (hc : p.Consistent) (a b : Nat)
    (ha : a < p.nextTermIndex) (hb : b < p.nextTermIndex) :
    Expands op p (p.makeTerm op [a, b]).2 ∧ (p.makeTerm op [a, b]).1 = p.nextTermIndex ∧
      (p.makeTerm op [a, b]).2.nextTermIndex = p.nextTermIndex + 1 ∧
      (p.makeTerm op [a, b]).2.operands p.nextTermIndex = [a, b] := by
  obtain ⟨m1, m2, m3, m4⟩ := makeTerm_consistent p op [a, b] hc
    (by
      intro x hx
      simp only [List.mem_cons, List.mem_singleton, List.not_mem_nil, or_false] at hx
      rcases hx with rfl | rfl
      · exact ha
      · exact hb)
  obtain ⟨f1, _⟩ := makeTerm_frame p op [a, b]
  refine ⟨⟨m1, by rw [m3]; omega, ?_, ?_⟩, m2, m3, by rw [m4, if_pos rfl]⟩
  · intro y hy
    exact ⟨by rw [m4, if_neg (by omega)], by rw [f1, if_neg (by omega)]⟩
  · intro y hy1 hy2
    have : y = p.nextTermIndex := by omega
    subst this
    exact ⟨by rw [f1, if_pos rfl], by rw [m4, if_pos rfl]; rfl⟩

/-- One round of pairing: the new list continues the accumulator with roots of
trees one level higher, with the same leaves in the same order. -/
theorem pairUp_spec (op : Op) (base k : Nat) :
    ∀ (n : Nat) (rest : List Nat), rest.length ≤ n →
      ∀ (p : Program) (acc lsR : List Nat), p.Consistent → base ≤ p.nextTermIndex →
      Forest p base k rest lsR →
      Expands op p (ReductionLogExpander.pairUp op p rest acc).1 ∧
      ∃ tail, (ReductionLogExpander.pairUp op p rest acc).2 = acc ++ tail ∧
        Forest (ReductionLogExpander.pairUp op p rest acc).1 base (k + 1) tail lsR ∧
        tail.length = (rest.length + 1) / 2 := by
  intro n
  induction n with
  | zero =>
    intro rest hlen p acc lsR hc hb hF
    have : rest = [] := List.length_eq_zero.mp (by omega)
    subst this
    cases hF
    exact ⟨expands_refl op p hc, [], by simp [ReductionLogExpander.pairUp], Forest.nil, rfl⟩
  | succ n ih =>
    intro rest hlen p acc lsR hc hb hF
    cases hF with
    | nil => exact ⟨expands_refl op p hc, [], by simp [ReductionLogExpander.pairUp], Forest.nil, rfl⟩
    | cons a rest1 la ls1 ha hta hlea hF1 =>
      cases hF1 with
      | nil =>
        refine ⟨expands_refl op p hc, [a], by simp [ReductionLogExpander.pairUp], ?_, by simp⟩
        exact Forest.cons a [] la [] ha hta (by omega) Forest.nil
      | cons b rest2 lb ls2 hb1 htb hleb hF2 =>
        have halt := treeAt_lt p base hc.fresh hb a la ha hta
        have hblt := treeAt_lt p base hc.fresh hb b lb hb1 htb
        obtain ⟨e1, e2, e3, e4⟩ := expands_makeTerm op p hc a b halt hblt
        have htr : ∀ y, base ≤ y → y < p.nextTermIndex →
            (p.makeTerm op [a, b]).2.operands y = p.operands y :=
          fun y _ hy => (e1.old y hy).1
        have hF2a : Forest (p.makeTerm op [a, b]).2 base k rest2 ls2 :=
          forest_transport p _ base k hc.fresh htr rest2 ls2 hF2
        simp only [List.length_cons] at hlen
        obtain ⟨i1, tail, i2, i3, i4⟩ := ih rest2 (by omega) (p.makeTerm op [a, b]).2
          (acc ++ [(p.makeTerm op [a, b]).1]) ls2 e1.cons (by rw [e3]; omega) hF2a
        have hunf : ReductionLogExpander.pairUp op p (a :: b :: rest2) acc
            = ReductionLogExpander.pairUp op (p.makeTerm op [a, b]).2 rest2
                (acc ++ [(p.makeTerm op [a, b]).1]) := by
          simp [ReductionLogExpander.pairUp]
        rw [hunf]
        refine ⟨expands_trans op _ _ _ e1 i1, (p.makeTerm op [a, b]).1 :: tail, ?_, ?_, ?_⟩
        · rw [i2]
          simp
        · have hnode : TreeAt (p.makeTerm op [a, b]).2 base p.nextTermIndex (la ++ lb)
              (1 + max ha hb1) :=
            TreeAt.node _ a b la lb ha hb1 hb e4
              (treeAt_transport p _ base hc.fresh htr a la ha hta)
              (treeAt_transport p _ base hc.fresh htr b lb hb1 htb)
          have hnode2 := treeAt_transport (p.makeTerm op [a, b]).2 _ base e1.cons.fresh
            (fun y _ hy => (i1.old y hy).1) _ _ _ hnode
          rw [e2]
          have := Forest.cons p.nextTermIndex tail (la ++ lb) ls2 (1 + max ha hb1) hnode2
            (by omega) i3
          simpa [List.append_assoc] using this
        · simp only [List.length_cons, i4]
          omega

/-- The loop that pairs the operands ends with two roots; the leaves of their
trees are the operands in order and the higher tree has as many levels as
rounds were run. -/
theorem expandLoop_spec (op : Op) (base : Nat) :
    ∀ (fuel k : Nat) (p : Program) (a : Nat) (rest la ls : List Nat),
      p.Consistent → base ≤ p.nextTermIndex → TreeAt p base a la k → Forest p base k rest ls →
      1 ≤ rest.length → rest.length + 1 ≤ fuel →
      ∃ q x y lx ly hx hy,
        ReductionLogExpander.expandLoop op fuel p (a :: rest) = some (q, [x, y]) ∧
        Expands op p q ∧ TreeAt q base x lx hx ∧ TreeAt q base y ly hy ∧
        lx ++ ly = la ++ ls ∧ 1 + max hx hy = k + Nat.clog 2 (rest.length + 1) := by
  intro fuel
  induction fuel with
  | zero =>
    intro k p a rest la ls _ _ _ _ _ h
    omega
  | succ fuel ih =>
    intro k p a rest la ls hc hb hta hF h1 hfuel
    unfold ReductionLogExpander.expandLoop
    cases hF with
    | nil => simp at h1
    | cons b rest2 lb ls2 hb1 htb hleb hF2 =>
      cases rest2 with
      | nil =>
        cases hF2
        have hlen : ¬ [a, b].length > 2 := by simp
        rw [if_neg hlen]
        refine ⟨p, a, b, la, lb, k, hb1, rfl, expands_refl op p hc, hta, htb, by simp, ?_⟩
        have h2 : Nat.clog 2 ([b].length + 1) = 1 := by
          simp only [List.length_singleton]
          exact Nat.clog_eq_one (le_refl _) (le_refl _)
        rw [h2]
        omega
      | cons c rest3 =>
        have hlen : (a :: b :: c :: rest3).length > 2 := by simp
        rw [if_pos hlen]
        simp only []
        have halt := treeAt_lt p base hc.fresh hb a la k hta
        have hblt := treeAt_lt p base hc.fresh hb b lb hb1 htb
        obtain ⟨e1, e2, e3, e4⟩ := expands_makeTerm op p hc a b halt hblt
        have htr : ∀ y, base ≤ y → y < p.nextTermIndex →
            (p.makeTerm op [a, b]).2.operands y = p.operands y :=
          fun y _ hy => (e1.old y hy).1
        have hF2a : Forest (p.makeTerm op [a, b]).2 base k (c :: rest3) ls2 :=
          forest_transport p _ base k hc.fresh htr _ ls2 hF2
        obtain ⟨i1, tail, i2, i3, i4⟩ := pairUp_spec op base k (c :: rest3).length (c :: rest3)
          (le_refl _) (p.makeTerm op [a, b]).2 ([] ++ [(p.makeTerm op [a, b]).1]) ls2 e1.cons
          (by rw [e3]; omega) hF2a
        have hunf : ReductionLogExpander.pairUp op p (a :: b :: c :: rest3) []
            = ReductionLogExpander.pairUp op (p.makeTerm op [a, b]).2 (c :: rest3)
                ([] ++ [(p.makeTerm op [a, b]).1]) := by
          simp [ReductionLogExpander.pairUp]
        rw [hunf, i2]
        have hnode : TreeAt (p.makeTerm op [a, b]).2 base p.nextTermIndex (la ++ lb)
            (1 + max k hb1) :=
          TreeAt.node _ a b la lb k hb1 hb e4
            (treeAt_transport p _ base hc.fresh htr a la k hta)
            (treeAt_transport p _ base hc.fresh htr b lb hb1 htb)
        have hk : 1 + max k hb1 = k + 1 := by omega
        rw [hk] at hnode
        have hnode2 := treeAt_transport (p.makeTerm op [a, b]).2 _ base e1.cons.fresh
          (fun y _ hy => (i1.old y hy).1) _ _ _ hnode
        simp only [List.length_cons] at i4 hfuel
        obtain ⟨q, x, y, lx, ly, hx, hy, j1, j2, j3, j4, j5, j6⟩ := ih (k + 1) _ p.nextTermIndex
          tail (la ++ lb) ls2 i1.cons (le_trans (by rw [e3]; omega) i1.next) hnode2 i3
          (by omega) (by omega)
        rw [e2]
        simp only [List.nil_append, List.singleton_append]
        refine ⟨q, x, y, lx, ly, hx, hy, j1, expands_trans op _ _ _ (expands_trans op _ _ _ e1 i1) j2,
          j3, j4, by rw [j5]; simp [List.append_assoc], ?_⟩
        rw [j6, i4]
        have hclog := Nat.clog_of_two_le (b := 2) (n := (b :: c :: rest3).length + 1)
          (by decide) (by simp)
        rw [hclog]
        simp only [List.length_cons]
        have harg : (rest3.length + 1 + 1 + 1 + 2 - 1) / 2 = (rest3.length + 1 + 1) / 2 + 1 := by
          omega
        rw [harg]
        omega

theorem forest_of_leaves (p : Program) (base : Nat) :
    ∀ (L : List Nat), (∀ x ∈ L, x < base) → Forest p base 0 L L := by
  intro L
  induction L with
  | nil => intro _; exact Forest.nil
  | cons a L ih =>
    intro h
    have := Forest.cons a L [a] L 0 (TreeAt.leaf a (h a (by simp))) (le_refl _)
      (ih (fun x hx => h x (by simp [hx])))
    simpa using this

/-- C14: `ReductionLogExpander` visits, in a consistent program, an `Add` or
`Mul` term `t` with `n > 2` operands that all have a scale in the map of the
pass.  The call returns; `t` has exactly two operands `a` and `b`; every term
created has the operation of `t` and exactly two operands; the older terms
other than `t` keep their operands; `a` and `b` carry trees of created terms
whose leaves, in order, are a permutation of the `n` operands `t` had; and the
height of the tree rooted at `t` is `ceil(log2 n)`, which is 3 for `n = 5`. -/
theorem logExpander_balances (st : ReductionLogExpander) (t : Nat)
    (hc : st.program.Consistent)
    (hop : st.program.op t = Op.Add ∨ st.program.op t = Op.Mul)
    (hn : 2 < (st.program.operands t).length)
    (hscale : ∀ o ∈ st.program.operands t, (st.scale o).isSome) :
    (∃ st1 a b leavesA leavesB heightA heightB, st.visit t = some st1 ∧
      st1.program.operands t = [a, b] ∧
      (∀ x, st.program.nextTermIndex ≤ x → x < st1.program.nextTermIndex →
        st1.program.op x = st.program.op t ∧ (st1.program.operands x).length = 2) ∧
      (∀ x, x < st.program.nextTermIndex → x ≠ t →
        st1.program.operands x = st.program.operands x) ∧
      TreeAt st1.program st.program.nextTermIndex a leavesA heightA ∧
      TreeAt st1.program st.program.nextTermIndex b leavesB heightB ∧
      (leavesA ++ leavesB).Perm (st.program.operands t) ∧
      1 + max heightA heightB = Nat.clog 2 (st.program.operands t).length) ∧
    Nat.clog 2 5 = 3 := by
  refine ⟨?_, by
    rw [Nat.clog_of_two_le (by decide) (by decide), Nat.clog_of_two_le (by decide) (by decide),
      Nat.clog_of_two_le (by decide) (by decide)]
    simp⟩
  have hne1 : ¬ (st.program.op t = Op.Rescale ∨ st.program.op t = Op.ModSwitch) := by
    rcases hop with h | h <;> simp [h]
  have hlen0 : ¬ ((st.program.operands t).length = 0) := by omega
  have hred : (isReductionOp (st.program.op t) &&
      decide ((st.program.operands t).length > 2)) = true := by
    unfold isReductionOp
    rcases hop with h | h <;> simp [h, hn]
  have ht : t < st.program.nextTermIndex := by
    cases hops : st.program.operands t with
    | nil => rw [hops] at hn; simp at hn
    | cons o l => exact (hc.operand_lt (by rw [hops]; simp : o ∈ st.program.operands t)).1
  unfold ReductionLogExpander.visit
  simp only [if_neg hne1, if_neg hlen0]
  split
  · next heq =>
    exfalso
    by_cases hmul : st.program.op t = Op.Mul
    · rw [if_pos hmul] at heq
      have := sumScales_some st.scale (st.program.operands t) 0 hscale
      cases h : ReductionLogExpander.sumScales st.scale (st.program.operands t) 0 with
      | none => rw [h] at this; simp at this
      | some s => rw [h] at heq; simp at heq
    · rw [if_neg hmul] at heq
      have := maxScales_some st.scale (st.program.operands t) 0 hscale
      cases h : ReductionLogExpander.maxScales st.scale (st.program.operands t) 0 with
      | none => rw [h] at this; simp at this
      | some s => rw [h] at heq; simp at heq
  · next scale heq =>
    have hsome : ∀ o ∈ st.program.operands t, (scale o).isSome := by
      have hupd : ∃ s, scale = Function.update st.scale t (some s) := by
        by_cases hmul : st.program.op t = Op.Mul
        · rw [if_pos hmul] at heq
          cases h : ReductionLogExpander.sumScales st.scale (st.program.operands t) 0 with
          | none => rw [h] at heq; simp at heq
          | some s =>
            rw [h] at heq
            exact ⟨s, by simpa using heq.symm⟩
        · rw [if_neg hmul] at heq
          cases h : ReductionLogExpander.maxScales st.scale (st.program.operands t) 0 with
          | none => rw [h] at heq; simp at heq
          | some s =>
            rw [h] at heq
            exact ⟨s, by simpa using heq.symm⟩
      obtain ⟨s, hs⟩ := hupd
      intro o ho
      rw [hs, Function.update_apply]
      split
      · rfl
      · exact hscale o ho
    simp only [hred, if_true]
    obtain ⟨sorted, hsort, hperm⟩ := sortOperands_spec st.type scale (st.program.operands t) []
      hsome
    rw [hsort]
    simp only [List.map_nil, List.flatten_nil, List.nil_append] at hperm
    simp only []
    have hlen : ((sorted.map Prod.snd).flatten).length = (st.program.operands t).length :=
      hperm.length_eq
    have hlt : ∀ x ∈ (sorted.map Prod.snd).flatten, x < st.program.nextTermIndex := by
      intro x hx
      exact (hc.operand_lt (hperm.mem_iff.mp hx)).2
    cases hL : (sorted.map Prod.snd).flatten with
    | nil => rw [hL] at hlen; simp at hlen; omega
    | cons a rest =>
      rw [hL] at hlen hlt hperm
      simp only [List.length_cons] at hlen
      have hta : TreeAt st.program st.program.nextTermIndex a [a] 0 :=
        TreeAt.leaf a (hlt a (by simp))
      have hFr : Forest st.program st.program.nextTermIndex 0 rest rest :=
        forest_of_leaves st.program st.program.nextTermIndex rest
          (fun x hx => hlt x (by simp [hx]))
      obtain ⟨q, x, y, lx, ly, hx, hy, j1, j2, j3, j4, j5, j6⟩ :=
        expandLoop_spec (st.program.op t) st.program.nextTermIndex (a :: rest).length 0
          st.program a rest _ _ hc (le_refl _) hta hFr (by omega)
          (by simp only [List.length_cons]; omega)
      rw [j1]
      simp only []
      have hxlt := treeAt_lt q _ j2.cons.fresh j2.next x lx hx j3
      have hylt := treeAt_lt q _ j2.cons.fresh j2.next y ly hy j4
      obtain ⟨s1, s2, s3⟩ := setOperands_consistent q t [x, y] j2.cons
        (lt_of_lt_of_le ht j2.next)
        (by
          intro z hz
          simp only [List.mem_cons, List.mem_singleton, List.not_mem_nil, or_false] at hz
          rcases hz with rfl | rfl
          · exact hxlt
          · exact hylt)
      obtain ⟨g1, _⟩ := setOperands_frame q t [x, y]
      have htr : ∀ z, st.program.nextTermIndex ≤ z → z < q.nextTermIndex →
          (Term.setOperands q t [x, y]).operands z = q.operands z := by
        intro z hz _
        rw [s3, if_neg (by omega)]
      refine ⟨_, x, y, lx, ly, hx, hy, rfl, ?_, ?_, ?_,
        treeAt_transport q _ _ j2.cons.fresh htr x lx hx j3,
        treeAt_transport q _ _ j2.cons.fresh htr y ly hy j4, ?_, ?_⟩
      · show (Term.setOperands q t [x, y]).operands t = [x, y]
        rw [s3, if_pos rfl]
      · intro z hz1 hz2
        show (Term.setOperands q t [x, y]).op z = _ ∧
          ((Term.setOperands q t [x, y]).operands z).length = 2
        have hz3 : z < q.nextTermIndex := by
          have : (Term.setOperands q t [x, y]).nextTermIndex = q.nextTermIndex := s2
          exact this ▸ hz2
        rw [g1, s3, if_neg (by omega)]
        exact j2.created z hz1 hz3
      · intro z hz hzt
        show (Term.setOperands q t [x, y]).operands z = _
        rw [s3, if_neg hzt]
        exact (j2.old z hz).1
      · rw [j5]
        simpa using hperm
      · rw [j6, Nat.zero_add, ← hlen]

/-- Witness of C14 on the sum of five inputs of `expandState`: the operands
are sorted by scale into `1, 3, 0, 2, 4`, paired into the terms 7 and 8, then
into term 9, and the `Add` (term 5) ends with the operands 9 and `4`. -/
theorem logExpander_balances_witness :
    (expandState.visit 5).map (fun s => (s.program.nextTermIndex, s.program.operands 5,
      s.program.operands 9, s.program.operands 7, s.program.operands 8))
      = some (10, [9, 4], [7, 8], [1, 3], [0, 2]) ∧
    ((∃ st1 a b leavesA leavesB heightA heightB, expandState.visit 5 = some st1 ∧
      st1.program.operands 5 = [a, b] ∧
      (∀ x, expandState.program.nextTermIndex ≤ x → x < st1.program.nextTermIndex →
        st1.program.op x = expandState.program.op 5 ∧ (st1.program.operands x).length = 2) ∧
      (∀ x, x < expandState.program.nextTermIndex → x ≠ 5 →
        st1.program.operands x = expandState.program.operands x) ∧
      TreeAt st1.program expandState.program.nextTermIndex a leavesA heightA ∧
      TreeAt st1.program expandState.program.nextTermIndex b leavesB heightB ∧
      (leavesA ++ leavesB).Perm (expandState.program.operands 5) ∧
      1 + max heightA heightB = Nat.clog 2 (expandState.program.operands 5).length) ∧
    Nat.clog 2 5 = 3) :=
  ⟨by decide!,
   logExpander_balances expandState 5
     (run_consistent _ _ _ (empty_consistent "sum5" 8) (run_eq_foldl _ _ (by decide!)))
     (Or.inl (by decide!)) (by decide!) (by decide!)⟩

/-! ## The `LazyWaterline` policy on a single product -/

/-- C12 (amended): on `y = a * b` with both inputs `Cipher` at scale 30 and
vector size 8, the pass of `LazyWaterlineRescaler` ends with no assertion
violated and creates no term: `minScale` is 30, the `Mul` and the output are
recorded at scale 60, below `fixedRescale + minScale = 90`, the output still
reads the `Mul` and the program holds no `Rescale`.  With both inputs at scale
60 the product scale 120 reaches the waterline: exactly one term is created,
the `Rescale` term 4 with divisor 60 over the `Mul`, the output reads it, and
it is the only `Rescale` of the program, so the path from the `Mul` to `y` is
`Mul, Rescale, y`. -/
theorem lazyWaterline_single_multiply :
    (runLazyWaterline 10 20 singleMul).map
        (fun st => (st.base.ok, st.base.minScale, st.base.program.nextTermIndex))
      = some (true, 30, 4) ∧
    (runLazyWaterline 10 20 singleMul).map
        (fun st => (st.base.program.operands 3, st.base.program.operands 2,
          st.base.scale 2, st.base.scale 3))
      = some ([2], [0, 1], some 60, some 60) ∧
    (runLazyWaterline 10 20 singleMul).map
        (fun st => (List.range st.base.program.nextTermIndex).filter
          (fun t => isRescaleOp (st.base.program.op t)))
      = some [] ∧
    (runLazyWaterline 10 20 singleMulSixty).map
        (fun st => (st.base.ok, st.base.minScale, st.base.program.nextTermIndex))
      = some (true, 60, 5) ∧
    (runLazyWaterline 10 20 singleMulSixty).map
        (fun st => (st.base.program.operands 3, st.base.program.operands 4,
          st.base.program.uses 2))
      = some ([4], [2], [4]) ∧
    (runLazyWaterline 10 20 singleMulSixty).map
        (fun st => (st.base.scale 2, st.base.scale 4, st.base.scale 3,
          (st.base.program.attributes 4).getUInt32 RescaleDivisorAttribute))
      = some (some 120, some 60, some 60, some 60) ∧
    (runLazyWaterline 10 20 singleMulSixty).map
        (fun st => (List.range st.base.program.nextTermIndex).filter
          (fun t => isRescaleOp (st.base.program.op t)))
      = some [4] := by
  refine ⟨?_, ?_, ?_, ?_, ?_, ?_, ?_⟩ <;> decide!

/-- C12 as stated fails: after the pass of `LazyWaterlineRescaler` over
`y = a * b` with both inputs at scale 30, the program has the four terms it
had, the operations are `Input`, `Input`, `Mul`, `Output`, and the output
reads the `Mul` itself: there is no `Rescale` term on the path from the `Mul`
to `y`, or anywhere else. -/
theorem lazyWaterline_single_multiply_no_rescale :
    (runLazyWaterline 10 20 singleMul).map
        (fun st => (st.base.program.nextTermIndex, st.base.program.operands 3))
      = some (4, [2]) ∧
    (runLazyWaterline 10 20 singleMul).map
        (fun st => (List.range 4).map st.base.program.op)
      = some [Op.Input, Op.Input, Op.Mul, Op.Output] ∧
    (runLazyWaterline 10 20 singleMul).map
        (fun st => ((List.range st.base.program.nextTermIndex).filter
          (fun t => isRescaleOp (st.base.program.op t))).length)
      ≠ some 1 := by
  refine ⟨?_, ?_, ?_⟩ <;> decide!

/-! ## A forward pass over a graph that the rewriter changes -/

theorem foldl_pushLeaf_spec (l : List Nat) (acc : List Nat × (Nat → Bool)) :
    (∀ x, (l.foldl pushLeaf acc).2 x = true ↔ (acc.2 x = true ∨ x ∈ l)) ∧
    (∀ x, x ∈ (l.foldl pushLeaf acc).1 ↔ (x ∈ acc.1 ∨ (x ∈ l ∧ acc.2 x = false))) ∧
    (acc.1.Nodup → (∀ x ∈ acc.1, acc.2 x = true) →
      (l.foldl pushLeaf acc).1.Nodup ∧
      ∀ x ∈ (l.foldl pushLeaf acc).1, (l.foldl pushLeaf acc).2 x = true) := by
  induction l generalizing acc with
  | nil => exact ⟨by simp, by simp, fun h1 h2 => ⟨h1, h2⟩⟩
  | cons a l ih =>
    simp only [List.foldl_cons]
    obtain ⟨ih1, ih2, ih3⟩ := ih (pushLeaf acc a)
    by_cases hc : acc.2 a = true
    · have hstep : pushLeaf acc a = acc := by simp [pushLeaf, hc]
      rw [hstep] at ih1 ih2 ih3 ⊢
      refine ⟨?_, ?_, ih3⟩
      · intro x
        rw [ih1 x]
        simp only [List.mem_cons]
        constructor
        · rintro (h | h)
          · exact Or.inl h
          · exact Or.inr (Or.inr h)
        · rintro (h | h | h)
          · exact Or.inl h
          · subst h; exact Or.inl hc
          · exact Or.inr h
      · intro x
        rw [ih2 x]
        simp only [List.mem_cons]
        constructor
        · rintro (h | ⟨h1, h2⟩)
          · exact Or.inl h
          · exact Or.inr ⟨Or.inr h1, h2⟩
        · rintro (h | ⟨h1 | h1, h2⟩)
          · exact Or.inl h
          · subst h1
            rw [hc] at h2
            exact Bool.noConfusion h2
          · exact Or.inr ⟨h1, h2⟩
    · have hc' : acc.2 a = false := by simpa using hc
      have hstep : pushLeaf acc a = (a :: acc.1, Function.update acc.2 a true) := by
        simp [pushLeaf, hc']
      rw [hstep] at ih1 ih2 ih3 ⊢
      refine ⟨?_, ?_, ?_⟩
      · intro x
        rw [ih1 x]
        simp only [Function.update_apply, List.mem_cons]
        by_cases hx : x = a
        · subst hx; simp
        · simp [hx]
      · intro x
        rw [ih2 x]
        simp only [Function.update_apply, List.mem_cons]
        by_cases hx : x = a
        · subst hx; simp [hc']
        · simp [hx]
      · intro hnd hrd
        apply ih3
        · simp only [List.nodup_cons]
          refine ⟨?_, hnd⟩
          intro hmem
          have := hrd a hmem
          rw [hc'] at this
          exact Bool.noConfusion this
        · intro x hx
          simp only [List.mem_cons] at hx
          simp only [Function.update_apply]
          split
          · rfl
          · rcases hx with hx | hx
            · contradiction
            · exact hrd x hx

/-- One iteration of the loop of a forward pass keeps the invariant when the
call of the rewriter only redirects uses of the visited term to new sources. -/
theorem forwardVisit_inv {σ : Type} (R : Rewriter σ) (J : σ → List Nat → Prop)
    (hJc : ∀ env visited, J env visited → (R.program env).Consistent)
    (hR : ∀ env visited term, J env visited → term ∉ visited →
      term < (R.program env).nextTermIndex →
      (∀ o ∈ (R.program env).operands term, o ∈ visited) →
      ∃ env1, R.rewrite env term = some env1 ∧ J env1 (visited ++ [term]) ∧
        Redirects (R.program env) (R.program env1) term)
    (st : TraversalState σ) (term : Nat) (rest : List Nat) (hst : ForwardInv R st)
    (hJ : J st.env st.visited) (hrn : st.readyNodes = term :: rest) :
    ∃ st1, traverseVisit true R st term rest = some st1 ∧ ForwardInv R st1 ∧
      st1.visited = st.visited ++ [term] ∧ J st1.env st1.visited := by
  have hterm_ready : st.ready term = true := (hst.ready_iff term).mpr (Or.inl (by simp [hrn]))
  have hterm_unproc : st.processed term = false := hst.rn_unproc term (by simp [hrn])
  have hnotin0 : term ∉ st.visited := by
    intro h
    have := (hst.proc_iff term).mpr h
    rw [hterm_unproc] at this
    exact Bool.noConfusion this
  obtain ⟨s1, hs1, hJ1, hred⟩ := hR st.env st.visited term hJ hnotin0
    (hst.ready_sound term hterm_ready).1
    (fun o ho => (hst.proc_iff o).mp ((hst.ready_sound term hterm_ready).2 o ho))
  have hcp := hJc _ _ hJ
  have hcq := hJc _ _ hJ1
  have hterm_notin : term ∉ rest := by
    have := hst.rn_nodup
    rw [hrn] at this
    exact (List.nodup_cons.mp this).1
  have hrest_nodup : rest.Nodup := by
    have := hst.rn_nodup
    rw [hrn] at this
    exact (List.nodup_cons.mp this).2
  have hrest_ready : ∀ x ∈ rest, st.ready x = true := fun x hx =>
    (hst.ready_iff x).mpr (Or.inl (by simp [hrn, hx]))
  obtain ⟨lp1, lp2, lp3⟩ := foldl_pushLeaf_spec (leaves true (R.program s1)) (rest, st.ready)
  obtain ⟨lp3a, lp3b⟩ := lp3 hrest_nodup hrest_ready
  obtain ⟨sp1, sp2, sp3⟩ := foldl_pushSucc_spec true (R.program s1)
    (Function.update st.processed term true)
    (successors true (R.program st.env) term ++ successors true (R.program s1) term)
    ((leaves true (R.program s1)).foldl pushLeaf (rest, st.ready))
  obtain ⟨sp3a, sp3b⟩ := sp3 lp3a lp3b
  have hproc : ∀ t, Function.update st.processed term true t = true ↔
      (t = term ∨ st.processed t = true) := by
    intro t
    simp only [Function.update_apply]
    by_cases h : t = term <;> simp [h]
  have hleaf : ∀ x, x ∈ leaves true (R.program s1) ↔
      (x < (R.program s1).nextTermIndex ∧ (R.program s1).operands x = []) := by
    intro x
    exact hcq.src x
  have hsame : ∀ x, st.ready x = true →
      (R.program s1).operands x = (R.program st.env).operands x := by
    intro x hx
    by_contra hne
    have hxlt := (hst.ready_sound x hx).1
    have := (hred.changed x hxlt hne).1
    have := (hst.ready_sound x hx).2 term this
    rw [hterm_unproc] at this
    exact Bool.noConfusion this
  have hproc_lt : ∀ x, st.processed x = true → x < (R.program st.env).nextTermIndex :=
    fun x hx => (hst.ready_sound x ((hst.ready_iff x).mpr (Or.inr hx))).1
  refine ⟨{ env := s1,
             ready := ((successors true (R.program st.env) term ++
                 successors true (R.program s1) term).foldl
               (pushSucc true (R.program s1) (Function.update st.processed term true))
               ((leaves true (R.program s1)).foldl pushLeaf (rest, st.ready))).2,
             processed := Function.update st.processed term true,
             readyNodes := ((successors true (R.program st.env) term ++
                 successors true (R.program s1) term).foldl
               (pushSucc true (R.program s1) (Function.update st.processed term true))
               ((leaves true (R.program s1)).foldl pushLeaf (rest, st.ready))).1,
             visited := st.visited ++ [term] }, ?_, ?_, rfl, hJ1⟩
  · simp only [traverseVisit, hs1]
  · refine ⟨?_, ?_, sp3a, ?_, ?_, ?_, ?_⟩
    · intro t
      show Function.update st.processed term true t = true ↔ t ∈ st.visited ++ [term]
      rw [hproc, hst.proc_iff]
      simp only [List.mem_append, List.mem_singleton]
      tauto
    · show (st.visited ++ [term]).Nodup
      rw [List.nodup_append]
      refine ⟨hst.vis_nodup, by simp, ?_⟩
      intro x hx hx2
      simp only [List.mem_singleton] at hx2
      subst hx2
      exact hnotin0 hx
    · intro t
      show _ ↔ (_ ∨ Function.update st.processed term true t = true)
      constructor
      · intro h
        rcases (sp1 t).mp h with h1 | h1
        · rcases (lp1 t).mp h1 with h2 | h2
          · have h3 := (hst.ready_iff t).mp h2
            rw [hrn] at h3
            simp only [List.mem_cons] at h3
            rcases h3 with (h3 | h3) | h3
            · exact Or.inr ((hproc t).mpr (Or.inl h3))
            · exact Or.inl ((sp2 t).mpr (Or.inl ((lp2 t).mpr (Or.inl h3))))
            · exact Or.inr ((hproc t).mpr (Or.inr h3))
          · by_cases hr : st.ready t = true
            · have h3 := (hst.ready_iff t).mp hr
              rw [hrn] at h3
              simp only [List.mem_cons] at h3
              rcases h3 with (h3 | h3) | h3
              · exact Or.inr ((hproc t).mpr (Or.inl h3))
              · exact Or.inl ((sp2 t).mpr (Or.inl ((lp2 t).mpr (Or.inl h3))))
              · exact Or.inr ((hproc t).mpr (Or.inr h3))
            · exact Or.inl ((sp2 t).mpr (Or.inl ((lp2 t).mpr
                (Or.inr ⟨h2, by simpa using hr⟩))))
        · by_cases hr : ((leaves true (R.program s1)).foldl pushLeaf (rest, st.ready)).2 t = true
          · rcases (lp1 t).mp hr with h2 | h2
            · have h3 := (hst.ready_iff t).mp h2
              rw [hrn] at h3
              simp only [List.mem_cons] at h3
              rcases h3 with (h3 | h3) | h3
              · exact Or.inr ((hproc t).mpr (Or.inl h3))
              · exact Or.inl ((sp2 t).mpr (Or.inl ((lp2 t).mpr (Or.inl h3))))
              · exact Or.inr ((hproc t).mpr (Or.inr h3))
            · by_cases hr2 : st.ready t = true
              · have h3 := (hst.ready_iff t).mp hr2
                rw [hrn] at h3
                simp only [List.mem_cons] at h3
                rcases h3 with (h3 | h3) | h3
                · exact Or.inr ((hproc t).mpr (Or.inl h3))
                · exact Or.inl ((sp2 t).mpr (Or.inl ((lp2 t).mpr (Or.inl h3))))
                · exact Or.inr ((hproc t).mpr (Or.inr h3))
              · exact Or.inl ((sp2 t).mpr (Or.inl ((lp2 t).mpr
                  (Or.inr ⟨h2, by simpa using hr2⟩))))
          · exact Or.inl ((sp2 t).mpr (Or.inr ⟨h1.1, by simpa using hr, h1.2⟩))
      · rintro (h | h)
        · exact sp3b t h
        · rcases (hproc t).mp h with h1 | h1
          · subst h1
            exact (sp1 t).mpr (Or.inl ((lp1 t).mpr (Or.inl hterm_ready)))
          · exact (sp1 t).mpr (Or.inl ((lp1 t).mpr
              (Or.inl ((hst.ready_iff t).mpr (Or.inr h1)))))
    · intro t ht
      show Function.update st.processed term true t = false
      have hunready_unproc : ∀ x, st.ready x = false → x ≠ term ∧ st.processed x = false := by
        intro x hx
        refine ⟨?_, ?_⟩
        · rintro rfl
          rw [hterm_ready] at hx
          exact Bool.noConfusion hx
        · by_contra hpr
          have := (hst.ready_iff x).mpr (Or.inr (by simpa using hpr))
          rw [hx] at this
          exact Bool.noConfusion this
      have key : t ≠ term ∧ st.processed t = false := by
        rcases (sp2 t).mp ht with h | h
        · rcases (lp2 t).mp h with h1 | h1
          · refine ⟨?_, hst.rn_unproc t (by simp [hrn, h1])⟩
            rintro rfl
            exact hterm_notin h1
          · exact hunready_unproc t h1.2
        · have h2 : st.ready t = false := by
            by_contra hr
            have := (lp1 t).mpr (Or.inl (by simpa using hr))
            rw [h.2.1] at this
            exact Bool.noConfusion this
          exact hunready_unproc t h2
      simp only [Function.update_apply, key.1, if_false]
      exact key.2
    · intro t ht
      show t < (R.program s1).nextTermIndex ∧
        ∀ o ∈ (R.program s1).operands t, Function.update st.processed term true o = true
      rcases (sp1 t).mp ht with h | h
      · rcases (lp1 t).mp h with h1 | h1
        · have hs := hst.ready_sound t h1
          refine ⟨lt_of_lt_of_le hs.1 hred.next, ?_⟩
          intro o ho
          rw [hsame t h1] at ho
          exact (hproc o).mpr (Or.inr (hs.2 o ho))
        · have := (hleaf t).mp h1
          refine ⟨this.1, ?_⟩
          intro o ho
          rw [this.2] at ho
          simp at ho
      · refine ⟨?_, ?_⟩
        · rcases List.mem_append.mp h.1 with h1 | h1
          · have : t ∈ (R.program st.env).uses term := h1
            exact lt_of_lt_of_le (hcp.use_lt this).2 hred.next
          · have : t ∈ (R.program s1).uses term := h1
            exact (hcq.use_lt this).2
        · have := (arePredecessorsDone_iff true _ _ _).mp h.2
          exact this
    · intro s hs hall
      show _ = true
      rw [sp1]
      by_cases hnew : (R.program st.env).nextTermIndex ≤ s
      · left
        rw [lp1]
        right
        exact (hleaf s).mpr ⟨hs, hred.created s hnew hs⟩
      · have hslt : s < (R.program st.env).nextTermIndex := by omega
        by_cases hch : (R.program s1).operands s = (R.program st.env).operands s
        · by_cases hold : ∀ o ∈ (R.program st.env).operands s, st.processed o = true
          · left
            rw [lp1]
            exact Or.inl (hst.ready_complete s hslt hold)
          · right
            push_neg at hold
            obtain ⟨o, ho, hno⟩ := hold
            have h1 := (hproc o).mp (hall o (by rw [hch]; exact ho))
            rcases h1 with h1 | h1
            · subst h1
              refine ⟨List.mem_append.mpr (Or.inl ?_),
                (arePredecessorsDone_iff true _ _ _).mpr hall⟩
              show s ∈ (R.program st.env).uses o
              apply List.count_pos_iff.mp
              rw [← hcp.sym s o]
              exact List.count_pos_iff.mpr ho
            · exact absurd h1 hno
        · exfalso
          obtain ⟨_, k, hk, hkge⟩ := hred.changed s hslt hch
          have h1 := (hproc k).mp (hall k hk)
          rcases h1 with h1 | h1
          · subst h1
            have := (hst.ready_sound k hterm_ready).1
            omega
          · have := hproc_lt k h1
            omega

theorem ForwardInv.visited_below {σ : Type} {R : Rewriter σ} {st : TraversalState σ}
    (h : ForwardInv R st) (t : Nat) (ht : t ∈ st.visited) :
    t < (R.program st.env).nextTermIndex :=
  (h.ready_sound t ((h.ready_iff t).mpr (Or.inr ((h.proc_iff t).mpr ht)))).1

/-- With as much fuel as the graph can ever have terms, the loop runs until
`readyNodes` is empty. -/
theorem forwardLoop_redirecting {σ : Type} (R : Rewriter σ) (J : σ → List Nat → Prop) (B : Nat)
    (hJc : ∀ env visited, J env visited → (R.program env).Consistent)
    (hJb : ∀ env visited, J env visited → (R.program env).nextTermIndex ≤ B)
    (hR : ∀ env visited term, J env visited → term ∉ visited →
      term < (R.program env).nextTermIndex →
      (∀ o ∈ (R.program env).operands term, o ∈ visited) →
      ∃ env1, R.rewrite env term = some env1 ∧ J env1 (visited ++ [term]) ∧
        Redirects (R.program env) (R.program env1) term)
    (fuel : Nat) (st : TraversalState σ) (hst : ForwardInv R st) (hJ : J st.env st.visited)
    (hfuel : B ≤ fuel + st.visited.length) :
    ∃ st1, traverseLoop true R fuel st = some st1 ∧ ForwardInv R st1 ∧
      st1.readyNodes = [] ∧ J st1.env st1.visited := by
  induction fuel generalizing st with
  | zero =>
    have hempty : st.readyNodes = [] := by
      cases hrn : st.readyNodes with
      | nil => rfl
      | cons t rest =>
        exfalso
        have ht_un : st.processed t = false := hst.rn_unproc t (by simp [hrn])
        have ht_notin : t ∉ st.visited := by
          intro h
          have := (hst.proc_iff t).mpr h
          rw [ht_un] at this
          exact Bool.noConfusion this
        have ht_lt : t < (R.program st.env).nextTermIndex :=
          (hst.ready_sound t ((hst.ready_iff t).mpr (Or.inl (by simp [hrn])))).1
        have hlen := nodup_bounded_length (t :: st.visited) (R.program st.env).nextTermIndex
          (List.nodup_cons.mpr ⟨ht_notin, hst.vis_nodup⟩) (by
            intro x hx
            simp only [List.mem_cons] at hx
            rcases hx with rfl | hx
            · exact ht_lt
            · exact hst.visited_below x hx)
        simp only [List.length_cons] at hlen
        have := hJb _ _ hJ
        omega
    exact ⟨st, by simp [traverseLoop, hempty], hst, hempty, hJ⟩
  | succ fuel ih =>
    cases hrn : st.readyNodes with
    | nil => exact ⟨st, by simp [traverseLoop, hrn], hst, hrn, hJ⟩
    | cons term rest =>
      obtain ⟨st1, h1, h2, h3, h4⟩ := forwardVisit_inv R J hJc hR st term rest hst hJ hrn
      obtain ⟨st2, e1, e2, e3, e4⟩ := ih st1 h2 h4 (by rw [h3]; simp; omega)
      refine ⟨st2, ?_, e2, e3, e4⟩
      simp only [traverseLoop, hrn, h1]
      exact e1

/-- A forward pass whose rewriter only redirects uses of the visited term to
new sources ends, within `B` iterations when the graph never has more than `B`
terms, with every term of the final graph logged exactly once, and keeps the
invariant `J` of the rewriter. -/
theorem forwardPass_redirecting {σ : Type} (R : Rewriter σ) (J : σ → List Nat → Prop) (B : Nat)
    (hJc : ∀ env visited, J env visited → (R.program env).Consistent)
    (hJa : ∀ env visited, J env visited → (R.program env).Acyclic)
    (hJb : ∀ env visited, J env visited → (R.program env).nextTermIndex ≤ B)
    (hR : ∀ env visited term, J env visited → term ∉ visited →
      term < (R.program env).nextTermIndex →
      (∀ o ∈ (R.program env).operands term, o ∈ visited) →
      ∃ env1, R.rewrite env term = some env1 ∧ J env1 (visited ++ [term]) ∧
        Redirects (R.program env) (R.program env1) term)
    (env : σ) (hJ : J env []) (hnd : (R.program env).sources.Nodup) (fuel : Nat)
    (hfuel : B ≤ fuel) :
    ∃ st, forwardPass R fuel env = some st ∧ st.readyNodes = [] ∧ J st.env st.visited ∧
      st.visited.Nodup ∧ ∀ t, t ∈ st.visited ↔ t < (R.program st.env).nextTermIndex := by
  have hc := hJc _ _ hJ
  have hinit : ForwardInv R
      { env := env,
        ready := (leaves true (R.program env)).foldl
          (fun ready term => Function.update ready term true) (fun _ => false),
        processed := fun _ => false,
        readyNodes := (leaves true (R.program env)).reverse,
        visited := [] } := by
    refine ⟨by simp, List.nodup_nil, List.nodup_reverse.mpr hnd, ?_, by simp, ?_, ?_⟩
    · intro t
      simp [foldl_update_true]
    · intro t ht
      simp only [foldl_update_true] at ht
      have hmem : t ∈ (R.program env).sources := by simpa [leaves, Program.getSources] using ht
      have := (hc.src t).mp hmem
      refine ⟨this.1, ?_⟩
      intro o ho
      rw [this.2] at ho
      simp at ho
    · intro s hs hall
      simp only [foldl_update_true]
      left
      show s ∈ (R.program env).sources
      apply (hc.src s).mpr
      refine ⟨hs, ?_⟩
      cases hp : (R.program env).operands s with
      | nil => rfl
      | cons o l =>
        have := hall o (by simp [hp])
        simp at this
  obtain ⟨st, h1, h2, h3, h4⟩ := forwardLoop_redirecting R J B hJc hJb hR fuel _ hinit hJ
    (by simp; omega)
  have hcq := hJc _ _ h4
  have hall : ∀ t, t < (R.program st.env).nextTermIndex → st.processed t = true := by
    obtain ⟨rank, hrank⟩ := hJa _ _ h4
    have key : ∀ k t, rank t < k → t < (R.program st.env).nextTermIndex →
        st.processed t = true := by
      intro k
      induction k with
      | zero => intro t ht; omega
      | succ k ih =>
        intro t ht hlt
        have hready := h2.ready_complete t hlt (by
          intro o ho
          exact ih o (by have := hrank t o ho; omega) (hcq.operand_lt ho).2)
        have := (h2.ready_iff t).mp hready
        rw [h3] at this
        simpa using this
    intro t ht
    exact key (rank t + 1) t (by omega) ht
  refine ⟨st, h1, h3, h4, h2.vis_nodup, ?_⟩
  intro t
  constructor
  · intro ht
    exact h2.visited_below t ht
  · intro ht
    exact (h2.proc_iff t).mp (hall t ht)

/-! ## The forward pass of `ConstantFolder` -/

/-- What `makeConstant` builds: a new `Constant` source that carries the
value. -/
theorem makeConstant_spec (p : Program) (value : ConstantValue) (h : p.Consistent) :
    (p.makeConstant value).1 = p.nextTermIndex ∧
    (p.makeConstant value).2.Consistent ∧
    (p.makeConstant value).2.nextTermIndex = p.nextTermIndex + 1 ∧
    (p.makeConstant value).2.vecSize = p.vecSize ∧
    (∀ x, (p.makeConstant value).2.operands x = p.operands x) ∧
    (∀ x, (p.makeConstant value).2.op x = if x = p.nextTermIndex then Op.Constant else p.op x) ∧
    (∀ x, (p.makeConstant value).2.attributes x
      = if x = p.nextTermIndex then [(ConstantValueAttribute, AttributeValue.constant value)]
        else p.attributes x) := by
  obtain ⟨m1, m2, m3, m4⟩ := makeTerm_consistent p Op.Constant [] h (by simp)
  obtain ⟨f1, f2⟩ := makeTerm_frame p Op.Constant []
  unfold Program.makeConstant
  simp only [m2]
  refine ⟨trivial, setAttribute_consistent _ _ _ _ m1, ?_, ?_, ?_, ?_, ?_⟩
  · simp [Term.setAttribute, m3]
  · simp [Term.setAttribute, Program.withAttributes, Program.makeTerm, Term.create]
  · intro x
    simp only [Term.setAttribute, withAttributes_operands, m4]
    split
    · next hx => rw [hx, (h.fresh p.nextTermIndex (le_refl _)).1]
    · rfl
  · intro x; simp [Term.setAttribute, f1]
  · intro x
    simp only [Term.setAttribute, withAttributes_attributes, f2]
    split
    · simp [AttributeList.set]
    · rfl

/-- `replaceAllUsesWith` on a consistent program: every term reads `n` where
it read `t`, and `t` is left without uses. -/
theorem replaceAllUsesWith_spec (p : Program) (t n : Nat) (h : p.Consistent)
    (ht : t < p.nextTermIndex) (hn : n < p.nextTermIndex) (hne : t ≠ n) :
    (Term.replaceAllUsesWith p t n).Consistent ∧
    (Term.replaceAllUsesWith p t n).nextTermIndex = p.nextTermIndex ∧
    (∀ x, (Term.replaceAllUsesWith p t n).operands x
      = (p.operands x).map (fun y => if y = t then n else y)) ∧
    (∀ x, (Term.replaceAllUsesWith p t n).op x = p.op x) ∧
    (∀ x, (Term.replaceAllUsesWith p t n).attributes x = p.attributes x) ∧
    (Term.replaceAllUsesWith p t n).uses t = [] := by
  obtain ⟨c1, c2⟩ := replaceUsesWithIf_consistent p t n (fun _ => true) h ht hn
  obtain ⟨s1, s2, s3⟩ := replaceUsesWithIf_spec p t n (fun _ => true)
  have hops : ∀ x, (Term.replaceAllUsesWith p t n).operands x
      = (p.operands x).map (fun y => if y = t then n else y) := by
    intro x
    show (Term.replaceUsesWithIf p t n fun _ => true).operands x = _
    rw [s1]
    simp only [and_true]
    split
    · rfl
    · next hmem =>
      have hnot : t ∉ p.operands x := by
        intro hm
        apply hmem
        apply List.count_pos_iff.mp
        rw [← h.sym x t]
        exact List.count_pos_iff.mpr hm
      symm
      conv_rhs => rw [← List.map_id (p.operands x)]
      apply List.map_congr_left
      intro y hy
      have : y ≠ t := by
        rintro rfl
        exact hnot hy
      simp [this]
  refine ⟨c1, c2, hops, s2, s3, ?_⟩
  have hc : (Term.replaceAllUsesWith p t n).Consistent := c1
  apply List.eq_nil_iff_forall_not_mem.mpr
  intro u hu
  have hpos := List.count_pos_iff.mpr hu
  rw [← hc.sym u t, hops, count_map_replace_self _ _ _ hne] at hpos
  omega

theorem addUse_vecSize (p : Program) (a b : Nat) : (Term.addUse p a b).vecSize = p.vecSize := by
  unfold Term.addUse
  split <;> rfl

theorem eraseUse_vecSize (p : Program) (a b : Nat) :
    (Term.eraseUse p a b).vecSize = p.vecSize := by
  unfold Term.eraseUse
  simp only []
  split <;> rfl

theorem replaceOperandAt_vecSize (o n t : Nat) (p : Program) (i : Nat) :
    (Term.replaceOperandAt o n t p i).vecSize = p.vecSize := by
  unfold Term.replaceOperandAt
  split
  · rw [addUse_vecSize, eraseUse_vecSize]
    rfl
  · rfl

theorem replaceOperand_vecSize (p : Program) (t o n : Nat) :
    (Term.replaceOperand p t o n).2.vecSize = p.vecSize := by
  unfold Term.replaceOperand
  simp only []
  generalize List.range (p.operands t).length = l
  induction l generalizing p with
  | nil => rfl
  | cons a l ih =>
    simp only [List.foldl_cons]
    rw [ih, replaceOperandAt_vecSize]

theorem replaceUsesWithIf_vecSize (p : Program) (t n : Nat) (f : Nat → Bool) :
    (Term.replaceUsesWithIf p t n f).vecSize = p.vecSize := by
  unfold Term.replaceUsesWithIf
  generalize p.uses t = l
  induction l generalizing p with
  | nil => rfl
  | cons a l ih =>
    simp only [List.foldl_cons]
    rw [ih]
    split
    · exact replaceOperand_vecSize _ _ _ _
    · rfl

theorem getConstant_cons_constant (c : ConstantValue) (v : AttributeValue) :
    AttributeList.getConstant
      (AttributeList.set [(ConstantValueAttribute, AttributeValue.constant c)]
        EncodeAtScaleAttribute v) = some c := by
  simp [AttributeList.getConstant, AttributeList.set, AttributeList.get, ConstantValueAttribute,
    EncodeAtScaleAttribute]

/-- What `replaceNodeWithConstant` does on a consistent program, for an output
vector of the size of the program. -/
theorem replaceNodeWithConstant_spec (st : ConstantFolder) (t : Nat) (v : List ℚ) (sc : Nat)
    (hc : st.program.Consistent) (ht : t < st.program.nextTermIndex)
    (hv : v.length = st.program.vecSize) (hpos : 0 < st.program.vecSize) :
    ∃ st1, st.replaceNodeWithConstant t v sc = some st1 ∧
      st1.program.Consistent ∧
      st1.program.nextTermIndex = st.program.nextTermIndex + 1 ∧
      st1.program.vecSize = st.program.vecSize ∧
      (∀ x, st1.program.operands x
        = (st.program.operands x).map (fun y => if y = t then st.program.nextTermIndex else y)) ∧
      (∀ x, st1.program.op x
        = if x = st.program.nextTermIndex then Op.Constant else st.program.op x) ∧
      (∀ x, x ≠ st.program.nextTermIndex → st1.program.attributes x = st.program.attributes x) ∧
      AttributeList.getConstant (st1.program.attributes st.program.nextTermIndex)
        = some (ConstantValue.dense st.program.vecSize v) ∧
      st1.ok = st.ok := by
  have hlen : ¬ v.length = 0 := by omega
  have hmod : ¬ st.program.vecSize % v.length ≠ 0 := by
    rw [hv]
    simp
  obtain ⟨m1, m2, m3, m4, m5, m6, m7⟩ := makeConstant_spec st.program
    (ConstantValue.dense st.program.vecSize v) hc
  unfold ConstantFolder.replaceNodeWithConstant Program.makeDenseConstant
  simp only [if_neg hlen, if_neg hmod, m1]
  have hc2 : (Term.setAttribute (st.program.makeConstant
      (ConstantValue.dense st.program.vecSize v)).2 st.program.nextTermIndex
      EncodeAtScaleAttribute
      (AttributeValue.uint32 ((st.scale.assign st.program.nextTermIndex sc).val
        st.program.nextTermIndex))).Consistent := setAttribute_consistent _ _ _ _ m2
  obtain ⟨r1, r2, r3, r4, r5, r6⟩ := replaceAllUsesWith_spec _ t st.program.nextTermIndex hc2
    (by simp [Term.setAttribute, m3]; omega) (by simp [Term.setAttribute, m3]) (by omega)
  refine ⟨_, rfl, r1, ?_, ?_, ?_, ?_, ?_, ?_, ?_⟩
  · simp only []
    rw [r2]
    simp [Term.setAttribute, m3]
  · simp only []
    show (Term.replaceUsesWithIf _ t _ _).vecSize = _
    rw [replaceUsesWithIf_vecSize]
    exact m4
  · intro x
    simp only []
    rw [r3]
    simp [Term.setAttribute, m5]
  · intro x
    simp only []
    rw [r4]
    simp [Term.setAttribute, m6]
  · intro x hx
    simp only []
    rw [r5]
    simp [Term.setAttribute, m7, hx]
  · simp only []
    rw [r5]
    simp only [Term.setAttribute, withAttributes_attributes, if_true, m7]
    exact getConstant_cons_constant _ _
  · simp only []
    rw [r6]
    simp

theorem any_not_constant_false (p : Program) (l : List Nat)
    (h : ∀ o ∈ l, p.op o = Op.Constant) :
    l.any (fun arg => decide (p.op arg ≠ Op.Constant)) = false := by
  rw [List.any_eq_false]
  intro x hx
  simp [h x hx]

theorem binary_folds (f : ℚ → ℚ → ℚ) (st : ConstantFolder) (t a b : Nat) (x y : List ℚ)
    (ha : st.program.constantValues a = some x) (hb : st.program.constantValues b = some y) :
    ∃ scale1 sc, ConstantFolder.binary f st t a b
      = ({ program := st.program, scale := scale1, ok := st.ok } :
          ConstantFolder).replaceNodeWithConstant t (List.zipWith f x y) sc := by
  unfold ConstantFolder.binary ConstantFolder.expandArg
  rw [ha, hb]
  exact ⟨_, _, rfl⟩

/-- On a term of a folded operation whose operands are constants with values
of the size of the program, the call operator replaces the term by the
constant of the slot-wise result. -/
theorem visit_folds (st : ConstantFolder) (t : Nat) (hok : st.ok = true)
    (hpos : 0 < st.program.vecSize)
    (hconst : ∀ o ∈ st.program.operands t, st.program.op o = Op.Constant)
    (hop : isFoldedOp (st.program.op t) = true)
    (h2 : (st.program.op t = Op.Add ∨ st.program.op t = Op.Sub ∨ st.program.op t = Op.Mul) →
      (st.program.operands t).length = 2)
    (h1 : (st.program.op t = Op.Negate ∨ st.program.op t = Op.RotateLeftConst ∨
      st.program.op t = Op.RotateRightConst) → (st.program.operands t).length = 1)
    (hrot : (st.program.op t = Op.RotateLeftConst ∨ st.program.op t = Op.RotateRightConst) →
      (AttributeList.getInt32 (st.program.attributes t) RotationAttribute).isSome)
    (hval : ∀ o ∈ st.program.operands t,
      ∃ v, st.program.constantValues o = some v ∧ v.length = st.program.vecSize) :
    ∃ v scale1 sc, foldedValues st.program t = some v ∧ v.length = st.program.vecSize ∧
      st.visit t = ({ program := st.program, scale := scale1, ok := true } :
          ConstantFolder).replaceNodeWithConstant t v sc := by
  have hany := any_not_constant_false st.program (st.program.operands t) hconst
  have hbin : ∀ (f : ℚ → ℚ → ℚ), (st.program.operands t).length = 2 →
      ∃ a b x y, st.program.operands t = [a, b] ∧ st.program.constantValues a = some x ∧
        st.program.constantValues b = some y ∧
        (List.zipWith f x y).length = st.program.vecSize := by
    intro f hlen
    match hops : st.program.operands t, hlen with
    | [a, b], _ =>
      obtain ⟨x, hx, hxl⟩ := hval a (by rw [hops]; simp)
      obtain ⟨y, hy, hyl⟩ := hval b (by rw [hops]; simp)
      exact ⟨a, b, x, y, rfl, hx, hy, by simp [hxl, hyl]⟩
  have hun : (st.program.operands t).length = 1 →
      ∃ a x, st.program.operands t = [a] ∧ st.program.constantValues a = some x ∧
        x.length = st.program.vecSize := by
    intro hlen
    match hops : st.program.operands t, hlen with
    | [a], _ =>
      obtain ⟨x, hx, hxl⟩ := hval a (by rw [hops]; simp)
      exact ⟨a, x, rfl, hx, hxl⟩
  unfold isFoldedOp at hop
  simp only [Bool.or_eq_true, decide_eq_true_eq] at hop
  rcases hop with ((((hop | hop) | hop) | hop) | hop) | hop
  · obtain ⟨a, b, x, y, hops, hx, hy, hl⟩ := hbin (fun u v => u + v) (h2 (Or.inl hop))
    obtain ⟨scale1, sc, hb⟩ := binary_folds (fun u v => u + v)
      { st with ok := st.ok && decide ([a, b].length = 2) } t a b x y hx hy
    refine ⟨_, scale1, sc, ?_, hl, ?_⟩
    · unfold foldedValues
      rw [hop, hops]
      simp only [hx, hy]
    · unfold ConstantFolder.visit
      rw [hops] at hany
      simp only [hops, hany, hop, Bool.false_eq_true, if_false, ConstantFolder.add]
      rw [hb]
      simp [hok]
  · obtain ⟨a, b, x, y, hops, hx, hy, hl⟩ := hbin (fun u v => u - v) (h2 (Or.inr (Or.inl hop)))
    obtain ⟨scale1, sc, hb⟩ := binary_folds (fun u v => u - v)
      { st with ok := st.ok && decide ([a, b].length = 2) } t a b x y hx hy
    refine ⟨_, scale1, sc, ?_, hl, ?_⟩
    · unfold foldedValues
      rw [hop, hops]
      simp only [hx, hy]
    · unfold ConstantFolder.visit
      rw [hops] at hany
      simp only [hops, hany, hop, Bool.false_eq_true, if_false, ConstantFolder.sub]
      rw [hb]
      simp [hok]
  · obtain ⟨a, b, x, y, hops, hx, hy, hl⟩ := hbin (fun u v => u * v) (h2 (Or.inr (Or.inr hop)))
    obtain ⟨scale1, sc, hb⟩ := binary_folds (fun u v => u * v)
      { st with ok := st.ok && decide ([a, b].length = 2) } t a b x y hx hy
    refine ⟨_, scale1, sc, ?_, hl, ?_⟩
    · unfold foldedValues
      rw [hop, hops]
      simp only [hx, hy]
    · unfold ConstantFolder.visit
      rw [hops] at hany
      simp only [hops, hany, hop, Bool.false_eq_true, if_false, ConstantFolder.mul]
      rw [hb]
      simp [hok]
  · obtain ⟨a, x, hops, hx, hl⟩ := hun (h1 (Or.inl hop))
    refine ⟨x.map (fun u => -u), st.scale.touch a, (st.scale.touch a).val a, ?_, by simp [hl],
      ?_⟩
    · unfold foldedValues
      rw [hop, hops]
      simp only [hx]
    · unfold ConstantFolder.visit
      rw [hops] at hany
      simp only [hops, hany, hop, Bool.false_eq_true, if_false, ConstantFolder.negate,
        ConstantFolder.expandArg]
      rw [hx]
      simp [hok]
  · obtain ⟨a, x, hops, hx, hl⟩ := hun (h1 (Or.inr (Or.inl hop)))
    obtain ⟨k, hk⟩ := Option.isSome_iff_exists.mp (hrot (Or.inl hop))
    have hn : x.length ≠ 0 := by omega
    have hs : (k % (x.length : Int)).toNat < x.length := by
      have h1 : 0 ≤ k % (x.length : Int) := Int.emod_nonneg _ (by exact_mod_cast hn)
      have h2 : k % (x.length : Int) < (x.length : Int) :=
        Int.emod_lt_of_pos _ (by exact_mod_cast Nat.pos_of_ne_zero hn)
      omega
    refine ⟨x.rotate (k % (x.length : Int)).toNat, st.scale.touch a, (st.scale.touch a).val a,
      ?_, by simp [hl], ?_⟩
    · unfold foldedValues
      rw [hop, hops]
      simp only [hx, hk]
    · unfold ConstantFolder.visit
      rw [hops] at hany
      simp only [hops, hany, hop, hk, Bool.false_eq_true, if_false, ConstantFolder.leftRotate,
        ConstantFolder.expandArg]
      rw [hx]
      simp only [normalizeShift, if_neg hn]
      rw [List.rotate_eq_drop_append_take (le_of_lt hs)]
      simp [hok]
  · obtain ⟨a, x, hops, hx, hl⟩ := hun (h1 (Or.inr (Or.inr hop)))
    obtain ⟨k, hk⟩ := Option.isSome_iff_exists.mp (hrot (Or.inr hop))
    have hn : x.length ≠ 0 := by omega
    refine ⟨x.rotate (x.length - (k % (x.length : Int)).toNat), st.scale.touch a,
      (st.scale.touch a).val a, ?_, by simp [hl], ?_⟩
    · unfold foldedValues
      rw [hop, hops]
      simp only [hx, hk]
    · unfold ConstantFolder.visit
      rw [hops] at hany
      simp only [hops, hany, hop, hk, Bool.false_eq_true, if_false, ConstantFolder.rightRotate,
        ConstantFolder.expandArg]
      rw [hx]
      simp only [normalizeShift, if_neg hn]
      rw [List.rotate_eq_drop_append_take (Nat.sub_le _ _)]
      simp [hok]

theorem constantValues_congr (p q : Program) (t : Nat)
    (ha : q.attributes t = p.attributes t) (hv : q.vecSize = p.vecSize) :
    q.constantValues t = p.constantValues t := by
  unfold Program.constantValues
  rw [ha, hv]

theorem foldedValues_congr (p q : Program) (t : Nat) (h1 : q.op t = p.op t)
    (h2 : q.operands t = p.operands t) (h3 : q.attributes t = p.attributes t)
    (h4 : ∀ o ∈ p.operands t, q.attributes o = p.attributes o) (hv : q.vecSize = p.vecSize) :
    foldedValues q t = foldedValues p t := by
  have hcv : ∀ o ∈ p.operands t, q.constantValues o = p.constantValues o :=
    fun o ho => constantValues_congr p q o (h4 o ho) hv
  unfold foldedValues
  rw [h1, h2, h3]
  split
  · next a b _ hops => rw [hcv a (by rw [hops]; simp), hcv b (by rw [hops]; simp)]
  · next a b _ hops => rw [hcv a (by rw [hops]; simp), hcv b (by rw [hops]; simp)]
  · next a b _ hops => rw [hcv a (by rw [hops]; simp), hcv b (by rw [hops]; simp)]
  · next a _ hops => rw [hcv a (by rw [hops]; simp)]
  · next a _ hops => rw [hcv a (by rw [hops]; simp)]
  · next a _ hops => rw [hcv a (by rw [hops]; simp)]
  · rfl

theorem redirects_refl (p : Program) (t : Nat) : Redirects p p t :=
  ⟨le_refl _, fun _ _ h => absurd rfl h, fun k h1 h2 => by omega⟩

theorem filter_old_append (n0 : Nat) (visited : List Nat) (t : Nat) :
    (visited.filter (fun x => decide (x < n0))).length
      ≤ ((visited ++ [t]).filter (fun x => decide (x < n0))).length := by
  rw [List.filter_append, List.length_append]
  omega

/-- A call that leaves the state as it is keeps the invariant of the pass when
the visited term is not one to fold. -/
theorem foldInv_skip (p0 : Program) (fold : Nat → Option Nat) (env : ConstantFolder)
    (visited : List Nat) (term : Nat) (h : FoldInv p0 fold env visited) (hnot : term ∉ visited)
    (hpred : ∀ o ∈ env.program.operands term, o ∈ visited)
    (hvac : ¬ (isFoldedOp (env.program.op term) = true ∧ env.program.operands term ≠ [] ∧
      ∀ o ∈ env.program.operands term, env.program.op o = Op.Constant)) :
    FoldInv p0 fold env (visited ++ [term]) := by
  refine ⟨h.cons, h.acyc, h.vec, h.ok, ?_, h.next_ge, ?_, h.old, h.created, h.subst, ?_, ?_, ?_⟩
  · rw [List.nodup_append]
    refine ⟨h.vnodup, by simp, ?_⟩
    intro x hx hx2
    simp only [List.mem_singleton] at hx2
    subst hx2
    exact hnot hx
  · exact le_trans h.grow (Nat.add_le_add_left (filter_old_append _ _ _) _)
  · intro t K hK
    obtain ⟨f1, f2⟩ := h.fold_some t K hK
    exact ⟨by simp [f1], f2⟩
  · intro t ht hop hne hall
    rcases List.mem_append.mp ht with ht | ht
    · exact h.folded t ht hop hne hall
    · simp only [List.mem_singleton] at ht
      subst ht
      exact absurd ⟨hop, hne, hall⟩ hvac
  · intro t ht o ho
    rcases List.mem_append.mp ht with ht | ht
    · exact List.mem_append.mpr (Or.inl (h.closed t ht o ho))
    · simp only [List.mem_singleton] at ht
      subst ht
      exact List.mem_append.mpr (Or.inl (hpred o ho))

theorem expand_dense_self (n : Nat) (v : List ℚ) (hn : 0 < n) (hv : v.length = n) :
    (ConstantValue.dense n v).expand n = some v := by
  unfold ConstantValue.expand validateSlots
  have h0 : n ≠ 0 := by omega
  simp [h0, hv]

/-- The operands of a term the pass folds have values of the size of the
program. -/
theorem foldInv_values (p0 : Program) (hA : ConstantFolder.Admits p0) (fold : Nat → Option Nat)
    (env : ConstantFolder) (visited : List Nat) (h : FoldInv p0 fold env visited) (o : Nat)
    (holt : o < env.program.nextTermIndex) (hop : env.program.op o = Op.Constant) :
    ∃ v, env.program.constantValues o = some v ∧ v.length = env.program.vecSize := by
  by_cases ho : o < p0.nextTermIndex
  · have hold := h.old o ho
    obtain ⟨v, hv1, hv2⟩ := hA.consts o ho (by rw [← hold.1]; exact hop)
    refine ⟨v, ?_, by rw [hv2, h.vec]⟩
    rw [constantValues_congr p0 env.program o hold.2 h.vec]
    exact hv1
  · obtain ⟨_, v, hv1, hv2⟩ := h.created o (by omega) holt
    refine ⟨v, ?_, by rw [hv2, h.vec]⟩
    unfold Program.constantValues
    rw [hv1, h.vec]
    exact expand_dense_self _ _ hA.vec hv2

theorem foldInv_old_of_operands (p0 : Program) (hf : p0.FreshOK) (fold : Nat → Option Nat)
    (env : ConstantFolder) (visited : List Nat) (h : FoldInv p0 fold env visited) (t : Nat)
    (hne : env.program.operands t ≠ []) : t < p0.nextTermIndex := by
  by_contra hge
  apply hne
  rw [h.subst t, (hf t (by omega)).1]
  rfl

/-- Folding the visited term keeps the invariant of the pass, with the new
constant recorded for the term. -/
theorem foldInv_fold (p0 : Program) (hA : ConstantFolder.Admits p0) (fold : Nat → Option Nat)
    (env : ConstantFolder) (visited : List Nat) (term : Nat)
    (h : FoldInv p0 fold env visited) (hnot : term ∉ visited)
    (hlt : term < env.program.nextTermIndex)
    (hpred : ∀ o ∈ env.program.operands term, o ∈ visited)
    (hop : isFoldedOp (env.program.op term) = true)
    (hne : env.program.operands term ≠ [])
    (hconst : ∀ o ∈ env.program.operands term, env.program.op o = Op.Constant) :
    ∃ env1, env.visit term = some env1 ∧
      FoldInv p0 (Function.update fold term (some env.program.nextTermIndex)) env1
        (visited ++ [term]) ∧
      Redirects env.program env1.program term := by
  have ht0 : term < p0.nextTermIndex :=
    foldInv_old_of_operands p0 hA.wf.consistent.fresh fold env visited h term hne
  have hold := h.old term ht0
  have hlen : (env.program.operands term).length = (p0.operands term).length := by
    rw [h.subst term, List.length_map]
  have hne0 : p0.operands term ≠ [] := by
    intro h0
    apply hne
    rw [h.subst term, h0]
    rfl
  have hpos : 0 < env.program.vecSize := by rw [h.vec]; exact hA.vec
  obtain ⟨v, scale1, sc, hfv, hvl, hvisit⟩ := visit_folds env term h.ok hpos hconst hop
    (by
      intro ho
      rw [hlen]
      apply hA.arity2 term ht0 hne0
      rw [← hold.1]
      exact ho)
    (by
      intro ho
      rw [hlen]
      apply hA.arity1 term ht0 hne0
      rw [← hold.1]
      exact ho)
    (by
      intro ho
      rw [hold.2]
      apply hA.rot term ht0 hne0
      rw [← hold.1]
      exact ho)
    (by
      intro o ho
      exact foldInv_values p0 hA fold env visited h o (h.cons.operand_lt ho).2 (hconst o ho))
  obtain ⟨env1, e0, e1, e2, e3, e4, e5, e6, e7, e8⟩ := replaceNodeWithConstant_spec
    ({ program := env.program, scale := scale1, ok := true } : ConstantFolder) term v sc
    h.cons hlt hvl hpos
  simp only [] at e1 e2 e3 e4 e5 e6 e7 e8
  have hfoldnone : fold term = none := by
    cases hf : fold term with
    | none => rfl
    | some K => exact absurd (h.fold_some term K hf).1 hnot
  have hself : term ∉ env.program.operands term := by
    obtain ⟨rank, hrank⟩ := h.acyc
    intro hm
    have := hrank term term hm
    omega
  have hkeep : ∀ x, term ∉ env.program.operands x →
      env1.program.operands x = env.program.operands x := by
    intro x hx
    rw [e4]
    conv_rhs => rw [← List.map_id (env.program.operands x)]
    apply List.map_congr_left
    intro y hy
    have : y ≠ term := by
      rintro rfl
      exact hx hy
    simp [this]
  have hvis_keep : ∀ x, x ∈ visited → env1.program.operands x = env.program.operands x := by
    intro x hx
    apply hkeep
    intro hm
    exact hnot (h.closed x hx term hm)
  have hop_keep : ∀ x, x < env.program.nextTermIndex → env1.program.op x = env.program.op x := by
    intro x hx
    rw [e5, if_neg (by omega)]
  have hattr_keep : ∀ x, x < env.program.nextTermIndex →
      env1.program.attributes x = env.program.attributes x := by
    intro x hx
    exact e6 x (by omega)
  have hfv_keep : ∀ x, x < env.program.nextTermIndex →
      env1.program.operands x = env.program.operands x →
      foldedValues env1.program x = foldedValues env.program x := by
    intro x hx hxo
    apply foldedValues_congr _ _ _ (hop_keep x hx) hxo (hattr_keep x hx) _ e3
    intro o ho
    exact hattr_keep o (h.cons.operand_lt ho).2
  refine ⟨env1, by rw [hvisit]; exact e0, ?_, ?_⟩
  · refine ⟨e1, ?_, by rw [e3, h.vec], by rw [e8], ?_, by rw [e2]; have := h.next_ge; omega, ?_,
      ?_, ?_, ?_, ?_, ?_, ?_⟩
    · obtain ⟨rank, hrank⟩ := h.acyc
      refine ⟨fun x => if x = env.program.nextTermIndex then 0 else rank x + 1, ?_⟩
      intro u o ho
      rw [e4] at ho
      obtain ⟨y, hy, hyo⟩ := List.mem_map.mp ho
      have hylt := (h.cons.operand_lt hy)
      have hu : u ≠ env.program.nextTermIndex := by omega
      simp only [hu, if_false]
      by_cases hyt : y = term
      · rw [if_pos hyt] at hyo
        subst hyo
        simp
      · rw [if_neg hyt] at hyo
        subst hyo
        have hy2 : y ≠ env.program.nextTermIndex := by omega
        simp only [hy2, if_false]
        have := hrank u y hy
        omega
    · rw [List.nodup_append]
      refine ⟨h.vnodup, by simp, ?_⟩
      intro x hx hx2
      simp only [List.mem_singleton] at hx2
      subst hx2
      exact hnot hx
    · rw [e2, List.filter_append, List.length_append]
      have : ([term].filter (fun x => decide (x < p0.nextTermIndex))).length = 1 := by
        simp [ht0]
      rw [this]
      have := h.grow
      omega
    · intro x hx
      have hxlt : x < env.program.nextTermIndex := lt_of_lt_of_le hx h.next_ge
      rw [hop_keep x hxlt, hattr_keep x hxlt]
      exact h.old x hx
    · intro x hx1 hx2
      by_cases hxK : x = env.program.nextTermIndex
      · subst hxK
        refine ⟨by rw [e5, if_pos rfl], v, by rw [e7, h.vec], by rw [hvl, h.vec]⟩
      · have hxlt : x < env.program.nextTermIndex := by omega
        rw [hop_keep x hxlt, hattr_keep x hxlt]
        exact h.created x hx1 hxlt
    · intro u
      rw [e4, h.subst u, List.map_map]
      apply List.map_congr_left
      intro y _
      simp only [Function.comp, Function.update_apply]
      by_cases hyt : y = term
      · subst hyt
        simp [hfoldnone]
      · simp only [hyt, if_false]
        cases hfy : fold y with
        | none => simp [hyt]
        | some K1 =>
          have := (h.fold_some y K1 hfy).2.2.1
          have hne1 : K1 ≠ term := by omega
          simp [hne1]
    · intro t K hK
      simp only [Function.update_apply] at hK
      by_cases htt : t = term
      · subst htt
        simp only [if_true, Option.some.injEq] at hK
        subst hK
        refine ⟨by simp, ht0, h.next_ge, by rw [e2]; omega, v, ?_, by rw [e7, h.vec]⟩
        rw [hfv_keep t hlt (hkeep t hself)]
        exact hfv
      · simp only [htt, if_false] at hK
        obtain ⟨f1, f2, f3, f4, v1, f5, f6⟩ := h.fold_some t K hK
        refine ⟨by simp [f1], f2, f3, by rw [e2]; omega, v1, ?_, ?_⟩
        · rw [hfv_keep t (lt_of_lt_of_le f2 h.next_ge) (hvis_keep t f1)]
          exact f5
        · rw [hattr_keep K f4]
          exact f6
    · intro t ht hop1 hne1 hall
      rcases List.mem_append.mp ht with hv | hv
      · have htlt : t < env.program.nextTermIndex := by
          by_contra hge
          have := (h.cons.fresh t (by omega)).1
          rw [hvis_keep t hv] at hne1
          exact hne1 this
        have hne2 : t ≠ term := by
          intro heq
          exact hnot (heq ▸ hv)
        simp only [Function.update_apply, hne2, if_false]
        apply h.folded t hv
        · rw [← hop_keep t htlt]
          exact hop1
        · rw [← hvis_keep t hv]
          exact hne1
        · intro o ho
          have holt := (h.cons.operand_lt ho).2
          rw [← hop_keep o holt]
          apply hall
          rw [hvis_keep t hv]
          exact ho
      · simp only [List.mem_singleton] at hv
        subst hv
        simp
    · intro t ht o ho
      rcases List.mem_append.mp ht with ht | ht
      · rw [hvis_keep t ht] at ho
        exact List.mem_append.mpr (Or.inl (h.closed t ht o ho))
      · simp only [List.mem_singleton] at ht
        subst ht
        rw [hkeep t hself] at ho
        exact List.mem_append.mpr (Or.inl (hpred o ho))
  · refine ⟨by rw [e2]; omega, ?_, ?_⟩
    · intro x _ hch
      have hmem : term ∈ env.program.operands x := by
        by_contra hm
        exact hch (hkeep x hm)
      refine ⟨hmem, env.program.nextTermIndex, ?_, le_refl _⟩
      rw [e4]
      exact List.mem_map.mpr ⟨term, hmem, by simp⟩
    · intro k hk1 hk2
      have hk : k = env.program.nextTermIndex := by rw [e2] at hk2; omega
      subst hk
      rw [e4, (h.cons.fresh _ (le_refl _)).1]
      rfl

/-- One call of `ConstantFolder` in a forward pass keeps the invariant and
only redirects the uses of the visited term to a new source. -/
theorem fold_step (p0 : Program) (hA : ConstantFolder.Admits p0) (env : ConstantFolder)
    (visited : List Nat) (term : Nat)
    (hJ : ∃ fold, FoldInv p0 fold env visited) (hnot : term ∉ visited)
    (hlt : term < env.program.nextTermIndex)
    (hpred : ∀ o ∈ env.program.operands term, o ∈ visited) :
    ∃ env1, env.visit term = some env1 ∧
      (∃ fold1, FoldInv p0 fold1 env1 (visited ++ [term])) ∧
      Redirects env.program env1.program term := by
  obtain ⟨fold, h⟩ := hJ
  cases hops : env.program.operands term with
  | nil =>
    refine ⟨env, ?_, ⟨fold, foldInv_skip p0 fold env visited term h hnot hpred ?_⟩,
      redirects_refl _ _⟩
    · unfold ConstantFolder.visit
      simp only [hops]
    · rintro ⟨_, hne, _⟩
      exact hne hops
  | cons a l =>
    have hne : env.program.operands term ≠ [] := by rw [hops]; simp
    by_cases hall : ∀ o ∈ env.program.operands term, env.program.op o = Op.Constant
    · have ht0 : term < p0.nextTermIndex :=
        foldInv_old_of_operands p0 hA.wf.consistent.fresh fold env visited h term hne
      have hold := h.old term ht0
      have hne0 : p0.operands term ≠ [] := by
        intro h0
        apply hne
        rw [h.subst term, h0]
        rfl
      have hany := any_not_constant_false env.program (env.program.operands term) hall
      rcases hA.ops term ht0 hne0 with hop | hop | hop
      · obtain ⟨env1, e1, e2, e3⟩ := foldInv_fold p0 hA fold env visited term h hnot hlt hpred
          (by rw [hold.1]; exact hop) hne hall
        exact ⟨env1, e1, ⟨_, e2⟩, e3⟩
      · refine ⟨env, ?_, ⟨fold, foldInv_skip p0 fold env visited term h hnot hpred ?_⟩,
          redirects_refl _ _⟩
        · unfold ConstantFolder.visit
          rw [hops] at hany
          simp only [hops, hany, hold.1, hop, Bool.false_eq_true, if_false]
        · rintro ⟨hf, _, _⟩
          rw [hold.1, hop] at hf
          exact absurd hf (by decide)
      · refine ⟨env, ?_, ⟨fold, foldInv_skip p0 fold env visited term h hnot hpred ?_⟩,
          redirects_refl _ _⟩
        · unfold ConstantFolder.visit
          rw [hops] at hany
          simp only [hops, hany, hold.1, hop, Bool.false_eq_true, if_false]
        · rintro ⟨hf, _, _⟩
          rw [hold.1, hop] at hf
          exact absurd hf (by decide)
    · refine ⟨env, ?_, ⟨fold, foldInv_skip p0 fold env visited term h hnot hpred ?_⟩,
        redirects_refl _ _⟩
      · unfold ConstantFolder.visit
        have hany : (env.program.operands term).any
            (fun arg => decide (env.program.op arg ≠ Op.Constant)) = true := by
          push_neg at hall
          obtain ⟨o, ho, hoc⟩ := hall
          rw [List.any_eq_true]
          exact ⟨o, ho, by simpa using hoc⟩
        rw [hops] at hany
        simp only [hops, hany, if_true]
      · rintro ⟨_, _, hc⟩
        exact hall hc

theorem foldInv_bound (p0 : Program) (fold : Nat → Option Nat) (env : ConstantFolder)
    (visited : List Nat) (h : FoldInv p0 fold env visited) :
    env.program.nextTermIndex ≤ 2 * p0.nextTermIndex := by
  have hlen := nodup_bounded_length (visited.filter (fun x => decide (x < p0.nextTermIndex)))
    p0.nextTermIndex (h.vnodup.filter _) (by
      intro x hx
      simpa using (List.mem_filter.mp hx).2)
  have := h.grow
  omega

theorem foldInv_init (p0 : Program) (hA : ConstantFolder.Admits p0) (scale : TermMapOptional) :
    FoldInv p0 (fun _ => none) { program := p0, scale := scale, ok := true } [] := by
  refine ⟨hA.wf.consistent, hA.acyclic, rfl, rfl, List.nodup_nil, le_refl _, by simp,
    fun x _ => ⟨rfl, rfl⟩, ?_, ?_, ?_, ?_, ?_⟩
  · intro x h1 h2
    exact absurd h2 (by simpa using h1)
  · intro u
    simp
  · intro t K hK
    simp at hK
  · intro t ht
    simp at ht
  · intro t ht
    simp at ht

theorem foldSample_admits : ConstantFolder.Admits foldSample := by
  have hwf : foldSample.WellFormed := by
    unfold foldSample
    apply wellFormed_setAttribute
    apply wellFormed_setAttribute
    exact run_wellFormed "fold" 2 _ _ (run_eq_foldl _ _ (by decide!))
  refine ⟨hwf, ?_, by decide!, by decide!, by decide!, by decide!, by decide!, ?_⟩
  · refine ⟨fun x => x, ?_⟩
    intro t o ho
    have hlt := (hwf.consistent.operand_lt ho).1
    have hb : ∀ t, t < foldSample.nextTermIndex → ∀ o ∈ foldSample.operands t, o < t := by
      decide!
    exact hb t hlt o ho
  · intro t ht hop
    have hn : foldSample.nextTermIndex = 5 := by decide!
    rw [hn] at ht
    interval_cases t
    · exact ⟨[1, 2], by decide!, by decide!⟩
    · exact ⟨[3, 4], by decide!, by decide!⟩
    · exact absurd hop (by decide!)
    · exact absurd hop (by decide!)
    · exact absurd hop (by decide!)

/-- The forward pass of `ConstantFolder` over a program it admits: the pass
returns (twice the number of terms is enough fuel) with no assertion violated,
and afterwards every term `t` of a folded operation that has operands, all of
them `Constant` terms, has no uses left; a new `Constant` source `K` holds the
dense value of the vector size whose slots are the result of the operation of
`t` on the vectors `ConstantValue::expand` returns for its operands
(`foldedValues`), and every term that read `t` in the program the pass started
from reads `K` and no longer `t`.  For
`y = negate(add(const([1, 2]), const([3, 4])))` with vector size 2 the output
(term 4) ends with the single operand 6, a `Constant` with the dense value
`[-4, -6]`. -/
theorem constantFolder_folds :
    (∀ (p0 : Program) (scale : TermMapOptional) (fuel : Nat), ConstantFolder.Admits p0 →
      2 * p0.nextTermIndex ≤ fuel →
      ∃ st, forwardPass ConstantFolder.rewriter fuel
          { program := p0, scale := scale, ok := true } = some st ∧ st.env.ok = true ∧
        ∀ t, t < st.env.program.nextTermIndex → isFoldedOp (st.env.program.op t) = true →
          st.env.program.operands t ≠ [] →
          (∀ o ∈ st.env.program.operands t, st.env.program.op o = Op.Constant) →
          st.env.program.uses t = [] ∧
          ∃ K v, p0.nextTermIndex ≤ K ∧ K < st.env.program.nextTermIndex ∧
            st.env.program.op K = Op.Constant ∧ st.env.program.operands K = [] ∧
            AttributeList.getConstant (st.env.program.attributes K)
              = some (ConstantValue.dense p0.vecSize v) ∧
            foldedValues st.env.program t = some v ∧
            ∀ u, t ∈ p0.operands u →
              K ∈ st.env.program.operands u ∧ t ∉ st.env.program.operands u) ∧
    (forwardPass ConstantFolder.rewriter 10
        { program := foldSample, scale := fun _ => none, ok := true }).map
      (fun st => (st.env.program.operands 4, st.env.program.op 6,
        AttributeList.getConstant (st.env.program.attributes 6)))
    = some ([6], Op.Constant, some (ConstantValue.dense 2 [-4, -6])) := by
  refine ⟨?_, by decide!⟩
  intro p0 scale fuel hA hfuel
  obtain ⟨st, h1, _, ⟨fold, hJ⟩, _, hvis⟩ := forwardPass_redirecting ConstantFolder.rewriter
    (fun env visited => ∃ fold, FoldInv p0 fold env visited) (2 * p0.nextTermIndex)
    (fun env visited h => h.choose_spec.cons)
    (fun env visited h => h.choose_spec.acyc)
    (fun env visited h => foldInv_bound p0 _ env visited h.choose_spec)
    (fun env visited term h hnot hlt hpred => fold_step p0 hA env visited term h hnot hlt hpred)
    { program := p0, scale := scale, ok := true } ⟨_, foldInv_init p0 hA scale⟩
    hA.wf.sets.1 fuel hfuel
  refine ⟨st, h1, hJ.ok, ?_⟩
  intro t ht hop hne hall
  have hq : ConstantFolder.rewriter.program st.env = st.env.program := rfl
  have htv : t ∈ st.visited := (hvis t).mpr ht
  obtain ⟨K, hK⟩ := Option.isSome_iff_exists.mp (hJ.folded t htv hop hne hall)
  obtain ⟨f1, f2, f3, f4, v, f5, f6⟩ := hJ.fold_some t K hK
  have hsub : ∀ y, (fold y).getD y ≠ t := by
    intro y
    cases hfy : fold y with
    | none =>
      simp only [Option.getD_none]
      intro hyt
      rw [hyt, hK] at hfy
      exact Option.noConfusion hfy
    | some K1 =>
      simp only [Option.getD_some]
      have := (hJ.fold_some y K1 hfy).2.2.1
      omega
  have hnotin : ∀ u, t ∉ st.env.program.operands u := by
    intro u hm
    rw [hJ.subst u] at hm
    obtain ⟨y, _, hy⟩ := List.mem_map.mp hm
    exact hsub y hy
  refine ⟨?_, K, v, f3, f4, (hJ.created K f3 f4).1, ?_, f6, f5, ?_⟩
  · apply List.eq_nil_iff_forall_not_mem.mpr
    intro u hu
    have hpos := List.count_pos_iff.mpr hu
    rw [← hJ.cons.sym u t] at hpos
    exact hnotin u (List.count_pos_iff.mp hpos)
  · rw [hJ.subst K, (hA.wf.consistent.fresh K f3).1]
    rfl
  · intro u hu
    refine ⟨?_, hnotin u⟩
    rw [hJ.subst u]
    exact List.mem_map.mpr ⟨t, hu, by rw [hK]; rfl⟩

/-- The pass of `ConstantFolder` on
`y = negate(add(const([1, 2]), const([3, 4])))`: it returns, and the `Add`
(term 2) and the `Negate` (term 3) end without uses. -/
theorem constantFolder_folds_witness :
    (forwardPass ConstantFolder.rewriter 10
        { program := foldSample, scale := fun _ => none, ok := true }).map
      (fun st => (st.visited, st.env.program.uses 2, st.env.program.uses 3,
        st.env.program.operands 3))
      = some ([1, 0, 2, 5, 3, 6, 4], [], [], [5]) ∧
    ∃ st, forwardPass ConstantFolder.rewriter 10
        { program := foldSample, scale := fun _ => none, ok := true } = some st ∧
      st.env.ok = true ∧
      ∀ t, t < st.env.program.nextTermIndex → isFoldedOp (st.env.program.op t) = true →
        st.env.program.operands t ≠ [] →
        (∀ o ∈ st.env.program.operands t, st.env.program.op o = Op.Constant) →
        st.env.program.uses t = [] ∧
        ∃ K v, foldSample.nextTermIndex ≤ K ∧ K < st.env.program.nextTermIndex ∧
          st.env.program.op K = Op.Constant ∧ st.env.program.operands K = [] ∧
          AttributeList.getConstant (st.env.program.attributes K)
            = some (ConstantValue.dense foldSample.vecSize v) ∧
          foldedValues st.env.program t = some v ∧
          ∀ u, t ∈ foldSample.operands u →
            K ∈ st.env.program.operands u ∧ t ∉ st.env.program.operands u :=
  ⟨by decide!,
   constantFolder_folds.1 foldSample (fun _ => none) 10 foldSample_admits (by decide!)⟩


theorem selector_visit_scales (st st1 : EncryptionParametersSelector) (t : Nat)
    (h : EncryptionParametersSelector.visit st t = some st1) : st1.scales = st.scales := by
  unfold EncryptionParametersSelector.visit at h
  split at h
  · simp only [Option.some.injEq] at h; subst h; rfl
  · dsimp only at h
    split at h
    · split at h
      · split at h
        · exact absurd h (by simp)
        · simp only [Option.some.injEq] at h; subst h; rfl
      · simp only [Option.some.injEq] at h; subst h; rfl
    · simp only [Option.some.injEq] at h; subst h; rfl

/-- Every term on an operand path that starts at a source has been created. -/
theorem sourcePath_lt (p : Program) (path : List Nat) (t : Nat) (hc : p.Consistent)
    (h : SourcePath p path t) : ∀ u ∈ path, u < p.nextTermIndex := by
  obtain ⟨hch, ⟨s, hs, hh⟩, _⟩ := h
  have key : ∀ (l : List Nat), OperandPath p l → (∀ a ∈ l.head?, a < p.nextTermIndex) →
      ∀ u ∈ l, u < p.nextTermIndex := by
    intro l
    induction l with
    | nil => intro _ _ u hu; simp at hu
    | cons a rest ih =>
      intro hl hhead u hu
      unfold OperandPath at hl
      rw [List.chain'_cons'] at hl
      rcases List.mem_cons.mp hu with rfl | hu
      · exact hhead u (by simp)
      · exact ih hl.2 (fun y hy => (hc.operand_lt (hl.1 y hy)).1) u hu
  apply key path hch
  intro a ha
  rw [hh] at ha
  simp only [Option.mem_def, Option.some.injEq] at ha
  subst ha
  exact ((hc.src s).mp hs).1

/-- The pass of the selector over a program without `Rescale` terms leaves
every chain empty and does not touch the scales. -/
theorem selector_pass_no_rescale (p : Program) (types : Nat → TermType)
    (scales : TermMapOptional) (hwf : p.WellFormed) (hac : p.Acyclic)
    (hno : ∀ t, t < p.nextTermIndex → p.op t ≠ Op.Rescale) (fuel : Nat) (hfuel : p.nextTermIndex ≤ fuel) :
    ∃ st, forwardPass EncryptionParametersSelector.rewriter fuel
        (EncryptionParametersSelector.init p scales types) = some st ∧
      st.env.program = p ∧ st.env.scales = scales ∧ ∀ t, st.env.terms t = [] := by
  have hresc : ∀ t, t < p.nextTermIndex → p.op t = Op.Rescale → types t ≠ TermType.Raw →
      p.operands t ≠ [] ∧ (rescaleDivisorOf p t).isSome := fun t ht h => absurd h (hno t ht)
  obtain ⟨st, h1, _, _, hJ, _, _⟩ := traverse_spec true
    EncryptionParametersSelector.rewriter (EncryptionParametersSelector.init p scales types)
    (fun env visited => SelectorInv p types env visited ∧ env.scales = scales)
    (fun env1 visited term hp hJ hnot hlt hpred => by
      obtain ⟨env2, e1, e2, e3⟩ := selector_step p types hwf.consistent hresc env1 visited term
        hJ.1 hnot hlt (fun o ho => hpred o (by simpa [predecessors] using ho))
      exact ⟨env2, e1, e2, e3, (selector_visit_scales env1 env2 term e1).trans hJ.2⟩)
    ⟨⟨rfl, rfl, by simp, fun _ _ => rfl⟩, rfl⟩
    (dirFacts_forward p hwf.consistent hac) hwf.sets.1 fuel hfuel
  refine ⟨st, h1, hJ.1.1, hJ.2, ?_⟩
  intro t
  by_cases hv : t ∈ st.visited
  · obtain ⟨path, hpath, hmap, _⟩ := hJ.1.2.2.1 t hv
    have hnil : chainTermsOn p types path = [] := by
      unfold chainTermsOn
      rw [List.filter_eq_nil_iff]
      intro u hu
      have hup : u ∈ path := by
        have h1 := (List.takeWhile_sublist _).subset (List.mem_reverse.mp hu)
        exact List.mem_reverse.mp h1
      simp [isRescaleOp, hno u (sourcePath_lt p path t hwf.consistent hpath u hup)]
    rw [hnil] at hmap
    simpa using hmap
  · exact hJ.1.2.2.2 t hv

theorem getEncryptionParameters_single (st : EncryptionParametersSelector) (name : String)
    (o r : Nat) (hout : st.program.outputs = [(name, o)])
    (hr : AttributeList.getUInt32 (st.program.attributes o) RangeAttribute = some r)
    (hc : st.terms o = []) :
    st.getEncryptionParameters = some
      (if add32 r (st.scales.val o) ≤ 60 then
        [add32 r (st.scales.val o), add32 r (st.scales.val o)]
      else
        List.replicate (add32 r (st.scales.val o) / 60) 60
          ++ (if add32 r (st.scales.val o) % 60 = 0 then []
              else [max 20 (add32 r (st.scales.val o) % 60)]) ++ [60]) := by
  have hS : st.specMaxOutputSize = add32 r (st.scales.val o) := by
    simp [EncryptionParametersSelector.specMaxOutputSize, hout, listMax,
      EncryptionParametersSelector.range, hr]
  have hP : st.specMaxParm = 0 := by
    simp [EncryptionParametersSelector.specMaxParm, hout, listMax, hc]
  have hM : st.middlePrimes = [] := by
    simp [EncryptionParametersSelector.middlePrimes, EncryptionParametersSelector.specMaxLen,
      hout, listMax, hc, EncryptionParametersSelector.appendLongest]
  rw [getEncryptionParameters_eq st (by
    intro e he
    rw [hout] at he
    simp only [List.mem_singleton] at he
    subst he
    simp [hr]), hS, hP, hM]
  simp


theorem selectPrimes_single (p : Program) (types : Nat → TermType) (scales : TermMapOptional)
    (name : String) (o r : Nat) (hwf : p.WellFormed) (hac : p.Acyclic)
    (hno : ∀ t, t < p.nextTermIndex → p.op t ≠ Op.Rescale) (hout : p.outputs = [(name, o)])
    (hr : AttributeList.getUInt32 (p.attributes o) RangeAttribute = some r)
    (fuel : Nat) (hfuel : p.nextTermIndex ≤ fuel) :
    selectPrimes fuel p scales types = some
      (if add32 r (scales.val o) ≤ 60 then [add32 r (scales.val o), add32 r (scales.val o)]
      else
        List.replicate (add32 r (scales.val o) / 60) 60
          ++ (if add32 r (scales.val o) % 60 = 0 then []
              else [max 20 (add32 r (scales.val o) % 60)]) ++ [60]) := by
  obtain ⟨st, h1, h2, h3, h4⟩ := selector_pass_no_rescale p types scales hwf hac hno fuel hfuel
  unfold selectPrimes
  rw [h1]
  dsimp only
  rw [getEncryptionParameters_single st.env name o r (by rw [h2]; exact hout)
    (by rw [h2]; exact hr) (h4 o), h3]

/-- C21 (amended): two single-output programs without `Rescale` terms that
differ only in the `RangeAttribute` of the output, 20 against 80 bits, the
output being recorded at scale `s`.  For a scale of at most 40 the list of
`getEncryptionParameters` is, for range 20, the single top prime `20 + s`
followed by the key prime `20 + s`, and for range 80 the top primes 60 and
`20 + s` (60 and 60 when `s = 40`) followed by the key prime 60.  For a scale
from 41 to 60 it is, for range 20, the two top primes 60 and 20, and for range
80 the three top primes 60, 60, 20, each followed by the key prime 60. -/
theorem outputRange_top_primes (p : Program) (types : Nat → TermType)
    (scales : TermMapOptional) (name : String) (o s : Nat) (hwf : p.WellFormed)
    (hac : p.Acyclic) (hno : ∀ t, t < p.nextTermIndex → p.op t ≠ Op.Rescale) (hout : p.outputs = [(name, o)])
    (hr : AttributeList.getUInt32 (p.attributes o) RangeAttribute = some 20)
    (hs : scales.val o = s) (fuel : Nat) (hfuel : p.nextTermIndex ≤ fuel) :
    (s ≤ 40 →
      selectPrimes fuel p scales types = some [20 + s, 20 + s] ∧
      selectPrimes fuel (Term.setAttribute p o RangeAttribute (AttributeValue.uint32 80))
          scales types
        = some (if s = 40 then [60, 60, 60] else [60, 20 + s, 60])) ∧
    (41 ≤ s → s ≤ 60 →
      selectPrimes fuel p scales types = some [60, 20, 60] ∧
      selectPrimes fuel (Term.setAttribute p o RangeAttribute (AttributeValue.uint32 80))
          scales types
        = some [60, 60, 20, 60]) := by
  have h20 := selectPrimes_single p types scales name o 20 hwf hac hno hout hr fuel hfuel
  have h80 := selectPrimes_single
    (Term.setAttribute p o RangeAttribute (AttributeValue.uint32 80)) types scales name o 80
    (wellFormed_setAttribute p o _ _ hwf)
    (by
      obtain ⟨rank, hrank⟩ := hac
      exact ⟨rank, fun t x hx => hrank t x (by rwa [setAttribute_operands] at hx)⟩)
    (by
      intro t ht; rw [setAttribute_op]
      exact hno t (by simpa [Term.setAttribute, Program.withAttributes] using ht))
    (by simp only [Term.setAttribute, Program.withAttributes]; exact hout)
    (by
      rw [setAttribute_attributes, if_pos rfl]
      unfold AttributeList.getUInt32
      rw [get_set_same])
    fuel (by simpa [Term.setAttribute, Program.withAttributes] using hfuel)
  rw [hs] at h20 h80
  have e20 : ∀ x, x ≤ 60 → add32 20 x = 20 + x := by
    intro x hx; unfold add32 u32; omega
  have e80 : ∀ x, x ≤ 60 → add32 80 x = 80 + x := by
    intro x hx; unfold add32 u32; omega
  refine ⟨?_, ?_⟩
  · intro hle
    rw [e20 s (by omega)] at h20
    rw [e80 s (by omega)] at h80
    refine ⟨?_, ?_⟩
    · rw [h20, if_pos (by omega)]
    · rw [h80, if_neg (by omega)]
      by_cases h40 : s = 40
      · subst h40; simp [List.replicate]
      · rw [if_neg h40]
        have hd : (80 + s) / 60 = 1 := by omega
        have hm : (80 + s) % 60 = 20 + s := by omega
        rw [hd, hm, if_neg (by omega)]
        simp [List.replicate]
  · intro hlo hhi
    rw [e20 s hhi] at h20
    rw [e80 s hhi] at h80
    refine ⟨?_, ?_⟩
    · have hd : (20 + s) / 60 = 1 := by omega
      have hm : (20 + s) % 60 = s - 40 := by omega
      rw [h20, if_neg (by omega), hd, hm, if_neg (by omega)]
      have : max 20 (s - 40) = 20 := by omega
      simp [List.replicate, this]
    · have hd : (80 + s) / 60 = 2 := by omega
      have hm : (80 + s) % 60 = s - 40 := by omega
      rw [h80, if_neg (by omega), hd, hm, if_neg (by omega)]
      have : max 20 (s - 40) = 20 := by omega
      simp [List.replicate, this]

theorem rangeProgram_wellFormed : rangeProgram.WellFormed := by
  unfold rangeProgram
  apply wellFormed_withMaps
  apply wellFormed_setAttribute
  apply wellFormed_setAttribute
  apply wellFormed_setAttribute
  exact run_wellFormed "range" 8 _ _ (run_eq_foldl _ _ (by decide!))

theorem rangeProgram_acyclic : rangeProgram.Acyclic := by
  refine ⟨fun x => x, ?_⟩
  intro t o ho
  have hlt := (rangeProgram_wellFormed.consistent.operand_lt ho).1
  have hb : ∀ t, t < rangeProgram.nextTermIndex → ∀ o ∈ rangeProgram.operands t, o < t := by
    decide!
  exact hb t hlt o ho

theorem rangeProgram_no_rescale :
    ∀ t, t < rangeProgram.nextTermIndex → rangeProgram.op t ≠ Op.Rescale := by
  decide!

/-- Witness of C21 at the scale 60. -/
theorem outputRange_top_primes_witness :
    selectPrimes 4 rangeProgram (fun _ => some 60) (fun _ => TermType.Cipher)
      = some [60, 20, 60] ∧
    selectPrimes 4
        (Term.setAttribute rangeProgram 3 RangeAttribute (AttributeValue.uint32 80))
        (fun _ => some 60) (fun _ => TermType.Cipher)
      = some [60, 60, 20, 60] :=
  (outputRange_top_primes rangeProgram (fun _ => TermType.Cipher) (fun _ => some 60) "y" 3 60
    rangeProgram_wellFormed rangeProgram_acyclic rangeProgram_no_rescale (by decide!)
    (by decide!) (by decide!) 4 (by decide!)).2 (by decide) (by decide)

/-- C21 as stated fails: at the scale 60 the range 20 gives the two top primes
60 and 20, and at the scale 40, where the range 20 gives the single top prime
60, the range 80 gives the two top primes 60 and 60. -/
theorem outputRange_single_prime_conflict :
    selectPrimes 4 rangeProgram (fun _ => some 60) (fun _ => TermType.Cipher)
      = some [60, 20, 60] ∧
    selectPrimes 4
        (Term.setAttribute rangeProgram 3 RangeAttribute (AttributeValue.uint32 80))
        (fun _ => some 60) (fun _ => TermType.Cipher)
      = some [60, 60, 20, 60] ∧
    selectPrimes 4 rangeProgram (fun _ => some 40) (fun _ => TermType.Cipher)
      = some [60, 60] ∧
    selectPrimes 4
        (Term.setAttribute rangeProgram 3 RangeAttribute (AttributeValue.uint32 80))
        (fun _ => some 40) (fun _ => TermType.Cipher)
      = some [60, 60, 60] := by
  refine ⟨?_, ?_, ?_, ?_⟩ <;> decide!



/-- C25: the constructor accepts the 64-bit argument `2 ^ 32`, a power of two,
and the program it builds has `getVecSize() = 0`: the member `vecSize` is a
`std::uint32_t` and keeps the argument modulo `2 ^ 32`.  Arguments below
`2 ^ 32` are kept (8), and 0 and 6 are refused. -/
theorem program_vecSize_truncated :
    (Program.construct "p" 4294967296).map Program.getVecSize = some 0 ∧
    (Program.construct "p" 8).map Program.getVecSize = some 8 ∧
    (Program.construct "p" 0).map Program.getVecSize = none ∧
    (Program.construct "p" 6).map Program.getVecSize = none := by
  refine ⟨?_, ?_, ?_, ?_⟩ <;> decide!

/-- C26: `expand` and `expandTo` of the sparse constant of size 4 with the
single pair `(0, 5)`, asked for 4 slots, return `[5, 5, 5, 5]`, where the
tiling with period 4 is `[5, 0, 0, 0]`; with the single pair `(1, 5)` both
throw (the write at position 4 is out of range), where the tiling is
`[0, 5, 0, 0]`.  The inner loop advances by the number of pairs, not by the
size.  When the number of pairs is the size the result is the tiling. -/
theorem sparse_expand_steps_by_pair_count :
    (ConstantValue.sparse 4 [(0, 5)]).expand 4 = some [5, 5, 5, 5] ∧
    (ConstantValue.sparse 4 [(0, 5)]).expandTo 4 = some [5, 5, 5, 5] ∧
    sparseTiled 4 [(0, 5)] 4 = [5, 0, 0, 0] ∧
    (ConstantValue.sparse 4 [(1, 5)]).expand 4 = none ∧
    (ConstantValue.sparse 4 [(1, 5)]).expandTo 4 = none ∧
    sparseTiled 4 [(1, 5)] 4 = [0, 5, 0, 0] ∧
    (ConstantValue.sparse 2 [(0, 1), (1, 7)]).expand 4 = some [1, 7, 1, 7] ∧
    sparseTiled 2 [(0, 1), (1, 7)] 4 = [1, 7, 1, 7] := by
  refine ⟨?_, ?_, ?_, ?_, ?_, ?_, ?_, ?_⟩ <;> decide!

/-- C29: on the sum over `[r, c, x]` of `orderState`, with `r` a `Raw` input,
`c` a `Raw` `Constant` and `x` a `Cipher` input, the operands are filed as
`1 ↦ [r, c]` and `32 ↦ [x]`: the constant `c` stays behind `r`.  The call pairs
`r` with `c` under the new term 5 and leaves the `Add` with the operands 5 and
`x`. -/
theorem logExpander_constant_not_first :
    orderState.program.op 2 = Op.Constant ∧ orderState.type 2 = TermType.Raw ∧
    orderState.program.op 1 = Op.Input ∧ orderState.type 1 = TermType.Raw ∧
    orderState.program.operands 3 = [1, 2, 0] ∧
    ReductionLogExpander.sortOperands orderState.type orderState.scale [1, 2, 0] []
      = some [(1, [1, 2]), (32, [0])] ∧
    (orderState.visit 3).map
        (fun s => (s.program.operands 3, s.program.operands 5, s.ok))
      = some ([5, 0], [1, 2], true) := by
  refine ⟨?_, ?_, ?_, ?_, ?_, ?_, ?_⟩ <;> decide!

/-- C30: on a consistent program, for a term `t` with recorded scale `s` and
any `k`, `insertRescale(t, k)` creates exactly one term `r`, a `Rescale` whose
only operand is `t`, with `RescaleDivisorAttribute` `k`, the type of `t` and the
recorded scale `s - k` (32-bit unsigned: the plain difference when `k ≤ s`);
afterwards `r` is the only use of `t`, every other term reads `r` in the slots
where it read `t` and its other slots are as before, and operation, attributes,
type and scale of the older terms are unchanged. -/
theorem insertRescale_primitive (st : Rescaler) (t k s : Nat) (hc : st.program.Consistent)
    (ht : t < st.program.nextTermIndex) (hs : st.scale t = some s) :
    (st.insertRescale t k).1 = st.program.nextTermIndex ∧
    (st.insertRescale t k).2.program.nextTermIndex = st.program.nextTermIndex + 1 ∧
    (st.insertRescale t k).2.program.Consistent ∧
    (st.insertRescale t k).2.program.op (st.insertRescale t k).1 = Op.Rescale ∧
    (st.insertRescale t k).2.program.operands (st.insertRescale t k).1 = [t] ∧
    AttributeList.getUInt32
        ((st.insertRescale t k).2.program.attributes (st.insertRescale t k).1)
        RescaleDivisorAttribute = some k ∧
    (st.insertRescale t k).2.type (st.insertRescale t k).1 = st.type t ∧
    (st.insertRescale t k).2.scale (st.insertRescale t k).1 = some (sub32 s k) ∧
    (k ≤ s → s < u32 → sub32 s k = s - k) ∧
    (st.insertRescale t k).2.program.uses t = [(st.insertRescale t k).1] ∧
    (∀ x, x ≠ (st.insertRescale t k).1 →
      (st.insertRescale t k).2.program.operands x
        = (st.program.operands x).map
            (fun y => if y = t then (st.insertRescale t k).1 else y)) ∧
    (∀ x, t ∉ st.program.operands x → x ≠ (st.insertRescale t k).1 →
      (st.insertRescale t k).2.program.operands x = st.program.operands x) ∧
    (∀ x, x ≠ (st.insertRescale t k).1 →
      (st.insertRescale t k).2.program.op x = st.program.op x ∧
      (st.insertRescale t k).2.program.attributes x = st.program.attributes x ∧
      (st.insertRescale t k).2.type x = st.type x ∧
      (st.insertRescale t k).2.scale x = st.scale x) := by
  obtain ⟨h1, h2, h3, h4, h5, h6, h7, h8, _, _, h11⟩ := insertRescale_spec st t k hc ht
  have hval : st.scale.val t = s := by simp [TermMapOptional.val, hs]
  have htouch : st.scale.touch t = st.scale := by
    simp [TermMapOptional.touch, hs]
  rw [h1]
  refine ⟨rfl, h3, h2, ?_, ?_, ?_, ?_, ?_, ?_, h11, ?_, ?_, ?_⟩
  · rw [h5, if_pos rfl]
  · rw [h4, if_pos rfl]
  · rw [h6, if_pos rfl]
    simp [AttributeList.getUInt32, AttributeList.get]
  · rw [h7, if_pos rfl]
  · rw [h8, if_pos rfl, hval]
  · intro hks hsu
    have hk : k < 2 ^ 32 := by unfold u32 at hsu; omega
    show (s + 2 ^ 32 - k % 2 ^ 32) % 2 ^ 32 = s - k
    rw [Nat.mod_eq_of_lt hk]
    have : s + 2 ^ 32 - k = (s - k) + 2 ^ 32 := by omega
    rw [this, Nat.add_mod_right, Nat.mod_eq_of_lt (by unfold u32 at hsu; omega)]
  · intro x hx
    rw [h4, if_neg hx]
  · intro x hnot hx
    rw [h4, if_neg hx]
    conv_rhs => rw [← List.map_id (st.program.operands x)]
    apply List.map_congr_left
    intro y hy
    have : y ≠ t := fun h => hnot (h ▸ hy)
    simp [this]
  · intro x hx
    refine ⟨?_, ?_, ?_, ?_⟩
    · rw [h5, if_neg hx]
    · rw [h6, if_neg hx]
    · rw [h7, if_neg hx]
    · rw [h8, if_neg hx, htouch]

/-- Witness of C30 on the `Mul` (term 2) of the diamond program at scale 30,
rescaled by 10: the new term 5 has scale 20 and the output 3 reads it. -/
theorem insertRescale_primitive_witness :
    (mulState.insertRescale 2 10).2.scale (mulState.insertRescale 2 10).1 = some (sub32 30 10) ∧
    sub32 30 10 = 20 ∧
    (mulState.insertRescale 2 10).2.program.uses 2 = [(mulState.insertRescale 2 10).1] ∧
    (mulState.insertRescale 2 10).2.program.operands 3 = [5] :=
  have h := insertRescale_primitive mulState 2 10 30 diamondProgram_wellFormed.consistent
    (by decide!) rfl
  ⟨h.2.2.2.2.2.2.2.1, by decide!, h.2.2.2.2.2.2.2.2.2.1, by decide!⟩



/-- What `SEALLowering` does to a `Sub` with a left operand that is not
`Cipher` and a `Cipher` right operand. -/
theorem sealLowering_visit_spec (st : SEALLowering) (term lhs rhs : Nat) (rest : List Nat)
    (hc : st.program.Consistent) (hac : st.program.Acyclic)
    (ht : term < st.program.nextTermIndex) (hop : st.program.op term = Op.Sub)
    (hops : st.program.operands term = lhs :: rhs :: rest)
    (hl : st.type lhs ≠ TermType.Cipher) (hr : st.type rhs = TermType.Cipher) :
    ∃ st1, SEALLowering.visit st term = some st1 ∧ st1.type = st.type ∧
      st1.program.Consistent ∧
      st1.program.nextTermIndex = st.program.nextTermIndex + 2 ∧
      (∀ x, st1.program.operands x
        = if x = st.program.nextTermIndex then [rhs]
          else if x = st.program.nextTermIndex + 1 then [lhs, st.program.nextTermIndex]
          else (st.program.operands x).map
            (fun y => if y = term then st.program.nextTermIndex + 1 else y)) ∧
      (∀ x, st1.program.op x
        = if x = st.program.nextTermIndex then Op.Negate
          else if x = st.program.nextTermIndex + 1 then Op.Add else st.program.op x) ∧
      (∀ x, st1.program.attributes x
        = if x = st.program.nextTermIndex then []
          else if x = st.program.nextTermIndex + 1 then [] else st.program.attributes x) ∧
      st1.program.uses term = [] := by
  obtain ⟨rank, hrank⟩ := hac
  have hlt : lhs < st.program.nextTermIndex :=
    (hc.operand_lt (show lhs ∈ st.program.operands term by rw [hops]; simp)).2
  have hrt : rhs < st.program.nextTermIndex :=
    (hc.operand_lt (show rhs ∈ st.program.operands term by rw [hops]; simp)).2
  have hlne : lhs ≠ term := by
    intro h
    have := hrank term lhs (by rw [hops]; simp)
    rw [h] at this; omega
  have hrne : rhs ≠ term := by
    intro h
    have := hrank term rhs (by rw [hops]; simp)
    rw [h] at this; omega
  obtain ⟨m1, m2, m3, m4⟩ := makeTerm_consistent st.program Op.Negate [rhs] hc
    (by intro x hx; simp only [List.mem_singleton] at hx; subst hx; exact hrt)
  obtain ⟨f1, f2⟩ := makeTerm_frame st.program Op.Negate [rhs]
  obtain ⟨a1, a2, a3, a4⟩ := makeTerm_consistent (st.program.makeTerm Op.Negate [rhs]).2 Op.Add
    [lhs, st.program.nextTermIndex] m1
    (by
      intro x hx
      rw [m3]
      simp only [List.mem_cons, List.mem_singleton, List.not_mem_nil, or_false] at hx
      rcases hx with rfl | rfl <;> omega)
  obtain ⟨g1, g2⟩ := makeTerm_frame (st.program.makeTerm Op.Negate [rhs]).2 Op.Add
    [lhs, st.program.nextTermIndex]
  rw [m3] at a2 a3 a4 g1 g2
  obtain ⟨r1, r2, r3, r4, r5, r6⟩ := replaceAllUsesWith_spec
    ((st.program.makeTerm Op.Negate [rhs]).2.makeTerm Op.Add [lhs, st.program.nextTermIndex]).2
    term (st.program.nextTermIndex + 1) a1 (by rw [a3]; omega) (by rw [a3]; omega) (by omega)
  have h0 : st.program.operandAt term 0 = some lhs := by
    simp [Program.operandAt, hops]
  have h1 : st.program.operandAt term 1 = some rhs := by
    simp [Program.operandAt, hops]
  have h2 : (st.program.makeTerm Op.Negate [rhs]).2.operandAt term 0 = some lhs := by
    unfold Program.operandAt
    rw [m4, if_neg (by omega), hops]
    rfl
  refine ⟨⟨Term.replaceAllUsesWith
      ((st.program.makeTerm Op.Negate [rhs]).2.makeTerm Op.Add
        [lhs, st.program.nextTermIndex]).2 term (st.program.nextTermIndex + 1), st.type⟩,
    ?_, rfl, r1, by rw [r2, a3], ?_, ?_, ?_, r6⟩
  · unfold SEALLowering.visit
    rw [if_pos hop, h0]
    dsimp only
    rw [if_pos hl, h1]
    dsimp only
    rw [if_pos hr, h2]
    dsimp only
    rw [m2, a2]
  · intro x
    rw [r3, a4, m4]
    by_cases hx1 : x = st.program.nextTermIndex + 1
    · rw [if_pos hx1, if_neg (by omega), if_pos hx1]
      simp only [List.map_cons, List.map_nil]
      rw [if_neg hlne, if_neg (by omega)]
    · rw [if_neg hx1, if_neg hx1]
      by_cases hx0 : x = st.program.nextTermIndex
      · rw [if_pos hx0, if_pos hx0]
        simp only [List.map_cons, List.map_nil]
        rw [if_neg hrne]
      · rw [if_neg hx0, if_neg hx0]
  · intro x
    rw [r4, g1, f1]
    by_cases hx1 : x = st.program.nextTermIndex + 1
    · rw [if_pos hx1, if_neg (by omega), if_pos hx1]
    · rw [if_neg hx1, if_neg hx1]
  · intro x
    rw [r5, g2, f2]
    by_cases hx1 : x = st.program.nextTermIndex + 1
    · rw [if_pos hx1, if_neg (by omega), if_pos hx1]
    · rw [if_neg hx1, if_neg hx1]

/-- The value `ReferenceExecutor` stores for `u` depends on the operation, the
attributes and the values of the operands of `u` only: two states that agree on
these, the operand lists being related by a renaming `f`, store the same
value. -/
theorem referenceExecutor_visit_congr (E1 E2 : ReferenceExecutor) (u : Nat) (f : Nat → Nat)
    (hv : E2.vecSize = E1.vecSize) (hop : E2.program.op u = E1.program.op u)
    (hat : E2.program.attributes u = E1.program.attributes u)
    (hops : E2.program.operands u = (E1.program.operands u).map f)
    (hu : E2.terms u = E1.terms u)
    (hne : ∀ o ∈ E1.program.operands u, o ≠ u ∧ f o ≠ u)
    (hval : ∀ o ∈ E1.program.operands u, E2.terms (f o) = E1.terms o) :
    (E2.visit u).map (fun s => s.terms u) = (E1.visit u).map (fun s => s.terms u) := by
  have hcl : ∀ o ∈ E1.program.operands u,
      ReferenceExecutor.cleared (ReferenceExecutor.touch E2.terms u) u (f o)
        = ReferenceExecutor.cleared (ReferenceExecutor.touch E1.terms u) u o := by
    intro o ho
    obtain ⟨n1, n2⟩ := hne o ho
    unfold ReferenceExecutor.cleared ReferenceExecutor.touch
    rw [Function.update_noteq n2, Function.update_noteq n1]
    split <;> split <;>
      first
        | exact hval o ho
        | (rw [Function.update_noteq n1]; exact hval o ho)
        | (rw [Function.update_noteq n2]; exact hval o ho)
        | (rw [Function.update_noteq n1, Function.update_noteq n2]; exact hval o ho)
  have htu : ReferenceExecutor.touch E2.terms u u = ReferenceExecutor.touch E1.terms u u := by
    unfold ReferenceExecutor.touch
    rw [hu]
    split
    · exact hu
    · rw [Function.update_same, Function.update_same]
  unfold ReferenceExecutor.visit
  rw [hop, hat, hops, hv]
  cases hopu : E1.program.op u <;> dsimp only
  case Input => simp [htu]
  case Constant =>
    cases AttributeList.getConstant (E1.program.attributes u) with
    | none => rfl
    | some c =>
      dsimp only
      cases c.expandTo E1.vecSize with
      | none => rfl
      | some v => simp
  case Undef => simp [htu]
  case Add | Sub | Mul =>
    unfold ReferenceExecutor.binOp
    cases hl : E1.program.operands u with
    | nil => rfl
    | cons a1 l1 =>
      cases l1 with
      | nil => rfl
      | cons a2 l2 =>
        simp only [List.map_cons]
        rw [hcl a1 (by rw [hl]; simp), hcl a2 (by rw [hl]; simp)]
        cases ReferenceExecutor.cleared (ReferenceExecutor.touch E1.terms u) u a1 with
        | none => rfl
        | some in1 =>
          cases ReferenceExecutor.cleared (ReferenceExecutor.touch E1.terms u) u a2 with
          | none => rfl
          | some in2 =>
            dsimp only
            split
            · simp
            · rfl
  case RotateLeftConst | RotateRightConst =>
    cases AttributeList.getInt32 (E1.program.attributes u) RotationAttribute with
    | none => rfl
    | some shift =>
      dsimp only
      unfold ReferenceExecutor.rotate
      cases hl : E1.program.operands u with
      | nil => rfl
      | cons a1 l1 =>
        simp only [List.map_cons]
        rw [hcl a1 (by rw [hl]; simp)]
        cases ReferenceExecutor.cleared (ReferenceExecutor.touch E1.terms u) u a1 with
        | none => rfl
        | some input =>
          dsimp only
          cases normalizeShift shift input.length with
          | none => rfl
          | some s => simp
  case Negate =>
    unfold ReferenceExecutor.negate
    cases hl : E1.program.operands u with
    | nil => rfl
    | cons a1 l1 =>
      simp only [List.map_cons]
      rw [hcl a1 (by rw [hl]; simp)]
      cases ReferenceExecutor.cleared (ReferenceExecutor.touch E1.terms u) u a1 with
      | none => rfl
      | some input => simp
  case Output | Relinearize | ModSwitch | Rescale | Encode =>
    unfold ReferenceExecutor.copy
    cases hl : E1.program.operands u with
    | nil => rfl
    | cons a1 l1 =>
      simp only [List.map_cons, Option.map_some', Function.update_same, Option.some.injEq]
      obtain ⟨n1, n2⟩ := hne a1 (by rw [hl]; simp)
      have hv1 := hval a1 (by rw [hl]; simp)
      unfold ReferenceExecutor.touch
      split <;> split <;> split <;> split <;>
        simp_all [Function.update_noteq n1, Function.update_noteq n2]

theorem zipWith_add_neg : ∀ (a b : List ℚ),
    List.zipWith (fun x y => x + y) a (b.map (fun x => -x))
      = List.zipWith (fun x y => x - y) a b := by
  intro a
  induction a with
  | nil => intro b; simp
  | cons x a ih =>
    intro b
    cases b with
    | nil => simp
    | cons y b =>
      simp only [List.map_cons, List.zipWith_cons_cons, ih b]
      congr 1
      ring

/-- C27: `SEALLowering` visits, in a consistent acyclic program, a `Sub` term
whose first operand `lhs` is not `Cipher` and whose second operand `rhs` is
`Cipher`.  The call returns; it creates two terms, a `Negate` over `rhs` and
an `Add` over `lhs` and that `Negate`; every term reads the `Add` in the slots
where it read the `Sub`, which is left without uses; operation and attributes
of the older terms, and the operand lists that did not hold the `Sub`, are as
before.  For `ReferenceExecutor`: when `lhs` and `rhs` hold vectors `a` and `b`
of one length, the call on the `Sub` stores `a - b` slot by slot, and the calls
on the `Negate` and then on the `Add` store the same vector for the `Add`;
and on every term `u` that read the `Sub`, the call in the new program, from a
state that holds for the `Add` what the old state holds for the `Sub` and
agrees on the older terms, stores for `u` what the call in the old program
stores.  On a term that is not a `Sub`, on one whose first operand is
`Cipher`, and on one whose second operand is not `Cipher`, the call changes
nothing. -/
theorem sealLowering_sub_negate_add (st : SEALLowering) (term lhs rhs : Nat) (rest : List Nat)
    (hc : st.program.Consistent) (hac : st.program.Acyclic)
    (ht : term < st.program.nextTermIndex) (hop : st.program.op term = Op.Sub)
    (hops : st.program.operands term = lhs :: rhs :: rest)
    (hl : st.type lhs ≠ TermType.Cipher) (hr : st.type rhs = TermType.Cipher) :
    (∃ st1, SEALLowering.visit st term = some st1 ∧ st1.type = st.type ∧
      st1.program.Consistent ∧
      st1.program.nextTermIndex = st.program.nextTermIndex + 2 ∧
      st1.program.op st.program.nextTermIndex = Op.Negate ∧
      st1.program.operands st.program.nextTermIndex = [rhs] ∧
      st1.program.op (st.program.nextTermIndex + 1) = Op.Add ∧
      st1.program.operands (st.program.nextTermIndex + 1) = [lhs, st.program.nextTermIndex] ∧
      st1.program.uses term = [] ∧
      (∀ x, x < st.program.nextTermIndex →
        st1.program.operands x = (st.program.operands x).map
          (fun y => if y = term then st.program.nextTermIndex + 1 else y) ∧
        st1.program.op x = st.program.op x ∧
        st1.program.attributes x = st.program.attributes x ∧
        (term ∉ st.program.operands x → st1.program.operands x = st.program.operands x)) ∧
      (∀ (E : ReferenceExecutor) (a b : List ℚ), E.terms lhs = some a → E.terms rhs = some b →
        a.length = b.length →
        (ReferenceExecutor.visit { E with program := st.program } term).map
            (fun s => s.terms term)
          = some (some (List.zipWith (fun x y => x - y) a b)) ∧
        ((ReferenceExecutor.visit { E with program := st1.program }
            st.program.nextTermIndex).bind
          (fun s => s.visit (st.program.nextTermIndex + 1))).map
            (fun s => s.terms (st.program.nextTermIndex + 1))
          = some (some (List.zipWith (fun x y => x - y) a b))) ∧
      (∀ u, term ∈ st.program.operands u → ∀ E E1 : ReferenceExecutor,
        E.program = st.program → E1.program = st1.program → E1.vecSize = E.vecSize →
        E1.terms (st.program.nextTermIndex + 1) = E.terms term →
        (∀ x, x < st.program.nextTermIndex → E1.terms x = E.terms x) →
        (E1.visit u).map (fun s => s.terms u) = (E.visit u).map (fun s => s.terms u))) ∧
    (∀ (s : SEALLowering) (t : Nat), s.program.op t ≠ Op.Sub → s.visit t = some s) ∧
    (∀ (s : SEALLowering) (t first : Nat) (others : List Nat),
      s.program.operands t = first :: others → s.type first = TermType.Cipher →
      s.visit t = some s) ∧
    (∀ (s : SEALLowering) (t first second : Nat) (others : List Nat),
      s.program.operands t = first :: second :: others → s.type second ≠ TermType.Cipher →
      s.visit t = some s) := by
  refine ⟨?_, ?_, ?_, ?_⟩
  · obtain ⟨st1, h1, h2, h3, h4, h5, h6, h7, h8⟩ :=
      sealLowering_visit_spec st term lhs rhs rest hc hac ht hop hops hl hr
    obtain ⟨rank, hrank⟩ := hac
    have hlt : lhs < st.program.nextTermIndex :=
      (hc.operand_lt (show lhs ∈ st.program.operands term by rw [hops]; simp)).2
    have hrt : rhs < st.program.nextTermIndex :=
      (hc.operand_lt (show rhs ∈ st.program.operands term by rw [hops]; simp)).2
    have hlne : lhs ≠ term := by
      intro h
      have := hrank term lhs (by rw [hops]; simp)
      rw [h] at this; omega
    have hrne : rhs ≠ term := by
      intro h
      have := hrank term rhs (by rw [hops]; simp)
      rw [h] at this; omega
    refine ⟨st1, h1, h2, h3, h4, ?_, ?_, ?_, ?_, h8, ?_, ?_, ?_⟩
    · rw [h6, if_pos rfl]
    · rw [h5, if_pos rfl]
    · rw [h6, if_neg (by omega), if_pos rfl]
    · rw [h5, if_neg (by omega), if_pos rfl]
    · intro x hx
      refine ⟨by rw [h5, if_neg (by omega), if_neg (by omega)],
        by rw [h6, if_neg (by omega), if_neg (by omega)],
        by rw [h7, if_neg (by omega), if_neg (by omega)], ?_⟩
      intro hnot
      rw [h5, if_neg (by omega), if_neg (by omega)]
      conv_rhs => rw [← List.map_id (st.program.operands x)]
      apply List.map_congr_left
      intro y hy
      have : y ≠ term := fun h => hnot (h ▸ hy)
      simp [this]
    · intro E a b ha hb hab
      refine ⟨?_, ?_⟩
      · simp only [ReferenceExecutor.visit, hop, hops, ReferenceExecutor.binOp,
          ReferenceExecutor.cleared, Function.update_noteq hlne, Function.update_noteq hrne]
        have e1 : ReferenceExecutor.touch E.terms term lhs = some a := by
          unfold ReferenceExecutor.touch
          split
          · exact ha
          · rw [Function.update_noteq hlne]; exact ha
        have e2 : ReferenceExecutor.touch E.terms term rhs = some b := by
          unfold ReferenceExecutor.touch
          split
          · exact hb
          · rw [Function.update_noteq hrne]; exact hb
        rw [e1, e2]
        simp [hab]
      · have hn0 : rhs ≠ st.program.nextTermIndex := by omega
        have e2 : ReferenceExecutor.touch E.terms st.program.nextTermIndex rhs = some b := by
          unfold ReferenceExecutor.touch
          split
          · exact hb
          · rw [Function.update_noteq hn0]; exact hb
        have o0 : st1.program.op st.program.nextTermIndex = Op.Negate := by
          rw [h6, if_pos rfl]
        have p0 : st1.program.operands st.program.nextTermIndex = [rhs] := by
          rw [h5, if_pos rfl]
        have o1 : st1.program.op (st.program.nextTermIndex + 1) = Op.Add := by
          rw [h6, if_neg (by omega), if_pos rfl]
        have p1 : st1.program.operands (st.program.nextTermIndex + 1)
            = [lhs, st.program.nextTermIndex] := by
          rw [h5, if_neg (by omega), if_pos rfl]
        have hv0 : ReferenceExecutor.visit { E with program := st1.program }
            st.program.nextTermIndex
            = some { program := st1.program, vecSize := E.vecSize,
                     terms := Function.update
                       (ReferenceExecutor.touch E.terms st.program.nextTermIndex)
                       st.program.nextTermIndex (some (b.map (fun x => -x))),
                     ok := E.ok && true } := by
          simp only [ReferenceExecutor.visit, o0, p0, ReferenceExecutor.negate,
            ReferenceExecutor.cleared, Function.update_noteq hn0, e2]
          simp
        rw [hv0]
        simp only [Option.some_bind]
        have hl1 : lhs ≠ st.program.nextTermIndex + 1 := by omega
        have hl0 : lhs ≠ st.program.nextTermIndex := by omega
        have e1 : ReferenceExecutor.touch E.terms st.program.nextTermIndex lhs = some a := by
          unfold ReferenceExecutor.touch
          split
          · exact ha
          · rw [Function.update_noteq hl0]; exact ha
        simp only [ReferenceExecutor.visit, o1, p1, ReferenceExecutor.binOp,
          ReferenceExecutor.cleared]
        have t1 : ∀ m : Nat → Option (List ℚ), m lhs = some a →
            Function.update (ReferenceExecutor.touch m (st.program.nextTermIndex + 1))
              (st.program.nextTermIndex + 1) (some []) lhs = some a := by
          intro m hm
          rw [Function.update_noteq hl1]
          unfold ReferenceExecutor.touch
          split
          · exact hm
          · rw [Function.update_noteq hl1]; exact hm
        have t2 : ∀ m : Nat → Option (List ℚ), m st.program.nextTermIndex = some (b.map (fun x => -x)) →
            Function.update (ReferenceExecutor.touch m (st.program.nextTermIndex + 1))
              (st.program.nextTermIndex + 1) (some []) st.program.nextTermIndex
              = some (b.map (fun x => -x)) := by
          intro m hm
          rw [Function.update_noteq (by omega)]
          unfold ReferenceExecutor.touch
          split
          · exact hm
          · rw [Function.update_noteq (by omega)]; exact hm
        rw [t1 _ (by rw [Function.update_noteq hl0]; exact e1),
          t2 _ (by rw [Function.update_same])]
        simp [hab, zipWith_add_neg]
    · intro u hu E E1 hE hE1 hv hadd hold
      have hult : u < st.program.nextTermIndex := (hc.operand_lt hu).1
      apply referenceExecutor_visit_congr E E1 u
        (fun y => if y = term then st.program.nextTermIndex + 1 else y) hv
      · rw [hE, hE1, h6, if_neg (by omega), if_neg (by omega)]
      · rw [hE, hE1, h7, if_neg (by omega), if_neg (by omega)]
      · rw [hE, hE1, h5, if_neg (by omega), if_neg (by omega)]
      · exact hold u hult
      · intro o ho
        rw [hE] at ho
        have hou : o ≠ u := by
          intro h
          have := hrank u o ho
          rw [h] at this; omega
        refine ⟨hou, ?_⟩
        dsimp only
        split
        · omega
        · exact hou
      · intro o ho
        rw [hE] at ho
        split
        · next h => rw [h]; exact hadd
        · exact hold o (hc.operand_lt ho).2
  · intro s t h
    unfold SEALLowering.visit
    rw [if_neg h]
  · intro s t first others h hty
    unfold SEALLowering.visit
    split
    · simp [Program.operandAt, h, hty]
    · rfl
  · intro s t first second others h hty
    unfold SEALLowering.visit
    split
    · simp only [Program.operandAt, h, List.getElem?_cons_zero, List.getElem?_cons_succ]
      split
      · simp [hty]
      · rfl
    · rfl

theorem plainMinusCipher_wellFormed : plainMinusCipher.WellFormed := by
  unfold plainMinusCipher
  apply wellFormed_withMaps
  apply wellFormed_setAttribute
  apply wellFormed_setAttribute
  exact run_wellFormed "lower" 2 _ _ (run_eq_foldl _ _ (by decide!))

theorem plainMinusCipher_consistent : plainMinusCipher.Consistent :=
  plainMinusCipher_wellFormed.consistent

theorem plainMinusCipher_acyclic : plainMinusCipher.Acyclic := by
  refine ⟨fun x => x, ?_⟩
  intro t o ho
  have hlt := (plainMinusCipher_consistent.operand_lt ho).1
  have hb : ∀ t, t < plainMinusCipher.nextTermIndex →
      ∀ o ∈ plainMinusCipher.operands t, o < t := by
    decide!
  exact hb t hlt o ho

/-- Witness of C27 on `y = l - x`: the output (term 3) ends reading the `Add`
(term 5) over `l` and the `Negate` (term 4) of `x`; with `x = [1, 2]` and
`l = [10, 20]` a pass of `ReferenceExecutor` gives the output `[9, 18]` before
and after the pass of `SEALLowering`. -/
theorem sealLowering_sub_negate_add_witness :
    (SEALLowering.visit { program := plainMinusCipher, type := plainMinusCipherTypes } 2).map
      (fun s => (s.program.operands 3, s.program.operands 5, s.program.operands 4,
        s.program.uses 2))
      = some ([5], [1, 4], [0], []) ∧
    (forwardPass ReferenceExecutor.rewriter 4
        { program := plainMinusCipher, vecSize := 2,
          terms := fun t => if t = 0 then some [1, 2] else if t = 1 then some [10, 20] else none,
          ok := true }).map (fun s => s.env.terms 3) = some (some [9, 18]) ∧
    ((forwardPass SEALLowering.rewriter 6
        { program := plainMinusCipher, type := plainMinusCipherTypes }).bind
      (fun l => forwardPass ReferenceExecutor.rewriter 6
        { program := l.env.program, vecSize := 2,
          terms := fun t => if t = 0 then some [1, 2] else if t = 1 then some [10, 20] else none,
          ok := true })).map (fun s => (s.env.program.operands 3, s.env.terms 3))
      = some ([5], some [9, 18]) ∧
    ∃ st1, SEALLowering.visit { program := plainMinusCipher, type := plainMinusCipherTypes } 2
        = some st1 ∧
      st1.program.op 4 = Op.Negate ∧ st1.program.op 5 = Op.Add :=
  ⟨by decide!, by decide!, by decide!,
   have h := (sealLowering_sub_negate_add
     { program := plainMinusCipher, type := plainMinusCipherTypes } 2 1 0 []
     plainMinusCipher_consistent plainMinusCipher_acyclic (by decide!) (by decide!) (by decide!)
     (by decide!) (by decide!)).1
   h.elim fun st1 hs => ⟨st1, hs.1, hs.2.2.2.2.1, hs.2.2.2.2.2.2.1⟩⟩



theorem matchPrimes_spec : ∀ (ps qs : List Nat), ps.length = qs.length →
    (∀ r, ParameterChecker.matchPrimes ps qs = Except.ok r →
      r.length = ps.length ∧
      (∀ (i a b : Nat), ps[i]? = some a → qs[i]? = some b →
        r[i]? = some (if a = 0 then b else a)) ∧
      (∀ (i a b : Nat), ps[i]? = some a → qs[i]? = some b → a ≠ 0 → b ≠ 0 → a = b)) ∧
    (∀ e, ParameterChecker.matchPrimes ps qs = Except.error e →
      (∃ msg, e = CheckerError.inconsistentParameters msg) ∧
      ∃ (i a b : Nat), ps[i]? = some a ∧ qs[i]? = some b ∧ a ≠ 0 ∧ b ≠ 0 ∧ a ≠ b) := by
  intro ps
  induction ps with
  | nil =>
    intro qs _
    refine ⟨?_, ?_⟩
    · intro r hr
      simp only [ParameterChecker.matchPrimes, Except.ok.injEq] at hr
      subst hr
      simp
    · intro e he
      simp [ParameterChecker.matchPrimes] at he
  | cons p ps ih =>
    intro qs hlen
    cases qs with
    | nil => simp at hlen
    | cons q qs =>
      have hl : ps.length = qs.length := by simpa using hlen
      obtain ⟨ih1, ih2⟩ := ih qs hl
      have hok : ∀ (x : Nat) r, (ParameterChecker.matchPrimes ps qs).map (fun rest => x :: rest)
          = Except.ok r → ∃ r1, ParameterChecker.matchPrimes ps qs = Except.ok r1 ∧ r = x :: r1 := by
        intro x r h
        cases hm : ParameterChecker.matchPrimes ps qs with
        | error e => rw [hm] at h; simp [Except.map] at h
        | ok r1 =>
          rw [hm] at h
          simp only [Except.map, Except.ok.injEq] at h
          exact ⟨r1, rfl, h.symm⟩
      have herr : ∀ (x : Nat) e, (ParameterChecker.matchPrimes ps qs).map (fun rest => x :: rest)
          = Except.error e → ParameterChecker.matchPrimes ps qs = Except.error e := by
        intro x e h
        cases hm : ParameterChecker.matchPrimes ps qs with
        | error e1 => rw [hm] at h; simpa [Except.map] using h
        | ok r1 => rw [hm] at h; simp [Except.map] at h
      have tail_ok : ∀ (x : Nat) r, x = (if p = 0 then q else p) →
          (p ≠ 0 → q ≠ 0 → p = q) →
          (ParameterChecker.matchPrimes ps qs).map (fun rest => x :: rest) = Except.ok r →
          r.length = (p :: ps).length ∧
          (∀ (i a b : Nat), (p :: ps)[i]? = some a → (q :: qs)[i]? = some b →
            r[i]? = some (if a = 0 then b else a)) ∧
          (∀ (i a b : Nat), (p :: ps)[i]? = some a → (q :: qs)[i]? = some b →
            a ≠ 0 → b ≠ 0 → a = b) := by
        intro x r hx hpq h
        obtain ⟨r1, hr1, rfl⟩ := hok x r h
        obtain ⟨j1, j2, j3⟩ := ih1 r1 hr1
        refine ⟨by simp [j1], ?_, ?_⟩
        · intro i a b ha hb
          cases i with
          | zero =>
            simp only [List.getElem?_cons_zero, Option.some.injEq] at ha hb ⊢
            subst ha; subst hb; exact hx
          | succ i =>
            simp only [List.getElem?_cons_succ] at ha hb ⊢
            exact j2 i a b ha hb
        · intro i a b ha hb
          cases i with
          | zero =>
            simp only [List.getElem?_cons_zero, Option.some.injEq] at ha hb
            subst ha; subst hb; exact hpq
          | succ i =>
            simp only [List.getElem?_cons_succ] at ha hb
            exact j3 i a b ha hb
      have tail_err : ∀ (x : Nat) e,
          (ParameterChecker.matchPrimes ps qs).map (fun rest => x :: rest) = Except.error e →
          (∃ msg, e = CheckerError.inconsistentParameters msg) ∧
          ∃ (i a b : Nat), (p :: ps)[i]? = some a ∧ (q :: qs)[i]? = some b ∧
            a ≠ 0 ∧ b ≠ 0 ∧ a ≠ b := by
        intro x e h
        obtain ⟨k1, i, a, b, k2, k3, k4⟩ := ih2 e (herr x e h)
        exact ⟨k1, i + 1, a, b, by simpa using k2, by simpa using k3, k4⟩
      refine ⟨?_, ?_⟩
      · intro r hr
        unfold ParameterChecker.matchPrimes at hr
        by_cases hp : p = 0
        · rw [if_pos hp] at hr
          exact tail_ok q r (by rw [if_pos hp]) (fun h => absurd hp h) hr
        · rw [if_neg hp] at hr
          by_cases hq : q ≠ 0
          · rw [if_pos hq] at hr
            by_cases hpq : p ≠ q
            · rw [if_pos hpq] at hr
              exact Except.noConfusion hr
            · rw [if_neg hpq] at hr
              exact tail_ok p r (by rw [if_neg hp]) (fun _ _ => not_not.mp hpq) hr
          · rw [if_neg hq] at hr
            exact tail_ok p r (by rw [if_neg hp]) (fun _ h => absurd h hq) hr
      · intro e he
        unfold ParameterChecker.matchPrimes at he
        by_cases hp : p = 0
        · rw [if_pos hp] at he
          exact tail_err q e he
        · rw [if_neg hp] at he
          by_cases hq : q ≠ 0
          · rw [if_pos hq] at he
            by_cases hpq : p ≠ q
            · rw [if_pos hpq] at he
              simp only [Except.error.injEq] at he
              exact ⟨⟨_, he.symm⟩, 0, p, q, by simp, by simp, hp, hq, hpq⟩
            · rw [if_neg hpq] at he
              exact tail_err p e he
          · rw [if_neg hq] at he
            exact tail_err p e he

/-- The invariant of the loop over the operands: `acc` is the common chain of
the operands seen so far. -/
theorem mergeOperand_step (st : ParameterChecker) (term : Nat) (done : List Nat)
    (acc : List Nat) (o : Nat) (ho : o ≠ term) (hI : CommonChain st done acc) :
    (∀ r, ParameterChecker.mergeOperand st term (Except.ok acc) o = Except.ok r →
      CommonChain st (done ++ [o]) r) ∧
    (∀ e, ParameterChecker.mergeOperand st term (Except.ok acc) o = Except.error e →
      (∃ msg, e = CheckerError.inconsistentParameters msg) ∧
      ∃ o1 ∈ done, chainsDisagree (st.parms o1) (st.parms o)) := by
  have hdone : acc ≠ [] → ∃ o1 ∈ done, st.parms o1 ≠ [] := by
    intro hacc
    by_contra hcon
    push_neg at hcon
    exact hacc (hI.empty hcon)
  unfold ParameterChecker.mergeOperand
  simp only [if_neg ho]
  by_cases hc : (st.parms o).length > 0
  · have hcne : st.parms o ≠ [] := by
      intro h; rw [h] at hc; simp at hc
    rw [if_pos hc]
    by_cases ha : acc.length > 0
    · have hane : acc ≠ [] := by
        intro h; rw [h] at ha; simp at ha
      obtain ⟨o1, ho1, hne1⟩ := hdone hane
      have hlen1 := hI.length_eq o1 ho1 hne1
      rw [if_pos ha]
      by_cases hl : (st.parms o).length ≠ acc.length
      · rw [if_pos hl]
        refine ⟨fun r hr => Except.noConfusion hr, ?_⟩
        intro e he
        simp only [Except.error.injEq] at he
        exact ⟨⟨_, he.symm⟩, o1, ho1, hne1, hcne, Or.inl (by omega)⟩
      · rw [if_neg hl]
        have hleq : acc.length = (st.parms o).length := by omega
        obtain ⟨m1, m2⟩ := matchPrimes_spec acc (st.parms o) hleq
        refine ⟨?_, ?_⟩
        · intro r hr
          obtain ⟨j1, j2, j3⟩ := m1 r hr
          refine ⟨?_, ?_, ?_, ?_⟩
          · intro x hx hxne
            rcases List.mem_append.mp hx with hx | hx
            · rw [j1]; exact hI.length_eq x hx hxne
            · simp only [List.mem_singleton] at hx
              subst hx; omega
          · intro x hx i b hb hb0
            rcases List.mem_append.mp hx with hx | hx
            · have h1 := hI.holds x hx i b hb hb0
              have hi : i < (st.parms o).length := by
                have := (List.getElem?_eq_some_iff.mp h1).1
                omega
              obtain ⟨c, hcq⟩ : ∃ c, (st.parms o)[i]? = some c :=
                ⟨_, List.getElem?_eq_getElem hi⟩
              rw [j2 i b c h1 hcq, if_neg hb0]
            · simp only [List.mem_singleton] at hx
              subst hx
              have hi : i < acc.length := by
                have := (List.getElem?_eq_some_iff.mp hb).1
                omega
              obtain ⟨a, haq⟩ : ∃ a, acc[i]? = some a := ⟨_, List.getElem?_eq_getElem hi⟩
              rw [j2 i a b haq hb]
              by_cases ha0 : a = 0
              · rw [if_pos ha0]
              · rw [if_neg ha0, j3 i a b haq hb ha0 hb0]
          · intro i c hci hc0
            have hi : i < acc.length := by
              have := (List.getElem?_eq_some_iff.mp hci).1
              omega
            obtain ⟨a, haq⟩ : ∃ a, acc[i]? = some a := ⟨_, List.getElem?_eq_getElem hi⟩
            obtain ⟨b, hbq⟩ : ∃ b, (st.parms o)[i]? = some b :=
              ⟨_, List.getElem?_eq_getElem (by omega)⟩
            rw [j2 i a b haq hbq] at hci
            simp only [Option.some.injEq] at hci
            by_cases ha0 : a = 0
            · rw [if_pos ha0] at hci
              subst hci
              exact ⟨o, by simp, hbq⟩
            · rw [if_neg ha0] at hci
              subst hci
              obtain ⟨x, hx, hxq⟩ := hI.from_operand i a haq ha0
              exact ⟨x, by simp [hx], hxq⟩
          · intro hall
            exact absurd (hall o (by simp)) hcne
        · intro e he
          obtain ⟨k1, i, a, b, k2, k3, k4, k5, k6⟩ := m2 e he
          obtain ⟨x, hx, hxq⟩ := hI.from_operand i a k2 k4
          have hxne : st.parms x ≠ [] := by
            intro h; rw [h] at hxq; simp at hxq
          exact ⟨k1, x, hx, hxne, hcne, Or.inr ⟨i, a, b, hxq, k3, k4, k5, k6⟩⟩
    · rw [if_neg ha]
      have hanil : acc = [] := by
        cases acc with
        | nil => rfl
        | cons a l => simp at ha
      have hall : ∀ x ∈ done, st.parms x = [] := by
        intro x hx
        by_contra hne
        have := hI.length_eq x hx hne
        rw [hanil] at this
        have h2 : 0 < (st.parms x).length := List.length_pos.mpr hne
        simp at this
        omega
      refine ⟨?_, fun e he => Except.noConfusion he⟩
      intro r hr
      simp only [Except.ok.injEq] at hr
      subst hr
      refine ⟨?_, ?_, ?_, ?_⟩
      · intro x hx hxne
        rcases List.mem_append.mp hx with hx | hx
        · exact absurd (hall x hx) hxne
        · simp only [List.mem_singleton] at hx
          subst hx; rfl
      · intro x hx i b hb hb0
        rcases List.mem_append.mp hx with hx | hx
        · rw [hall x hx] at hb; simp at hb
        · simp only [List.mem_singleton] at hx
          subst hx; exact hb
      · intro i c hci _
        exact ⟨o, by simp, hci⟩
      · intro hall2
        exact hall2 o (by simp)
  · rw [if_neg hc]
    have hcnil : st.parms o = [] := by
      cases h : st.parms o with
      | nil => rfl
      | cons a l => rw [h] at hc; simp at hc
    refine ⟨?_, fun e he => Except.noConfusion he⟩
    intro r hr
    simp only [Except.ok.injEq] at hr
    subst hr
    refine ⟨?_, ?_, ?_, ?_⟩
    · intro x hx hxne
      rcases List.mem_append.mp hx with hx | hx
      · exact hI.length_eq x hx hxne
      · simp only [List.mem_singleton] at hx
        subst hx; exact absurd hcnil hxne
    · intro x hx i b hb hb0
      rcases List.mem_append.mp hx with hx | hx
      · exact hI.holds x hx i b hb hb0
      · simp only [List.mem_singleton] at hx
        subst hx; rw [hcnil] at hb; simp at hb
    · intro i c hci hc0
      obtain ⟨x, hx, hxq⟩ := hI.from_operand i c hci hc0
      exact ⟨x, by simp [hx], hxq⟩
    · intro hall
      exact hI.empty (fun x hx => hall x (by simp [hx]))

theorem mergeOperand_error (st : ParameterChecker) (term : Nat) (e : CheckerError) :
    ∀ l : List Nat, l.foldl (ParameterChecker.mergeOperand st term) (Except.error e)
      = Except.error e := by
  intro l
  induction l with
  | nil => rfl
  | cons o l ih => simpa [List.foldl, ParameterChecker.mergeOperand] using ih

theorem mergeOperands_spec (st : ParameterChecker) (term : Nat) :
    ∀ (todo done : List Nat) (acc : List Nat), (∀ o ∈ todo, o ≠ term) →
      CommonChain st done acc →
      (∀ r, todo.foldl (ParameterChecker.mergeOperand st term) (Except.ok acc) = Except.ok r →
        CommonChain st (done ++ todo) r) ∧
      (∀ e, todo.foldl (ParameterChecker.mergeOperand st term) (Except.ok acc) = Except.error e →
        (∃ msg, e = CheckerError.inconsistentParameters msg) ∧
        ∃ o1 ∈ done ++ todo, ∃ o2 ∈ done ++ todo,
          chainsDisagree (st.parms o1) (st.parms o2)) := by
  intro todo
  induction todo with
  | nil =>
    intro done acc _ hI
    refine ⟨?_, ?_⟩
    · intro r hr
      simp only [List.foldl, Except.ok.injEq] at hr
      subst hr
      simpa using hI
    · intro e he
      simp [List.foldl] at he
  | cons o todo ih =>
    intro done acc hne hI
    obtain ⟨s1, s2⟩ := mergeOperand_step st term done acc o (hne o (by simp)) hI
    simp only [List.foldl]
    cases hstep : ParameterChecker.mergeOperand st term (Except.ok acc) o with
    | error e1 =>
      rw [mergeOperand_error]
      refine ⟨fun r hr => Except.noConfusion hr, ?_⟩
      intro e he
      simp only [Except.error.injEq] at he
      subst he
      obtain ⟨k1, o1, ho1, hd⟩ := s2 e1 hstep
      exact ⟨k1, o1, by simp [ho1], o, by simp, hd⟩
    | ok r1 =>
      obtain ⟨i1, i2⟩ := ih (done ++ [o]) r1 (fun x hx => hne x (by simp [hx])) (s1 r1 hstep)
      refine ⟨?_, ?_⟩
      · intro r hr
        have := i1 r hr
        simpa using this
      · intro e he
        obtain ⟨k1, o1, ho1, o2, ho2, hd⟩ := i2 e he
        exact ⟨k1, o1, by simpa using ho1, o2, by simpa using ho2, hd⟩

theorem commonChain_no_conflict (st : ParameterChecker) (l : List Nat) (chain : List Nat)
    (h : CommonChain st l chain) :
    ¬ ∃ o1 ∈ l, ∃ o2 ∈ l, chainsDisagree (st.parms o1) (st.parms o2) := by
  rintro ⟨o1, h1, o2, h2, n1, n2, hd⟩
  rcases hd with hlen | ⟨i, a, b, ha, hb, ha0, hb0, hab⟩
  · have e1 := h.length_eq o1 h1 n1
    have e2 := h.length_eq o2 h2 n2
    omega
  · have e1 := h.holds o1 h1 i a ha ha0
    have e2 := h.holds o2 h2 i b hb hb0
    rw [e1] at e2
    simp only [Option.some.injEq] at e2
    exact hab e2


/-- C22: `ParameterChecker` visits a term that has operands, is not `Raw` and
is not an `Encode`, whose own chain is still empty and which is not its own
operand.  The call raises `InconsistentParameters` if and only if two operands
impose non-empty chains that differ in length or hold two different primes
other than zero at one position.  When no two operands disagree (and a
`Rescale` carries its `RescaleDivisorAttribute`) the call returns, the chains
of the other terms are untouched, and the chain of the term is the common
chain of the operands with the placeholders filled in, followed by 0 for a
`ModSwitch` and by the divisor for a `Rescale`. -/
theorem parameterChecker_rule (st : ParameterChecker) (term : Nat)
    (hne : st.program.operands term ≠ []) (hty : st.types term ≠ TermType.Raw)
    (hop : st.program.op term ≠ Op.Encode) (hfresh : st.parms term = [])
    (hself : term ∉ st.program.operands term) :
    ((∃ msg, st.visit term = Except.error (CheckerError.inconsistentParameters msg))
      ↔ st.Conflict term) ∧
    (¬ st.Conflict term →
      (st.program.op term = Op.Rescale → (rescaleDivisorOf st.program term).isSome) →
      ∃ st1 chain, st.visit term = Except.ok st1 ∧
        CommonChain st (st.program.operands term) chain ∧
        st1.parms term = chain ++
          (if st.program.op term = Op.ModSwitch then [0]
           else if st.program.op term = Op.Rescale then
             [(rescaleDivisorOf st.program term).getD 0]
           else []) ∧
        (∀ x, x ≠ term → st1.parms x = st.parms x) ∧ st1.program = st.program) := by
  have hinit : CommonChain st [] (st.parms term) := by
    rw [hfresh]
    exact ⟨by simp, by simp, by simp, fun _ => rfl⟩
  obtain ⟨s1, s2⟩ := mergeOperands_spec st term (st.program.operands term) [] (st.parms term)
    (fun o ho h => hself (h ▸ ho)) hinit
  simp only [List.nil_append] at s1 s2
  have hlen : (st.program.operands term).length > 0 := List.length_pos.mpr hne
  have hcond : ¬ (st.types term = TermType.Raw ∨ st.program.op term = Op.Encode) := by
    simp [hty, hop]
  cases hfold : (st.program.operands term).foldl (ParameterChecker.mergeOperand st term)
      (Except.ok (st.parms term)) with
  | error e =>
    obtain ⟨⟨msg, hmsg⟩, hconf⟩ := s2 e hfold
    have hv : st.visit term = Except.error e := by
      unfold ParameterChecker.visit
      simp only [if_neg hcond, if_pos hlen, hfold]
    refine ⟨⟨fun _ => hconf, fun _ => ⟨msg, by rw [hv, hmsg]⟩⟩, fun hno => absurd hconf hno⟩
  | ok chain =>
    have hI := s1 chain hfold
    have hno : ¬ st.Conflict term := commonChain_no_conflict st _ chain hI
    refine ⟨⟨?_, fun h => absurd h hno⟩, ?_⟩
    · rintro ⟨msg, hv⟩
      exfalso
      unfold ParameterChecker.visit at hv
      simp only [if_neg hcond, if_pos hlen, hfold] at hv
      split at hv
      · exact Except.noConfusion hv
      · split at hv
        · split at hv
          · simp at hv
          · exact Except.noConfusion hv
        · exact Except.noConfusion hv
    · intro _ hresc
      unfold ParameterChecker.visit
      simp only [if_neg hcond, if_pos hlen, hfold]
      by_cases hms : st.program.op term = Op.ModSwitch
      · rw [if_pos hms, if_pos hms]
        exact ⟨_, chain, rfl, hI, by simp, fun x hx => by simp [Function.update_noteq hx], rfl⟩
      · rw [if_neg hms, if_neg hms]
        by_cases hrs : st.program.op term = Op.Rescale
        · have hr1 : isRescaleOp (st.program.op term) = true := by simp [isRescaleOp, hrs]
          rw [if_pos hr1, if_pos hrs]
          obtain ⟨d, hd⟩ := Option.isSome_iff_exists.mp (hresc hrs)
          unfold rescaleDivisorOf at hd ⊢
          rw [hd]
          exact ⟨_, chain, rfl, hI, by simp, fun x hx => by simp [Function.update_noteq hx], rfl⟩
        · have hr1 : ¬ isRescaleOp (st.program.op term) = true := by simp [isRescaleOp, hrs]
          rw [if_neg hr1, if_neg hrs]
          exact ⟨_, chain, rfl, hI, by simp, fun x hx => by simp [Function.update_noteq hx], rfl⟩

/-- Witness of C22 on the `Mul` of `rescaledProduct`: with the chains `[0]` and
`[0, 40]` on its operands the call raises `InconsistentParameters`; with
`[0, 0]` and `[0, 40]` it returns and the `Mul` has the chain `[0, 40]`. -/
theorem parameterChecker_rule_witness :
    (∃ msg, conflictState.visit 2 = Except.error (CheckerError.inconsistentParameters msg)) ∧
    ((agreeState.visit 2).toOption.map (fun s => s.parms 2)) = some [0, 40] :=
  ⟨(parameterChecker_rule conflictState 2 (by decide!) (by decide!) (by decide!) (by decide!)
      (by decide!)).1.mpr
      ⟨0, by decide!, 1, by decide!, by decide!, by decide!, Or.inl (by decide!)⟩,
   by decide!⟩


theorem copyCells_eq : ∀ l : AttributeList, AttributeList.copyCells l = l := by
  intro l
  induction l with
  | nil => rfl
  | cons a l ih =>
    obtain ⟨k, v⟩ := a
    simp [AttributeList.copyCells, ih]

theorem assignAttributesFrom_nil (other : AttributeList) :
    AttributeList.assignAttributesFrom [] other = other := by
  unfold AttributeList.assignAttributesFrom
  simp only [ne_eq, not_true_eq_false, if_false]
  split
  · next h => exact h.symm
  · exact copyCells_eq other

theorem withAttributes_consistent (p : Program) (t : Nat) (a : AttributeList)
    (h : p.Consistent) : (p.withAttributes t a).Consistent := by
  refine ⟨?_, ?_, ?_, ?_⟩
  · intro x y; simpa using h.sym x y
  · intro x; simpa using h.src x
  · intro x; simpa using h.snk x
  · intro x hx; simpa using h.fresh x (by simpa using hx)

theorem addOperand_attributes (p : Program) (t o x : Nat) :
    (Term.addOperand p t o).attributes x = p.attributes x := by
  unfold Term.addOperand
  simp only [addUse_attributes]
  split <;> simp

theorem addOperand_next (p : Program) (t o : Nat) :
    (Term.addOperand p t o).nextTermIndex = p.nextTermIndex := by
  unfold Term.addOperand
  simp only [addUse_next]
  split <;> simp

theorem addOperand_meta (p : Program) (t o : Nat) :
    (Term.addOperand p t o).name = p.name ∧ (Term.addOperand p t o).vecSize = p.vecSize ∧
    (Term.addOperand p t o).inputs = p.inputs ∧ (Term.addOperand p t o).outputs = p.outputs := by
  unfold Term.addOperand Term.addUse
  dsimp only
  split <;> split <;> simp [Program.withUses, Program.withSinks, Program.withOperands,
    Program.withSources]

/-- The loop over the operands in the lambda of `deepCopy`. -/
theorem addOperands_spec (oldToNew : Nat → Option Nat) (g : Nat → Nat) (newTerm : Nat) :
    ∀ (os : List Nat) (q : Program), q.Consistent → q.SetsNodup →
      newTerm < q.nextTermIndex →
      (∀ o ∈ os, oldToNew o = some (g o) ∧ g o < q.nextTermIndex) →
      ∃ q1, DeepCopy.addOperands oldToNew newTerm os q = some q1 ∧ q1.Consistent ∧
        q1.SetsNodup ∧ q1.nextTermIndex = q.nextTermIndex ∧
        (∀ x, q1.operands x = if x = newTerm then q.operands newTerm ++ os.map g
          else q.operands x) ∧
        (∀ x, q1.op x = q.op x) ∧ (∀ x, q1.attributes x = q.attributes x) ∧
        q1.name = q.name ∧ q1.vecSize = q.vecSize ∧ q1.inputs = q.inputs ∧
        q1.outputs = q.outputs := by
  intro os
  induction os with
  | nil =>
    intro q hc hs _ _
    refine ⟨q, rfl, hc, hs, rfl, ?_, fun _ => rfl, fun _ => rfl, rfl, rfl, rfl, rfl⟩
    intro x
    split
    · next h => rw [h]; simp
    · rfl
  | cons o os ih =>
    intro q hc hs hn hall
    obtain ⟨h1, h2⟩ := hall o (by simp)
    obtain ⟨m1, m2, m3, m4⟩ := addOperand_meta q newTerm (g o)
    obtain ⟨q1, e1, e2, e3, e4, e5, e6, e7, e8, e9, e10, e11⟩ :=
      ih (Term.addOperand q newTerm (g o))
        (addOperand_consistent q newTerm (g o) hc hn h2) (addOperand_setsNodup q newTerm (g o) hs)
        (by rw [addOperand_next]; exact hn)
        (fun x hx => by
          obtain ⟨k1, k2⟩ := hall x (by simp [hx])
          exact ⟨k1, by rw [addOperand_next]; exact k2⟩)
    refine ⟨q1, ?_, e2, e3, by rw [e4, addOperand_next], ?_, ?_, ?_, by rw [e8, m1],
      by rw [e9, m2], by rw [e10, m3], by rw [e11, m4]⟩
    · simp only [DeepCopy.addOperands, h1]
      exact e1
    · intro x
      rw [e5]
      by_cases hx : x = newTerm
      · rw [if_pos hx, if_pos hx, addOperand_operands, if_pos rfl]
        simp
      · rw [if_neg hx, if_neg hx, addOperand_operands, if_neg hx]
    · intro x; rw [e6, addOperand_op]
    · intro x; rw [e7, addOperand_attributes]


theorem withAttributes_setsNodup (p : Program) (t : Nat) (a : AttributeList)
    (h : p.SetsNodup) : (p.withAttributes t a).SetsNodup := h

/-- One call of the lambda of `deepCopy` keeps `DeepCopyInv`. -/
theorem deepCopy_step (p : Program) (env : DeepCopy) (visited : List Nat) (term : Nat)
    (hJ : DeepCopyInv p env visited) (hnot : term ∉ visited)
    (hpred : ∀ o ∈ p.operands term, o ∈ visited) :
    ∃ env1, DeepCopy.visit env term = some env1 ∧ env1.program = p ∧
      DeepCopyInv p env1 (visited ++ [term]) := by
  obtain ⟨m1, m2, m3, m4⟩ := makeTerm_consistent env.newProg (p.op term) [] hJ.cons (by simp)
  obtain ⟨f1, f2⟩ := makeTerm_frame env.newProg (p.op term) []
  have msets := makeTerm_setsNodup env.newProg (p.op term) [] hJ.sets
  have mmeta : (env.newProg.makeTerm (p.op term) []).2.name = env.newProg.name ∧
      (env.newProg.makeTerm (p.op term) []).2.vecSize = env.newProg.vecSize ∧
      (env.newProg.makeTerm (p.op term) []).2.inputs = env.newProg.inputs ∧
      (env.newProg.makeTerm (p.op term) []).2.outputs = env.newProg.outputs := by
    simp [Program.makeTerm, Term.create]
  -- the program after the attributes have been assigned
  have hp1 : ∃ p1, p1 = Term.assignAttributesFrom (env.newProg.makeTerm (p.op term) []).2
      env.newProg.nextTermIndex (p.attributes term) := ⟨_, rfl⟩
  obtain ⟨p1, hp1⟩ := hp1
  have c1 : p1.Consistent := by
    rw [hp1]; exact withAttributes_consistent _ _ _ m1
  have c2 : p1.SetsNodup := by
    rw [hp1]; exact withAttributes_setsNodup _ _ _ msets
  have c3 : p1.nextTermIndex = env.newProg.nextTermIndex + 1 := by
    rw [hp1]; simpa [Term.assignAttributesFrom] using m3
  have c4 : ∀ x, p1.operands x = if x = env.newProg.nextTermIndex then [] else
      env.newProg.operands x := by
    intro x; rw [hp1]; simpa [Term.assignAttributesFrom] using m4 x
  have c5 : ∀ x, p1.op x = if x = env.newProg.nextTermIndex then p.op term else
      env.newProg.op x := by
    intro x; rw [hp1]; simpa [Term.assignAttributesFrom] using f1 x
  have c6 : ∀ x, p1.attributes x = if x = env.newProg.nextTermIndex then p.attributes term else
      env.newProg.attributes x := by
    intro x
    rw [hp1]
    unfold Term.assignAttributesFrom
    rw [withAttributes_attributes]
    by_cases hx : x = env.newProg.nextTermIndex
    · rw [if_pos hx, if_pos hx, f2, if_pos rfl, assignAttributesFrom_nil]
    · rw [if_neg hx, if_neg hx, f2, if_neg hx]
  have c7 : p1.name = p.name ∧ p1.vecSize = p.vecSize ∧ p1.inputs = [] ∧ p1.outputs = [] := by
    rw [hp1]
    simp only [Term.assignAttributesFrom, Program.withAttributes]
    exact ⟨mmeta.1.trans hJ.name, mmeta.2.1.trans hJ.vec, mmeta.2.2.1.trans hJ.inputs,
      mmeta.2.2.2.trans hJ.outputs⟩
  have hterm_ne : ∀ o ∈ p.operands term, o ≠ term := fun o ho h => hnot (h ▸ hpred o ho)
  obtain ⟨q1, e1, e2, e3, e4, e5, e6, e7, e8, e9, e10, e11⟩ := addOperands_spec
    (Function.update env.oldToNew term (some env.newProg.nextTermIndex))
    (fun o => visited.indexOf o) env.newProg.nextTermIndex (p.operands term) p1 c1 c2
    (by omega)
    (fun o ho => by
      refine ⟨?_, ?_⟩
      · rw [Function.update_noteq (hterm_ne o ho)]
        exact (hJ.copy o (hpred o ho)).1
      · have := List.indexOf_lt_length.mpr (hpred o ho)
        show visited.indexOf o < p1.nextTermIndex
        rw [c3, hJ.next]; omega)
  have hidx_old : ∀ t ∈ visited, (visited ++ [term]).indexOf t = visited.indexOf t :=
    fun t ht => List.indexOf_append_of_mem ht
  have hidx_new : (visited ++ [term]).indexOf term = env.newProg.nextTermIndex := by
    rw [List.indexOf_append_of_not_mem hnot, hJ.next]
    simp
  refine ⟨{ env with newProg := q1,
                     oldToNew := Function.update env.oldToNew term
                       (some env.newProg.nextTermIndex) }, ?_, hJ.prog, ?_⟩
  · unfold DeepCopy.visit
    simp only [hJ.prog, m2]
    rw [← hp1, e1]
    rfl
  · refine ⟨hJ.prog, e2, e3, by rw [e4, c3, hJ.next]; simp, by rw [e8]; exact c7.1,
      by rw [e9]; exact c7.2.1, by rw [e10]; exact c7.2.2.1, by rw [e11]; exact c7.2.2.2,
      ?_, ?_⟩
    · intro t ht o ho
      rcases List.mem_append.mp ht with ht | ht
      · exact List.mem_append.mpr (Or.inl (hJ.closed t ht o ho))
      · simp only [List.mem_singleton] at ht
        subst ht
        exact List.mem_append.mpr (Or.inl (hpred o ho))
    · intro t ht
      have hmap : ∀ u, (∀ o ∈ p.operands u, o ∈ visited) →
          (p.operands u).map (fun o => (visited ++ [term]).indexOf o)
            = (p.operands u).map (fun o => visited.indexOf o) := by
        intro u hu
        apply List.map_congr_left
        intro o ho
        exact hidx_old o (hu o ho)
      rcases List.mem_append.mp ht with ht | ht
      · have hne : t ≠ term := fun h => hnot (h ▸ ht)
        have hlt : visited.indexOf t ≠ env.newProg.nextTermIndex := by
          have := List.indexOf_lt_length.mpr ht
          rw [hJ.next]; omega
        obtain ⟨k1, k2, k3, k4⟩ := hJ.copy t ht
        rw [hidx_old t ht, hmap t (hJ.closed t ht)]
        refine ⟨?_, ?_, ?_, ?_⟩
        · show Function.update env.oldToNew term _ t = _
          rw [Function.update_noteq hne]; exact k1
        · show q1.op _ = _
          rw [e6, c5, if_neg hlt]; exact k2
        · show q1.attributes _ = _
          rw [e7, c6, if_neg hlt]; exact k3
        · show q1.operands _ = _
          rw [e5, if_neg hlt, c4, if_neg hlt]; exact k4
      · simp only [List.mem_singleton] at ht
        subst ht
        rw [hidx_new, hmap t hpred]
        refine ⟨?_, ?_, ?_, ?_⟩
        · show Function.update env.oldToNew t _ t = _
          rw [Function.update_same]
        · show q1.op _ = _
          rw [e6, c5, if_pos rfl]
        · show q1.attributes _ = _
          rw [e7, c6, if_pos rfl]
        · show q1.operands _ = _
          rw [e5, if_pos rfl, c4, if_pos rfl]
          rfl

theorem mapAssign_fresh (m : List (String × Nat)) (name : String) (t : Nat)
    (h : ∀ e ∈ m, e.1 ≠ name) : mapAssign m name t = m ++ [(name, t)] := by
  unfold mapAssign
  rw [if_neg]
  simp only [List.any_eq_true, decide_eq_true_eq, not_exists, not_and]
  exact fun e he => h e he

/-- The loops that copy `inputs` and `outputs`. -/
theorem copyMap_spec (oldToNew : Nat → Option Nat) (f : Nat → Nat) :
    ∀ (entries m : List (String × Nat)), (entries.map Prod.fst).Nodup →
      (∀ e ∈ entries, oldToNew e.2 = some (f e.2)) →
      (∀ e ∈ entries, ∀ e1 ∈ m, e1.1 ≠ e.1) →
      DeepCopy.copyMap oldToNew entries m
        = some (m ++ entries.map (fun e => (e.1, f e.2))) := by
  intro entries
  induction entries with
  | nil => intro m _ _ _; simp [DeepCopy.copyMap]
  | cons e entries ih =>
    intro m hnd hold hfresh
    simp only [List.map_cons, List.nodup_cons] at hnd
    simp only [DeepCopy.copyMap, hold e (by simp)]
    rw [mapAssign_fresh m e.1 (f e.2) (fun e1 he1 => hfresh e (by simp) e1 he1)]
    rw [ih (m ++ [(e.1, f e.2)]) hnd.2 (fun x hx => hold x (by simp [hx]))]
    · simp
    · intro x hx e1 he1
      rcases List.mem_append.mp he1 with he1 | he1
      · exact hfresh x (by simp [hx]) e1 he1
      · simp only [List.mem_singleton] at he1
        subst he1
        intro heq
        apply hnd.1
        simp only [List.mem_map]
        exact ⟨x, hx, heq.symm⟩


theorem visited_all_length (l : List Nat) (n : Nat)
    (h : ∀ t, l.count t = if t < n then 1 else 0) :
    l.Nodup ∧ l.length = n ∧ ∀ t, t ∈ l ↔ t < n := by
  have hperm : l.Perm (List.range n) := by
    rw [List.perm_iff_count]
    intro a
    rw [h a]
    by_cases ha : a < n
    · rw [if_pos ha, List.count_eq_one_of_mem (List.nodup_range n) (List.mem_range.mpr ha)]
    · rw [if_neg ha, List.count_eq_zero_of_not_mem (by simpa using ha)]
  refine ⟨hperm.nodup_iff.mpr (List.nodup_range n), by simpa using hperm.length_eq, ?_⟩
  intro t
  rw [hperm.mem_iff, List.mem_range]

/-- The program at the `return` of `deepCopy`, before the locals are
destroyed: it has one term for each term of `p`, made in the order of the
calls of the lambda, and the map `f` of the terms of `p` onto its terms
preserves operation, attribute list and operands. -/
theorem build_isomorphic (p : Program) (fuel : Nat) (hwf : p.WellFormed) (hac : p.Acyclic)
    (hvec : (Program.construct p.name p.vecSize).isSome) (hv32 : p.vecSize < u32)
    (hin : (p.inputs.map Prod.fst).Nodup) (hout : (p.outputs.map Prod.fst).Nodup)
    (hin_lt : ∀ e ∈ p.inputs, e.2 < p.nextTermIndex)
    (hout_lt : ∀ e ∈ p.outputs, e.2 < p.nextTermIndex)
    (hfuel : p.nextTermIndex ≤ fuel) :
    ∃ (q : Program) (f : Nat → Nat), DeepCopy.build fuel p = some q ∧
      q.nextTermIndex = p.nextTermIndex ∧ q.WellFormed ∧
      (∀ t, t < p.nextTermIndex → f t < q.nextTermIndex) ∧
      (∀ t1 t2, t1 < p.nextTermIndex → t2 < p.nextTermIndex → f t1 = f t2 → t1 = t2) ∧
      (∀ i, i < q.nextTermIndex → ∃ t, t < p.nextTermIndex ∧ f t = i) ∧
      (∀ t, t < p.nextTermIndex →
        q.op (f t) = p.op t ∧ q.attributes (f t) = p.attributes t ∧
        q.operands (f t) = (p.operands t).map f) ∧
      q.name = p.name ∧ q.vecSize = p.vecSize ∧
      q.inputs = p.inputs.map (fun e => (e.1, f e.2)) ∧
      q.outputs = p.outputs.map (fun e => (e.1, f e.2)) := by
  have hnew : Program.construct p.getName p.getVecSize
      = some (Program.empty p.name p.vecSize) := by
    unfold Program.getName Program.getVecSize
    unfold Program.construct at hvec ⊢
    split
    · next h => rw [if_pos h] at hvec; simp at hvec
    · split
      · next h1 h2 => rw [if_neg h1, if_pos h2] at hvec; simp at hvec
      · rw [Nat.mod_eq_of_lt hv32]
  have hinit : DeepCopyInv p
      { program := p, newProg := Program.empty p.name p.vecSize, oldToNew := fun _ => none }
      [] := by
    refine ⟨rfl, empty_consistent _ _, ?_, rfl, rfl, rfl, rfl, rfl, by simp, by simp⟩
    exact ⟨List.nodup_nil, List.nodup_nil⟩
  obtain ⟨st, h1, _, h3, hJ, hcount, _⟩ := traverse_spec true DeepCopy.rewriter
    { program := p, newProg := Program.empty p.name p.vecSize, oldToNew := fun _ => none }
    (DeepCopyInv p)
    (fun env1 visited term _ hJ1 hnot _ hpred =>
      deepCopy_step p env1 visited term hJ1 hnot
        (fun o ho => hpred o (by simpa [predecessors] using ho)))
    hinit (dirFacts_forward p hwf.consistent hac) hwf.sets.1 fuel hfuel
  obtain ⟨vnd, vlen, vmem⟩ := visited_all_length st.visited p.nextTermIndex hcount
  have hmapi := copyMap_spec st.env.oldToNew (fun t => st.visited.indexOf t) p.inputs [] hin
    (fun e he => (hJ.copy e.2 ((vmem e.2).mpr (hin_lt e he))).1) (by simp)
  have hmapo := copyMap_spec st.env.oldToNew (fun t => st.visited.indexOf t) p.outputs [] hout
    (fun e he => (hJ.copy e.2 ((vmem e.2).mpr (hout_lt e he))).1) (by simp)
  simp only [List.nil_append] at hmapi hmapo
  have hnext : st.env.newProg.nextTermIndex = p.nextTermIndex := by rw [hJ.next, vlen]
  refine ⟨{ st.env.newProg with
      inputs := p.inputs.map (fun e => (e.1, st.visited.indexOf e.2)),
      outputs := p.outputs.map (fun e => (e.1, st.visited.indexOf e.2)) },
    fun t => st.visited.indexOf t, ?_, hnext, ?_, ?_, ?_, ?_, ?_, hJ.name, hJ.vec, rfl, rfl⟩
  · unfold DeepCopy.build
    rw [hnew]
    dsimp only
    have h1a : forwardPass DeepCopy.rewriter fuel
        { program := p, newProg := Program.empty p.name p.vecSize, oldToNew := fun _ => none }
        = some st := h1
    rw [h1a]
    dsimp only
    rw [hmapi, hmapo]
  · exact wellFormed_withMaps _ _ _ ⟨hJ.cons, hJ.sets⟩
  · intro t ht
    show st.visited.indexOf t < st.env.newProg.nextTermIndex
    rw [hJ.next]
    exact List.indexOf_lt_length.mpr ((vmem t).mpr ht)
  · intro t1 t2 ht1 ht2 heq
    exact (List.indexOf_inj ((vmem t1).mpr ht1) ((vmem t2).mpr ht2)).mp heq
  · intro i hi
    have hi1 : i < st.visited.length := by
      have : i < st.env.newProg.nextTermIndex := hi
      rw [hJ.next] at this
      exact this
    refine ⟨st.visited[i], (vmem _).mp (List.getElem_mem hi1), ?_⟩
    exact List.indexOf_getElem vnd i hi1
  · intro t ht
    obtain ⟨_, k2, k3, k4⟩ := hJ.copy t ((vmem t).mpr ht)
    exact ⟨k2, k3, k4⟩


theorem release_of_held (fuel : Nat) (q : Program) (t : Nat)
    (h : ∀ x ∈ q.sinks, q.holds x = true) : Program.release fuel q t = q := by
  cases fuel with
  | zero => rfl
  | succ n =>
    have hc : ¬ (t ∈ q.sinks ∧ q.holds t = false) := by
      intro hx
      have := h t hx.1
      rw [hx.2] at this
      exact Bool.false_ne_true this
    simp only [Program.release, if_neg hc]

theorem releaseAll_of_held (q : Program) (h : ∀ x ∈ q.sinks, q.holds x = true) :
    q.releaseAll = q := by
  unfold Program.releaseAll
  generalize q.nextTermIndex = n
  generalize List.range n = l
  induction l with
  | nil => rfl
  | cons a l ih =>
    rw [List.foldl_cons, release_of_held n q a h]
    exact ih

/-- C24: for a well-formed acyclic program `p` whose vector size the
constructor accepts, whose `inputs` and `outputs` maps have one entry per
name, each for a term of `p`, and in which every term that no term uses is in
the map `inputs` or in the map `outputs`, `deepCopy` returns a program `q` (as
many calls of the loop as `p` has terms suffice) with as many terms as `p` and
a map `f` of the terms of `p` onto the terms of `q`, one to one, such that the
term `f t` has the operation and the attribute list of `t` and, in order, the
images of the operands of `t` as operands; `q` has the name and the vector
size of `p`, and its `inputs` and `outputs` maps send each name to the image
of the term the name has in `p`. -/
theorem deepCopy_isomorphic (p : Program) (fuel : Nat) (hwf : p.WellFormed) (hac : p.Acyclic)
    (hvec : (Program.construct p.name p.vecSize).isSome) (hv32 : p.vecSize < u32)
    (hin : (p.inputs.map Prod.fst).Nodup) (hout : (p.outputs.map Prod.fst).Nodup)
    (hin_lt : ∀ e ∈ p.inputs, e.2 < p.nextTermIndex)
    (hout_lt : ∀ e ∈ p.outputs, e.2 < p.nextTermIndex)
    (hheld : ∀ t ∈ p.sinks, p.holds t = true)
    (hfuel : p.nextTermIndex ≤ fuel) :
    ∃ (q : Program) (f : Nat → Nat), p.deepCopy fuel = some q ∧
      q.nextTermIndex = p.nextTermIndex ∧ q.WellFormed ∧
      (∀ t, t < p.nextTermIndex → f t < q.nextTermIndex) ∧
      (∀ t1 t2, t1 < p.nextTermIndex → t2 < p.nextTermIndex → f t1 = f t2 → t1 = t2) ∧
      (∀ i, i < q.nextTermIndex → ∃ t, t < p.nextTermIndex ∧ f t = i) ∧
      (∀ t, t < p.nextTermIndex →
        q.op (f t) = p.op t ∧ q.attributes (f t) = p.attributes t ∧
        q.operands (f t) = (p.operands t).map f) ∧
      q.name = p.name ∧ q.vecSize = p.vecSize ∧
      q.inputs = p.inputs.map (fun e => (e.1, f e.2)) ∧
      q.outputs = p.outputs.map (fun e => (e.1, f e.2)) := by
  obtain ⟨q, f, hb, hnext, hqwf, hlt, hinj, hsurj, hcopy, hname, hvs, hqi, hqo⟩ :=
    build_isomorphic p fuel hwf hac hvec hv32 hin hout hin_lt hout_lt hfuel
  have hq : ∀ x ∈ q.sinks, q.holds x = true := by
    intro x hx
    obtain ⟨hxlt, hxu⟩ := (hqwf.consistent.snk x).mp hx
    obtain ⟨t, ht, hft⟩ := hsurj x hxlt
    have hpu : p.uses t = [] := by
      by_contra hne
      obtain ⟨u, hu⟩ := List.exists_mem_of_ne_nil _ hne
      have hult := (hwf.consistent.use_lt hu).2
      have hto : t ∈ p.operands u := by
        have h1 : 0 < (p.uses t).count u := List.count_pos_iff.mpr hu
        rw [← hwf.consistent.sym u t] at h1
        exact List.count_pos_iff.mp h1
      have hxo : x ∈ q.operands (f u) := by
        rw [(hcopy u hult).2.2, ← hft]
        exact List.mem_map_of_mem f hto
      have h2 : 0 < (q.operands (f u)).count x := List.count_pos_iff.mpr hxo
      rw [hqwf.consistent.sym (f u) x, hxu] at h2
      simp at h2
    have hts : t ∈ p.sinks := (hwf.consistent.snk t).mpr ⟨ht, hpu⟩
    have hh := hheld t hts
    unfold Program.holds at hh ⊢
    rw [hqi, hqo]
    rw [Bool.or_eq_true] at hh ⊢
    rcases hh with hh | hh
    · left
      rw [List.any_eq_true] at hh ⊢
      obtain ⟨e, he, het⟩ := hh
      refine ⟨(e.1, f e.2), List.mem_map_of_mem _ he, ?_⟩
      have : e.2 = t := by simpa using het
      simp [this, hft]
    · right
      rw [List.any_eq_true] at hh ⊢
      obtain ⟨e, he, het⟩ := hh
      refine ⟨(e.1, f e.2), List.mem_map_of_mem _ he, ?_⟩
      have : e.2 = t := by simpa using het
      simp [this, hft]
  refine ⟨q, f, ?_, hnext, hqwf, hlt, hinj, hsurj, hcopy, hname, hvs, hqi, hqo⟩
  unfold Program.deepCopy
  rw [hb, Option.map_some', releaseAll_of_held q hq]

theorem typedSampleMaps_wellFormed : typedSampleMaps.WellFormed :=
  wellFormed_withMaps _ _ _ typedSample_wellFormed

theorem typedSampleMaps_acyclic : typedSampleMaps.Acyclic := typedSample_acyclic

set_option maxHeartbeats 4000000 in
set_option maxRecDepth 100000 in
/-- Counterexample to C24 as stated, on `typedSampleMaps`, a well-formed
acyclic program of six terms whose vector size the constructor accepts and
whose maps have one entry per name, each for a term of the program, in which
no term uses the `Negate` (term 4) and no map holds it: in the program
`deepCopy` returns, the term made for the `Negate` (term 1 of the copy) has
been destroyed with the local `oldToNew`; it is neither in `sources` nor in
`sinks`, no term of the copy has the operation `Negate`, and no map of the
terms of `typedSampleMaps` to the terms of the copy preserves the
operation. -/
theorem deepCopy_drops_unheld_term :
    typedSampleMaps.WellFormed ∧ typedSampleMaps.Acyclic ∧
    ((Program.construct typedSampleMaps.name typedSampleMaps.vecSize).isSome ∧
      typedSampleMaps.vecSize < u32 ∧
      (typedSampleMaps.inputs.map Prod.fst).Nodup ∧
      (typedSampleMaps.outputs.map Prod.fst).Nodup ∧
      (∀ e ∈ typedSampleMaps.inputs, e.2 < typedSampleMaps.nextTermIndex) ∧
      (∀ e ∈ typedSampleMaps.outputs, e.2 < typedSampleMaps.nextTermIndex)) ∧
    typedSampleMaps.nextTermIndex = 6 ∧ typedSampleMaps.op 4 = Op.Negate ∧
    typedSampleMaps.uses 4 = [] ∧ typedSampleMaps.holds 4 = false ∧
    ∃ q, typedSampleMaps.deepCopy 6 = some q ∧ q.nextTermIndex = 6 ∧
      (List.range 6).map q.op
        = [Op.Constant, Op.Undef, Op.Encode, Op.Input, Op.Mul, Op.Output] ∧
      q.sources = [0, 3] ∧ q.sinks = [5] ∧
      ¬ ∃ f : Nat → Nat, ∀ t, t < typedSampleMaps.nextTermIndex →
          f t < q.nextTermIndex ∧ q.op (f t) = typedSampleMaps.op t := by
  refine ⟨typedSampleMaps_wellFormed, typedSampleMaps_acyclic,
    ⟨by decide!, by decide!, by decide!, by decide!, by decide!, by decide!⟩,
    by decide!, by decide!, by decide!, by decide!, ?_⟩
  have hs : (typedSampleMaps.deepCopy 6).isSome = true := by decide!
  obtain ⟨q, hq⟩ := Option.isSome_iff_exists.mp hs
  have h1 : (typedSampleMaps.deepCopy 6).map (fun q => q.nextTermIndex) = some 6 := by decide!
  have h2 : (typedSampleMaps.deepCopy 6).map (fun q => (List.range 6).map q.op)
      = some [Op.Constant, Op.Undef, Op.Encode, Op.Input, Op.Mul, Op.Output] := by decide!
  have h3 : (typedSampleMaps.deepCopy 6).map (fun q => (q.sources, q.sinks))
      = some ([0, 3], [5]) := by decide!
  rw [hq] at h1 h2 h3
  simp only [Option.map_some', Option.some.injEq, Prod.mk.injEq] at h1 h2 h3
  refine ⟨q, hq, h1, h2, h3.1, h3.2, ?_⟩
  rintro ⟨f, hf⟩
  obtain ⟨hlt, hop⟩ := hf 4 (by decide!)
  rw [h1] at hlt
  have hn : typedSampleMaps.op 4 = Op.Negate := by decide!
  rw [hn] at hop
  have hall : ∀ i, i < 6 → ((List.range 6).map q.op).getD i Op.Undef = q.op i := by
    intro i hi
    interval_cases i <;> rfl
  have := hall (f 4) hlt
  rw [h2, hop] at this
  generalize f 4 = i at hlt this
  interval_cases i <;> exact absurd this (by decide)

/-- Witness of C24 on `plainMinusCipher`: the terms are copied in the order
1, 0, 2, 3, so that the copy of the `Sub` (term 2) reads `[0, 1]`, and the maps
send `x` to 1, `l` to 0 and `y` to 3. -/
theorem deepCopy_isomorphic_witness :
    (plainMinusCipher.deepCopy 4).map (fun q => (q.nextTermIndex, q.operands 2, q.op 2))
      = some (4, [0, 1], Op.Sub) ∧
    (plainMinusCipher.deepCopy 4).map (fun q => (q.inputs, q.outputs, q.name, q.vecSize))
      = some ([("x", 1), ("l", 0)], [("y", 3)], "lower", 2) ∧
    ∃ (q : Program) (f : Nat → Nat), plainMinusCipher.deepCopy 4 = some q ∧
      q.nextTermIndex = plainMinusCipher.nextTermIndex ∧
      (∀ t, t < plainMinusCipher.nextTermIndex →
        q.op (f t) = plainMinusCipher.op t ∧
        q.attributes (f t) = plainMinusCipher.attributes t ∧
        q.operands (f t) = (plainMinusCipher.operands t).map f) :=
  ⟨by decide!, by decide!,
   have h := deepCopy_isomorphic plainMinusCipher 4 plainMinusCipher_wellFormed
     plainMinusCipher_acyclic (by decide!) (by decide!) (by decide!) (by decide!) (by decide!)
     (by decide!) (by decide!) (by decide!)
   h.elim fun q hq => hq.elim fun f hf => ⟨q, f, hf.1, hf.2.1, hf.2.2.2.2.2.2.1⟩⟩


theorem traverseLoop_guarded {σ : Type} (isForward : Bool) (R : Rewriter σ) :
    ∀ (fuel : Nat) (st st1 : TraversalState σ),
      traverseLoop isForward R fuel st = some st1 →
      traverseLoop isForward R.guarded fuel st.guarded = some st1.guarded := by
  intro fuel
  induction fuel with
  | zero =>
    intro st st1 h
    simp only [traverseLoop] at h ⊢
    by_cases hr : st.readyNodes = []
    · rw [if_pos hr] at h
      simp only [Option.some.injEq] at h
      subst h
      have : st.guarded.readyNodes = [] := hr
      rw [if_pos this]
    · rw [if_neg hr] at h
      exact Option.noConfusion h
  | succ fuel ih =>
    intro st st1 h
    cases hr : st.readyNodes with
    | nil =>
      simp only [traverseLoop, hr] at h
      simp only [Option.some.injEq] at h
      subst h
      have : st.guarded.readyNodes = [] := hr
      simp only [traverseLoop, this]
    | cons term rest =>
      have hg : st.guarded.readyNodes = term :: rest := hr
      simp only [traverseLoop, hr] at h
      simp only [traverseLoop, hg]
      cases hv : traverseVisit isForward R st term rest with
      | none => rw [hv] at h; exact Option.noConfusion h
      | some st2 =>
        rw [hv] at h
        have hv2 : traverseVisit isForward R.guarded st.guarded term rest = some st2.guarded := by
          unfold traverseVisit at hv ⊢
          cases hrw : R.rewrite st.env term with
          | none => rw [hrw] at hv; exact Option.noConfusion hv
          | some env =>
            rw [hrw] at hv
            simp only [Option.some.injEq] at hv
            subst hv
            simp only [Rewriter.guarded, TraversalState.guarded, hrw]
        rw [hv2]
        exact ih st2 st1 h

/-- A pass of a rewriter that may throw: when the pass returns, every term has
been logged once and an invariant `J` that every call that returns
re-establishes holds at the end. -/
theorem traverse_checked {σ : Type} (isForward : Bool) (R : Rewriter σ) (env : σ)
    (J : σ → List Nat → Prop)
    (hprog : ∀ env1 term env2, R.rewrite env1 term = some env2 →
      R.program env2 = R.program env1)
    (hR : ∀ env1 visited term env2, R.program env1 = R.program env → J env1 visited →
      term ∉ visited → term < (R.program env).nextTermIndex →
      (∀ o ∈ predecessors isForward (R.program env) term, o ∈ visited) →
      R.rewrite env1 term = some env2 → J env2 (visited ++ [term]))
    (hJ : J env []) (hd : DirFacts isForward (R.program env))
    (hnd : (leaves isForward (R.program env)).Nodup) (fuel : Nat)
    (hfuel : (R.program env).nextTermIndex ≤ fuel) (st : TraversalState σ)
    (hst : traverse isForward R fuel env = some st) :
    J st.env st.visited ∧
      ∀ t, st.visited.count t = if t < (R.program env).nextTermIndex then 1 else 0 := by
  obtain ⟨st1, h1, _, _, h4, h5, _⟩ := traverse_spec isForward R.guarded (env, true)
    (fun s visited => s.2 = true → J s.1 visited)
    (fun env1 visited term hp hJ1 hnot hlt hpred => by
      cases hrw : R.rewrite env1.1 term with
      | none =>
        refine ⟨(env1.1, false), ?_, hp, ?_⟩
        · simp only [Rewriter.guarded, hrw]
        · intro h; exact absurd h (by simp)
      | some env2 =>
        refine ⟨(env2, env1.2), ?_, ?_, ?_⟩
        · simp only [Rewriter.guarded, hrw]
        · show R.program env2 = _
          rw [hprog env1.1 term env2 hrw]
          exact hp
        · intro hb
          exact hR env1.1 visited term env2 hp (hJ1 hb) hnot hlt hpred hrw)
    (fun _ => hJ) hd hnd fuel hfuel
  have h2 : traverse isForward R.guarded fuel (env, true) = some st.guarded := by
    unfold traverse at hst ⊢
    exact traverseLoop_guarded isForward R fuel _ st hst
  rw [h2] at h1
  simp only [Option.some.injEq] at h1
  subst h1
  exact ⟨h4 rfl, h5⟩


theorem sumAt_eq (scales : TermMapOptional) (s : Nat → Nat) :
    ∀ (ops : List Nat) (acc : Nat), acc < u32 → (∀ o ∈ ops, scales o = some (s o)) →
      ScalesChecker.sumAt scales ops acc = some ((acc + (ops.map s).sum) % u32) := by
  intro ops
  induction ops with
  | nil =>
    intro acc hacc _
    simp [ScalesChecker.sumAt, Nat.mod_eq_of_lt hacc]
  | cons o ops ih =>
    intro acc hacc h
    have ho : scales.at o = some (s o) := h o (by simp)
    simp only [ScalesChecker.sumAt, ho]
    rw [ih (add32 acc (s o)) (Nat.mod_lt _ (by unfold u32; norm_num))
      (fun x hx => h x (by simp [hx]))]
    simp only [add32, List.map_cons, List.sum_cons, Nat.mod_add_mod, Nat.add_assoc]

theorem sameAt_eq (scales : TermMapOptional) (s : Nat → Nat) :
    ∀ (ops : List Nat) (c : Nat), c ≠ 0 → (∀ o ∈ ops, scales o = some (s o)) →
      ScalesChecker.sameAt scales ops c = if ∀ o ∈ ops, s o = c then some c else none := by
  intro ops
  induction ops with
  | nil => intro c _ _; simp [ScalesChecker.sameAt]
  | cons o ops ih =>
    intro c hc h
    have ho : scales.at o = some (s o) := h o (by simp)
    simp only [ScalesChecker.sameAt, ho, if_neg hc]
    by_cases heq : c = s o
    · rw [if_neg (by simpa using heq), ih c hc (fun x hx => h x (by simp [hx]))]
      by_cases hall : ∀ x ∈ ops, s x = c
      · rw [if_pos hall, if_pos]
        intro x hx
        rcases List.mem_cons.mp hx with rfl | hx
        · exact heq.symm
        · exact hall x hx
      · rw [if_neg hall, if_neg]
        intro hall2
        exact hall (fun x hx => hall2 x (by simp [hx]))
    · rw [if_pos (by simpa using heq), if_neg]
      intro hall
      exact heq (hall o (by simp)).symm

/-- What a call of `ScalesChecker` does in a forward pass, on a term that is
not `Raw`: it returns exactly when the re-derived scale is not zero and, for an
`Add` or `Sub`, the operands have that scale, and it records the scale. -/
theorem scalesChecker_visit_eq (p : Program) (ty : Nat → TermType) (s : Nat → Nat)
    (hops : ∀ t, t < p.nextTermIndex → ty t ≠ TermType.Raw →
      ¬ (p.op t = Op.Input ∨ p.op t = Op.Encode) → ∀ o ∈ p.operands t, ty o ≠ TermType.Raw)
    (hrule : ∀ t, t < p.nextTermIndex → ty t ≠ TermType.Raw → ScaleRule p s t)
    (env : ScalesChecker) (visited : List Nat) (term : Nat)
    (hJ : ScalesCheckerInv p ty s env visited) (hlt : term < p.nextTermIndex)
    (hpred : ∀ o ∈ p.operands term, o ∈ visited) (hty : ty term ≠ TermType.Raw) :
    ∃ flag, env.visit term
      = if s term ≠ 0 ∧ (isAdditionOp (p.op term) = true → ∀ o ∈ p.operands term, s o = s term)
        then some { env with scales := env.scales.assign term (s term), ok := flag }
        else none := by
  obtain ⟨hp, hty0, hvis⟩ := hJ
  have hr := hrule term hlt hty
  unfold ScaleRule at hr
  have hcond : ¬ env.types term = TermType.Raw := by rw [hty0]; exact hty
  unfold ScalesChecker.visit
  rw [if_neg hcond, hp]
  dsimp only
  by_cases h1 : p.op term = Op.Input ∨ p.op term = Op.Encode
  · rw [if_pos h1] at hr
    rw [if_pos h1, hr]
    have hadd : ¬ isAdditionOp (p.op term) = true := by
      rcases h1 with h | h <;> simp [isAdditionOp, h]
    refine ⟨env.ok, ?_⟩
    dsimp only
    by_cases hz : s term = 0
    · rw [if_pos hz, if_neg (by simp [hz])]
    · rw [if_neg hz, if_pos ⟨hz, fun h => absurd h hadd⟩]
  · have hsc : ∀ o ∈ p.operands term, env.scales o = some (s o) ∧ s o ≠ 0 := by
      intro o ho
      obtain ⟨k1, k2, _⟩ := hvis o (hpred o ho) (hops term hlt hty h1 o ho)
      exact ⟨k1, k2⟩
    rw [if_neg h1] at hr
    rw [if_neg h1]
    by_cases h2 : p.op term = Op.Mul
    · rw [if_pos h2] at hr
      rw [if_pos h2, sumAt_eq env.scales s _ 0 (by unfold u32; norm_num)
        (fun o ho => (hsc o ho).1)]
      have hadd : ¬ isAdditionOp (p.op term) = true := by simp [isAdditionOp, h2]
      refine ⟨env.ok && decide ((p.operands term).length = 2), ?_⟩
      simp only [Nat.zero_add]
      rw [← hr]
      by_cases hz : s term = 0
      · rw [if_pos hz, if_neg (by simp [hz])]
      · rw [if_neg hz, if_pos ⟨hz, fun h => absurd h hadd⟩]
    · rw [if_neg h2] at hr
      rw [if_neg h2]
      by_cases h3 : p.op term = Op.Rescale
      · rw [if_pos h3] at hr
        obtain ⟨o, rest, d, e1, e2, e3⟩ := hr
        unfold rescaleDivisorOf at e2
        have hat : p.operandAt term 0 = some o := by simp [Program.operandAt, e1]
        have hso : env.scales.at o = some (s o) := (hsc o (by rw [e1]; simp)).1
        rw [if_pos h3, e2]
        dsimp only
        rw [hat]
        dsimp only
        rw [hso]
        dsimp only
        have hadd : ¬ isAdditionOp (p.op term) = true := by simp [isAdditionOp, h3]
        refine ⟨env.ok && decide ((p.operands term).length = 1), ?_⟩
        rw [← e3]
        by_cases hz : s term = 0
        · rw [if_pos hz, if_neg (by simp [hz])]
        · rw [if_neg hz, if_pos ⟨hz, fun h => absurd h hadd⟩]
      · rw [if_neg h3] at hr
        obtain ⟨o, rest, e1, e2⟩ := hr
        have hso := hsc o (by rw [e1]; simp)
        rw [if_neg h3]
        by_cases h4 : isAdditionOp (p.op term) = true
        · rw [if_pos h4, e1]
          have hso1 : env.scales.at o = some (s o) := hso.1
          simp only [ScalesChecker.sameAt, hso1, if_true]
          rw [sameAt_eq env.scales s rest (s o) hso.2
            (fun x hx => (hsc x (by rw [e1]; simp [hx])).1)]
          refine ⟨env.ok, ?_⟩
          by_cases hall : ∀ x ∈ rest, s x = s o
          · rw [if_pos hall]
            dsimp only
            rw [if_neg hso.2, if_pos, e2]
            refine ⟨by rw [e2]; exact hso.2, fun _ x hx => ?_⟩
            rw [e2]
            rcases List.mem_cons.mp hx with rfl | hx
            · rfl
            · exact hall x hx
          · rw [if_neg hall]
            dsimp only
            rw [if_neg]
            rintro ⟨_, hall2⟩
            apply hall
            intro x hx
            rw [← e2]
            exact hall2 h4 x (by simp [hx])
        · rw [if_neg h4]
          have hat : p.operandAt term 0 = some o := by simp [Program.operandAt, e1]
          have hso1 : env.scales.at o = some (s o) := hso.1
          rw [hat]
          dsimp only
          rw [hso1]
          dsimp only
          refine ⟨env.ok, ?_⟩
          rw [← e2]
          by_cases hz : s term = 0
          · rw [if_pos hz, if_neg (by simp [hz])]
          · rw [if_neg hz, if_pos ⟨hz, fun h => absurd h h4⟩]

theorem scalesChecker_visit_program (env env2 : ScalesChecker) (term : Nat)
    (hv : env.visit term = some env2) : env2.program = env.program := by
  unfold ScalesChecker.visit at hv
  dsimp only at hv
  split_ifs at hv
  · simp only [Option.some.injEq] at hv; subst hv; rfl
  · cases h : AttributeList.getUInt32 (env.program.attributes term) EncodeAtScaleAttribute with
    | none => rw [h] at hv; exact Option.noConfusion hv
    | some x =>
      rw [h] at hv
      dsimp only at hv
      split_ifs at hv
      simp only [Option.some.injEq] at hv; subst hv; rfl
  · cases h : ScalesChecker.sumAt env.scales (env.program.operands term) 0 with
    | none => rw [h] at hv; exact Option.noConfusion hv
    | some x =>
      rw [h] at hv
      dsimp only at hv
      split_ifs at hv
      simp only [Option.some.injEq] at hv; subst hv; rfl
  · cases h : AttributeList.getUInt32 (env.program.attributes term) RescaleDivisorAttribute with
    | none => rw [h] at hv; exact Option.noConfusion hv
    | some d =>
      rw [h] at hv
      dsimp only at hv
      cases h1 : env.program.operandAt term 0 with
      | none => rw [h1] at hv; exact Option.noConfusion hv
      | some o =>
        rw [h1] at hv
        dsimp only at hv
        cases h2 : env.scales.at o with
        | none => rw [h2] at hv; exact Option.noConfusion hv
        | some x =>
          rw [h2] at hv
          dsimp only at hv
          split_ifs at hv
          simp only [Option.some.injEq] at hv; subst hv; rfl
  · cases h : ScalesChecker.sameAt env.scales (env.program.operands term) 0 with
    | none => rw [h] at hv; exact Option.noConfusion hv
    | some x =>
      rw [h] at hv
      dsimp only at hv
      split_ifs at hv
      simp only [Option.some.injEq] at hv; subst hv; rfl
  · cases h1 : env.program.operandAt term 0 with
    | none => rw [h1] at hv; exact Option.noConfusion hv
    | some o =>
      rw [h1] at hv
      dsimp only at hv
      cases h2 : env.scales.at o with
      | none => rw [h2] at hv; exact Option.noConfusion hv
      | some x =>
        rw [h2] at hv
        dsimp only at hv
        split_ifs at hv
        simp only [Option.some.injEq] at hv; subst hv; rfl

/-- A call of `ScalesChecker` that returns keeps `ScalesCheckerInv`. -/
theorem scalesChecker_step (p : Program) (ty : Nat → TermType) (s : Nat → Nat)
    (hops : ∀ t, t < p.nextTermIndex → ty t ≠ TermType.Raw →
      ¬ (p.op t = Op.Input ∨ p.op t = Op.Encode) → ∀ o ∈ p.operands t, ty o ≠ TermType.Raw)
    (hrule : ∀ t, t < p.nextTermIndex → ty t ≠ TermType.Raw → ScaleRule p s t)
    (env : ScalesChecker) (visited : List Nat) (term : Nat) (env2 : ScalesChecker)
    (hJ : ScalesCheckerInv p ty s env visited) (hnot : term ∉ visited)
    (hlt : term < p.nextTermIndex) (hpred : ∀ o ∈ p.operands term, o ∈ visited)
    (hv : env.visit term = some env2) :
    env2.program = env.program ∧ ScalesCheckerInv p ty s env2 (visited ++ [term]) := by
  by_cases hty : ty term = TermType.Raw
  · have : env.visit term = some env := by
      unfold ScalesChecker.visit
      rw [if_pos (by rw [hJ.2.1]; exact hty)]
    rw [this] at hv
    simp only [Option.some.injEq] at hv
    subst hv
    refine ⟨rfl, hJ.1, hJ.2.1, ?_⟩
    intro t ht htr
    rcases List.mem_append.mp ht with ht | ht
    · exact hJ.2.2 t ht htr
    · simp only [List.mem_singleton] at ht
      subst ht
      exact absurd hty htr
  · obtain ⟨flag, heq⟩ := scalesChecker_visit_eq p ty s hops hrule env visited term hJ hlt
      hpred hty
    rw [heq] at hv
    split at hv
    · next hc =>
      simp only [Option.some.injEq] at hv
      subst hv
      refine ⟨rfl, hJ.1, hJ.2.1, ?_⟩
      intro t ht htr
      rcases List.mem_append.mp ht with ht | ht
      · have hne : t ≠ term := fun h => hnot (h ▸ ht)
        obtain ⟨k1, k2, k3⟩ := hJ.2.2 t ht htr
        refine ⟨?_, k2, k3⟩
        show (env.scales.assign term (s term)) t = _
        unfold TermMapOptional.assign
        rw [Function.update_noteq hne]
        exact k1
      · simp only [List.mem_singleton] at ht
        subst ht
        refine ⟨?_, hc.1, hc.2⟩
        show (env.scales.assign t (s t)) t = _
        unfold TermMapOptional.assign
        rw [Function.update_same]
    · exact Option.noConfusion hv

/-- C23: a forward pass of `ScalesChecker` over a well-formed acyclic program
in which the operands of a term that is not `Raw`, other than an `Input` or an
`Encode`, are not `Raw`, and in which `s` gives every term that is not `Raw` the
scale re-derived by the rule (`Input` and `Encode` read
`EncodeAtScaleAttribute`, `Mul` is the sum of the scales of its operands,
`Rescale` is the scale of its operand minus `RescaleDivisorAttribute`, both on
32 bits, any other operation takes the scale of its first operand).  The pass
raises an error if and only if some re-derived scale is zero or some `Add` or
`Sub` has two operands with different re-derived scales; otherwise it returns,
with the re-derived scale of every term that is not `Raw` recorded. -/
theorem scalesChecker_raises_iff (p : Program) (ty : Nat → TermType) (s : Nat → Nat)
    (hwf : p.WellFormed) (hac : p.Acyclic)
    (hops : ∀ t, t < p.nextTermIndex → ty t ≠ TermType.Raw →
      ¬ (p.op t = Op.Input ∨ p.op t = Op.Encode) → ∀ o ∈ p.operands t, ty o ≠ TermType.Raw)
    (hrule : ∀ t, t < p.nextTermIndex → ty t ≠ TermType.Raw → ScaleRule p s t)
    (fuel : Nat) (hfuel : p.nextTermIndex ≤ fuel) :
    (forwardPass ScalesChecker.rewriter fuel (ScalesChecker.init p ty) = none
      ↔ ScalesBad p ty s) ∧
    (¬ ScalesBad p ty s →
      ∃ st, forwardPass ScalesChecker.rewriter fuel (ScalesChecker.init p ty) = some st ∧
        ∀ t, t < p.nextTermIndex → ty t ≠ TermType.Raw → st.env.scales t = some (s t)) := by
  have hinit : ScalesCheckerInv p ty s (ScalesChecker.init p ty) [] :=
    ⟨rfl, rfl, by simp⟩
  have hgood : ¬ ScalesBad p ty s →
      ∃ st, forwardPass ScalesChecker.rewriter fuel (ScalesChecker.init p ty) = some st ∧
        ∀ t, t < p.nextTermIndex → ty t ≠ TermType.Raw → st.env.scales t = some (s t) := by
    intro hno
    obtain ⟨st, h1, _, _, hJ, hcount, _⟩ := traverse_spec true ScalesChecker.rewriter
      (ScalesChecker.init p ty) (ScalesCheckerInv p ty s)
      (fun env1 visited term _ hJ1 hnot hlt hpred => by
        have hpred1 : ∀ o ∈ p.operands term, o ∈ visited :=
          fun o ho => hpred o (by simpa [predecessors] using ho)
        have hsome : ∃ env2, ScalesChecker.visit env1 term = some env2 := by
          by_cases hty : ty term = TermType.Raw
          · refine ⟨env1, ?_⟩
            unfold ScalesChecker.visit
            rw [if_pos (by rw [hJ1.2.1]; exact hty)]
          · obtain ⟨flag, heq⟩ := scalesChecker_visit_eq p ty s hops hrule env1 visited term
              hJ1 hlt hpred1 hty
            rw [heq, if_pos]
            · exact ⟨_, rfl⟩
            · refine ⟨fun hz => hno ⟨term, hlt, hty, Or.inl hz⟩, ?_⟩
              intro hadd o ho
              by_contra hne
              have hr := hrule term hlt hty
              unfold ScaleRule at hr
              have n1 : ¬ (p.op term = Op.Input ∨ p.op term = Op.Encode) := by
                rintro (h | h) <;> simp [isAdditionOp, h] at hadd
              have n2 : ¬ p.op term = Op.Mul := by
                intro h; simp [isAdditionOp, h] at hadd
              have n3 : ¬ p.op term = Op.Rescale := by
                intro h; simp [isAdditionOp, h] at hadd
              rw [if_neg n1, if_neg n2, if_neg n3] at hr
              obtain ⟨o1, rest, e1, e2⟩ := hr
              exact hno ⟨term, hlt, hty, Or.inr ⟨hadd, o, ho, o1, by rw [e1]; simp,
                by rw [← e2]; exact hne⟩⟩
        obtain ⟨env2, hv⟩ := hsome
        obtain ⟨k1, k2⟩ := scalesChecker_step p ty s hops hrule env1 visited term env2 hJ1 hnot
          hlt hpred1 hv
        exact ⟨env2, hv, by
          show env2.program = p
          rw [k1]; exact hJ1.1, k2⟩)
      hinit (dirFacts_forward p hwf.consistent hac) hwf.sets.1 fuel hfuel
    refine ⟨st, h1, ?_⟩
    intro t ht htr
    have hc := hcount t
    have ht1 : t < (ScalesChecker.rewriter.program (ScalesChecker.init p ty)).nextTermIndex := ht
    rw [if_pos ht1] at hc
    exact (hJ.2.2 t (List.count_pos_iff.mp (by omega)) htr).1
  refine ⟨⟨?_, ?_⟩, hgood⟩
  · intro hnone
    by_contra hno
    obtain ⟨st, h1, _⟩ := hgood hno
    rw [hnone] at h1
    exact Option.noConfusion h1
  · rintro ⟨t, ht, htr, hbad⟩
    cases hpass : forwardPass ScalesChecker.rewriter fuel (ScalesChecker.init p ty) with
    | none => rfl
    | some st =>
      exfalso
      obtain ⟨hJ, hcount⟩ := traverse_checked true ScalesChecker.rewriter
        (ScalesChecker.init p ty) (ScalesCheckerInv p ty s)
        (fun env1 term env2 hv => scalesChecker_visit_program env1 env2 term hv)
        (fun env1 visited term env2 hp hJ1 hnot hlt hpred hv =>
          (scalesChecker_step p ty s hops hrule env1 visited term env2 hJ1 hnot hlt
            (fun o ho => hpred o (by simpa [predecessors] using ho)) hv).2)
        hinit (dirFacts_forward p hwf.consistent hac) hwf.sets.1 fuel hfuel st hpass
      have hc := hcount t
      have ht1 : t < (ScalesChecker.rewriter.program (ScalesChecker.init p ty)).nextTermIndex :=
        ht
      rw [if_pos ht1] at hc
      obtain ⟨_, k2, k3⟩ := hJ.2.2 t (List.count_pos_iff.mp (by omega)) htr
      rcases hbad with hz | ⟨hadd, o1, ho1, o2, ho2, hne⟩
      · exact k2 hz
      · exact hne ((k3 hadd o1 ho1).trans (k3 hadd o2 ho2).symm)


theorem sumOfProduct_wellFormed (c : Nat) : (sumOfProduct c).WellFormed := by
  unfold sumOfProduct
  apply wellFormed_setAttribute
  apply wellFormed_setAttribute
  apply wellFormed_setAttribute
  exact run_wellFormed "sumOfProduct" 8 _ _ (run_eq_foldl _ _ (by decide!))

theorem sumOfProduct_graph (c : Nat) :
    (sumOfProduct c).nextTermIndex = 6 ∧
    (∀ t, (sumOfProduct c).operands t = (sumOfProduct 0).operands t) ∧
    (∀ t, (sumOfProduct c).op t = (sumOfProduct 0).op t) := by
  refine ⟨rfl, fun t => ?_, fun t => ?_⟩
  · simp only [sumOfProduct, setAttribute_operands]
  · simp only [sumOfProduct, setAttribute_op]

theorem sumOfProduct_acyclic (c : Nat) : (sumOfProduct c).Acyclic := by
  refine ⟨fun x => x, ?_⟩
  intro t o ho
  have hlt := ((sumOfProduct_wellFormed c).consistent.operand_lt ho).1
  rw [(sumOfProduct_graph c).1] at hlt
  rw [(sumOfProduct_graph c).2.1] at ho
  have hb : ∀ t, t < 6 → ∀ o ∈ (sumOfProduct 0).operands t, o < t := by decide!
  exact hb t hlt o ho

theorem sumOfProduct_rule (c : Nat) (hc : c = 30 ∨ c = 60) :
    ∀ t, t < (sumOfProduct c).nextTermIndex → ScaleRule (sumOfProduct c) (sumOfProductScales c) t := by
  intro t ht
  rw [(sumOfProduct_graph c).1] at ht
  unfold ScaleRule
  rcases hc with rfl | rfl
  · interval_cases t
    · rw [if_pos (by decide!)]; decide!
    · rw [if_pos (by decide!)]; decide!
    · rw [if_pos (by decide!)]; decide!
    · rw [if_neg (by decide!), if_pos (by decide!)]; decide!
    · rw [if_neg (by decide!), if_neg (by decide!), if_neg (by decide!)]
      exact ⟨3, [2], by decide!, by decide!⟩
    · rw [if_neg (by decide!), if_neg (by decide!), if_neg (by decide!)]
      exact ⟨4, [], by decide!, by decide!⟩
  · interval_cases t
    · rw [if_pos (by decide!)]; decide!
    · rw [if_pos (by decide!)]; decide!
    · rw [if_pos (by decide!)]; decide!
    · rw [if_neg (by decide!), if_pos (by decide!)]; decide!
    · rw [if_neg (by decide!), if_neg (by decide!), if_neg (by decide!)]
      exact ⟨3, [2], by decide!, by decide!⟩
    · rw [if_neg (by decide!), if_neg (by decide!), if_neg (by decide!)]
      exact ⟨4, [], by decide!, by decide!⟩

/-- Witness of C23 on `y = (a * b) + c` with `a` and `b` at scale 30: with `c`
at scale 30 the `Add` has operands of scale 60 and 30 and the pass raises; with
`c` at scale 60 the pass returns and records 60 for the output. -/
theorem scalesChecker_raises_iff_witness :
    forwardPass ScalesChecker.rewriter 6
        (ScalesChecker.init (sumOfProduct 30) (fun _ => TermType.Cipher)) = none ∧
    (forwardPass ScalesChecker.rewriter 6
        (ScalesChecker.init (sumOfProduct 60) (fun _ => TermType.Cipher))).map
      (fun st => (st.env.scales 3, st.env.scales 4, st.env.scales 5))
      = some (some 60, some 60, some 60) :=
  ⟨(scalesChecker_raises_iff (sumOfProduct 30) (fun _ => TermType.Cipher) (sumOfProductScales 30)
      (sumOfProduct_wellFormed 30) (sumOfProduct_acyclic 30) (fun _ _ _ _ _ _ => by simp)
      (fun t ht _ => sumOfProduct_rule 30 (Or.inl rfl) t ht) 6 (by decide!)).1.mpr
      ⟨4, by decide!, by decide, Or.inr ⟨by decide!, 3, by decide!, 2, by decide!, by decide!⟩⟩,
   by decide!⟩


/-! ## Destroying terms whose last handle is released -/

theorem eraseUse_maps (p : Program) (a b : Nat) :
    (Term.eraseUse p a b).inputs = p.inputs ∧ (Term.eraseUse p a b).outputs = p.outputs := by
  unfold Term.eraseUse
  dsimp only
  split <;> simp [Program.withUses, Program.withSinks]

theorem eraseUse_sinks (p : Program) (a b : Nat) :
    (Term.eraseUse p a b).sinks
      = if (p.uses a).erase b = [] then setInsert p.sinks a else p.sinks := by
  unfold Term.eraseUse
  simp only [withUses_uses, if_true]
  split <;> simp

/-- The loop of `~Term` over the operands, on a program with destroyed terms. -/
theorem foldl_eraseUse_partial (this : Nat) (dead : List Nat) :
    ∀ (l : List Nat) (p : Program), (∀ o ∈ l, o < p.nextTermIndex ∧ o ∉ dead) →
      (∀ x, x ∈ p.sinks ↔ x < p.nextTermIndex ∧ x ∉ dead ∧ p.uses x = []) →
      (∀ x, (l.foldl (fun q operand => Term.eraseUse q operand this) p).operands x
        = p.operands x) ∧
      (l.foldl (fun q operand => Term.eraseUse q operand this) p).sources = p.sources ∧
      (l.foldl (fun q operand => Term.eraseUse q operand this) p).nextTermIndex
        = p.nextTermIndex ∧
      (l.foldl (fun q operand => Term.eraseUse q operand this) p).inputs = p.inputs ∧
      (l.foldl (fun q operand => Term.eraseUse q operand this) p).outputs = p.outputs ∧
      (∀ x, x ∈ (l.foldl (fun q operand => Term.eraseUse q operand this) p).sinks ↔
        x < p.nextTermIndex ∧ x ∉ dead ∧
          (l.foldl (fun q operand => Term.eraseUse q operand this) p).uses x = []) ∧
      (∀ x y, ((l.foldl (fun q operand => Term.eraseUse q operand this) p).uses x).count y
        = (p.uses x).count y - if y = this then l.count x else 0) ∧
      (∀ x, x ∉ l → (l.foldl (fun q operand => Term.eraseUse q operand this) p).uses x
        = p.uses x) := by
  intro l
  induction l with
  | nil =>
    intro p _ hs
    exact ⟨fun _ => rfl, rfl, rfl, rfl, rfl, hs, by simp, fun _ _ => rfl⟩
  | cons a l ih =>
    intro p hl hs
    simp only [List.foldl_cons]
    obtain ⟨ha, had⟩ := hl a (by simp)
    have hs1 : ∀ x, x ∈ (Term.eraseUse p a this).sinks ↔
        x < (Term.eraseUse p a this).nextTermIndex ∧ x ∉ dead ∧
          (Term.eraseUse p a this).uses x = [] := by
      intro x
      rw [eraseUse_sinks, eraseUse_next, eraseUse_uses]
      by_cases hu : (p.uses a).erase this = []
      · rw [if_pos hu, mem_setInsert, hs x]
        by_cases hxa : x = a
        · subst hxa; simp [ha, had, hu]
        · simp [hxa]
      · rw [if_neg hu, hs x]
        by_cases hxa : x = a
        · subst hxa
          simp only [if_true, hu, and_false, iff_false, not_and]
          intro _ _ h
          rw [h] at hu
          simp at hu
        · simp [hxa]
    obtain ⟨h1, h2, h3, h4, h5, h6, h7, h8⟩ := ih (Term.eraseUse p a this)
      (by intro o ho; rw [eraseUse_next]; exact hl o (by simp [ho])) hs1
    obtain ⟨m1, m2⟩ := eraseUse_maps p a this
    refine ⟨by intro x; rw [h1]; simp, by rw [h2]; simp, by rw [h3]; simp, by rw [h4, m1],
      by rw [h5, m2], ?_, ?_, ?_⟩
    · intro x
      rw [h6 x, eraseUse_next]
    · intro x y
      rw [h7, eraseUse_count, List.count_cons]
      by_cases hy : y = this
      · subst hy
        by_cases hx : x = a
        · subst hx; simp; omega
        · have : ¬ a = x := fun e => hx e.symm
          simp [hx, this]
      · simp [hy]
    · intro x hx
      have hxa : x ≠ a := fun h => hx (by simp [h])
      rw [h8 x (fun h => hx (by simp [h])), eraseUse_uses, if_neg hxa]


/-- The fields of the program `~Term` leaves, in terms of the program after
the loop over the operands. -/
theorem destroy_fields (p : Program) (t : Nat) (x : Nat) :
    (Term.destroy p t).operands x = (if x = t then [] else p.operands x) ∧
    (Term.destroy p t).uses x = (if x = t then []
      else ((p.operands t).foldl (fun q operand => Term.eraseUse q operand t) p).uses x) ∧
    (Term.destroy p t).op x = (if x = t then Op.Undef else p.op x) ∧
    (Term.destroy p t).attributes x = (if x = t then [] else p.attributes x) := by
  have hops : ∀ y, ((p.operands t).foldl (fun q operand => Term.eraseUse q operand t) p).operands y
      = p.operands y := by
    intro y
    generalize p.operands t = l
    induction l generalizing p with
    | nil => rfl
    | cons a l ih => simp only [List.foldl_cons]; rw [ih]; simp
  obtain ⟨f1, f2⟩ := foldl_eraseUse_frame t (p.operands t) p
  unfold Term.destroy
  simp only [Program.operands, Program.uses, Program.op, Program.attributes,
    Function.update_apply]
  by_cases hx : x = t
  · simp [hx, Term.blank]
  · simp only [hx, if_false]
    refine ⟨?_, ?_, ?_, ?_⟩
    · split
      · exact hops x
      · exact hops x
    · split <;> rfl
    · split
      · exact f1 x
      · exact f1 x
    · split
      · exact f2 x
      · exact f2 x

theorem destroy_sets (p : Program) (t : Nat) :
    (Term.destroy p t).nextTermIndex
      = ((p.operands t).foldl (fun q operand => Term.eraseUse q operand t) p).nextTermIndex ∧
    (Term.destroy p t).inputs
      = ((p.operands t).foldl (fun q operand => Term.eraseUse q operand t) p).inputs ∧
    (Term.destroy p t).outputs
      = ((p.operands t).foldl (fun q operand => Term.eraseUse q operand t) p).outputs ∧
    (Term.destroy p t).sinks
      = setErase ((p.operands t).foldl (fun q operand => Term.eraseUse q operand t) p).sinks t ∧
    (Term.destroy p t).sources
      = (if ((p.operands t).foldl (fun q operand => Term.eraseUse q operand t) p).operands t = []
        then setErase
          ((p.operands t).foldl (fun q operand => Term.eraseUse q operand t) p).sources t
        else ((p.operands t).foldl (fun q operand => Term.eraseUse q operand t) p).sources) := by
  unfold Term.destroy
  dsimp only
  refine ⟨?_, ?_, ?_, ?_, ?_⟩ <;> split <;> simp [Program.withSinks, Program.withSources]

/-- `~Term` on a term without uses of a program with destroyed terms: the
invariants hold with the term added to the destroyed ones, the other terms
keep operation, attributes and operands, uses only disappear, and a term that
becomes a sink was an operand of the term. -/
theorem destroy_spec (p : Program) (dead : List Nat) (t : Nat) (hP : p.Partial dead)
    (ht : t ∈ p.sinks) :
    (Term.destroy p t).Partial (t :: dead) ∧
    (Term.destroy p t).nextTermIndex = p.nextTermIndex ∧
    (Term.destroy p t).inputs = p.inputs ∧ (Term.destroy p t).outputs = p.outputs ∧
    (∀ x, x ≠ t → (Term.destroy p t).operands x = p.operands x ∧
      (Term.destroy p t).op x = p.op x ∧
      (Term.destroy p t).attributes x = p.attributes x) ∧
    (∀ x y, y ∈ (Term.destroy p t).uses x → y ∈ p.uses x) ∧
    (∀ x, x ∈ (Term.destroy p t).sinks → x ≠ t ∧ (x ∈ p.sinks ∨ x ∈ p.operands t)) ∧
    (∀ x, x ∈ p.sinks → x ≠ t → x ∈ (Term.destroy p t).sinks) := by
  obtain ⟨htn, htd, htu⟩ := (hP.snk t).mp ht
  have hos : ∀ o ∈ p.operands t, o < p.nextTermIndex ∧ o ∉ dead := by
    intro o ho
    have hpos : 0 < (p.uses o).count t := by
      rw [← hP.sym t o]
      exact List.count_pos_iff.mpr ho
    have hne : p.uses o ≠ [] := by
      intro h; rw [h] at hpos; simp at hpos
    refine ⟨?_, fun hd => hne (hP.blank o hd).2⟩
    by_contra hlt
    exact hne (hP.fresh o (by omega)).2
  obtain ⟨e1, e2, e3, e4, e5, e6, e7, e8⟩ :=
    foldl_eraseUse_partial t dead (p.operands t) p hos hP.snk
  obtain ⟨d1, d2, d3, d4, d5⟩ := destroy_sets p t
  rw [e3] at d1
  rw [e4] at d2
  rw [e5] at d3
  rw [e1 t, e2] at d5
  have hself : t ∉ p.operands t := by
    intro h
    have hpos := List.count_pos_iff.mpr h
    rw [hP.sym t t, htu] at hpos
    simp at hpos
  have huse_sub : ∀ x y, y ∈ (Term.destroy p t).uses x → y ∈ p.uses x := by
    intro x y hy
    rw [(destroy_fields p t x).2.1] at hy
    by_cases hx : x = t
    · rw [if_pos hx] at hy; simp at hy
    · rw [if_neg hx] at hy
      have hpos := List.count_pos_iff.mpr hy
      rw [e7] at hpos
      exact List.count_pos_iff.mp (by omega)
  refine ⟨?_, d1, d2, d3, ?_, huse_sub, ?_, ?_⟩
  · refine ⟨?_, ?_, ?_, ?_, ?_, ?_, ?_, ?_⟩
    · -- edge symmetry
      intro x y
      rw [(destroy_fields p t x).1, (destroy_fields p t y).2.1]
      by_cases hx : x = t
      · rw [if_pos hx]
        by_cases hy : y = t
        · rw [if_pos hy]; simp
        · rw [if_neg hy, e7, if_pos hx, hx, ← hP.sym t y]
          simp
      · rw [if_neg hx]
        by_cases hy : y = t
        · rw [if_pos hy, hy, hP.sym x t, htu]
        · rw [if_neg hy, e7, hP.sym x y, if_neg hx]
          simp
    · -- sources
      intro x
      rw [d5, d1, (destroy_fields p t x).1]
      by_cases hx : x = t
      · subst hx
        simp only [List.mem_cons, true_or, not_true_eq_false, false_and, and_false, iff_false]
        split
        · rw [mem_setErase]; simp
        · next h =>
          intro hmem
          exact h ((hP.src x).mp hmem).2.2
      · rw [if_neg hx]
        have hmem : x ∈ (if p.operands t = [] then setErase p.sources t else p.sources)
            ↔ x ∈ p.sources := by
          split
          · rw [mem_setErase]; simp [hx]
          · rfl
        rw [hmem, hP.src x]
        simp [hx]
    · -- sinks
      intro x
      rw [d4, d1, mem_setErase, e6 x, (destroy_fields p t x).2.1]
      by_cases hx : x = t
      · subst hx; simp
      · rw [if_neg hx]
        simp [hx]
    · -- fresh
      intro x hx
      rw [d1] at hx
      have hne : x ≠ t := by omega
      rw [(destroy_fields p t x).1, (destroy_fields p t x).2.1, if_neg hne, if_neg hne,
        e8 x (fun h => by have := (hos x h).1; omega)]
      exact hP.fresh x hx
    · -- blank
      intro x hx
      rw [(destroy_fields p t x).1, (destroy_fields p t x).2.1]
      rcases List.mem_cons.mp hx with rfl | hx
      · simp
      · have hne : x ≠ t := fun h => htd (h ▸ hx)
        rw [if_neg hne, if_neg hne, e8 x (fun h => (hos x h).2 hx)]
        exact hP.blank x hx
    · -- the two sets
      constructor
      · rw [d5]
        split
        · exact setErase_nodup _ _ hP.sets.1
        · exact hP.sets.1
      · rw [d4]
        exact setErase_nodup _ _
          (foldl_eraseUse_setsNodup t (p.operands t) p hP.sets).2
    · exact List.nodup_cons.mpr ⟨htd, hP.dead_nodup⟩
    · intro x hx
      rw [d1]
      rcases List.mem_cons.mp hx with rfl | hx
      · exact htn
      · exact hP.dead_lt x hx
  · intro x hx
    exact ⟨by rw [(destroy_fields p t x).1, if_neg hx],
      by rw [(destroy_fields p t x).2.2.1, if_neg hx],
      by rw [(destroy_fields p t x).2.2.2, if_neg hx]⟩
  · intro x hx
    rw [d4, mem_setErase, e6 x] at hx
    obtain ⟨⟨h1, h2, h3⟩, hne⟩ := hx
    refine ⟨hne, ?_⟩
    by_cases hu : p.uses x = []
    · exact Or.inl ((hP.snk x).mpr ⟨h1, h2, hu⟩)
    · right
      by_contra hnot
      rw [e8 x hnot] at h3
      exact hu h3
  · intro x hx hne
    rw [d4, mem_setErase, e6 x]
    obtain ⟨h1, h2, h3⟩ := (hP.snk x).mp hx
    refine ⟨⟨h1, h2, ?_⟩, hne⟩
    apply List.eq_nil_iff_forall_not_mem.mpr
    intro y hy
    have hpos := List.count_pos_iff.mpr hy
    rw [e7, h3] at hpos
    simp at hpos


theorem holds_congr (p q : Program) (hi : q.inputs = p.inputs) (ho : q.outputs = p.outputs)
    (x : Nat) : q.holds x = p.holds x := by
  unfold Program.holds
  rw [hi, ho]

theorem released_refl (p : Program) (dead : List Nat) (hP : p.Partial dead) :
    Program.Released p p dead [] :=
  ⟨by simpa using hP, rfl, rfl, rfl, fun _ _ => ⟨rfl, rfl, rfl⟩, fun _ _ h => h,
    fun x hx => by simp at hx⟩

theorem released_trans (p q r : Program) (dead e1 e2 : List Nat)
    (h1 : Program.Released p q dead e1) (h2 : Program.Released q r (e1 ++ dead) e2) :
    Program.Released p r dead (e2 ++ e1) := by
  refine ⟨by rw [List.append_assoc]; exact h2.part, by rw [h2.next, h1.next],
    by rw [h2.inputs, h1.inputs], by rw [h2.outputs, h1.outputs], ?_, ?_, ?_⟩
  · intro x hx
    have hx2 : x ∉ e2 := fun h => hx (List.mem_append.mpr (Or.inl h))
    have hx1 : x ∉ e1 := fun h => hx (List.mem_append.mpr (Or.inr h))
    obtain ⟨a1, a2, a3⟩ := h1.frame x hx1
    obtain ⟨b1, b2, b3⟩ := h2.frame x hx2
    exact ⟨by rw [b1, a1], by rw [b2, a2], by rw [b3, a3]⟩
  · intro x y hy
    exact h1.uses x y (h2.uses x y hy)
  · intro x hx
    rcases List.mem_append.mp hx with hx | hx
    · rw [← holds_congr p q h1.inputs h1.outputs]
      exact h2.unheld x hx
    · exact h1.unheld x hx

/-- A list without repetition of `n` or more indices below `n` holds every
index below `n`. -/
theorem nodup_covers (l : List Nat) (n : Nat) (hnd : l.Nodup) (hlt : ∀ x ∈ l, x < n)
    (hlen : n ≤ l.length) (x : Nat) (hx : x < n) : x ∈ l := by
  by_contra hnot
  have := nodup_bounded_length (x :: l) n (List.nodup_cons.mpr ⟨hnot, hnd⟩) (by
    intro y hy
    rcases List.mem_cons.mp hy with rfl | hy
    · exact hx
    · exact hlt y hy)
  simp only [List.length_cons] at this
  omega

/-- Releasing the handles of a list of terms one after the other, when
releasing one behaves as stated. -/
theorem release_foldl (fuel : Nat)
    (ih : ∀ (p : Program) (dead : List Nat) (t : Nat), p.Partial dead →
      p.nextTermIndex ≤ fuel + dead.length →
      ∃ extra, Program.Released p (Program.release fuel p t) dead extra ∧
        ∀ x, x ∈ (Program.release fuel p t).sinks →
          (Program.release fuel p t).holds x = false → x ≠ t ∧ x ∈ p.sinks)
    (l : List Nat) (p : Program) (dead : List Nat) (hP : p.Partial dead)
    (hf : p.nextTermIndex ≤ fuel + dead.length) :
    ∃ extra, Program.Released p (l.foldl (fun q o => Program.release fuel q o) p) dead extra ∧
      ∀ x, x ∈ (l.foldl (fun q o => Program.release fuel q o) p).sinks →
        (l.foldl (fun q o => Program.release fuel q o) p).holds x = false →
        x ∉ l ∧ x ∈ p.sinks := by
  induction l generalizing p dead with
  | nil => exact ⟨[], released_refl p dead hP, fun x hx _ => ⟨by simp, hx⟩⟩
  | cons a l ihl =>
    simp only [List.foldl_cons]
    obtain ⟨e1, r1, s1⟩ := ih p dead a hP hf
    obtain ⟨e2, r2, s2⟩ := ihl (Program.release fuel p a) (e1 ++ dead) r1.part (by
      rw [r1.next]
      simp only [List.length_append]
      omega)
    refine ⟨e2 ++ e1, released_trans _ _ _ _ _ _ r1 r2, ?_⟩
    intro x hx hh
    obtain ⟨t1, t2⟩ := s2 x hx hh
    rw [holds_congr _ _ r2.inputs r2.outputs] at hh
    obtain ⟨t3, t4⟩ := s1 x t2 hh
    exact ⟨by simp [t1, t3], t4⟩

/-- Releasing the handle of `t` with fuel for every term that is not destroyed
yet: the invariants stay, and every sink left that no map holds was such a
sink before and is not `t`. -/
theorem release_spec (fuel : Nat) : ∀ (p : Program) (dead : List Nat) (t : Nat),
    p.Partial dead → p.nextTermIndex ≤ fuel + dead.length →
    ∃ extra, Program.Released p (Program.release fuel p t) dead extra ∧
      ∀ x, x ∈ (Program.release fuel p t).sinks →
        (Program.release fuel p t).holds x = false → x ≠ t ∧ x ∈ p.sinks := by
  induction fuel with
  | zero =>
    intro p dead t hP hf
    refine ⟨[], released_refl p dead hP, ?_⟩
    intro x hx _
    exfalso
    have hx1 : x ∈ p.sinks := hx
    obtain ⟨h1, h2, _⟩ := (hP.snk x).mp hx1
    exact h2 (nodup_covers dead p.nextTermIndex hP.dead_nodup hP.dead_lt (by omega) x h1)
  | succ fuel ih =>
    intro p dead t hP hf
    by_cases hc : t ∈ p.sinks ∧ p.holds t = false
    · have hrel : Program.release (fuel + 1) p t
          = (p.operands t).foldl (fun q operand => Program.release fuel q operand)
              (Term.destroy p t) := by
        simp only [Program.release, if_pos hc]
      rw [hrel]
      obtain ⟨d1, d2, d3, d4, d5, d6, d7, d8⟩ := destroy_spec p dead t hP hc.1
      have r1 : Program.Released p (Term.destroy p t) dead [t] :=
        ⟨d1, d2, d3, d4, fun x hx => d5 x (by simpa using hx), d6,
          fun x hx => by rw [List.mem_singleton.mp hx]; exact hc.2⟩
      obtain ⟨e2, r2, s2⟩ := release_foldl fuel ih (p.operands t) (Term.destroy p t)
        ([t] ++ dead) d1 (by rw [d2]; simp only [List.length_append, List.length_singleton]; omega)
      refine ⟨e2 ++ [t], released_trans _ _ _ _ _ _ r1 r2, ?_⟩
      intro x hx hh
      obtain ⟨t1, t2⟩ := s2 x hx hh
      obtain ⟨t3, t4⟩ := d7 x t2
      rcases t4 with t4 | t4
      · exact ⟨t3, t4⟩
      · exact absurd t4 t1
    · have hrel : Program.release (fuel + 1) p t = p := by
        simp only [Program.release, if_neg hc]
      rw [hrel]
      refine ⟨[], released_refl p dead hP, ?_⟩
      intro x hx hh
      refine ⟨?_, hx⟩
      rintro rfl
      exact hc ⟨hx, hh⟩

/-- After `releaseAll` on a well-formed program every sink left is held by the
map of inputs or the map of outputs. -/
theorem releaseAll_spec (p : Program) (hc : p.Consistent) (hs : p.SetsNodup) :
    ∃ dead, Program.Released p p.releaseAll [] dead ∧
      ∀ x, x ∈ p.releaseAll.sinks → p.releaseAll.holds x = true := by
  have hP : p.Partial [] :=
    ⟨hc.sym, fun t => by rw [hc.src t]; simp, fun t => by rw [hc.snk t]; simp, hc.fresh,
      fun t ht => by simp at ht, hs, List.nodup_nil, fun t ht => by simp at ht⟩
  obtain ⟨dead, r, s⟩ := release_foldl p.nextTermIndex (release_spec p.nextTermIndex)
    (List.range p.nextTermIndex) p [] hP (by simp)
  refine ⟨dead, r, ?_⟩
  intro x hx
  by_contra hh
  have hh2 : (Program.releaseAll p).holds x = false := by simpa using hh
  obtain ⟨t1, t2⟩ := s x hx hh2
  exact t1 (List.mem_range.mpr ((hc.snk x).mp t2).1)


/-! ## A forward pass that finds nothing to rewrite -/

theorem idleVisit_inv {σ : Type} (R : Rewriter σ) (env : σ) (alive : Nat → Prop)
    (hsym : (R.program env).EdgeSym)
    (hsrc : ∀ t, t ∈ (R.program env).sources ↔ alive t ∧ (R.program env).operands t = [])
    (huse : ∀ t u, u ∈ (R.program env).uses t → alive u)
    (hR : ∀ t, alive t → R.rewrite env t = some env)
    (st : TraversalState σ) (term : Nat) (rest : List Nat) (hst : IdleInv R env alive st)
    (hrn : st.readyNodes = term :: rest) :
    ∃ st1, traverseVisit true R st term rest = some st1 ∧ IdleInv R env alive st1 ∧
      st1.visited = st.visited ++ [term] := by
  have hterm_ready : st.ready term = true := hst.rn_ready term (by simp [hrn])
  have hterm_unproc : st.processed term = false := hst.rn_unproc term (by simp [hrn])
  have hterm_alive : alive term := hst.ready_alive term hterm_ready
  have hnotin0 : term ∉ st.visited := by
    intro h
    have := (hst.proc_iff term).mpr h
    rw [hterm_unproc] at this
    exact Bool.noConfusion this
  have hs1 : R.rewrite st.env term = some env := by rw [hst.env_eq]; exact hR term hterm_alive
  have hterm_notin : term ∉ rest := by
    have := hst.rn_nodup
    rw [hrn] at this
    exact (List.nodup_cons.mp this).1
  have hrest_nodup : rest.Nodup := by
    have := hst.rn_nodup
    rw [hrn] at this
    exact (List.nodup_cons.mp this).2
  have hrest_ready : ∀ x ∈ rest, st.ready x = true := fun x hx =>
    hst.rn_ready x (by simp [hrn, hx])
  obtain ⟨lp1, lp2, lp3⟩ := foldl_pushLeaf_spec (leaves true (R.program env)) (rest, st.ready)
  obtain ⟨lp3a, lp3b⟩ := lp3 hrest_nodup hrest_ready
  obtain ⟨sp1, sp2, sp3⟩ := foldl_pushSucc_spec true (R.program env)
    (Function.update st.processed term true)
    (successors true (R.program st.env) term ++ successors true (R.program env) term)
    ((leaves true (R.program env)).foldl pushLeaf (rest, st.ready))
  obtain ⟨sp3a, sp3b⟩ := sp3 lp3a lp3b
  have hproc : ∀ t, Function.update st.processed term true t = true ↔
      (t = term ∨ st.processed t = true) := by
    intro t
    simp only [Function.update_apply]
    by_cases h : t = term <;> simp [h]
  have hleaf : ∀ x, x ∈ leaves true (R.program env) ↔
      (alive x ∧ (R.program env).operands x = []) := by
    intro x
    exact hsrc x
  have hsucc : ∀ x, x ∈ successors true (R.program st.env) term ++
      successors true (R.program env) term ↔ x ∈ (R.program env).uses term := by
    intro x
    rw [hst.env_eq]
    simp [successors]
  have hunready_unproc : ∀ x, st.ready x = false → x ≠ term ∧ st.processed x = false := by
    intro x hx
    refine ⟨?_, ?_⟩
    · rintro rfl
      rw [hterm_ready] at hx
      exact Bool.noConfusion hx
    · by_contra hpr
      have := hst.proc_ready x (by simpa using hpr)
      rw [hx] at this
      exact Bool.noConfusion this
  have hgrow : ∀ x, st.ready x = true →
      ((successors true (R.program st.env) term ++ successors true (R.program env) term).foldl
        (pushSucc true (R.program env) (Function.update st.processed term true))
        ((leaves true (R.program env)).foldl pushLeaf (rest, st.ready))).2 x = true :=
    fun x hx => (sp1 x).mpr (Or.inl ((lp1 x).mpr (Or.inl hx)))
  refine ⟨{ env := env,
             ready := ((successors true (R.program st.env) term ++
                 successors true (R.program env) term).foldl
               (pushSucc true (R.program env) (Function.update st.processed term true))
               ((leaves true (R.program env)).foldl pushLeaf (rest, st.ready))).2,
             processed := Function.update st.processed term true,
             readyNodes := ((successors true (R.program st.env) term ++
                 successors true (R.program env) term).foldl
               (pushSucc true (R.program env) (Function.update st.processed term true))
               ((leaves true (R.program env)).foldl pushLeaf (rest, st.ready))).1,
             visited := st.visited ++ [term] }, ?_, ?_, rfl⟩
  · simp only [traverseVisit, hs1]
  · refine ⟨rfl, ?_, ?_, sp3a, sp3b, ?_, ?_, ?_, ?_, ?_⟩
    · intro t
      show Function.update st.processed term true t = true ↔ t ∈ st.visited ++ [term]
      rw [hproc, hst.proc_iff]
      simp only [List.mem_append, List.mem_singleton]
      tauto
    · show (st.visited ++ [term]).Nodup
      rw [List.nodup_append]
      refine ⟨hst.vis_nodup, by simp, ?_⟩
      intro x hx hx2
      simp only [List.mem_singleton] at hx2
      subst hx2
      exact hnotin0 hx
    · intro t ht
      rcases (hproc t).mp ht with h1 | h1
      · subst h1
        exact hgrow t hterm_ready
      · exact hgrow t (hst.proc_ready t h1)
    · intro t ht
      show Function.update st.processed term true t = false
      have key : t ≠ term ∧ st.processed t = false := by
        rcases (sp2 t).mp ht with h | h
        · rcases (lp2 t).mp h with h1 | h1
          · refine ⟨?_, hst.rn_unproc t (by simp [hrn, h1])⟩
            rintro rfl
            exact hterm_notin h1
          · exact hunready_unproc t h1.2
        · have h2 : st.ready t = false := by
            by_contra hr
            have := (lp1 t).mpr (Or.inl (by simpa using hr))
            rw [h.2.1] at this
            exact Bool.noConfusion this
          exact hunready_unproc t h2
      simp only [Function.update_apply, key.1, if_false]
      exact key.2
    · intro t ht
      rcases (sp1 t).mp ht with h | h
      · rcases (lp1 t).mp h with h1 | h1
        · exact hst.ready_alive t h1
        · exact ((hleaf t).mp h1).1
      · exact huse term t ((hsucc t).mp h.1)
    · intro t ht
      show _ ∨ Function.update st.processed term true t = true
      have hold : st.ready t = true →
          t ∈ ((successors true (R.program st.env) term ++
                 successors true (R.program env) term).foldl
               (pushSucc true (R.program env) (Function.update st.processed term true))
               ((leaves true (R.program env)).foldl pushLeaf (rest, st.ready))).1 ∨
            Function.update st.processed term true t = true := by
        intro h2
        have h3 := hst.ready_cases t h2
        rw [hrn] at h3
        simp only [List.mem_cons] at h3
        rcases h3 with (h3 | h3) | h3
        · exact Or.inr ((hproc t).mpr (Or.inl h3))
        · exact Or.inl ((sp2 t).mpr (Or.inl ((lp2 t).mpr (Or.inl h3))))
        · exact Or.inr ((hproc t).mpr (Or.inr h3))
      by_cases hr2 : st.ready t = true
      · exact hold hr2
      · have hr3 : st.ready t = false := by simpa using hr2
        rcases (sp1 t).mp ht with h1 | h1
        · rcases (lp1 t).mp h1 with h2 | h2
          · exact absurd h2 hr2
          · exact Or.inl ((sp2 t).mpr (Or.inl ((lp2 t).mpr (Or.inr ⟨h2, hr3⟩))))
        · by_cases hr : ((leaves true (R.program env)).foldl pushLeaf (rest, st.ready)).2 t = true
          · rcases (lp1 t).mp hr with h2 | h2
            · exact absurd h2 hr2
            · exact Or.inl ((sp2 t).mpr (Or.inl ((lp2 t).mpr (Or.inr ⟨h2, hr3⟩))))
          · exact Or.inl ((sp2 t).mpr (Or.inr ⟨h1.1, by simpa using hr, h1.2⟩))
    · intro s hs hall
      show _ = true
      rw [sp1]
      by_cases hold : ∀ o ∈ (R.program env).operands s, st.processed o = true
      · left
        rw [lp1]
        exact Or.inl (hst.ready_complete s hs hold)
      · right
        push_neg at hold
        obtain ⟨o, ho, hno⟩ := hold
        have h1 := (hproc o).mp (hall o ho)
        rcases h1 with h1 | h1
        · subst h1
          refine ⟨(hsucc s).mpr ?_, (arePredecessorsDone_iff true _ _ _).mpr hall⟩
          apply List.count_pos_iff.mp
          rw [← hsym s o]
          exact List.count_pos_iff.mpr ho
        · exact absurd h1 hno

theorem idleLoop_spec {σ : Type} (R : Rewriter σ) (env : σ) (alive : Nat → Prop)
    (hsym : (R.program env).EdgeSym)
    (hsrc : ∀ t, t ∈ (R.program env).sources ↔ alive t ∧ (R.program env).operands t = [])
    (huse : ∀ t u, u ∈ (R.program env).uses t → alive u)
    (hlt : ∀ t, alive t → t < (R.program env).nextTermIndex)
    (hR : ∀ t, alive t → R.rewrite env t = some env)
    (fuel : Nat) (st : TraversalState σ) (hst : IdleInv R env alive st)
    (hfuel : (R.program env).nextTermIndex ≤ fuel + st.visited.length) :
    ∃ st1, traverseLoop true R fuel st = some st1 ∧ IdleInv R env alive st1 ∧
      st1.readyNodes = [] := by
  induction fuel generalizing st with
  | zero =>
    have hempty : st.readyNodes = [] := by
      cases hrn : st.readyNodes with
      | nil => rfl
      | cons t rest =>
        exfalso
        have ht_un : st.processed t = false := hst.rn_unproc t (by simp [hrn])
        have ht_notin : t ∉ st.visited := by
          intro h
          have := (hst.proc_iff t).mpr h
          rw [ht_un] at this
          exact Bool.noConfusion this
        have ht_lt : t < (R.program env).nextTermIndex :=
          hlt t (hst.ready_alive t (hst.rn_ready t (by simp [hrn])))
        have hlen := nodup_bounded_length (t :: st.visited) (R.program env).nextTermIndex
          (List.nodup_cons.mpr ⟨ht_notin, hst.vis_nodup⟩) (by
            intro x hx
            simp only [List.mem_cons] at hx
            rcases hx with rfl | hx
            · exact ht_lt
            · exact hlt x (hst.ready_alive x (hst.proc_ready x ((hst.proc_iff x).mpr hx))))
        simp only [List.length_cons] at hlen
        omega
    exact ⟨st, by simp [traverseLoop, hempty], hst, hempty⟩
  | succ fuel ih =>
    cases hrn : st.readyNodes with
    | nil => exact ⟨st, by simp [traverseLoop, hrn], hst, hrn⟩
    | cons term rest =>
      obtain ⟨st1, h1, h2, h3⟩ := idleVisit_inv R env alive hsym hsrc huse hR st term rest hst hrn
      obtain ⟨st2, e1, e2, e3⟩ := ih st1 h2 (by rw [h3]; simp; omega)
      refine ⟨st2, ?_, e2, e3⟩
      simp only [traverseLoop, hrn, h1]
      exact e1

/-- A forward pass over an acyclic graph with destroyed terms, with a
rewriter that leaves its state as it is on every term that is not destroyed:
with fuel for every term the pass returns that state, and has called the
rewriter exactly once on each term that is not destroyed and on no other. -/
theorem forwardPass_idle {σ : Type} (R : Rewriter σ) (env : σ) (alive : Nat → Prop)
    (hsym : (R.program env).EdgeSym)
    (hsrc : ∀ t, t ∈ (R.program env).sources ↔ alive t ∧ (R.program env).operands t = [])
    (hnd : (R.program env).sources.Nodup)
    (huse : ∀ t u, u ∈ (R.program env).uses t → alive u)
    (hopd : ∀ t o, o ∈ (R.program env).operands t → alive o)
    (hlt : ∀ t, alive t → t < (R.program env).nextTermIndex)
    (hac : (R.program env).Acyclic)
    (hR : ∀ t, alive t → R.rewrite env t = some env)
    (fuel : Nat) (hfuel : (R.program env).nextTermIndex ≤ fuel) :
    ∃ st, forwardPass R fuel env = some st ∧ st.env = env ∧ st.visited.Nodup ∧
      ∀ t, t ∈ st.visited ↔ alive t := by
  have hinit : IdleInv R env alive
      { env := env,
        ready := (leaves true (R.program env)).foldl
          (fun ready term => Function.update ready term true) (fun _ => false),
        processed := fun _ => false,
        readyNodes := (leaves true (R.program env)).reverse,
        visited := [] } := by
    refine ⟨rfl, by simp, List.nodup_nil, List.nodup_reverse.mpr hnd, ?_, by simp, by simp,
      ?_, ?_, ?_⟩
    · intro t ht
      simp only [foldl_update_true]
      simpa using ht
    · intro t ht
      simp only [foldl_update_true] at ht
      have hmem : t ∈ (R.program env).sources := by simpa [leaves, Program.getSources] using ht
      exact ((hsrc t).mp hmem).1
    · intro t ht
      simp only [foldl_update_true] at ht
      left
      simpa using ht
    · intro s hs hall
      simp only [foldl_update_true]
      left
      show s ∈ (R.program env).sources
      apply (hsrc s).mpr
      refine ⟨hs, ?_⟩
      cases hp : (R.program env).operands s with
      | nil => rfl
      | cons o l =>
        have := hall o (by simp [hp])
        simp at this
  obtain ⟨st, h1, h2, h3⟩ := idleLoop_spec R env alive hsym hsrc huse hlt hR fuel _ hinit
    (by simp; omega)
  have hall : ∀ t, alive t → st.processed t = true := by
    obtain ⟨rank, hrank⟩ := hac
    have key : ∀ k t, rank t < k → alive t → st.processed t = true := by
      intro k
      induction k with
      | zero => intro t ht; omega
      | succ k ih =>
        intro t ht hlt
        have hready := h2.ready_complete t hlt (by
          intro o ho
          exact ih o (by have := hrank t o ho; omega) (hopd t o ho))
        have := h2.ready_cases t hready
        rw [h3] at this
        simpa using this
    intro t ht
    exact key (rank t + 1) t (by omega) ht
  refine ⟨st, h1, h2.env_eq, h2.vis_nodup, ?_⟩
  intro t
  constructor
  · intro ht
    exact h2.ready_alive t (h2.proc_ready t ((h2.proc_iff t).mpr ht))
  · intro ht
    exact (h2.proc_iff t).mp (hall t ht)

/-! ## A second pass of `ConstantFolder` -/


theorem addUse_maps (p : Program) (a b : Nat) :
    (Term.addUse p a b).inputs = p.inputs ∧ (Term.addUse p a b).outputs = p.outputs := by
  unfold Term.addUse
  constructor <;> split <;> rfl

theorem replaceOperandAt_maps (o n t : Nat) (p : Program) (i : Nat) :
    (Term.replaceOperandAt o n t p i).inputs = p.inputs ∧
    (Term.replaceOperandAt o n t p i).outputs = p.outputs := by
  unfold Term.replaceOperandAt
  split
  · rw [(addUse_maps _ _ _).1, (addUse_maps _ _ _).2, (eraseUse_maps _ _ _).1,
      (eraseUse_maps _ _ _).2]
    exact ⟨rfl, rfl⟩
  · exact ⟨rfl, rfl⟩

theorem replaceOperand_maps (p : Program) (t o n : Nat) :
    (Term.replaceOperand p t o n).2.inputs = p.inputs ∧
    (Term.replaceOperand p t o n).2.outputs = p.outputs := by
  unfold Term.replaceOperand
  simp only []
  generalize List.range (p.operands t).length = l
  induction l generalizing p with
  | nil => exact ⟨rfl, rfl⟩
  | cons a l ih =>
    simp only [List.foldl_cons]
    rw [(ih _).1, (ih _).2]
    exact replaceOperandAt_maps _ _ _ _ _

theorem replaceUsesWithIf_maps (p : Program) (t n : Nat) (f : Nat → Bool) :
    (Term.replaceUsesWithIf p t n f).inputs = p.inputs ∧
    (Term.replaceUsesWithIf p t n f).outputs = p.outputs := by
  unfold Term.replaceUsesWithIf
  generalize p.uses t = l
  induction l generalizing p with
  | nil => exact ⟨rfl, rfl⟩
  | cons a l ih =>
    simp only [List.foldl_cons]
    rw [(ih _).1, (ih _).2]
    split
    · exact replaceOperand_maps _ _ _ _
    · exact ⟨rfl, rfl⟩

/-- The call `replaceNodeWithConstant` keeps the sets of sources and sinks
free of repetition and leaves the maps of inputs and outputs alone. -/
theorem replaceNodeWithConstant_keeps (st : ConstantFolder) (t : Nat) (v : List ℚ) (sc : Nat)
    (st1 : ConstantFolder) (h : st.replaceNodeWithConstant t v sc = some st1) :
    (st.program.SetsNodup → st1.program.SetsNodup) ∧
    st1.program.inputs = st.program.inputs ∧ st1.program.outputs = st.program.outputs := by
  unfold ConstantFolder.replaceNodeWithConstant at h
  cases hm : st.program.makeDenseConstant v with
  | none => rw [hm] at h; exact Option.noConfusion h
  | some c =>
    rw [hm] at h
    simp only [Option.some.injEq] at h
    have hc : c = st.program.makeConstant (ConstantValue.dense st.program.vecSize v) := by
      unfold Program.makeDenseConstant at hm
      split_ifs at hm
      exact (Option.some.inj hm).symm
    subst h
    simp only []
    refine ⟨?_, ?_, ?_⟩
    · intro hs
      apply replaceUsesWithIf_setsNodup
      unfold Term.setAttribute
      apply withAttributes_setsNodup
      rw [hc]
      unfold Program.makeConstant Term.setAttribute
      apply withAttributes_setsNodup
      exact makeTerm_setsNodup _ _ _ hs
    · show (Term.replaceUsesWithIf _ _ _ _).inputs = _
      rw [(replaceUsesWithIf_maps _ _ _ _).1, hc]
      simp [Term.setAttribute, Program.withAttributes, Program.makeConstant, Program.makeTerm,
        Term.create]
    · show (Term.replaceUsesWithIf _ _ _ _).outputs = _
      rw [(replaceUsesWithIf_maps _ _ _ _).2, hc]
      simp [Term.setAttribute, Program.withAttributes, Program.makeConstant, Program.makeTerm,
        Term.create]


theorem binary_keeps (f : ℚ → ℚ → ℚ) (st : ConstantFolder) (t a b : Nat) (st1 : ConstantFolder)
    (h : ConstantFolder.binary f st t a b = some st1) :
    (st.program.SetsNodup → st1.program.SetsNodup) ∧
    st1.program.inputs = st.program.inputs ∧ st1.program.outputs = st.program.outputs := by
  unfold ConstantFolder.binary at h
  split at h
  · simp only [] at h
    have h2 := replaceNodeWithConstant_keeps _ _ _ _ _ h
    exact h2
  · exact Option.noConfusion h

theorem leftRotate_keeps (st : ConstantFolder) (t a : Nat) (k : Int) (st1 : ConstantFolder)
    (h : st.leftRotate t a k = some st1) :
    (st.program.SetsNodup → st1.program.SetsNodup) ∧
    st1.program.inputs = st.program.inputs ∧ st1.program.outputs = st.program.outputs := by
  unfold ConstantFolder.leftRotate at h
  split at h
  · exact Option.noConfusion h
  · split at h
    · exact Option.noConfusion h
    · simp only [] at h
      have h2 := replaceNodeWithConstant_keeps _ _ _ _ _ h
      exact h2

theorem rightRotate_keeps (st : ConstantFolder) (t a : Nat) (k : Int) (st1 : ConstantFolder)
    (h : st.rightRotate t a k = some st1) :
    (st.program.SetsNodup → st1.program.SetsNodup) ∧
    st1.program.inputs = st.program.inputs ∧ st1.program.outputs = st.program.outputs := by
  unfold ConstantFolder.rightRotate at h
  split at h
  · exact Option.noConfusion h
  · split at h
    · exact Option.noConfusion h
    · simp only [] at h
      have h2 := replaceNodeWithConstant_keeps _ _ _ _ _ h
      exact h2

theorem negate_keeps (st : ConstantFolder) (t a : Nat) (st1 : ConstantFolder)
    (h : st.negate t a = some st1) :
    (st.program.SetsNodup → st1.program.SetsNodup) ∧
    st1.program.inputs = st.program.inputs ∧ st1.program.outputs = st.program.outputs := by
  unfold ConstantFolder.negate at h
  split at h
  · exact Option.noConfusion h
  · simp only [] at h
    have h2 := replaceNodeWithConstant_keeps _ _ _ _ _ h
    exact h2

/-- A call of `ConstantFolder` keeps the sets of sources and sinks free of
repetition and leaves the maps of inputs and outputs alone. -/
theorem visit_keeps (st : ConstantFolder) (t : Nat) (st1 : ConstantFolder)
    (h : st.visit t = some st1) :
    (st.program.SetsNodup → st1.program.SetsNodup) ∧
    st1.program.inputs = st.program.inputs ∧ st1.program.outputs = st.program.outputs := by
  have hrefl : ∀ s : ConstantFolder, some st = some s →
      (st.program.SetsNodup → s.program.SetsNodup) ∧
      s.program.inputs = st.program.inputs ∧ s.program.outputs = st.program.outputs := by
    intro s hs
    cases hs
    exact ⟨fun h => h, rfl, rfl⟩
  unfold ConstantFolder.visit at h
  simp only [] at h
  split at h
  · exact hrefl _ h
  · split at h
    · exact hrefl _ h
    · split at h
      · split at h
        · exact Option.noConfusion h
        · have h2 := binary_keeps _ _ _ _ _ _ h
          exact h2
      · split at h
        · exact Option.noConfusion h
        · have h2 := binary_keeps _ _ _ _ _ _ h
          exact h2
      · split at h
        · exact Option.noConfusion h
        · have h2 := binary_keeps _ _ _ _ _ _ h
          exact h2
      · split at h
        · exact Option.noConfusion h
        · have h2 := leftRotate_keeps _ _ _ _ _ h
          exact h2
      · split at h
        · exact Option.noConfusion h
        · have h2 := rightRotate_keeps _ _ _ _ _ h
          exact h2
      · have h2 := negate_keeps _ _ _ _ h
        exact h2
      · exact hrefl _ h
      · exact hrefl _ h
      · exact Option.noConfusion h


/-- The call operator leaves its state as it is on a term without operands,
on a term with an operand that is no `Constant`, and on an `Output` or an
`Encode`. -/
theorem visit_idle (st : ConstantFolder) (t : Nat)
    (h : st.program.operands t = [] ∨
      (∃ o ∈ st.program.operands t, st.program.op o ≠ Op.Constant) ∨
      st.program.op t = Op.Output ∨ st.program.op t = Op.Encode) :
    st.visit t = some st := by
  cases hops : st.program.operands t with
  | nil =>
    unfold ConstantFolder.visit
    simp only [hops]
  | cons a l =>
    by_cases hany : (st.program.operands t).any
        (fun arg => decide (st.program.op arg ≠ Op.Constant)) = true
    · unfold ConstantFolder.visit
      rw [hops] at hany
      simp only [hops, hany, if_true]
    · have hany2 : (st.program.operands t).any
          (fun arg => decide (st.program.op arg ≠ Op.Constant)) = false := by simpa using hany
      rcases h with h | ⟨o, ho, hoc⟩ | h | h
      · rw [hops] at h
        exact absurd h (by simp)
      · exfalso
        apply hany
        rw [List.any_eq_true]
        exact ⟨o, ho, by simpa using hoc⟩
      · unfold ConstantFolder.visit
        rw [hops] at hany2
        simp only [hops, hany2, h, Bool.false_eq_true, if_false]
      · unfold ConstantFolder.visit
        rw [hops] at hany2
        simp only [hops, hany2, h, Bool.false_eq_true, if_false]

/-- A term the pass has folded is the operand of no term. -/
theorem foldInv_folded_unused (p0 : Program) (fold : Nat → Option Nat) (env : ConstantFolder)
    (visited : List Nat) (hJ : FoldInv p0 fold env visited) (t : Nat) (htv : t ∈ visited)
    (hop : isFoldedOp (env.program.op t) = true) (hne : env.program.operands t ≠ [])
    (hall : ∀ o ∈ env.program.operands t, env.program.op o = Op.Constant) :
    env.program.uses t = [] := by
  obtain ⟨K, hK⟩ := Option.isSome_iff_exists.mp (hJ.folded t htv hop hne hall)
  have hsub : ∀ y, (fold y).getD y ≠ t := by
    intro y
    cases hfy : fold y with
    | none =>
      simp only [Option.getD_none]
      intro hyt
      rw [hyt, hK] at hfy
      exact Option.noConfusion hfy
    | some K1 =>
      simp only [Option.getD_some]
      have h1 := (hJ.fold_some y K1 hfy).2.2.1
      have h2 := (hJ.fold_some t K hK).2.1
      omega
  apply List.eq_nil_iff_forall_not_mem.mpr
  intro u hu
  have hpos := List.count_pos_iff.mpr hu
  rw [← hJ.cons.sym u t] at hpos
  have hm := List.count_pos_iff.mp hpos
  rw [hJ.subst u] at hm
  obtain ⟨y, _, hy⟩ := List.mem_map.mp hm
  exact hsub y hy

/-- A forward pass of `ConstantFolder` over a program it admits returns with
the invariant of the pass, with sets of sources and sinks free of repetition
and with the maps of inputs and outputs it started with. -/
theorem foldPass_result (p0 : Program) (scale : TermMapOptional) (fuel : Nat)
    (hA : ConstantFolder.Admits p0) (hfuel : 2 * p0.nextTermIndex ≤ fuel) :
    ∃ st fold, forwardPass ConstantFolder.rewriter fuel
        { program := p0, scale := scale, ok := true } = some st ∧
      FoldInv p0 fold st.env st.visited ∧ st.env.program.SetsNodup ∧
      st.env.program.inputs = p0.inputs ∧ st.env.program.outputs = p0.outputs ∧
      ∀ t, t ∈ st.visited ↔ t < st.env.program.nextTermIndex := by
  obtain ⟨st, h1, _, ⟨⟨fold, hJ⟩, hs, hi, ho⟩, _, hvis⟩ :=
    forwardPass_redirecting ConstantFolder.rewriter
    (fun env visited => (∃ fold, FoldInv p0 fold env visited) ∧ env.program.SetsNodup ∧
      env.program.inputs = p0.inputs ∧ env.program.outputs = p0.outputs)
    (2 * p0.nextTermIndex)
    (fun env visited h => h.1.choose_spec.cons)
    (fun env visited h => h.1.choose_spec.acyc)
    (fun env visited h => foldInv_bound p0 _ env visited h.1.choose_spec)
    (fun env visited term h hnot hlt hpred => by
      obtain ⟨env1, e1, e2, e3⟩ := fold_step p0 hA env visited term h.1 hnot hlt hpred
      obtain ⟨k1, k2, k3⟩ := visit_keeps env term env1 e1
      exact ⟨env1, e1, ⟨e2, k1 h.2.1, by rw [k2, h.2.2.1], by rw [k3, h.2.2.2]⟩, e3⟩)
    { program := p0, scale := scale, ok := true }
    ⟨⟨_, foldInv_init p0 hA scale⟩, hA.wf.sets, rfl, rfl⟩
    hA.wf.sets.1 fuel hfuel
  exact ⟨st, fold, h1, hJ, hs, hi, ho, hvis⟩


theorem foldSampleOut_admits : ConstantFolder.Admits foldSampleOut := by
  have hwf : foldSampleOut.WellFormed :=
    ⟨⟨foldSample_admits.wf.consistent.sym, foldSample_admits.wf.consistent.src,
      foldSample_admits.wf.consistent.snk, foldSample_admits.wf.consistent.fresh⟩,
     foldSample_admits.wf.sets⟩
  exact ⟨hwf, foldSample_admits.acyclic, foldSample_admits.vec, foldSample_admits.ops,
    foldSample_admits.arity2, foldSample_admits.arity1, foldSample_admits.rot,
    foldSample_admits.consts⟩

/-- With the handles on every term kept, so that no term is destroyed, the
second pass over `y = negate(add(const([1, 2]), const([3, 4])))` folds the
`Add` and the `Negate` once more: they have no use left, and the two
constants it creates (the terms 7 and 8) have none either, while the output
(term 4) still reads the constant of the first pass (term 6). -/
theorem constantFolder_refolds_kept_terms :
    ((forwardPass ConstantFolder.rewriter 10
        { program := foldSampleOut, scale := fun _ => none, ok := true }).bind
      (fun st => (forwardPass ConstantFolder.rewriter 10
        { program := st.env.program, scale := fun _ => none, ok := true }).map
        (fun st2 => (st.env.program.nextTermIndex, st2.env.program.nextTermIndex,
          st2.env.program.operands 4, st2.env.program.uses 7 ++ st2.env.program.uses 8))))
      = some (7, 9, [6], []) := by
  decide!

/-- C28: constant folding is idempotent.  Over a program that
`ConstantFolder` admits and whose maps of inputs and outputs hold no term of
a folded operation, a forward pass returns (twice the number of terms is
enough fuel).  Once the handles of the pass are released, every term that
neither a map nor an operand list holds is destroyed; the terms left, the
sources and the terms with operands, include every term a map holds and
every operand of a term left, and keep operation, attributes and operands.
A second forward pass over that program returns (its number of terms is
enough fuel) with the program, the scales and the flag it started from: it
creates no term and changes no edge, and it has called the rewriter exactly
once on every term left. -/
theorem constantFolder_idempotent (p0 : Program) (scale : TermMapOptional) (fuel : Nat)
    (hA : ConstantFolder.Admits p0)
    (hheld : ∀ t, p0.holds t = true → isFoldedOp (p0.op t) = false)
    (hfuel : 2 * p0.nextTermIndex ≤ fuel) :
    ∃ st1, forwardPass ConstantFolder.rewriter fuel
        { program := p0, scale := scale, ok := true } = some st1 ∧
      st1.env.program.releaseAll.nextTermIndex = st1.env.program.nextTermIndex ∧
      st1.env.program.releaseAll.inputs = p0.inputs ∧
      st1.env.program.releaseAll.outputs = p0.outputs ∧
      (∀ t, p0.holds t = true → t < st1.env.program.nextTermIndex →
        st1.env.program.releaseAll.live t) ∧
      (∀ t, st1.env.program.releaseAll.live t →
        st1.env.program.releaseAll.operands t = st1.env.program.operands t ∧
        st1.env.program.releaseAll.op t = st1.env.program.op t ∧
        st1.env.program.releaseAll.attributes t = st1.env.program.attributes t ∧
        ∀ o ∈ st1.env.program.operands t, st1.env.program.releaseAll.live o) ∧
      ∀ (scale2 : TermMapOptional) (fuel2 : Nat),
        st1.env.program.releaseAll.nextTermIndex ≤ fuel2 →
        ∃ st2, forwardPass ConstantFolder.rewriter fuel2
            { program := st1.env.program.releaseAll, scale := scale2, ok := true } = some st2 ∧
          st2.env = { program := st1.env.program.releaseAll, scale := scale2, ok := true } ∧
          st2.visited.Nodup ∧
          ∀ t, t ∈ st2.visited ↔ st1.env.program.releaseAll.live t := by
  obtain ⟨st1, fold, h1, hJ, hs, hi, ho, hvis⟩ := foldPass_result p0 scale fuel hA hfuel
  obtain ⟨dead, hrel, hsink⟩ := releaseAll_spec st1.env.program hJ.cons hs
  have hP : st1.env.program.releaseAll.Partial dead := by
    have := hrel.part
    rwa [List.append_nil] at this
  have hne_alive : ∀ t, st1.env.program.releaseAll.operands t ≠ [] →
      t < st1.env.program.releaseAll.nextTermIndex ∧ t ∉ dead := by
    intro t hne
    refine ⟨?_, fun hd => hne (hP.blank t hd).1⟩
    by_contra hlt
    exact hne (hP.fresh t (by omega)).1
  have huse_alive : ∀ t, st1.env.program.releaseAll.uses t ≠ [] →
      t < st1.env.program.releaseAll.nextTermIndex ∧ t ∉ dead := by
    intro t hne
    refine ⟨?_, fun hd => hne (hP.blank t hd).2⟩
    by_contra hlt
    exact hne (hP.fresh t (by omega)).2
  have hlive : ∀ t, st1.env.program.releaseAll.live t ↔
      (t < st1.env.program.releaseAll.nextTermIndex ∧ t ∉ dead) := by
    intro t
    unfold Program.live
    constructor
    · rintro (h | h)
      · have := (hP.src t).mp h
        exact ⟨this.1, this.2.1⟩
      · exact hne_alive t h
    · intro h
      by_cases hops : st1.env.program.releaseAll.operands t = []
      · exact Or.inl ((hP.src t).mpr ⟨h.1, h.2, hops⟩)
      · exact Or.inr hops
  have huse : ∀ t u, u ∈ st1.env.program.releaseAll.uses t →
      u < st1.env.program.releaseAll.nextTermIndex ∧ u ∉ dead := by
    intro t u hu
    apply hne_alive
    intro hnil
    have hpos := List.count_pos_iff.mpr hu
    rw [← hP.sym u t, hnil] at hpos
    simp at hpos
  have hopd : ∀ t o, o ∈ st1.env.program.releaseAll.operands t →
      o < st1.env.program.releaseAll.nextTermIndex ∧ o ∉ dead := by
    intro t o ho
    apply huse_alive
    intro hnil
    have hpos := List.count_pos_iff.mpr ho
    rw [hP.sym t o, hnil] at hpos
    simp at hpos
  have hac : st1.env.program.releaseAll.Acyclic := by
    obtain ⟨rank, hrank⟩ := hJ.acyc
    refine ⟨rank, ?_⟩
    intro t o ho
    have hne : st1.env.program.releaseAll.operands t ≠ [] := by
      intro hnil
      rw [hnil] at ho
      simp at ho
    rw [(hrel.frame t (hne_alive t hne).2).1] at ho
    exact hrank t o ho
  have hholds : ∀ t, st1.env.program.releaseAll.holds t = p0.holds t := by
    intro t
    rw [holds_congr _ _ hrel.inputs hrel.outputs, holds_congr _ _ hi ho]
  have hR : ∀ (scale2 : TermMapOptional) (t : Nat),
      (t < st1.env.program.releaseAll.nextTermIndex ∧ t ∉ dead) →
      ConstantFolder.rewriter.rewrite
        { program := st1.env.program.releaseAll, scale := scale2, ok := true } t
        = some { program := st1.env.program.releaseAll, scale := scale2, ok := true } := by
    intro scale2 t halive
    apply visit_idle
    show st1.env.program.releaseAll.operands t = [] ∨
      (∃ o ∈ st1.env.program.releaseAll.operands t,
        st1.env.program.releaseAll.op o ≠ Op.Constant) ∨
      st1.env.program.releaseAll.op t = Op.Output ∨
      st1.env.program.releaseAll.op t = Op.Encode
    by_cases hops : st1.env.program.releaseAll.operands t = []
    · exact Or.inl hops
    · right
      obtain ⟨f1, f2, _⟩ := hrel.frame t halive.2
      have hne : st1.env.program.operands t ≠ [] := by rw [← f1]; exact hops
      have ht0 : t < p0.nextTermIndex :=
        foldInv_old_of_operands p0 hA.wf.consistent.fresh fold st1.env st1.visited hJ t hne
      have hold := hJ.old t ht0
      have hne0 : p0.operands t ≠ [] := by
        intro h0
        apply hne
        rw [hJ.subst t, h0]
        rfl
      by_cases hall : ∀ o ∈ st1.env.program.releaseAll.operands t,
          st1.env.program.releaseAll.op o = Op.Constant
      · right
        rcases hA.ops t ht0 hne0 with hop | hop | hop
        · exfalso
          have hallq : ∀ o ∈ st1.env.program.operands t, st1.env.program.op o = Op.Constant := by
            intro o ho
            have ho1 : o ∈ st1.env.program.releaseAll.operands t := by rw [f1]; exact ho
            rw [← (hrel.frame o (hopd t o ho1).2).2.1]
            exact hall o ho1
          have hunused := foldInv_folded_unused p0 fold st1.env st1.visited hJ t
            ((hvis t).mpr (lt_of_lt_of_le ht0 hJ.next_ge)) (by rw [hold.1]; exact hop) hne hallq
          have hunused1 : st1.env.program.releaseAll.uses t = [] := by
            apply List.eq_nil_iff_forall_not_mem.mpr
            intro y hy
            have := hrel.uses t y hy
            rw [hunused] at this
            simp at this
          have hmem : t ∈ st1.env.program.releaseAll.sinks :=
            (hP.snk t).mpr ⟨halive.1, halive.2, hunused1⟩
          have hh := hsink t hmem
          rw [hholds t] at hh
          have := hheld t hh
          rw [hop] at this
          exact Bool.noConfusion this
        · exact Or.inl (by rw [f2, hold.1]; exact hop)
        · exact Or.inr (by rw [f2, hold.1]; exact hop)
      · left
        push_neg at hall
        exact hall
  refine ⟨st1, h1, hrel.next, by rw [hrel.inputs, hi], by rw [hrel.outputs, ho], ?_, ?_, ?_⟩
  · intro t ht hlt
    apply (hlive t).mpr
    refine ⟨by rw [hrel.next]; exact hlt, ?_⟩
    intro hd
    have := hrel.unheld t hd
    rw [holds_congr _ _ hi ho, ht] at this
    exact Bool.noConfusion this
  · intro t ht
    have halive := (hlive t).mp ht
    obtain ⟨f1, f2, f3⟩ := hrel.frame t halive.2
    refine ⟨f1, f2, f3, ?_⟩
    intro o ho
    exact (hlive o).mpr (hopd t o (by rw [f1]; exact ho))
  · intro scale2 fuel2 hfuel2
    obtain ⟨st2, e1, e2, e3, e4⟩ := forwardPass_idle ConstantFolder.rewriter
      { program := st1.env.program.releaseAll, scale := scale2, ok := true }
      (fun t => t < st1.env.program.releaseAll.nextTermIndex ∧ t ∉ dead)
      hP.sym (fun t => (hP.src t).trans ⟨fun h => ⟨⟨h.1, h.2.1⟩, h.2.2⟩,
        fun h => ⟨h.1.1, h.1.2, h.2⟩⟩)
      hP.sets.1 huse hopd (fun t h => h.1) hac (hR scale2) fuel2 hfuel2
    refine ⟨st2, e1, e2, e3, ?_⟩
    intro t
    rw [e4 t, hlive t]

/-- Witness of C28 on `y = negate(add(const([1, 2]), const([3, 4])))` with
vector size 2 and the output `y` in the map of outputs: after the first pass
and the release of its handles the program is the output (term 4) over the
constant `[-4, -6]` (term 6), and the second pass calls the rewriter on these
two terms and leaves seven as the next index. -/
theorem constantFolder_idempotent_witness :
    ((forwardPass ConstantFolder.rewriter 10
        { program := foldSampleOut, scale := fun _ => none, ok := true }).map
      (fun st => (st.env.program.releaseAll.nextTermIndex, st.env.program.releaseAll.sources,
        st.env.program.releaseAll.sinks, st.env.program.releaseAll.operands 4)))
      = some (7, [6], [4], [6]) ∧
    ((forwardPass ConstantFolder.rewriter 10
        { program := foldSampleOut, scale := fun _ => none, ok := true }).bind
      (fun st => (forwardPass ConstantFolder.rewriter 7
        { program := st.env.program.releaseAll, scale := fun _ => none, ok := true }).map
        (fun st2 => (st2.visited, st2.env.program.nextTermIndex, st2.env.program.operands 4))))
      = some ([6, 4], 7, [6]) ∧
    ∃ st1, forwardPass ConstantFolder.rewriter 10
        { program := foldSampleOut, scale := fun _ => none, ok := true } = some st1 ∧
      st1.env.program.releaseAll.nextTermIndex = st1.env.program.nextTermIndex ∧
      st1.env.program.releaseAll.inputs = foldSampleOut.inputs ∧
      st1.env.program.releaseAll.outputs = foldSampleOut.outputs ∧
      (∀ t, foldSampleOut.holds t = true → t < st1.env.program.nextTermIndex →
        st1.env.program.releaseAll.live t) ∧
      (∀ t, st1.env.program.releaseAll.live t →
        st1.env.program.releaseAll.operands t = st1.env.program.operands t ∧
        st1.env.program.releaseAll.op t = st1.env.program.op t ∧
        st1.env.program.releaseAll.attributes t = st1.env.program.attributes t ∧
        ∀ o ∈ st1.env.program.operands t, st1.env.program.releaseAll.live o) ∧
      ∀ (scale2 : TermMapOptional) (fuel2 : Nat),
        st1.env.program.releaseAll.nextTermIndex ≤ fuel2 →
        ∃ st2, forwardPass ConstantFolder.rewriter fuel2
            { program := st1.env.program.releaseAll, scale := scale2, ok := true } = some st2 ∧
          st2.env = { program := st1.env.program.releaseAll, scale := scale2, ok := true } ∧
          st2.visited.Nodup ∧
          ∀ t, t ∈ st2.visited ↔ st1.env.program.releaseAll.live t :=
  ⟨by decide!, by decide!,
   constantFolder_idempotent foldSampleOut (fun _ => none) 10 foldSampleOut_admits
    (by
      intro t ht
      have hin : foldSampleOut.inputs = [] := by decide!
      have hout : foldSampleOut.outputs = [("y", 4)] := by decide!
      have h4 : t = 4 := by
        unfold Program.holds at ht
        rw [hin, hout] at ht
        simpa [eq_comm] using ht
      subst h4
      decide!)
    (by decide!)⟩


/-! ## `TypeDeducer` and `Plain` operands -/

theorem plainSum_wellFormed : plainSum.WellFormed :=
  run_wellFormed "plainSum" 8 _ _ (run_eq_foldl _ _ (by decide!))

theorem plainSum_acyclic : plainSum.Acyclic := by
  refine ⟨fun x => x, ?_⟩
  intro t o ho
  have hlt := (plainSum_wellFormed.consistent.operand_lt ho).1
  have hb : ∀ t, t < plainSum.nextTermIndex → ∀ o ∈ plainSum.operands t, o < t := by
    decide!
  exact hb t hlt o ho

/-- C39: after a forward pass of `TypeDeducer` over a well-formed acyclic
program whose sources other than constants carry a `TypeAttribute`, no term
with operands other than an `Encode` is `Plain`: such a term is `Cipher` when
one of its operands is `Cipher`, and it is `Raw` when none is, whatever the
types of its operands are otherwise, `Plain` included. -/
theorem typeDeducer_never_plain (q : Program) (ty0 : Nat → TermType) (hwf : q.WellFormed)
    (hac : q.Acyclic)
    (hsrc : ∀ s, s < q.nextTermIndex → q.operands s = [] → q.op s ≠ Op.Constant →
      (AttributeList.getType (q.attributes s)).isSome)
    (fuel : Nat) (hfuel : q.nextTermIndex ≤ fuel) :
    ∃ st, forwardPass TypeDeducer.rewriter fuel { program := q, types := ty0 } = some st ∧
      ∀ t, t < q.nextTermIndex → q.operands t ≠ [] → q.op t ≠ Op.Encode →
        st.env.types t ≠ TermType.Plain ∧
        ((∃ o ∈ q.operands t, st.env.types o = TermType.Cipher) →
          st.env.types t = TermType.Cipher) ∧
        ((∀ o ∈ q.operands t, st.env.types o ≠ TermType.Cipher) →
          st.env.types t = TermType.Raw) := by
  obtain ⟨st, h1, _, hprog, hJ, hcount, _⟩ := traverse_spec true TypeDeducer.rewriter
    { program := q, types := ty0 } (TypeDeducerInv q)
    (fun env1 visited term _ hJ hnot hlt hpred =>
      typeDeducer_step q hsrc env1 visited term hJ hnot hlt
        (fun o ho => hpred o (by simpa [predecessors] using ho)))
    ⟨rfl, by simp, by simp⟩
    (dirFacts_forward q hwf.consistent hac) hwf.sets.1 fuel hfuel
  refine ⟨st, h1, ?_⟩
  intro t ht hne henc
  have hrule : TypeRule q st.env.types t := by
    apply hJ.2.2 t
    have hc := hcount t
    have ht1 : t < (TypeDeducer.rewriter.program
        { program := q, types := ty0 }).nextTermIndex := ht
    rw [if_pos ht1] at hc
    exact List.count_pos_iff.mp (by omega)
  unfold TypeRule at hrule
  rw [if_neg hne, if_neg henc] at hrule
  rcases inferredType_cases st.env.types (q.operands t) with hc | hr
  · refine ⟨by rw [hrule, hc]; decide, fun _ => by rw [hrule, hc], ?_⟩
    intro hall
    obtain ⟨o, ho, hoc⟩ := (inferredType_eq_cipher _ _).mp hc
    exact absurd hoc (hall o ho)
  · refine ⟨by rw [hrule, hr]; decide, ?_, fun _ => by rw [hrule, hr]⟩
    intro hex
    rw [hrule]
    exact (inferredType_eq_cipher _ _).mpr hex

/-- Witness of C39 on `plainSum`: the pass returns with the constant `Raw`,
the `Encode` `Plain`, and the `Add` of two `Plain` operands and the `Mul` of a
`Plain` and a `Raw` operand both `Raw`. -/
theorem typeDeducer_never_plain_witness :
    (forwardPass TypeDeducer.rewriter 4
        { program := plainSum, types := fun _ => TermType.Undef }).map
      (fun st => (List.range 4).map st.env.types)
      = some [TermType.Raw, TermType.Plain, TermType.Raw, TermType.Raw] ∧
    ∃ st, forwardPass TypeDeducer.rewriter 4
        { program := plainSum, types := fun _ => TermType.Undef } = some st ∧
      ∀ t, t < plainSum.nextTermIndex → plainSum.operands t ≠ [] →
        plainSum.op t ≠ Op.Encode →
        st.env.types t ≠ TermType.Plain ∧
        ((∃ o ∈ plainSum.operands t, st.env.types o = TermType.Cipher) →
          st.env.types t = TermType.Cipher) ∧
        ((∀ o ∈ plainSum.operands t, st.env.types o ≠ TermType.Cipher) →
          st.env.types t = TermType.Raw) :=
  ⟨by decide!,
   typeDeducer_never_plain plainSum (fun _ => TermType.Undef) plainSum_wellFormed
     plainSum_acyclic (by decide!) 4 (by decide!)⟩

/-! ## The attribute list as a sorted map -/

theorem has_get_none (k : Nat) : ∀ l : AttributeList,
    AttributeList.get l k = none ↔ AttributeList.has l k = false := by
  intro l
  induction l with
  | nil => simp [AttributeList.get, AttributeList.has]
  | cons a l ih =>
    obtain ⟨key, value⟩ := a
    simp only [AttributeList.get, AttributeList.has]
    by_cases h1 : key = k
    · rw [if_pos h1, if_neg (by omega)]
      simp [h1]
    · rw [if_neg h1]
      by_cases h2 : key < k
      · rw [if_pos h2, if_pos h2]
        exact ih
      · rw [if_neg h2, if_neg h2]
        simp [h1]

theorem has_set (k k1 : Nat) (v : AttributeValue) : ∀ l : AttributeList,
    AttributeList.has (AttributeList.set l k v) k1
      = (decide (k1 = k) || AttributeList.has l k1) := by
  intro l
  by_cases hk : k1 = k
  · subst hk
    have := get_set_same k1 v l
    have h2 : AttributeList.has (AttributeList.set l k1 v) k1 = true := by
      by_contra hn
      have := (has_get_none k1 _).mpr (by simpa using hn)
      rw [get_set_same] at this
      exact Option.noConfusion this
    rw [h2]
    simp
  · have hg := get_set_other k k1 v hk l
    have h1 := has_get_none k1 (AttributeList.set l k v)
    have h2 := has_get_none k1 l
    rw [hg] at h1
    simp only [hk, decide_False, Bool.false_or]
    cases hh : AttributeList.has l k1 with
    | false =>
      exact h1.mp (h2.mpr hh)
    | true =>
      by_contra hn
      have := h2.mp (h1.mpr (by simpa using hn))
      rw [hh] at this
      exact Bool.noConfusion this

theorem set_keys_mem (k : Nat) (v : AttributeValue) : ∀ (l : AttributeList) (x : Nat),
    x ∈ (AttributeList.set l k v).map Prod.fst ↔ (x = k ∨ x ∈ l.map Prod.fst) := by
  intro l
  induction l with
  | nil => intro x; simp [AttributeList.set]
  | cons a l ih =>
    intro x
    obtain ⟨key, value⟩ := a
    simp only [AttributeList.set]
    by_cases h1 : key < k
    · rw [if_pos h1]
      simp only [List.map_cons, List.mem_cons, ih]
      tauto
    · rw [if_neg h1]
      by_cases h2 : k < key
      · rw [if_pos h2]
        simp only [List.map_cons, List.mem_cons]
      · rw [if_neg h2]
        have hkk : key = k := by omega
        simp only [List.map_cons, List.mem_cons, hkk]
        tauto

/-- The call `set` keeps the keys strictly increasing. -/
theorem set_sorted (k : Nat) (v : AttributeValue) : ∀ l : AttributeList,
    (l.map Prod.fst).Pairwise (fun a b => a < b) →
    ((AttributeList.set l k v).map Prod.fst).Pairwise (fun a b => a < b) := by
  intro l
  induction l with
  | nil => intro _; simp [AttributeList.set]
  | cons a l ih =>
    intro hs
    obtain ⟨key, value⟩ := a
    simp only [List.map_cons, List.pairwise_cons] at hs
    simp only [AttributeList.set]
    by_cases h1 : key < k
    · rw [if_pos h1]
      simp only [List.map_cons, List.pairwise_cons]
      refine ⟨?_, ih hs.2⟩
      intro x hx
      rcases (set_keys_mem k v l x).mp hx with rfl | hx
      · exact h1
      · exact hs.1 x hx
    · rw [if_neg h1]
      by_cases h2 : k < key
      · rw [if_pos h2]
        simp only [List.map_cons, List.pairwise_cons, List.mem_cons]
        refine ⟨?_, hs.1, hs.2⟩
        rintro x (rfl | hx)
        · exact h2
        · exact lt_trans h2 (hs.1 x hx)
      · rw [if_neg h2]
        simp only [List.map_cons, List.pairwise_cons]
        exact hs

theorem setAll_snoc (ops : List (Nat × AttributeValue)) (e : Nat × AttributeValue) :
    AttributeList.setAll (ops ++ [e]) = AttributeList.set (AttributeList.setAll ops) e.1 e.2 := by
  simp [AttributeList.setAll, List.foldl_append]

theorem lastSet_snoc (ops : List (Nat × AttributeValue)) (e : Nat × AttributeValue) (k : Nat) :
    lastSet (ops ++ [e]) k = if e.1 = k then some e.2 else lastSet ops k := by
  unfold lastSet
  rw [List.reverse_append]
  simp only [List.reverse_cons, List.reverse_nil, List.nil_append, List.singleton_append,
    List.find?_cons]
  by_cases h : e.1 = k
  · simp [h]
  · have hb : (e.1 == k) = false := by simpa using h
    rw [hb, if_neg h]

/-- C33: the attribute list is a sorted finite map.  After any sequence of
calls of `set` with keys above zero (the keys of the attributes are) on a
list that starts empty, the stored keys are strictly increasing; for every key
`k` above zero, `has(k)` holds if and only if a call has set `k`, `get(k)`
returns the value of the last call that set `k`, a further `set` of another
key leaves `get(k)` as it is, and `get(k)` raises `out_of_range` exactly when
`has(k)` is false. -/
theorem attributeList_sorted_map (ops : List (Nat × AttributeValue))
    (hpos : ∀ e ∈ ops, 0 < e.1) :
    ((AttributeList.setAll ops).map Prod.fst).Pairwise (fun a b => a < b) ∧
    (∀ x ∈ (AttributeList.setAll ops).map Prod.fst, 0 < x) ∧
    ∀ k, 0 < k →
      (AttributeList.has (AttributeList.setAll ops) k = true ↔ ∃ e ∈ ops, e.1 = k) ∧
      AttributeList.get (AttributeList.setAll ops) k = lastSet ops k ∧
      (∀ k1 v, 0 < k1 → k1 ≠ k →
        AttributeList.get (AttributeList.set (AttributeList.setAll ops) k1 v) k
          = AttributeList.get (AttributeList.setAll ops) k) ∧
      (AttributeList.get (AttributeList.setAll ops) k = none
        ↔ AttributeList.has (AttributeList.setAll ops) k = false) := by
  induction ops using List.reverseRecOn with
  | nil =>
    refine ⟨by simp [AttributeList.setAll], by simp [AttributeList.setAll], ?_⟩
    intro k _
    refine ⟨by simp [AttributeList.setAll, AttributeList.has],
      by simp [AttributeList.setAll, AttributeList.get, lastSet], ?_, has_get_none k _⟩
    intro k1 v _ hne
    exact get_set_other k1 k v (fun h => hne h.symm) _
  | append_singleton ops e ih =>
    obtain ⟨ih1, ih2, ih3⟩ := ih (fun x hx => hpos x (by simp [hx]))
    rw [setAll_snoc]
    refine ⟨set_sorted _ _ _ ih1, ?_, ?_⟩
    · intro x hx
      rcases (set_keys_mem _ _ _ x).mp hx with rfl | hx
      · exact hpos e (by simp)
      · exact ih2 x hx
    · intro k hk
      obtain ⟨j1, j2, _, _⟩ := ih3 k hk
      refine ⟨?_, ?_, ?_, has_get_none k _⟩
      · rw [has_set]
        simp only [Bool.or_eq_true, decide_eq_true_eq, j1, List.mem_append, List.mem_singleton]
        constructor
        · rintro (h | ⟨x, hx, hxk⟩)
          · exact ⟨e, Or.inr rfl, h.symm⟩
          · exact ⟨x, Or.inl hx, hxk⟩
        · rintro ⟨x, hx | hx, hxk⟩
          · exact Or.inr ⟨x, hx, hxk⟩
          · subst hx
            exact Or.inl hxk.symm
      · rw [lastSet_snoc]
        by_cases h : e.1 = k
        · rw [if_pos h, ← h]
          exact get_set_same _ _ _
        · rw [if_neg h, get_set_other _ _ _ (fun h1 => h h1.symm), j2]
      · intro k1 v _ hne
        exact get_set_other k1 k v (fun h => hne h.symm) _

/-- Witness of C33 on the calls `attributeOps`: the list holds the keys 1, 4
and 6, the divisor is the one set last, and an attribute that was never set
is reported absent. -/
theorem attributeList_sorted_map_witness :
    (AttributeList.setAll attributeOps).map Prod.fst = [1, 4, 6] ∧
    AttributeList.get (AttributeList.setAll attributeOps) RescaleDivisorAttribute
      = some (AttributeValue.uint32 40) ∧
    AttributeList.get (AttributeList.setAll attributeOps) RangeAttribute = none ∧
    (((AttributeList.setAll attributeOps).map Prod.fst).Pairwise (fun a b => a < b) ∧
    (∀ x ∈ (AttributeList.setAll attributeOps).map Prod.fst, 0 < x) ∧
    ∀ k, 0 < k →
      (AttributeList.has (AttributeList.setAll attributeOps) k = true
        ↔ ∃ e ∈ attributeOps, e.1 = k) ∧
      AttributeList.get (AttributeList.setAll attributeOps) k = lastSet attributeOps k ∧
      (∀ k1 v, 0 < k1 → k1 ≠ k →
        AttributeList.get (AttributeList.set (AttributeList.setAll attributeOps) k1 v) k
          = AttributeList.get (AttributeList.setAll attributeOps) k) ∧
      (AttributeList.get (AttributeList.setAll attributeOps) k = none
        ↔ AttributeList.has (AttributeList.setAll attributeOps) k = false)) :=
  ⟨by decide!, by decide!, by decide!,
   attributeList_sorted_map attributeOps (by decide!)⟩

/-! ## The top primes hold the output -/

theorem topPrimes_eq (st : EncryptionParametersSelector)
    (hr : ∀ e ∈ st.program.outputs,
      (AttributeList.getUInt32 (st.program.attributes e.2) RangeAttribute).isSome) :
    st.topPrimes = some st.specTopPrimes := by
  unfold EncryptionParametersSelector.topPrimes EncryptionParametersSelector.specTopPrimes
  rw [scanOutputs_eq st _ hr]
  simp only [Nat.zero_max]
  have hS : listMax (st.program.outputs.map (fun e => add32 (st.range e.2) (st.scales.val e.2)))
      = st.specMaxOutputSize := rfl
  have hP : listMax (st.program.outputs.map (fun e => listMax (st.terms e.2)))
      = st.specMaxParm := rfl
  rw [hS, hP]
  by_cases hgt : st.specMaxOutputSize > 60
  · have hle : ¬ st.specMaxOutputSize ≤ 60 := by omega
    rw [if_pos hgt, if_neg hle,
      pushSixties_eq _ _ [] (specMaxOutputSize_lt st) (Nat.div_le_self _ _)]
    simp only [List.nil_append]
    congr 1
    by_cases hz : st.specMaxOutputSize % 60 = 0
    · simp [hz]
    · have hpos : st.specMaxOutputSize % 60 > 0 := by omega
      simp only [hpos, if_true, hz, if_false]
      have : (if 20 < st.specMaxOutputSize % 60 then st.specMaxOutputSize % 60 else 20)
          = max 20 (st.specMaxOutputSize % 60) := by
        split <;> omega
      rw [this]
  · have hle : st.specMaxOutputSize ≤ 60 := by omega
    rw [if_neg hgt, if_pos hle]
    have : (if st.specMaxOutputSize > st.specMaxParm then st.specMaxOutputSize
        else st.specMaxParm) = max st.specMaxParm st.specMaxOutputSize := by
      split <;> omega
    simp only [this]

theorem specTopPrimes_sum (st : EncryptionParametersSelector) :
    st.specMaxOutputSize ≤ st.specTopPrimes.sum := by
  unfold EncryptionParametersSelector.specTopPrimes
  by_cases hle : st.specMaxOutputSize ≤ 60
  · rw [if_pos hle]
    simp
  · rw [if_neg hle]
    have hdiv := Nat.div_add_mod st.specMaxOutputSize 60
    by_cases hz : st.specMaxOutputSize % 60 = 0
    · rw [if_pos hz]
      simp only [List.append_nil, List.sum_replicate, smul_eq_mul]
      omega
    · rw [if_neg hz]
      simp only [List.sum_append, List.sum_replicate, smul_eq_mul, List.sum_cons, List.sum_nil]
      omega

/-- C36: the top primes suffice to hold the output.  When every output
carries a `RangeAttribute`, `getEncryptionParameters` returns the primes it has
pushed for the size of the output, then the middle primes, then the key
prime, and the bit counts of the former sum to at least `RangeAttribute +
scale` of every output, the sum being the one on 32 bits that the code forms;
it is the sum of the two numbers when that is below `2^32`. -/
theorem topPrimes_hold_output (st : EncryptionParametersSelector)
    (hr : ∀ e ∈ st.program.outputs,
      (AttributeList.getUInt32 (st.program.attributes e.2) RangeAttribute).isSome) :
    ∃ top key, st.topPrimes = some top ∧
      st.getEncryptionParameters = some (top ++ st.middlePrimes ++ [key]) ∧
      (∀ e ∈ st.program.outputs, add32 (st.range e.2) (st.scales.val e.2) ≤ top.sum) ∧
      ∀ e ∈ st.program.outputs, st.range e.2 + st.scales.val e.2 < u32 →
        st.range e.2 + st.scales.val e.2 ≤ top.sum := by
  have hbound : ∀ e ∈ st.program.outputs,
      add32 (st.range e.2) (st.scales.val e.2) ≤ st.specTopPrimes.sum := by
    intro e he
    refine le_trans ?_ (specTopPrimes_sum st)
    exact listMax_ge _ _ (List.mem_map.mpr ⟨e, he, rfl⟩)
  refine ⟨st.specTopPrimes, st.specKeyPrime, topPrimes_eq st hr, ?_, hbound, ?_⟩
  · rw [getEncryptionParameters_eq st hr]
    unfold EncryptionParametersSelector.specTopPrimes EncryptionParametersSelector.specKeyPrime
    by_cases hle : st.specMaxOutputSize ≤ 60
    · simp only [if_pos hle]
    · simp only [if_neg hle]
  · intro e he hlt
    have := hbound e he
    unfold add32 at this
    rwa [Nat.mod_eq_of_lt hlt] at this

/-- Witness of C36 on `rangeDemo`: the output needs `10 + 60 = 70` bits, the
top primes are 60 and 20, which sum to 80, and the list is `[60, 20, 40, 60]`. -/
theorem topPrimes_hold_output_witness :
    rangeDemo.topPrimes = some [60, 20] ∧
    rangeDemo.getEncryptionParameters = some [60, 20, 40, 60] ∧
    ∃ top key, rangeDemo.topPrimes = some top ∧
      rangeDemo.getEncryptionParameters = some (top ++ rangeDemo.middlePrimes ++ [key]) ∧
      (∀ e ∈ rangeDemo.program.outputs,
        add32 (rangeDemo.range e.2) (rangeDemo.scales.val e.2) ≤ top.sum) ∧
      ∀ e ∈ rangeDemo.program.outputs,
        rangeDemo.range e.2 + rangeDemo.scales.val e.2 < u32 →
        rangeDemo.range e.2 + rangeDemo.scales.val e.2 ≤ top.sum :=
  ⟨by decide!, by decide!, topPrimes_hold_output rangeDemo (by decide!)⟩

/-! ## `ScalesChecker` and the scale map handed to it -/

theorem traverseLoopE_toOption {σ ε : Type} (isForward : Bool) (R : RewriterE σ ε) (fuel : Nat) :
    ∀ st : TraversalState σ,
      traverseLoop isForward R.toRewriter fuel st
        = (traverseLoopE isForward R fuel st).bind (fun r => r.toOption) := by
  induction fuel with
  | zero =>
    intro st
    simp only [traverseLoop, traverseLoopE]
    split <;> rfl
  | succ fuel ih =>
    intro st
    simp only [traverseLoop, traverseLoopE]
    cases hrn : st.readyNodes with
    | nil => rfl
    | cons term rest =>
      simp only []
      cases hr : R.rewrite st.env term with
      | error e =>
        simp only [Option.bind_some, Except.toOption]
        have : traverseVisit isForward R.toRewriter st term rest = none := by
          simp [traverseVisit, RewriterE.toRewriter, hr, Except.toOption]
        rw [this]
        rfl
      | ok env =>
        simp only []
        cases hv : traverseVisit isForward R.toRewriter st term rest with
        | none => rfl
        | some st1 => exact ih st1

theorem sumAtE_toOption (scales : TermMapOptional) : ∀ (l : List Nat) (scale : Nat),
    (ScalesChecker.sumAtE scales l scale).toOption = ScalesChecker.sumAt scales l scale := by
  intro l
  induction l with
  | nil => intro scale; rfl
  | cons a l ih =>
    intro scale
    simp only [ScalesChecker.sumAtE, ScalesChecker.sumAt, TermMapOptional.atE,
      TermMapOptional.at]
    cases scales a with
    | none => rfl
    | some s => exact ih _

theorem sameAtE_toOption (scales : TermMapOptional) : ∀ (l : List Nat) (scale : Nat),
    (ScalesChecker.sameAtE scales l scale).toOption = ScalesChecker.sameAt scales l scale := by
  intro l
  induction l with
  | nil => intro scale; rfl
  | cons a l ih =>
    intro scale
    simp only [ScalesChecker.sameAtE, ScalesChecker.sameAt, TermMapOptional.atE,
      TermMapOptional.at]
    cases scales a with
    | none => split <;> rfl
    | some s =>
      simp only []
      split
      · exact ih _
      · split
        · rfl
        · exact ih _


theorem getUInt32E_toOption (l : AttributeList) (k : Nat) :
    (AttributeList.getUInt32E l k).toOption = AttributeList.getUInt32 l k := by
  unfold AttributeList.getUInt32E AttributeList.getUInt32
  cases AttributeList.get l k with
  | none => rfl
  | some v => cases v <;> rfl

theorem record_toOption (st : ScalesChecker) (term scale : Nat) (ok : Bool) :
    (st.record term scale ok).toOption
      = if scale = 0 then none
        else some { st with scales := st.scales.assign term scale, ok := st.ok && ok } := by
  unfold ScalesChecker.record
  by_cases hs : scale = 0
  · rw [if_pos hs, if_pos hs]; rfl
  · rw [if_neg hs, if_neg hs]; rfl

/-- The call operator with its exceptions reduced to `none` is the call
operator of the pass studied before. -/
theorem check_toOption (st : ScalesChecker) (term : Nat) :
    (st.check term).toOption = st.visit term := by
  unfold ScalesChecker.check ScalesChecker.visit
  by_cases h0 : st.types term = TermType.Raw
  · rw [if_pos h0, if_pos h0]; rfl
  rw [if_neg h0, if_neg h0]
  simp only []
  by_cases h1 : st.program.op term = Op.Input ∨ st.program.op term = Op.Encode
  · rw [if_pos h1, if_pos h1]
    have := getUInt32E_toOption (st.program.attributes term) EncodeAtScaleAttribute
    cases hg : AttributeList.getUInt32E (st.program.attributes term) EncodeAtScaleAttribute with
    | error e =>
      rw [hg] at this
      rw [← this]
      rfl
    | ok s =>
      rw [hg] at this
      rw [← this]
      simp only [Except.toOption]
      by_cases hs : s = 0
      · rw [if_pos hs, if_pos hs]
        by_cases hi : st.program.op term = Op.Input
        · rw [if_pos hi]
        · rw [if_neg hi]
      · rw [if_neg hs, if_neg hs]
  rw [if_neg h1, if_neg h1]
  by_cases h2 : st.program.op term = Op.Mul
  · rw [if_pos h2, if_pos h2]
    have := sumAtE_toOption st.scales (st.program.operands term) 0
    cases hg : ScalesChecker.sumAtE st.scales (st.program.operands term) 0 with
    | error e =>
      rw [hg] at this
      rw [← this]
      rfl
    | ok s =>
      rw [hg] at this
      rw [← this]
      simp only [Except.toOption]
      exact record_toOption _ _ _ _
  rw [if_neg h2, if_neg h2]
  by_cases h3 : st.program.op term = Op.Rescale
  · rw [if_pos h3, if_pos h3]
    have := getUInt32E_toOption (st.program.attributes term) RescaleDivisorAttribute
    cases hg : AttributeList.getUInt32E (st.program.attributes term) RescaleDivisorAttribute with
    | error e =>
      rw [hg] at this
      rw [← this]
      rfl
    | ok divisor =>
      rw [hg] at this
      rw [← this]
      simp only [Except.toOption, ScalesChecker.firstOperandScale, TermMapOptional.atE,
        TermMapOptional.at]
      cases st.program.operandAt term 0 with
      | none => rfl
      | some operand =>
        simp only []
        cases st.scales operand with
        | none => rfl
        | some operandScale =>
          exact record_toOption _ _ _ _
  rw [if_neg h3, if_neg h3]
  by_cases h4 : isAdditionOp (st.program.op term) = true
  · rw [if_pos h4, if_pos h4]
    have := sameAtE_toOption st.scales (st.program.operands term) 0
    cases hg : ScalesChecker.sameAtE st.scales (st.program.operands term) 0 with
    | error e =>
      rw [hg] at this
      rw [← this]
      rfl
    | ok s =>
      rw [hg] at this
      rw [← this]
      have hrec := record_toOption st term s true
      simp only [Except.toOption, Bool.and_true] at hrec ⊢
      exact hrec
  rw [if_neg h4, if_neg h4]
  simp only [ScalesChecker.firstOperandScale, TermMapOptional.atE, TermMapOptional.at]
  cases st.program.operandAt term 0 with
  | none => rfl
  | some operand =>
    simp only []
    cases st.scales operand with
    | none => rfl
    | some scale =>
      have hrec := record_toOption st term scale true
      simp only [Except.toOption, Bool.and_true] at hrec ⊢
      exact hrec

/-- The pass with its exceptions reduced to `none` is the forward pass of
`ScalesChecker.rewriter` from the state of `ScalesChecker.init`. -/
theorem run_toOption (fuel : Nat) (g : Program) (scales : TermMapOptional)
    (types : Nat → TermType) :
    (forwardPass ScalesChecker.rewriter fuel (ScalesChecker.init g types)).map
        (fun st => st.env.scales)
      = (ScalesChecker.run fuel g scales types).bind (fun r => r.toOption) := by
  have hR : ScalesChecker.rewriterE.toRewriter = ScalesChecker.rewriter := by
    unfold RewriterE.toRewriter ScalesChecker.rewriterE ScalesChecker.rewriter
    congr 1
    funext st term
    exact check_toOption st term
  have key : ∀ S : TraversalState ScalesChecker,
      (traverseLoop true ScalesChecker.rewriter fuel S).map (fun st => st.env.scales)
        = ((traverseLoopE true ScalesChecker.rewriterE fuel S).map
            (fun r => r.map (fun st => st.env.scales))).bind (fun r => r.toOption) := by
    intro S
    rw [← hR, traverseLoopE_toOption]
    cases traverseLoopE true ScalesChecker.rewriterE fuel S with
    | none => rfl
    | some r =>
      cases r with
      | error e => rfl
      | ok st => rfl
  exact key _

/-- C40: the outcome of `ScalesChecker` does not depend on the scale map
handed to it.  For one program and one type map, the forward passes of two
checkers built with the scale maps `s1` and `s2` raise the same exception or
return the same re-derived scales, with any fuel.  So on `y = (a * b) + c` with
`a`, `b` at scale 30 and `c` at scale 60 the pass returns the re-derived scales
(30, 30, 60, 60, 60, 60) although the map handed over says 7 for every term,
and with `c` at scale 30 it raises the exception of unequal scales although
the map handed over says 60 for every term. -/
theorem scalesChecker_ignores_scales :
    (∀ (fuel : Nat) (g : Program) (types : Nat → TermType) (s1 s2 : TermMapOptional),
      ScalesChecker.run fuel g s1 types = ScalesChecker.run fuel g s2 types) ∧
    ScalesChecker.outcome 6
        (ScalesChecker.run 6 (sumOfProduct 60) (fun _ => some 7) (fun _ => TermType.Cipher))
      = some (Sum.inr [some 30, some 30, some 60, some 60, some 60, some 60]) ∧
    ScalesChecker.outcome 6
        (ScalesChecker.run 6 (sumOfProduct 30) (fun _ => some 60) (fun _ => TermType.Cipher))
      = some (Sum.inl ScalesCheckerError.unequalScales) := by
  refine ⟨fun fuel g types s1 s2 => rfl, by decide!, by decide!⟩

/-! ## Constant rotation -/

theorem wrapInt32_id (z : Int) (h1 : -2147483648 ≤ z) (h2 : z < 2147483648) :
    wrapInt32 z = z := by
  unfold wrapInt32
  rw [Int.emod_eq_of_lt (by omega) (by omega)]
  omega

theorem shiftDown_spec (size : Nat) (hs : 0 < size) : ∀ (fuel : Nat) (shift : Int),
    0 ≤ shift → shift < 2147483648 → shift < ((fuel : Int) + 1) * (size : Int) →
    shiftDown fuel shift size = some (shift % (size : Int)) := by
  intro fuel
  induction fuel with
  | zero =>
    intro shift h0 h1 h2
    simp only [shiftDown]
    have hlt : shift < (size : Int) := by simpa using h2
    rw [if_neg (by omega), Int.emod_eq_of_lt h0 hlt]
  | succ fuel ih =>
    intro shift h0 h1 h2
    simp only [shiftDown]
    by_cases hc : shift > 0 ∧ shift ≥ (size : Int)
    · rw [if_pos hc, wrapInt32_id _ (by omega) (by omega)]
      have hsz : (0 : Int) < (size : Int) := by exact_mod_cast hs
      rw [ih (shift - size) (by omega) (by omega) (by
        push_cast at h2 ⊢
        nlinarith)]
      congr 1
      have := @Int.add_emod_self (shift - (size : Int)) (size : Int)
      rw [← this]
      congr 1
      ring
    · rw [if_neg hc]
      have hlt : shift < (size : Int) := by
        by_contra hge
        have hz : shift = 0 := by omega
        have : (0 : Int) < (size : Int) := by exact_mod_cast hs
        omega
      rw [Int.emod_eq_of_lt h0 hlt]

theorem shiftDown_neg (size : Nat) (fuel : Nat) (shift : Int) (h : shift ≤ 0) :
    shiftDown fuel shift size = some shift := by
  cases fuel with
  | zero => simp only [shiftDown]; rw [if_neg (by omega)]
  | succ fuel => simp only [shiftDown]; rw [if_neg (by omega)]

theorem shiftUp_spec (size : Nat) (hs : 0 < size) (hsz : size ≤ 2147483648) :
    ∀ (fuel : Nat) (shift : Int), -2147483648 ≤ shift → shift < (size : Int) →
    -shift ≤ (fuel : Int) * (size : Int) →
    shiftUp fuel shift size = some (shift % (size : Int)) := by
  intro fuel
  induction fuel with
  | zero =>
    intro shift h0 h1 h2
    simp only [shiftUp]
    have hge : 0 ≤ shift := by simpa using h2
    rw [if_neg (by omega), Int.emod_eq_of_lt hge h1]
  | succ fuel ih =>
    intro shift h0 h1 h2
    simp only [shiftUp]
    by_cases hc : shift < 0
    · have hsz1 : ((size : Nat) : Int) ≤ 2147483648 := by exact_mod_cast hsz
      have hs1 : (0 : Int) < (size : Int) := by exact_mod_cast hs
      rw [if_pos hc, wrapInt32_id _ (by omega) (by omega)]
      rw [ih (shift + size) (by omega) (by omega) (by
        push_cast at h2 ⊢
        nlinarith)]
      rw [Int.add_emod_self]
    · rw [if_neg hc, Int.emod_eq_of_lt (by omega) h1]

/-- For a vector of at most `2^31` slots the two loops bring a 32-bit shift to
its remainder modulo the size, within `|shift| / size + 1` iterations. -/
theorem normalizeShiftLoops_eq (fuel : Nat) (shift : Int) (size : Nat) (hs : 0 < size)
    (hsz : size ≤ 2147483648) (h1 : -2147483648 ≤ shift) (h2 : shift < 2147483648)
    (hfuel : shift.natAbs / size < fuel) :
    normalizeShiftLoops fuel shift size = some (shift % (size : Int)).toNat := by
  have hs1 : (0 : Int) < (size : Int) := by exact_mod_cast hs
  have hsz1 : ((size : Nat) : Int) ≤ 2147483648 := by exact_mod_cast hsz
  have habs : (shift.natAbs : Int) < (fuel : Int) * (size : Int) := by
    have := (Nat.div_lt_iff_lt_mul hs).mp hfuel
    exact_mod_cast this
  unfold normalizeShiftLoops
  by_cases hneg : shift < 0
  · rw [shiftDown_neg size fuel shift (by omega)]
    simp only []
    rw [shiftUp_spec size hs hsz fuel shift h1 (by omega) (by omega)]
  · have hmod0 : 0 ≤ shift % (size : Int) := Int.emod_nonneg _ (by omega)
    have hmod1 : shift % (size : Int) < (size : Int) := Int.emod_lt_of_pos _ hs1
    rw [shiftDown_spec size hs fuel shift (by omega) h2 (by
      have : (fuel : Int) * (size : Int) ≤ ((fuel : Int) + 1) * (size : Int) := by nlinarith
      omega)]
    simp only []
    rw [shiftUp_spec size hs hsz fuel (shift % (size : Int)) (by omega) hmod1 (by
      have : (0 : Int) ≤ (fuel : Int) * (size : Int) := by positivity
      omega)]
    rw [Int.emod_emod_of_dvd _ (dvd_refl _)]

/-- The closed form of `normalizeShift` is what the loops compute. -/
theorem normalizeShift_eq_loops (fuel : Nat) (shift : Int) (size : Nat) (hs : 0 < size)
    (hsz : size ≤ 2147483648) (h1 : -2147483648 ≤ shift) (h2 : shift < 2147483648)
    (hfuel : shift.natAbs / size < fuel) :
    normalizeShift shift size = normalizeShiftLoops fuel shift size := by
  rw [normalizeShiftLoops_eq fuel shift size hs hsz h1 h2 hfuel]
  unfold normalizeShift
  rw [if_neg (by omega)]


theorem some_getD (l : List ℚ) (i : Nat) (h : i < l.length) : some (l.getD i 0) = l[i]? := by
  rw [List.getD_eq_getElem?_getD, List.getElem?_eq_getElem h]
  rfl

/-- A loop that writes `f i` into the slot `a + i` for `i` below `m`. -/
theorem foldl_set_range (f : Nat → ℚ) (a : Nat) : ∀ (m : Nat) (out0 : List ℚ),
    ((List.range m).foldl (fun out i => out.set (a + i) (f i)) out0).length = out0.length ∧
    ∀ j, ((List.range m).foldl (fun out i => out.set (a + i) (f i)) out0)[j]? =
      if a ≤ j ∧ j < a + m ∧ j < out0.length then some (f (j - a)) else out0[j]? := by
  intro m
  induction m with
  | zero =>
    intro out0
    refine ⟨rfl, fun j => ?_⟩
    simp only [List.range_zero, List.foldl_nil]
    rw [if_neg (by omega)]
  | succ m ih =>
    intro out0
    obtain ⟨ih1, ih2⟩ := ih out0
    simp only [List.range_succ, List.foldl_append, List.foldl_cons, List.foldl_nil]
    refine ⟨by rw [List.length_set, ih1], fun j => ?_⟩
    rw [List.getElem?_set, ih1]
    by_cases hj : a + m = j
    · rw [if_pos hj]
      by_cases hl : a + m < out0.length
      · rw [if_pos hl, if_pos ⟨by omega, by omega, by omega⟩]
        congr 2
        omega
      · rw [if_neg hl, if_neg (by omega)]
        symm
        exact List.getElem?_eq_none (by omega)
    · rw [if_neg hj, ih2 j]
      by_cases hc : a ≤ j ∧ j < a + m ∧ j < out0.length
      · rw [if_pos hc, if_pos ⟨hc.1, by omega, hc.2.2⟩]
      · rw [if_neg hc, if_neg (by omega)]

/-- The two loops of `ConstantFolder::leftRotate` write the input rotated to
the left by `s`. -/
theorem leftLoops_eq_rotate (v : List ℚ) (s : Nat) (hs : s ≤ v.length) :
    (List.range s).foldl (fun out i => out.set (v.length - s + i) (v.getD i 0))
      ((List.range (v.length - s)).foldl (fun out i => out.set i (v.getD (i + s) 0))
        (List.replicate v.length (0 : ℚ)))
      = v.rotate s := by
  have hfun : (fun (out : List ℚ) i => out.set i (v.getD (i + s) 0))
      = (fun (out : List ℚ) i => out.set (0 + i) (v.getD (i + s) 0)) := by
    funext out i
    rw [Nat.zero_add]
  rw [hfun]
  obtain ⟨a1, a2⟩ := foldl_set_range (fun i => v.getD (i + s) 0) 0 (v.length - s)
    (List.replicate v.length (0 : ℚ))
  obtain ⟨b1, b2⟩ := foldl_set_range (fun i => v.getD i 0) (v.length - s) s
    ((List.range (v.length - s)).foldl (fun out i => out.set (0 + i) (v.getD (i + s) 0))
      (List.replicate v.length (0 : ℚ)))
  rw [a1, List.length_replicate] at b1
  apply List.ext_getElem?
  intro j
  rw [b2 j, a1, List.length_replicate, a2 j, List.length_replicate]
  by_cases hj : j < v.length
  · rw [List.getElem?_rotate hj]
    by_cases h1 : v.length - s ≤ j
    · rw [if_pos ⟨h1, by omega, hj⟩]
      have hidx : (j + s) % v.length = j - (v.length - s) := by
        have : j + s = (j - (v.length - s)) + v.length := by omega
        rw [this, Nat.add_mod_right, Nat.mod_eq_of_lt (by omega)]
      rw [hidx]
      exact some_getD v _ (by omega)
    · rw [if_neg (by omega), if_pos ⟨by omega, by omega, hj⟩]
      rw [Nat.mod_eq_of_lt (by omega)]
      simp only [Nat.sub_zero]
      exact some_getD v _ (by omega)
  · rw [if_neg (by omega), if_neg (by omega)]
    rw [List.getElem?_eq_none (by simp; omega), List.getElem?_eq_none (by simp; omega)]

/-- The two loops of `ConstantFolder::rightRotate` write the input rotated to
the left by the size minus `s`. -/
theorem rightLoops_eq_rotate (v : List ℚ) (s : Nat) (hs : s ≤ v.length) :
    (List.range s).foldl (fun out i => out.set i (v.getD (v.length - s + i) 0))
      ((List.range (v.length - s)).foldl (fun out i => out.set (i + s) (v.getD i 0))
        (List.replicate v.length (0 : ℚ)))
      = v.rotate (v.length - s) := by
  have hfun : (fun (out : List ℚ) i => out.set (i + s) (v.getD i 0))
      = (fun (out : List ℚ) i => out.set (s + i) (v.getD i 0)) := by
    funext out i
    rw [Nat.add_comm]
  have hfun2 : (fun (out : List ℚ) i => out.set i (v.getD (v.length - s + i) 0))
      = (fun (out : List ℚ) i => out.set (0 + i) (v.getD (v.length - s + i) 0)) := by
    funext out i
    rw [Nat.zero_add]
  rw [hfun, hfun2]
  obtain ⟨a1, a2⟩ := foldl_set_range (fun i => v.getD i 0) s (v.length - s)
    (List.replicate v.length (0 : ℚ))
  obtain ⟨b1, b2⟩ := foldl_set_range (fun i => v.getD (v.length - s + i) 0) 0 s
    ((List.range (v.length - s)).foldl (fun out i => out.set (s + i) (v.getD i 0))
      (List.replicate v.length (0 : ℚ)))
  rw [a1, List.length_replicate] at b1
  apply List.ext_getElem?
  intro j
  rw [b2 j, a1, List.length_replicate, a2 j, List.length_replicate]
  by_cases hj : j < v.length
  · rw [List.getElem?_rotate hj]
    by_cases h1 : j < s
    · rw [if_pos ⟨by omega, by omega, hj⟩]
      rw [Nat.mod_eq_of_lt (by omega)]
      simp only [Nat.sub_zero]
      rw [some_getD v _ (by omega)]
      congr 1
      omega
    · rw [if_neg (by omega), if_pos ⟨by omega, by omega, hj⟩]
      have hidx : (j + (v.length - s)) % v.length = j - s := by
        have : j + (v.length - s) = (j - s) + v.length := by omega
        rw [this, Nat.add_mod_right, Nat.mod_eq_of_lt (by omega)]
      rw [hidx]
      exact some_getD v _ (by omega)
  · rw [if_neg (by omega), if_neg (by omega)]
    rw [List.getElem?_eq_none (by simp; omega), List.getElem?_eq_none (by simp; omega)]

theorem copyLeft_eq_rotate (v : List ℚ) (s : Nat) (hs : s ≤ v.length) :
    ([] ++ (v.drop s).take (v.length - s)) ++ v.take s = v.rotate s := by
  rw [List.rotate_eq_drop_append_take hs, List.nil_append,
    List.take_of_length_le (by simp)]

theorem copyRight_eq_rotate (v : List ℚ) (s : Nat) (hs : s ≤ v.length) :
    ([] ++ (v.drop (v.length - s)).take s) ++ v.take (v.length - s)
      = v.rotate (v.length - s) := by
  rw [List.rotate_eq_drop_append_take (Nat.sub_le _ _), List.nil_append,
    List.take_of_length_le (by simp; omega)]


theorem shifted_index (k : Int) (n i : Nat) (hn : 0 < n) :
    (((i : Int) + k) % (n : Int)).toNat = (i + (k % (n : Int)).toNat) % n := by
  have hn1 : ((n : Nat) : Int) ≠ 0 := by exact_mod_cast (Nat.pos_iff_ne_zero.mp hn)
  have hs : (((k % (n : Int)).toNat : Nat) : Int) = k % (n : Int) :=
    Int.toNat_of_nonneg (Int.emod_nonneg _ hn1)
  have h1 : ((i : Int) + k) % (n : Int)
      = (((i + (k % (n : Int)).toNat) % n : Nat) : Int) := by
    rw [Int.natCast_mod, Nat.cast_add, hs, Int.add_emod_emod]
  rw [h1, Int.toNat_natCast]

/-- C32: constant rotation is cyclic by `k mod n`.  For a vector `v` with `n`
slots, `0 < n ≤ 2^31` (the vector size of a program is a power of two on 32
bits), and a 32-bit signed `k`, `leftRotate` of `ConstantFolder` ends (within
`|k| / n + 1` iterations of its loops) with `out[i] = v[(i + k) mod n]` and
`rightRotate` with `out[(i + k) mod n] = v[i]` for every `i < n`, the remainder
being the non-negative one; `leftRotate` and `rightRotate` of
`ReferenceExecutor` build the same two vectors, and these are the vectors of
the closed forms used in the models of the two passes. -/
theorem constantRotation_cyclic (v : List ℚ) (k : Int) (fuel : Nat) (hne : v ≠ [])
    (hlen : v.length ≤ 2147483648) (hk1 : -2147483648 ≤ k) (hk2 : k < 2147483648)
    (hfuel : k.natAbs / v.length < fuel) :
    ∃ left right,
      ConstantFolder.leftRotateValues fuel v k = some left ∧
      ConstantFolder.rightRotateValues fuel v k = some right ∧
      left.length = v.length ∧ right.length = v.length ∧
      (∀ i, i < v.length → left[i]? = v[(((i : Int) + k) % (v.length : Int)).toNat]?) ∧
      (∀ i, i < v.length → right[(((i : Int) + k) % (v.length : Int)).toNat]? = v[i]?) ∧
      ReferenceExecutor.leftRotateValues fuel v k = some left ∧
      ReferenceExecutor.rightRotateValues fuel v k = some right ∧
      ∃ s, normalizeShift k v.length = some s ∧ v.drop s ++ v.take s = left ∧
        v.drop (v.length - s) ++ v.take (v.length - s) = right := by
  have hn : 0 < v.length := List.length_pos.mpr hne
  have hn1 : ((v.length : Nat) : Int) ≠ 0 := by exact_mod_cast (Nat.pos_iff_ne_zero.mp hn)
  have hloops := normalizeShiftLoops_eq fuel k v.length hn hlen hk1 hk2 hfuel
  have hslt : (k % (v.length : Int)).toNat < v.length := by
    have h1 := Int.emod_nonneg k hn1
    have h2 := Int.emod_lt_of_pos k (by exact_mod_cast hn : (0 : Int) < (v.length : Int))
    omega
  refine ⟨v.rotate (k % (v.length : Int)).toNat,
    v.rotate (v.length - (k % (v.length : Int)).toNat), ?_, ?_, List.length_rotate _ _,
    List.length_rotate _ _, ?_, ?_, ?_, ?_, ?_⟩
  · unfold ConstantFolder.leftRotateValues
    rw [hloops]
    simp only []
    rw [leftLoops_eq_rotate v _ (le_of_lt hslt)]
  · unfold ConstantFolder.rightRotateValues
    rw [hloops]
    simp only []
    rw [rightLoops_eq_rotate v _ (le_of_lt hslt)]
  · intro i hi
    rw [List.getElem?_rotate hi, shifted_index k v.length i hn]
  · intro i hi
    rw [shifted_index k v.length i hn, List.getElem?_rotate (Nat.mod_lt _ hn)]
    congr 1
    rw [Nat.mod_add_mod]
    have : i + (k % (v.length : Int)).toNat + (v.length - (k % (v.length : Int)).toNat)
        = i + v.length := by omega
    rw [this, Nat.add_mod_right, Nat.mod_eq_of_lt hi]
  · unfold ReferenceExecutor.leftRotateValues
    rw [hloops]
    simp only []
    rw [copyLeft_eq_rotate v _ (le_of_lt hslt)]
  · unfold ReferenceExecutor.rightRotateValues
    rw [hloops]
    simp only []
    rw [copyRight_eq_rotate v _ (le_of_lt hslt)]
  · refine ⟨(k % (v.length : Int)).toNat, ?_, ?_, ?_⟩
    · rw [normalizeShift_eq_loops fuel k v.length hn hlen hk1 hk2 hfuel, hloops]
    · rw [List.rotate_eq_drop_append_take (le_of_lt hslt)]
    · rw [List.rotate_eq_drop_append_take (Nat.sub_le _ _)]

/-- Witness of C32 on `v = [1, 2, 3, 4, 5]` and `k = -7`: three iterations are
enough, `leftRotate` gives `[4, 5, 1, 2, 3]` and `rightRotate`
`[3, 4, 5, 1, 2]`. -/
theorem constantRotation_cyclic_witness :
    ConstantFolder.leftRotateValues 3 [1, 2, 3, 4, 5] (-7) = some [4, 5, 1, 2, 3] ∧
    ConstantFolder.rightRotateValues 3 [1, 2, 3, 4, 5] (-7) = some [3, 4, 5, 1, 2] ∧
    ∃ left right,
      ConstantFolder.leftRotateValues 3 [1, 2, 3, 4, 5] (-7) = some left ∧
      ConstantFolder.rightRotateValues 3 [1, 2, 3, 4, 5] (-7) = some right ∧
      left.length = ([1, 2, 3, 4, 5] : List ℚ).length ∧
      right.length = ([1, 2, 3, 4, 5] : List ℚ).length ∧
      (∀ i, i < ([1, 2, 3, 4, 5] : List ℚ).length →
        left[i]? = ([1, 2, 3, 4, 5] : List ℚ)[(((i : Int) + (-7))
          % (([1, 2, 3, 4, 5] : List ℚ).length : Int)).toNat]?) ∧
      (∀ i, i < ([1, 2, 3, 4, 5] : List ℚ).length →
        right[(((i : Int) + (-7)) % (([1, 2, 3, 4, 5] : List ℚ).length : Int)).toNat]?
          = ([1, 2, 3, 4, 5] : List ℚ)[i]?) ∧
      ReferenceExecutor.leftRotateValues 3 [1, 2, 3, 4, 5] (-7) = some left ∧
      ReferenceExecutor.rightRotateValues 3 [1, 2, 3, 4, 5] (-7) = some right ∧
      ∃ s, normalizeShift (-7) ([1, 2, 3, 4, 5] : List ℚ).length = some s ∧
        ([1, 2, 3, 4, 5] : List ℚ).drop s ++ ([1, 2, 3, 4, 5] : List ℚ).take s = left ∧
        ([1, 2, 3, 4, 5] : List ℚ).drop (([1, 2, 3, 4, 5] : List ℚ).length - s)
          ++ ([1, 2, 3, 4, 5] : List ℚ).take (([1, 2, 3, 4, 5] : List ℚ).length - s) = right :=
  ⟨by decide!, by decide!,
   constantRotation_cyclic [1, 2, 3, 4, 5] (-7) 3 (by simp) (by simp) (by norm_num)
     (by norm_num) (by decide)⟩

/-! ## C38: the types left by `CKKSCompiler::transform` -/

set_option maxHeartbeats 4000000 in
set_option maxRecDepth 100000 in
/-- C38 (evaluation of the code): on `y = l - x`, whose inputs declare the
types `Plain` and `Cipher`, `CKKSCompiler::transform` completes under every
configuration and leaves six terms, of which the `Negate` (term 4) and the
`Add` read by the output (term 5), both created by `SEALLowering`, are at
`Undef` in the map of types. -/
theorem transform_leaves_undef_types (config : TransformConfig) :
    lowerSample.inputs.map (fun i => AttributeList.getType (lowerSample.attributes i.2)) =
      [some TermType.Cipher, some TermType.Plain] ∧
    (lowerSampleOut config).map (fun c => (c.program.nextTermIndex, c.program.op 4,
      c.program.op 5)) = some (6, Op.Negate, Op.Add) ∧
    (lowerSampleOut config).map (fun c => (c.program.operands 3, c.program.operands 4,
      c.program.operands 5)) = some ([5], [0], [1, 4]) ∧
    (lowerSampleOut config).map (fun c => (List.range 6).map c.types) =
      some [TermType.Cipher, TermType.Plain, TermType.Cipher, TermType.Cipher,
        TermType.Undef, TermType.Undef] := by
  rcases config with ⟨b, r, l⟩
  cases b <;> cases r <;> cases l <;> decide!

/-! ## C34: the divisors of the `Rescale` terms the policies create -/

/-! ### An invariant of the state of the rewriter -/

/-- A property of the state of the rewriter that every call of the rewriter
keeps holds at the end of a traversal. -/
theorem traverseLoop_env {σ : Type} (isForward : Bool) (R : Rewriter σ) (Q : σ → Prop)
    (hQ : ∀ env term env1, Q env → R.rewrite env term = some env1 → Q env1) :
    ∀ (fuel : Nat) (st st1 : TraversalState σ), Q st.env →
      traverseLoop isForward R fuel st = some st1 → Q st1.env := by
  intro fuel
  induction fuel with
  | zero =>
    intro st st1 h0 h
    simp only [traverseLoop] at h
    split at h
    · simp only [Option.some.injEq] at h
      subst h
      exact h0
    · exact absurd h (by simp)
  | succ fuel ih =>
    intro st st1 h0 h
    simp only [traverseLoop] at h
    cases hrn : st.readyNodes with
    | nil =>
      rw [hrn] at h
      simp only [Option.some.injEq] at h
      subst h
      exact h0
    | cons term rest =>
      rw [hrn] at h
      simp only [] at h
      cases hv : traverseVisit isForward R st term rest with
      | none => rw [hv] at h; exact absurd h (by simp)
      | some st2 =>
        rw [hv] at h
        simp only [] at h
        refine ih st2 st1 ?_ h
        unfold traverseVisit at hv
        simp only [] at hv
        cases hr : R.rewrite st.env term with
        | none => rw [hr] at hv; exact absurd hv (by simp)
        | some env =>
          rw [hr] at hv
          simp only [Option.some.injEq] at hv
          subst hv
          exact hQ _ _ _ h0 hr

theorem traverse_env {σ : Type} (isForward : Bool) (R : Rewriter σ) (Q : σ → Prop)
    (hQ : ∀ env term env1, Q env → R.rewrite env term = some env1 → Q env1)
    (fuel : Nat) (env : σ) (st : TraversalState σ) (h0 : Q env)
    (h : traverse isForward R fuel env = some st) : Q st.env :=
  traverseLoop_env isForward R Q hQ fuel _ st h0 h

/-! ### The index counter under the mutators -/

theorem eraseUse_nextTermIndex (p : Program) (a b : Nat) :
    (Term.eraseUse p a b).nextTermIndex = p.nextTermIndex := by
  unfold Term.eraseUse
  dsimp only
  split <;> rfl

theorem addUse_nextTermIndex (p : Program) (a b : Nat) :
    (Term.addUse p a b).nextTermIndex = p.nextTermIndex := by
  unfold Term.addUse
  dsimp only
  split <;> rfl

theorem replaceOperandAt_nextTermIndex (o n t : Nat) (p : Program) (i : Nat) :
    (Term.replaceOperandAt o n t p i).nextTermIndex = p.nextTermIndex := by
  unfold Term.replaceOperandAt
  split
  · rw [addUse_nextTermIndex, eraseUse_nextTermIndex]
    rfl
  · rfl

theorem replaceOperand_nextTermIndex (p : Program) (t o n : Nat) :
    (Term.replaceOperand p t o n).2.nextTermIndex = p.nextTermIndex := by
  unfold Term.replaceOperand
  simp only []
  generalize List.range (p.operands t).length = l
  induction l generalizing p with
  | nil => rfl
  | cons a l ih =>
    simp only [List.foldl_cons]
    rw [ih, replaceOperandAt_nextTermIndex]

theorem replaceUsesWithIf_terms (p : Program) (t n : Nat) (f : Nat → Bool) :
    (Term.replaceUsesWithIf p t n f).nextTermIndex = p.nextTermIndex ∧
    (∀ x, (Term.replaceUsesWithIf p t n f).op x = p.op x) ∧
    (∀ x, (Term.replaceUsesWithIf p t n f).attributes x = p.attributes x) := by
  unfold Term.replaceUsesWithIf
  generalize p.uses t = l
  induction l generalizing p with
  | nil => exact ⟨rfl, fun _ => rfl, fun _ => rfl⟩
  | cons a l ih =>
    simp only [List.foldl_cons]
    obtain ⟨h1, h2, h3⟩ := ih (if f a = true then (Term.replaceOperand p a t n).2 else p)
    have hs : (if f a = true then (Term.replaceOperand p a t n).2 else p).nextTermIndex
          = p.nextTermIndex ∧
        (∀ x, (if f a = true then (Term.replaceOperand p a t n).2 else p).op x = p.op x) ∧
        (∀ x, (if f a = true then (Term.replaceOperand p a t n).2 else p).attributes x
          = p.attributes x) := by
      split
      · exact ⟨replaceOperand_nextTermIndex _ _ _ _, (replaceOperand_spec _ _ _ _).2.1,
          (replaceOperand_spec _ _ _ _).2.2⟩
      · exact ⟨rfl, fun _ => rfl, fun _ => rfl⟩
    exact ⟨h1.trans hs.1, fun x => (h2 x).trans (hs.2.1 x), fun x => (h3 x).trans (hs.2.2 x)⟩

theorem foldl_eraseUse_nextTermIndex (this : Nat) (l : List Nat) (p : Program) :
    (l.foldl (fun q operand => Term.eraseUse q operand this) p).nextTermIndex
      = p.nextTermIndex := by
  induction l generalizing p with
  | nil => rfl
  | cons a l ih =>
    simp only [List.foldl_cons]
    rw [ih, eraseUse_nextTermIndex]

theorem foldl_addUse_nextTermIndex (this : Nat) (l : List Nat) (p : Program) :
    (l.foldl (fun q operand => Term.addUse q operand this) p).nextTermIndex
      = p.nextTermIndex := by
  induction l generalizing p with
  | nil => rfl
  | cons a l ih =>
    simp only [List.foldl_cons]
    rw [ih, addUse_nextTermIndex]

theorem setOperands_nextTermIndex (p : Program) (t : Nat) (o : List Nat) :
    (Term.setOperands p t o).nextTermIndex = p.nextTermIndex := by
  have h4 : ∀ (q : Program) (s : List Nat),
      (if q.operands t = [] then q.withSources s else q).nextTermIndex = q.nextTermIndex := by
    intro q s
    split <;> rfl
  have h5 : ∀ (q : Program) (os : List Nat),
      (q.withOperands t os).nextTermIndex = q.nextTermIndex := fun _ _ => rfl
  unfold Term.setOperands
  simp only []
  rw [h4, foldl_addUse_nextTermIndex, h5, foldl_eraseUse_nextTermIndex, h4]

theorem makeTerm_index (p : Program) (op : Op) (os : List Nat) :
    (p.makeTerm op os).1 = p.nextTermIndex ∧
    (p.makeTerm op os).2.nextTermIndex = p.nextTermIndex + 1 := by
  unfold Program.makeTerm
  simp only []
  split
  · exact ⟨rfl, by rw [setOperands_nextTermIndex]; rfl⟩
  · exact ⟨rfl, rfl⟩

/-! ### Steps of a rescaling pass -/

theorem rescaleStep_refl (lo hi : Nat) (p : Program) : RescaleStep lo hi p p :=
  ⟨Nat.le_refl _, fun _ _ => rfl, fun _ _ _ => rfl, fun t h1 h2 _ => absurd h2 (by omega)⟩

theorem rescaleStep_trans (lo hi : Nat) (p q r : Program) (h1 : RescaleStep lo hi p q)
    (h2 : RescaleStep lo hi q r) : RescaleStep lo hi p r := by
  obtain ⟨a1, a2, a3, a4⟩ := h1
  obtain ⟨b1, b2, b3, b4⟩ := h2
  refine ⟨Nat.le_trans a1 b1, ?_, ?_, ?_⟩
  · intro t ht
    rw [b2 t (by omega), a2 t ht]
  · intro t ht hop
    rw [b3 t (by omega) (by rw [a2 t ht]; exact hop), a3 t ht hop]
  · intro t ht1 ht2 hop
    by_cases hq : t < q.nextTermIndex
    · have hopq : q.op t = Op.Rescale := by rw [← b2 t hq]; exact hop
      obtain ⟨d, hd, hb⟩ := a4 t ht1 hq hopq
      refine ⟨d, ?_, hb⟩
      unfold rescaleDivisorOf at hd ⊢
      rw [b3 t hq hopq]
      exact hd
    · exact b4 t (by omega) ht2 hop

theorem rescaleStep_same (lo hi : Nat) (p q : Program)
    (h1 : q.nextTermIndex = p.nextTermIndex) (h2 : ∀ x, q.op x = p.op x)
    (h3 : ∀ x, q.attributes x = p.attributes x) : RescaleStep lo hi p q :=
  ⟨by omega, fun t _ => h2 t, fun t _ _ => h3 t, fun t ha hb _ => absurd hb (by omega)⟩

theorem rescaleStep_makeTerm (lo hi : Nat) (p : Program) (op : Op) (os : List Nat)
    (hop : op ≠ Op.Rescale) : RescaleStep lo hi p (p.makeTerm op os).2 := by
  obtain ⟨_, hn⟩ := makeTerm_index p op os
  obtain ⟨f1, f2⟩ := makeTerm_frame p op os
  refine ⟨by omega, ?_, ?_, ?_⟩
  · intro t ht
    rw [f1, if_neg (by omega)]
  · intro t ht _
    rw [f2, if_neg (by omega)]
  · intro t ht1 ht2 h
    have : t = p.nextTermIndex := by omega
    rw [f1, if_pos this] at h
    exact absurd h hop

theorem rescaleStep_setAttribute (lo hi : Nat) (p : Program) (t k : Nat) (v : AttributeValue)
    (hop : p.op t ≠ Op.Rescale) : RescaleStep lo hi p (Term.setAttribute p t k v) := by
  refine ⟨Nat.le_refl _, fun x _ => setAttribute_op _ _ _ _ _, ?_,
    fun x h1 h2 _ => absurd (show x < p.nextTermIndex from h2) (by omega)⟩
  intro x _ hx
  rw [setAttribute_attributes, if_neg]
  intro h
  subst h
  exact hop hx

theorem rescaleStep_makeRescale (lo hi : Nat) (p : Program) (term d : Nat) (h1 : lo ≤ d)
    (h2 : d ≤ hi) : RescaleStep lo hi p (p.makeRescale term d).2 := by
  obtain ⟨hi1, hn⟩ := makeTerm_index p Op.Rescale [term]
  obtain ⟨f1, f2⟩ := makeTerm_frame p Op.Rescale [term]
  unfold Program.makeRescale
  simp only [hi1]
  refine ⟨?_, ?_, ?_, ?_⟩
  · show p.nextTermIndex ≤ (p.makeTerm Op.Rescale [term]).2.nextTermIndex
    omega
  · intro t ht
    rw [setAttribute_op, f1, if_neg (by omega)]
  · intro t ht _
    rw [setAttribute_attributes, if_neg (by omega), f2, if_neg (by omega)]
  · intro t ht1 ht2 _
    have ht2 : t < (p.makeTerm Op.Rescale [term]).2.nextTermIndex := ht2
    have : t = p.nextTermIndex := by omega
    subst this
    refine ⟨d, ?_, h1, h2⟩
    unfold rescaleDivisorOf
    rw [setAttribute_attributes, if_pos rfl, f2, if_pos rfl]
    simp [AttributeList.set, AttributeList.getUInt32, AttributeList.get]

theorem rescaleStep_insertRescale (lo hi : Nat) (st : Rescaler) (term d : Nat) (h1 : lo ≤ d)
    (h2 : d ≤ hi) : RescaleStep lo hi st.program (st.insertRescale term d).2.program := by
  have hp : (st.insertRescale term d).2.program
      = Term.replaceOtherUsesWith (st.program.makeRescale term d).2 term
          (st.program.makeRescale term d).1 := rfl
  rw [hp]
  obtain ⟨r1, r2, r3⟩ := replaceUsesWithIf_terms (st.program.makeRescale term d).2 term
    (st.program.makeRescale term d).1 (fun use => decide (use ≠ (st.program.makeRescale term d).1))
  exact rescaleStep_trans _ _ _ _ _ (rescaleStep_makeRescale lo hi _ term d h1 h2)
    (rescaleStep_same _ _ _ _ r1 r2 r3)

theorem rescaleStep_insertRescaleBetween (lo hi : Nat) (st : Rescaler) (term1 term2 d : Nat)
    (h1 : lo ≤ d) (h2 : d ≤ hi) :
    RescaleStep lo hi st.program (st.insertRescaleBetween term1 term2 d).program := by
  have hp : (st.insertRescaleBetween term1 term2 d).program
      = (Term.replaceOperand (st.program.makeRescale term1 d).2 term2 term1
          (st.program.makeRescale term1 d).1).2 := rfl
  rw [hp]
  exact rescaleStep_trans _ _ _ _ _ (rescaleStep_makeRescale lo hi _ term1 d h1 h2)
    (rescaleStep_same _ _ _ _ (replaceOperand_nextTermIndex _ _ _ _)
      (replaceOperand_spec _ _ _ _).2.1 (replaceOperand_spec _ _ _ _).2.2)

theorem rescaleStep_handleRawScale (lo hi : Nat) (st st1 : Rescaler) (term : Nat)
    (h : st.handleRawScale term = some st1) : RescaleStep lo hi st.program st1.program := by
  unfold Rescaler.handleRawScale at h
  split at h
  · split at h
    · exact absurd h (by simp)
    · simp only [Option.some.injEq] at h
      subst h
      exact rescaleStep_refl _ _ _
  · simp only [Option.some.injEq] at h
    subst h
    exact rescaleStep_refl _ _ _

theorem rescaleStep_makeUniformConstant (lo hi : Nat) (p : Program) (v : ℚ) (c : Nat × Program)
    (h : p.makeUniformConstant v = some c) :
    RescaleStep lo hi p c.2 ∧ c.2.op c.1 = Op.Constant := by
  unfold Program.makeUniformConstant Program.makeDenseConstant at h
  split at h
  · exact absurd h (by simp)
  · split at h
    · exact absurd h (by simp)
    · simp only [Option.some.injEq] at h
      subst h
      unfold Program.makeConstant
      simp only []
      obtain ⟨hi1, hn⟩ := makeTerm_index p Op.Constant []
      obtain ⟨f1, f2⟩ := makeTerm_frame p Op.Constant []
      have hopc : (p.makeTerm Op.Constant []).2.op (p.makeTerm Op.Constant []).1
          = Op.Constant := by rw [f1, if_pos hi1]
      refine ⟨rescaleStep_trans _ _ _ _ _ (rescaleStep_makeTerm lo hi p Op.Constant []
        (by decide)) (rescaleStep_setAttribute lo hi _ _ _ _ (by rw [hopc]; decide)), ?_⟩
      rw [setAttribute_op]
      exact hopc

theorem rescaleStep_matchScaleAt (lo hi : Nat) (term maxScale i : Nat) (st st1 : Rescaler)
    (h : Rescaler.matchScaleAt term maxScale (some st) i = some st1) :
    RescaleStep lo hi st.program st1.program := by
  unfold Rescaler.matchScaleAt at h
  simp only [] at h
  split at h
  · simp only [Option.some.injEq] at h
    subst h
    exact rescaleStep_refl _ _ _
  · split at h
    · cases hc : (st.touch _).program.makeUniformConstant 1 with
      | none => rw [hc] at h; exact absurd h (by simp)
      | some c =>
        rw [hc] at h
        simp only [Option.some.injEq] at h
        subst h
        obtain ⟨s1, s2⟩ := rescaleStep_makeUniformConstant lo hi _ 1 c hc
        have s1 : RescaleStep lo hi st.program c.2 := s1
        show RescaleStep lo hi st.program (Term.replaceOperand _ _ _ _).2
        refine rescaleStep_trans lo hi _ _ _ ?_
          (rescaleStep_same _ _ _ _ (replaceOperand_nextTermIndex _ _ _ _)
            (replaceOperand_spec _ _ _ _).2.1 (replaceOperand_spec _ _ _ _).2.2)
        show RescaleStep lo hi st.program (Program.makeTerm _ Op.Mul _).2
        refine rescaleStep_trans lo hi _ _ _ ?_
          (rescaleStep_makeTerm lo hi _ Op.Mul _ (by decide))
        show RescaleStep lo hi st.program (Term.setAttribute c.2 c.1 _ _)
        exact rescaleStep_trans lo hi _ _ _ s1
          (rescaleStep_setAttribute lo hi c.2 c.1 _ _ (by rw [s2]; decide))
    · simp only [Option.some.injEq] at h
      subst h
      exact rescaleStep_refl _ _ _

theorem foldl_matchScaleAt_none (term maxScale : Nat) (l : List Nat) :
    l.foldl (Rescaler.matchScaleAt term maxScale) none = none := by
  induction l with
  | nil => rfl
  | cons a l ih => simpa [Rescaler.matchScaleAt] using ih

theorem rescaleStep_matchLoop (lo hi : Nat) (term maxScale : Nat) (l : List Nat) :
    ∀ st st1 : Rescaler, l.foldl (Rescaler.matchScaleAt term maxScale) (some st) = some st1 →
      RescaleStep lo hi st.program st1.program := by
  induction l with
  | nil =>
    intro st st1 h
    simp only [List.foldl_nil, Option.some.injEq] at h
    subst h
    exact rescaleStep_refl _ _ _
  | cons a l ih =>
    intro st st1 h
    simp only [List.foldl_cons] at h
    cases hs : Rescaler.matchScaleAt term maxScale (some st) a with
    | none =>
      rw [hs, foldl_matchScaleAt_none] at h
      exact absurd h (by simp)
    | some st2 =>
      rw [hs] at h
      exact rescaleStep_trans _ _ _ _ _ (rescaleStep_matchScaleAt lo hi _ _ _ _ _ hs)
        (ih st2 st1 h)

theorem checkMatched_program (st : Rescaler) (term maxScale : Nat) :
    (st.checkMatched term maxScale).program = st.program := by
  unfold Rescaler.checkMatched
  generalize st.program.operands term = l
  induction l generalizing st with
  | nil => rfl
  | cons a l ih =>
    simp only [List.foldl_cons]
    rw [ih]
    rfl

theorem rescaleStep_matchScales (lo hi : Nat) (st st1 : Rescaler) (term : Nat)
    (h : st.matchScales term = some st1) : RescaleStep lo hi st.program st1.program := by
  unfold Rescaler.matchScales at h
  simp only [] at h
  split at h
  · exact absurd h (by simp)
  · next st2 hf =>
    simp only [Option.some.injEq] at h
    subst h
    have := rescaleStep_matchLoop lo hi _ _ _ _ _ hf
    rw [(touchAll_frame _ _).1] at this
    show RescaleStep lo hi st.program (st2.checkMatched term _).program
    rw [checkMatched_program]
    exact this

theorem rescaleStep_rescaleLoop (lo hi : Nat) (hlo : lo ≤ 60) (hhi : 60 ≤ hi) :
    ∀ (fuel : Nat) (st : Rescaler) (temp ms : Nat) (r : Nat × Rescaler),
      Rescaler.rescaleLoop fuel st temp ms = some r →
      RescaleStep lo hi st.program r.2.program := by
  intro fuel
  induction fuel with
  | zero =>
    intro st temp ms r h
    simp only [Rescaler.rescaleLoop] at h
    split at h
    · exact absurd h (by simp)
    · simp only [Option.some.injEq] at h
      subst h
      exact rescaleStep_refl _ _ _
  | succ fuel ih =>
    intro st temp ms r h
    simp only [Rescaler.rescaleLoop] at h
    split at h
    · have := ih _ _ _ _ h
      exact rescaleStep_trans _ _ _ _ _
        (rescaleStep_insertRescale lo hi st temp fixedRescale hlo hhi) this
    · simp only [Option.some.injEq] at h
      subst h
      exact rescaleStep_refl _ _ _

theorem rescaleStep_eagerVisit (lo hi : Nat) (hlo : lo ≤ 60) (hhi : 60 ≤ hi) (fuel : Nat)
    (st st1 : Rescaler) (term : Nat) (h : EagerWaterlineRescaler.visit fuel st term = some st1) :
    RescaleStep lo hi st.program st1.program := by
  unfold EagerWaterlineRescaler.visit at h
  simp only [] at h
  split at h
  · simp only [Option.some.injEq] at h
    subst h
    exact rescaleStep_refl _ _ _
  · split at h
    · exact rescaleStep_handleRawScale lo hi _ _ _ h
    · split at h
      · simp only [Option.some.injEq] at h
        subst h
        exact rescaleStep_refl _ _ _
      · split at h
        · split at h
          · have := rescaleStep_matchScales lo hi _ _ _ h
            exact this
          · simp only [Option.some.injEq] at h
            subst h
            exact rescaleStep_refl _ _ _
        · simp only [Option.map_eq_some'] at h
          obtain ⟨r, hr, rfl⟩ := h
          have := rescaleStep_rescaleLoop lo hi hlo hhi _ _ _ _ _ hr
          rw [show ∀ (b : Rescaler) (l : List Nat) (c : Bool) (t v : Nat),
            (((b.touchAll l).check c).setScale t v).program = b.program from
            fun b l _ _ _ => (touchAll_frame b l).1] at this
          exact this

theorem rescaleStep_visitMul (lo hi : Nat) (hlo : lo ≤ 30) (hhi : 60 ≤ hi) (fuel : Nat)
    (st st1 : Rescaler) (term a b : Nat)
    (h : MinimumRescaler.visitMul fuel st term a b = some st1) :
    RescaleStep lo hi st.program st1.program := by
  have key : ∀ (s1 : Rescaler) (d ms : Nat), d ≤ 60 →
      (if mul32 2 d ≥ fixedRescale then
        some ((if a ≠ b then
            ((s1.check (d ≤ fixedRescale)).insertRescaleBetween a term d).insertRescaleBetween
              b term d
          else (s1.check (d ≤ fixedRescale)).insertRescaleBetween a term d).setScale term
            (sub32 ms (mul32 2 d)))
      else (Rescaler.rescaleLoop fuel s1 term ms).map (fun r => r.2)) = some st1 →
      RescaleStep lo hi s1.program st1.program := by
    intro s1 d ms hd60 h
    by_cases hge : mul32 2 d ≥ fixedRescale
    · rw [if_pos hge] at h
      simp only [Option.some.injEq] at h
      subst h
      have hd30 : 30 ≤ d := by
        have h2 : mul32 2 d = 2 * d := by
          unfold mul32
          apply Nat.mod_eq_of_lt
          unfold u32
          omega
        rw [h2] at hge
        unfold fixedRescale at hge
        omega
      have hprog : ∀ (x : Rescaler) (t v : Nat), (x.setScale t v).program = x.program :=
        fun _ _ _ => rfl
      rw [hprog]
      split
      · exact rescaleStep_trans lo hi _ _ _
          (rescaleStep_insertRescaleBetween lo hi _ a term d (by omega) (by omega))
          (rescaleStep_insertRescaleBetween lo hi _ b term d (by omega) (by omega))
      · exact rescaleStep_insertRescaleBetween lo hi _ a term d (by omega) (by omega)
    · rw [if_neg hge] at h
      simp only [Option.map_eq_some'] at h
      obtain ⟨r, hr, rfl⟩ := h
      exact rescaleStep_rescaleLoop lo hi (by omega) hhi _ _ _ _ _ hr
  have hle : ∀ x : Nat, (if x > fixedRescale then fixedRescale else x) ≤ 60 := by
    intro x
    unfold fixedRescale
    split <;> omega
  unfold MinimumRescaler.visitMul at h
  have := key _ _ _ (hle _) h
  exact this

theorem rescaleStep_minimumVisit (lo hi : Nat) (hlo : lo ≤ 30) (hhi : 60 ≤ hi) (fuel : Nat)
    (st st1 : Rescaler) (term : Nat) (h : MinimumRescaler.visit fuel st term = some st1) :
    RescaleStep lo hi st.program st1.program := by
  unfold MinimumRescaler.visit at h
  simp only [] at h
  split at h
  · simp only [Option.some.injEq] at h
    subst h
    exact rescaleStep_refl _ _ _
  · next first rest hops =>
    split at h
    · exact rescaleStep_handleRawScale lo hi _ _ _ h
    · split at h
      · simp only [Option.some.injEq] at h
        subst h
        exact rescaleStep_refl _ _ _
      · split at h
        · split at h
          · have := rescaleStep_matchScales lo hi _ _ _ h
            exact this
          · simp only [Option.some.injEq] at h
            subst h
            exact rescaleStep_refl _ _ _
        · split at h
          · exact absurd h (by simp)
          · next second more =>
            have := rescaleStep_visitMul lo hi hlo hhi _ _ _ _ _ _ h
            exact this

theorem rescaleStep_lazyLoop (lo hi : Nat) (hlo : lo ≤ 60) (hhi : 60 ≤ hi) :
    ∀ (fuel : Nat) (st : Rescaler) (temp ms num : Nat) (r : Nat × Nat × Rescaler),
      LazyWaterlineRescaler.rescaleLoop fuel st temp ms num = some r →
      RescaleStep lo hi st.program r.2.2.program := by
  intro fuel
  induction fuel with
  | zero =>
    intro st temp ms num r h
    simp only [LazyWaterlineRescaler.rescaleLoop] at h
    split at h
    · exact absurd h (by simp)
    · simp only [Option.some.injEq] at h
      subst h
      exact rescaleStep_refl _ _ _
  | succ fuel ih =>
    intro st temp ms num r h
    simp only [LazyWaterlineRescaler.rescaleLoop] at h
    split at h
    · have := ih _ _ _ _ _ h
      exact rescaleStep_trans _ _ _ _ _
        (rescaleStep_insertRescale lo hi st temp fixedRescale hlo hhi) this
    · simp only [Option.some.injEq] at h
      subst h
      exact rescaleStep_refl _ _ _

theorem rescaleStep_lazyInsertOrDelay (lo hi : Nat) (hlo : lo ≤ 60) (hhi : 60 ≤ hi) (fuel : Nat)
    (st st1 : LazyWaterlineRescaler) (term : Nat)
    (h : LazyWaterlineRescaler.insertOrDelay fuel st term = some st1) :
    RescaleStep lo hi st.base.program st1.base.program := by
  unfold LazyWaterlineRescaler.insertOrDelay at h
  simp only [] at h
  split at h
  · exact absurd h (by simp)
  · split at h
    · unfold LazyWaterlineRescaler.insertRescaleRecursive at h
      simp only [] at h
      split at h
      · exact absurd h (by simp)
      · next temp num base hl =>
        simp only [Option.some.injEq] at h
        subst h
        exact rescaleStep_lazyLoop lo hi hlo hhi _ _ _ _ _ _ hl
    · simp only [Option.some.injEq] at h
      subst h
      exact rescaleStep_refl _ _ _

theorem rescaleStep_lazyVisit (lo hi : Nat) (hlo : lo ≤ 60) (hhi : 60 ≤ hi) (fuel : Nat)
    (st st1 : LazyWaterlineRescaler) (term : Nat)
    (h : LazyWaterlineRescaler.visit fuel st term = some st1) :
    RescaleStep lo hi st.base.program st1.base.program := by
  unfold LazyWaterlineRescaler.visit at h
  simp only [] at h
  split at h
  · simp only [Option.some.injEq] at h
    subst h
    exact rescaleStep_refl _ _ _
  · split at h
    · simp only [Option.map_eq_some'] at h
      obtain ⟨b, hb, rfl⟩ := h
      exact rescaleStep_handleRawScale lo hi _ _ _ hb
    · split at h
      · simp only [Option.some.injEq] at h
        subst h
        exact rescaleStep_refl _ _ _
      · split at h
        · split at h
          · have := rescaleStep_lazyInsertOrDelay lo hi hlo hhi _ _ _ _ h
            simp only [] at this
            rw [show ∀ (b : Rescaler) (l : List Nat) (c : Bool) (t v : Nat),
              (((b.touchAll l).check c).setScale t v).program = b.program from
              fun b l _ _ _ => (touchAll_frame b l).1] at this
            exact this
          · simp only [Option.some.injEq] at h
            subst h
            show RescaleStep lo hi st.base.program (Rescaler.touchAll _ _).program
            rw [(touchAll_frame _ _).1]
            exact rescaleStep_refl _ _ _
        · split at h
          · exact absurd h (by simp)
          · next st3 hst2 =>
            have h23 : RescaleStep lo hi st.base.program st3.base.program := by
              split at hst2
              · split at hst2
                · exact absurd hst2 (by simp)
                · next b3 hb3 =>
                  simp only [Option.some.injEq] at hst2
                  subst hst2
                  have := rescaleStep_matchLoop lo hi _ _ _ _ _ hb3
                  show RescaleStep lo hi st.base.program (b3.checkMatched _ _).program
                  rw [checkMatched_program]
                  rw [show ∀ (b : Rescaler) (l : List Nat) (t v : Nat),
                    ((b.touchAll l).setScale t v).program = b.program from
                    fun b l _ _ => (touchAll_frame b l).1] at this
                  exact this
              · simp only [Option.some.injEq] at hst2
                subst hst2
                exact rescaleStep_refl _ _ _
            split at h
            · simp only [Option.some.injEq] at h
              subst h
              exact h23
            · exact rescaleStep_trans _ _ _ _ _ h23
                (rescaleStep_lazyInsertOrDelay lo hi hlo hhi _ _ _ _ h)

theorem rescalesWithin_pass (lo hi : Nat) (R : Rewriter Rescaler)
    (hR : ∀ st term st1, R.rewrite st term = some st1 →
      RescaleStep lo hi st.program st1.program)
    (fuel : Nat) (st0 : Rescaler) (st : TraversalState Rescaler)
    (h : forwardPass R fuel st0 = some st) : RescalesWithin lo hi st0.program st.env.program :=
  (traverse_env true R (fun env => RescaleStep lo hi st0.program env.program)
    (fun env term env1 hq hr => rescaleStep_trans lo hi _ _ _ hq (hR env term env1 hr))
    fuel st0 st (rescaleStep_refl lo hi _) h).2.2.2

/-- What the `Mul` branch of `AlwaysRescaler::operator()` creates. -/
theorem alwaysVisit_divisor (st : Rescaler) (term : Nat) (hty : st.type term ≠ TermType.Raw)
    (hop : st.program.op term = Op.Mul) (hne : st.program.operands term ≠ []) :
    ∃ st1, AlwaysRescaler.visit st term = some st1 ∧
      st1.program.nextTermIndex = st.program.nextTermIndex + 1 ∧
      st1.program.op st.program.nextTermIndex = Op.Rescale ∧
      rescaleDivisorOf st1.program st.program.nextTermIndex
        = some (sub32 (st.sumScales (st.program.operands term)) st.minScale) := by
  obtain ⟨first, rest, hops⟩ := List.exists_cons_of_ne_nil hne
  obtain ⟨t1, _, t3, _, _⟩ := touchAll_frame st (st.program.operands term)
  have hst1 : ∃ s : Rescaler, s = (((st.touchAll (st.program.operands term)).check
      (decide (st.sumScales (st.program.operands term) ≠ 0))).setScale term
      (st.sumScales (st.program.operands term))) := ⟨_, rfl⟩
  obtain ⟨s, hs⟩ := hst1
  have hsp : s.program = st.program := by rw [hs]; exact t1
  have hsm : s.minScale = st.minScale := by rw [hs]; exact t3
  have hvisit : AlwaysRescaler.visit st term
      = some (s.insertRescale term (sub32 (st.sumScales (st.program.operands term))
          s.minScale)).2 := by
    have hmul : isMultiplicationOp (st.program.op term) = true := by simp [isMultiplicationOp, hop]
    have hres : isRescaleOp (st.program.op term) = false := by simp [isRescaleOp, hop]
    unfold AlwaysRescaler.visit
    simp only [hops, hty, if_false, hres, hmul, Bool.not_true, Bool.false_eq_true]
    rw [← hops, ← hs]
  refine ⟨_, hvisit, ?_⟩
  generalize hd : sub32 (st.sumScales (st.program.operands term)) s.minScale = d
  have hp : (s.insertRescale term d).2.program
      = Term.replaceOtherUsesWith (s.program.makeRescale term d).2 term
          (s.program.makeRescale term d).1 := rfl
  obtain ⟨r1, r2, r3⟩ := replaceUsesWithIf_terms (s.program.makeRescale term d).2 term
    (s.program.makeRescale term d).1 (fun use => decide (use ≠ (s.program.makeRescale term d).1))
  have hn : (s.program.makeRescale term d).2.nextTermIndex = s.program.nextTermIndex + 1 :=
    (makeTerm_index s.program Op.Rescale [term]).2
  have ho : (s.program.makeRescale term d).2.op s.program.nextTermIndex = Op.Rescale := by
    show (Term.setAttribute _ _ _ _).op _ = _
    rw [setAttribute_op, (makeTerm_frame _ _ _).1, if_pos rfl]
  obtain ⟨_, _, _, m4⟩ := rescaleStep_makeRescale d d s.program term d (Nat.le_refl _)
    (Nat.le_refl _)
  obtain ⟨d1, hd1, hlo, hhi⟩ := m4 s.program.nextTermIndex (Nat.le_refl _) (by omega) ho
  have hdd : d1 = d := by omega
  subst hdd
  rw [hp]
  refine ⟨?_, ?_, ?_⟩
  · exact (r1.trans hn).trans (by rw [hsp])
  · rw [← show s.program.nextTermIndex = st.program.nextTermIndex from by rw [hsp]]
    exact (r2 _).trans ho
  · rw [← hsm, hd, ← show s.program.nextTermIndex = st.program.nextTermIndex from by rw [hsp]]
    unfold rescaleDivisorOf at hd1 ⊢
    exact (congrArg (fun l => AttributeList.getUInt32 l RescaleDivisorAttribute) (r3 _)).trans hd1

/-- C34 (counterexample): the claim gives every `Rescale` term a rescaling
policy creates a divisor within `[1, 60]` when all sources have a non-zero
scale.  Under the Always policy the `Rescale` created for `y = a * b` carries
the divisor 0 when `a` and `b` are encoded at scale 30 and a third input at
scale 60, and the divisor 100 when the three inputs are encoded at scale 100;
no assertion fails in either run. -/
theorem alwaysRescaler_divisor_out_of_range :
    (∃ st, runRescaler AlwaysRescaler.rewriter 10 (scaledMul 30 30 60) = some st ∧
      st.ok = true ∧ st.program.op 6 = Op.Rescale ∧ rescaleDivisorOf st.program 6 = some 0 ∧
      ¬ RescalesWithin 1 60 (scaledMul 30 30 60) st.program) ∧
    (∃ st, runRescaler AlwaysRescaler.rewriter 10 (scaledMul 100 100 100) = some st ∧
      st.ok = true ∧ st.program.op 6 = Op.Rescale ∧ rescaleDivisorOf st.program 6 = some 100 ∧
      ¬ RescalesWithin 1 60 (scaledMul 100 100 100) st.program) ∧
    (initScales (scaledMul 30 30 60)).map (fun s => (scaledMul 30 30 60).getSources.map s)
      = some [some 30, some 30, some 60] ∧
    (initScales (scaledMul 100 100 100)).map (fun s => (scaledMul 100 100 100).getSources.map s)
      = some [some 100, some 100, some 100] := by
  refine ⟨?_, ?_, by decide!, by decide!⟩
  · have hv : (runRescaler AlwaysRescaler.rewriter 10 (scaledMul 30 30 60)).map
        (fun st => (st.ok, st.program.nextTermIndex, st.program.op 6,
          rescaleDivisorOf st.program 6)) = some (true, 7, Op.Rescale, some 0) := by decide!
    cases hr : runRescaler AlwaysRescaler.rewriter 10 (scaledMul 30 30 60) with
    | none => rw [hr] at hv; exact absurd hv (by simp)
    | some st =>
      rw [hr] at hv
      simp only [Option.map_some', Option.some.injEq, Prod.mk.injEq] at hv
      obtain ⟨v1, v2, v3, v4⟩ := hv
      refine ⟨st, rfl, v1, v3, v4, ?_⟩
      intro hw
      obtain ⟨d, hd, hlo, _⟩ := hw 6 (by decide!) (by omega) v3
      rw [v4] at hd
      simp only [Option.some.injEq] at hd
      omega
  · have hv : (runRescaler AlwaysRescaler.rewriter 10 (scaledMul 100 100 100)).map
        (fun st => (st.ok, st.program.nextTermIndex, st.program.op 6,
          rescaleDivisorOf st.program 6)) = some (true, 7, Op.Rescale, some 100) := by decide!
    cases hr : runRescaler AlwaysRescaler.rewriter 10 (scaledMul 100 100 100) with
    | none => rw [hr] at hv; exact absurd hv (by simp)
    | some st =>
      rw [hr] at hv
      simp only [Option.map_some', Option.some.injEq, Prod.mk.injEq] at hv
      obtain ⟨v1, v2, v3, v4⟩ := hv
      refine ⟨st, rfl, v1, v3, v4, ?_⟩
      intro hw
      obtain ⟨d, hd, _, hhi⟩ := hw 6 (by decide!) (by omega) v3
      rw [v4] at hd
      simp only [Option.some.injEq] at hd
      omega

/-- C34 (amended): every `Rescale` term created during a forward pass of the
Minimum, EagerWaterline or LazyWaterline policy that runs to its end carries a
`RescaleDivisorAttribute` `d` with `1 ≤ d ≤ 60`, whatever the program and
the scales; the `Rescale` term the Always policy creates when it visits a
non-Raw `Mul` carries `d = multScale - minScale` in 32-bit unsigned
arithmetic, `multScale` being the 32-bit sum of the scales of the operands of
the `Mul`. -/
theorem rescale_divisors_within_range (fuel loopFuel : Nat) :
    (∀ (st0 : Rescaler) (st : TraversalState Rescaler),
      forwardPass (MinimumRescaler.rewriter loopFuel) fuel st0 = some st →
      RescalesWithin 1 60 st0.program st.env.program) ∧
    (∀ (st0 : Rescaler) (st : TraversalState Rescaler),
      forwardPass (EagerWaterlineRescaler.rewriter loopFuel) fuel st0 = some st →
      RescalesWithin 1 60 st0.program st.env.program) ∧
    (∀ (st0 : LazyWaterlineRescaler) (st : TraversalState LazyWaterlineRescaler),
      forwardPass (LazyWaterlineRescaler.rewriter loopFuel) fuel st0 = some st →
      RescalesWithin 1 60 st0.base.program st.env.base.program) ∧
    (∀ (st : Rescaler) (term : Nat), st.type term ≠ TermType.Raw →
      st.program.op term = Op.Mul → st.program.operands term ≠ [] →
      ∃ st1, AlwaysRescaler.visit st term = some st1 ∧
        st1.program.nextTermIndex = st.program.nextTermIndex + 1 ∧
        st1.program.op st.program.nextTermIndex = Op.Rescale ∧
        rescaleDivisorOf st1.program st.program.nextTermIndex
          = some (sub32 (st.sumScales (st.program.operands term)) st.minScale)) := by
  refine ⟨?_, ?_, ?_, alwaysVisit_divisor⟩
  · intro st0 st h
    exact rescalesWithin_pass 1 60 _
      (fun s term s1 hr => rescaleStep_minimumVisit 1 60 (by omega) (by omega) loopFuel s s1 term hr)
      fuel st0 st h
  · intro st0 st h
    exact rescalesWithin_pass 1 60 _
      (fun s term s1 hr => rescaleStep_eagerVisit 1 60 (by omega) (by omega) loopFuel s s1 term hr)
      fuel st0 st h
  · intro st0 st h
    exact (traverse_env true (LazyWaterlineRescaler.rewriter loopFuel)
      (fun env => RescaleStep 1 60 st0.base.program env.base.program)
      (fun env term env1 hq hr => rescaleStep_trans 1 60 _ _ _ hq
        (rescaleStep_lazyVisit 1 60 (by omega) (by omega) loopFuel env env1 term hr))
      fuel st0 st (rescaleStep_refl 1 60 _) h).2.2.2

theorem rescale_divisors_within_range_witness :
    (∃ st, forwardPass (MinimumRescaler.rewriter 10) 10 (scaledMulState 60) = some st ∧
      st.env.program.op 6 = Op.Rescale ∧ rescaleDivisorOf st.env.program 6 = some 60 ∧
      RescalesWithin 1 60 (scaledMulState 60).program st.env.program) ∧
    (∃ st, forwardPass (EagerWaterlineRescaler.rewriter 10) 10 (scaledMulState 60) = some st ∧
      st.env.program.op 6 = Op.Rescale ∧ rescaleDivisorOf st.env.program 6 = some 60 ∧
      RescalesWithin 1 60 (scaledMulState 60).program st.env.program) ∧
    (∃ st, forwardPass (LazyWaterlineRescaler.rewriter 10) 10
        (LazyWaterlineRescaler.init (scaledMul 60 60 60) (fun _ => TermType.Cipher)
          (fun t => if t < 3 then some 60 else none)) = some st ∧
      st.env.base.program.op 6 = Op.Rescale ∧
      rescaleDivisorOf st.env.base.program 6 = some 60 ∧
      RescalesWithin 1 60 (scaledMul 60 60 60) st.env.base.program) ∧
    (∃ st1, AlwaysRescaler.visit (scaledMulState 60) 3 = some st1 ∧
      rescaleDivisorOf st1.program 6 = some 60) := by
  obtain ⟨h1, h2, h3, h4⟩ := rescale_divisors_within_range 10 10
  refine ⟨?_, ?_, ?_, ?_⟩
  · have hv : (forwardPass (MinimumRescaler.rewriter 10) 10 (scaledMulState 60)).map
        (fun st => (st.env.program.op 6, rescaleDivisorOf st.env.program 6))
        = some (Op.Rescale, some 60) := by decide!
    cases hr : forwardPass (MinimumRescaler.rewriter 10) 10 (scaledMulState 60) with
    | none => rw [hr] at hv; exact absurd hv (by simp)
    | some st =>
      rw [hr] at hv
      simp only [Option.map_some', Option.some.injEq, Prod.mk.injEq] at hv
      exact ⟨st, rfl, hv.1, hv.2, h1 _ st hr⟩
  · have hv : (forwardPass (EagerWaterlineRescaler.rewriter 10) 10 (scaledMulState 60)).map
        (fun st => (st.env.program.op 6, rescaleDivisorOf st.env.program 6))
        = some (Op.Rescale, some 60) := by decide!
    cases hr : forwardPass (EagerWaterlineRescaler.rewriter 10) 10 (scaledMulState 60) with
    | none => rw [hr] at hv; exact absurd hv (by simp)
    | some st =>
      rw [hr] at hv
      simp only [Option.map_some', Option.some.injEq, Prod.mk.injEq] at hv
      exact ⟨st, rfl, hv.1, hv.2, h2 _ st hr⟩
  · have hv : (forwardPass (LazyWaterlineRescaler.rewriter 10) 10
        (LazyWaterlineRescaler.init (scaledMul 60 60 60) (fun _ => TermType.Cipher)
          (fun t => if t < 3 then some 60 else none))).map
        (fun st => (st.env.base.program.op 6, rescaleDivisorOf st.env.base.program 6))
        = some (Op.Rescale, some 60) := by decide!
    cases hr : forwardPass (LazyWaterlineRescaler.rewriter 10) 10
        (LazyWaterlineRescaler.init (scaledMul 60 60 60) (fun _ => TermType.Cipher)
          (fun t => if t < 3 then some 60 else none)) with
    | none => rw [hr] at hv; exact absurd hv (by simp)
    | some st =>
      rw [hr] at hv
      simp only [Option.map_some', Option.some.injEq, Prod.mk.injEq] at hv
      exact ⟨st, rfl, hv.1, hv.2, h3 _ st hr⟩
  · obtain ⟨st1, e1, _, _, e4⟩ := h4 (scaledMulState 60) 3 (by decide!) (by decide!) (by decide!)
    refine ⟨st1, e1, ?_⟩
    have hn : (scaledMulState 60).program.nextTermIndex = 6 := by decide!
    have hd : sub32 ((scaledMulState 60).sumScales ((scaledMulState 60).program.operands 3))
        (scaledMulState 60).minScale = 60 := by decide!
    rw [hn, hd] at e4
    exact e4

/-! ## C31: the chain of `ModSwitch` terms of one call of `ModSwitcher` -/

theorem chainAt_lt (n t k : Nat) (ht : t < n) : chainAt n t k < n + k := by
  unfold chainAt
  split <;> omega

theorem chainAt_succ (n t k : Nat) : chainAt n t (k + 1) = n + k := by
  unfold chainAt
  rw [if_neg (by omega)]
  omega

theorem chainInv_refl (st0 : ModSwitcher) (t M : Nat) (hc : st0.program.Consistent) :
    ChainInv st0 t M st0 0 [] :=
  { consistent := hc
    next := rfl
    node := fun i hi => absurd hi (by omega)
    op_old := fun _ _ => ⟨rfl, rfl⟩
    level_old := fun _ _ => rfl
    ops_done := fun _ _ h => absurd h (by simp)
    ops_rest := fun _ _ _ => rfl
    type_eq := rfl
    encode_eq := rfl
    ok_eq := rfl }

/-- The body of the loop `while (tempLevel > expectedLevel)` adds the next
term of the chain. -/
theorem chainInv_insert (st0 : ModSwitcher) (t M : Nat) (st : ModSwitcher) (k : Nat)
    (done : List Nat) (ht : t < st0.program.nextTermIndex) (h : ChainInv st0 t M st k done) :
    (st.insertModSwitchNode (chainAt st0.program.nextTermIndex t k) (M - k)).1
      = st0.program.nextTermIndex + k ∧
    ChainInv st0 t M
      (st.insertModSwitchNode (chainAt st0.program.nextTermIndex t k) (M - k)).2 (k + 1) done := by
  have hlt := chainAt_lt st0.program.nextTermIndex t k ht
  obtain ⟨m1, m2, m3, m4⟩ := makeTerm_consistent st.program Op.ModSwitch
    [chainAt st0.program.nextTermIndex t k] h.consistent
    (by intro x hx; simp only [List.mem_singleton] at hx; subst hx; rw [h.next]; exact hlt)
  obtain ⟨f1, f2⟩ := makeTerm_frame st.program Op.ModSwitch
    [chainAt st0.program.nextTermIndex t k]
  rw [h.next] at m2 m3 m4 f1 f2
  have e1 : (st.insertModSwitchNode (chainAt st0.program.nextTermIndex t k) (M - k)).1
      = st0.program.nextTermIndex + k := m2
  have ep : (st.insertModSwitchNode (chainAt st0.program.nextTermIndex t k) (M - k)).2.program
      = (st.program.makeTerm Op.ModSwitch [chainAt st0.program.nextTermIndex t k]).2 := rfl
  have el : (st.insertModSwitchNode (chainAt st0.program.nextTermIndex t k) (M - k)).2.level
      = Function.update st.level (st0.program.nextTermIndex + k) (M - k) := by
    show Function.update st.level (st.program.makeTerm Op.ModSwitch _).1 _ = _
    rw [m2]
  refine ⟨e1, ?_⟩
  refine
    { consistent := by rw [ep]; exact m1
      next := by rw [ep, m3]; omega
      node := ?_
      op_old := ?_
      level_old := ?_
      ops_done := ?_
      ops_rest := ?_
      type_eq := h.type_eq
      encode_eq := h.encode_eq
      ok_eq := h.ok_eq }
  · intro i hi
    rw [ep, el, f1, m4]
    by_cases hik : i = k
    · subst hik
      simp
    · have hne : st0.program.nextTermIndex + i ≠ st0.program.nextTermIndex + k := by omega
      rw [if_neg hne, if_neg hne, Function.update_noteq hne]
      exact h.node i (by omega)
  · intro x hx
    rw [ep, f1, f2, if_neg (by omega), if_neg (by omega)]
    exact h.op_old x hx
  · intro x hx
    rw [el, Function.update_noteq (by omega)]
    exact h.level_old x hx
  · intro x hx hd
    rw [ep, m4, if_neg (by omega)]
    exact h.ops_done x hx hd
  · intro x hx hd
    rw [ep, m4, if_neg (by omega)]
    exact h.ops_rest x hx hd

/-- The loop `while (tempLevel > expectedLevel)` extends the chain down to the
expected level. -/
theorem chainInv_chainLoop (st0 : ModSwitcher) (t M e : Nat) (done : List Nat)
    (ht : t < st0.program.nextTermIndex) :
    ∀ (d k : Nat) (st : ModSwitcher), e + d + k = M → ChainInv st0 t M st k done →
      ∃ st1, ModSwitcher.chainLoop e (e + d) st (chainAt st0.program.nextTermIndex t k)
          = (chainAt st0.program.nextTermIndex t (k + d), e, st1) ∧
        ChainInv st0 t M st1 (k + d) done := by
  intro d
  induction d with
  | zero =>
    intro k st _ h
    refine ⟨st, ?_, h⟩
    cases e with
    | zero => rfl
    | succ e =>
      simp only [Nat.add_zero, ModSwitcher.chainLoop]
      rw [if_neg (by omega)]
  | succ d ih =>
    intro k st hk h
    obtain ⟨i1, i2⟩ := chainInv_insert st0 t M st k done ht h
    have hM : M - k = e + d + 1 := by omega
    rw [hM] at i1 i2
    obtain ⟨st1, h1, h2⟩ := ih (k + 1) _ (by omega) i2
    refine ⟨st1, ?_, by rw [show k + (d + 1) = k + 1 + d from by omega]; exact h2⟩
    rw [show e + (d + 1) = (e + d) + 1 from by omega]
    simp only [ModSwitcher.chainLoop]
    rw [if_pos (by omega), i1, ← chainAt_succ st0.program.nextTermIndex t k, h1]
    rw [show k + (d + 1) = k + 1 + d from by omega]

theorem map_redirect_idem (l : List Nat) (t c : Nat) :
    (l.map (fun y => if y = t then c else y)).map (fun y => if y = t then c else y)
      = l.map (fun y => if y = t then c else y) := by
  rw [List.map_map]
  apply List.map_congr_left
  intro y _
  simp only [Function.comp]
  by_cases hy : y = t
  · simp only [hy, if_true]
    split <;> rfl
  · simp only [hy, if_false]

/-- The loop `use->replaceOperand(term, temp)` over a group of uses. -/
theorem chainInv_replaceFold (st0 : ModSwitcher) (t M k : Nat)
    (ht : t < st0.program.nextTermIndex) :
    ∀ (g : List Nat) (st : ModSwitcher) (done : List Nat), ChainInv st0 t M st k done →
      (∀ u ∈ g, u < st0.program.nextTermIndex ∧ M - st0.level u = k) →
      ChainInv st0 t M
        (g.foldl (fun s use =>
          { s with program := (Term.replaceOperand s.program use t
              (chainAt st0.program.nextTermIndex t k)).2 }) st)
        k (done ++ g) := by
  intro g
  induction g with
  | nil =>
    intro st done h _
    simpa using h
  | cons u g ih =>
    intro st done h hg
    simp only [List.foldl_cons]
    have hu := hg u (List.mem_cons_self _ _)
    have hlt := chainAt_lt st0.program.nextTermIndex t k ht
    obtain ⟨c1, c2⟩ := replaceOperand_consistent st.program u t
      (chainAt st0.program.nextTermIndex t k) h.consistent
      (by rw [h.next]; omega) (by rw [h.next]; omega) (by rw [h.next]; exact hlt)
    obtain ⟨s1, s2, s3⟩ := replaceOperand_spec st.program u t
      (chainAt st0.program.nextTermIndex t k)
    have step : ChainInv st0 t M
        { st with program := (Term.replaceOperand st.program u t
            (chainAt st0.program.nextTermIndex t k)).2 } k (done ++ [u]) :=
      { consistent := c1
        next := c2.trans h.next
        node := by
          intro i hi
          obtain ⟨n1, n2, n3⟩ := h.node i hi
          refine ⟨(s2 _).trans n1, ?_, n3⟩
          show (Term.replaceOperand st.program u t _).2.operands _ = _
          rw [s1, if_neg (by omega)]
          exact n2
        op_old := fun x hx => ⟨(s2 x).trans (h.op_old x hx).1, (s3 x).trans (h.op_old x hx).2⟩
        level_old := h.level_old
        ops_done := by
          intro x hx hd
          show (Term.replaceOperand st.program u t _).2.operands _ = _
          rw [s1]
          by_cases hxu : x = u
          · subst hxu
            rw [if_pos rfl, hu.2]
            by_cases hd0 : x ∈ done
            · rw [h.ops_done x hx hd0, hu.2]
              exact map_redirect_idem _ _ _
            · rw [h.ops_rest x hx hd0]
          · rw [if_neg hxu]
            have : x ∈ done := by
              rcases List.mem_append.mp hd with h1 | h1
              · exact h1
              · simp only [List.mem_singleton] at h1
                exact absurd h1 hxu
            exact h.ops_done x hx this
        ops_rest := by
          intro x hx hd
          show (Term.replaceOperand st.program u t _).2.operands _ = _
          have hxu : x ≠ u := by
            intro e
            exact hd (by simp [e])
          rw [s1, if_neg hxu]
          exact h.ops_rest x hx (fun hin => hd (List.mem_append_left _ hin))
        type_eq := h.type_eq
        encode_eq := h.encode_eq
        ok_eq := h.ok_eq }
    have := ih _ (done ++ [u]) step (fun v hv => hg v (List.mem_cons_of_mem _ hv))
    simpa using this

/-- The loop over the groups of uses below the largest level: the chain ends
at the level of the last group. -/
theorem chainInv_groupLoop (st0 : ModSwitcher) (t M : Nat)
    (ht : t < st0.program.nextTermIndex) :
    ∀ (rest : List (Nat × List Nat)) (st : ModSwitcher) (k : Nat) (done : List Nat),
      ChainInv st0 t M st k done →
      rest.Pairwise (fun a b => b.1 < a.1) →
      (∀ e ∈ rest, e.1 + k ≤ M ∧ ∀ u ∈ e.2, u < st0.program.nextTermIndex ∧ st0.level u = e.1) →
      ChainInv st0 t M
        (ModSwitcher.groupLoop t rest st (chainAt st0.program.nextTermIndex t k) (M - k))
        ((rest.getLast?.map (fun e => M - e.1)).getD k)
        (done ++ (rest.map Prod.snd).flatten) := by
  intro rest
  induction rest with
  | nil =>
    intro st k done h _ _
    simpa [ModSwitcher.groupLoop] using h
  | cons eg rest ih =>
    intro st k done h hpw hall
    obtain ⟨e, g⟩ := eg
    obtain ⟨he, hg⟩ := hall (e, g) (List.mem_cons_self _ _)
    simp only at he hg
    obtain ⟨st1, l1, l2⟩ := chainInv_chainLoop st0 t M e done ht (M - k - e) k st (by omega) h
    have hke : k + (M - k - e) = M - e := by omega
    rw [show e + (M - k - e) = M - k from by omega, hke] at l1
    rw [hke] at l2
    have l3 := chainInv_replaceFold st0 t M (M - e) ht g st1 done l2
      (fun u hu => ⟨(hg u hu).1, by rw [(hg u hu).2]⟩)
    rw [List.pairwise_cons] at hpw
    have l4 := ih _ (M - e) (done ++ g) l3 hpw.2
      (fun e1 he1 => ⟨by have := hpw.1 e1 he1; simp only at this; omega,
        (hall e1 (List.mem_cons_of_mem _ he1)).2⟩)
    have hT : M - (M - e) = e := by omega
    rw [hT] at l4
    simp only [ModSwitcher.groupLoop, l1]
    have hk : (((e, g) :: rest).getLast?.map (fun e => M - e.1)).getD k
        = (rest.getLast?.map (fun e => M - e.1)).getD (M - e) := by
      cases rest with
      | nil => rfl
      | cons a rest =>
        rw [List.getLast?_cons_cons]
        cases hl : (a :: rest).getLast? with
        | none => exact absurd hl (by simp)
        | some x => rfl
    rw [hk]
    simpa [List.append_assoc] using l4

theorem pairwise_last_le (l : List (Nat × List Nat)) (x : Nat × List Nat)
    (hpw : l.Pairwise (fun a b => b.1 < a.1)) (hx : l.getLast? = some x) :
    ∀ y ∈ l, x.1 ≤ y.1 := by
  induction l with
  | nil => intro y hy; exact absurd hy (by simp)
  | cons a l ih =>
    rw [List.pairwise_cons] at hpw
    cases l with
    | nil =>
      intro y hy
      simp only [List.getLast?_singleton, Option.some.injEq] at hx
      simp only [List.mem_singleton] at hy
      rw [hy, hx]
    | cons b l =>
      rw [List.getLast?_cons_cons] at hx
      intro y hy
      rcases List.mem_cons.mp hy with h1 | h1
      · rw [h1]
        exact Nat.le_of_lt (hpw.1 x (List.mem_of_getLast?_eq_some hx))
      · exact ih hpw.2 hx y h1

/-- The part of the call operator that levels the uses of `t`: it returns the
largest level `M` of a use and leaves a chain of `M - m` terms, `m` being the
smallest level of a use; the uses redirected are those below `M`. -/
theorem levelUses_chain (st : ModSwitcher) (t M m : Nat) (hc : st.program.Consistent)
    (ht : t < st.program.nextTermIndex)
    (hM : ∀ u ∈ st.program.uses t, st.level u ≤ M)
    (hM1 : ∃ u ∈ st.program.uses t, st.level u = M)
    (hm : ∀ u ∈ st.program.uses t, m ≤ st.level u)
    (hm1 : ∃ u ∈ st.program.uses t, st.level u = m) :
    (st.levelUses t).1 = M ∧
    ∃ done, ChainInv st t M (st.levelUses t).2 (M - m) done ∧
      ∀ u, u ∈ done ↔ u ∈ st.program.uses t ∧ st.level u < M := by
  obtain ⟨p1, p2, p3⟩ := useLevels_spec st.level (st.program.uses t)
  obtain ⟨uM, huM, hlM⟩ := hM1
  obtain ⟨um, hum, hlm⟩ := hm1
  obtain ⟨eM, heM, hkM, _⟩ := p3 uM huM
  cases hrev : ((st.program.uses t).foldl
      (fun m use => useLevelsPush m (st.level use) use) []).reverse with
  | nil =>
    have := congrArg List.reverse hrev
    simp only [List.reverse_reverse, List.reverse_nil] at this
    rw [this] at heM
    exact absurd heM (by simp)
  | cons kg rest =>
    obtain ⟨k0, g0⟩ := kg
    have hmemrev : ∀ e, e ∈ (st.program.uses t).foldl
        (fun m use => useLevelsPush m (st.level use) use) [] ↔ e ∈ (k0, g0) :: rest := by
      intro e
      rw [← hrev, List.mem_reverse]
    have hpw : ((k0, g0) :: rest).Pairwise (fun a b => b.1 < a.1) := by
      rw [← hrev, List.pairwise_reverse]
      exact p1
    rw [List.pairwise_cons] at hpw
    have hkey : ∀ e ∈ (k0, g0) :: rest, ∃ u ∈ st.program.uses t, st.level u = e.1 := by
      intro e he
      obtain ⟨q1, q2⟩ := p2 e ((hmemrev e).mpr he)
      obtain ⟨u, hu⟩ := List.exists_mem_of_ne_nil _ q1
      exact ⟨u, (q2 u hu).1, (q2 u hu).2⟩
    have hk0 : k0 = M := by
      obtain ⟨u, hu, hl⟩ := hkey (k0, g0) (List.mem_cons_self _ _)
      have h1 : k0 ≤ M := by
        have := hM u hu
        simp only at hl
        omega
      rcases List.mem_cons.mp ((hmemrev eM).mp heM) with h2 | h2
      · rw [h2] at hkM
        simp only at hkM
        omega
      · have := hpw.1 eM h2
        simp only at this
        omega
    subst hk0
    rw [levelUses_eq st t k0 g0 rest hrev]
    refine ⟨rfl, (rest.map Prod.snd).flatten, ?_, ?_⟩
    · have hlt : ∀ u, u ∈ st.program.uses t → u < st.program.nextTermIndex := by
        intro u hu
        exact (hc.operand_lt ((mem_uses_iff hc u t).mp hu)).1
      have hg := chainInv_groupLoop st t k0 ht rest st 0 [] (chainInv_refl st t k0 hc) hpw.2
        (fun e he => ⟨by have := hpw.1 e he; simp only at this; omega,
          fun u hu => ⟨hlt u ((p2 e ((hmemrev e).mpr (List.mem_cons_of_mem _ he))).2 u hu).1,
            ((p2 e ((hmemrev e).mpr (List.mem_cons_of_mem _ he))).2 u hu).2⟩⟩)
      have hk : (rest.getLast?.map (fun e => k0 - e.1)).getD 0 = k0 - m := by
        cases hl : rest.getLast? with
        | none =>
          have hr : rest = [] := List.getLast?_eq_none_iff.mp hl
          subst hr
          obtain ⟨em, hem, hkm, _⟩ := p3 um hum
          have := (hmemrev em).mp hem
          simp only [List.mem_singleton] at this
          rw [this] at hkm
          simp only at hkm
          simp only [Option.map_none', Option.getD_none]
          omega
        | some x =>
          simp only [Option.map_some', Option.getD_some]
          have hxmem : x ∈ rest := List.mem_of_getLast?_eq_some hl
          obtain ⟨u, hu, hlu⟩ := hkey x (List.mem_cons_of_mem _ hxmem)
          have h1 : m ≤ x.1 := by
            have := hm u hu
            omega
          obtain ⟨em, hem, hkm, _⟩ := p3 um hum
          rcases List.mem_cons.mp ((hmemrev em).mp hem) with h2 | h2
          · have := hpw.1 x hxmem
            rw [h2] at hkm
            simp only at this hkm
            omega
          · have := pairwise_last_le rest x hpw.2 hl em h2
            omega
      rw [hk] at hg
      simpa [chainAt] using hg
    · intro u
      constructor
      · intro hu
        obtain ⟨l, hl, hul⟩ := List.mem_flatten.mp hu
        obtain ⟨e, he, rfl⟩ := List.mem_map.mp hl
        obtain ⟨_, q2⟩ := p2 e ((hmemrev e).mpr (List.mem_cons_of_mem _ he))
        have := hpw.1 e he
        simp only at this
        exact ⟨(q2 u hul).1, by rw [(q2 u hul).2]; exact this⟩
      · rintro ⟨hu, hl⟩
        obtain ⟨e, he, hk, hue⟩ := p3 u hu
        rcases List.mem_cons.mp ((hmemrev e).mp he) with h2 | h2
        · rw [h2] at hk
          simp only at hk
          omega
        · exact List.mem_flatten.mpr ⟨e.2, List.mem_map.mpr ⟨e, h2, rfl⟩, hue⟩

/-- One call of `ModSwitcher::operator()` on a term `t` that is not `Raw` and
whose uses have the largest level `M` and the smallest level `m`. -/
theorem visit_chain (st : ModSwitcher) (t M m : Nat) (hc : st.program.Consistent)
    (ht : t < st.program.nextTermIndex) (hraw : st.type t ≠ TermType.Raw)
    (hM : ∀ u ∈ st.program.uses t, st.level u ≤ M)
    (hM1 : ∃ u ∈ st.program.uses t, st.level u = M)
    (hm : ∀ u ∈ st.program.uses t, m ≤ st.level u)
    (hm1 : ∃ u ∈ st.program.uses t, st.level u = m) :
    ∃ st1, ModSwitcher.visit st t = some st1 ∧
      st1.program.Consistent ∧
      st1.program.nextTermIndex = st.program.nextTermIndex + (M - m) ∧
      (∀ i, i < M - m →
        st1.program.op (st.program.nextTermIndex + i) = Op.ModSwitch ∧
        st1.program.operands (st.program.nextTermIndex + i)
          = [chainAt st.program.nextTermIndex t i] ∧
        st1.level (st.program.nextTermIndex + i) = M - i) ∧
      (∀ u ∈ st.program.uses t, st1.program.operands u = (st.program.operands u).map
        (fun y => if y = t then chainAt st.program.nextTermIndex t (M - st.level u) else y)) ∧
      (∀ x, x < st.program.nextTermIndex → x ∉ st.program.uses t →
        st1.program.operands x = st.program.operands x) ∧
      (∀ x, x < st.program.nextTermIndex →
        st1.program.op x = st.program.op x ∧
        st1.program.attributes x = st.program.attributes x) ∧
      st1.level t = (if st.program.op t = Op.Rescale then add32 M 1 else M) ∧
      (∀ x, x < st.program.nextTermIndex → x ≠ t → st1.level x = st.level x) ∧
      st1.type = st.type ∧
      st1.encodeNodes
        = (if st.program.op t = Op.Encode then st.encodeNodes ++ [t] else st.encodeNodes) := by
  obtain ⟨uM, huM, hlM⟩ := hM1
  have hlen : ¬ (st.program.uses t).length = 0 := by
    intro h
    rw [List.length_eq_zero] at h
    rw [h] at huM
    exact absurd huM (by simp)
  -- the state after the `Encode` has been recorded
  obtain ⟨s, hs⟩ : ∃ s : ModSwitcher, s = (if st.program.op t = Op.Encode then
      { st with encodeNodes := st.encodeNodes ++ [t] } else st) := ⟨_, rfl⟩
  have hsp : s.program = st.program := by rw [hs]; split <;> rfl
  have hsl : s.level = st.level := by rw [hs]; split <;> rfl
  have hst : s.type = st.type := by rw [hs]; split <;> rfl
  have hse : s.encodeNodes
      = (if st.program.op t = Op.Encode then st.encodeNodes ++ [t] else st.encodeNodes) := by
    rw [hs]; split <;> rfl
  have hv : ModSwitcher.visit st t = some { (s.levelUses t).2 with
      level := Function.update (s.levelUses t).2.level t
        (if isRescaleOp ((s.levelUses t).2.program.op t) then add32 (s.levelUses t).1 1
          else (s.levelUses t).1) } := by
    unfold ModSwitcher.visit
    rw [if_neg hlen, if_neg hraw, ← hs]
  obtain ⟨l1, done, l2, l3⟩ := levelUses_chain s t M m (by rw [hsp]; exact hc)
    (by rw [hsp]; exact ht) (by rw [hsp, hsl]; exact hM) (by rw [hsp, hsl]; exact ⟨uM, huM, hlM⟩)
    (by rw [hsp, hsl]; exact hm) (by rw [hsp, hsl]; exact hm1)
  rw [hsp, hsl] at l3
  have n1 := l2.next
  have n2 := l2.node
  have n3 := l2.op_old
  have n4 := l2.level_old
  have n5 := l2.ops_done
  have n6 := l2.ops_rest
  rw [hsp] at n1 n2 n3 n4 n5 n6
  rw [hsl] at n4 n5
  have hop : (s.levelUses t).2.program.op t = st.program.op t := (n3 t ht).1
  refine ⟨_, hv, l2.consistent, n1, ?_, ?_, ?_, n3, ?_, ?_, l2.type_eq.trans hst,
    l2.encode_eq.trans hse⟩
  · intro i hi
    obtain ⟨a1, a2, a3⟩ := n2 i hi
    refine ⟨a1, a2, ?_⟩
    show Function.update _ t _ _ = _
    rw [Function.update_noteq (by omega)]
    exact a3
  · intro u hu
    have hult : u < st.program.nextTermIndex :=
      (hc.operand_lt ((mem_uses_iff hc u t).mp hu)).1
    by_cases hd : u ∈ done
    · exact n5 u hult hd
    · show (s.levelUses t).2.program.operands u = _
      rw [n6 u hult hd]
      have hl : st.level u = M := by
        have h1 := hM u hu
        by_cases h2 : st.level u < M
        · exact absurd ((l3 u).mpr ⟨hu, h2⟩) hd
        · omega
      rw [hl, Nat.sub_self]
      have : ∀ y, (if y = t then chainAt st.program.nextTermIndex t 0 else y) = y := by
        intro y
        unfold chainAt
        split
        · next h => rw [if_pos rfl]; exact h.symm
        · rfl
      simp only [this, List.map_id']
  · intro x hx hxu
    exact n6 x hx (fun hd => hxu ((l3 x).mp hd).1)
  · show Function.update _ t _ t = _
    rw [Function.update_same, hop, l1]
    unfold isRescaleOp
    by_cases h : st.program.op t = Op.Rescale
    · simp [h]
    · simp [h]
  · intro x hx hxt
    show Function.update _ t _ x = _
    rw [Function.update_noteq hxt]
    exact n4 x hx

theorem switchChainProgram_wellFormed : switchChainProgram.WellFormed :=
  run_wellFormed "chain" 8 _ switchChainProgram (run_eq_foldl _ _ (by decide!))

theorem switchChainState_consistent : switchChainState.program.Consistent := by
  have h : switchChainState.program = switchChainProgram := by
    dsimp only [switchChainState]
  rw [h]
  exact switchChainProgram_wellFormed.consistent

/-- C31 (ModSwitch chain): when `ModSwitcher` visits a term `t` that is not
`Raw` and whose uses have levels with maximum `M` and minimum `m`, it creates
exactly `M - m` terms, all `ModSwitch`, forming a single chain rooted at `t`
(the first reads `t`, each next one reads the one before, and the `i`-th has
level `M - i`); every use that had level `l` afterwards reads, wherever it read
`t`, the chain member `M - l` steps below `t` (`t` itself when `l = M`); no
other term changes its operands; and `level[t]` is set to `M`, plus 1 (in
32-bit arithmetic) if `t` is a `Rescale`. -/
theorem modSwitcher_chain (st : ModSwitcher) (t M m : Nat) (hc : st.program.Consistent)
    (ht : t < st.program.nextTermIndex) (hraw : st.type t ≠ TermType.Raw)
    (hM : ∀ u ∈ st.program.uses t, st.level u ≤ M)
    (hM1 : ∃ u ∈ st.program.uses t, st.level u = M)
    (hm : ∀ u ∈ st.program.uses t, m ≤ st.level u)
    (hm1 : ∃ u ∈ st.program.uses t, st.level u = m) :
    ∃ st1, ModSwitcher.visit st t = some st1 ∧
      st1.program.nextTermIndex = st.program.nextTermIndex + (M - m) ∧
      (∀ i, i < M - m →
        st1.program.op (st.program.nextTermIndex + i) = Op.ModSwitch ∧
        st1.program.operands (st.program.nextTermIndex + i)
          = [chainAt st.program.nextTermIndex t i] ∧
        st1.level (st.program.nextTermIndex + i) = M - i) ∧
      (∀ u ∈ st.program.uses t,
        st1.program.operands u = (st.program.operands u).map
          (fun y => if y = t then chainAt st.program.nextTermIndex t (M - st.level u) else y) ∧
        chainAt st.program.nextTermIndex t (M - st.level u) ∈ st1.program.operands u) ∧
      (∀ x, x < st.program.nextTermIndex → x ∉ st.program.uses t →
        st1.program.operands x = st.program.operands x) ∧
      (∀ x, x < st.program.nextTermIndex → st1.program.op x = st.program.op x) ∧
      st1.level t = (if st.program.op t = Op.Rescale then add32 M 1 else M) ∧
      (M + 1 < u32 → add32 M 1 = M + 1) ∧
      (∀ x, x < st.program.nextTermIndex → x ≠ t → st1.level x = st.level x) := by
  obtain ⟨st1, v1, _, v3, v4, v5, v6, v7, v8, v9, _, _⟩ :=
    visit_chain st t M m hc ht hraw hM hM1 hm hm1
  refine ⟨st1, v1, v3, v4, ?_, v6, fun x hx => (v7 x hx).1, v8, ?_, v9⟩
  · intro u hu
    refine ⟨v5 u hu, ?_⟩
    rw [v5 u hu]
    have : t ∈ st.program.operands u := (mem_uses_iff hc u t).mp hu
    exact List.mem_map.mpr ⟨t, this, by simp⟩
  · intro h
    unfold add32
    exact Nat.mod_eq_of_lt h

theorem modSwitcher_chain_witness :
    ∃ st1, ModSwitcher.visit switchChainState 0 = some st1 ∧
      st1.program.nextTermIndex = 9 ∧
      st1.program.op 7 = Op.ModSwitch ∧ st1.program.op 8 = Op.ModSwitch ∧
      st1.program.operands 7 = [0] ∧ st1.program.operands 8 = [7] ∧
      st1.level 7 = 2 ∧ st1.level 8 = 1 ∧
      st1.program.operands 1 = [0] ∧ st1.program.operands 3 = [7, 7] ∧
      st1.program.operands 2 = [8] ∧ st1.level 0 = 2 := by
  obtain ⟨st1, h1, h2, h3, h4, _, _, h7, _, _⟩ :=
    modSwitcher_chain switchChainState 0 2 0 switchChainState_consistent (by decide!)
      (by decide!) (by decide!) ⟨1, by decide!, by decide!⟩ (by decide!)
      ⟨2, by decide!, by decide!⟩
  have hn : switchChainState.program.nextTermIndex = 7 := by decide!
  rw [hn] at h2 h3 h4
  obtain ⟨a1, a2, a3⟩ := h3 0 (by omega)
  obtain ⟨b1, b2, b3⟩ := h3 1 (by omega)
  have u1 := (h4 1 (by decide!)).1
  have u2 := (h4 2 (by decide!)).1
  have u3 := (h4 3 (by decide!)).1
  refine ⟨st1, h1, h2, a1, b1, a2.trans (by decide!), b2.trans (by decide!), a3, b3,
    u1.trans (by decide!), u3.trans (by decide!), u2.trans (by decide!),
    h7.trans (by decide!)⟩

/-! ## C37: the level write-back of `ModSwitcher` -/

theorem exists_max_of_ne_nil (f : Nat → Nat) (l : List Nat) (h : l ≠ []) :
    ∃ M, (∀ u ∈ l, f u ≤ M) ∧ ∃ u ∈ l, f u = M := by
  induction l with
  | nil => exact absurd rfl h
  | cons a l ih =>
    by_cases hl : l = []
    · subst hl
      exact ⟨f a, by simp, a, by simp, rfl⟩
    · obtain ⟨M, h1, u, hu, h2⟩ := ih hl
      by_cases hc : f a ≤ M
      · refine ⟨M, ?_, u, List.mem_cons_of_mem _ hu, h2⟩
        intro v hv
        rcases List.mem_cons.mp hv with h3 | h3
        · rw [h3]; exact hc
        · exact h1 v h3
      · refine ⟨f a, ?_, a, List.mem_cons_self _ _, rfl⟩
        intro v hv
        rcases List.mem_cons.mp hv with h3 | h3
        · rw [h3]
        · have := h1 v h3
          omega

theorem exists_min_of_ne_nil (f : Nat → Nat) (l : List Nat) (h : l ≠ []) :
    ∃ m, (∀ u ∈ l, m ≤ f u) ∧ ∃ u ∈ l, f u = m := by
  induction l with
  | nil => exact absurd rfl h
  | cons a l ih =>
    by_cases hl : l = []
    · subst hl
      exact ⟨f a, by simp, a, by simp, rfl⟩
    · obtain ⟨M, h1, u, hu, h2⟩ := ih hl
      by_cases hc : M ≤ f a
      · refine ⟨M, ?_, u, List.mem_cons_of_mem _ hu, h2⟩
        intro v hv
        rcases List.mem_cons.mp hv with h3 | h3
        · rw [h3]; exact hc
        · exact h1 v h3
      · refine ⟨f a, ?_, a, List.mem_cons_self _ _, rfl⟩
        intro v hv
        rcases List.mem_cons.mp hv with h3 | h3
        · rw [h3]
        · have := h1 v h3
          omega

/-- What one call of `ModSwitcher::operator()` inside a backward pass does to
the levels and to `encodeNodes`. -/
theorem visit_level_facts (p0 : Program) (types : Nat → TermType)
    (hn : p0.nextTermIndex < u32) (st : ModSwitcher) (visited : List Nat) (x : Nat)
    (h : SwitchInv p0 types st visited) (hl0 : st.level x = 0) (hx : x ∉ visited)
    (hlt : x < p0.nextTermIndex) (hux : ∀ t, x ∈ p0.operands t → t ∈ visited)
    (st1 : ModSwitcher) (hv : ModSwitcher.visit st x = some st1) :
    (∀ y, y < p0.nextTermIndex → y ≠ x → st1.level y = st.level y) ∧
    (types x ≠ TermType.Raw → ∀ t, x ∈ p0.operands t → st.level t ≤ st1.level x) ∧
    (p0.op x ≠ Op.Rescale →
      st1.level x = 0 ∨ ∃ u ∈ visited, x ∈ p0.operands u ∧ st1.level x = st.level u) ∧
    (types x = TermType.Raw → st1.level x = 0) ∧
    (∀ e ∈ st1.encodeNodes, e ∈ st.encodeNodes ∨
      (e = x ∧ p0.op x = Op.Encode ∧ types x ≠ TermType.Raw ∧ ∃ t, x ∈ p0.operands t)) ∧
    (∀ e ∈ st.encodeNodes, e ∈ st1.encodeNodes) ∧
    (p0.op x = Op.Encode → types x ≠ TermType.Raw → (∃ t, x ∈ p0.operands t) →
      x ∈ st1.encodeNodes) := by
  have hc := h.wf.consistent
  have hxs : x < st.program.nextTermIndex := Nat.lt_of_lt_of_le hlt h.next_le
  have huses : ∀ t, t ∈ st.program.uses x ↔ x ∈ p0.operands t := by
    intro t
    rw [mem_uses_iff hc t x]
    exact h.uses_unvisited x hlt hx t
  have hopx : st.program.op x = p0.op x := (h.op_old x hlt).1
  by_cases hU : (st.program.uses x).length = 0
  · -- no use: the call returns at once
    have hst : st = st1 := by
      unfold ModSwitcher.visit at hv
      rw [if_pos hU] at hv
      exact Option.some.inj hv
    subst hst
    have hnil : st.program.uses x = [] := List.length_eq_zero.mp hU
    have hno : ∀ t, ¬ x ∈ p0.operands t := by
      intro t ht
      have := (huses t).mpr ht
      rw [hnil] at this
      exact absurd this (by simp)
    exact ⟨fun _ _ _ => rfl, fun _ t ht => absurd ht (hno t), fun _ => Or.inl hl0,
      fun _ => hl0, fun e he => Or.inl he, fun e he => he,
      fun _ _ ⟨t, ht⟩ => absurd ht (hno t)⟩
  · by_cases hraw : st.type x = TermType.Raw
    · have hst : st = st1 := by
        unfold ModSwitcher.visit at hv
        rw [if_neg hU, if_pos hraw] at hv
        exact Option.some.inj hv
      subst hst
      have hraw1 : types x = TermType.Raw := by rw [← h.type_eq]; exact hraw
      exact ⟨fun _ _ _ => rfl, fun hne => absurd hraw1 hne, fun _ => Or.inl hl0,
        fun _ => hl0, fun e he => Or.inl he, fun e he => he,
        fun _ hne => absurd hraw1 hne⟩
    · have hne : st.program.uses x ≠ [] := fun e => hU (by rw [e]; rfl)
      obtain ⟨M, hM, uM, huM, hlM⟩ := exists_max_of_ne_nil st.level _ hne
      obtain ⟨m, hm, hm1⟩ := exists_min_of_ne_nil st.level _ hne
      obtain ⟨st2, v1, _, _, _, _, _, _, v8, v9, _, v11⟩ :=
        visit_chain st x M m hc hxs hraw hM ⟨uM, huM, hlM⟩ hm hm1
      rw [hv] at v1
      have hst : st1 = st2 := Option.some.inj v1
      subst hst
      have hvl : visited.length < p0.nextTermIndex := by
        have := nodup_bounded_length (visited ++ [x]) p0.nextTermIndex
          (by
            rw [List.nodup_append]
            refine ⟨h.vis_nodup, List.nodup_singleton _, ?_⟩
            intro a ha hb
            simp only [List.mem_singleton] at hb
            subst hb
            exact hx ha)
          (by
            intro y hy
            rcases List.mem_append.mp hy with h1 | h1
            · exact h.vis_lt y h1
            · simp only [List.mem_singleton] at h1
              rw [h1]; exact hlt)
        simp only [List.length_append, List.length_singleton] at this
        omega
      have hMle : M ≤ visited.length := by rw [← hlM]; exact h.level_le uM
      have hadd : add32 M 1 = M + 1 := by
        unfold add32
        apply Nat.mod_eq_of_lt
        omega
      rw [hopx, hadd] at v8
      have hge : M ≤ st1.level x := by
        rw [v8]
        split <;> omega
      refine ⟨?_, ?_, ?_, ?_, ?_, ?_, ?_⟩
      · intro y hy hyx
        exact v9 y (Nat.lt_of_lt_of_le hy h.next_le) hyx
      · intro _ t ht
        exact Nat.le_trans (hM t ((huses t).mpr ht)) hge
      · intro hop
        right
        refine ⟨uM, hux uM ((huses uM).mp huM), (huses uM).mp huM, ?_⟩
        rw [v8, if_neg hop, hlM]
      · intro hr
        rw [← h.type_eq] at hr
        exact absurd hr hraw
      · intro e he
        rw [v11, hopx] at he
        split at he
        · next hop =>
          rcases List.mem_append.mp he with h1 | h1
          · exact Or.inl h1
          · simp only [List.mem_singleton] at h1
            exact Or.inr ⟨h1, hop, by rw [← h.type_eq]; exact hraw, uM, (huses uM).mp huM⟩
        · exact Or.inl he
      · intro e he
        rw [v11]
        split
        · exact List.mem_append_left _ he
        · exact he
      · intro hop _ _
        rw [v11, hopx, if_pos hop]
        simp

/-- A `Plain` term with operands is an `Encode`, and a term with operands is
`Cipher`, `Plain` or `Raw`, in a program typed by the rule of `TypeDeducer`. -/
theorem typeRule_operands (p0 : Program) (types : Nat → TermType) (t : Nat)
    (ht : TypeRule p0 types t) (hne : p0.operands t ≠ []) :
    (types t = TermType.Plain → p0.op t = Op.Encode) ∧
    (types t = TermType.Cipher ∨ types t = TermType.Plain ∨ types t = TermType.Raw) ∧
    (types t = TermType.Cipher → ∃ o ∈ p0.operands t, types o = TermType.Cipher) := by
  unfold TypeRule at ht
  rw [if_neg hne] at ht
  by_cases hop : p0.op t = Op.Encode
  · rw [if_pos hop] at ht
    refine ⟨fun _ => hop, Or.inr (Or.inl ht), ?_⟩
    intro hc
    rw [ht] at hc
    exact absurd hc (by decide)
  · rw [if_neg hop] at ht
    rcases inferredType_cases types (p0.operands t) with h1 | h1
    · rw [h1] at ht
      refine ⟨fun hp => ?_, Or.inl ht, fun _ => (inferredType_eq_cipher _ _).mp h1⟩
      rw [ht] at hp
      exact absurd hp (by decide)
    · rw [h1] at ht
      refine ⟨fun hp => ?_, Or.inr (Or.inr ht), fun hc => ?_⟩
      · rw [ht] at hp
        exact absurd hp (by decide)
      · rw [ht] at hc
        exact absurd hc (by decide)

/-- One call of `ModSwitcher::operator()` inside a backward pass over a typed
program keeps both invariants. -/
theorem switchLevels_visit (p0 : Program) (types : Nat → TermType) (hp0 : p0.Consistent)
    (hn : p0.nextTermIndex < u32) (hty : ∀ t, t < p0.nextTermIndex → TypeRule p0 types t)
    (st : ModSwitcher) (visited : List Nat) (x : Nat)
    (h : SwitchInv p0 types st visited) (hl : SwitchLevels p0 types st visited)
    (hx : x ∉ visited) (hlt : x < p0.nextTermIndex)
    (hux : ∀ t, x ∈ p0.operands t → t ∈ visited) :
    ∃ st1, ModSwitcher.visit st x = some st1 ∧ SwitchInv p0 types st1 (visited ++ [x]) ∧
      SwitchLevels p0 types st1 (visited ++ [x]) := by
  obtain ⟨st1, hv, hinv⟩ := switch_visit p0 types hp0 hn st visited x h hx hlt hux
  obtain ⟨f1, f2, f3, f4, f5, f6, f7⟩ := visit_level_facts p0 types hn st visited x h
    (hl.unvisited0 x hlt hx) hx hlt hux st1 hv
  refine ⟨st1, hv, hinv, ?_⟩
  have hold : ∀ y ∈ visited, y < p0.nextTermIndex ∧ y ≠ x := fun y hy =>
    ⟨h.vis_lt y hy, fun e => hx (e ▸ hy)⟩
  have hmem : ∀ y, y ∈ visited ++ [x] ↔ y ∈ visited ∨ y = x := by
    intro y
    simp
  refine
    { unvisited0 := ?_
      raw0 := ?_
      mono := ?_
      plain := ?_
      encode := ?_
      encode_all := ?_ }
  · intro y hy hyv
    have hyx : y ≠ x := fun e => hyv ((hmem y).mpr (Or.inr e))
    rw [f1 y hy hyx]
    exact hl.unvisited0 y hy (fun hin => hyv ((hmem y).mpr (Or.inl hin)))
  · intro y hy hr
    by_cases hyx : y = x
    · subst hyx
      exact f4 hr
    · rw [f1 y hy hyx]
      exact hl.raw0 y hy hr
  · intro o ho hraw t hot
    have htlt : t < p0.nextTermIndex := (hp0.operand_lt hot).1
    rcases (hmem o).mp ho with h1 | h1
    · have htx : t ≠ x := by
        intro e
        subst e
        exact hx (h.vis_closed o h1 t hot)
      rw [f1 t htlt htx, f1 o (hold o h1).1 (hold o h1).2]
      exact hl.mono o h1 hraw t hot
    · subst h1
      have htv : t ∈ visited := hux t hot
      rw [f1 t htlt (hold t htv).2]
      exact f2 hraw t hot
  · intro y hy hp hop
    rcases (hmem y).mp hy with h1 | h1
    · rw [f1 y (hold y h1).1 (hold y h1).2]
      rcases hl.plain y h1 hp hop with h2 | ⟨w, hw, hwt, hwl⟩
      · exact Or.inl h2
      · refine Or.inr ⟨w, (hmem w).mpr (Or.inl hw), hwt, ?_⟩
        rw [f1 w (hold w hw).1 (hold w hw).2]
        exact hwl
    · subst h1
      rcases f3 hop with h2 | ⟨u, hu, hyu, hlu⟩
      · exact Or.inl h2
      · have hult := (hold u hu).1
        obtain ⟨t1, t2, _⟩ := typeRule_operands p0 types u (hty u hult)
          (by intro e; rw [e] at hyu; exact absurd hyu (by simp))
        rcases t2 with hc | hpl | hr
        · refine Or.inr ⟨u, (hmem u).mpr (Or.inl hu), hc, ?_⟩
          rw [f1 u hult (hold u hu).2, hlu]
        · have hopu : p0.op u ≠ Op.Rescale := by
            rw [t1 hpl]
            decide
          rcases hl.plain u hu hpl hopu with h2 | ⟨w, hw, hwt, hwl⟩
          · left
            rw [hlu, h2]
          · refine Or.inr ⟨w, (hmem w).mpr (Or.inl hw), hwt, ?_⟩
            rw [f1 w (hold w hw).1 (hold w hw).2, hlu]
            exact hwl
        · left
          rw [hlu]
          exact hl.raw0 u hult hr
  · intro e he
    rcases f5 e he with h1 | ⟨h1, h2⟩
    · exact ⟨(hmem e).mpr (Or.inl (hl.encode e h1).1), (hl.encode e h1).2⟩
    · subst h1
      exact ⟨(hmem e).mpr (Or.inr rfl), h2⟩
  · intro e he hop hraw huse
    rcases (hmem e).mp he with h1 | h1
    · exact f6 e (hl.encode_all e h1 hop hraw huse)
    · subst h1
      exact f7 hop hraw huse

/-- A backward pass of `ModSwitcher` over a typed program ends with both
invariants and every term visited. -/
theorem switchLevels_pass (p0 : Program) (types : Nat → TermType) (scales : TermMapOptional)
    (hwf : p0.WellFormed) (hac : p0.Acyclic) (hn : p0.nextTermIndex < u32)
    (hty : ∀ t, t < p0.nextTermIndex → TypeRule p0 types t) (fuel : Nat)
    (hfuel : p0.nextTermIndex ≤ fuel) :
    ∃ st, backwardPass ModSwitcher.rewriter fuel (ModSwitcher.init p0 types scales) = some st ∧
      SwitchInv p0 types st.env st.visited ∧ SwitchLevels p0 types st.env st.visited ∧
      ∀ t, t < p0.nextTermIndex → t ∈ st.visited := by
  obtain ⟨st, h1, _, h3, h4, _⟩ := traverse_mutating false ModSwitcher.rewriter
    (ModSwitcher.init p0 types scales)
    (fun env vis => SwitchInv p0 types env vis ∧ SwitchLevels p0 types env vis)
    (fun env1 visited term hJ hnot hlt hpred =>
      switchLevels_visit p0 types hwf.consistent hn hty env1 visited term hJ.1 hJ.2 hnot hlt
        (fun t ht => hpred t (by
          simp only [predecessors, Bool.false_eq_true, if_false]
          exact (mem_uses_iff hwf.consistent t term).mpr ht)))
    (fun env1 visited hJ => switchInv_sim p0 types hwf.consistent env1 visited hJ.1)
    ⟨switchInv_init p0 types scales hwf hac,
      { unvisited0 := fun _ _ _ => rfl
        raw0 := fun _ _ _ => rfl
        mono := fun o ho => absurd ho (by simp)
        plain := fun y hy => absurd hy (by simp)
        encode := fun e he => absurd he (by simp [ModSwitcher.init])
        encode_all := fun e he => absurd he (by simp) }⟩
    (dirFacts_backward p0 hwf.consistent hac) hwf.sets.2 fuel hfuel
  refine ⟨st, h1, h3.1, h3.2, ?_⟩
  intro t ht
  have hc := h4 t
  have ht1 : t < (ModSwitcher.rewriter.program
      (ModSwitcher.init p0 types scales)).nextTermIndex := ht
  rw [if_pos ht1] at hc
  exact List.count_pos_iff.mp (by omega)

/-- At the end of the pass an old term without operands is a source of the
program. -/
theorem switchInv_source (p0 : Program) (types : Nat → TermType) (st : ModSwitcher)
    (visited : List Nat) (h : SwitchInv p0 types st visited) (t : Nat)
    (ht : t < p0.nextTermIndex) (hops : p0.operands t = []) : t ∈ st.program.getSources := by
  obtain ⟨base, _, b2, _⟩ := h.base
  have := b2 t ht
  rw [hops] at this
  have hnil : st.program.operands t = [] := List.map_eq_nil_iff.mp this
  exact (h.wf.consistent.src t).mpr ⟨Nat.lt_of_lt_of_le ht h.next_le, hnil⟩

/-- At the end of the pass the level of a `Cipher` term is at most the largest
level of a source. -/
theorem cipher_level_le (p0 : Program) (types : Nat → TermType) (hp0 : p0.Consistent)
    (hac : p0.Acyclic) (hty : ∀ t, t < p0.nextTermIndex → TypeRule p0 types t)
    (st : ModSwitcher) (visited : List Nat) (h : SwitchInv p0 types st visited)
    (hl : SwitchLevels p0 types st visited) (hall : ∀ t, t < p0.nextTermIndex → t ∈ visited) :
    ∀ t, t < p0.nextTermIndex → types t = TermType.Cipher → st.level t ≤ st.maxLevel := by
  obtain ⟨rank, hrank⟩ := hac
  have key : ∀ n t, rank t < n → t < p0.nextTermIndex → types t = TermType.Cipher →
      st.level t ≤ st.maxLevel := by
    intro n
    induction n with
    | zero => intro t ht; exact absurd ht (by omega)
    | succ n ih =>
      intro t hr ht hc
      by_cases hops : p0.operands t = []
      · exact (maxLevel_spec st).1 t (switchInv_source p0 types st visited h t ht hops)
      · obtain ⟨_, _, t3⟩ := typeRule_operands p0 types t (hty t ht) hops
        obtain ⟨o, ho, hoc⟩ := t3 hc
        have holt := (hp0.operand_lt ho).2
        have h1 := ih o (by have := hrank t o ho; omega) holt hoc
        have h2 := hl.mono o (hall o holt) (by rw [hoc]; decide) t ho
        omega
  intro t ht hc
  exact key (rank t + 1) t (by omega) ht hc

/-- The attribute the second loop of the destructor leaves on a recorded
`Encode` term. -/
theorem finish_encode (st : ModSwitcher) (e : Nat) (he : e ∈ st.encodeNodes) :
    AttributeList.getUInt32 (st.finish.program.attributes e) EncodeAtLevelAttribute
      = some (sub32 st.maxLevel (st.level e)) := by
  unfold ModSwitcher.finish
  simp only []
  obtain ⟨_, _, _, _, _, h6⟩ := foldl_setLevel_spec (fun s => sub32 st.maxLevel (st.level s))
    st.encodeNodes (st.program.getSources.foldl
      (fun p source => Term.setAttribute p source EncodeAtLevelAttribute
        (AttributeValue.uint32 (sub32 st.maxLevel (st.level source)))) st.program)
  rw [h6 e, if_pos he]

/-- C37 (no underflow in the write-back): for a well-formed acyclic program
with fewer than `2 ^ 32` terms, typed by the rule of `TypeDeducer`, the backward
pass of `ModSwitcher` runs to its end, and then `level[s] ≤ maxLevel` for every
source `s` and `level[e] ≤ maxLevel` for every recorded `Encode` term `e`,
`maxLevel` being the largest level of a source; the `EncodeAtLevelAttribute`
the destructor writes on each of them is the natural-number difference
`maxLevel - level`, which is at most `maxLevel`.  The recorded terms are the
`Encode` terms that are not `Raw` and have a use, and every `Cipher` term has a
level of at most `maxLevel`. -/
theorem modSwitcher_writeback_no_underflow (p0 : Program) (types : Nat → TermType)
    (scales : TermMapOptional) (hwf : p0.WellFormed) (hac : p0.Acyclic)
    (hn : p0.nextTermIndex < u32)
    (hty : ∀ t, t < p0.nextTermIndex → TypeRule p0 types t) (fuel : Nat)
    (hfuel : p0.nextTermIndex ≤ fuel) :
    ∃ st, backwardPass ModSwitcher.rewriter fuel (ModSwitcher.init p0 types scales) = some st ∧
      (∀ s ∈ st.env.program.getSources,
        st.env.level s ≤ st.env.maxLevel ∧
        AttributeList.getUInt32 (st.env.finish.program.attributes s) EncodeAtLevelAttribute
          = some (st.env.maxLevel - st.env.level s) ∧
        st.env.maxLevel - st.env.level s ≤ st.env.maxLevel) ∧
      (∀ e ∈ st.env.encodeNodes,
        st.env.level e ≤ st.env.maxLevel ∧
        AttributeList.getUInt32 (st.env.finish.program.attributes e) EncodeAtLevelAttribute
          = some (st.env.maxLevel - st.env.level e) ∧
        st.env.maxLevel - st.env.level e ≤ st.env.maxLevel) ∧
      (∀ e, e ∈ st.env.encodeNodes ↔
        e < p0.nextTermIndex ∧ p0.op e = Op.Encode ∧ (∃ t, e ∈ p0.operands t) ∧
          types e ≠ TermType.Raw) ∧
      (∀ t, t < p0.nextTermIndex → types t = TermType.Cipher →
        st.env.level t ≤ st.env.maxLevel) ∧
      st.env.maxLevel < u32 := by
  obtain ⟨st, h1, hinv, hl, hall⟩ := switchLevels_pass p0 types scales hwf hac hn hty fuel hfuel
  have hB := cipher_level_le p0 types hwf.consistent hac hty st.env st.visited hinv hl hall
  have hvl : st.visited.length ≤ p0.nextTermIndex :=
    nodup_bounded_length _ _ hinv.vis_nodup hinv.vis_lt
  have hmax : st.env.maxLevel < u32 := by
    have := (maxLevel_spec st.env).2 st.visited.length (fun s _ => hinv.level_le s)
    omega
  have hsub : ∀ x, st.env.level x ≤ st.env.maxLevel →
      sub32 st.env.maxLevel (st.env.level x) = st.env.maxLevel - st.env.level x :=
    fun x hx => sub32_of_le _ _ hmax hx
  have hE : ∀ e ∈ st.env.encodeNodes, st.env.level e ≤ st.env.maxLevel := by
    intro e he
    obtain ⟨hev, hop, _, _⟩ := hl.encode e he
    have helt := hinv.vis_lt e hev
    by_cases hops : p0.operands e = []
    · exact (maxLevel_spec st.env).1 e (switchInv_source p0 types st.env st.visited hinv e helt hops)
    · have hrule := hty e helt
      unfold TypeRule at hrule
      rw [if_neg hops, if_pos hop] at hrule
      rcases hl.plain e hev hrule (by rw [hop]; decide) with h2 | ⟨w, hw, hwt, hwl⟩
      · omega
      · have := hB w (hinv.vis_lt w hw) hwt
        omega
  refine ⟨st, h1, ?_, ?_, ?_, hB, hmax⟩
  · intro s hs
    have hle := (maxLevel_spec st.env).1 s hs
    refine ⟨hle, ?_, Nat.sub_le _ _⟩
    rw [← hsub s hle]
    exact (finish_spec st.env hinv.wf).2.2.2.2.2 s hs
  · intro e he
    refine ⟨hE e he, ?_, Nat.sub_le _ _⟩
    rw [← hsub e (hE e he)]
    exact finish_encode st.env e he
  · intro e
    constructor
    · intro he
      obtain ⟨hev, hop, hraw, huse⟩ := hl.encode e he
      exact ⟨hinv.vis_lt e hev, hop, huse, hraw⟩
    · rintro ⟨helt, hop, huse, hraw⟩
      exact hl.encode_all e (hall e helt) hop hraw huse

theorem encodedProduct_wellFormed : encodedProduct.WellFormed := by
  unfold encodedProduct
  apply wellFormed_setAttribute
  exact run_wellFormed "encoded" 8 _ _ (run_eq_foldl _ _ (by decide!))

theorem encodedProduct_acyclic : encodedProduct.Acyclic := by
  refine ⟨fun x => x, ?_⟩
  intro t o ho
  have hlt := (encodedProduct_wellFormed.consistent.operand_lt ho).1
  have hb : ∀ t, t < encodedProduct.nextTermIndex →
      ∀ o ∈ encodedProduct.operands t, o < t := by
    decide!
  exact hb t hlt o ho

theorem encodedProduct_typed :
    ∀ t, t < encodedProduct.nextTermIndex → TypeRule encodedProduct encodedProductTypes t := by
  have hn : encodedProduct.nextTermIndex = 6 := by decide!
  intro t ht
  rw [hn] at ht
  unfold TypeRule
  interval_cases t <;> decide!

theorem modSwitcher_writeback_no_underflow_witness :
    ∃ st, backwardPass ModSwitcher.rewriter 6
        (ModSwitcher.init encodedProduct encodedProductTypes (fun _ => some 30)) = some st ∧
      st.env.encodeNodes = [2] ∧ st.env.maxLevel = 1 ∧ st.env.level 2 = 0 ∧
      st.env.level 0 = 1 ∧
      AttributeList.getUInt32 (st.env.finish.program.attributes 2) EncodeAtLevelAttribute
        = some 1 ∧
      AttributeList.getUInt32 (st.env.finish.program.attributes 0) EncodeAtLevelAttribute
        = some 0 := by
  obtain ⟨st, h1, h2, h3, _, _, _⟩ := modSwitcher_writeback_no_underflow encodedProduct
    encodedProductTypes (fun _ => some 30) encodedProduct_wellFormed encodedProduct_acyclic
    (by decide!) encodedProduct_typed 6 (by decide!)
  have hv : (backwardPass ModSwitcher.rewriter 6
      (ModSwitcher.init encodedProduct encodedProductTypes (fun _ => some 30))).map
      (fun st => (st.env.encodeNodes, st.env.maxLevel, st.env.level 2, st.env.level 0))
      = some ([2], 1, 0, 1) := by decide!
  have hs : (backwardPass ModSwitcher.rewriter 6
      (ModSwitcher.init encodedProduct encodedProductTypes (fun _ => some 30))).map
      (fun st => decide (0 ∈ st.env.program.getSources)) = some true := by decide!
  have h1a := h1
  rw [h1] at hv hs
  simp only [Option.map_some', Option.some.injEq, Prod.mk.injEq, decide_eq_true_eq] at hv hs
  obtain ⟨v1, v2, v3, v4⟩ := hv
  have e2 := (h3 2 (by rw [v1]; simp)).2.1
  have e0 := (h2 0 hs).2.1
  rw [v2, v3] at e2
  rw [v2, v4] at e0
  exact ⟨st, h1a, v1, v2, v3, v4, e2, e0⟩

/-! ## A forward pass whose rewriter inserts terms after the visited term -/

/-- One iteration of the loop of a forward pass keeps the invariant when the
call of the rewriter only redirects uses of the visited term to new terms that
are sources or read the visited term. -/
theorem forwardVisit_inserting {σ : Type} (R : Rewriter σ) (J : σ → List Nat → Prop)
    (hJc : ∀ env visited, J env visited → (R.program env).Consistent)
    (hR : ∀ env visited term, J env visited → term ∉ visited →
      term < (R.program env).nextTermIndex →
      (∀ o ∈ (R.program env).operands term, o ∈ visited) →
      ∃ env1, R.rewrite env term = some env1 ∧ J env1 (visited ++ [term]) ∧
        Inserts (R.program env) (R.program env1) term)
    (st : TraversalState σ) (term : Nat) (rest : List Nat) (hst : ForwardInv R st)
    (hJ : J st.env st.visited) (hrn : st.readyNodes = term :: rest) :
    ∃ st1, traverseVisit true R st term rest = some st1 ∧ ForwardInv R st1 ∧
      st1.visited = st.visited ++ [term] ∧ J st1.env st1.visited := by
  have hterm_ready : st.ready term = true := (hst.ready_iff term).mpr (Or.inl (by simp [hrn]))
  have hterm_unproc : st.processed term = false := hst.rn_unproc term (by simp [hrn])
  have hnotin0 : term ∉ st.visited := by
    intro h
    have := (hst.proc_iff term).mpr h
    rw [hterm_unproc] at this
    exact Bool.noConfusion this
  obtain ⟨s1, hs1, hJ1, hred⟩ := hR st.env st.visited term hJ hnotin0
    (hst.ready_sound term hterm_ready).1
    (fun o ho => (hst.proc_iff o).mp ((hst.ready_sound term hterm_ready).2 o ho))
  have hcp := hJc _ _ hJ
  have hcq := hJc _ _ hJ1
  have hterm_notin : term ∉ rest := by
    have := hst.rn_nodup
    rw [hrn] at this
    exact (List.nodup_cons.mp this).1
  have hrest_nodup : rest.Nodup := by
    have := hst.rn_nodup
    rw [hrn] at this
    exact (List.nodup_cons.mp this).2
  have hrest_ready : ∀ x ∈ rest, st.ready x = true := fun x hx =>
    (hst.ready_iff x).mpr (Or.inl (by simp [hrn, hx]))
  obtain ⟨lp1, lp2, lp3⟩ := foldl_pushLeaf_spec (leaves true (R.program s1)) (rest, st.ready)
  obtain ⟨lp3a, lp3b⟩ := lp3 hrest_nodup hrest_ready
  obtain ⟨sp1, sp2, sp3⟩ := foldl_pushSucc_spec true (R.program s1)
    (Function.update st.processed term true)
    (successors true (R.program st.env) term ++ successors true (R.program s1) term)
    ((leaves true (R.program s1)).foldl pushLeaf (rest, st.ready))
  obtain ⟨sp3a, sp3b⟩ := sp3 lp3a lp3b
  have hproc : ∀ t, Function.update st.processed term true t = true ↔
      (t = term ∨ st.processed t = true) := by
    intro t
    simp only [Function.update_apply]
    by_cases h : t = term <;> simp [h]
  have hleaf : ∀ x, x ∈ leaves true (R.program s1) ↔
      (x < (R.program s1).nextTermIndex ∧ (R.program s1).operands x = []) := by
    intro x
    exact hcq.src x
  have hsame : ∀ x, st.ready x = true →
      (R.program s1).operands x = (R.program st.env).operands x := by
    intro x hx
    by_contra hne
    have hxlt := (hst.ready_sound x hx).1
    have := (hred.changed x hxlt hne).1
    have := (hst.ready_sound x hx).2 term this
    rw [hterm_unproc] at this
    exact Bool.noConfusion this
  have hproc_lt : ∀ x, st.processed x = true → x < (R.program st.env).nextTermIndex :=
    fun x hx => (hst.ready_sound x ((hst.ready_iff x).mpr (Or.inr hx))).1
  refine ⟨{ env := s1,
             ready := ((successors true (R.program st.env) term ++
                 successors true (R.program s1) term).foldl
               (pushSucc true (R.program s1) (Function.update st.processed term true))
               ((leaves true (R.program s1)).foldl pushLeaf (rest, st.ready))).2,
             processed := Function.update st.processed term true,
             readyNodes := ((successors true (R.program st.env) term ++
                 successors true (R.program s1) term).foldl
               (pushSucc true (R.program s1) (Function.update st.processed term true))
               ((leaves true (R.program s1)).foldl pushLeaf (rest, st.ready))).1,
             visited := st.visited ++ [term] }, ?_, ?_, rfl, hJ1⟩
  · simp only [traverseVisit, hs1]
  · refine ⟨?_, ?_, sp3a, ?_, ?_, ?_, ?_⟩
    · intro t
      show Function.update st.processed term true t = true ↔ t ∈ st.visited ++ [term]
      rw [hproc, hst.proc_iff]
      simp only [List.mem_append, List.mem_singleton]
      tauto
    · show (st.visited ++ [term]).Nodup
      rw [List.nodup_append]
      refine ⟨hst.vis_nodup, by simp, ?_⟩
      intro x hx hx2
      simp only [List.mem_singleton] at hx2
      subst hx2
      exact hnotin0 hx
    · intro t
      show _ ↔ (_ ∨ Function.update st.processed term true t = true)
      constructor
      · intro h
        rcases (sp1 t).mp h with h1 | h1
        · rcases (lp1 t).mp h1 with h2 | h2
          · have h3 := (hst.ready_iff t).mp h2
            rw [hrn] at h3
            simp only [List.mem_cons] at h3
            rcases h3 with (h3 | h3) | h3
            · exact Or.inr ((hproc t).mpr (Or.inl h3))
            · exact Or.inl ((sp2 t).mpr (Or.inl ((lp2 t).mpr (Or.inl h3))))
            · exact Or.inr ((hproc t).mpr (Or.inr h3))
          · by_cases hr : st.ready t = true
            · have h3 := (hst.ready_iff t).mp hr
              rw [hrn] at h3
              simp only [List.mem_cons] at h3
              rcases h3 with (h3 | h3) | h3
              · exact Or.inr ((hproc t).mpr (Or.inl h3))
              · exact Or.inl ((sp2 t).mpr (Or.inl ((lp2 t).mpr (Or.inl h3))))
              · exact Or.inr ((hproc t).mpr (Or.inr h3))
            · exact Or.inl ((sp2 t).mpr (Or.inl ((lp2 t).mpr
                (Or.inr ⟨h2, by simpa using hr⟩))))
        · by_cases hr : ((leaves true (R.program s1)).foldl pushLeaf (rest, st.ready)).2 t = true
          · rcases (lp1 t).mp hr with h2 | h2
            · have h3 := (hst.ready_iff t).mp h2
              rw [hrn] at h3
              simp only [List.mem_cons] at h3
              rcases h3 with (h3 | h3) | h3
              · exact Or.inr ((hproc t).mpr (Or.inl h3))
              · exact Or.inl ((sp2 t).mpr (Or.inl ((lp2 t).mpr (Or.inl h3))))
              · exact Or.inr ((hproc t).mpr (Or.inr h3))
            · by_cases hr2 : st.ready t = true
              · have h3 := (hst.ready_iff t).mp hr2
                rw [hrn] at h3
                simp only [List.mem_cons] at h3
                rcases h3 with (h3 | h3) | h3
                · exact Or.inr ((hproc t).mpr (Or.inl h3))
                · exact Or.inl ((sp2 t).mpr (Or.inl ((lp2 t).mpr (Or.inl h3))))
                · exact Or.inr ((hproc t).mpr (Or.inr h3))
              · exact Or.inl ((sp2 t).mpr (Or.inl ((lp2 t).mpr
                  (Or.inr ⟨h2, by simpa using hr2⟩))))
          · exact Or.inl ((sp2 t).mpr (Or.inr ⟨h1.1, by simpa using hr, h1.2⟩))
      · rintro (h | h)
        · exact sp3b t h
        · rcases (hproc t).mp h with h1 | h1
          · subst h1
            exact (sp1 t).mpr (Or.inl ((lp1 t).mpr (Or.inl hterm_ready)))
          · exact (sp1 t).mpr (Or.inl ((lp1 t).mpr
              (Or.inl ((hst.ready_iff t).mpr (Or.inr h1)))))
    · intro t ht
      show Function.update st.processed term true t = false
      have hunready_unproc : ∀ x, st.ready x = false → x ≠ term ∧ st.processed x = false := by
        intro x hx
        refine ⟨?_, ?_⟩
        · rintro rfl
          rw [hterm_ready] at hx
          exact Bool.noConfusion hx
        · by_contra hpr
          have := (hst.ready_iff x).mpr (Or.inr (by simpa using hpr))
          rw [hx] at this
          exact Bool.noConfusion this
      have key : t ≠ term ∧ st.processed t = false := by
        rcases (sp2 t).mp ht with h | h
        · rcases (lp2 t).mp h with h1 | h1
          · refine ⟨?_, hst.rn_unproc t (by simp [hrn, h1])⟩
            rintro rfl
            exact hterm_notin h1
          · exact hunready_unproc t h1.2
        · have h2 : st.ready t = false := by
            by_contra hr
            have := (lp1 t).mpr (Or.inl (by simpa using hr))
            rw [h.2.1] at this
            exact Bool.noConfusion this
          exact hunready_unproc t h2
      simp only [Function.update_apply, key.1, if_false]
      exact key.2
    · intro t ht
      show t < (R.program s1).nextTermIndex ∧
        ∀ o ∈ (R.program s1).operands t, Function.update st.processed term true o = true
      rcases (sp1 t).mp ht with h | h
      · rcases (lp1 t).mp h with h1 | h1
        · have hs := hst.ready_sound t h1
          refine ⟨lt_of_lt_of_le hs.1 hred.next, ?_⟩
          intro o ho
          rw [hsame t h1] at ho
          exact (hproc o).mpr (Or.inr (hs.2 o ho))
        · have := (hleaf t).mp h1
          refine ⟨this.1, ?_⟩
          intro o ho
          rw [this.2] at ho
          simp at ho
      · refine ⟨?_, ?_⟩
        · rcases List.mem_append.mp h.1 with h1 | h1
          · have : t ∈ (R.program st.env).uses term := h1
            exact lt_of_lt_of_le (hcp.use_lt this).2 hred.next
          · have : t ∈ (R.program s1).uses term := h1
            exact (hcq.use_lt this).2
        · have := (arePredecessorsDone_iff true _ _ _).mp h.2
          exact this
    · intro s hs hall
      show _ = true
      rw [sp1]
      by_cases hnew : (R.program st.env).nextTermIndex ≤ s
      · rcases hred.created s hnew hs with hcr | hcr
        · left
          rw [lp1]
          right
          exact (hleaf s).mpr ⟨hs, hcr⟩
        · right
          refine ⟨List.mem_append.mpr (Or.inr ?_),
            (arePredecessorsDone_iff true _ _ _).mpr hall⟩
          show s ∈ (R.program s1).uses term
          apply List.count_pos_iff.mp
          rw [← hcq.sym s term]
          exact List.count_pos_iff.mpr hcr
      · have hslt : s < (R.program st.env).nextTermIndex := by omega
        by_cases hch : (R.program s1).operands s = (R.program st.env).operands s
        · by_cases hold : ∀ o ∈ (R.program st.env).operands s, st.processed o = true
          · left
            rw [lp1]
            exact Or.inl (hst.ready_complete s hslt hold)
          · right
            push_neg at hold
            obtain ⟨o, ho, hno⟩ := hold
            have h1 := (hproc o).mp (hall o (by rw [hch]; exact ho))
            rcases h1 with h1 | h1
            · subst h1
              refine ⟨List.mem_append.mpr (Or.inl ?_),
                (arePredecessorsDone_iff true _ _ _).mpr hall⟩
              show s ∈ (R.program st.env).uses o
              apply List.count_pos_iff.mp
              rw [← hcp.sym s o]
              exact List.count_pos_iff.mpr ho
            · exact absurd h1 hno
        · exfalso
          obtain ⟨_, k, hk, hkge⟩ := hred.changed s hslt hch
          have h1 := (hproc k).mp (hall k hk)
          rcases h1 with h1 | h1
          · subst h1
            have := (hst.ready_sound k hterm_ready).1
            omega
          · have := hproc_lt k h1
            omega

/-- With as much fuel as the graph can ever have terms, the loop runs until
`readyNodes` is empty. -/
theorem forwardLoop_inserting {σ : Type} (R : Rewriter σ) (J : σ → List Nat → Prop) (B : Nat)
    (hJc : ∀ env visited, J env visited → (R.program env).Consistent)
    (hJb : ∀ env visited, J env visited → (R.program env).nextTermIndex ≤ B)
    (hR : ∀ env visited term, J env visited → term ∉ visited →
      term < (R.program env).nextTermIndex →
      (∀ o ∈ (R.program env).operands term, o ∈ visited) →
      ∃ env1, R.rewrite env term = some env1 ∧ J env1 (visited ++ [term]) ∧
        Inserts (R.program env) (R.program env1) term)
    (fuel : Nat) (st : TraversalState σ) (hst : ForwardInv R st) (hJ : J st.env st.visited)
    (hfuel : B ≤ fuel + st.visited.length) :
    ∃ st1, traverseLoop true R fuel st = some st1 ∧ ForwardInv R st1 ∧
      st1.readyNodes = [] ∧ J st1.env st1.visited := by
  induction fuel generalizing st with
  | zero =>
    have hempty : st.readyNodes = [] := by
      cases hrn : st.readyNodes with
      | nil => rfl
      | cons t rest =>
        exfalso
        have ht_un : st.processed t = false := hst.rn_unproc t (by simp [hrn])
        have ht_notin : t ∉ st.visited := by
          intro h
          have := (hst.proc_iff t).mpr h
          rw [ht_un] at this
          exact Bool.noConfusion this
        have ht_lt : t < (R.program st.env).nextTermIndex :=
          (hst.ready_sound t ((hst.ready_iff t).mpr (Or.inl (by simp [hrn])))).1
        have hlen := nodup_bounded_length (t :: st.visited) (R.program st.env).nextTermIndex
          (List.nodup_cons.mpr ⟨ht_notin, hst.vis_nodup⟩) (by
            intro x hx
            simp only [List.mem_cons] at hx
            rcases hx with rfl | hx
            · exact ht_lt
            · exact hst.visited_below x hx)
        simp only [List.length_cons] at hlen
        have := hJb _ _ hJ
        omega
    exact ⟨st, by simp [traverseLoop, hempty], hst, hempty, hJ⟩
  | succ fuel ih =>
    cases hrn : st.readyNodes with
    | nil => exact ⟨st, by simp [traverseLoop, hrn], hst, hrn, hJ⟩
    | cons term rest =>
      obtain ⟨st1, h1, h2, h3, h4⟩ := forwardVisit_inserting R J hJc hR st term rest hst hJ hrn
      obtain ⟨st2, e1, e2, e3, e4⟩ := ih st1 h2 h4 (by rw [h3]; simp; omega)
      refine ⟨st2, ?_, e2, e3, e4⟩
      simp only [traverseLoop, hrn, h1]
      exact e1

/-- A forward pass whose rewriter only redirects uses of the visited term to
new terms that are sources or read the visited term ends, within `B` iterations when the graph never has more than `B`
terms, with every term of the final graph logged exactly once, and keeps the
invariant `J` of the rewriter. -/
theorem forwardPass_inserting {σ : Type} (R : Rewriter σ) (J : σ → List Nat → Prop) (B : Nat)
    (hJc : ∀ env visited, J env visited → (R.program env).Consistent)
    (hJa : ∀ env visited, J env visited → (R.program env).Acyclic)
    (hJb : ∀ env visited, J env visited → (R.program env).nextTermIndex ≤ B)
    (hR : ∀ env visited term, J env visited → term ∉ visited →
      term < (R.program env).nextTermIndex →
      (∀ o ∈ (R.program env).operands term, o ∈ visited) →
      ∃ env1, R.rewrite env term = some env1 ∧ J env1 (visited ++ [term]) ∧
        Inserts (R.program env) (R.program env1) term)
    (env : σ) (hJ : J env []) (hnd : (R.program env).sources.Nodup) (fuel : Nat)
    (hfuel : B ≤ fuel) :
    ∃ st, forwardPass R fuel env = some st ∧ st.readyNodes = [] ∧ J st.env st.visited ∧
      st.visited.Nodup ∧ ∀ t, t ∈ st.visited ↔ t < (R.program st.env).nextTermIndex := by
  have hc := hJc _ _ hJ
  have hinit : ForwardInv R
      { env := env,
        ready := (leaves true (R.program env)).foldl
          (fun ready term => Function.update ready term true) (fun _ => false),
        processed := fun _ => false,
        readyNodes := (leaves true (R.program env)).reverse,
        visited := [] } := by
    refine ⟨by simp, List.nodup_nil, List.nodup_reverse.mpr hnd, ?_, by simp, ?_, ?_⟩
    · intro t
      simp [foldl_update_true]
    · intro t ht
      simp only [foldl_update_true] at ht
      have hmem : t ∈ (R.program env).sources := by simpa [leaves, Program.getSources] using ht
      have := (hc.src t).mp hmem
      refine ⟨this.1, ?_⟩
      intro o ho
      rw [this.2] at ho
      simp at ho
    · intro s hs hall
      simp only [foldl_update_true]
      left
      show s ∈ (R.program env).sources
      apply (hc.src s).mpr
      refine ⟨hs, ?_⟩
      cases hp : (R.program env).operands s with
      | nil => rfl
      | cons o l =>
        have := hall o (by simp [hp])
        simp at this
  obtain ⟨st, h1, h2, h3, h4⟩ := forwardLoop_inserting R J B hJc hJb hR fuel _ hinit hJ
    (by simp; omega)
  have hcq := hJc _ _ h4
  have hall : ∀ t, t < (R.program st.env).nextTermIndex → st.processed t = true := by
    obtain ⟨rank, hrank⟩ := hJa _ _ h4
    have key : ∀ k t, rank t < k → t < (R.program st.env).nextTermIndex →
        st.processed t = true := by
      intro k
      induction k with
      | zero => intro t ht; omega
      | succ k ih =>
        intro t ht hlt
        have hready := h2.ready_complete t hlt (by
          intro o ho
          exact ih o (by have := hrank t o ho; omega) (hcq.operand_lt ho).2)
        have := (h2.ready_iff t).mp hready
        rw [h3] at this
        simpa using this
    intro t ht
    exact key (rank t + 1) t (by omega) ht
  refine ⟨st, h1, h3, h4, h2.vis_nodup, ?_⟩
  intro t
  constructor
  · intro ht
    exact h2.visited_below t ht
  · intro ht
    exact (h2.proc_iff t).mp (hall t ht)

/-! ## C35: what `LazyRelinearizer` guarantees at the end of its pass -/

theorem unrelinearized_transfer (q q1 : Program) (ty ty1 : Nat → TermType) (visited : List Nat)
    (hclosed : ∀ u ∈ visited, ∀ o ∈ q.operands u, o ∈ visited)
    (hops : ∀ u ∈ visited, q1.operands u = q.operands u)
    (hop : ∀ u ∈ visited, q1.op u = q.op u)
    (hty : ∀ u ∈ visited, ty1 u = ty u) :
    ∀ t, Unrelinearized q1 ty1 t → t ∈ visited → Unrelinearized q ty t := by
  intro t h
  induction h with
  | mul t h1 h2 h3 =>
    intro hv
    refine Unrelinearized.mul t (by rw [← hop t hv]; exact h1)
      (by rw [← hops t hv]; exact h2) ?_
    intro o ho
    have ho1 : o ∈ q1.operands t := by rw [hops t hv]; exact ho
    rw [← hty o (hclosed t hv o ho)]
    exact h3 o ho1
  | step t o h1 h2 _ ih =>
    intro hv
    have ho : o ∈ q.operands t := by rw [← hops t hv]; exact h1
    exact Unrelinearized.step t o ho (by rw [← hop t hv]; exact h2) (ih (hclosed t hv o ho))

theorem mem_append_singleton (l : List Nat) (x y : Nat) : y ∈ l ++ [x] ↔ y ∈ l ∨ y = x := by
  simp

/-- A call that leaves the state alone keeps the invariant: the term is a
source, or it is neither a `Mul` of `Cipher` operands nor pending. -/
theorem relinInv_skip (p0 q : Program) (ty : Nat → TermType) (pend : Nat → Bool)
    (visited : List Nat) (h : RelinInv p0 q ty pend visited) (x : Nat)
    (hlt : x < q.nextTermIndex) (hops : ∀ o ∈ q.operands x, o ∈ visited)
    (hskip : q.operands x = [] ∨
      (¬ (q.op x = Op.Mul ∧ ∀ o ∈ q.operands x, ty o = TermType.Cipher) ∧ pend x = false)) :
    RelinInv p0 q ty pend (visited ++ [x]) := by
  obtain ⟨relins, r1, r2, r3⟩ := h.count
  have hunrel : Unrelinearized q ty x → pend x = true := by
    intro hu
    cases hu with
    | mul _ h1 h2 h3 =>
      rcases hskip with hs | hs
      · exact absurd hs h2
      · exact absurd ⟨h1, h3⟩ hs.1
    | step _ o h1 h2 h3 =>
      have hov := hops o h1
      have hpo := h.unrel_pending o hov h3
      rcases h.pending_uses o hov hpo x h1 with h4 | h4
      · exact absurd h4 h2
      · exact h4.2
  refine
    { consistent := h.consistent
      acyclic := h.acyclic
      next_ge := h.next_ge
      count := ⟨relins, r1, fun t ht => ⟨(mem_append_singleton _ _ _).mpr (Or.inl (r2 t ht).1),
        (r2 t ht).2⟩, r3⟩
      vis_lt := ?_
      op_old := h.op_old
      new_op := h.new_op
      closed := ?_
      uses_unvisited := fun t ht hv =>
        h.uses_unvisited t ht (fun hin => hv ((mem_append_singleton _ _ _).mpr (Or.inl hin)))
      pend_old := h.pend_old
      unrel_pending := ?_
      pending_uses := ?_ }
  · intro v hv
    rcases (mem_append_singleton _ _ _).mp hv with h1 | h1
    · exact h.vis_lt v h1
    · rw [h1]; exact hlt
  · intro u hu o ho
    rcases (mem_append_singleton _ _ _).mp hu with h1 | h1
    · exact (mem_append_singleton _ _ _).mpr (Or.inl (h.closed u h1 o ho))
    · rw [h1] at ho
      exact (mem_append_singleton _ _ _).mpr (Or.inl (hops o ho))
  · intro t ht hu
    rcases (mem_append_singleton _ _ _).mp ht with h1 | h1
    · exact h.unrel_pending t h1 hu
    · rw [h1] at hu ⊢
      exact hunrel hu
  · intro t ht hp u hu
    rcases (mem_append_singleton _ _ _).mp ht with h1 | h1
    · exact h.pending_uses t h1 hp u hu
    · rw [h1] at hp
      rcases hskip with hs | hs
      · exact absurd hs (h.pend_old x hp).2.2
      · rw [hs.2] at hp
        exact absurd hp (by simp)

/-- A call that marks the uses of the visited term pending keeps the
invariant. -/
theorem relinInv_delay (p0 q : Program) (ty : Nat → TermType) (pend pend1 : Nat → Bool)
    (visited : List Nat) (h : RelinInv p0 q ty pend visited) (hp0 : p0.Consistent) (x : Nat)
    (hx : x ∉ visited) (hlt : x < q.nextTermIndex) (hops : ∀ o ∈ q.operands x, o ∈ visited)
    (hne : q.operands x ≠ [])
    (hsel : (q.op x = Op.Mul ∧ ∀ o ∈ q.operands x, ty o = TermType.Cipher) ∨ pend x = true)
    (hno : ∀ u, x ∈ q.operands u → ¬ NeedsRelin q ty u)
    (pe : ∀ y, pend1 y = true ↔ (y = x ∨ pend y = true ∨ x ∈ q.operands y)) :
    RelinInv p0 q ty pend1 (visited ++ [x]) := by
  obtain ⟨relins, r1, r2, r3⟩ := h.count
  have hxold : x < p0.nextTermIndex ∧ p0.op x ≠ Op.Output := by
    rcases hsel with hs | hs
    · have hlt0 : x < p0.nextTermIndex := by
        by_contra hge
        have := h.new_op x (by omega) hlt
        rw [hs.1] at this
        exact absurd this (by decide)
      refine ⟨hlt0, ?_⟩
      rw [← h.op_old x hlt0, hs.1]
      decide
    · exact ⟨(h.pend_old x hs).1, (h.pend_old x hs).2.1⟩
  refine
    { consistent := h.consistent
      acyclic := h.acyclic
      next_ge := h.next_ge
      count := ⟨relins, r1, fun t ht => ⟨(mem_append_singleton _ _ _).mpr (Or.inl (r2 t ht).1),
        (r2 t ht).2⟩, r3⟩
      vis_lt := ?_
      op_old := h.op_old
      new_op := h.new_op
      closed := ?_
      uses_unvisited := fun t ht hv =>
        h.uses_unvisited t ht (fun hin => hv ((mem_append_singleton _ _ _).mpr (Or.inl hin)))
      pend_old := ?_
      unrel_pending := ?_
      pending_uses := ?_ }
  · intro v hv
    rcases (mem_append_singleton _ _ _).mp hv with h1 | h1
    · exact h.vis_lt v h1
    · rw [h1]; exact hlt
  · intro u hu o ho
    rcases (mem_append_singleton _ _ _).mp hu with h1 | h1
    · exact (mem_append_singleton _ _ _).mpr (Or.inl (h.closed u h1 o ho))
    · rw [h1] at ho
      exact (mem_append_singleton _ _ _).mpr (Or.inl (hops o ho))
  · intro u hu
    rcases (pe u).mp hu with h1 | h1 | h1
    · rw [h1]
      exact ⟨hxold.1, hxold.2, hne⟩
    · exact h.pend_old u h1
    · have h2 := (h.uses_unvisited x hxold.1 hx u).mp h1
      have hult := (hp0.operand_lt h2).1
      refine ⟨hult, ?_, fun e => by rw [e] at h1; exact absurd h1 (by simp)⟩
      rw [← h.op_old u hult]
      intro hout
      exact hno u h1 (Or.inr (Or.inr (Or.inr hout)))
  · intro t ht hu
    rcases (mem_append_singleton _ _ _).mp ht with h1 | h1
    · exact (pe t).mpr (Or.inr (Or.inl (h.unrel_pending t h1 hu)))
    · exact (pe t).mpr (Or.inl h1)
  · intro t ht hp u hu
    rcases (mem_append_singleton _ _ _).mp ht with h1 | h1
    · have htx : t ≠ x := fun e => hx (e ▸ h1)
      rcases (pe t).mp hp with h2 | h2 | h2
      · exact absurd h2 htx
      · rcases h.pending_uses t h1 h2 u hu with h3 | h3
        · exact Or.inl h3
        · exact Or.inr ⟨h3.1, (pe u).mpr (Or.inr (Or.inl h3.2))⟩
      · exact absurd (h.closed t h1 x h2) hx
    · rw [h1] at hu
      exact Or.inr ⟨hno u hu, (pe u).mpr (Or.inr (Or.inr hu))⟩

/-- A call that inserts a `Relinearize` term after the visited term keeps the
invariant. -/
theorem relinInv_insert (p0 q q1 : Program) (ty ty1 : Nat → TermType) (pend pend1 : Nat → Bool)
    (visited : List Nat) (h : RelinInv p0 q ty pend visited) (x : Nat)
    (hx : x ∉ visited) (hlt : x < q.nextTermIndex) (hops : ∀ o ∈ q.operands x, o ∈ visited)
    (hne : q.operands x ≠ [])
    (hsel : (q.op x = Op.Mul ∧ ∀ o ∈ q.operands x, ty o = TermType.Cipher) ∨ pend x = true)
    (c1 : q1.Consistent) (n1 : q1.nextTermIndex = q.nextTermIndex + 1)
    (o1 : ∀ y, q1.op y = if y = q.nextTermIndex then Op.Relinearize else q.op y)
    (p1 : ∀ y, q1.operands y = if y = q.nextTermIndex then [x]
      else (q.operands y).map (fun z => if z = x then q.nextTermIndex else z))
    (t1 : ty1 = Function.update ty q.nextTermIndex (ty x))
    (pe : ∀ y, pend1 y = true ↔ (y = x ∨ pend y = true)) :
    RelinInv p0 q1 ty1 pend1 (visited ++ [x]) := by
  obtain ⟨relins, r1, r2, r3⟩ := h.count
  obtain ⟨rk, hrk⟩ := h.acyclic
  have hc := h.consistent
  have hxold : x < p0.nextTermIndex ∧ p0.op x ≠ Op.Output := by
    rcases hsel with hs | hs
    · have hlt0 : x < p0.nextTermIndex := by
        by_contra hge
        have := h.new_op x (by omega) hlt
        rw [hs.1] at this
        exact absurd this (by decide)
      refine ⟨hlt0, ?_⟩
      rw [← h.op_old x hlt0, hs.1]
      decide
    · exact ⟨(h.pend_old x hs).1, (h.pend_old x hs).2.1⟩
  -- membership in the new operand lists
  have hmem : ∀ y o, o ∈ q1.operands y ↔
      (y = q.nextTermIndex ∧ o = x) ∨
      (y ≠ q.nextTermIndex ∧ ((o = q.nextTermIndex ∧ x ∈ q.operands y) ∨
        (o ≠ x ∧ o ∈ q.operands y))) := by
    intro y o
    rw [p1]
    by_cases hy : y = q.nextTermIndex
    · simp [hy]
    · rw [if_neg hy]
      simp only [List.mem_map, hy, false_and, false_or, ne_eq, not_false_eq_true, true_and]
      constructor
      · rintro ⟨z, hz, rfl⟩
        by_cases hzx : z = x
        · left
          rw [if_pos hzx]
          exact ⟨rfl, hzx ▸ hz⟩
        · right
          rw [if_neg hzx]
          exact ⟨hzx, hz⟩
      · rintro (⟨h1, h2⟩ | ⟨h1, h2⟩)
        · exact ⟨x, h2, by rw [if_pos rfl, h1]⟩
        · exact ⟨o, h2, by rw [if_neg h1]⟩
  have hfresh : q.operands q.nextTermIndex = [] := (hc.fresh _ (Nat.le_refl _)).1
  -- a term without `x` among its operands keeps its operands
  have hsame : ∀ y, y ≠ q.nextTermIndex → x ∉ q.operands y → q1.operands y = q.operands y := by
    intro y hy hxy
    rw [p1, if_neg hy]
    conv_rhs => rw [← List.map_id (q.operands y)]
    apply List.map_congr_left
    intro z hz
    have : z ≠ x := fun e => hxy (e ▸ hz)
    simp [this]
  have hvis_same : ∀ u ∈ visited, q1.operands u = q.operands u := by
    intro u hu
    exact hsame u (by have := h.vis_lt u hu; omega) (fun hin => hx (h.closed u hu x hin))
  have hx_same : q1.operands x = q.operands x := by
    refine hsame x (by omega) ?_
    intro hin
    have := hrk x x hin
    omega
  have hop_lt : ∀ y, y < q.nextTermIndex → q1.op y = q.op y := by
    intro y hy
    rw [o1, if_neg (by omega)]
  have hty_lt : ∀ y, y < q.nextTermIndex → ty1 y = ty y := by
    intro y hy
    rw [t1, Function.update_noteq (by omega)]
  have hty_new : ty1 q.nextTermIndex = ty x := by
    rw [t1, Function.update_same]
  -- a `Mul` of `Cipher` operands after the call was one before
  have hneeds : ∀ u, u < q.nextTermIndex → NeedsRelin q1 ty1 u → NeedsRelin q ty u := by
    intro u hu hn
    have hune : u ≠ q.nextTermIndex := by omega
    rcases hn with ⟨hm, hall⟩ | hr
    · left
      refine ⟨by rw [← hop_lt u hu]; exact hm, ?_⟩
      intro o ho
      have holt := (hc.operand_lt ho).2
      by_cases hox : o = x
      · have := hall q.nextTermIndex ((hmem u _).mpr (Or.inr ⟨hune, Or.inl ⟨rfl, hox ▸ ho⟩⟩))
        rw [hty_new] at this
        rw [hox]
        exact this
      · have := hall o ((hmem u o).mpr (Or.inr ⟨hune, Or.inr ⟨hox, ho⟩⟩))
        rw [hty_lt o holt] at this
        exact this
    · right
      rw [hop_lt u hu] at hr
      exact hr
  refine
    { consistent := c1
      acyclic := ?_
      next_ge := by rw [n1]; have := h.next_ge; omega
      count := ?_
      vis_lt := ?_
      op_old := ?_
      new_op := ?_
      closed := ?_
      uses_unvisited := ?_
      pend_old := ?_
      unrel_pending := ?_
      pending_uses := ?_ }
  · refine ⟨fun y => if y = q.nextTermIndex then 2 * rk x + 1 else 2 * rk y, ?_⟩
    intro t o ho
    show (if o = q.nextTermIndex then 2 * rk x + 1 else 2 * rk o)
      < (if t = q.nextTermIndex then 2 * rk x + 1 else 2 * rk t)
    rcases (hmem t o).mp ho with ⟨h1, h2⟩ | ⟨h1, ⟨h2, h3⟩ | ⟨h2, h3⟩⟩
    · rw [if_pos h1, h2, if_neg (show ¬ x = q.nextTermIndex by omega)]
      omega
    · rw [if_neg h1, if_pos h2]
      have := hrk t x h3
      omega
    · have holt := (hc.operand_lt h3).2
      rw [if_neg h1, if_neg (show ¬ o = q.nextTermIndex by omega)]
      have := hrk t o h3
      omega
  · refine ⟨x :: relins, ?_, ?_, ?_⟩
    · rw [List.nodup_cons]
      exact ⟨fun hin => hx (r2 x hin).1, r1⟩
    · intro t ht
      rcases List.mem_cons.mp ht with h1 | h1
      · rw [h1]
        exact ⟨(mem_append_singleton _ _ _).mpr (Or.inr rfl), hxold.1⟩
      · exact ⟨(mem_append_singleton _ _ _).mpr (Or.inl (r2 t h1).1), (r2 t h1).2⟩
    · rw [n1, r3, List.length_cons]
      omega
  · intro v hv
    rw [n1]
    rcases (mem_append_singleton _ _ _).mp hv with h1 | h1
    · have := h.vis_lt v h1
      omega
    · rw [h1]; omega
  · intro y hy
    rw [hop_lt y (by have := h.next_ge; omega)]
    exact h.op_old y hy
  · intro r hr1 hr2
    rw [n1] at hr2
    rw [o1]
    split
    · rfl
    · exact h.new_op r hr1 (by omega)
  · intro u hu o ho
    rcases (mem_append_singleton _ _ _).mp hu with h2 | h2
    · rw [hvis_same u h2] at ho
      exact (mem_append_singleton _ _ _).mpr (Or.inl (h.closed u h2 o ho))
    · rw [h2, hx_same] at ho
      exact (mem_append_singleton _ _ _).mpr (Or.inl (hops o ho))
  · intro t ht hv u
    have htv : t ∉ visited := fun hin => hv ((mem_append_singleton _ _ _).mpr (Or.inl hin))
    have htx : t ≠ x := fun e => hv ((mem_append_singleton _ _ _).mpr (Or.inr e))
    have htn : t ≠ q.nextTermIndex := by have := h.next_ge; omega
    rw [← h.uses_unvisited t ht htv u, hmem]
    constructor
    · rintro (⟨_, h2⟩ | ⟨_, ⟨h2, _⟩ | ⟨_, h3⟩⟩)
      · exact absurd h2 htx
      · exact absurd h2 htn
      · exact h3
    · intro hin
      have hult := (hc.operand_lt hin).1
      exact Or.inr ⟨by omega, Or.inr ⟨htx, hin⟩⟩
  · intro u hu
    have hne1 : ∀ y, y < q.nextTermIndex → q.operands y ≠ [] → q1.operands y ≠ [] := by
      intro y hy hyne
      rw [p1, if_neg (by omega)]
      intro e
      exact hyne (List.map_eq_nil_iff.mp e)
    rcases (pe u).mp hu with h1 | h1
    · rw [h1]
      exact ⟨hxold.1, hxold.2, hne1 x hlt hne⟩
    · obtain ⟨a1, a2, a3⟩ := h.pend_old u h1
      exact ⟨a1, a2, hne1 u (by have := h.next_ge; omega) a3⟩
  · intro t ht hu
    rcases (mem_append_singleton _ _ _).mp ht with h2 | h2
    · have := unrelinearized_transfer q q1 ty ty1 visited h.closed hvis_same
        (fun u hu => hop_lt u (h.vis_lt u hu)) (fun u hu => hty_lt u (h.vis_lt u hu)) t hu h2
      exact (pe t).mpr (Or.inr (h.unrel_pending t h2 this))
    · exact (pe t).mpr (Or.inl h2)
  · intro t ht hp u hu
    rcases (mem_append_singleton _ _ _).mp ht with h2 | h2
    · have htx : t ≠ x := fun e => hx (e ▸ h2)
      have htlt := h.vis_lt t h2
      have hpt : pend t = true := by
        rcases (pe t).mp hp with h3 | h3
        · exact absurd h3 htx
        · exact h3
      rcases (hmem u t).mp hu with ⟨_, h4⟩ | ⟨h3, ⟨h4, _⟩ | ⟨_, h5⟩⟩
      · exact absurd h4 htx
      · omega
      · have hult := (hc.operand_lt h5).1
        rcases h.pending_uses t h2 hpt u h5 with h6 | h6
        · left
          rw [hop_lt u hult]
          exact h6
        · right
          exact ⟨fun hn => h6.1 (hneeds u hult hn), (pe u).mpr (Or.inr h6.2)⟩
    · rw [h2] at hu
      rcases (hmem u x).mp hu with ⟨h3, _⟩ | ⟨_, ⟨h4, _⟩ | ⟨h4, _⟩⟩
      · left
        rw [o1, if_pos h3]
      · omega
      · exact absurd rfl h4

theorem foldl_mark_pending_iff (uses : List Nat) (pending : Nat → Bool) (y : Nat) :
    (uses.foldl (fun pending use => Function.update pending use true) pending) y = true ↔
      (pending y = true ∨ y ∈ uses) := by
  induction uses generalizing pending with
  | nil => simp
  | cons a uses ih =>
    simp only [List.foldl_cons, List.mem_cons]
    rw [ih]
    by_cases hya : y = a
    · subst hya
      simp
    · rw [Function.update_noteq hya]
      simp [hya]

/-- The two outcomes of the part of `LazyRelinearizer::operator()` that follows
the test of `pending[term]`, with everything they leave in the state. -/
theorem insertOrDelay_full (st : LazyRelinearizer) (t : Nat) (delayed : Bool)
    (hc : st.program.Consistent) (huses : st.program.uses t ≠ []) :
    ∃ st1, st.insertOrDelay t delayed = some st1 ∧
      (st.MustInsert t →
        st1.program.Consistent ∧
        st1.program.nextTermIndex = st.program.nextTermIndex + 1 ∧
        (∀ y, st1.program.op y
          = if y = st.program.nextTermIndex then Op.Relinearize else st.program.op y) ∧
        (∀ y, st1.program.operands y = if y = st.program.nextTermIndex then [t]
          else (st.program.operands y).map
            (fun z => if z = t then st.program.nextTermIndex else z)) ∧
        st1.type = Function.update st.type st.program.nextTermIndex (st.type t) ∧
        st1.pending = st.pending) ∧
      (¬ st.MustInsert t →
        st1.program = st.program ∧ st1.type = st.type ∧
        ∀ y, st1.pending y = true ↔ (st.pending y = true ∨ y ∈ st.program.uses t)) := by
  obtain ⟨firstUse, rest, hu⟩ : ∃ f r, st.program.uses t = f :: r := by
    cases h : st.program.uses t with
    | nil => exact absurd h huses
    | cons f r => exact ⟨f, r, rfl⟩
  have ht : t < st.program.nextTermIndex :=
    (hc.use_lt (by rw [hu]; simp : firstUse ∈ st.program.uses t)).1
  have hiff := mustInsert_iff_loop st t firstUse rest hu
  unfold LazyRelinearizer.insertOrDelay
  simp only [hu]
  rw [← hu]
  have hloop : ∀ b : Bool,
      (({ st with ok := b } : LazyRelinearizer).mustInsertLoop firstUse (st.program.uses t)).1
        = (st.mustInsertLoop firstUse (st.program.uses t)).1 := by
    intro b
    have h1 := mustInsertLoop_iff ({ st with ok := b } : LazyRelinearizer) firstUse
      (st.program.uses t)
    have h2 := mustInsertLoop_iff st firstUse (st.program.uses t)
    rw [Bool.eq_iff_iff, h1, h2]
  rw [hloop]
  by_cases hm : (st.mustInsertLoop firstUse (st.program.uses t)).1 = true
  · rw [if_pos hm]
    obtain ⟨m1, m2, m3, m4⟩ := makeTerm_consistent st.program Op.Relinearize [t] hc
      (by intro x hx; simp only [List.mem_singleton] at hx; subst hx; exact ht)
    obtain ⟨f1, f2⟩ := makeTerm_frame st.program Op.Relinearize [t]
    obtain ⟨r1, r2, r3, r4, r5⟩ := replaceOtherUsesWith_spec
      (st.program.makeTerm Op.Relinearize [t]).2 t st.program.nextTermIndex m1
      (by rw [m3]; omega) (by rw [m3]; omega)
    refine ⟨_, rfl, ?_, ?_⟩
    · intro _
      refine ⟨?_, ?_, ?_, ?_, ?_, rfl⟩
      · show (Term.replaceOtherUsesWith _ t (st.program.makeTerm Op.Relinearize [t]).1).Consistent
        rw [m2]
        exact r1
      · show (Term.replaceOtherUsesWith _ t
          (st.program.makeTerm Op.Relinearize [t]).1).nextTermIndex = _
        rw [m2, r2, m3]
      · intro y
        show (Term.replaceOtherUsesWith _ t (st.program.makeTerm Op.Relinearize [t]).1).op y = _
        rw [m2, r4, f1]
      · intro y
        show (Term.replaceOtherUsesWith _ t
          (st.program.makeTerm Op.Relinearize [t]).1).operands y = _
        rw [m2, r3, m4]
        split
        · rfl
        · rfl
      · show Function.update st.type (st.program.makeTerm Op.Relinearize [t]).1 _ = _
        rw [m2]
    · intro hn
      exact absurd (hiff.mpr hm) hn
  · rw [if_neg hm]
    refine ⟨_, rfl, ?_, ?_⟩
    · intro hy
      exact absurd (hiff.mp hy) hm
    · intro _
      cases delayed with
      | true =>
        refine ⟨rfl, rfl, ?_⟩
        intro y
        exact foldl_mark_pending_iff (st.program.uses t) st.pending y
      | false =>
        refine ⟨rfl, rfl, ?_⟩
        intro y
        exact foldl_mark_pending_iff (st.program.uses t) st.pending y

/-- One call of `LazyRelinearizer::operator()` inside a forward pass over a
program in which every term other than an `Output` has a use: the call
returns, keeps the invariant, and only inserts a term after the visited one. -/
theorem relin_visit (p0 : Program) (hp0 : p0.Consistent)
    (huse : ∀ t, t < p0.nextTermIndex → p0.op t ≠ Op.Output → ∃ u, t ∈ p0.operands u)
    (st : LazyRelinearizer) (visited : List Nat) (x : Nat)
    (h : RelinInv p0 st.program st.type st.pending visited) (hx : x ∉ visited)
    (hlt : x < st.program.nextTermIndex)
    (hops : ∀ o ∈ st.program.operands x, o ∈ visited) :
    ∃ st1, st.visit x = some st1 ∧
      RelinInv p0 st1.program st1.type st1.pending (visited ++ [x]) ∧
      Inserts st.program st1.program x := by
  have hc := h.consistent
  have hsameI : Inserts st.program st.program x :=
    ⟨Nat.le_refl _, fun y _ hne => absurd rfl hne, fun k h1 h2 => absurd h2 (by omega)⟩
  cases hox : st.program.operands x with
  | nil =>
    refine ⟨st, ?_, relinInv_skip p0 _ _ _ _ h x hlt hops (Or.inl hox), hsameI⟩
    unfold LazyRelinearizer.visit
    rw [hox]
  | cons a l =>
    have hne : st.program.operands x ≠ [] := by rw [hox]; simp
    have hE := isEncryptedMultOp_iff st x
    -- once the term is selected, it has a use
    have huses : ((st.program.op x = Op.Mul ∧
        ∀ o ∈ st.program.operands x, st.type o = TermType.Cipher) ∨ st.pending x = true) →
        st.program.uses x ≠ [] := by
      intro hsel
      have hxold : x < p0.nextTermIndex ∧ p0.op x ≠ Op.Output := by
        rcases hsel with hs | hs
        · have hlt0 : x < p0.nextTermIndex := by
            by_contra hge
            have := h.new_op x (by omega) hlt
            rw [hs.1] at this
            exact absurd this (by decide)
          refine ⟨hlt0, ?_⟩
          rw [← h.op_old x hlt0, hs.1]
          decide
        · exact ⟨(h.pend_old x hs).1, (h.pend_old x hs).2.1⟩
      obtain ⟨u, hu⟩ := huse x hxold.1 hxold.2
      have := (h.uses_unvisited x hxold.1 hx u).mpr hu
      have := (mem_uses_iff hc u x).mpr this
      intro e
      rw [e] at this
      exact absurd this (by simp)
    -- what both outcomes of `insertOrDelay` give
    have hout : ∀ (s : LazyRelinearizer), s.program = st.program → s.type = st.type →
        (∀ y, s.pending y = true ↔ (y = x ∨ st.pending y = true)) →
        ((st.program.op x = Op.Mul ∧
          ∀ o ∈ st.program.operands x, st.type o = TermType.Cipher) ∨ st.pending x = true) →
        ∀ delayed, ∃ st1, s.insertOrDelay x delayed = some st1 ∧
          RelinInv p0 st1.program st1.type st1.pending (visited ++ [x]) ∧
          Inserts st.program st1.program x := by
      intro s hsp hst hspe hsel delayed
      obtain ⟨st1, e1, e2, e3⟩ := insertOrDelay_full s x delayed (by rw [hsp]; exact hc)
        (by rw [hsp]; exact huses hsel)
      refine ⟨st1, e1, ?_⟩
      by_cases hm : s.MustInsert x
      · obtain ⟨c1, n1, o1, p1, t1, pe1⟩ := e2 hm
        rw [hsp] at n1 o1 p1 t1
        rw [hst] at t1
        refine ⟨relinInv_insert p0 st.program st1.program st.type st1.type st.pending
          st1.pending visited h x hx hlt hops hne hsel c1 n1 o1 p1 t1
          (by intro y; rw [pe1]; exact hspe y), ?_⟩
        refine ⟨by omega, ?_, ?_⟩
        · intro y hy hch
          have hyn : y ≠ st.program.nextTermIndex := by omega
          rw [p1, if_neg hyn] at hch
          have hxin : x ∈ st.program.operands y := by
            by_contra hnot
            apply hch
            conv_rhs => rw [← List.map_id (st.program.operands y)]
            apply List.map_congr_left
            intro z hz
            have : z ≠ x := fun e => hnot (e ▸ hz)
            simp [this]
          refine ⟨hxin, st.program.nextTermIndex, ?_, Nat.le_refl _⟩
          rw [p1, if_neg hyn]
          exact List.mem_map.mpr ⟨x, hxin, by simp⟩
        · intro k hk1 hk2
          right
          have : k = st.program.nextTermIndex := by omega
          rw [p1, if_pos this]
          simp
      · obtain ⟨d1, d2, d3⟩ := e3 hm
        rw [d1, d2, hsp, hst]
        refine ⟨relinInv_delay p0 st.program st.type st.pending st1.pending visited h hp0 x hx
          hlt hops hne hsel ?_ ?_, hsameI⟩
        · intro u hu hn
          apply hm
          left
          refine ⟨u, ?_, ?_⟩
          · rw [hsp]
            exact (mem_uses_iff hc u x).mpr hu
          · rw [hsp, hst]
            exact hn
        · intro y
          rw [d3, hspe, hsp, mem_uses_iff hc y x]
          tauto
    unfold LazyRelinearizer.visit
    rw [hox]
    simp only []
    by_cases he : (st.isEncryptedMultOp x).1 = true
    · rw [if_pos he]
      apply hout
      · rfl
      · rfl
      · intro y
        show Function.update st.pending x true y = true ↔ _
        by_cases hyx : y = x
        · subst hyx
          simp
        · rw [Function.update_noteq hyx]
          simp [hyx]
      · exact Or.inl (hE.mp he)
    · rw [if_neg he]
      by_cases hp : st.pending x = false
      · rw [if_pos hp]
        refine ⟨_, rfl, ?_, hsameI⟩
        exact relinInv_skip p0 _ _ _ _ h x hlt hops (Or.inr ⟨fun hm => he (hE.mpr hm), hp⟩)
      · rw [if_neg hp]
        have hpt : st.pending x = true := by simpa using hp
        apply hout
        · rfl
        · rfl
        · intro y
          show st.pending y = true ↔ _
          constructor
          · exact fun hy => Or.inr hy
          · rintro (hy | hy)
            · rw [hy]; exact hpt
            · exact hy
        · exact Or.inr hpt

/-- A forward pass of `LazyRelinearizer` runs to its end, visits every term of
the final program and keeps the invariant. -/
theorem relin_pass (p0 : Program) (ty : Nat → TermType) (scale : TermMapOptional)
    (hwf : p0.WellFormed) (hac : p0.Acyclic)
    (huse : ∀ t, t < p0.nextTermIndex → p0.op t ≠ Op.Output → ∃ u, t ∈ p0.operands u)
    (fuel : Nat) (hfuel : 2 * p0.nextTermIndex ≤ fuel) :
    ∃ st, forwardPass LazyRelinearizer.rewriter fuel (LazyRelinearizer.init p0 ty scale)
        = some st ∧
      RelinInv p0 st.env.program st.env.type st.env.pending st.visited ∧
      ∀ t, t ∈ st.visited ↔ t < st.env.program.nextTermIndex := by
  obtain ⟨st, h1, _, h3, _, h5⟩ := forwardPass_inserting LazyRelinearizer.rewriter
    (fun env vis => RelinInv p0 env.program env.type env.pending vis) (2 * p0.nextTermIndex)
    (fun env vis hJ => hJ.consistent)
    (fun env vis hJ => hJ.acyclic)
    (fun env vis hJ => by
      obtain ⟨relins, r1, r2, r3⟩ := hJ.count
      have := nodup_bounded_length relins p0.nextTermIndex r1 (fun t ht => (r2 t ht).2)
      show env.program.nextTermIndex ≤ _
      omega)
    (fun env vis term hJ hnot hlt hpred =>
      relin_visit p0 hwf.consistent huse env vis term hJ hnot hlt hpred)
    (LazyRelinearizer.init p0 ty scale)
    { consistent := hwf.consistent
      acyclic := hac
      next_ge := Nat.le_refl _
      count := ⟨[], List.nodup_nil, fun t ht => absurd ht (by simp), rfl⟩
      vis_lt := fun v hv => absurd hv (by simp)
      op_old := fun _ _ => rfl
      new_op := fun r h1 h2 => absurd (show r < p0.nextTermIndex from h2) (by omega)
      closed := fun u hu => absurd hu (by simp)
      uses_unvisited := fun _ _ _ _ => Iff.rfl
      pend_old := fun u hu => absurd (show false = true from hu) (by simp)
      unrel_pending := fun t ht => absurd ht (by simp)
      pending_uses := fun t ht => absurd ht (by simp) }
    hwf.sets.1 fuel hfuel
  exact ⟨st, h1, h3, h5⟩

/-- C35 (no product reaches an operation that needs degree 2 without a
relinearization): for a well-formed acyclic program in which every term other
than an `Output` has a use, the forward pass of `LazyRelinearizer` runs to its
end (with fuel for twice the number of terms), and in the program it leaves no
operand of a `Mul` with all operands `Cipher`, of a rotation or of an `Output`
is a `Mul` of `Cipher` operands or a term reached from one along operand edges
through terms other than `Relinearize`. -/
theorem lazyRelinearizer_no_unrelinearized (p0 : Program) (ty : Nat → TermType)
    (scale : TermMapOptional) (hwf : p0.WellFormed) (hac : p0.Acyclic)
    (huse : ∀ t, t < p0.nextTermIndex → p0.op t ≠ Op.Output → ∃ u, t ∈ p0.operands u)
    (fuel : Nat) (hfuel : 2 * p0.nextTermIndex ≤ fuel) :
    ∃ st, forwardPass LazyRelinearizer.rewriter fuel (LazyRelinearizer.init p0 ty scale)
        = some st ∧
      ∀ u o, o ∈ st.env.program.operands u → NeedsRelin st.env.program st.env.type u →
        ¬ Unrelinearized st.env.program st.env.type o := by
  obtain ⟨st, h1, hJ, hall⟩ := relin_pass p0 ty scale hwf hac huse fuel hfuel
  refine ⟨st, h1, ?_⟩
  intro u o ho hn hun
  have hov : o ∈ st.visited := (hall o).mpr (hJ.consistent.operand_lt ho).2
  have hp := hJ.unrel_pending o hov hun
  rcases hJ.pending_uses o hov hp u ho with h2 | h2
  · rcases hn with ⟨hm, _⟩ | hr | hr | hr
    · rw [h2] at hm
      exact absurd hm (by decide)
    · rw [h2] at hr
      exact absurd hr (by decide)
    · rw [h2] at hr
      exact absurd hr (by decide)
    · rw [h2] at hr
      exact absurd hr (by decide)
  · exact h2.1 hn

theorem relinSample_wellFormed : relinSample.WellFormed :=
  run_wellFormed "relin" 8 _ relinSample (run_eq_foldl _ _ (by decide!))

theorem relinSample_acyclic : relinSample.Acyclic := by
  refine ⟨fun x => x, ?_⟩
  intro t o ho
  have hlt := (relinSample_wellFormed.consistent.operand_lt ho).1
  have hb : ∀ t, t < relinSample.nextTermIndex → ∀ o ∈ relinSample.operands t, o < t := by
    decide!
  exact hb t hlt o ho

theorem relinSample_used : ∀ t, t < relinSample.nextTermIndex →
    relinSample.op t ≠ Op.Output → ∃ u, t ∈ relinSample.operands u := by
  have hn : relinSample.nextTermIndex = 6 := by decide!
  intro t ht hop
  rw [hn] at ht
  interval_cases t
  · exact ⟨1, by decide!⟩
  · exact ⟨2, by decide!⟩
  · exact ⟨4, by decide!⟩
  · exact ⟨5, by decide!⟩
  · exact absurd (by decide! : relinSample.op 4 = Op.Output) hop
  · exact absurd (by decide! : relinSample.op 5 = Op.Output) hop

theorem lazyRelinearizer_no_unrelinearized_witness :
    ∃ st, forwardPass LazyRelinearizer.rewriter 12
        (LazyRelinearizer.init relinSample (fun _ => TermType.Cipher) (fun _ => some 30))
        = some st ∧
      st.env.program.nextTermIndex = 7 ∧ st.env.program.op 6 = Op.Relinearize ∧
      st.env.program.operands 6 = [1] ∧ st.env.program.operands 2 = [6, 0] ∧
      st.env.program.operands 3 = [6] ∧
      Unrelinearized st.env.program st.env.type 1 ∧
      ¬ Unrelinearized st.env.program st.env.type 6 ∧
      ¬ Unrelinearized st.env.program st.env.type 3 := by
  obtain ⟨st, h1, h2⟩ := lazyRelinearizer_no_unrelinearized relinSample
    (fun _ => TermType.Cipher) (fun _ => some 30) relinSample_wellFormed relinSample_acyclic
    relinSample_used 12 (by decide!)
  have hv : (forwardPass LazyRelinearizer.rewriter 12
      (LazyRelinearizer.init relinSample (fun _ => TermType.Cipher) (fun _ => some 30))).map
      (fun st => (st.env.program.nextTermIndex, st.env.program.op 6,
        st.env.program.operands 6, st.env.program.operands 2)) = some (7, Op.Relinearize, [1],
          [6, 0]) := by decide!
  have hw : (forwardPass LazyRelinearizer.rewriter 12
      (LazyRelinearizer.init relinSample (fun _ => TermType.Cipher) (fun _ => some 30))).map
      (fun st => (st.env.program.operands 3, st.env.program.op 1, st.env.program.operands 1,
        st.env.program.operands 5)) = some ([6], Op.Mul, [0, 0], [3]) := by decide!
  have hy : (forwardPass LazyRelinearizer.rewriter 12
      (LazyRelinearizer.init relinSample (fun _ => TermType.Cipher) (fun _ => some 30))).map
      (fun st => (st.env.type 0, st.env.program.op 5, st.env.program.op 3))
      = some (TermType.Cipher, Op.Output, Op.Negate) := by
    decide!
  have h1a := h1
  rw [h1] at hv hw hy
  simp only [Option.map_some', Option.some.injEq, Prod.mk.injEq] at hv hw hy
  obtain ⟨v1, v2, v3, v4⟩ := hv
  obtain ⟨w1, w2, w3, w4⟩ := hw
  obtain ⟨y1, y2, y3⟩ := hy
  have hout : NeedsRelin st.env.program st.env.type 5 := Or.inr (Or.inr (Or.inr y2))
  refine ⟨st, h1a, v1, v2, v3, v4, w1, ?_, ?_, ?_⟩
  · refine Unrelinearized.mul 1 w2 (by rw [w3]; simp) ?_
    intro o ho
    rw [w3] at ho
    simp only [List.mem_cons, List.mem_singleton, List.not_mem_nil, or_false, or_self] at ho
    rw [ho]
    exact y1
  · intro hu
    have h3 : Unrelinearized st.env.program st.env.type 3 := by
      refine Unrelinearized.step 3 6 (by rw [w1]; simp) ?_ hu
      rw [y3]
      decide
    exact h2 5 3 (by rw [w4]; simp) hout h3
  · exact h2 5 3 (by rw [w4]; simp) hout

/-! ## The pass of `ConstantFolder` over a sparse constant -/

set_option maxHeartbeats 4000000 in
set_option maxRecDepth 100000 in
/-- C13: on `y = negate(c)` with vector size 4, where `c` is the sparse
constant of size 4 with the single pair `(0, 5)`, the pass of `ConstantFolder`
returns with no assertion violated and folds the `Negate` (term 1): the
`Negate` ends without uses and the output (term 2) reads the new `Constant`
(term 3), whose dense value is `[-5, -5, -5, -5]`, where the element-wise
negation of the operand expanded to the vector size is `[-5, 0, 0, 0]`: the
operand is expanded by `SparseConstantValue::expand`, which returns
`[5, 5, 5, 5]`.  On dense operands the constant the pass makes is the one
described: for `y = [1, 2] + [10, 20, 30, 40]` with vector size 4 it is
`[11, 22, 31, 42]`, and for `y = negate(add(const([1, 2]), const([3, 4])))`
with vector size 2 the output ends with a single operand, a `Constant` with
the values `[-4, -6]`. -/
theorem constantFolder_sparse_operand_not_tiled :
    (forwardPass ConstantFolder.rewriter 6
        { program := sparseFoldSample, scale := fun _ => none, ok := true }).map
      (fun st => (st.env.ok, st.env.program.uses 1, st.env.program.operands 2,
        st.env.program.op 3))
      = some (true, [], [3], Op.Constant) ∧
    (forwardPass ConstantFolder.rewriter 6
        { program := sparseFoldSample, scale := fun _ => none, ok := true }).map
      (fun st => AttributeList.getConstant (st.env.program.attributes 3))
      = some (some (ConstantValue.dense 4 [-5, -5, -5, -5])) ∧
    Program.constantValues sparseFoldSample 0 = some [5, 5, 5, 5] ∧
    specOperand sparseFoldSample 0 = some [5, 0, 0, 0] ∧
    specFolded sparseFoldSample 1 = some [-5, 0, 0, 0] ∧
    (forwardPass ConstantFolder.rewriter 8
        { program := denseFoldSample, scale := fun _ => none, ok := true }).map
      (fun st => (st.env.ok, st.env.program.uses 2, st.env.program.operands 3,
        AttributeList.getConstant (st.env.program.attributes 4)))
      = some (true, [], [4], some (ConstantValue.dense 4 [11, 22, 31, 42])) ∧
    specFolded denseFoldSample 2 = some [11, 22, 31, 42] ∧
    (forwardPass ConstantFolder.rewriter 10
        { program := foldSample, scale := fun _ => none, ok := true }).map
      (fun st => (st.env.program.operands 4, st.env.program.op 6,
        AttributeList.getConstant (st.env.program.attributes 6)))
      = some ([6], Op.Constant, some (ConstantValue.dense 2 [-4, -6])) := by
  refine ⟨?_, ?_, ?_, ?_, ?_, ?_, ?_, ?_⟩ <;> decide!

end EVA
